import Mathlib

/-!
# Thread maze: grid, builders and goal placement

A shallow embedding of `src/src/thread_maze.cc` (class `Thread_maze`) and of the
builders under `src/builders/`.  Coordinates are C++ `int`s and are modelled by
`Int`; the grid `maze_` is a total function from (row, col) to a `Square`, of
which only the cells inside the array `0 ≤ row < maze_row_size_`,
`0 ≤ col < maze_col_size_` are meaningful.
-/

namespace ThreadMaze

/-! ## Data model -/

/-- A grid position `Thread_maze::Point`: a (row, column) pair of C++ ints. -/
structure Point where
  row : Int
  col : Int
deriving DecidableEq, Repr

/-- Modelled from the spec: the bit layout of `Thread_maze::Square` (declared in
thread_maze.hh, which is not among the sources).  The spec describes a cell as
a record of disjoint bit ranges: four wall flags, the passage flag, the
visited-by-builder flag, the backtrack-direction field, the Start flag and the
Goal flag.  Each single-bit range is a `Bool` (`|= bit` sets it, `&= ~bit`
clears it, `& bit` reads it); the backtrack-direction field is the number held
in the bits under `markers_mask_`, already shifted down by `marker_shift_`.
The per-agent paint flags are the number held in the bits under `thread_mask_`
and the per-agent seen flags the number held in the bits under `cache_mask_`,
each shifted down to bit 0: bit `i` of either field belongs to agent `i`. -/
structure Square where
  north_wall : Bool := false
  east_wall : Bool := false
  south_wall : Bool := false
  west_wall : Bool := false
  path_bit : Bool := false
  builder_bit : Bool := false
  markers : Nat := 0
  start_bit : Bool := false
  finish_bit : Bool := false
  thread_paint : Nat := 0
  thread_cache : Nat := 0
deriving DecidableEq, Repr

/-- The maze object: `maze_row_size_`, `maze_col_size_` and the cell array `maze_`. -/
structure Maze where
  maze_row_size_ : Int
  maze_col_size_ : Int
  maze_ : Int → Int → Square

/-- The read-modify-write `maze_[row][col] = f(maze_[row][col])`. -/
def Maze.modify (m : Maze) (row col : Int) (f : Square → Square) : Maze :=
  { m with maze_ := fun r c => if r = row ∧ c = col then f (m.maze_ r c) else m.maze_ r c }

/-- The cell `(row, col)` lies inside the array. -/
def Maze.in_array (m : Maze) (row col : Int) : Prop :=
  0 ≤ row ∧ row < m.maze_row_size_ ∧ 0 ≤ col ∧ col < m.maze_col_size_

instance (m : Maze) (row col : Int) : Decidable (m.in_array row col) := by
  unfold Maze.in_array; infer_instance

/-- The cell lies strictly inside the perimeter ring, the test
`next.row > 0 && next.row < maze_row_size_ - 1 && next.col > 0 && next.col < maze_col_size_ - 1`
that every builder applies before it carves. -/
def Maze.within_perimeter (m : Maze) (row col : Int) : Prop :=
  0 < row ∧ row < m.maze_row_size_ - 1 ∧ 0 < col ∧ col < m.maze_col_size_ - 1

instance (m : Maze) (row col : Int) : Decidable (m.within_perimeter row col) := by
  unfold Maze.within_perimeter; infer_instance

/-- The cell lies on the outer ring of the array: row 0, the last row, column 0
or the last column. -/
def Maze.on_ring (m : Maze) (row col : Int) : Prop :=
  m.in_array row col ∧
    (row = 0 ∨ row = m.maze_row_size_ - 1 ∨ col = 0 ∨ col = m.maze_col_size_ - 1)

instance (m : Maze) (row col : Int) : Decidable (m.on_ring row col) := by
  unfold Maze.on_ring; infer_instance

/-- Modelled from the spec: the direction tables of thread_maze.hh (not among
the sources).  Solving moves in steps of 1 in the order north, east, south,
west. -/
def cardinal_directions_ : List Point :=
  [⟨-1, 0⟩, ⟨0, 1⟩, ⟨1, 0⟩, ⟨0, -1⟩]

/-- Modelled from the spec: generation moves in steps of 2 on the room lattice,
in the order north, east, south, west (thread_maze.hh is not among the sources). -/
def generate_directions_ : List Point :=
  [⟨-2, 0⟩, ⟨0, 2⟩, ⟨2, 0⟩, ⟨0, -2⟩]

/-- Modelled from the spec: the values of the backtrack-direction field
(thread_maze.hh is not among the sources): 0 is "no mark", the others name the
side the cell was carved from. -/
def from_north_ : Nat := 1

/-- Modelled from the spec: see `from_north_`. -/
def from_east_ : Nat := 2

/-- Modelled from the spec: see `from_north_`. -/
def from_south_ : Nat := 3

/-- Modelled from the spec: see `from_north_`. -/
def from_west_ : Nat := 4

/-- Modelled from the spec: `backtracking_marks_`, indexed by the
backtrack-direction field, is the two-cell step back toward the parent
(thread_maze.hh is not among the sources). -/
def backtracking_marks_ : List Point :=
  [⟨0, 0⟩, ⟨-2, 0⟩, ⟨0, 2⟩, ⟨2, 0⟩, ⟨0, -2⟩]

/-! ## Wall and path primitives (thread_maze.cc 269-284, 570-620) -/

/-- `Thread_maze::build_wall`: give the cell a wall flag toward every side on
which the array continues. -/
def build_wall (m : Maze) (row col : Int) : Maze :=
  m.modify row col fun s =>
    { s with
      north_wall := s.north_wall || decide (row - 1 ≥ 0)
      south_wall := s.south_wall || decide (row + 1 < m.maze_row_size_)
      west_wall := s.west_wall || decide (col - 1 ≥ 0)
      east_wall := s.east_wall || decide (col + 1 < m.maze_col_size_) }

/-- The four neighbour updates shared by `build_path` and `carve_path_walls`:
each in-array neighbour drops its wall flag facing `(row, col)`. -/
def clear_facing_walls (m : Maze) (row col : Int) : Maze :=
  let m1 := if row - 1 ≥ 0 then
    m.modify (row - 1) col fun s => { s with south_wall := false } else m
  let m2 := if row + 1 < m.maze_row_size_ then
    m1.modify (row + 1) col fun s => { s with north_wall := false } else m1
  let m3 := if col - 1 ≥ 0 then
    m2.modify row (col - 1) fun s => { s with east_wall := false } else m2
  if col + 1 < m.maze_col_size_ then
    m3.modify row (col + 1) fun s => { s with west_wall := false } else m3

/-- `Thread_maze::build_path`. -/
def build_path (m : Maze) (row col : Int) : Maze :=
  (clear_facing_walls m row col).modify row col fun s => { s with path_bit := true }

/-- `Thread_maze::carve_path_walls`. -/
def carve_path_walls (m : Maze) (row col : Int) : Maze :=
  ((m.modify row col fun s => { s with path_bit := true }) |>
    (clear_facing_walls · row col)).modify row col fun s => { s with builder_bit := true }

/-- The joint cell chosen by the `if` chain shared by `carve_path_markings`,
`build_with_marks` and `join_squares`: one step from `cur` toward `next`. -/
def wall_between (cur next : Point) : Point :=
  if next.row < cur.row then ⟨cur.row - 1, cur.col⟩
  else if next.row > cur.row then ⟨cur.row + 1, cur.col⟩
  else if next.col < cur.col then ⟨cur.row, cur.col - 1⟩
  else if next.col > cur.col then ⟨cur.row, cur.col + 1⟩
  else cur

/-- `maze_[row][col] |= mark` on the backtrack-direction field. -/
def or_marker (m : Maze) (row col : Int) (mark : Nat) : Maze :=
  m.modify row col fun s => { s with markers := s.markers ||| mark }

/-- `Thread_maze::carve_path_markings`. -/
def carve_path_markings (m : Maze) (cur next : Point) : Maze :=
  let m1 := carve_path_walls m cur.row cur.col
  let m2 :=
    if next.row < cur.row then or_marker m1 next.row next.col from_south_
    else if next.row > cur.row then or_marker m1 next.row next.col from_north_
    else if next.col < cur.col then or_marker m1 next.row next.col from_east_
    else if next.col > cur.col then or_marker m1 next.row next.col from_west_
    else m1
  let wall := wall_between cur next
  carve_path_walls (carve_path_walls m2 next.row next.col) wall.row wall.col

/-- The lambda `build_with_marks` of `generate_randomized_loop_erased_maze`. -/
def build_with_marks (m : Maze) (cur next : Point) : Maze :=
  let wall := wall_between cur next
  carve_path_walls (carve_path_walls (carve_path_walls m cur.row cur.col) next.row next.col)
    wall.row wall.col

/-- `maze_[row][col] |= builder_bit_`. -/
def set_builder (m : Maze) (row col : Int) : Maze :=
  m.modify row col fun s => { s with builder_bit := true }

/-- `Thread_maze::join_squares`. -/
def join_squares (m : Maze) (cur next : Point) : Maze :=
  let wall := wall_between cur next
  let m1 := set_builder (build_path m wall.row wall.col) wall.row wall.col
  set_builder (build_path m1 next.row next.col) next.row next.col

/-! ## Construction loops -/

/-- The loop `for (int row = lo; row < hi; row++) for (int col = clo; col < chi; col++) body`
over a rectangle of cells, in row-major order. -/
def for_cells (lo hi clo chi : Int) (body : Maze → Int → Int → Maze) (m : Maze) : Maze :=
  (List.range (hi - lo).toNat).foldl
    (fun m (i : Nat) =>
      (List.range (chi - clo).toNat).foldl (fun m (j : Nat) => body m (lo + i) (clo + j)) m) m

/-- The freshly allocated array of the constructor: every `Square` is 0. -/
def blank (rows cols : Int) : Maze :=
  { maze_row_size_ := rows, maze_col_size_ := cols, maze_ := fun _ _ => {} }

/-- The all-walls grid: `build_wall` on every cell of the blank array. -/
def all_walls (rows cols : Int) : Maze :=
  for_cells 0 rows 0 cols build_wall (blank rows cols)

/-- `Thread_maze::generate_arena`. -/
def generate_arena (m : Maze) : Maze :=
  for_cells 2 (m.maze_row_size_ - 2) 2 (m.maze_col_size_ - 2) build_path m

/-! ## The random source

`generator_` is a stream of raw numbers read through a cursor.  A draw of a
`std::uniform_int_distribution` or a `shuffle` consumes one raw number; every
value a draw can take in the program is the image of some raw number. -/

/-- A draw of `std::uniform_int_distribution<int>(lo, hi)`: the raw number
reduced into the closed range `[lo, hi]`. -/
def uniform_int (lo hi : Int) (raw : Nat) : Int := lo + (raw : Int) % (hi - lo + 1)

/-- The 24 orders a `shuffle` of the four direction indices can produce. -/
def direction_orders : List (List Nat) :=
  [[0, 1, 2, 3], [0, 1, 3, 2], [0, 2, 1, 3], [0, 2, 3, 1], [0, 3, 1, 2], [0, 3, 2, 1],
   [1, 0, 2, 3], [1, 0, 3, 2], [1, 2, 0, 3], [1, 2, 3, 0], [1, 3, 0, 2], [1, 3, 2, 0],
   [2, 0, 1, 3], [2, 0, 3, 1], [2, 1, 0, 3], [2, 1, 3, 0], [2, 3, 0, 1], [2, 3, 1, 0],
   [3, 0, 1, 2], [3, 0, 2, 1], [3, 1, 0, 2], [3, 1, 2, 0], [3, 2, 0, 1], [3, 2, 1, 0]]

/-- The content of `random_direction_indices` after
`shuffle(begin(random_direction_indices), end(random_direction_indices), generator_)`. -/
def shuffle (raw : Nat) : List Nat := direction_orders.getD (raw % 24) [0, 1, 2, 3]

/-- The point `cur + direction`. -/
def Point.step (cur direction : Point) : Point :=
  ⟨cur.row + direction.row, cur.col + direction.col⟩

/-! ## Randomized depth first search builder (thread_maze.cc 309-346) -/

/-- The `for` loop over the shuffled direction indices used by the depth first
and the grid builder: the first direction whose target lies within the
perimeter and carries no builder bit. -/
def find_unbuilt (m : Maze) (cur : Point) : List Nat → Option Point
  | [] => none
  | i :: rest =>
    let direction := generate_directions_.getD i ⟨0, 0⟩
    let next := cur.step direction
    if m.within_perimeter next.row next.col ∧ (m.maze_ next.row next.col).builder_bit = false
    then some direction
    else find_unbuilt m cur rest

/-- The variables of `generate_randomized_dfs_maze` that live across loop
iterations, with the cursor `pos` into the random source. -/
structure Dfs_state where
  maze : Maze
  start_ : Point
  cur : Point
  branches_remain : Bool
  pos : Nat

/-- `maze_[row][col] &= ~markers_mask_`. -/
def clear_markers (m : Maze) (row col : Int) : Maze :=
  m.modify row col fun s => { s with markers := 0 }

/-- One iteration of `while (branches_remain)` in `generate_randomized_dfs_maze`. -/
def dfs_iteration (gen : Nat → Nat) (s : Dfs_state) : Dfs_state :=
  match find_unbuilt s.maze s.cur (shuffle (gen s.pos)) with
  | some direction =>
    let next := s.cur.step direction
    { s with maze := carve_path_markings s.maze s.cur next, cur := next,
             branches_remain := true, pos := s.pos + 1 }
  | none =>
    if s.cur ≠ s.start_ then
      let dir := (s.maze.maze_ s.cur.row s.cur.col).markers
      let next := s.cur.step (backtracking_marks_.getD dir ⟨0, 0⟩)
      { s with maze := clear_markers s.maze s.cur.row s.cur.col, cur := next,
               branches_remain := true, pos := s.pos + 1 }
    else { s with branches_remain := false, pos := s.pos + 1 }

/-- The loop `while (branches_remain)` run for at most `fuel` iterations. -/
def dfs_loop (gen : Nat → Nat) : Nat → Dfs_state → Dfs_state
  | 0, s => s
  | fuel + 1, s => if s.branches_remain then dfs_loop gen fuel (dfs_iteration gen s) else s

/-- The state of `generate_randomized_dfs_maze` on entry to its loop. -/
def dfs_init (gen : Nat → Nat) (m : Maze) (pos : Nat) : Dfs_state :=
  let start : Point :=
    ⟨uniform_int 1 (m.maze_row_size_ - 2) (gen pos),
     uniform_int 1 (m.maze_col_size_ - 2) (gen (pos + 1))⟩
  { maze := clear_markers m start.row start.col, start_ := start, cur := start,
    branches_remain := true, pos := pos + 2 }

/-- `Thread_maze::generate_randomized_dfs_maze`, its loop cut off after `fuel`
iterations; the function has returned when `branches_remain` is false. -/
def generate_randomized_dfs_maze (gen : Nat → Nat) (fuel : Nat) (m : Maze) (pos : Nat) :
    Dfs_state :=
  dfs_loop gen fuel (dfs_init gen m pos)

/-! ## Loop-erased random walk builder (thread_maze.cc 130-267) -/

/-- The candidate cells of `choose_arbitrary_point`, in scan order: rows and
columns `init, init + 2, ...` below `maze_row_size_ - 1` and `maze_col_size_ - 1`. -/
def lattice_scan (m : Maze) (init : Int) : List Point :=
  (List.range ((m.maze_row_size_ - 1 - init + 1) / 2).toNat).flatMap fun (i : Nat) =>
    (List.range ((m.maze_col_size_ - 1 - init + 1) / 2).toNat).map fun (j : Nat) =>
      (⟨init + 2 * i, init + 2 * j⟩ : Point)

/-- The lambda `choose_arbitrary_point` for `Wilson_point::odd` (`init = 1`) or
`Wilson_point::even` (`init = 2`): the first lattice cell without the builder
bit, or `{0,0}`. -/
def choose_arbitrary_point (m : Maze) (init : Int) : Point :=
  ((lattice_scan m init).find? fun p => !(m.maze_ p.row p.col).builder_bit).getD ⟨0, 0⟩

/-- The lambda `mark_origin`. -/
def mark_origin (m : Maze) (walk next : Point) : Maze :=
  if next.row > walk.row then or_marker m next.row next.col from_north_
  else if next.row < walk.row then or_marker m next.row next.col from_south_
  else if next.col < walk.col then or_marker m next.row next.col from_east_
  else if next.col > walk.col then or_marker m next.row next.col from_west_
  else m

/-- `maze_[row][col] &= ~start_bit_`. -/
def clear_start (m : Maze) (row col : Int) : Maze :=
  m.modify row col fun s => { s with start_bit := false }

/-- Where control stands in `generate_randomized_loop_erased_maze`: at the top
of `while (true)`, inside the loop of `connect_walk_to_maze`, inside the loop of
`erase_loop`, or past the `return`. -/
inductive Wilson_phase where
  | walking
  | connecting (cur : Point)
  | erasing (cur loop_root : Point)
  | returned
deriving DecidableEq, Repr

/-- The variables of `generate_randomized_loop_erased_maze`. -/
structure Wilson_state where
  maze : Maze
  walk : Point
  previous_square : Point
  phase : Wilson_phase
  pos : Nat

/-- The `for` loop over the shuffled indices in the random walk: the first
target that is inside the perimeter and is not `previous_square`. -/
def find_walk_step (m : Maze) (walk previous_square : Point) : List Nat → Option Point
  | [] => none
  | i :: rest =>
    let next := walk.step (generate_directions_.getD i ⟨0, 0⟩)
    if next.row ≤ 0 ∨ next.row ≥ m.maze_row_size_ - 1
        ∨ next.col ≤ 0 ∨ next.col ≥ m.maze_col_size_ - 1 ∨ next = previous_square
    then find_walk_step m walk previous_square rest
    else some next

/-- One loop iteration of `generate_randomized_loop_erased_maze`: an iteration
of `while (true)` up to the call of `connect_walk_to_maze` or `erase_loop`, or
one iteration of the loop inside those lambdas (with the code that follows the
loop when it exits). -/
def wilson_step (gen : Nat → Nat) (s : Wilson_state) : Wilson_state :=
  match s.phase with
  | .walking =>
    let m := s.maze.modify s.walk.row s.walk.col fun q => { q with start_bit := true }
    match find_walk_step m s.walk s.previous_square (shuffle (gen s.pos)) with
    | none => { s with maze := m, pos := s.pos + 1 }
    | some next =>
      if (m.maze_ next.row next.col).builder_bit then
        { s with maze := build_with_marks m s.walk next, phase := .connecting s.walk,
                 pos := s.pos + 1 }
      else if (m.maze_ next.row next.col).start_bit then
        { s with maze := m, phase := .erasing s.walk next, pos := s.pos + 1 }
      else
        { s with maze := mark_origin m s.walk next, previous_square := s.walk, walk := next,
                 pos := s.pos + 1 }
  | .connecting cur =>
    if (s.maze.maze_ cur.row cur.col).markers ≠ 0 then
      let m1 := clear_start s.maze cur.row cur.col
      let mark := (m1.maze_ cur.row cur.col).markers
      let next := cur.step (backtracking_marks_.getD mark ⟨0, 0⟩)
      let m2 := build_with_marks m1 cur next
      { s with maze := clear_markers m2 cur.row cur.col, phase := .connecting next }
    else
      let m1 := clear_markers (clear_start s.maze cur.row cur.col) cur.row cur.col
      let m2 := carve_path_walls m1 cur.row cur.col
      let walk := choose_arbitrary_point m2 1
      if walk.row = 0 then { s with maze := m2, walk := walk, phase := .returned }
      else
        { s with maze := clear_markers m2 walk.row walk.col, walk := walk,
                 previous_square := ⟨0, 0⟩, phase := .walking }
  | .erasing cur loop_root =>
    if cur ≠ loop_root then
      let m1 := clear_start s.maze cur.row cur.col
      let mark := (m1.maze_ cur.row cur.col).markers
      let next := cur.step (backtracking_marks_.getD mark ⟨0, 0⟩)
      { s with maze := clear_markers m1 cur.row cur.col, phase := .erasing next loop_root }
    else
      let mark := (s.maze.maze_ loop_root.row loop_root.col).markers
      { s with walk := loop_root,
               previous_square := loop_root.step (backtracking_marks_.getD mark ⟨0, 0⟩),
               phase := .walking }
  | .returned => s

/-- The state of `generate_randomized_loop_erased_maze` on entry to `while (true)`. -/
def wilson_init (m : Maze) (pos : Nat) : Wilson_state :=
  let r := m.maze_row_size_ / 2
  let c := m.maze_col_size_ / 2
  let start : Point := ⟨if r % 2 = 0 then r + 1 else r, if c % 2 = 0 then c + 1 else c⟩
  let m1 := set_builder (build_path m start.row start.col) start.row start.col
  { maze := clear_markers m1 1 1, walk := ⟨1, 1⟩, previous_square := ⟨0, 0⟩,
    phase := .walking, pos := pos }

/-- `Thread_maze::generate_randomized_loop_erased_maze` cut off after `fuel`
loop iterations; it has returned when the phase is `returned`. -/
def generate_randomized_loop_erased_maze (gen : Nat → Nat) (fuel : Nat) (m : Maze)
    (pos : Nat) : Wilson_state :=
  (wilson_step gen)^[fuel] (wilson_init m pos)

/-! ## Recursive subdivision builder (thread_maze.cc 349-449) -/

/-- The lambda `connect_wall`. -/
def connect_wall (m : Maze) (row col : Int) : Maze :=
  let n := decide (row - 1 ≥ 0) && !(m.maze_ (row - 1) col).path_bit
  let m1 := if n then m.modify (row - 1) col fun s => { s with south_wall := true } else m
  let so := decide (row + 1 < m.maze_row_size_) && !(m1.maze_ (row + 1) col).path_bit
  let m2 := if so then m1.modify (row + 1) col fun s => { s with north_wall := true } else m1
  let w := decide (col - 1 ≥ 0) && !(m2.maze_ row (col - 1)).path_bit
  let m3 := if w then m2.modify row (col - 1) fun s => { s with east_wall := true } else m2
  let e := decide (col + 1 < m.maze_col_size_) && !(m3.maze_ row (col + 1)).path_bit
  let m4 := if e then m3.modify row (col + 1) fun s => { s with west_wall := true } else m3
  m4.modify row col fun s =>
    { s with north_wall := s.north_wall || n, south_wall := s.south_wall || so,
             west_wall := s.west_wall || w, east_wall := s.east_wall || e }

/-- The lambda `choose_division`, on the raw number its distribution draws. -/
def choose_division (axis_limit : Int) (raw : Nat) : Int :=
  let divide := uniform_int 1 (axis_limit - 2) raw
  let divide := if divide % 2 ≠ 0 then divide + 1 else divide
  if divide ≥ axis_limit - 1 then divide - 2 else divide

/-- The lambda `choose_passage`, on the raw number its distribution draws. -/
def choose_passage (axis_limit : Int) (raw : Nat) : Int :=
  let passage := uniform_int 1 (axis_limit - 2) raw
  let passage := if passage % 2 = 0 then passage + 1 else passage
  if passage ≥ axis_limit - 1 then passage - 2 else passage

/-- An entry `std::tuple<Point,Height,Width>` of the chamber stack. -/
structure Chamber where
  offset : Point
  height : Int
  width : Int
deriving DecidableEq, Repr

/-- The body of a wall-drawing `for` loop of the subdivision: the cell loses its
path bit and is connected to the neighbouring walls. -/
def wall_off (m : Maze) (row col : Int) : Maze :=
  connect_wall (m.modify row col fun s => { s with path_bit := false }) row col

/-- The loop `for (int col = 0; col < chamber_width; col++)` drawing a
horizontal wall with one passage. -/
def wall_row (m : Maze) (row col0 width passage : Int) : Maze :=
  (List.range width.toNat).foldl
    (fun m (j : Nat) => if (j : Int) ≠ passage then wall_off m row (col0 + j) else m) m

/-- The loop `for (int row = 0; row < chamber_height; row++)` drawing a
vertical wall with one passage. -/
def wall_col (m : Maze) (row0 col height passage : Int) : Maze :=
  (List.range height.toNat).foldl
    (fun m (i : Nat) => if (i : Int) ≠ passage then wall_off m (row0 + i) col else m) m

/-- The variables of `generate_randomized_fractal_maze` inside its `while` loop;
the head of `chamber_stack` is the top of the stack. -/
structure Fractal_state where
  maze : Maze
  chamber_stack : List Chamber
  pos : Nat

/-- One iteration of `while (!chamber_stack.empty())`. -/
def fractal_iteration (gen : Nat → Nat) (s : Fractal_state) : Fractal_state :=
  match s.chamber_stack with
  | [] => s
  | chamber :: rest =>
    if chamber.height ≥ chamber.width ∧ chamber.width > 3 then
      let divide := choose_division chamber.height (gen s.pos)
      let passage := choose_passage chamber.width (gen (s.pos + 1))
      { maze := wall_row s.maze (chamber.offset.row + divide) chamber.offset.col
                  chamber.width passage
        chamber_stack :=
          ⟨⟨chamber.offset.row + divide, chamber.offset.col⟩,
            chamber.height - divide, chamber.width⟩
            :: { chamber with height := divide + 1 } :: rest
        pos := s.pos + 2 }
    else if chamber.width > chamber.height ∧ chamber.height > 3 then
      let divide := choose_division chamber.width (gen s.pos)
      let passage := choose_passage chamber.height (gen (s.pos + 1))
      { maze := wall_col s.maze chamber.offset.row (chamber.offset.col + divide)
                  chamber.height passage
        chamber_stack :=
          ⟨⟨chamber.offset.row, chamber.offset.col + divide⟩,
            chamber.height, chamber.width - divide⟩
            :: { chamber with width := divide + 1 } :: rest
        pos := s.pos + 2 }
    else { s with chamber_stack := rest }

/-- The state of `generate_randomized_fractal_maze` on entry to its `while`
loop: every cell inside the perimeter is a path, one chamber covers the grid. -/
def fractal_init (m : Maze) (pos : Nat) : Fractal_state :=
  { maze := for_cells 1 (m.maze_row_size_ - 1) 1 (m.maze_col_size_ - 1) build_path m
    chamber_stack := [⟨⟨0, 0⟩, m.maze_row_size_, m.maze_col_size_⟩]
    pos := pos }

/-- `Thread_maze::generate_randomized_fractal_maze` cut off after `fuel` loop
iterations; it has returned when the chamber stack is empty. -/
def generate_randomized_fractal_maze (gen : Nat → Nat) (fuel : Nat) (m : Maze) (pos : Nat) :
    Fractal_state :=
  (fractal_iteration gen)^[fuel] (fractal_init m pos)

/-! ## Randomized grid builder (thread_maze.cc 451-504) -/

/-- The lambda `complete_run`; `left` is `run_limit - cur_run`, the head of
`dfs` is the top of the stack. -/
def complete_run (direction : Point) :
    Nat → Maze → List Point → Point → Point → Maze × List Point
  | 0, m, dfs, _, _ => (m, dfs)
  | left + 1, m, dfs, cur, next =>
    if next.row < m.maze_row_size_ - 1 ∧ next.col < m.maze_col_size_ - 1
        ∧ next.row > 0 ∧ next.col > 0 then
      let m1 := join_squares (set_builder m cur.row cur.col) cur next
      complete_run direction left (set_builder m1 next.row next.col) (next :: dfs) next
        (next.step direction)
    else (m, dfs)

/-- The constant `run_limit` of `complete_run`. -/
def run_limit : Nat := 4

/-- The variables of `generate_randomized_grid` inside its `while` loop. -/
structure Grid_state where
  maze : Maze
  dfs : List Point
  pos : Nat

/-- One iteration of `while (!dfs.empty())` in `generate_randomized_grid`. -/
def grid_iteration (gen : Nat → Nat) (s : Grid_state) : Grid_state :=
  match s.dfs with
  | [] => s
  | cur :: rest =>
    let m := set_builder (build_path s.maze cur.row cur.col) cur.row cur.col
    match find_unbuilt m cur (shuffle (gen s.pos)) with
    | some direction =>
      let r := complete_run direction run_limit m (cur :: rest) cur (cur.step direction)
      { maze := r.1, dfs := r.2, pos := s.pos + 1 }
    | none => { maze := m, dfs := rest, pos := s.pos + 1 }

/-- The state of `generate_randomized_grid` on entry to its `while` loop. -/
def grid_init (gen : Nat → Nat) (m : Maze) (pos : Nat) : Grid_state :=
  { maze := m
    dfs := [⟨uniform_int 1 (m.maze_row_size_ - 2) (gen pos),
             uniform_int 1 (m.maze_col_size_ - 2) (gen (pos + 1))⟩]
    pos := pos + 2 }

/-- `Thread_maze::generate_randomized_grid` cut off after `fuel` loop
iterations; it has returned when the stack `dfs` is empty. -/
def generate_randomized_grid (gen : Nat → Nat) (fuel : Nat) (m : Maze) (pos : Nat) :
    Grid_state :=
  (grid_iteration gen)^[fuel] (grid_init gen m pos)

/-! ## Construction (thread_maze.cc 18-128) -/

/-- `Thread_maze::Builder_algorithm`. -/
inductive Builder_algorithm where
  | randomized_depth_first
  | randomized_loop_erased
  | randomized_fractal
  | randomized_grid
  | arena
deriving DecidableEq, Repr

/-- `Thread_maze::Maze_modification`, without `add_x`, whose diagonal is
computed in floating point and is left out of this development. -/
inductive Maze_modification where
  | none
  | add_cross
deriving DecidableEq, Repr

/-- `Thread_maze::Maze_game`. -/
inductive Maze_game where
  | hunt
  | gather
  | corners
deriving DecidableEq, Repr

/-- `Thread_maze::add_modification` (the branches for `none` and `add_cross`). -/
def add_modification (modification_ : Maze_modification) (m : Maze) (row col : Int) : Maze :=
  match modification_ with
  | .add_cross =>
    if (row = m.maze_row_size_ / 2 ∧ col > 1 ∧ col < m.maze_col_size_ - 2)
        ∨ (col = m.maze_col_size_ / 2 ∧ row > 1 ∧ row < m.maze_row_size_ - 2) then
      let m1 := build_path m row col
      if col + 1 < m.maze_col_size_ - 2 then build_path m1 row (col + 1) else m1
    else m
  | .none => m

/-- The cell loop of the constructor `Thread_maze::Thread_maze`: `build_wall`
on every cell, followed at once by `add_modification` unless the builder is the
subdivision. -/
def construct_walls (builder_ : Builder_algorithm) (modification_ : Maze_modification)
    (rows cols : Int) : Maze :=
  for_cells 0 rows 0 cols
    (fun m row col =>
      let m1 := build_wall m row col
      if builder_ ≠ .randomized_fractal then add_modification modification_ m1 row col else m1)
    (blank rows cols)

/-- The builder branch of `Thread_maze::generate_maze`, every loop cut off after
`fuel` iterations: the grid, the cursor of the random source and whether the
builder has returned. -/
def run_builder (algorithm : Builder_algorithm) (modification_ : Maze_modification)
    (gen : Nat → Nat) (fuel : Nat) (m : Maze) (pos : Nat) : Maze × Nat × Bool :=
  match algorithm with
  | .randomized_depth_first =>
    let s := generate_randomized_dfs_maze gen fuel m pos
    (s.maze, s.pos, !s.branches_remain)
  | .randomized_loop_erased =>
    let s := generate_randomized_loop_erased_maze gen fuel m pos
    (s.maze, s.pos, decide (s.phase = .returned))
  | .arena => (generate_arena m, pos, true)
  | .randomized_grid =>
    let s := generate_randomized_grid gen fuel m pos
    (s.maze, s.pos, s.dfs.isEmpty)
  | .randomized_fractal =>
    let s := generate_randomized_fractal_maze gen fuel m pos
    let m1 := if modification_ ≠ .none then
      for_cells 0 m.maze_row_size_ 0 m.maze_col_size_ (add_modification modification_) s.maze
      else s.maze
    (m1, s.pos, s.chamber_stack.isEmpty)

/-! ## Start and finish placement (thread_maze.cc 514-568, 622-634) -/

/-- The constant `trouble_limit` of `pick_random_point`. -/
def trouble_limit : Nat := 19

/-- `Thread_maze::pick_random_point` with `left` attempts to go: the chosen
point and the advanced cursor, or `none` when the function aborts. -/
def pick_random_point (gen : Nat → Nat) (m : Maze) : Nat → Nat → Option (Point × Nat)
  | 0, _ => none
  | left + 1, pos =>
    let choice : Point :=
      ⟨uniform_int 1 (m.maze_row_size_ - 2) (gen pos),
       uniform_int 1 (m.maze_col_size_ - 2) (gen (pos + 1))⟩
    if (m.maze_ choice.row choice.col).path_bit
        ∧ ¬ (m.maze_ choice.row choice.col).finish_bit
        ∧ ¬ (m.maze_ choice.row choice.col).start_bit then
      some (choice, pos + 2)
    else pick_random_point gen m left (pos + 2)

/-- The members `start_`, `finish_` and `corner_starts_` of the maze object. -/
structure Marks where
  start_ : Point := ⟨0, 0⟩
  finish_ : Point := ⟨0, 0⟩
  corner_starts_ : List Point := [⟨0, 0⟩, ⟨0, 0⟩, ⟨0, 0⟩, ⟨0, 0⟩]
deriving DecidableEq, Repr

/-- `maze_[row][col] |= start_bit_`. -/
def set_start (m : Maze) (row col : Int) : Maze :=
  m.modify row col fun s => { s with start_bit := true }

/-- `maze_[row][col] |= finish_bit_`. -/
def set_finish (m : Maze) (row col : Int) : Maze :=
  m.modify row col fun s => { s with finish_bit := true }

/-- Rows `1 .. maze_row_size_ - 2` in ascending order (`descending = false`) or
descending order, as the outer `for` loops of the corner scans visit them. -/
def scan_rows (m : Maze) (descending : Bool) : List Int :=
  let rows := (List.range (m.maze_row_size_ - 2).toNat).map fun (i : Nat) => (1 + i : Int)
  if descending then rows.reverse else rows

/-- One corner scan of `place_start_finish`: the first cell in scan order that
carries the path bit receives the start bit and is stored in slot `index` of
`corner_starts_`. -/
def scan_corner (m : Maze) (marks : Marks) (index : Nat) (cells : List Point) : Maze × Marks :=
  match cells.find? fun p => (m.maze_ p.row p.col).path_bit with
  | some p =>
    (set_start m p.row p.col, { marks with corner_starts_ := marks.corner_starts_.set index p })
  | none => (m, marks)

/-- The columns visited by the inner loop of the four corner scans. -/
def scan_cols (m : Maze) (index : Nat) : List Int :=
  match index with
  | 0 => (List.range (m.maze_col_size_ - 1).toNat).map fun (j : Nat) => (1 + j : Int)
  | 2 => (List.range (m.maze_col_size_ - 2).toNat).map fun (j : Nat) => (j : Int)
  | _ => ((List.range (m.maze_col_size_ - 2).toNat).map fun (j : Nat) => (1 + j : Int)).reverse

/-- The cells of corner scan `index` (0 top left, 1 top right, 2 bottom left,
3 bottom right) in the order the nested loops read them. -/
def corner_cells (m : Maze) (index : Nat) : List Point :=
  (scan_rows m (decide (2 ≤ index))).flatMap fun row =>
    (scan_cols m index).map fun col => (⟨row, col⟩ : Point)

/-- The loop `for (placement = 0; placement < num_finishes; placement++)`. -/
def place_finishes (gen : Nat → Nat) :
    Nat → Maze → Marks → Nat → Option (Maze × Marks × Nat)
  | 0, m, marks, pos => some (m, marks, pos)
  | left + 1, m, marks, pos =>
    match pick_random_point gen m trouble_limit pos with
    | none => none
    | some (finish, pos1) =>
      place_finishes gen left (set_finish m finish.row finish.col)
        { marks with finish_ := finish } pos1

/-- `Thread_maze::place_start_finish`; `none` when `pick_random_point` aborts. -/
def place_start_finish (game_ : Maze_game) (gen : Nat → Nat) (m : Maze) (marks : Marks)
    (pos : Nat) : Option (Maze × Marks × Nat) :=
  if game_ = .corners then
    let r0 := scan_corner m marks 0 (corner_cells m 0)
    let r1 := scan_corner r0.1 r0.2 1 (corner_cells m 1)
    let r2 := scan_corner r1.1 r1.2 2 (corner_cells m 2)
    let r3 := scan_corner r2.1 r2.2 3 (corner_cells m 3)
    let row := m.maze_row_size_ / 2
    let col := m.maze_col_size_ / 2
    let m1 := r3.1.modify row col fun s => { s with path_bit := true }
    some (set_finish m1 row col, { r3.2 with finish_ := ⟨row, col⟩ }, pos)
  else
    match pick_random_point gen m trouble_limit pos with
    | none => none
    | some (start, pos1) =>
      place_finishes gen (if game_ = .gather then 4 else 1) (set_start m start.row start.col)
        { marks with start_ := start } pos1

/-- The constructor `Thread_maze::Thread_maze` followed by `generate_maze`:
the cell loop, the builder with every loop cut off after `fuel` iterations,
then `place_start_finish`.  `none` when placement aborts. -/
def Thread_maze (builder_ : Builder_algorithm) (modification_ : Maze_modification)
    (game_ : Maze_game) (rows cols : Int) (gen : Nat → Nat) (fuel : Nat) :
    Option (Maze × Marks × Nat) :=
  let m := construct_walls builder_ modification_ rows cols
  let r := run_builder builder_ modification_ gen fuel m 0
  place_start_finish game_ gen r.1 {} r.2.1


/-! ## Invariants of the grid -/

/-- A side of a cell. -/
inductive Side where
  | north | east | south | west
deriving DecidableEq, Repr

/-- The row offset of the neighbour on a side. -/
def Side.row : Side → Int
  | .north => -1
  | .south => 1
  | _ => 0

/-- The column offset of the neighbour on a side. -/
def Side.col : Side → Int
  | .east => 1
  | .west => -1
  | _ => 0

/-- The side facing back. -/
def Side.opposite : Side → Side
  | .north => .south
  | .south => .north
  | .east => .west
  | .west => .east

/-- The wall flag of a square on a side. -/
def Square.wall (s : Square) : Side → Bool
  | .north => s.north_wall
  | .east => s.east_wall
  | .south => s.south_wall
  | .west => s.west_wall

/-- The passage flag of a cell. -/
def Maze.path (m : Maze) (row col : Int) : Bool := (m.maze_ row col).path_bit

/-- The wall flag of a cell on a side. -/
def Maze.wall (m : Maze) (row col : Int) (side : Side) : Bool := (m.maze_ row col).wall side

/-- Perimeter closure: no cell of the outer ring carries the passage flag. -/
def Perimeter_closed (m : Maze) : Prop :=
  ∀ row col, m.on_ring row col → m.path row col = false

/-- The meaning of the wall flags that every builder maintains: a wall flag only
ever faces a cell of the array that is not a path, and a cell that is not a
path has a wall flag toward every such neighbour. -/
def Wall_inv (m : Maze) : Prop :=
  ∀ row col side, m.in_array row col →
    (m.wall row col side = true →
      m.in_array (row + side.row) (col + side.col)
        ∧ m.path (row + side.row) (col + side.col) = false)
    ∧ (m.path row col = false → m.in_array (row + side.row) (col + side.col) →
        m.path (row + side.row) (col + side.col) = false → m.wall row col side = true)

/-- A property of grids kept by the operations the builders are made of:
`build_path` and `carve_path_walls` on a cell within the perimeter, the wall
drawing step of the subdivision on a cell of the array, and any update of one
cell that leaves its passage flag and wall flags alone. -/
structure Carve_stable (P : Maze → Prop) : Prop where
  build_path : ∀ m r c, m.within_perimeter r c → P m → P (build_path m r c)
  carve_path_walls : ∀ m r c, m.within_perimeter r c → P m → P (carve_path_walls m r c)
  wall_off : ∀ m r c, m.in_array r c → P m → P (wall_off m r c)
  frame : ∀ m r c (f : Square → Square),
    (∀ s, (f s).path_bit = s.path_bit ∧ ∀ side, (f s).wall side = s.wall side) →
    P m → P (m.modify r c f)

/-- The mark that `carve_path_markings` and `mark_origin` put on `next`: the side
of `next` on which `cur` lies (0 when the two cells coincide). -/
def mark_from (cur next : Point) : Nat :=
  if next.row < cur.row then from_south_
  else if next.row > cur.row then from_north_
  else if next.col < cur.col then from_east_
  else if next.col > cur.col then from_west_
  else 0

/-- Every backtrack-direction field of a cell within the perimeter leads to a
cell within the perimeter. -/
def Marks_ok (m : Maze) : Prop :=
  ∀ r c, m.within_perimeter r c →
    m.within_perimeter
      (r + (backtracking_marks_.getD (m.maze_ r c).markers ⟨0, 0⟩).row)
      (c + (backtracking_marks_.getD (m.maze_ r c).markers ⟨0, 0⟩).col)

/-- What keeps the depth first builder inside the perimeter: its current cell
and start lie within the perimeter, marks lead to cells within the perimeter,
and a cell without the builder bit has no mark. -/
def Dfs_safe (s : Dfs_state) : Prop :=
  s.maze.within_perimeter s.cur.row s.cur.col
    ∧ s.maze.within_perimeter s.start_.row s.start_.col
    ∧ Marks_ok s.maze
    ∧ ∀ r c, s.maze.within_perimeter r c → (s.maze.maze_ r c).builder_bit = false →
        (s.maze.maze_ r c).markers = 0

/-- What keeps the loop-erased walk inside the perimeter: until the builder
returns the walk is within the perimeter, so are the cells its inner loops
stand on, marks lead to cells within the perimeter, and a marked cell carries
the start bit or the builder bit unless it is the cell the walk just reached. -/
def Wilson_safe (s : Wilson_state) : Prop :=
  (s.phase ≠ .returned → s.maze.within_perimeter s.walk.row s.walk.col)
    ∧ Marks_ok s.maze
    ∧ (∀ r c, s.maze.within_perimeter r c → (s.maze.maze_ r c).markers ≠ 0 →
        (s.maze.maze_ r c).start_bit = true ∨ (s.maze.maze_ r c).builder_bit = true
          ∨ (s.phase = .walking ∧ r = s.walk.row ∧ c = s.walk.col))
    ∧ (∀ cur, s.phase = .connecting cur → s.maze.within_perimeter cur.row cur.col)
    ∧ (∀ cur loop_root, s.phase = .erasing cur loop_root →
        s.maze.within_perimeter cur.row cur.col
          ∧ s.maze.within_perimeter loop_root.row loop_root.col)

/-- Every chamber on the stack of the subdivision lies inside the array. -/
def Fractal_safe (s : Fractal_state) : Prop :=
  ∀ ch ∈ s.chamber_stack,
    0 ≤ ch.offset.row ∧ 0 ≤ ch.offset.col
      ∧ ch.offset.row + ch.height ≤ s.maze.maze_row_size_
      ∧ ch.offset.col + ch.width ≤ s.maze.maze_col_size_

/-- Every cell on the stack of the grid builder lies within the perimeter. -/
def Grid_safe (s : Grid_state) : Prop :=
  ∀ p ∈ s.dfs, s.maze.within_perimeter p.row p.col

/-- The cell halfway between two cells that lie two steps apart: the joint
between two lattice-adjacent rooms. -/
def midpoint (a b : Point) : Point := ⟨(a.row + b.row) / 2, (a.col + b.col) / 2⟩

/-- The grid after `build_wall` on every cell and `fuel` loop iterations of a
builder, with no modification. -/
def built_grid (algorithm : Builder_algorithm) (gen : Nat → Nat) (fuel : Nat)
    (rows cols : Int) : Maze :=
  (run_builder algorithm .none gen fuel (all_walls rows cols) 0).1

/-! ## Rooms, links and reachability -/

/-- A room cell: odd row and odd column, within the perimeter. -/
def Maze.room (m : Maze) (p : Point) : Prop :=
  m.within_perimeter p.row p.col ∧ p.row % 2 = 1 ∧ p.col % 2 = 1

instance (m : Maze) (p : Point) : Decidable (m.room p) := by
  unfold Maze.room; infer_instance

/-- Two lattice-adjacent room cells whose joint cell is carved: an edge of the
carved room-cell graph. -/
def Maze.link (m : Maze) (a b : Point) : Prop :=
  m.room a ∧ m.room b ∧ (∃ d ∈ generate_directions_, b = a.step d)
    ∧ m.path (midpoint a b).row (midpoint a b).col = true

/-- Two room cells joined by a chain of carved joints. -/
def Maze.room_connected (m : Maze) (a b : Point) : Prop :=
  Relation.ReflTransGen m.link a b

/-- One move of a solver: between two cardinally adjacent cells that both carry
the passage flag. -/
def Maze.passable_step (m : Maze) (a b : Point) : Prop :=
  m.path a.row a.col = true ∧ m.path b.row b.col = true
    ∧ ∃ d ∈ cardinal_directions_, b = a.step d

/-- Cell `b` can be reached from cell `a` through cardinally adjacent passable
cells. -/
def Maze.reachable (m : Maze) (a b : Point) : Prop :=
  Relation.ReflTransGen m.passable_step a b

/-- The cell lies in the rectangle of a chamber, its bounding lines included. -/
def Chamber.covers (ch : Chamber) (r c : Int) : Prop :=
  ch.offset.row ≤ r ∧ r < ch.offset.row + ch.height
    ∧ ch.offset.col ≤ c ∧ c < ch.offset.col + ch.width

/-- The cell lies strictly inside the bounding lines of a chamber. -/
def Chamber.encloses (ch : Chamber) (r c : Int) : Prop :=
  ch.offset.row < r ∧ r < ch.offset.row + ch.height - 1
    ∧ ch.offset.col < c ∧ c < ch.offset.col + ch.width - 1

/-- A chamber of the subdivision is well formed: even offsets, odd extents of
at least 3, inside the array. -/
def Chamber.well_formed (ch : Chamber) (m : Maze) : Prop :=
  0 ≤ ch.offset.row ∧ 0 ≤ ch.offset.col ∧ ch.offset.row % 2 = 0 ∧ ch.offset.col % 2 = 0
    ∧ 3 ≤ ch.height ∧ 3 ≤ ch.width ∧ ch.height % 2 = 1 ∧ ch.width % 2 = 1
    ∧ ch.offset.row + ch.height ≤ m.maze_row_size_
    ∧ ch.offset.col + ch.width ≤ m.maze_col_size_

/-- Two chambers overlap at most on their bounding lines. -/
def Chamber.apart (a b : Chamber) : Prop :=
  ∀ r c, ¬ (a.covers r c ∧ b.encloses r c) ∧ ¬ (b.covers r c ∧ a.encloses r c)

/-- The invariant of the subdivision loop: the chambers on the stack are well
formed, overlap at most on their bounding lines and are still open inside;
every room cell is a path and any two room cells are joined by carved joints. -/
def Fractal_inv (s : Fractal_state) : Prop :=
  (∀ ch ∈ s.chamber_stack, ch.well_formed s.maze)
    ∧ s.chamber_stack.Pairwise Chamber.apart
    ∧ (∀ ch ∈ s.chamber_stack, ∀ r c, ch.encloses r c → s.maze.path r c = true)
    ∧ (∀ p, s.maze.room p → s.maze.path p.row p.col = true)
    ∧ ∀ a b, s.maze.room a → s.maze.room b → s.maze.room_connected a b

/-- The number of iterations a chamber can still cause: twice the area strictly
inside it, plus one. -/
def Chamber.weight (ch : Chamber) : Nat :=
  2 * ((ch.height - 2).toNat * (ch.width - 2).toNat) + 1

/-! ## The carved graph over a lattice of cells -/

/-- A cell of the lattice through `s`: within the perimeter, an even number of
rows and of columns away from `s`. For `s = (1, 1)` these are the room cells. -/
def Maze.cell_of (m : Maze) (s p : Point) : Prop :=
  m.within_perimeter p.row p.col ∧ (p.row - s.row) % 2 = 0 ∧ (p.col - s.col) % 2 = 0

instance (m : Maze) (s p : Point) : Decidable (m.cell_of s p) := by
  unfold Maze.cell_of; infer_instance

/-- A joint cell of the lattice through `s`: the cell between two lattice cells
that lie two steps apart in a row or in a column. -/
def Maze.is_joint (m : Maze) (s j : Point) : Prop :=
  (m.cell_of s ⟨j.row, j.col - 1⟩ ∧ m.cell_of s ⟨j.row, j.col + 1⟩)
    ∨ (m.cell_of s ⟨j.row - 1, j.col⟩ ∧ m.cell_of s ⟨j.row + 1, j.col⟩)

instance (m : Maze) (s j : Point) : Decidable (m.is_joint s j) := by
  unfold Maze.is_joint; infer_instance

/-- An edge of the carved graph over the lattice through `s`: two lattice cells
two steps apart whose joint cell carries the passage flag. -/
def Maze.joined (m : Maze) (s a b : Point) : Prop :=
  m.cell_of s a ∧ m.cell_of s b ∧ (∃ d ∈ generate_directions_, b = a.step d)
    ∧ m.path (midpoint a b).row (midpoint a b).col = true

/-- Two lattice cells joined by a chain of carved joints. -/
def Maze.connected (m : Maze) (s a b : Point) : Prop :=
  Relation.ReflTransGen (m.joined s) a b

/-- Every cell of the array, row by row. -/
def Maze.all_cells (m : Maze) : List Point :=
  (List.range m.maze_row_size_.toNat).flatMap fun (r : Nat) =>
    (List.range m.maze_col_size_.toNat).map fun (c : Nat) => (⟨r, c⟩ : Point)

/-- The number of vertices of the graph over the lattice through `s`. -/
def Maze.lattice_count (m : Maze) (s : Point) : Nat :=
  m.all_cells.countP fun p => decide (m.cell_of s p)

/-- The number of edges of the carved graph over the lattice through `s`: the
joint cells that carry the passage flag. -/
def Maze.joint_count (m : Maze) (s : Point) : Nat :=
  m.all_cells.countP fun j => decide (m.is_joint s j) && m.path j.row j.col

/-- The carved graph over the lattice through `s` is a spanning tree: any two
lattice cells are joined by a chain of carved joints and there is one carved
joint less than there are lattice cells. -/
def Maze.spanning_tree (m : Maze) (s : Point) : Prop :=
  (∀ a b, m.cell_of s a → m.cell_of s b → m.connected s a b)
    ∧ m.joint_count s + 1 = m.lattice_count s

/-- The part of the carved graph grown so far from the root `o`: `V` holds the
lattice cells reached, each joined to `o` by carved joints, every carved joint
lies between two cells of `V`, and `E` holds the carved joint cells. -/
structure Web_inv (m : Maze) (s o : Point) (V E : Finset Point) : Prop where
  cells : ∀ p ∈ V, m.cell_of s p
  root : o ∈ V
  conn : ∀ p ∈ V, m.connected s o p
  ends : ∀ a b, m.joined s a b → a ∈ V ∧ b ∈ V
  joints : ∀ j, j ∈ E ↔ (m.is_joint s j ∧ m.path j.row j.col = true)

/-- The loop invariant of the depth first builder. The ghost list `st` holds the
cells the walk backtracks through, from the current cell down to the start; `V`
holds the lattice cells reached and `E` the carved joints, one less than cells.
A cell carries the builder bit exactly when it is reached (the start gets the
bit with the first carve), the marks lead down the list, and a reached cell
that is no longer on the list has every lattice neighbour reached. -/
structure Dfs_inv (s : Dfs_state) (st : List Point) (V E : Finset Point) : Prop where
  running : s.branches_remain = true
  web : Web_inv s.maze s.start_ s.start_ V E
  count : E.card + 1 = V.card
  built : ∀ p, s.maze.cell_of s.start_ p →
    (p ∈ V ↔ ((s.maze.maze_ p.row p.col).builder_bit = true ∨ p = s.start_))
  paths : ∀ r c, (s.maze.maze_ r c).builder_bit = true → (s.maze.maze_ r c).path_bit = true
  top : st.head? = some s.cur
  bottom : st.getLast? = some s.start_
  nodup : st.Nodup
  sub : ∀ p ∈ st, p ∈ V
  chain : st.Chain' fun a b =>
    a.step (backtracking_marks_.getD (s.maze.maze_ a.row a.col).markers ⟨0, 0⟩) = b
  closed : ∀ p ∈ V, p ∉ st → ∀ d ∈ generate_directions_,
    s.maze.cell_of s.start_ (p.step d) → p.step d ∈ V
  first : (s.maze.maze_ s.start_.row s.start_.col).builder_bit = false →
    st = [s.start_] ∧ V = {s.start_}

/-- The depth first builder has returned: the loop flag is down, the walk is
back on its start, the carved graph over the lattice through the start is a
spanning tree and every cell of that lattice carries the passage flag. -/
def Dfs_done (s : Dfs_state) : Prop :=
  s.branches_remain = false ∧ s.cur = s.start_ ∧ s.maze.spanning_tree s.start_
    ∧ ∀ p, s.maze.cell_of s.start_ p → s.maze.path p.row p.col = true

/-- The loop invariant shared by the builders that keep their open cells on a
stack or in a queue (`frontier`): the carved graph grown from the root `o`, a
lattice cell carries the builder bit exactly when it is reached (the root gets
the bit late, while it is still alone on the frontier), the frontier holds
reached cells only, and a reached cell that has left the frontier has every
lattice neighbour reached. -/
structure Frontier_inv (m : Maze) (s o : Point) (frontier : List Point)
    (V E : Finset Point) : Prop where
  web : Web_inv m s o V E
  built : ∀ p, m.cell_of s p → (p ∈ V ↔ ((m.maze_ p.row p.col).builder_bit = true ∨ p = o))
  sub : ∀ p ∈ frontier, p ∈ V
  closed : ∀ p ∈ V, p ∉ frontier → ∀ d ∈ generate_directions_,
    m.cell_of s (p.step d) → p.step d ∈ V
  first : (m.maze_ o.row o.col).builder_bit = false → frontier = [o] ∧ V = {o}

/-- The carved graph over the lattice through `s` spans it: any two lattice
cells are joined by a chain of carved joints. -/
def Maze.spanning (m : Maze) (s : Point) : Prop :=
  ∀ a b, m.cell_of s a → m.cell_of s b → m.connected s a b

/-! ## The builders of src/builders (grid.cc, prim.cc)

These work on the class `Maze`, whose member functions are defined in maze.cc,
a file that is not among the sources. -/

/-- Modelled from the spec: `Maze::fill_maze_with_walls` (maze.cc is not among
the sources) turns every cell into a wall cell, as `build_wall` on every cell of
a cleared array does. -/
def Maze.fill_maze_with_walls (m : Maze) : Maze :=
  all_walls m.maze_row_size_ m.maze_col_size_

/-- Modelled from the spec: `Maze::is_square_within_perimeter_walls` (maze.cc is
not among the sources) tests that the cell lies strictly inside the perimeter
ring, never to be carved. -/
def Maze.is_square_within_perimeter_walls (m : Maze) (next : Point) : Prop :=
  m.within_perimeter next.row next.col

instance (m : Maze) (next : Point) : Decidable (m.is_square_within_perimeter_walls next) := by
  unfold Maze.is_square_within_perimeter_walls; infer_instance

/-- Modelled from the spec: `Maze::can_build_new_square` (maze.cc is not among
the sources) tests that the cell is in bounds, strictly inside the perimeter,
and not yet incorporated: it carries no builder bit. -/
def Maze.can_build_new_square (m : Maze) (next : Point) : Prop :=
  m.within_perimeter next.row next.col ∧ (m.maze_ next.row next.col).builder_bit = false

instance (m : Maze) (next : Point) : Decidable (m.can_build_new_square next) := by
  unfold Maze.can_build_new_square; infer_instance

/-- Modelled from the spec: `Maze::join_squares` (maze.cc is not among the
sources) carves the connection between `cur` and `next`: both cells and the
joint between them get the passage flag and the builder bit. -/
def Maze.join_squares (m : Maze) (cur next : Point) : Maze :=
  ThreadMaze.join_squares (set_builder (build_path m cur.row cur.col) cur.row cur.col) cur next

/-- `complete_run` of grid.cc; `left` is `run_limit - cur_run`, the head of
`dfs` is the top of the stack. -/
def Builders.complete_run (direction : Point) :
    Nat → Maze → List Point → Point → Point → Maze × List Point
  | 0, m, dfs, _, _ => (m, dfs)
  | left + 1, m, dfs, cur, next =>
    if m.is_square_within_perimeter_walls next then
      Builders.complete_run direction left (m.join_squares cur next) (next :: dfs) next
        (next.step direction)
    else (m, dfs)

/-- The `for` loop over the shuffled direction indices in `generate_grid_maze`:
the first direction whose target passes `can_build_new_square`. -/
def Builders.find_new_square (m : Maze) (cur : Point) : List Nat → Option Point
  | [] => none
  | i :: rest =>
    let direction := generate_directions_.getD i ⟨0, 0⟩
    if m.can_build_new_square (cur.step direction) then some direction
    else Builders.find_new_square m cur rest

/-- One iteration of `while (!dfs.empty())` in `generate_grid_maze`. -/
def Builders.grid_iteration (gen : Nat → Nat) (s : Grid_state) : Grid_state :=
  match s.dfs with
  | [] => s
  | cur :: rest =>
    match Builders.find_new_square s.maze cur (shuffle (gen s.pos)) with
    | some direction =>
      let r := Builders.complete_run direction run_limit s.maze (cur :: rest) cur
        (cur.step direction)
      { maze := r.1, dfs := r.2, pos := s.pos + 1 }
    | none => { maze := s.maze, dfs := rest, pos := s.pos + 1 }

/-- The state of `generate_grid_maze` on entry to its `while` loop: the grid
filled with walls and the start, made odd, alone on the stack. -/
def Builders.grid_init (gen : Nat → Nat) (m : Maze) (pos : Nat) : Grid_state :=
  { maze := m.fill_maze_with_walls
    dfs := [⟨2 * (uniform_int 1 (m.maze_row_size_ - 2) (gen pos) / 2) + 1,
             2 * (uniform_int 1 (m.maze_col_size_ - 2) (gen (pos + 1)) / 2) + 1⟩]
    pos := pos + 2 }

/-- `generate_grid_maze` of grid.cc cut off after `fuel` loop iterations; it has
returned when the stack `dfs` is empty. -/
def generate_grid_maze (gen : Nat → Nat) (fuel : Nat) (m : Maze) (pos : Nat) : Grid_state :=
  (Builders.grid_iteration gen)^[fuel] (Builders.grid_init gen m pos)

/-! ### Prim builder (prim.cc) -/

/-- `Priority_cell` of prim.cc; its order compares `priority` only. -/
structure Priority_cell where
  cell : Point
  priority : Int
deriving DecidableEq

/-- `INT_MAX` for the 32 bit `int` the costs are held in. -/
def INT_MAX : Int := 2147483647

/-- `pick_random_odd_point` of prim.cc, drawing from `gen` at `pos`. -/
def pick_random_odd_point (gen : Nat → Nat) (m : Maze) (pos : Nat) : Point :=
  ⟨2 * uniform_int 1 ((m.maze_row_size_ - 2) / 2) (gen pos) + 1,
   2 * uniform_int 1 ((m.maze_col_size_ - 2) / 2) (gen (pos + 1)) + 1⟩

/-- `randomize_cell_costs` of prim.cc as the lookup `cell_cost[p]`: the cells of
odd row and odd column get the draws of `gen` in row-major order, any other
key reads as the default 0 of `operator[]`. -/
def randomize_cell_costs (gen : Nat → Nat) (m : Maze) (p : Point) : Int :=
  if p.row % 2 = 1 ∧ 0 < p.row ∧ p.row < m.maze_row_size_
      ∧ p.col % 2 = 1 ∧ 0 < p.col ∧ p.col < m.maze_col_size_ then
    uniform_int 0 100 (gen ((p.row / 2) * (m.maze_col_size_ / 2) + p.col / 2).toNat)
  else 0

/-- `cells.top()` of the `std::priority_queue` ordered by `std::greater`: an
entry of least priority. Which one among equal priorities depends on the heap
layout; here `tie` picks it. -/
def queue_top (cells : List Priority_cell) (tie : Nat) : Option Priority_cell :=
  let least := cells.filter fun x => cells.all fun y => decide (x.priority ≤ y.priority)
  least[tie % least.length]?

/-- The loop `for (const Maze::Point& p : Maze::generate_directions_)` of
`generate_prim_maze` over the pair `(min_neighbor, min_weight)`. -/
def min_neighbor_scan (m : Maze) (cell_cost : Point → Int) (cur : Point) :
    List Point → Point × Int → Point × Int
  | [], acc => acc
  | p :: rest, acc =>
    let next := cur.step p
    if m.can_build_new_square next then
      let weight := cell_cost next
      if weight < acc.2 then min_neighbor_scan m cell_cost cur rest (next, weight)
      else min_neighbor_scan m cell_cost cur rest acc
    else min_neighbor_scan m cell_cost cur rest acc

/-- The variables of `generate_prim_maze` inside its `while` loop, with the
cursor `pos` into the choices among equal priorities. -/
structure Prim_state where
  maze : Maze
  cells : List Priority_cell
  pos : Nat

/-- One iteration of `while (!cells.empty())` in `generate_prim_maze`. -/
def prim_iteration (cell_cost : Point → Int) (tie : Nat → Nat) (s : Prim_state) : Prim_state :=
  match queue_top s.cells (tie s.pos) with
  | none => s
  | some top =>
    let cur := top.cell
    let m := set_builder s.maze cur.row cur.col
    let found := min_neighbor_scan m cell_cost cur generate_directions_ (⟨0, 0⟩, INT_MAX)
    if found.1.row ≠ 0 then
      { maze := m.join_squares cur found.1, cells := ⟨found.1, found.2⟩ :: s.cells,
        pos := s.pos + 1 }
    else { maze := m, cells := s.cells.erase top, pos := s.pos + 1 }

/-- The state of `generate_prim_maze` on entry to its `while` loop. -/
def prim_init (costs seed : Nat → Nat) (m : Maze) : Prim_state :=
  let maze := m.fill_maze_with_walls
  { maze := maze
    cells := [⟨pick_random_odd_point seed maze 0,
              randomize_cell_costs costs maze (pick_random_odd_point seed maze 0)⟩]
    pos := 0 }

/-- `generate_prim_maze` of prim.cc cut off after `fuel` loop iterations, with
the random sources of the costs and of the seed cell; it has returned when the
queue `cells` is empty. -/
def generate_prim_maze (costs seed tie : Nat → Nat) (fuel : Nat) (m : Maze) : Prim_state :=
  (prim_iteration (randomize_cell_costs costs m.fill_maze_with_walls) tie)^[fuel]
    (prim_init costs seed m)

/-! ## Invariant of the loop-erased walk -/

/-- The tree grown so far over the room cells from the root `o`: the carved
graph on the cells `V` with the carved joints `E`, one joint less than cells; a
room cell is in `V` exactly when it carries the builder bit, and the cells of
`V` carry the passage flag. -/
structure Tree_inv (m : Maze) (o : Point) (V E : Finset Point) : Prop where
  web : Web_inv m ⟨1, 1⟩ o V E
  count : E.card + 1 = V.card
  built : ∀ p, m.cell_of ⟨1, 1⟩ p → (p ∈ V ↔ (m.maze_ p.row p.col).builder_bit = true)
  carved : ∀ p ∈ V, m.path p.row p.col = true

/-- The marks lead along the list: every cell but the last carries a mark, which
leads to the next cell of the list, and the last cell carries none. -/
def Trail (m : Maze) : List Point → Prop
  | [] => True
  | [a] => (m.maze_ a.row a.col).markers = 0
  | a :: b :: l =>
    (m.maze_ a.row a.col).markers ≠ 0
      ∧ a.step (backtracking_marks_.getD (m.maze_ a.row a.col).markers ⟨0, 0⟩) = b
      ∧ Trail m (b :: l)

/-- Where the ghost `chain` of the current walk stands in each phase: its head
is the walk, or the cell the inner loop stands on; while connecting the head is
already part of the tree; while erasing the loop root is further down the
chain; once returned every room cell is part of the tree. -/
def Wilson_phase_ok (s : Wilson_state) (chain : List Point) (V : Finset Point) : Prop :=
  match s.phase with
  | .walking => chain.head? = some s.walk ∧ s.walk ∉ V
  | .connecting cur => chain.head? = some cur ∧ cur ∈ V
  | .erasing cur loop_root =>
    chain.head? = some cur ∧ cur ∉ V ∧ loop_root ∈ chain
      ∧ (s.maze.maze_ cur.row cur.col).start_bit = true
  | .returned => chain = [] ∧ ∀ p, s.maze.cell_of ⟨1, 1⟩ p → p ∈ V

/-- The loop invariant of the loop-erased walk. The ghost `chain` lists the
cells of the current walk from the walk back to its origin: distinct room
cells outside the tree, joined by their marks, flagged with the start bit (the
head gets its flag at the top of the loop); no other cell carries a mark or
the start bit. -/
structure Wilson_inv (s : Wilson_state) (o : Point) (chain : List Point)
    (V E : Finset Point) : Prop where
  tree : Tree_inv s.maze o V E
  rooms : ∀ p ∈ chain, s.maze.cell_of ⟨1, 1⟩ p
  nodup : chain.Nodup
  fresh : ∀ p ∈ chain.tail, p ∉ V
  trail : Trail s.maze chain
  unmarked : ∀ p, p ∉ chain → (s.maze.maze_ p.row p.col).markers = 0
  unflagged : ∀ p, p ∉ chain → (s.maze.maze_ p.row p.col).start_bit = false
  flagged : ∀ p ∈ chain.tail, (s.maze.maze_ p.row p.col).start_bit = true
  phase_ok : Wilson_phase_ok s chain V

/-! ## Vocabulary for start and finish placement -/

/-- The point that `pick_random_point`, entered with the cursor at `pos`, samples
in its attempt number `attempt` (counted from 0): two draws per attempt, the
row first. -/
def sampled_point (gen : Nat → Nat) (m : Maze) (pos attempt : Nat) : Point :=
  ⟨uniform_int 1 (m.maze_row_size_ - 2) (gen (pos + 2 * attempt)),
   uniform_int 1 (m.maze_col_size_ - 2) (gen (pos + 2 * attempt + 1))⟩

/-- The test `pick_random_point` applies to a sample: the cell carries the
passage flag and neither the finish nor the start flag. -/
def Maze.placeable (m : Maze) (p : Point) : Prop :=
  (m.maze_ p.row p.col).path_bit = true ∧ (m.maze_ p.row p.col).finish_bit = false
    ∧ (m.maze_ p.row p.col).start_bit = false

instance (m : Maze) (p : Point) : Decidable (m.placeable p) := by
  unfold Maze.placeable; infer_instance

/-! ## Command line extents (run_maze.cc 114-136) -/

/-- Modelled from the spec: the fields `odd_rows` and `odd_cols` of
`Maze::Maze_args` (maze.hh is not among the sources), two `int`s. -/
structure Maze_args where
  odd_rows : Int
  odd_cols : Int
deriving DecidableEq, Repr

/-- The flags `-r` and `-c` of `set_relevant_arg`. -/
inductive Extent_flag where
  | rows
  | cols
deriving DecidableEq, Repr

/-- `INT_MIN` for the 32 bit `int`. -/
def INT_MIN : Int := -2147483648

/-- `std::stoi` of the standard library on an argument that spells the integer
`n`: the value as an `int` when it fits one; otherwise `std::stoi` throws
`std::out_of_range`, here `none`. -/
def stoi (n : Int) : Option Int :=
  if INT_MIN ≤ n ∧ n ≤ INT_MAX then some n else none

/-- How a call of `set_relevant_arg` ends: it returns with the arguments
`maze_args`; it calls `std::abort` after its message, the arguments standing as
`maze_args`; or `std::stoi` throws `std::out_of_range`, which neither
`set_relevant_arg` nor `main` catches, so that the program is terminated before
anything is stored. -/
inductive Arg_outcome where
  | returned (maze_args : Maze_args)
  | aborted (maze_args : Maze_args)
  | out_of_range
deriving DecidableEq, Repr

/-- The branches `flag == "-r"` and `flag == "-c"` of `set_relevant_arg` on an
argument that spells the integer `n`. An even `int` is below `INT_MAX`, so the
increment does not overflow. -/
def set_relevant_arg (maze_args : Maze_args) (flag : Extent_flag) (n : Int) : Arg_outcome :=
  match flag with
  | .rows =>
    match stoi n with
    | none => .out_of_range
    | some v =>
      let a1 := { maze_args with odd_rows := v }
      let a2 := if a1.odd_rows % 2 = 0 then { a1 with odd_rows := a1.odd_rows + 1 } else a1
      if a2.odd_rows < 7 then .aborted a2 else .returned a2
  | .cols =>
    match stoi n with
    | none => .out_of_range
    | some v =>
      let a1 := { maze_args with odd_cols := v }
      let a2 := if a1.odd_cols % 2 = 0 then { a1 with odd_cols := a1.odd_cols + 1 } else a1
      if a2.odd_cols < 7 then .aborted a2 else .returned a2

/-- The extent a flag writes to. -/
def Maze_args.extent (a : Maze_args) : Extent_flag → Int
  | .rows => a.odd_rows
  | .cols => a.odd_cols

/-! ## The maze object and its regeneration (thread_maze.cc 18-47, 104-128, 1229-1251) -/

/-- `Thread_maze::Solver_algorithm`, as `solve_maze` dispatches on it. -/
inductive Solver_algorithm where
  | depth_first_search
  | randomized_depth_first_search
  | breadth_first_search
deriving DecidableEq, Repr

/-- Modelled from the spec: `num_threads_`, the number of agents of a solve
(thread_maze.hh is not among the sources); the spec gives four agent slots. -/
def num_threads_ : Nat := 4

/-- The data members of a `Thread_maze` that generation, placement and the
solvers read or write.  `pos` is the cursor into the stream of `generator_`;
`escape_path_index_` is an `int` whose value -1 means that no agent has won. -/
structure Thread_maze_object where
  builder_ : Builder_algorithm
  modification_ : Maze_modification
  solver_ : Solver_algorithm
  game_ : Maze_game
  maze : Maze
  marks : Marks
  thread_paths_ : List (List Point)
  escape_path_index_ : Int
  pos : Nat

set_option linter.unusedVariables false

/-- `Thread_maze::generate_maze(algorithm, game)`: the builder chosen by
`algorithm`, then `place_start_finish()`, which reads the member `game_`; the
parameter `game` is not read.  `none` when placement aborts. -/
def generate_maze (obj : Thread_maze_object) (algorithm : Builder_algorithm)
    (game : Maze_game) (gen : Nat → Nat) (fuel : Nat) : Option Thread_maze_object :=
  let r := run_builder algorithm obj.modification_ gen fuel obj.maze obj.pos
  match place_start_finish obj.game_ gen r.1 obj.marks r.2.1 with
  | none => none
  | some (m, marks, pos) => some { obj with maze := m, marks := marks, pos := pos }

/-- The constructor `Thread_maze::Thread_maze(args)`: the member initialisers,
the cell loop and `generate_maze(args.builder, args.game)`. -/
def construct (builder : Builder_algorithm) (modification : Maze_modification)
    (solver : Solver_algorithm) (game : Maze_game) (odd_rows odd_cols : Int)
    (gen : Nat → Nat) (fuel : Nat) : Option Thread_maze_object :=
  generate_maze
    { builder_ := builder, modification_ := modification, solver_ := solver, game_ := game,
      maze := construct_walls builder modification odd_rows odd_cols, marks := {},
      thread_paths_ := List.replicate num_threads_ [], escape_path_index_ := -1, pos := 0 }
    builder game gen fuel

/-- `Thread_maze::new_maze()`: `generator_` is reseeded (`gen` is the new
stream, read from its beginning), `escape_path_index_` and the paths are reset,
and `generate_maze(builder_, game_)` runs on the array as it stands. -/
def new_maze (obj : Thread_maze_object) (gen : Nat → Nat) (fuel : Nat) :
    Option Thread_maze_object :=
  generate_maze
    { obj with pos := 0, escape_path_index_ := -1,
               thread_paths_ := obj.thread_paths_.map fun _ => [] }
    obj.builder_ obj.game_ gen fuel

/-- `Thread_maze::new_maze(builder, game, odd_rows, odd_cols)`: as `new_maze()`,
with `builder_ = builder` before and `generate_maze(builder, game)` at the end;
`odd_rows` and `odd_cols` are not read. -/
def new_maze_with (obj : Thread_maze_object) (builder : Builder_algorithm) (game : Maze_game)
    (odd_rows odd_cols : Nat) (gen : Nat → Nat) (fuel : Nat) : Option Thread_maze_object :=
  generate_maze
    { obj with pos := 0, builder_ := builder, escape_path_index_ := -1,
               thread_paths_ := obj.thread_paths_.map fun _ => [] }
    builder game gen fuel

set_option linter.unusedVariables true

/-- The number of cells of the array on which `flag` holds. -/
def Maze.count_cells (m : Maze) (flag : Square → Bool) : Nat :=
  m.all_cells.countP fun p => flag (m.maze_ p.row p.col)

/-! ## The solving agents (thread_maze.cc 651-1126, 1216-1227)

Every agent of a solve runs one of six functions on the shared object.  An
agent is a small machine: its locals and a program counter; one step of the
machine is one critical section of the function (the statements between
`maze_mutex_.lock()` and `maze_mutex_.unlock()`) or one access to shared data
outside a critical section, together with the purely local statements around
it.  A solve is any interleaving of the steps of its agents. -/

/-- Modelled from the spec: `thread_masks_[i]`, the paint flag of agent `i`, as
a value of the field `thread_paint` (thread_maze.hh is not among the sources).
`seen = paint << thread_tag_offset_` is the same bit of the field
`thread_cache`, which lies `thread_tag_offset_` bits above `thread_paint`. -/
def thread_masks_ (i : Nat) : Nat := 2 ^ i

/-- `maze_[p.row][p.col] |= seen`. -/
def or_seen (m : Maze) (p : Point) (seen : Nat) : Maze :=
  m.modify p.row p.col fun s => { s with thread_cache := s.thread_cache ||| seen }

/-- `maze_[p.row][p.col] |= paint`. -/
def or_paint (m : Maze) (p : Point) (paint : Nat) : Maze :=
  m.modify p.row p.col fun s => { s with thread_paint := s.thread_paint ||| paint }

/-- The test `maze_[p.row][p.col] & seen`. -/
def Maze.seen_by (m : Maze) (p : Point) (seen : Nat) : Bool :=
  decide ((m.maze_ p.row p.col).thread_cache &&& seen ≠ 0)

/-- `thread_paths_[thread_index].push_back(p)`. -/
def push_back_path (paths : List (List Point)) (thread_index : Nat) (p : Point) :
    List (List Point) :=
  paths.set thread_index (paths.getD thread_index [] ++ [p])

/-- Modelled from the spec: `Thread_maze::clear_paths`, where `clear_cache_`
(thread_maze.hh is not among the sources) covers the per-agent paint and seen
flags. -/
def clear_paths (obj : Thread_maze_object) : Thread_maze_object :=
  { obj with
    escape_path_index_ := -1
    thread_paths_ := obj.thread_paths_.map fun _ => []
    maze := for_cells 0 obj.maze.maze_row_size_ 0 obj.maze.maze_col_size_
      (fun m row col => m.modify row col fun s => { s with thread_paint := 0, thread_cache := 0 })
      obj.maze }

/-- The six agent functions. -/
inductive Thread_function where
  | dfs_thread_hunt
  | randomized_dfs_thread_hunt
  | dfs_thread_gather
  | randomized_dfs_thread_gather
  | bfs_thread_hunt
  | bfs_thread_gather
deriving DecidableEq, Repr

/-- Where an agent stands in its function: at the head of the search loop, before
the critical section that claims the finish, before the critical section that
marks `cur`, inside the neighbour loop, in the code after the search loop (twice
for the breadth first agents: the first `seen.at(cur)`, then the `while` loop),
returned, or left by the exception of `seen.at`. -/
inductive Thread_pc where
  | loop_head
  | claim
  | mark
  | probe
  | unwind
  | trace
  | returned
  | threw
deriving DecidableEq, Repr

/-- The locals of a running agent.  `dfs` is the stack with its top first, `bfs`
the queue with its front first, `seen` the map of the breadth first agents as
its list of entries (newest first), `probes` the direction indices that the
neighbour loop has still to read. -/
structure Thread_local where
  function : Thread_function
  start : Point
  thread_index : Nat
  paint : Nat
  pc : Thread_pc := .loop_head
  cur : Point
  result : Bool := false
  dfs : List Point := []
  bfs : List Point := []
  seen : List (Point × Point) := []
  probes : List Nat := []
deriving DecidableEq, Repr

/-- The direction indices in the order of the loop
`do { ... ++direction_index %= cardinal_directions_.size(); } while (direction_index != thread_index)`. -/
def biased_directions (thread_index : Nat) : List Nat :=
  (List.range cardinal_directions_.length).map fun k =>
    (thread_index + k) % cardinal_directions_.length

/-- One pass of the neighbour loop of the depth first agents (one critical
section): the neighbour in the next direction is pushed when the agent has not
seen it and it is a path; when no direction is left the stack is popped. -/
def dfs_probe (obj : Thread_maze_object) (a : Thread_local) :
    Thread_maze_object × Thread_local :=
  match a.probes with
  | [] => (obj, { a with dfs := a.dfs.tail, pc := .loop_head })
  | i :: rest =>
    let next := a.cur.step (cardinal_directions_.getD i ⟨0, 0⟩)
    if !(obj.maze.seen_by next a.paint) && obj.maze.path next.row next.col then
      (obj, { a with dfs := next :: a.dfs, probes := [], pc := .loop_head })
    else (obj, { a with probes := rest })

/-- One iteration of the closing loop `while (!dfs.empty())` of the depth first
agents. -/
def dfs_unwind (obj : Thread_maze_object) (a : Thread_local) :
    Thread_maze_object × Thread_local :=
  match a.dfs with
  | [] => (obj, { a with pc := .returned })
  | cur :: rest =>
    ({ obj with thread_paths_ := push_back_path obj.thread_paths_ a.thread_index cur
                maze := or_paint obj.maze cur a.paint },
     { a with cur := cur, dfs := rest })

/-- The critical section of the hunt agents on a finish cell: `tie_break` is read
and `escape_path_index_` written under the lock. -/
def claim_escape (obj : Thread_maze_object) (a : Thread_local) : Thread_maze_object × Bool :=
  let tie_break := decide (obj.escape_path_index_ = -1)
  (if tie_break then { obj with escape_path_index_ := a.thread_index } else obj, tie_break)

/-- One step of `Thread_maze::dfs_thread_hunt`. -/
def dfs_thread_hunt (obj : Thread_maze_object) (a : Thread_local) :
    Thread_maze_object × Thread_local :=
  match a.pc with
  | .loop_head =>
    match a.dfs with
    | [] => (obj, { a with pc := .unwind })
    | top :: _ =>
      if obj.escape_path_index_ ≠ -1 then (obj, { a with result := false, pc := .unwind })
      else if (obj.maze.maze_ top.row top.col).finish_bit then
        (obj, { a with cur := top, pc := .claim })
      else (obj, { a with cur := top, pc := .mark })
  | .claim =>
    ((claim_escape obj a).1,
      { a with result := (claim_escape obj a).2, dfs := a.dfs.tail, pc := .unwind })
  | .mark =>
    ({ obj with maze := or_seen obj.maze a.cur a.paint },
      { a with probes := biased_directions a.thread_index, pc := .probe })
  | .probe => dfs_probe obj a
  | .unwind => dfs_unwind obj a
  | _ => (obj, a)

/-- One step of `Thread_maze::randomized_dfs_thread_hunt`; the shuffle draws
from `generator_`. -/
def randomized_dfs_thread_hunt (gen : Nat → Nat) (obj : Thread_maze_object) (a : Thread_local) :
    Thread_maze_object × Thread_local :=
  match a.pc with
  | .loop_head =>
    match a.dfs with
    | [] => (obj, { a with pc := .unwind })
    | top :: _ =>
      if obj.escape_path_index_ ≠ -1 then (obj, { a with result := false, pc := .unwind })
      else if (obj.maze.maze_ top.row top.col).finish_bit then
        (obj, { a with cur := top, pc := .claim })
      else (obj, { a with cur := top, pc := .mark })
  | .claim =>
    ((claim_escape obj a).1,
      { a with result := (claim_escape obj a).2, dfs := a.dfs.tail, pc := .unwind })
  | .mark =>
    ({ obj with maze := or_seen obj.maze a.cur a.paint, pos := obj.pos + 1 },
      { a with probes := shuffle (gen obj.pos), pc := .probe })
  | .probe => dfs_probe obj a
  | .unwind => dfs_unwind obj a
  | _ => (obj, a)

/-- One step of `Thread_maze::dfs_thread_gather`: the head of the loop is one
critical section, which claims an unclaimed finish or marks `cur`. -/
def dfs_thread_gather (obj : Thread_maze_object) (a : Thread_local) :
    Thread_maze_object × Thread_local :=
  match a.pc with
  | .loop_head =>
    match a.dfs with
    | [] => (obj, { a with pc := .unwind })
    | top :: rest =>
      if (obj.maze.maze_ top.row top.col).finish_bit
          && decide ((obj.maze.maze_ top.row top.col).thread_cache = 0) then
        ({ obj with maze := or_seen obj.maze top a.paint },
          { a with cur := top, dfs := rest, pc := .unwind })
      else
        ({ obj with maze := or_seen obj.maze top a.paint },
          { a with cur := top, probes := biased_directions a.thread_index, pc := .probe })
  | .probe => dfs_probe obj a
  | .unwind => dfs_unwind obj a
  | _ => (obj, a)

/-- One step of `Thread_maze::randomized_dfs_thread_gather`. -/
def randomized_dfs_thread_gather (gen : Nat → Nat) (obj : Thread_maze_object)
    (a : Thread_local) : Thread_maze_object × Thread_local :=
  match a.pc with
  | .loop_head =>
    match a.dfs with
    | [] => (obj, { a with pc := .unwind })
    | top :: rest =>
      if (obj.maze.maze_ top.row top.col).finish_bit
          && decide ((obj.maze.maze_ top.row top.col).thread_cache = 0) then
        ({ obj with maze := or_seen obj.maze top a.paint },
          { a with cur := top, result := true, dfs := rest, pc := .unwind })
      else
        ({ obj with maze := or_seen obj.maze top a.paint, pos := obj.pos + 1 },
          { a with cur := top, probes := shuffle (gen obj.pos), pc := .probe })
  | .probe => dfs_probe obj a
  | .unwind => dfs_unwind obj a
  | _ => (obj, a)

/-- One pass of the neighbour loop of the breadth first agents: a path cell that
is not a key of `seen` is entered with `cur` as its parent and queued. -/
def bfs_probe (obj : Thread_maze_object) (a : Thread_local) :
    Thread_maze_object × Thread_local :=
  match a.probes with
  | [] => (obj, { a with pc := .loop_head })
  | i :: rest =>
    let next := a.cur.step (cardinal_directions_.getD i ⟨0, 0⟩)
    if (a.seen.lookup next).isNone && obj.maze.path next.row next.col then
      (obj, { a with seen := (next, a.cur) :: a.seen, bfs := a.bfs ++ [next], probes := rest })
    else (obj, { a with probes := rest })

/-- The statement `cur = seen.at(cur)`, which throws when `cur` is not a key. -/
def seen_at (a : Thread_local) : Thread_local :=
  match a.seen.lookup a.cur with
  | some parent => { a with cur := parent, pc := .trace }
  | none => { a with pc := .threw }

/-- One step of `Thread_maze::bfs_thread_hunt`. -/
def bfs_thread_hunt (obj : Thread_maze_object) (a : Thread_local) :
    Thread_maze_object × Thread_local :=
  match a.pc with
  | .loop_head =>
    match a.bfs with
    | [] => (obj, { a with pc := .unwind })
    | front :: rest =>
      if obj.escape_path_index_ ≠ -1 then (obj, { a with result := false, pc := .unwind })
      else if (obj.maze.maze_ front.row front.col).finish_bit then
        (obj, { a with cur := front, bfs := rest, pc := .claim })
      else (obj, { a with cur := front, bfs := rest, pc := .mark })
  | .claim =>
    ((claim_escape obj a).1, { a with result := (claim_escape obj a).2, pc := .unwind })
  | .mark =>
    ({ obj with maze := or_paint obj.maze a.cur a.paint },
      { a with probes := biased_directions a.thread_index, pc := .probe })
  | .probe => bfs_probe obj a
  | .unwind => (obj, seen_at a)
  | .trace =>
    if a.cur.row > 0 then
      ({ obj with thread_paths_ := push_back_path obj.thread_paths_ a.thread_index a.cur },
        seen_at a)
    else (obj, { a with pc := .returned })
  | _ => (obj, a)

/-- One step of `Thread_maze::bfs_thread_gather`; `seen_bit = paint << 4`.  The
function ends with the assignment `escape_path_index_ = thread_index`. -/
def bfs_thread_gather (obj : Thread_maze_object) (a : Thread_local) :
    Thread_maze_object × Thread_local :=
  match a.pc with
  | .loop_head =>
    match a.bfs with
    | [] => (obj, { a with pc := .unwind })
    | front :: rest =>
      if (obj.maze.maze_ front.row front.col).finish_bit
          && decide ((obj.maze.maze_ front.row front.col).thread_cache = 0) then
        ({ obj with maze := or_seen obj.maze front a.paint },
          { a with cur := front, bfs := rest, pc := .unwind })
      else
        ({ obj with maze := or_seen (or_paint obj.maze front a.paint) front a.paint },
          { a with cur := front, bfs := rest, probes := biased_directions a.thread_index,
                   pc := .probe })
  | .probe => bfs_probe obj a
  | .unwind => (obj, seen_at a)
  | .trace =>
    if a.cur.row > 0 then
      ({ obj with thread_paths_ := push_back_path obj.thread_paths_ a.thread_index a.cur },
        seen_at a)
    else ({ obj with escape_path_index_ := a.thread_index }, { a with pc := .returned })
  | _ => (obj, a)

/-- One step of an agent, by the function it runs. -/
def thread_step (gen : Nat → Nat) (obj : Thread_maze_object) (a : Thread_local) :
    Thread_maze_object × Thread_local :=
  match a.function with
  | .dfs_thread_hunt => dfs_thread_hunt obj a
  | .randomized_dfs_thread_hunt => randomized_dfs_thread_hunt gen obj a
  | .dfs_thread_gather => dfs_thread_gather obj a
  | .randomized_dfs_thread_gather => randomized_dfs_thread_gather gen obj a
  | .bfs_thread_hunt => bfs_thread_hunt obj a
  | .bfs_thread_gather => bfs_thread_gather obj a

/-- The agent as its thread starts it: `start` on the stack (depth first) or in
the queue with the entry `seen[start] = {-1,-1}` (breadth first). -/
def spawn (function : Thread_function) (start : Point) (thread_index : Nat) : Thread_local :=
  match function with
  | .bfs_thread_hunt | .bfs_thread_gather =>
    { function := function, start := start, thread_index := thread_index,
      paint := thread_masks_ thread_index, cur := start, bfs := [start],
      seen := [(start, ⟨-1, -1⟩)] }
  | _ =>
    { function := function, start := start, thread_index := thread_index,
      paint := thread_masks_ thread_index, cur := start, dfs := [start] }

/-- The shared object and the agents of a solve in progress. -/
structure Solve_state where
  obj : Thread_maze_object
  threads : List Thread_local

/-- The agent function that a solver runs in a game. -/
def agent_function (solver : Solver_algorithm) (game : Maze_game) : Thread_function :=
  match solver, game with
  | .depth_first_search, .gather => .dfs_thread_gather
  | .depth_first_search, _ => .dfs_thread_hunt
  | .randomized_depth_first_search, .gather => .randomized_dfs_thread_gather
  | .randomized_depth_first_search, _ => .randomized_dfs_thread_hunt
  | .breadth_first_search, .gather => .bfs_thread_gather
  | .breadth_first_search, _ => .bfs_thread_hunt

/-- The beginning of `solve_with_dfs_threads`, `solve_with_randomized_dfs_threads`
and `solve_with_bfs_threads`, up to the start of the threads:
`if (escape_path_index_ != -1) clear_paths();`, then one agent per index, from
`start_` in hunt and gather and from the shuffled corner starts in corners.  The
first component is the object as the guard leaves it. -/
def solve_begin (solver : Solver_algorithm) (gen : Nat → Nat) (obj : Thread_maze_object) :
    Solve_state :=
  let obj1 := if obj.escape_path_index_ ≠ -1 then clear_paths obj else obj
  match obj1.game_ with
  | .corners =>
    let random_starting_corners := shuffle (gen obj1.pos)
    { obj := { obj1 with pos := obj1.pos + 1 }
      threads := (List.range num_threads_).map fun i =>
        spawn (agent_function solver .corners)
          (obj1.marks.corner_starts_.getD (random_starting_corners.getD i 0) ⟨0, 0⟩) i }
  | game =>
    { obj := obj1
      threads := (List.range num_threads_).map fun i =>
        spawn (agent_function solver game) obj1.marks.start_ i }

/-- One step of agent `i` of the solve; nothing happens when there is no such
agent. -/
def Solve_state.step (gen : Nat → Nat) (s : Solve_state) (i : Nat) : Solve_state :=
  match s.threads.get? i with
  | none => s
  | some a =>
    { obj := (thread_step gen s.obj a).1
      threads := s.threads.set i (thread_step gen s.obj a).2 }

/-- An interleaving: the agents step in the order of `schedule`. -/
def Solve_state.run (gen : Nat → Nat) (s : Solve_state) (schedule : List Nat) : Solve_state :=
  schedule.foldl (fun s i => s.step gen i) s

/-- Every agent has returned: the joins of the solve have come back. -/
def Solve_state.joined (s : Solve_state) : Bool :=
  s.threads.all fun a => decide (a.pc = .returned)

/-! ## Vocabulary for the solvers -/

/-- What a step of an agent may do to a cell: nothing, or set the agent's flags
in the seen field, in the paint field, or in both; every other field keeps its
value. -/
def Cell_step (paint : Nat) (s t : Square) : Prop :=
  t = s ∨ t = { s with thread_cache := s.thread_cache ||| paint }
    ∨ t = { s with thread_paint := s.thread_paint ||| paint }
    ∨ t = { s with thread_paint := s.thread_paint ||| paint,
                   thread_cache := s.thread_cache ||| paint }

/-- The grid after a step of an agent with paint flag `paint`: the same extents
and every cell as `Cell_step` allows. -/
def Maze_step (paint : Nat) (m m1 : Maze) : Prop :=
  m1.maze_row_size_ = m.maze_row_size_ ∧ m1.maze_col_size_ = m.maze_col_size_
    ∧ ∀ r c, Cell_step paint (m.maze_ r c) (m1.maze_ r c)

/-- The next step of agent `i` is a claim on the finish cell `p` in the gather
game: the agent stands at the head of the search loop of a gather function,
`p` is the top of its stack (depth first) or the front of its queue (breadth
first), `p` carries the finish flag and no seen flag of any agent. -/
def Solve_state.claims (s : Solve_state) (i : Nat) (p : Point) : Prop :=
  match s.threads.get? i with
  | none => False
  | some a =>
    a.pc = .loop_head
    ∧ ((a.function = .dfs_thread_gather ∧ a.dfs.head? = some p)
      ∨ (a.function = .randomized_dfs_thread_gather ∧ a.dfs.head? = some p)
      ∨ (a.function = .bfs_thread_gather ∧ a.bfs.head? = some p))
    ∧ (s.obj.maze.maze_ p.row p.col).finish_bit = true
    ∧ (s.obj.maze.maze_ p.row p.col).thread_cache = 0

instance (s : Solve_state) (i : Nat) (p : Point) : Decidable (s.claims i p) := by
  unfold Solve_state.claims
  split <;> infer_instance

/-- The agents of the solve stand in the order of their indices, each with the
paint flag of its index. -/
def Solve_state.indexed (s : Solve_state) : Prop :=
  ∀ i a, s.threads.get? i = some a → a.thread_index = i ∧ a.paint = thread_masks_ i

/-- Cell `b` is the neighbour of cell `a` in one of the four cardinal
directions. -/
def Point.adjacent (a b : Point) : Prop := ∃ d ∈ cardinal_directions_, b = a.step d

/-- The stack of a depth first agent (top first) is a simple route from `start`:
read from bottom to top it begins at `start`, every entry is a cardinal
neighbour of the entry below it, every entry above the bottom is a path, and no
cell occurs twice. -/
def Maze.route (m : Maze) (start : Point) (stack : List Point) : Prop :=
  stack.getLast? = some start
    ∧ List.Chain' (fun upper lower => lower.adjacent upper) stack
    ∧ (∀ p ∈ stack.dropLast, m.path p.row p.col = true)
    ∧ stack.Nodup

/-- The invariant of a depth first agent that keeps its stack a route: the
entries below the top carry the seen flag of the agent; inside an iteration
`cur` is the top, and in the neighbour loop `cur` carries the seen flag. -/
structure Dfs_agent_inv (m : Maze) (a : Thread_local) : Prop where
  route : a.dfs = [] ∨ m.route a.start a.dfs
  below : ∀ p ∈ a.dfs.tail, m.seen_by p a.paint = true
  top : a.pc = .mark ∨ a.pc = .claim ∨ a.pc = .probe → a.dfs.head? = some a.cur
  marked : a.pc = .probe → m.seen_by a.cur a.paint = true

/-! ## Vocabulary for the order of modification and generation -/

/-- Two cells that agree on every field a carving builder reads (builder bit,
backtrack marks, start and finish flag), the first carrying the passage flag
exactly when the second does or `extra` holds. -/
def Carve_cell (extra : Bool) (s t : Square) : Prop :=
  s.builder_bit = t.builder_bit ∧ s.markers = t.markers ∧ s.start_bit = t.start_bit
    ∧ s.finish_bit = t.finish_bit ∧ s.path_bit = (t.path_bit || extra)

/-- Two grids of the same extents whose cells are related by `Carve_cell`, with
`extra` the set of cells that are passages of the first grid on their own
account. -/
def Carve_sim (extra : Int → Int → Bool) (m1 m2 : Maze) : Prop :=
  m1.maze_row_size_ = m2.maze_row_size_ ∧ m1.maze_col_size_ = m2.maze_col_size_
    ∧ ∀ r c, Carve_cell (extra r c) (m1.maze_ r c) (m2.maze_ r c)

/-- The grid as the program builds it: the cell loop of the constructor with the
modification, then the builder. -/
def constructed_with (builder_ : Builder_algorithm) (modification_ : Maze_modification)
    (rows cols : Int) (gen : Nat → Nat) (fuel : Nat) : Maze × Nat × Bool :=
  run_builder builder_ modification_ gen fuel (construct_walls builder_ modification_ rows cols) 0

/-- The grid of the claim: generated with no modification, then the cross
modification applied to every cell. -/
def cross_after_generation (builder_ : Builder_algorithm) (rows cols : Int) (gen : Nat → Nat)
    (fuel : Nat) : Maze :=
  for_cells 0 rows 0 cols (add_modification .add_cross)
    (constructed_with builder_ .none rows cols gen fuel).1

/-- One move of a search: to a cardinal neighbour that is a path. -/
def Maze.search_step (m : Maze) (a b : Point) : Prop :=
  a.adjacent b ∧ m.path b.row b.col = true

/-- Cell `b` can be reached from cell `a` through cardinally adjacent passable
cells; `a` itself need not be a path, as the start of a search need not be. -/
def Maze.search_reachable (m : Maze) (a b : Point) : Prop :=
  Relation.ReflTransGen m.search_step a b

/-- A goal can be reached from `start`: some cell with the finish flag. -/
def Maze.goal_reachable (m : Maze) (start : Point) : Prop :=
  ∃ g : Point, (m.maze_ g.row g.col).finish_bit = true ∧ m.search_reachable start g

/-- The agent is inside its search loop. -/
def Thread_pc.searching (pc : Thread_pc) : Prop :=
  pc = .loop_head ∨ pc = .mark ∨ pc = .claim ∨ pc = .probe

/-- The invariant of a depth first hunt agent that makes its search complete:
while it searches, its start is on the stack or seen, and every seen cell that
has left the stack has all its passable neighbours seen; in the neighbour loop
the directions already read lead to cells that are seen or no paths; no seen
cell carries the finish flag; the stack lies within the perimeter. -/
structure Dfs_hunt_inv (m : Maze) (a : Thread_local) : Prop where
  inside : ∀ p ∈ a.dfs, m.within_perimeter p.row p.col
  started : a.pc.searching → a.start ∈ a.dfs ∨ m.seen_by a.start a.paint = true
  closed : a.pc.searching → ∀ p, m.seen_by p a.paint = true → p ∉ a.dfs →
    ∀ d ∈ cardinal_directions_, m.path (p.step d).row (p.step d).col = true →
      m.seen_by (p.step d) a.paint = true
  probed : a.pc = .probe → ∀ i, i < 4 → i ∉ a.probes →
    m.path (a.cur.step (cardinal_directions_.getD i ⟨0, 0⟩)).row
        (a.cur.step (cardinal_directions_.getD i ⟨0, 0⟩)).col = true →
      m.seen_by (a.cur.step (cardinal_directions_.getD i ⟨0, 0⟩)) a.paint = true
  plain : a.pc = .mark → (m.maze_ a.cur.row a.cur.col).finish_bit = false
  goal : a.pc = .claim → (m.maze_ a.cur.row a.cur.col).finish_bit = true
  nofinish : ∀ p, m.seen_by p a.paint = true → (m.maze_ p.row p.col).finish_bit = false

/-- The outcome of a hunt agent that runs alone: while it searches, the slot
holds -1, `result` is false and its path is empty; once it has left the loop it
has either won, and a goal can be reached from its start, or its stack is
exhausted, its path is empty and no goal can be reached from its start. -/
structure Hunt_alone (obj : Thread_maze_object) (a : Thread_local) : Prop where
  valid : a.pc.searching ∨ a.pc = .unwind ∨ a.pc = .returned
  quiet : a.pc.searching →
    obj.escape_path_index_ = -1 ∧ a.result = false
      ∧ obj.thread_paths_.getD a.thread_index [] = []
  done : a.pc = .unwind ∨ a.pc = .returned →
    (a.result = true ∧ obj.maze.goal_reachable a.start)
      ∨ (a.result = false ∧ a.dfs = [] ∧ obj.thread_paths_.getD a.thread_index [] = []
        ∧ ¬ obj.maze.goal_reachable a.start)

/-- The cells of the array that do not carry the seen flag of the agent. -/
def Maze.unseen (m : Maze) (paint : Nat) : Finset Point :=
  m.all_cells.toFinset.filter fun p => m.seen_by p paint = false

/-- The unseen cells apart from the top of the stack, counted twice, plus the
height of the stack: every iteration of the search loop lowers this number. -/
def dfs_potential (m : Maze) (a : Thread_local) : Nat :=
  match a.dfs with
  | [] => 2 * (m.unseen a.paint).card
  | top :: rest => 2 * ((m.unseen a.paint).erase top).card + (rest.length + 1)

/-- A number that every step of a depth first hunt agent lowers until the agent
has returned. -/
def dfs_measure (m : Maze) (a : Thread_local) : Nat :=
  match a.pc with
  | .loop_head => 8 * dfs_potential m a + 7
  | .mark => 8 * dfs_potential m a + 6
  | .probe => 8 * dfs_potential m a + (a.probes.length + 1)
  | .claim => a.dfs.length + 3
  | .unwind => a.dfs.length + 2
  | _ => 0

/-- An agent running with no other agent: `n` steps of its own. -/
def run_alone (gen : Nat → Nat) (n : Nat) (obj : Thread_maze_object) (a : Thread_local) :
    Thread_maze_object × Thread_local :=
  (fun s => thread_step gen s.1 s.2)^[n] (obj, a)

/-- What holds in every state `s` of a depth first hunt agent that runs alone on
the object `obj` from `start` with index `i`. -/
def Dfs_hunt_run (obj : Thread_maze_object) (start : Point) (i : Nat)
    (s : Thread_maze_object × Thread_local) : Prop :=
  s.2.function = .dfs_thread_hunt ∧ s.2.paint ≠ 0 ∧ Perimeter_closed s.1.maze
    ∧ Dfs_agent_inv s.1.maze s.2 ∧ Dfs_hunt_inv s.1.maze s.2 ∧ Hunt_alone s.1 s.2
    ∧ s.2.start = start ∧ s.2.thread_index = i
    ∧ (s.1.maze.goal_reachable start ↔ obj.maze.goal_reachable start)

/-! ## Vocabulary for the stored paths and the breadth first search -/

/-- The cells that the closing loop of a breadth first agent stores when it
starts from the key `p` of the map `seen` (entries newest first): the parent of
`p`, the parent of that cell, and so on, up to the first parent whose row is
not positive. -/
def ancestors : List (Point × Point) → Point → List Point
  | [], _ => []
  | (k, parent) :: rest, p =>
    if k = p then (if parent.row > 0 then parent :: ancestors rest parent else [])
    else ancestors rest p

/-- What the closing loop still has to store when it stands at `c`. -/
def trail (seen : List (Point × Point)) (c : Point) : List Point :=
  if c.row > 0 then c :: ancestors seen c else []

/-- The number of parents between a key of the map and the start. -/
def depth (seen : List (Point × Point)) (k : Point) : Nat := (ancestors seen k).length

/-- The map of a breadth first agent is a tree of parents rooted at `start`: the
oldest entry is `start` with the parent `{-1,-1}`, and every later entry is a
new key, a path within the perimeter, whose parent is an older key and its
cardinal neighbour. -/
inductive Parent_forest (m : Maze) (start : Point) : List (Point × Point) → Prop
  | root : m.within_perimeter start.row start.col →
      Parent_forest m start [(start, ⟨-1, -1⟩)]
  | grow (k parent : Point) (rest : List (Point × Point)) :
      Parent_forest m start rest → rest.lookup k = none → (rest.lookup parent).isSome = true →
      parent.adjacent k → m.path k.row k.col = true → m.within_perimeter k.row k.col →
      Parent_forest m start ((k, parent) :: rest)

/-- A walk of `n` moves of a search from `a` to `b`. -/
def Maze.steps (m : Maze) (a : Point) : Nat → Point → Prop
  | 0, b => b = a
  | n + 1, b => ∃ c, m.steps a n c ∧ m.search_step c b

/-- The cells that a breadth first agent has found and not yet left behind: the
queue, and in front of it the cell `cur` while the agent works on it. -/
def Thread_local.frontier (a : Thread_local) : List Point :=
  if a.pc = .claim ∨ a.pc = .mark ∨ a.pc = .probe then a.cur :: a.bfs else a.bfs

/-- The invariant of a breadth first hunt agent.  The map is a tree of parents;
the frontier and `cur` are keys; while the agent searches, the frontier is
ordered by depth and spans at most two depths, no key behind the frontier is
deeper than a cell of the frontier, every passable neighbour of a key behind the
frontier is a key at most one deeper, and no key behind the frontier carries
the finish flag. -/
structure Bfs_agent_inv (m : Maze) (a : Thread_local) : Prop where
  forest : Parent_forest m a.start a.seen
  queued : ∀ p ∈ a.frontier, (a.seen.lookup p).isSome = true
  current : a.pc.searching ∨ a.pc = .unwind → (a.seen.lookup a.cur).isSome = true
  closed : a.pc.searching → ∀ k, (a.seen.lookup k).isSome = true → k ∉ a.frontier →
    ∀ d ∈ cardinal_directions_, m.path (k.step d).row (k.step d).col = true →
      (a.seen.lookup (k.step d)).isSome = true ∧ depth a.seen (k.step d) ≤ depth a.seen k + 1
  probed : a.pc = .probe → ∀ i, i < 4 → i ∉ a.probes →
    m.path (a.cur.step (cardinal_directions_.getD i ⟨0, 0⟩)).row
        (a.cur.step (cardinal_directions_.getD i ⟨0, 0⟩)).col = true →
      (a.seen.lookup (a.cur.step (cardinal_directions_.getD i ⟨0, 0⟩))).isSome = true
        ∧ depth a.seen (a.cur.step (cardinal_directions_.getD i ⟨0, 0⟩)) ≤ depth a.seen a.cur + 1
  sorted : a.pc.searching →
    List.Pairwise (fun x y => depth a.seen x ≤ depth a.seen y) a.frontier
  span : a.pc.searching → ∀ h, a.frontier.head? = some h →
    ∀ o ∈ a.frontier, depth a.seen o ≤ depth a.seen h + 1
  below : a.pc.searching → ∀ k, (a.seen.lookup k).isSome = true → k ∉ a.frontier →
    ∀ o ∈ a.frontier, depth a.seen k ≤ depth a.seen o
  nofinish : a.pc.searching → ∀ k, (a.seen.lookup k).isSome = true → k ∉ a.frontier →
    (m.maze_ k.row k.col).finish_bit = false
  plain : a.pc = .mark ∨ a.pc = .probe → (m.maze_ a.cur.row a.cur.col).finish_bit = false
  goal : a.pc = .claim → (m.maze_ a.cur.row a.cur.col).finish_bit = true

/-- No cell with the finish flag is nearer to `start` than the key `g` is deep. -/
def Nearest (m : Maze) (start : Point) (seen : List (Point × Point)) (g : Point) : Prop :=
  ∀ g1 n, (m.maze_ g1.row g1.col).finish_bit = true → m.steps start n g1 → depth seen g ≤ n

/-- The stored path of a depth first hunt agent: empty while the agent searches;
once the agent has won, the path so far followed by the rest of the stack is,
with a cell `g` carrying the finish flag in front, a route from the start. -/
structure Dfs_path_inv (obj : Thread_maze_object) (a : Thread_local) : Prop where
  slot : a.thread_index < obj.thread_paths_.length
  quiet : a.pc.searching → obj.thread_paths_.getD a.thread_index [] = [] ∧ a.result = false
  goal : a.pc = .claim → (obj.maze.maze_ a.cur.row a.cur.col).finish_bit = true
  unwound : a.pc = .unwind ∨ a.pc = .returned → a.result = true →
    ∃ g : Point, (obj.maze.maze_ g.row g.col).finish_bit = true
      ∧ obj.maze.route a.start (g :: (obj.thread_paths_.getD a.thread_index [] ++ a.dfs))
  final : a.pc = .returned → a.dfs = []

/-- The stored path of a breadth first hunt agent: empty while the agent
searches; once the agent has won at the key `g`, a nearest cell with the finish
flag, the path so far followed by what the closing loop has still to store is
the chain of parents of `g`. -/
structure Bfs_path_inv (obj : Thread_maze_object) (a : Thread_local) : Prop where
  slot : a.thread_index < obj.thread_paths_.length
  quiet : a.pc.searching → obj.thread_paths_.getD a.thread_index [] = [] ∧ a.result = false
  won : a.pc = .unwind → a.result = true →
    (obj.maze.maze_ a.cur.row a.cur.col).finish_bit = true
      ∧ Nearest obj.maze a.start a.seen a.cur
      ∧ obj.thread_paths_.getD a.thread_index [] = []
  tracing : a.pc = .trace → a.result = true →
    ∃ g : Point, (obj.maze.maze_ g.row g.col).finish_bit = true
      ∧ (a.seen.lookup g).isSome = true ∧ Nearest obj.maze a.start a.seen g
      ∧ obj.thread_paths_.getD a.thread_index [] ++ trail a.seen a.cur = ancestors a.seen g
      ∧ (a.cur.row > 0 → (a.seen.lookup a.cur).isSome = true)
  final : a.pc = .returned → a.result = true →
    ∃ g : Point, (obj.maze.maze_ g.row g.col).finish_bit = true
      ∧ (a.seen.lookup g).isSome = true ∧ Nearest obj.maze a.start a.seen g
      ∧ obj.thread_paths_.getD a.thread_index [] = ancestors a.seen g

/-- The three hunt functions. -/
def Thread_function.hunts (f : Thread_function) : Prop :=
  f = .dfs_thread_hunt ∨ f = .randomized_dfs_thread_hunt ∨ f = .bfs_thread_hunt

/-- What holds of every hunt agent of a solve and the shared object, whatever
the other agents do: the ring is closed, the stack is a route (depth first) or
the map a tree of parents (breadth first), and the stored path is as
`Dfs_path_inv` and `Bfs_path_inv` say. -/
def Hunt_path_inv (obj : Thread_maze_object) (a : Thread_local) : Prop :=
  Perimeter_closed obj.maze ∧ a.paint ≠ 0
    ∧ (a.function = .dfs_thread_hunt ∨ a.function = .randomized_dfs_thread_hunt →
        Dfs_agent_inv obj.maze a ∧ Dfs_path_inv obj a)
    ∧ (a.function = .bfs_thread_hunt → Bfs_agent_inv obj.maze a ∧ Bfs_path_inv obj a)

/-- The agent runs one of the hunt functions. -/
def Thread_local.hunts (a : Thread_local) : Prop := a.function.hunts

/-! ## Vocabulary for the breadth first hunt alone -/

/-- The outcome of a breadth first hunt agent that runs alone from a start that
can reach a goal: it never leaves by the exception of `seen.at`; while it
searches, the slot holds -1; once it has left the loop it has won. -/
structure Bfs_alone (obj : Thread_maze_object) (a : Thread_local) : Prop where
  reach : obj.maze.goal_reachable a.start
  alive : a.pc ≠ .threw
  quiet : a.pc.searching → obj.escape_path_index_ = -1
  done : a.pc = .unwind ∨ a.pc = .trace ∨ a.pc = .returned → a.result = true

/-- The cells of the array that are no keys of the map of the agent. -/
def Maze.unkeyed (m : Maze) (seen : List (Point × Point)) : Finset Point :=
  m.all_cells.toFinset.filter fun p => (seen.lookup p).isNone = true

/-- A number that every step of a breadth first hunt agent lowers until the
agent has returned or thrown. -/
def bfs_measure (m : Maze) (a : Thread_local) : Nat :=
  match a.pc with
  | .loop_head => a.seen.length + 5 + 8 * (2 * (m.unkeyed a.seen).card + a.bfs.length)
  | .mark => a.seen.length + 5 + 8 * (2 * (m.unkeyed a.seen).card + a.bfs.length) + 6
  | .probe =>
    a.seen.length + 5 + 8 * (2 * (m.unkeyed a.seen).card + a.bfs.length) + (a.probes.length + 1)
  | .claim => a.seen.length + 4
  | .unwind => a.seen.length + 3
  | .trace => (trail a.seen a.cur).length + 1
  | _ => 0

/-- What holds in every state `s` of a breadth first hunt agent that runs alone
on the object `obj` from `start` with index `i`. -/
def Bfs_hunt_run (obj : Thread_maze_object) (start : Point) (i : Nat)
    (s : Thread_maze_object × Thread_local) : Prop :=
  s.2.function = .bfs_thread_hunt ∧ Perimeter_closed s.1.maze
    ∧ Bfs_agent_inv s.1.maze s.2 ∧ Bfs_path_inv s.1 s.2 ∧ Bfs_alone s.1 s.2
    ∧ s.2.start = start ∧ s.2.thread_index = i
    ∧ (∀ r c, s.1.maze.path r c = obj.maze.path r c)
    ∧ (∀ r c, (s.1.maze.maze_ r c).finish_bit = (obj.maze.maze_ r c).finish_bit)

/-! ## Vocabulary for the race of the hunt agents -/

/-- The race as one hunt agent sees it: while it searches its result is false;
its result is success exactly when the slot holds its index; once it has left
the search loop it has won, or the slot is taken, or no goal can be reached
from its start; and it wins only when a goal can be reached from its start. -/
structure Hunt_race (obj : Thread_maze_object) (a : Thread_local) : Prop where
  quiet : a.pc.searching → a.result = false
  winner : a.result = true ↔ obj.escape_path_index_ = (a.thread_index : Int)
  done : ¬ a.pc.searching →
    a.result = true ∨ obj.escape_path_index_ ≠ -1 ∨ ¬ obj.maze.goal_reachable a.start
  sound : a.result = true → obj.maze.goal_reachable a.start

/-- What holds of every hunt agent of a solve and the shared object, whatever
the other agents do, for the outcome of the race. -/
def Hunt_race_inv (obj : Thread_maze_object) (a : Thread_local) : Prop :=
  Perimeter_closed obj.maze
    ∧ (a.function = .dfs_thread_hunt ∨ a.function = .randomized_dfs_thread_hunt →
        Dfs_agent_inv obj.maze a ∧ Dfs_hunt_inv obj.maze a)
    ∧ (a.function = .bfs_thread_hunt → Bfs_agent_inv obj.maze a)
    ∧ Hunt_race obj a

/-- A hunt agent that carries the paint flag of its index. -/
def Thread_local.racer (a : Thread_local) : Prop :=
  a.function.hunts ∧ a.paint = thread_masks_ a.thread_index

/-! ## Vocabulary for the loop erasure -/

/-- Following the backtrack marks from `cur` leads to `root` over the cells of
the list: the list is empty when `cur` is `root`; otherwise it begins with
`cur`, which is not `root`, and goes on from the cell that the mark of `cur`
points to. -/
def Maze.marks_lead (m : Maze) (root : Point) : Point → List Point → Prop
  | cur, [] => cur = root
  | cur, c :: rest =>
    c = cur ∧ cur ≠ root
      ∧ m.marks_lead root
          (cur.step (backtracking_marks_.getD (m.maze_ cur.row cur.col).markers ⟨0, 0⟩)) rest

instance (m : Maze) (root : Point) (cur : Point) (l : List Point) :
    Decidable (m.marks_lead root cur l) := by
  induction l generalizing cur with
  | nil => unfold Maze.marks_lead; infer_instance
  | cons c rest ih => unfold Maze.marks_lead; exact instDecidableAnd

/-! ## Vocabulary for the runs of the grid builders -/

/-- The cell `k` moves ahead of `cur` in `direction`. -/
def Point.ahead (cur direction : Point) (k : Nat) : Point :=
  ⟨cur.row + (k : Int) * direction.row, cur.col + (k : Int) * direction.col⟩

/-- The outcome of a run of at most `limit` cells from `cur` in `direction`,
joined by `join`: the run has some length `n`, its cells are the `n` cells ahead,
all within the perimeter, it stops short of the limit only before a cell outside
the perimeter, the cells are joined in order and pushed in order (the head of the
stack is the last one), and they and their joints are passages afterwards. -/
def Run_outcome (join : Maze → Point → Point → Maze) (direction : Point) (limit : Nat)
    (m : Maze) (dfs : List Point) (cur : Point) (out : Maze × List Point) : Prop :=
  ∃ n, n ≤ limit
    ∧ (∀ k, k < n →
        m.within_perimeter (cur.ahead direction (k + 1)).row (cur.ahead direction (k + 1)).col)
    ∧ (n < limit →
        ¬ m.within_perimeter (cur.ahead direction (n + 1)).row (cur.ahead direction (n + 1)).col)
    ∧ (m.within_perimeter (cur.step direction).row (cur.step direction).col → 1 ≤ n)
    ∧ out.2 = (List.range n).reverse.map (fun k => cur.ahead direction (k + 1)) ++ dfs
    ∧ out.1 = (List.range n).foldl
        (fun x k => join x (cur.ahead direction k) (cur.ahead direction (k + 1))) m
    ∧ (∀ k, k < n →
        out.1.path (cur.ahead direction (k + 1)).row (cur.ahead direction (k + 1)).col = true
          ∧ out.1.path (wall_between (cur.ahead direction k) (cur.ahead direction (k + 1))).row
              (wall_between (cur.ahead direction k) (cur.ahead direction (k + 1))).col = true)
    ∧ ∀ r c, m.path r c = true → out.1.path r c = true

/-- The direction of the run that the iteration of `generate_grid_maze` about to
be executed in state `s` starts, if it starts one: the result of the `for` loop
over the shuffled directions at the top of the stack. -/
def Builders.run_direction (gen : Nat → Nat) (s : Grid_state) : Option Point :=
  match s.dfs with
  | [] => none
  | cur :: _ => Builders.find_new_square s.maze cur (shuffle (gen s.pos))

/-- The number of runs started in the first `k` iterations of
`generate_grid_maze`. -/
def Builders.run_count (gen : Nat → Nat) (m : Maze) (pos : Nat) (k : Nat) : Nat :=
  (List.range k).countP fun i => (Builders.run_direction gen (generate_grid_maze gen i m pos)).isSome

/-! ## Sequences of carving calls -/

/-- A call of one of the two carving primitives on a cell. -/
inductive Carve_call where
  | build_path (row col : Int)
  | carve_path_walls (row col : Int)
deriving DecidableEq, Repr

/-- The grid after the call. -/
def Carve_call.apply (m : Maze) : Carve_call → Maze
  | .build_path row col => ThreadMaze.build_path m row col
  | .carve_path_walls row col => ThreadMaze.carve_path_walls m row col

/-- The grid after a sequence of calls, executed from the head of the list on. -/
def carve_calls (m : Maze) (calls : List Carve_call) : Maze :=
  calls.foldl Carve_call.apply m

/-! ## Vocabulary for the neighbour reads of the solvers -/

/-- The neighbour cell `maze_[next.row][next.col]` that the pass of the neighbour
loop about to be executed reads, `next` being `cur` plus the direction under
`direction_index`; nothing when the agent is not inside the loop. -/
def Thread_local.neighbor_read (a : Thread_local) : Option Point :=
  match a.pc, a.probes with
  | .probe, i :: _ => some (a.cur.step (cardinal_directions_.getD i ⟨0, 0⟩))
  | _, _ => none

/-- What keeps the reads of a hunt agent inside the array: no ring cell is a
path, the cells on the stack and in the queue lie strictly inside the perimeter,
and so does `cur` once an iteration has fetched it. -/
structure Inside_inv (m : Maze) (a : Thread_local) : Prop where
  ring : Perimeter_closed m
  stack : ∀ p ∈ a.dfs, m.within_perimeter p.row p.col
  queue : ∀ p ∈ a.bfs, m.within_perimeter p.row p.col
  current : a.pc = .mark ∨ a.pc = .probe → m.within_perimeter a.cur.row a.cur.col

/-! ## Vocabulary for the calls of `join_squares` -/

/-- The calls `join_squares(cur, next)` that the lambda `complete_run` makes, in
order, each with the grid it is made on (the builder bit on `cur` is set just
before). The recursion is the loop of `complete_run`; `left` is
`run_limit - cur_run`. -/
def complete_run_joins (direction : Point) :
    Nat → Maze → Point → Point → List (Maze × Point × Point)
  | 0, _, _, _ => []
  | left + 1, m, cur, next =>
    if next.row < m.maze_row_size_ - 1 ∧ next.col < m.maze_col_size_ - 1
        ∧ next.row > 0 ∧ next.col > 0 then
      (set_builder m cur.row cur.col, cur, next)
        :: complete_run_joins direction left
            (set_builder (join_squares (set_builder m cur.row cur.col) cur next)
              next.row next.col)
            next (next.step direction)
    else []

/-! ## Vocabulary for the end of the race -/

/-- A number that every step of a hunt agent lowers until the agent has
returned: `bfs_measure` for the breadth first agent, `dfs_measure` for the two
depth first agents. -/
def hunt_measure (m : Maze) (a : Thread_local) : Nat :=
  if a.function = .bfs_thread_hunt then bfs_measure m a else dfs_measure m a

/-- A hunt agent is on its way to the return: a depth first agent is in its
search loop, in its closing loop or has returned; a breadth first agent has not
left by the exception of `seen.at`, and in its closing loop a `cur` of positive
row is a key of its map. -/
structure Hunt_live (a : Thread_local) : Prop where
  dfs : a.function ≠ .bfs_thread_hunt →
    a.pc.searching ∨ a.pc = .unwind ∨ a.pc = .returned
  alive : a.pc ≠ .threw
  tracing : a.pc = .trace → a.cur.row > 0 → (a.seen.lookup a.cur).isSome = true

/-- The number of steps of its own after which a hunt agent on the grid `m` has
returned, whatever the other agents do in between. -/
def hunt_bound (m : Maze) : Nat :=
  16 * (m.maze_row_size_.toNat * m.maze_col_size_.toNat) + 16
/-! ## Frame lemmas for the primitives -/

@[simp] theorem modify_rows (m : Maze) (r c : Int) (f : Square → Square) :
    (m.modify r c f).maze_row_size_ = m.maze_row_size_ := rfl

@[simp] theorem modify_cols (m : Maze) (r c : Int) (f : Square → Square) :
    (m.modify r c f).maze_col_size_ = m.maze_col_size_ := rfl

theorem modify_get (m : Maze) (r c : Int) (f : Square → Square) (r' c' : Int) :
    (m.modify r c f).maze_ r' c' = if r' = r ∧ c' = c then f (m.maze_ r' c') else m.maze_ r' c' :=
  rfl

@[simp] theorem clear_facing_walls_rows (m : Maze) (r c : Int) :
    (clear_facing_walls m r c).maze_row_size_ = m.maze_row_size_ := by
  unfold clear_facing_walls; simp only []; split_ifs <;> rfl

@[simp] theorem clear_facing_walls_cols (m : Maze) (r c : Int) :
    (clear_facing_walls m r c).maze_col_size_ = m.maze_col_size_ := by
  unfold clear_facing_walls; simp only []; split_ifs <;> rfl

/-- A projection of a square that ignores the wall flags is not changed by
`clear_facing_walls`. -/
theorem clear_facing_walls_proj {α : Type} (g : Square → α)
    (hg : ∀ s : Square, g { s with south_wall := false } = g s
      ∧ g { s with north_wall := false } = g s
      ∧ g { s with east_wall := false } = g s
      ∧ g { s with west_wall := false } = g s)
    (m : Maze) (r c r' c' : Int) :
    g ((clear_facing_walls m r c).maze_ r' c') = g (m.maze_ r' c') := by
  have step : ∀ (m : Maze) (b : Prop) [Decidable b] (r c : Int) (f : Square → Square),
      (∀ s, g (f s) = g s) →
      g ((if b then m.modify r c f else m).maze_ r' c') = g (m.maze_ r' c') := by
    intro m b _ r c f hf
    split_ifs
    · rw [modify_get]; split_ifs
      · exact hf _
      · rfl
    · rfl
  unfold clear_facing_walls
  simp only []
  rw [step _ _ _ _ _ (fun s => (hg s).2.2.2), step _ _ _ _ _ (fun s => (hg s).2.2.1),
    step _ _ _ _ _ (fun s => (hg s).2.1), step _ _ _ _ _ (fun s => (hg s).1)]

theorem cond_modify_get (m : Maze) (b : Prop) [Decidable b] (r c : Int) (f : Square → Square)
    (r' c' : Int) :
    (if b then m.modify r c f else m).maze_ r' c'
      = if b ∧ r' = r ∧ c' = c then f (m.maze_ r' c') else m.maze_ r' c' := by
  by_cases hb : b <;> simp [hb, modify_get]

theorem clear_facing_walls_wall (m : Maze) (r c r' c' : Int) (side : Side)
    (h : m.in_array r' c') :
    ((clear_facing_walls m r c).maze_ r' c').wall side
      = ((m.maze_ r' c').wall side && !decide (r' + side.row = r ∧ c' + side.col = c)) := by
  obtain ⟨h1, h2, h3, h4⟩ := h
  unfold clear_facing_walls
  simp only [cond_modify_get]
  cases side <;> simp only [Square.wall, Side.row, Side.col, apply_ite Square.north_wall,
    apply_ite Square.south_wall, apply_ite Square.east_wall, apply_ite Square.west_wall, ite_self]
  · by_cases e : r' + -1 = r ∧ c' + 0 = c
    · have e1 : r' = r + 1 ∧ c' = c := by omega
      have e2 : r + 1 < m.maze_row_size_ := by omega
      simp [e1, e2]
    · have e1 : ¬ (r' = r + 1 ∧ c' = c) := by omega
      simp only [e, e1, and_false, if_false, decide_False, Bool.not_false, Bool.and_true]
  · by_cases e : r' + 0 = r ∧ c' + 1 = c
    · have e1 : r' = r ∧ c' = c - 1 := by omega
      have e2 : c - 1 ≥ 0 := by omega
      simp [e1, e2]
    · have e1 : ¬ (r' = r ∧ c' = c - 1) := by omega
      simp only [e, e1, and_false, if_false, decide_False, Bool.not_false, Bool.and_true]
  · by_cases e : r' + 1 = r ∧ c' + 0 = c
    · have e1 : r' = r - 1 ∧ c' = c := by omega
      have e2 : r - 1 ≥ 0 := by omega
      simp [e1, e2]
    · have e1 : ¬ (r' = r - 1 ∧ c' = c) := by omega
      simp only [e, e1, and_false, if_false, decide_False, Bool.not_false, Bool.and_true]
  · by_cases e : r' + 0 = r ∧ c' + -1 = c
    · have e1 : r' = r ∧ c' = c + 1 := by omega
      have e2 : c + 1 < m.maze_col_size_ := by omega
      simp [e1, e2]
    · have e1 : ¬ (r' = r ∧ c' = c + 1) := by omega
      simp only [e, e1, and_false, if_false, decide_False, Bool.not_false, Bool.and_true]

theorem clear_facing_walls_path_bit (m : Maze) (r c r' c' : Int) :
    ((clear_facing_walls m r c).maze_ r' c').path_bit = (m.maze_ r' c').path_bit :=
  clear_facing_walls_proj Square.path_bit (fun _ => ⟨rfl, rfl, rfl, rfl⟩) m r c r' c'

theorem clear_facing_walls_builder_bit (m : Maze) (r c r' c' : Int) :
    ((clear_facing_walls m r c).maze_ r' c').builder_bit = (m.maze_ r' c').builder_bit :=
  clear_facing_walls_proj Square.builder_bit (fun _ => ⟨rfl, rfl, rfl, rfl⟩) m r c r' c'

theorem clear_facing_walls_markers (m : Maze) (r c r' c' : Int) :
    ((clear_facing_walls m r c).maze_ r' c').markers = (m.maze_ r' c').markers :=
  clear_facing_walls_proj Square.markers (fun _ => ⟨rfl, rfl, rfl, rfl⟩) m r c r' c'

theorem clear_facing_walls_start_bit (m : Maze) (r c r' c' : Int) :
    ((clear_facing_walls m r c).maze_ r' c').start_bit = (m.maze_ r' c').start_bit :=
  clear_facing_walls_proj Square.start_bit (fun _ => ⟨rfl, rfl, rfl, rfl⟩) m r c r' c'

theorem clear_facing_walls_finish_bit (m : Maze) (r c r' c' : Int) :
    ((clear_facing_walls m r c).maze_ r' c').finish_bit = (m.maze_ r' c').finish_bit :=
  clear_facing_walls_proj Square.finish_bit (fun _ => ⟨rfl, rfl, rfl, rfl⟩) m r c r' c'

/-! ### `build_path` -/

@[simp] theorem build_path_rows (m : Maze) (r c : Int) :
    (build_path m r c).maze_row_size_ = m.maze_row_size_ := by simp [build_path]

@[simp] theorem build_path_cols (m : Maze) (r c : Int) :
    (build_path m r c).maze_col_size_ = m.maze_col_size_ := by simp [build_path]

theorem build_path_path_bit (m : Maze) (r c r' c' : Int) :
    ((build_path m r c).maze_ r' c').path_bit
      = ((m.maze_ r' c').path_bit || decide (r' = r ∧ c' = c)) := by
  unfold build_path
  rw [modify_get]
  by_cases e : r' = r ∧ c' = c
  · simp [e]
  · simp [e, clear_facing_walls_path_bit]

theorem build_path_builder_bit (m : Maze) (r c r' c' : Int) :
    ((build_path m r c).maze_ r' c').builder_bit = (m.maze_ r' c').builder_bit := by
  unfold build_path
  rw [modify_get]
  split_ifs <;> simp [clear_facing_walls_builder_bit]

theorem build_path_markers (m : Maze) (r c r' c' : Int) :
    ((build_path m r c).maze_ r' c').markers = (m.maze_ r' c').markers := by
  unfold build_path
  rw [modify_get]
  split_ifs <;> simp [clear_facing_walls_markers]

theorem build_path_start_bit (m : Maze) (r c r' c' : Int) :
    ((build_path m r c).maze_ r' c').start_bit = (m.maze_ r' c').start_bit := by
  unfold build_path
  rw [modify_get]
  split_ifs <;> simp [clear_facing_walls_start_bit]

theorem build_path_finish_bit (m : Maze) (r c r' c' : Int) :
    ((build_path m r c).maze_ r' c').finish_bit = (m.maze_ r' c').finish_bit := by
  unfold build_path
  rw [modify_get]
  split_ifs <;> simp [clear_facing_walls_finish_bit]

theorem build_path_wall (m : Maze) (r c r' c' : Int) (side : Side) (h : m.in_array r' c') :
    ((build_path m r c).maze_ r' c').wall side
      = ((m.maze_ r' c').wall side && !decide (r' + side.row = r ∧ c' + side.col = c)) := by
  unfold build_path
  rw [modify_get]
  split_ifs
  · rw [← clear_facing_walls_wall m r c r' c' side h]; cases side <;> rfl
  · exact clear_facing_walls_wall m r c r' c' side h

/-! ### `carve_path_walls` -/

@[simp] theorem carve_path_walls_rows (m : Maze) (r c : Int) :
    (carve_path_walls m r c).maze_row_size_ = m.maze_row_size_ := by simp [carve_path_walls]

@[simp] theorem carve_path_walls_cols (m : Maze) (r c : Int) :
    (carve_path_walls m r c).maze_col_size_ = m.maze_col_size_ := by simp [carve_path_walls]

theorem carve_path_walls_path_bit (m : Maze) (r c r' c' : Int) :
    ((carve_path_walls m r c).maze_ r' c').path_bit
      = ((m.maze_ r' c').path_bit || decide (r' = r ∧ c' = c)) := by
  unfold carve_path_walls
  rw [modify_get]
  by_cases e : r' = r ∧ c' = c
  · simp [e, clear_facing_walls_path_bit, modify_get]
  · simp [e, clear_facing_walls_path_bit, modify_get]

theorem carve_path_walls_builder_bit (m : Maze) (r c r' c' : Int) :
    ((carve_path_walls m r c).maze_ r' c').builder_bit
      = ((m.maze_ r' c').builder_bit || decide (r' = r ∧ c' = c)) := by
  unfold carve_path_walls
  rw [modify_get]
  by_cases e : r' = r ∧ c' = c
  · simp [e]
  · simp [e, clear_facing_walls_builder_bit, modify_get]

theorem carve_path_walls_markers (m : Maze) (r c r' c' : Int) :
    ((carve_path_walls m r c).maze_ r' c').markers = (m.maze_ r' c').markers := by
  unfold carve_path_walls
  rw [modify_get]
  split_ifs <;> simp only [clear_facing_walls_markers, modify_get] <;> split_ifs <;> rfl

theorem carve_path_walls_start_bit (m : Maze) (r c r' c' : Int) :
    ((carve_path_walls m r c).maze_ r' c').start_bit = (m.maze_ r' c').start_bit := by
  unfold carve_path_walls
  rw [modify_get]
  split_ifs <;> simp only [clear_facing_walls_start_bit, modify_get] <;> split_ifs <;> rfl

theorem carve_path_walls_finish_bit (m : Maze) (r c r' c' : Int) :
    ((carve_path_walls m r c).maze_ r' c').finish_bit = (m.maze_ r' c').finish_bit := by
  unfold carve_path_walls
  rw [modify_get]
  split_ifs <;> simp only [clear_facing_walls_finish_bit, modify_get] <;> split_ifs <;> rfl

theorem carve_path_walls_wall (m : Maze) (r c r' c' : Int) (side : Side)
    (h : m.in_array r' c') :
    ((carve_path_walls m r c).maze_ r' c').wall side
      = ((m.maze_ r' c').wall side && !decide (r' + side.row = r ∧ c' + side.col = c)) := by
  unfold carve_path_walls
  rw [modify_get]
  have key := clear_facing_walls_wall (m.modify r c fun s => { s with path_bit := true })
    r c r' c' side h
  have old : ((m.modify r c fun s => { s with path_bit := true }).maze_ r' c').wall side
      = (m.maze_ r' c').wall side := by
    rw [modify_get]; split_ifs <;> cases side <;> rfl
  rw [old] at key
  split_ifs
  · rw [← key]; cases side <;> rfl
  · exact key


/-! ### `connect_wall` and `wall_off` -/

theorem bool_cond_modify_get (m : Maze) (b : Bool) (r c : Int) (f : Square → Square)
    (r' c' : Int) :
    (if b = true then m.modify r c f else m).maze_ r' c'
      = if b = true ∧ r' = r ∧ c' = c then f (m.maze_ r' c') else m.maze_ r' c' := by
  cases b <;> simp [modify_get]

@[simp] theorem connect_wall_rows (m : Maze) (r c : Int) :
    (connect_wall m r c).maze_row_size_ = m.maze_row_size_ := by
  unfold connect_wall; simp only [modify_rows]; split_ifs <;> rfl

@[simp] theorem connect_wall_cols (m : Maze) (r c : Int) :
    (connect_wall m r c).maze_col_size_ = m.maze_col_size_ := by
  unfold connect_wall; simp only [modify_cols]; split_ifs <;> rfl

/-- A projection of a square that ignores the wall flags is not changed by
`connect_wall`. -/
theorem connect_wall_proj {α : Type} (g : Square → α)
    (hg : ∀ (s : Square) (n e so w : Bool),
      g { s with north_wall := n, east_wall := e, south_wall := so, west_wall := w } = g s)
    (m : Maze) (r c r' c' : Int) :
    g ((connect_wall m r c).maze_ r' c') = g (m.maze_ r' c') := by
  have step : ∀ (m : Maze) (b : Bool) (r c : Int) (f : Square → Square),
      (∀ s, g (f s) = g s) →
      g ((if b = true then m.modify r c f else m).maze_ r' c') = g (m.maze_ r' c') := by
    intro m b r c f hf
    rw [bool_cond_modify_get]; split_ifs
    · exact hf _
    · rfl
  unfold connect_wall
  simp only []
  rw [modify_get]
  have h1 : ∀ s : Square, g { s with south_wall := true } = g s := fun s =>
    hg s s.north_wall s.east_wall true s.west_wall
  have h2 : ∀ s : Square, g { s with north_wall := true } = g s := fun s =>
    hg s true s.east_wall s.south_wall s.west_wall
  have h3 : ∀ s : Square, g { s with east_wall := true } = g s := fun s =>
    hg s s.north_wall true s.south_wall s.west_wall
  have h4 : ∀ s : Square, g { s with west_wall := true } = g s := fun s =>
    hg s s.north_wall s.east_wall s.south_wall true
  by_cases e : r' = r ∧ c' = c
  · rw [if_pos e, hg, step _ _ _ _ _ h4, step _ _ _ _ _ h3, step _ _ _ _ _ h2,
      step _ _ _ _ _ h1]
  · rw [if_neg e, step _ _ _ _ _ h4, step _ _ _ _ _ h3, step _ _ _ _ _ h2, step _ _ _ _ _ h1]

theorem connect_wall_path_bit (m : Maze) (r c r' c' : Int) :
    ((connect_wall m r c).maze_ r' c').path_bit = (m.maze_ r' c').path_bit :=
  connect_wall_proj Square.path_bit (fun _ _ _ _ _ => rfl) m r c r' c'


theorem path_bit_set_south (m : Maze) (b : Bool) (r c r' c' : Int) :
    ((if b = true then m.modify r c fun s => { s with south_wall := true } else m).maze_
      r' c').path_bit = (m.maze_ r' c').path_bit := by
  rw [bool_cond_modify_get]; split_ifs <;> rfl

theorem path_bit_set_north (m : Maze) (b : Bool) (r c r' c' : Int) :
    ((if b = true then m.modify r c fun s => { s with north_wall := true } else m).maze_
      r' c').path_bit = (m.maze_ r' c').path_bit := by
  rw [bool_cond_modify_get]; split_ifs <;> rfl

theorem path_bit_set_east (m : Maze) (b : Bool) (r c r' c' : Int) :
    ((if b = true then m.modify r c fun s => { s with east_wall := true } else m).maze_
      r' c').path_bit = (m.maze_ r' c').path_bit := by
  rw [bool_cond_modify_get]; split_ifs <;> rfl

theorem connect_wall_wall (m : Maze) (r c r' c' : Int) (side : Side)
    (h : m.in_array r' c') (hrc : m.in_array r c) :
    ((connect_wall m r c).maze_ r' c').wall side
      = ((m.maze_ r' c').wall side
        || (decide (r' = r ∧ c' = c) && decide (m.in_array (r' + side.row) (c' + side.col))
            && !(m.maze_ (r' + side.row) (c' + side.col)).path_bit)
        || (decide (r' + side.row = r ∧ c' + side.col = c) && !(m.maze_ r' c').path_bit)) := by
  obtain ⟨h1, h2, h3, h4⟩ := h
  obtain ⟨k1, k2, k3, k4⟩ := hrc
  unfold connect_wall
  simp only [path_bit_set_south, path_bit_set_north, path_bit_set_east]
  simp only [modify_get, bool_cond_modify_get]
  cases side <;> simp only [Square.wall, Side.row, Side.col, apply_ite Square.north_wall,
    apply_ite Square.south_wall, apply_ite Square.east_wall, apply_ite Square.west_wall, ite_self,
    Maze.in_array]
  all_goals
    have a1 : ∀ x : Int, x + -1 = x - 1 := by intro x; omega
    have a2 : ∀ x : Int, x + 0 = x := by intro x; omega
    have a3 : decide (r' < m.maze_row_size_) = true := by simpa using h2
    have a4 : decide (c' < m.maze_col_size_) = true := by simpa using h4
    have a5 : decide (0 ≤ r') = true := by simpa using h1
    have a6 : decide (0 ≤ c') = true := by simpa using h3
    have a7 : decide (r' - 1 < m.maze_row_size_) = true := by simp; omega
    have a8 : decide (c' - 1 < m.maze_col_size_) = true := by simp; omega
    have a9 : decide (0 ≤ r' + 1) = true := by simp; omega
    have a10 : decide (0 ≤ c' + 1) = true := by simp; omega
    have a11 : ∀ x : Int, decide (x = x - 1) = false := by intro x; simp; omega
    have a12 : ∀ x : Int, decide (x = x + 1) = false := by intro x; simp
  · by_cases A : r' = r ∧ c' = c
    · obtain ⟨rfl, rfl⟩ := A
      simp [a1, a2, a3, a4, a5, a6, a7, a8, a9, a10, a11, a12]
    · by_cases B : r' = r + 1 ∧ c' = c
      · obtain ⟨rfl, rfl⟩ := B
        simp [k1, k2, k3, k4]
        have hx : decide (r + 1 < m.maze_row_size_) = true := by simp; omega
        rw [hx, Bool.true_and, Bool.or_comm]
      · have f1 : ¬ (r' + -1 = r ∧ c' + 0 = c) := by omega
        simp only [A, B, f1, false_and, and_false, if_false, decide_False, Bool.and_false,
          Bool.false_and, Bool.or_false, Bool.false_or, Bool.false_eq_true]
  · by_cases A : r' = r ∧ c' = c
    · obtain ⟨rfl, rfl⟩ := A
      simp [a1, a2, a3, a4, a5, a6, a7, a8, a9, a10, a11, a12]
    · by_cases B : r' = r ∧ c' = c - 1
      · obtain ⟨rfl, rfl⟩ := B
        simp [k1, k2, k3, k4]
        have hx : decide (1 ≤ c) = true := by simp; omega
        rw [hx, Bool.true_and, Bool.or_comm]
      · have f1 : ¬ (r' + 0 = r ∧ c' + 1 = c) := by omega
        simp only [A, B, f1, false_and, and_false, if_false, decide_False, Bool.and_false,
          Bool.false_and, Bool.or_false, Bool.false_or, Bool.false_eq_true]
  · by_cases A : r' = r ∧ c' = c
    · obtain ⟨rfl, rfl⟩ := A
      simp [a1, a2, a3, a4, a5, a6, a7, a8, a9, a10, a11, a12]
    · by_cases B : r' = r - 1 ∧ c' = c
      · obtain ⟨rfl, rfl⟩ := B
        simp [k1, k2, k3, k4]
        have hx : decide (1 ≤ r) = true := by simp; omega
        rw [hx, Bool.true_and, Bool.or_comm]
      · have f1 : ¬ (r' + 1 = r ∧ c' + 0 = c) := by omega
        simp only [A, B, f1, false_and, and_false, if_false, decide_False, Bool.and_false,
          Bool.false_and, Bool.or_false, Bool.false_or, Bool.false_eq_true]
  · by_cases A : r' = r ∧ c' = c
    · obtain ⟨rfl, rfl⟩ := A
      simp [a1, a2, a3, a4, a5, a6, a7, a8, a9, a10, a11, a12]
    · by_cases B : r' = r ∧ c' = c + 1
      · obtain ⟨rfl, rfl⟩ := B
        simp [k1, k2, k3, k4]
        have hx : decide (c + 1 < m.maze_col_size_) = true := by simp; omega
        rw [hx, Bool.true_and, Bool.or_comm]
      · have f1 : ¬ (r' + 0 = r ∧ c' + -1 = c) := by omega
        simp only [A, B, f1, false_and, and_false, if_false, decide_False, Bool.and_false,
          Bool.false_and, Bool.or_false, Bool.false_or, Bool.false_eq_true]

@[simp] theorem wall_off_rows (m : Maze) (r c : Int) :
    (wall_off m r c).maze_row_size_ = m.maze_row_size_ := by simp [wall_off]

@[simp] theorem wall_off_cols (m : Maze) (r c : Int) :
    (wall_off m r c).maze_col_size_ = m.maze_col_size_ := by simp [wall_off]

theorem wall_off_path (m : Maze) (r c r' c' : Int) :
    (wall_off m r c).path r' c' = (m.path r' c' && !decide (r' = r ∧ c' = c)) := by
  unfold wall_off Maze.path
  rw [connect_wall_path_bit, modify_get]
  by_cases e : r' = r ∧ c' = c <;> simp [e]

theorem side_ne (side : Side) : side.row ≠ 0 ∨ side.col ≠ 0 := by
  cases side <;> simp [Side.row, Side.col]

theorem wall_off_wall (m : Maze) (r c r' c' : Int) (side : Side)
    (h : m.in_array r' c') (hrc : m.in_array r c) :
    (wall_off m r c).wall r' c' side
      = (m.wall r' c' side
        || (decide (r' = r ∧ c' = c) && decide (m.in_array (r' + side.row) (c' + side.col))
            && !m.path (r' + side.row) (c' + side.col))
        || (decide (r' + side.row = r ∧ c' + side.col = c) && !m.path r' c')) := by
  unfold wall_off Maze.wall Maze.path
  have h' : (m.modify r c fun s => { s with path_bit := false }).in_array r' c' := h
  have hrc' : (m.modify r c fun s => { s with path_bit := false }).in_array r c := hrc
  rw [connect_wall_wall _ r c r' c' side h' hrc']
  have hs := side_ne side
  have w0 : ((m.modify r c fun s => { s with path_bit := false }).maze_ r' c').wall side
      = (m.maze_ r' c').wall side := by
    rw [modify_get]; split_ifs <;> cases side <;> rfl
  rw [w0]
  simp only [modify_get, Maze.in_array, modify_rows, modify_cols]
  by_cases A : r' = r ∧ c' = c
  · obtain ⟨rfl, rfl⟩ := A
    have hs1 : ¬ (side.row = 0 ∧ side.col = 0) := by omega
    have hs2 : (decide (side.row = 0) && decide (side.col = 0)) = false := by
      cases side <;> simp [Side.row, Side.col]
    simp [hs1, hs2]
  · by_cases B : r' + side.row = r ∧ c' + side.col = c
    · simp [A, B]
    · simp [A, B]

theorem in_array_sizes {m m' : Maze} (hr : m'.maze_row_size_ = m.maze_row_size_)
    (hc : m'.maze_col_size_ = m.maze_col_size_) (r c : Int) :
    m'.in_array r c ↔ m.in_array r c := by
  simp [Maze.in_array, hr, hc]

theorem within_perimeter_sizes {m m' : Maze} (hr : m'.maze_row_size_ = m.maze_row_size_)
    (hc : m'.maze_col_size_ = m.maze_col_size_) (r c : Int) :
    m'.within_perimeter r c ↔ m.within_perimeter r c := by
  simp [Maze.within_perimeter, hr, hc]

theorem on_ring_sizes {m m' : Maze} (hr : m'.maze_row_size_ = m.maze_row_size_)
    (hc : m'.maze_col_size_ = m.maze_col_size_) (r c : Int) :
    m'.on_ring r c ↔ m.on_ring r c := by
  simp [Maze.on_ring, Maze.in_array, hr, hc]

/-- Setting the passage flag of one cell and clearing the wall flags that face
it keeps the meaning of the wall flags. -/
theorem wall_inv_of_carve (m m' : Maze) (r c : Int)
    (hr : m'.maze_row_size_ = m.maze_row_size_) (hc : m'.maze_col_size_ = m.maze_col_size_)
    (hpath : ∀ r' c', (m'.maze_ r' c').path_bit
      = ((m.maze_ r' c').path_bit || decide (r' = r ∧ c' = c)))
    (hwall : ∀ r' c' side, m.in_array r' c' → (m'.maze_ r' c').wall side
      = ((m.maze_ r' c').wall side && !decide (r' + side.row = r ∧ c' + side.col = c)))
    (h : Wall_inv m) : Wall_inv m' := by
  intro r' c' side hin
  have hin' : m.in_array r' c' := (in_array_sizes hr hc _ _).1 hin
  have hw := h r' c' side hin'
  rw [in_array_sizes hr hc]
  unfold Maze.wall Maze.path at *
  rw [hwall r' c' side hin', hpath, hpath]
  constructor
  · intro hwall
    simp only [Bool.and_eq_true, Bool.not_eq_true', decide_eq_false_iff_not] at hwall
    obtain ⟨hz, hp⟩ := hw.1 hwall.1
    refine ⟨hz, ?_⟩
    simp only [Bool.or_eq_false_iff, decide_eq_false_iff_not]
    exact ⟨hp, hwall.2⟩
  · intro hp hz hpz
    simp only [Bool.or_eq_false_iff, decide_eq_false_iff_not] at hp hpz
    simp only [Bool.and_eq_true, Bool.not_eq_true', decide_eq_false_iff_not]
    exact ⟨hw.2 hp.1 hz hpz.1, hpz.2⟩

theorem wall_inv_build_path (m : Maze) (r c : Int) (h : Wall_inv m) :
    Wall_inv (build_path m r c) :=
  wall_inv_of_carve m _ r c (by simp) (by simp) (build_path_path_bit m r c)
    (build_path_wall m r c) h

theorem wall_inv_carve_path_walls (m : Maze) (r c : Int) (h : Wall_inv m) :
    Wall_inv (carve_path_walls m r c) :=
  wall_inv_of_carve m _ r c (by simp) (by simp) (carve_path_walls_path_bit m r c)
    (carve_path_walls_wall m r c) h

theorem wall_inv_wall_off (m : Maze) (r c : Int) (hrc : m.in_array r c) (h : Wall_inv m) :
    Wall_inv (wall_off m r c) := by
  intro r' c' side hin
  have hin' : m.in_array r' c' := (in_array_sizes (by simp) (by simp) _ _).1 hin
  have hw := h r' c' side hin'
  rw [in_array_sizes (wall_off_rows m r c) (wall_off_cols m r c)]
  rw [wall_off_wall m r c r' c' side hin' hrc, wall_off_path, wall_off_path]
  have hs := side_ne side
  constructor
  · intro hwall
    simp only [Bool.or_eq_true, Bool.and_eq_true, Bool.not_eq_true', decide_eq_true_eq]
      at hwall
    rcases hwall with (hwall | ⟨⟨_, hz⟩, hp⟩) | ⟨⟨e1, e2⟩, _⟩
    · obtain ⟨hz, hp⟩ := hw.1 hwall
      exact ⟨hz, by simp [hp]⟩
    · exact ⟨hz, by simp [hp]⟩
    · refine ⟨?_, by simp [e1, e2]⟩
      rw [e1, e2]; exact hrc
  · intro hp hz hpz
    simp only [Bool.or_eq_true, Bool.and_eq_true, Bool.not_eq_true', decide_eq_true_eq]
    simp only [Bool.and_eq_false_iff, Bool.not_eq_false', decide_eq_true_eq] at hp hpz
    by_cases A : r' = r ∧ c' = c
    · have hz' : decide (m.in_array (r' + side.row) (c' + side.col)) = true := by simpa using hz
      rcases hpz with hpz | hpz
      · exact Or.inl (Or.inr ⟨⟨A, hz⟩, hpz⟩)
      · omega
    · rcases hp with hp | hp
      · rcases hpz with hpz | hpz
        · exact Or.inl (Or.inl (hw.2 hp hz hpz))
        · exact Or.inr ⟨hpz, hp⟩
      · exact absurd hp A

theorem wall_inv_frame (m : Maze) (r c : Int) (f : Square → Square)
    (hf : ∀ s, (f s).path_bit = s.path_bit ∧ ∀ side, (f s).wall side = s.wall side)
    (h : Wall_inv m) : Wall_inv (m.modify r c f) := by
  have hp : ∀ r' c', (m.modify r c f).path r' c' = m.path r' c' := by
    intro r' c'; unfold Maze.path; rw [modify_get]; split_ifs
    · exact (hf _).1
    · rfl
  have hwl : ∀ r' c' side, (m.modify r c f).wall r' c' side = m.wall r' c' side := by
    intro r' c' side; unfold Maze.wall; rw [modify_get]; split_ifs
    · exact (hf _).2 side
    · rfl
  intro r' c' side hin
  rw [hp, hp, hwl]
  exact h r' c' side hin

theorem carve_stable_wall_inv : Carve_stable Wall_inv :=
  { build_path := fun m r c _ h => wall_inv_build_path m r c h
    carve_path_walls := fun m r c _ h => wall_inv_carve_path_walls m r c h
    wall_off := fun m r c hrc h => wall_inv_wall_off m r c hrc h
    frame := fun m r c f hf h => wall_inv_frame m r c f hf h }

theorem within_not_on_ring (m : Maze) (r c : Int) (h : m.within_perimeter r c) :
    ¬ m.on_ring r c := by
  unfold Maze.within_perimeter at h; unfold Maze.on_ring Maze.in_array; omega

theorem carve_stable_perimeter_closed : Carve_stable Perimeter_closed := by
  refine ⟨?_, ?_, ?_, ?_⟩
  · intro m r c hw h r' c' hring
    have hring' : m.on_ring r' c' := (on_ring_sizes (by simp) (by simp) _ _).1 hring
    have := within_not_on_ring m r c hw
    unfold Maze.path
    rw [build_path_path_bit]
    have hne : ¬ (r' = r ∧ c' = c) := by rintro ⟨rfl, rfl⟩; exact this hring'
    simpa [hne] using h r' c' hring'
  · intro m r c hw h r' c' hring
    have hring' : m.on_ring r' c' := (on_ring_sizes (by simp) (by simp) _ _).1 hring
    have := within_not_on_ring m r c hw
    unfold Maze.path
    rw [carve_path_walls_path_bit]
    have hne : ¬ (r' = r ∧ c' = c) := by rintro ⟨rfl, rfl⟩; exact this hring'
    simpa [hne] using h r' c' hring'
  · intro m r c _ h r' c' hring
    have hring' : m.on_ring r' c' := (on_ring_sizes (by simp) (by simp) _ _).1 hring
    rw [wall_off_path, h r' c' hring']
    rfl
  · intro m r c f hf h r' c' hring
    have hring' : m.on_ring r' c' := hring
    unfold Maze.path
    rw [modify_get]
    split_ifs
    · rw [(hf _).1]; exact h r' c' hring'
    · exact h r' c' hring'


/-! ## Loops over cells -/

/-- Loop invariant rule for `for_cells`. -/
theorem for_cells_induction (Q : Maze → Prop) (lo hi clo chi : Int)
    (body : Maze → Int → Int → Maze) (m : Maze) (h0 : Q m)
    (hstep : ∀ m r c, lo ≤ r → r < hi → clo ≤ c → c < chi → Q m → Q (body m r c)) :
    Q (for_cells lo hi clo chi body m) := by
  unfold for_cells
  have inner : ∀ (r : Int), lo ≤ r → r < hi → ∀ (l : List Nat),
      (∀ j ∈ l, clo + (j : Int) < chi) → ∀ m, Q m →
      Q (l.foldl (fun m (j : Nat) => body m r (clo + j)) m) := by
    intro r hr1 hr2 l
    induction l with
    | nil => intro _ m hm; exact hm
    | cons j l ih =>
      intro hl m hm
      rw [List.foldl_cons]
      apply ih (fun j' hj' => hl j' (List.mem_cons_of_mem _ hj'))
      exact hstep m r (clo + j) hr1 hr2 (by omega) (hl j (List.mem_cons_self _ _)) hm
  have outer : ∀ (l : List Nat), (∀ i ∈ l, lo + (i : Int) < hi) → ∀ m, Q m →
      Q (l.foldl (fun m (i : Nat) => (List.range (chi - clo).toNat).foldl
        (fun m (j : Nat) => body m (lo + i) (clo + j)) m) m) := by
    intro l
    induction l with
    | nil => intro _ m hm; exact hm
    | cons i l ih =>
      intro hl m hm
      rw [List.foldl_cons]
      apply ih (fun i' hi' => hl i' (List.mem_cons_of_mem _ hi'))
      apply inner (lo + i) (by omega) (hl i (List.mem_cons_self _ _)) _ _ m hm
      intro j hj
      have := List.mem_range.1 hj
      omega
  apply outer _ _ m h0
  intro i hi'
  have := List.mem_range.1 hi'
  omega

theorem uniform_int_range (lo hi : Int) (raw : Nat) (h : lo ≤ hi) :
    lo ≤ uniform_int lo hi raw ∧ uniform_int lo hi raw ≤ hi := by
  unfold uniform_int
  have h1 : (0 : Int) < hi - lo + 1 := by omega
  have h2 := Int.emod_nonneg (raw : Int) (ne_of_gt h1)
  have h3 := Int.emod_lt_of_pos (raw : Int) h1
  omega

/-- Every value of the range is drawn by some raw number. -/
theorem uniform_int_onto (lo hi v : Int) (h1 : lo ≤ v) (h2 : v ≤ hi) :
    ∃ raw, uniform_int lo hi raw = v := by
  refine ⟨(v - lo).toNat, ?_⟩
  unfold uniform_int
  have h3 : ((v - lo).toNat : Int) = v - lo := Int.toNat_of_nonneg (by omega)
  rw [h3, Int.emod_eq_of_lt (by omega) (by omega)]
  omega

theorem shuffle_mem (raw : Nat) : shuffle raw ∈ direction_orders := by
  unfold shuffle
  have h : raw % 24 < direction_orders.length := Nat.mod_lt _ (by decide)
  rw [List.getD_eq_getElem _ _ h]
  exact List.getElem_mem h

theorem shuffle_perm (raw : Nat) : (shuffle raw).Perm [0, 1, 2, 3] := by
  have h := shuffle_mem raw
  revert h
  generalize shuffle raw = l
  intro h
  simp only [direction_orders, List.mem_cons, List.mem_singleton, List.not_mem_nil, or_false] at h
  rcases h with h | h | h | h | h | h | h | h | h | h | h | h | h | h | h | h | h | h | h | h
    | h | h | h | h <;> subst h <;> decide

/-- Every order of the four direction indices is the result of some shuffle. -/
theorem shuffle_onto (l : List Nat) (h : l ∈ direction_orders) : ∃ raw, shuffle raw = l := by
  obtain ⟨i, hi, rfl⟩ := List.getElem_of_mem h
  refine ⟨i, ?_⟩
  unfold shuffle
  have hi' : i < 24 := hi
  rw [Nat.mod_eq_of_lt hi', List.getD_eq_getElem _ _ hi]

theorem shuffle_lt (raw i : Nat) (h : i ∈ shuffle raw) : i < 4 := by
  have := (shuffle_perm raw).mem_iff.1 h
  simp at this
  omega

theorem shuffle_all (raw i : Nat) (h : i < 4) : i ∈ shuffle raw := by
  apply (shuffle_perm raw).mem_iff.2
  interval_cases i <;> simp


/-! ## The carving operations -/

@[simp] theorem or_marker_rows (m : Maze) (r c : Int) (k : Nat) :
    (or_marker m r c k).maze_row_size_ = m.maze_row_size_ := rfl

@[simp] theorem or_marker_cols (m : Maze) (r c : Int) (k : Nat) :
    (or_marker m r c k).maze_col_size_ = m.maze_col_size_ := rfl

@[simp] theorem clear_markers_rows (m : Maze) (r c : Int) :
    (clear_markers m r c).maze_row_size_ = m.maze_row_size_ := rfl

@[simp] theorem clear_markers_cols (m : Maze) (r c : Int) :
    (clear_markers m r c).maze_col_size_ = m.maze_col_size_ := rfl

/-- The mark `carve_path_markings` and `mark_origin` leave on `next`. -/
theorem mark_toward_cases (cur next : Point) :
    (next.row < cur.row ∨ next.row > cur.row ∨ next.col < cur.col ∨ next.col > cur.col)
      ∨ next = cur := by
  by_cases h1 : next.row < cur.row
  · exact Or.inl (Or.inl h1)
  by_cases h2 : next.row > cur.row
  · exact Or.inl (Or.inr (Or.inl h2))
  by_cases h3 : next.col < cur.col
  · exact Or.inl (Or.inr (Or.inr (Or.inl h3)))
  by_cases h4 : next.col > cur.col
  · exact Or.inl (Or.inr (Or.inr (Or.inr h4)))
  right
  cases next; cases cur
  simp only [Point.mk.injEq] at *
  omega

@[simp] theorem carve_path_markings_rows (m : Maze) (cur next : Point) :
    (carve_path_markings m cur next).maze_row_size_ = m.maze_row_size_ := by
  unfold carve_path_markings
  simp only [carve_path_walls_rows]
  split_ifs <;> simp

@[simp] theorem carve_path_markings_cols (m : Maze) (cur next : Point) :
    (carve_path_markings m cur next).maze_col_size_ = m.maze_col_size_ := by
  unfold carve_path_markings
  simp only [carve_path_walls_cols]
  split_ifs <;> simp

theorem wall_between_within (m : Maze) (cur next : Point)
    (h1 : m.within_perimeter cur.row cur.col) (h2 : m.within_perimeter next.row next.col) :
    m.within_perimeter (wall_between cur next).row (wall_between cur next).col := by
  unfold wall_between
  unfold Maze.within_perimeter at *
  split_ifs <;> (try dsimp only) <;> omega

theorem carve_stable_or_marker {P : Maze → Prop} (hP : Carve_stable P) (m : Maze) (r c : Int)
    (k : Nat) (h : P m) : P (or_marker m r c k) :=
  hP.frame m r c _ (fun s => ⟨rfl, fun side => by cases side <;> rfl⟩) h

theorem carve_stable_clear_markers {P : Maze → Prop} (hP : Carve_stable P) (m : Maze)
    (r c : Int) (h : P m) : P (clear_markers m r c) :=
  hP.frame m r c _ (fun s => ⟨rfl, fun side => by cases side <;> rfl⟩) h

theorem carve_stable_carve_path_markings {P : Maze → Prop} (hP : Carve_stable P) (m : Maze)
    (cur next : Point) (h1 : m.within_perimeter cur.row cur.col)
    (h2 : m.within_perimeter next.row next.col) (h : P m) :
    P (carve_path_markings m cur next) := by
  have hw := wall_between_within m cur next h1 h2
  unfold carve_path_markings
  simp only []
  have w1 : ∀ m' : Maze, m'.maze_row_size_ = m.maze_row_size_ → m'.maze_col_size_ = m.maze_col_size_ →
      ∀ r c, m.within_perimeter r c → m'.within_perimeter r c :=
    fun m' e1 e2 r c hh => (within_perimeter_sizes e1 e2 r c).2 hh
  have hm1 := hP.carve_path_walls m cur.row cur.col h1 h
  apply hP.carve_path_walls
  · apply w1 _ _ _ _ _ hw <;> (simp only [carve_path_walls_rows, carve_path_walls_cols]; split_ifs <;> simp)
  apply hP.carve_path_walls
  · apply w1 _ _ _ _ _ h2 <;> (split_ifs <;> simp)
  split_ifs
  · exact carve_stable_or_marker hP _ _ _ _ hm1
  · exact carve_stable_or_marker hP _ _ _ _ hm1
  · exact carve_stable_or_marker hP _ _ _ _ hm1
  · exact carve_stable_or_marker hP _ _ _ _ hm1
  · exact hm1


theorem or_marker_get (m : Maze) (r c : Int) (k : Nat) (r' c' : Int) :
    (or_marker m r c k).maze_ r' c'
      = if r' = r ∧ c' = c then { m.maze_ r' c' with markers := (m.maze_ r' c').markers ||| k }
        else m.maze_ r' c' := rfl

theorem clear_markers_get (m : Maze) (r c : Int) (r' c' : Int) :
    (clear_markers m r c).maze_ r' c'
      = if r' = r ∧ c' = c then { m.maze_ r' c' with markers := 0 } else m.maze_ r' c' := rfl

theorem or_marker_zero (m : Maze) (r c : Int) : or_marker m r c 0 = m := by
  unfold or_marker Maze.modify
  cases m with
  | mk rows cols cells =>
    simp only [Maze.mk.injEq, true_and]
    funext r' c'
    split_ifs
    · simp
    · rfl

/-- The `if` chain of `carve_path_markings` written with `mark_from`. -/
theorem carve_path_markings_eq (m : Maze) (cur next : Point) :
    carve_path_markings m cur next
      = carve_path_walls
          (carve_path_walls
            (or_marker (carve_path_walls m cur.row cur.col) next.row next.col (mark_from cur next))
            next.row next.col)
          (wall_between cur next).row (wall_between cur next).col := by
  unfold carve_path_markings mark_from
  split_ifs <;> simp only [or_marker_zero]

theorem carve_path_markings_builder_bit (m : Maze) (cur next : Point) (r' c' : Int) :
    ((carve_path_markings m cur next).maze_ r' c').builder_bit
      = ((m.maze_ r' c').builder_bit || decide (r' = cur.row ∧ c' = cur.col)
        || decide (r' = next.row ∧ c' = next.col)
        || decide (r' = (wall_between cur next).row ∧ c' = (wall_between cur next).col)) := by
  rw [carve_path_markings_eq]
  simp only [carve_path_walls_builder_bit, or_marker_get]
  split_ifs <;> simp only [carve_path_walls_builder_bit]

theorem carve_path_markings_path_bit (m : Maze) (cur next : Point) (r' c' : Int) :
    ((carve_path_markings m cur next).maze_ r' c').path_bit
      = ((m.maze_ r' c').path_bit || decide (r' = cur.row ∧ c' = cur.col)
        || decide (r' = next.row ∧ c' = next.col)
        || decide (r' = (wall_between cur next).row ∧ c' = (wall_between cur next).col)) := by
  rw [carve_path_markings_eq]
  simp only [carve_path_walls_path_bit, or_marker_get]
  split_ifs <;> simp only [carve_path_walls_path_bit]

theorem carve_path_markings_markers (m : Maze) (cur next : Point) (r' c' : Int) :
    ((carve_path_markings m cur next).maze_ r' c').markers
      = if r' = next.row ∧ c' = next.col then (m.maze_ r' c').markers ||| mark_from cur next
        else (m.maze_ r' c').markers := by
  rw [carve_path_markings_eq]
  simp only [carve_path_walls_markers, or_marker_get]
  split_ifs <;> simp only [carve_path_walls_markers]

theorem carve_path_markings_start_bit (m : Maze) (cur next : Point) (r' c' : Int) :
    ((carve_path_markings m cur next).maze_ r' c').start_bit = (m.maze_ r' c').start_bit := by
  rw [carve_path_markings_eq]
  simp only [carve_path_walls_start_bit, or_marker_get]
  split_ifs <;> simp only [carve_path_walls_start_bit]

theorem carve_path_markings_finish_bit (m : Maze) (cur next : Point) (r' c' : Int) :
    ((carve_path_markings m cur next).maze_ r' c').finish_bit = (m.maze_ r' c').finish_bit := by
  rw [carve_path_markings_eq]
  simp only [carve_path_walls_finish_bit, or_marker_get]
  split_ifs <;> simp only [carve_path_walls_finish_bit]

theorem generate_directions_mem (d : Point) :
    d ∈ generate_directions_ ↔ d = ⟨-2, 0⟩ ∨ d = ⟨0, 2⟩ ∨ d = ⟨2, 0⟩ ∨ d = ⟨0, -2⟩ := by
  simp [generate_directions_]

theorem generate_directions_getD (i : Nat) (h : i < 4) :
    generate_directions_.getD i ⟨0, 0⟩ ∈ generate_directions_ := by
  interval_cases i <;> simp [generate_directions_]

/-- The mark left on `cur + direction` leads back to `cur`. -/
theorem back_step (cur d : Point) (h : d ∈ generate_directions_) :
    (cur.step d).step (backtracking_marks_.getD (mark_from cur (cur.step d)) ⟨0, 0⟩) = cur := by
  rw [generate_directions_mem] at h
  rcases h with rfl | rfl | rfl | rfl <;>
    simp [Point.step, mark_from, backtracking_marks_, from_north_, from_south_, from_east_,
      from_west_]

theorem find_unbuilt_some (m : Maze) (cur : Point) (order : List Nat) (d : Point)
    (ho : ∀ i ∈ order, i < 4) (h : find_unbuilt m cur order = some d) :
    d ∈ generate_directions_ ∧ m.within_perimeter (cur.step d).row (cur.step d).col
      ∧ (m.maze_ (cur.step d).row (cur.step d).col).builder_bit = false := by
  induction order with
  | nil => simp [find_unbuilt] at h
  | cons i rest ih =>
    unfold find_unbuilt at h
    simp only [] at h
    split_ifs at h with hc
    · simp only [Option.some.injEq] at h
      subst h
      exact ⟨generate_directions_getD i (ho i (List.mem_cons_self _ _)), hc.1, hc.2⟩
    · exact ih (fun j hj => ho j (List.mem_cons_of_mem _ hj)) h

theorem find_unbuilt_none (m : Maze) (cur : Point) (order : List Nat)
    (h : find_unbuilt m cur order = none) (i : Nat) (hi : i ∈ order) :
    ¬ (m.within_perimeter (cur.step (generate_directions_.getD i ⟨0, 0⟩)).row
          (cur.step (generate_directions_.getD i ⟨0, 0⟩)).col
        ∧ (m.maze_ (cur.step (generate_directions_.getD i ⟨0, 0⟩)).row
          (cur.step (generate_directions_.getD i ⟨0, 0⟩)).col).builder_bit = false) := by
  induction order with
  | nil => simp at hi
  | cons j rest ih =>
    unfold find_unbuilt at h
    simp only [] at h
    split_ifs at h with hc
    rcases List.mem_cons.1 hi with rfl | hi'
    · exact hc
    · exact ih h hi'


/-! ## The depth first builder stays within the perimeter -/

theorem dfs_iteration_rows (gen : Nat → Nat) (s : Dfs_state) :
    (dfs_iteration gen s).maze.maze_row_size_ = s.maze.maze_row_size_ := by
  unfold dfs_iteration
  split
  · simp
  · split_ifs <;> simp

theorem dfs_iteration_cols (gen : Nat → Nat) (s : Dfs_state) :
    (dfs_iteration gen s).maze.maze_col_size_ = s.maze.maze_col_size_ := by
  unfold dfs_iteration
  split
  · simp
  · split_ifs <;> simp

theorem dfs_iteration_start (gen : Nat → Nat) (s : Dfs_state) :
    (dfs_iteration gen s).start_ = s.start_ := by
  unfold dfs_iteration
  split
  · rfl
  · split_ifs <;> rfl

theorem dfs_iteration_keeps {P : Maze → Prop} (hP : Carve_stable P) (gen : Nat → Nat)
    (s : Dfs_state) (hs : Dfs_safe s) (h : P s.maze) :
    Dfs_safe (dfs_iteration gen s) ∧ P (dfs_iteration gen s).maze := by
  obtain ⟨hcur, hstart, hmarks, hfree⟩ := hs
  have hr := dfs_iteration_rows gen s
  have hc := dfs_iteration_cols gen s
  have hst := dfs_iteration_start gen s
  have tr : ∀ r c, (dfs_iteration gen s).maze.within_perimeter r c ↔ s.maze.within_perimeter r c :=
    within_perimeter_sizes hr hc
  unfold Dfs_safe Marks_ok
  simp only [tr, hst]
  unfold dfs_iteration
  split
  · rename_i d hd
    obtain ⟨hdir, hnext, hnb⟩ := find_unbuilt_some _ _ _ _ (fun i hi => shuffle_lt _ i hi) hd
    have hm0 := hfree _ _ hnext hnb
    refine ⟨⟨hnext, hstart, ?_, ?_⟩, carve_stable_carve_path_markings hP _ _ _ hcur hnext h⟩
    · intro r c hw
      simp only [carve_path_markings_markers]
      split_ifs with e
      · obtain ⟨rfl, rfl⟩ := e
        rw [hm0, Nat.zero_or]
        have := back_step s.cur d hdir
        have e1 := congrArg Point.row this
        have e2 := congrArg Point.col this
        simp only [Point.step] at e1 e2 ⊢
        rw [e1, e2]
        exact hcur
      · exact hmarks r c hw
    · intro r c hw hb
      simp only [carve_path_markings_builder_bit, Bool.or_eq_false_iff,
        decide_eq_false_iff_not] at hb
      simp only [carve_path_markings_markers]
      rw [if_neg hb.1.2]
      exact hfree r c hw hb.1.1.1
  · split_ifs with hne
    · refine ⟨⟨hmarks _ _ hcur, hstart, ?_, ?_⟩, carve_stable_clear_markers hP _ _ _ h⟩
      · intro r c hw
        simp only [clear_markers_get]
        split_ifs with e
        · simpa [backtracking_marks_] using hw
        · exact hmarks r c hw
      · intro r c hw hb
        simp only [clear_markers_get] at hb ⊢
        split_ifs with e
        · rfl
        · rw [if_neg e] at hb
          exact hfree r c hw hb
    · exact ⟨⟨hcur, hstart, hmarks, hfree⟩, h⟩

theorem dfs_loop_keeps {P : Maze → Prop} (hP : Carve_stable P) (gen : Nat → Nat) (fuel : Nat)
    (s : Dfs_state) (hs : Dfs_safe s) (h : P s.maze) :
    Dfs_safe (dfs_loop gen fuel s) ∧ P (dfs_loop gen fuel s).maze := by
  induction fuel generalizing s with
  | zero => exact ⟨hs, h⟩
  | succ n ih =>
    unfold dfs_loop
    split_ifs
    · obtain ⟨h1, h2⟩ := dfs_iteration_keeps hP gen s hs h
      exact ih _ h1 h2
    · exact ⟨hs, h⟩

theorem dfs_loop_rows (gen : Nat → Nat) (fuel : Nat) (s : Dfs_state) :
    (dfs_loop gen fuel s).maze.maze_row_size_ = s.maze.maze_row_size_ := by
  induction fuel generalizing s with
  | zero => rfl
  | succ n ih =>
    unfold dfs_loop
    split_ifs
    · rw [ih, dfs_iteration_rows]
    · rfl

theorem dfs_loop_cols (gen : Nat → Nat) (fuel : Nat) (s : Dfs_state) :
    (dfs_loop gen fuel s).maze.maze_col_size_ = s.maze.maze_col_size_ := by
  induction fuel generalizing s with
  | zero => rfl
  | succ n ih =>
    unfold dfs_loop
    split_ifs
    · rw [ih, dfs_iteration_cols]
    · rfl

theorem dfs_init_keeps {P : Maze → Prop} (hP : Carve_stable P) (gen : Nat → Nat) (m : Maze)
    (pos : Nat) (hr : 3 ≤ m.maze_row_size_) (hc : 3 ≤ m.maze_col_size_)
    (h0 : ∀ r c, (m.maze_ r c).markers = 0) (h : P m) :
    Dfs_safe (dfs_init gen m pos) ∧ P (dfs_init gen m pos).maze := by
  have h1 := uniform_int_range 1 (m.maze_row_size_ - 2) (gen pos) (by omega)
  have h2 := uniform_int_range 1 (m.maze_col_size_ - 2) (gen (pos + 1)) (by omega)
  have hw : m.within_perimeter (uniform_int 1 (m.maze_row_size_ - 2) (gen pos))
      (uniform_int 1 (m.maze_col_size_ - 2) (gen (pos + 1))) := by
    unfold Maze.within_perimeter; omega
  have hz : ∀ r c, ((dfs_init gen m pos).maze.maze_ r c).markers = 0 := by
    intro r c
    unfold dfs_init
    simp only [clear_markers_get]
    split_ifs
    · rfl
    · exact h0 r c
  refine ⟨⟨hw, hw, ?_, fun r c _ _ => hz r c⟩, carve_stable_clear_markers hP _ _ _ h⟩
  intro r c hwr
  rw [hz r c]
  simpa [backtracking_marks_] using hwr


/-! ## The loop-erased walk stays within the perimeter -/

@[simp] theorem build_with_marks_rows (m : Maze) (cur next : Point) :
    (build_with_marks m cur next).maze_row_size_ = m.maze_row_size_ := by
  simp [build_with_marks]

@[simp] theorem build_with_marks_cols (m : Maze) (cur next : Point) :
    (build_with_marks m cur next).maze_col_size_ = m.maze_col_size_ := by
  simp [build_with_marks]

theorem build_with_marks_builder_bit (m : Maze) (cur next : Point) (r' c' : Int) :
    ((build_with_marks m cur next).maze_ r' c').builder_bit
      = ((m.maze_ r' c').builder_bit || decide (r' = cur.row ∧ c' = cur.col)
        || decide (r' = next.row ∧ c' = next.col)
        || decide (r' = (wall_between cur next).row ∧ c' = (wall_between cur next).col)) := by
  simp only [build_with_marks, carve_path_walls_builder_bit]

theorem build_with_marks_path_bit (m : Maze) (cur next : Point) (r' c' : Int) :
    ((build_with_marks m cur next).maze_ r' c').path_bit
      = ((m.maze_ r' c').path_bit || decide (r' = cur.row ∧ c' = cur.col)
        || decide (r' = next.row ∧ c' = next.col)
        || decide (r' = (wall_between cur next).row ∧ c' = (wall_between cur next).col)) := by
  simp only [build_with_marks, carve_path_walls_path_bit]

theorem build_with_marks_markers (m : Maze) (cur next : Point) (r' c' : Int) :
    ((build_with_marks m cur next).maze_ r' c').markers = (m.maze_ r' c').markers := by
  simp only [build_with_marks, carve_path_walls_markers]

theorem build_with_marks_start_bit (m : Maze) (cur next : Point) (r' c' : Int) :
    ((build_with_marks m cur next).maze_ r' c').start_bit = (m.maze_ r' c').start_bit := by
  simp only [build_with_marks, carve_path_walls_start_bit]

theorem build_with_marks_finish_bit (m : Maze) (cur next : Point) (r' c' : Int) :
    ((build_with_marks m cur next).maze_ r' c').finish_bit = (m.maze_ r' c').finish_bit := by
  simp only [build_with_marks, carve_path_walls_finish_bit]

theorem carve_stable_build_with_marks {P : Maze → Prop} (hP : Carve_stable P) (m : Maze)
    (cur next : Point) (h1 : m.within_perimeter cur.row cur.col)
    (h2 : m.within_perimeter next.row next.col) (h : P m) :
    P (build_with_marks m cur next) := by
  have hw := wall_between_within m cur next h1 h2
  unfold build_with_marks
  apply hP.carve_path_walls
  · exact (within_perimeter_sizes (by simp) (by simp) _ _).2 hw
  apply hP.carve_path_walls
  · exact (within_perimeter_sizes (by simp) (by simp) _ _).2 h2
  exact hP.carve_path_walls m _ _ h1 h

theorem mark_origin_eq (m : Maze) (walk next : Point) :
    mark_origin m walk next = or_marker m next.row next.col (mark_from walk next) := by
  unfold mark_origin mark_from
  split_ifs <;> first | rfl | omega | simp only [or_marker_zero]

theorem find_walk_step_some (m : Maze) (walk prev : Point) (order : List Nat) (next : Point)
    (ho : ∀ i ∈ order, i < 4) (h : find_walk_step m walk prev order = some next) :
    (∃ d ∈ generate_directions_, next = walk.step d)
      ∧ m.within_perimeter next.row next.col ∧ next ≠ prev := by
  induction order with
  | nil => simp [find_walk_step] at h
  | cons i rest ih =>
    unfold find_walk_step at h
    simp only [] at h
    split_ifs at h with hc
    · exact ih (fun j hj => ho j (List.mem_cons_of_mem _ hj)) h
    · simp only [Option.some.injEq] at h
      subst h
      refine ⟨⟨_, generate_directions_getD i (ho i (List.mem_cons_self _ _)), rfl⟩, ?_, ?_⟩
      · unfold Maze.within_perimeter; omega
      · tauto

theorem mem_lattice_scan (m : Maze) (init : Int) (p : Point) (h : p ∈ lattice_scan m init) :
    init ≤ p.row ∧ p.row < m.maze_row_size_ - 1 ∧ init ≤ p.col ∧ p.col < m.maze_col_size_ - 1
      ∧ (p.row - init) % 2 = 0 ∧ (p.col - init) % 2 = 0 := by
  unfold lattice_scan at h
  simp only [List.mem_flatMap, List.mem_map, List.mem_range] at h
  obtain ⟨i, hi, j, hj, rfl⟩ := h
  simp only []
  omega

theorem choose_arbitrary_point_spec (m : Maze) (init : Int) (hinit : 1 ≤ init) :
    choose_arbitrary_point m init = ⟨0, 0⟩
      ∨ (m.within_perimeter (choose_arbitrary_point m init).row (choose_arbitrary_point m init).col
          ∧ (m.maze_ (choose_arbitrary_point m init).row
              (choose_arbitrary_point m init).col).builder_bit = false) := by
  unfold choose_arbitrary_point
  cases hf : (lattice_scan m init).find? fun p => !(m.maze_ p.row p.col).builder_bit with
  | none => left; rfl
  | some p =>
    right
    have h1 := List.find?_some hf
    have h2 := mem_lattice_scan m init p (List.mem_of_find?_eq_some hf)
    simp only [Option.getD_some]
    refine ⟨?_, by simpa using h1⟩
    unfold Maze.within_perimeter; omega


@[simp] theorem clear_start_rows (m : Maze) (r c : Int) :
    (clear_start m r c).maze_row_size_ = m.maze_row_size_ := rfl

@[simp] theorem clear_start_cols (m : Maze) (r c : Int) :
    (clear_start m r c).maze_col_size_ = m.maze_col_size_ := rfl

theorem clear_start_get (m : Maze) (r c : Int) (r' c' : Int) :
    (clear_start m r c).maze_ r' c'
      = if r' = r ∧ c' = c then { m.maze_ r' c' with start_bit := false } else m.maze_ r' c' :=
  rfl

theorem carve_stable_clear_start {P : Maze → Prop} (hP : Carve_stable P) (m : Maze)
    (r c : Int) (h : P m) : P (clear_start m r c) :=
  hP.frame m r c _ (fun s => ⟨rfl, fun side => by cases side <;> rfl⟩) h

theorem wilson_step_rows (gen : Nat → Nat) (s : Wilson_state) :
    (wilson_step gen s).maze.maze_row_size_ = s.maze.maze_row_size_ := by
  unfold wilson_step
  split
  · simp only []
    split
    · rfl
    · split_ifs <;> simp [mark_origin_eq]
  · simp only []; split_ifs <;> simp
  · simp only []; split_ifs <;> simp
  · rfl

theorem wilson_step_cols (gen : Nat → Nat) (s : Wilson_state) :
    (wilson_step gen s).maze.maze_col_size_ = s.maze.maze_col_size_ := by
  unfold wilson_step
  split
  · simp only []
    split
    · rfl
    · split_ifs <;> simp [mark_origin_eq]
  · simp only []; split_ifs <;> simp
  · simp only []; split_ifs <;> simp
  · rfl

theorem marks_zero_within (m : Maze) (r c : Int) (h : m.within_perimeter r c) :
    m.within_perimeter (r + (backtracking_marks_.getD 0 ⟨0, 0⟩).row)
      (c + (backtracking_marks_.getD 0 ⟨0, 0⟩).col) := by
  simpa [backtracking_marks_] using h

theorem wilson_step_keeps {P : Maze → Prop} (hP : Carve_stable P) (gen : Nat → Nat)
    (s : Wilson_state) (hs : Wilson_safe s) (h : P s.maze) :
    Wilson_safe (wilson_step gen s) ∧ P (wilson_step gen s).maze := by
  obtain ⟨hwalk, hmarks, hmk, hcon, hera⟩ := hs
  have tr : ∀ r c, (wilson_step gen s).maze.within_perimeter r c ↔ s.maze.within_perimeter r c :=
    within_perimeter_sizes (wilson_step_rows gen s) (wilson_step_cols gen s)
  unfold Wilson_safe Marks_ok
  simp only [tr]
  unfold wilson_step
  split
  · -- walking
    rename_i hph
    have hw := hwalk (by rw [hph]; simp)
    simp only []
    have hPm : P (s.maze.modify s.walk.row s.walk.col fun q => { q with start_bit := true }) :=
      hP.frame _ _ _ _ (fun s => ⟨rfl, fun side => by cases side <;> rfl⟩) h
    split
    · refine ⟨⟨fun _ => hw, ?_, ?_, ?_, ?_⟩, hPm⟩
      · intro r c hrc
        simp only [modify_get]
        split_ifs <;> exact hmarks r c hrc
      · intro r c hrc hne
        simp only [modify_get] at hne ⊢
        split_ifs at hne ⊢ with e
        · left; rfl
        · rcases hmk r c hrc hne with h1 | h1 | h1
          · exact Or.inl h1
          · exact Or.inr (Or.inl h1)
          · exact absurd h1.2 e
      · intro cur hcur; rw [hph] at hcur; cases hcur
      · intro cur root hcur; rw [hph] at hcur; cases hcur
    · rename_i next hnext
      obtain ⟨⟨d, hd, rfl⟩, hwn, _⟩ :=
        find_walk_step_some _ _ _ _ _ (fun i hi => shuffle_lt _ i hi) hnext
      have hwn' : s.maze.within_perimeter (s.walk.step d).row (s.walk.step d).col := hwn
      split_ifs with hb hst
      · refine ⟨⟨fun _ => hw, ?_, ?_, ?_, ?_⟩,
          carve_stable_build_with_marks hP _ _ _ hw hwn' hPm⟩
        · intro r c hrc
          simp only [build_with_marks_markers, modify_get]
          split_ifs <;> exact hmarks r c hrc
        · intro r c hrc hne
          simp only [build_with_marks_markers, build_with_marks_start_bit,
            build_with_marks_builder_bit, modify_get] at hne ⊢
          split_ifs at hne ⊢ with e
          · left; rfl
          · rcases hmk r c hrc hne with h1 | h1 | h1
            · exact Or.inl h1
            · right; left; simp [h1]
            · exact absurd h1.2 e
        · intro cur hcur
          simp only [Wilson_phase.connecting.injEq] at hcur
          rw [← hcur]; exact hw
        · intro cur root hcur; cases hcur
      · refine ⟨⟨fun _ => hw, ?_, ?_, ?_, ?_⟩, hPm⟩
        · intro r c hrc
          simp only [modify_get]
          split_ifs <;> exact hmarks r c hrc
        · intro r c hrc hne
          simp only [modify_get] at hne ⊢
          split_ifs at hne ⊢ with e
          · left; rfl
          · rcases hmk r c hrc hne with h1 | h1 | h1
            · exact Or.inl h1
            · exact Or.inr (Or.inl h1)
            · exact absurd h1.2 e
        · intro cur hcur; cases hcur
        · intro cur root hcur
          simp only [Wilson_phase.erasing.injEq] at hcur
          rw [← hcur.1, ← hcur.2]; exact ⟨hw, hwn'⟩
      · -- an ordinary step of the walk
        have hne : ¬ ((s.walk.step d).row = s.walk.row ∧ (s.walk.step d).col = s.walk.col) := by
          rw [generate_directions_mem] at hd
          rcases hd with rfl | rfl | rfl | rfl <;> simp [Point.step]
        have hzero : (s.maze.maze_ (s.walk.step d).row (s.walk.step d).col).markers = 0 := by
          by_contra hm
          simp only [modify_get, if_neg hne] at hb hst
          rcases hmk _ _ hwn' hm with h1 | h1 | h1
          · exact hst h1
          · exact hb h1
          · exact hne h1.2
        rw [mark_origin_eq]
        refine ⟨⟨fun _ => hwn', ?_, ?_, ?_, ?_⟩, carve_stable_or_marker hP _ _ _ _ hPm⟩
        · intro r c hrc
          simp only [or_marker_get, modify_get]
          by_cases e : r = (s.walk.step d).row ∧ c = (s.walk.step d).col
          · obtain ⟨rfl, rfl⟩ := e
            rw [if_pos ⟨rfl, rfl⟩, if_neg hne]
            simp only []
            rw [hzero, Nat.zero_or]
            have := back_step s.walk d hd
            have e1 := congrArg Point.row this
            have e2 := congrArg Point.col this
            simp only [Point.step] at e1 e2 ⊢
            rw [e1, e2]
            exact hw
          · rw [if_neg e]
            split_ifs <;> exact hmarks r c hrc
        · intro r c hrc hnz
          simp only [or_marker_get, modify_get] at hnz ⊢
          by_cases e : r = (s.walk.step d).row ∧ c = (s.walk.step d).col
          · right; right; exact ⟨hph, e⟩
          · rw [if_neg e] at hnz ⊢
            split_ifs at hnz ⊢ with e2
            · left; rfl
            · rcases hmk r c hrc hnz with h1 | h1 | h1
              · exact Or.inl h1
              · exact Or.inr (Or.inl h1)
              · exact absurd h1.2 e2
        · intro cur hcur; rw [hph] at hcur; cases hcur
        · intro cur root hcur; rw [hph] at hcur; cases hcur
  · -- inside connect_walk_to_maze
    rename_i cur hph
    have hw := hcon cur hph
    have hmk' : ∀ r c, s.maze.within_perimeter r c → (s.maze.maze_ r c).markers ≠ 0 →
        (s.maze.maze_ r c).start_bit = true ∨ (s.maze.maze_ r c).builder_bit = true := by
      intro r c hrc hnz
      rcases hmk r c hrc hnz with h1 | h1 | h1
      · exact Or.inl h1
      · exact Or.inr h1
      · rw [hph] at h1; cases h1.1
    simp only []
    split_ifs with hm hrow
    · have hnext := hmarks _ _ hw
      have hP1 := carve_stable_clear_start hP _ cur.row cur.col h
      have hP2 := carve_stable_build_with_marks hP (clear_start s.maze cur.row cur.col) cur
        (cur.step (backtracking_marks_.getD
          ((clear_start s.maze cur.row cur.col).maze_ cur.row cur.col).markers ⟨0, 0⟩)) hw
        (by simpa [clear_start_get, Point.step] using hnext) hP1
      refine ⟨⟨fun _ => hwalk (by rw [hph]; simp), ?_, ?_, ?_, ?_⟩,
        carve_stable_clear_markers hP _ _ _ hP2⟩
      · intro r c hrc
        simp only [clear_markers_get]
        split_ifs with e
        · exact marks_zero_within _ _ _ hrc
        · simp only [build_with_marks_markers, clear_start_get]
          split_ifs; exact hmarks r c hrc
      · intro r c hrc hnz
        simp only [clear_markers_get] at hnz ⊢
        split_ifs at hnz ⊢ with e
        · exact absurd rfl hnz
        · simp only [build_with_marks_markers, build_with_marks_start_bit,
            build_with_marks_builder_bit, clear_start_get, if_neg e] at hnz ⊢
          rcases hmk' r c hrc hnz with h1 | h1
          · exact Or.inl h1
          · right; left; simp [h1]
      · intro cur' hcur
        simp only [Wilson_phase.connecting.injEq] at hcur
        rw [← hcur]
        simpa [clear_start_get, Point.step] using hnext
      · intro cur' root hcur; cases hcur
    · have hP2 : P (carve_path_walls
          (clear_markers (clear_start s.maze cur.row cur.col) cur.row cur.col) cur.row cur.col) :=
        hP.carve_path_walls _ _ _ hw
          (carve_stable_clear_markers hP _ _ _ (carve_stable_clear_start hP _ _ _ h))
      refine ⟨⟨fun hne => absurd rfl hne, ?_, ?_, ?_, ?_⟩, hP2⟩
      · intro r c hrc
        simp only [carve_path_walls_markers, clear_markers_get, clear_start_get]
        split_ifs
        · exact marks_zero_within _ _ _ hrc
        · exact hmarks r c hrc
      · intro r c hrc hnz
        simp only [carve_path_walls_markers, carve_path_walls_start_bit,
          carve_path_walls_builder_bit, clear_markers_get, clear_start_get] at hnz ⊢
        split_ifs at hnz ⊢ with e
        · exact absurd rfl hnz
        · rcases hmk' r c hrc hnz with h1 | h1
          · exact Or.inl h1
          · right; left; simp [h1]
      · intro cur' hcur; cases hcur
      · intro cur' root hcur; cases hcur
    · have hP2 : P (carve_path_walls
          (clear_markers (clear_start s.maze cur.row cur.col) cur.row cur.col) cur.row cur.col) :=
        hP.carve_path_walls _ _ _ hw
          (carve_stable_clear_markers hP _ _ _ (carve_stable_clear_start hP _ _ _ h))
      have hch := choose_arbitrary_point_spec (carve_path_walls
          (clear_markers (clear_start s.maze cur.row cur.col) cur.row cur.col) cur.row cur.col)
          1 (le_refl _)
      generalize choose_arbitrary_point (carve_path_walls
          (clear_markers (clear_start s.maze cur.row cur.col) cur.row cur.col) cur.row cur.col)
          1 = w at hrow hch ⊢
      have hwalk' : s.maze.within_perimeter w.row w.col := by
        rcases hch with h0 | h0
        · rw [h0] at hrow; exact absurd rfl hrow
        · exact (within_perimeter_sizes (by simp) (by simp) _ _).1 h0.1
      refine ⟨⟨fun _ => hwalk', ?_, ?_, ?_, ?_⟩, carve_stable_clear_markers hP _ _ _ hP2⟩
      · intro r c hrc
        simp only [clear_markers_get]
        by_cases e1 : r = w.row ∧ c = w.col
        · rw [if_pos e1]; exact marks_zero_within _ _ _ hrc
        · rw [if_neg e1]
          simp only [carve_path_walls_markers, clear_markers_get, clear_start_get]
          split_ifs
          · exact marks_zero_within _ _ _ hrc
          · exact hmarks r c hrc
      · intro r c hrc hnz
        simp only [clear_markers_get] at hnz ⊢
        by_cases e1 : r = w.row ∧ c = w.col
        · rw [if_pos e1] at hnz; exact absurd rfl hnz
        · rw [if_neg e1] at hnz ⊢
          simp only [carve_path_walls_markers, carve_path_walls_start_bit,
            carve_path_walls_builder_bit, clear_markers_get, clear_start_get] at hnz ⊢
          split_ifs at hnz ⊢ with e2
          · exact absurd rfl hnz
          · rcases hmk' r c hrc hnz with h1 | h1
            · exact Or.inl h1
            · right; left; simp [h1]
      · intro cur' hcur; cases hcur
      · intro cur' root hcur; cases hcur
  · -- inside erase_loop
    rename_i cur root hph
    obtain ⟨hw, hwr⟩ := hera cur root hph
    have hmk' : ∀ r c, s.maze.within_perimeter r c → (s.maze.maze_ r c).markers ≠ 0 →
        (s.maze.maze_ r c).start_bit = true ∨ (s.maze.maze_ r c).builder_bit = true := by
      intro r c hrc hnz
      rcases hmk r c hrc hnz with h1 | h1 | h1
      · exact Or.inl h1
      · exact Or.inr h1
      · rw [hph] at h1; cases h1.1
    simp only []
    split_ifs with hne
    · have hnext := hmarks _ _ hw
      refine ⟨⟨fun _ => hwalk (by rw [hph]; simp), ?_, ?_, ?_, ?_⟩,
        carve_stable_clear_markers hP _ _ _ (carve_stable_clear_start hP _ _ _ h)⟩
      · intro r c hrc
        simp only [clear_markers_get, clear_start_get]
        split_ifs
        · exact marks_zero_within _ _ _ hrc
        · exact hmarks r c hrc
      · intro r c hrc hnz
        simp only [clear_markers_get, clear_start_get] at hnz ⊢
        split_ifs at hnz ⊢ with e
        · exact absurd rfl hnz
        · rcases hmk' r c hrc hnz with h1 | h1
          · exact Or.inl h1
          · exact Or.inr (Or.inl h1)
      · intro cur' hcur; cases hcur
      · intro cur' root' hcur
        simp only [Wilson_phase.erasing.injEq] at hcur
        rw [← hcur.1, ← hcur.2]
        exact ⟨by simpa [clear_start_get, Point.step] using hnext, hwr⟩
    · refine ⟨⟨fun _ => hwr, hmarks, ?_, ?_, ?_⟩, h⟩
      · intro r c hrc hnz
        rcases hmk' r c hrc hnz with h1 | h1
        · exact Or.inl h1
        · exact Or.inr (Or.inl h1)
      · intro cur' hcur; cases hcur
      · intro cur' root' hcur; cases hcur
  · exact ⟨⟨hwalk, hmarks, hmk, hcon, hera⟩, h⟩


@[simp] theorem set_builder_rows (m : Maze) (r c : Int) :
    (set_builder m r c).maze_row_size_ = m.maze_row_size_ := rfl

@[simp] theorem set_builder_cols (m : Maze) (r c : Int) :
    (set_builder m r c).maze_col_size_ = m.maze_col_size_ := rfl

theorem set_builder_get (m : Maze) (r c : Int) (r' c' : Int) :
    (set_builder m r c).maze_ r' c'
      = if r' = r ∧ c' = c then { m.maze_ r' c' with builder_bit := true } else m.maze_ r' c' :=
  rfl

theorem carve_stable_set_builder {P : Maze → Prop} (hP : Carve_stable P) (m : Maze)
    (r c : Int) (h : P m) : P (set_builder m r c) :=
  hP.frame m r c _ (fun s => ⟨rfl, fun side => by cases side <;> rfl⟩) h

theorem iterate_invariant {α : Type} (f : α → α) (Q : α → Prop) (h : ∀ a, Q a → Q (f a))
    (n : Nat) (a : α) (ha : Q a) : Q (f^[n] a) := by
  induction n generalizing a with
  | zero => exact ha
  | succ n ih => rw [Function.iterate_succ_apply]; exact ih _ (h a ha)

theorem wilson_init_keeps {P : Maze → Prop} (hP : Carve_stable P) (m : Maze) (pos : Nat)
    (hr : 7 ≤ m.maze_row_size_) (hc : 7 ≤ m.maze_col_size_)
    (h0 : ∀ r c, (m.maze_ r c).markers = 0) (h : P m) :
    Wilson_safe (wilson_init m pos) ∧ P (wilson_init m pos).maze := by
  have hz : ∀ r c, ((wilson_init m pos).maze.maze_ r c).markers = 0 := by
    intro r c
    unfold wilson_init
    simp only [clear_markers_get, set_builder_get]
    split_ifs <;> first | rfl | (simp only [build_path_markers]; exact h0 r c)
  have hw : m.within_perimeter (if m.maze_row_size_ / 2 % 2 = 0 then m.maze_row_size_ / 2 + 1
      else m.maze_row_size_ / 2) (if m.maze_col_size_ / 2 % 2 = 0 then m.maze_col_size_ / 2 + 1
      else m.maze_col_size_ / 2) := by
    unfold Maze.within_perimeter
    split_ifs <;> omega
  refine ⟨⟨fun _ => ?_, ?_, ?_, ?_, ?_⟩, ?_⟩
  · show (wilson_init m pos).maze.within_perimeter 1 1
    apply (within_perimeter_sizes _ _ _ _).2 (show m.within_perimeter 1 1 from by
      unfold Maze.within_perimeter; omega) <;> simp [wilson_init]
  · intro r c hrc
    rw [hz r c]
    exact marks_zero_within _ _ _ hrc
  · intro r c _ hnz
    exact absurd (hz r c) hnz
  · intro cur hcur; cases hcur
  · intro cur root hcur; cases hcur
  · unfold wilson_init
    apply carve_stable_clear_markers hP
    apply carve_stable_set_builder hP
    exact hP.build_path m _ _ hw h

theorem wilson_keeps {P : Maze → Prop} (hP : Carve_stable P) (gen : Nat → Nat) (fuel : Nat)
    (m : Maze) (pos : Nat) (hr : 7 ≤ m.maze_row_size_) (hc : 7 ≤ m.maze_col_size_)
    (h0 : ∀ r c, (m.maze_ r c).markers = 0) (h : P m) :
    P (generate_randomized_loop_erased_maze gen fuel m pos).maze := by
  unfold generate_randomized_loop_erased_maze
  exact (iterate_invariant (wilson_step gen) (fun s => Wilson_safe s ∧ P s.maze)
    (fun s hs => wilson_step_keeps hP gen s hs.1 hs.2) fuel _
    (wilson_init_keeps hP m pos hr hc h0 h)).2

theorem dfs_keeps {P : Maze → Prop} (hP : Carve_stable P) (gen : Nat → Nat) (fuel : Nat)
    (m : Maze) (pos : Nat) (hr : 3 ≤ m.maze_row_size_) (hc : 3 ≤ m.maze_col_size_)
    (h0 : ∀ r c, (m.maze_ r c).markers = 0) (h : P m) :
    P (generate_randomized_dfs_maze gen fuel m pos).maze := by
  unfold generate_randomized_dfs_maze
  obtain ⟨h1, h2⟩ := dfs_init_keeps hP gen m pos hr hc h0 h
  exact (dfs_loop_keeps hP gen fuel _ h1 h2).2

/-! ## The subdivision stays inside the array -/

theorem choose_division_range (axis_limit : Int) (raw : Nat) (h : 4 ≤ axis_limit) :
    1 ≤ choose_division axis_limit raw ∧ choose_division axis_limit raw ≤ axis_limit - 2 := by
  have hu := uniform_int_range 1 (axis_limit - 2) raw (by omega)
  unfold choose_division
  simp only []
  split_ifs <;> omega

theorem wall_row_keeps (Q : Maze → Prop) (m : Maze) (row col0 width passage : Int)
    (hQ : ∀ m c, col0 ≤ c → c < col0 + width → Q m → Q (wall_off m row c)) (h : Q m) :
    Q (wall_row m row col0 width passage) := by
  unfold wall_row
  have : ∀ (l : List Nat), (∀ j ∈ l, (j : Int) < width) → ∀ m, Q m →
      Q (l.foldl (fun m (j : Nat) =>
        if (j : Int) ≠ passage then wall_off m row (col0 + j) else m) m) := by
    intro l
    induction l with
    | nil => intro _ m hm; exact hm
    | cons j l ih =>
      intro hl m hm
      rw [List.foldl_cons]
      apply ih (fun j' hj' => hl j' (List.mem_cons_of_mem _ hj'))
      have := hl j (List.mem_cons_self _ _)
      split_ifs
      · exact hQ m _ (by omega) (by omega) hm
      · exact hm
  apply this _ _ m h
  intro j hj
  have := List.mem_range.1 hj
  omega

theorem wall_col_keeps (Q : Maze → Prop) (m : Maze) (row0 col height passage : Int)
    (hQ : ∀ m r, row0 ≤ r → r < row0 + height → Q m → Q (wall_off m r col)) (h : Q m) :
    Q (wall_col m row0 col height passage) := by
  unfold wall_col
  have : ∀ (l : List Nat), (∀ i ∈ l, (i : Int) < height) → ∀ m, Q m →
      Q (l.foldl (fun m (i : Nat) =>
        if (i : Int) ≠ passage then wall_off m (row0 + i) col else m) m) := by
    intro l
    induction l with
    | nil => intro _ m hm; exact hm
    | cons i l ih =>
      intro hl m hm
      rw [List.foldl_cons]
      apply ih (fun i' hi' => hl i' (List.mem_cons_of_mem _ hi'))
      have := hl i (List.mem_cons_self _ _)
      split_ifs
      · exact hQ m _ (by omega) (by omega) hm
      · exact hm
  apply this _ _ m h
  intro i hi
  have := List.mem_range.1 hi
  omega

/-- A property with the sizes of the grid attached, as the loops need it. -/
theorem wall_row_sized {P : Maze → Prop} (hP : Carve_stable P) (m : Maze)
    (row col0 width passage : Int) (hrow : 0 ≤ row ∧ row < m.maze_row_size_)
    (hcol : 0 ≤ col0 ∧ col0 + width ≤ m.maze_col_size_) (h : P m) :
    P (wall_row m row col0 width passage)
      ∧ (wall_row m row col0 width passage).maze_row_size_ = m.maze_row_size_
      ∧ (wall_row m row col0 width passage).maze_col_size_ = m.maze_col_size_ := by
  apply wall_row_keeps (fun m' => P m' ∧ m'.maze_row_size_ = m.maze_row_size_
    ∧ m'.maze_col_size_ = m.maze_col_size_)
  · intro m' c hc1 hc2 ⟨hm', e1, e2⟩
    refine ⟨hP.wall_off m' row c ?_ hm', by simp [e1], by simp [e2]⟩
    unfold Maze.in_array; omega
  · exact ⟨h, rfl, rfl⟩

theorem wall_col_sized {P : Maze → Prop} (hP : Carve_stable P) (m : Maze)
    (row0 col height passage : Int) (hcol : 0 ≤ col ∧ col < m.maze_col_size_)
    (hrow : 0 ≤ row0 ∧ row0 + height ≤ m.maze_row_size_) (h : P m) :
    P (wall_col m row0 col height passage)
      ∧ (wall_col m row0 col height passage).maze_row_size_ = m.maze_row_size_
      ∧ (wall_col m row0 col height passage).maze_col_size_ = m.maze_col_size_ := by
  apply wall_col_keeps (fun m' => P m' ∧ m'.maze_row_size_ = m.maze_row_size_
    ∧ m'.maze_col_size_ = m.maze_col_size_)
  · intro m' r hr1 hr2 ⟨hm', e1, e2⟩
    refine ⟨hP.wall_off m' r col ?_ hm', by simp [e1], by simp [e2]⟩
    unfold Maze.in_array; omega
  · exact ⟨h, rfl, rfl⟩

theorem fractal_iteration_keeps {P : Maze → Prop} (hP : Carve_stable P) (gen : Nat → Nat)
    (s : Fractal_state) (hs : Fractal_safe s) (h : P s.maze) :
    Fractal_safe (fractal_iteration gen s) ∧ P (fractal_iteration gen s).maze
      ∧ (fractal_iteration gen s).maze.maze_row_size_ = s.maze.maze_row_size_
      ∧ (fractal_iteration gen s).maze.maze_col_size_ = s.maze.maze_col_size_ := by
  unfold fractal_iteration
  split
  · exact ⟨hs, h, rfl, rfl⟩
  · rename_i chamber rest hst
    have hch := hs chamber (by rw [hst]; exact List.mem_cons_self _ _)
    have hrest : ∀ ch ∈ rest, 0 ≤ ch.offset.row ∧ 0 ≤ ch.offset.col
        ∧ ch.offset.row + ch.height ≤ s.maze.maze_row_size_
        ∧ ch.offset.col + ch.width ≤ s.maze.maze_col_size_ :=
      fun ch hmem => hs ch (by rw [hst]; exact List.mem_cons_of_mem _ hmem)
    split_ifs with c1 c2
    · have hd := choose_division_range chamber.height (gen s.pos) (by omega)
      obtain ⟨k1, k2, k3⟩ := wall_row_sized hP s.maze
        (chamber.offset.row + choose_division chamber.height (gen s.pos)) chamber.offset.col
        chamber.width (choose_passage chamber.width (gen (s.pos + 1))) (by omega) (by omega) h
      refine ⟨?_, k1, k2, k3⟩
      intro ch hmem
      simp only [k2, k3]
      simp only [List.mem_cons] at hmem
      rcases hmem with rfl | rfl | hmem
      · simp only []; omega
      · simp only []; omega
      · exact hrest ch hmem
    · have hd := choose_division_range chamber.width (gen s.pos) (by omega)
      obtain ⟨k1, k2, k3⟩ := wall_col_sized hP s.maze chamber.offset.row
        (chamber.offset.col + choose_division chamber.width (gen s.pos))
        chamber.height (choose_passage chamber.height (gen (s.pos + 1))) (by omega) (by omega) h
      refine ⟨?_, k1, k2, k3⟩
      intro ch hmem
      simp only [k2, k3]
      simp only [List.mem_cons] at hmem
      rcases hmem with rfl | rfl | hmem
      · simp only []; omega
      · simp only []; omega
      · exact hrest ch hmem
    · exact ⟨fun ch hmem => hrest ch hmem, h, rfl, rfl⟩


theorem for_cells_sized {P : Maze → Prop} (lo hi clo chi : Int)
    (body : Maze → Int → Int → Maze) (m : Maze) (h0 : P m)
    (hstep : ∀ m', m'.maze_row_size_ = m.maze_row_size_ →
      m'.maze_col_size_ = m.maze_col_size_ → ∀ r c, lo ≤ r → r < hi → clo ≤ c → c < chi →
      P m' → P (body m' r c) ∧ (body m' r c).maze_row_size_ = m'.maze_row_size_
        ∧ (body m' r c).maze_col_size_ = m'.maze_col_size_) :
    P (for_cells lo hi clo chi body m)
      ∧ (for_cells lo hi clo chi body m).maze_row_size_ = m.maze_row_size_
      ∧ (for_cells lo hi clo chi body m).maze_col_size_ = m.maze_col_size_ := by
  apply for_cells_induction (fun m' => P m' ∧ m'.maze_row_size_ = m.maze_row_size_
    ∧ m'.maze_col_size_ = m.maze_col_size_)
  · exact ⟨h0, rfl, rfl⟩
  · intro m' r c h1 h2 h3 h4 ⟨hp, e1, e2⟩
    obtain ⟨k1, k2, k3⟩ := hstep m' e1 e2 r c h1 h2 h3 h4 hp
    exact ⟨k1, k2.trans e1, k3.trans e2⟩

theorem fractal_init_keeps {P : Maze → Prop} (hP : Carve_stable P) (m : Maze) (pos : Nat)
    (h : P m) :
    Fractal_safe (fractal_init m pos) ∧ P (fractal_init m pos).maze := by
  obtain ⟨k1, k2, k3⟩ := for_cells_sized (P := P) 1 (m.maze_row_size_ - 1) 1
    (m.maze_col_size_ - 1) build_path m h (by
      intro m' e1 e2 r c h1 h2 h3 h4 hp
      refine ⟨hP.build_path m' r c ?_ hp, by simp, by simp⟩
      unfold Maze.within_perimeter; omega)
  refine ⟨?_, k1⟩
  intro ch hmem
  unfold fractal_init at hmem ⊢
  simp only [List.mem_singleton] at hmem
  subst hmem
  simp only [k2, k3]
  omega

theorem fractal_keeps {P : Maze → Prop} (hP : Carve_stable P) (gen : Nat → Nat) (fuel : Nat)
    (m : Maze) (pos : Nat) (h : P m) :
    P (generate_randomized_fractal_maze gen fuel m pos).maze := by
  unfold generate_randomized_fractal_maze
  exact (iterate_invariant (fractal_iteration gen) (fun s => Fractal_safe s ∧ P s.maze)
    (fun s hs => ⟨(fractal_iteration_keeps hP gen s hs.1 hs.2).1,
      (fractal_iteration_keeps hP gen s hs.1 hs.2).2.1⟩) fuel _
    (fractal_init_keeps hP m pos h)).2

theorem fractal_iteration_sizes (gen : Nat → Nat) (s : Fractal_state) (hs : Fractal_safe s) :
    Fractal_safe (fractal_iteration gen s)
      ∧ (fractal_iteration gen s).maze.maze_row_size_ = s.maze.maze_row_size_
      ∧ (fractal_iteration gen s).maze.maze_col_size_ = s.maze.maze_col_size_ := by
  have hT : Carve_stable (fun _ => True) := ⟨fun _ _ _ _ _ => trivial, fun _ _ _ _ _ => trivial,
    fun _ _ _ _ _ => trivial, fun _ _ _ _ _ _ => trivial⟩
  obtain ⟨k1, _, k3, k4⟩ := fractal_iteration_keeps hT gen s hs trivial
  exact ⟨k1, k3, k4⟩

theorem fractal_sizes (gen : Nat → Nat) (fuel : Nat) (m : Maze) (pos : Nat) :
    (generate_randomized_fractal_maze gen fuel m pos).maze.maze_row_size_ = m.maze_row_size_
      ∧ (generate_randomized_fractal_maze gen fuel m pos).maze.maze_col_size_
        = m.maze_col_size_ := by
  have hT : Carve_stable (fun _ => True) := ⟨fun _ _ _ _ _ => trivial, fun _ _ _ _ _ => trivial,
    fun _ _ _ _ _ => trivial, fun _ _ _ _ _ _ => trivial⟩
  have h0 : (fractal_init m pos).maze.maze_row_size_ = m.maze_row_size_
      ∧ (fractal_init m pos).maze.maze_col_size_ = m.maze_col_size_ := by
    have := for_cells_sized (P := fun _ => True) 1 (m.maze_row_size_ - 1) 1
      (m.maze_col_size_ - 1) build_path m trivial (by
        intro m' e1 e2 r c h1 h2 h3 h4 hp
        exact ⟨trivial, by simp, by simp⟩)
    exact this.2
  unfold generate_randomized_fractal_maze
  have := iterate_invariant (fractal_iteration gen)
    (fun s => Fractal_safe s ∧ s.maze.maze_row_size_ = m.maze_row_size_
      ∧ s.maze.maze_col_size_ = m.maze_col_size_)
    (fun s hs => by
      obtain ⟨k1, k2, k3⟩ := fractal_iteration_sizes gen s hs.1
      exact ⟨k1, k2.trans hs.2.1, k3.trans hs.2.2⟩) fuel (fractal_init m pos)
    ⟨(fractal_init_keeps hT m pos trivial).1, h0⟩
  exact this.2

/-! ## The grid builder stays within the perimeter -/

@[simp] theorem join_squares_rows (m : Maze) (cur next : Point) :
    (join_squares m cur next).maze_row_size_ = m.maze_row_size_ := by
  simp [join_squares]

@[simp] theorem join_squares_cols (m : Maze) (cur next : Point) :
    (join_squares m cur next).maze_col_size_ = m.maze_col_size_ := by
  simp [join_squares]

theorem carve_stable_join_squares {P : Maze → Prop} (hP : Carve_stable P) (m : Maze)
    (cur next : Point) (h1 : m.within_perimeter cur.row cur.col)
    (h2 : m.within_perimeter next.row next.col) (h : P m) :
    P (join_squares m cur next) := by
  have hw := wall_between_within m cur next h1 h2
  unfold join_squares
  apply carve_stable_set_builder hP
  apply hP.build_path
  · exact (within_perimeter_sizes (by simp) (by simp) _ _).2 h2
  apply carve_stable_set_builder hP
  exact hP.build_path m _ _ hw h

theorem complete_run_keeps {P : Maze → Prop} (hP : Carve_stable P) (direction : Point)
    (left : Nat) (m : Maze) (dfs : List Point) (cur next : Point)
    (hcur : m.within_perimeter cur.row cur.col)
    (hdfs : ∀ p ∈ dfs, m.within_perimeter p.row p.col) (h : P m) :
    P (complete_run direction left m dfs cur next).1
      ∧ (complete_run direction left m dfs cur next).1.maze_row_size_ = m.maze_row_size_
      ∧ (complete_run direction left m dfs cur next).1.maze_col_size_ = m.maze_col_size_
      ∧ ∀ p ∈ (complete_run direction left m dfs cur next).2, m.within_perimeter p.row p.col := by
  induction left generalizing m dfs cur next with
  | zero => exact ⟨h, rfl, rfl, hdfs⟩
  | succ n ih =>
    unfold complete_run
    split_ifs with hc
    · have hnext : m.within_perimeter next.row next.col := by
        unfold Maze.within_perimeter; omega
      have tr : ∀ r c, (set_builder (join_squares (set_builder m cur.row cur.col) cur next)
          next.row next.col).within_perimeter r c ↔ m.within_perimeter r c :=
        within_perimeter_sizes (by simp) (by simp)
      obtain ⟨k1, k2, k3, k4⟩ := ih
        (set_builder (join_squares (set_builder m cur.row cur.col) cur next) next.row next.col)
        (next :: dfs) next (next.step direction) ((tr _ _).2 hnext)
        (by
          intro p hp
          rw [tr]
          rcases List.mem_cons.1 hp with rfl | hp
          · exact hnext
          · exact hdfs p hp)
        (carve_stable_set_builder hP _ _ _
          (carve_stable_join_squares hP _ _ _ hcur hnext (carve_stable_set_builder hP _ _ _ h)))
      refine ⟨k1, by rw [k2]; simp, by rw [k3]; simp, ?_⟩
      intro p hp
      exact (tr _ _).1 (k4 p hp)
    · exact ⟨h, rfl, rfl, hdfs⟩

theorem grid_iteration_keeps {P : Maze → Prop} (hP : Carve_stable P) (gen : Nat → Nat)
    (s : Grid_state) (hs : Grid_safe s) (h : P s.maze) :
    Grid_safe (grid_iteration gen s) ∧ P (grid_iteration gen s).maze
      ∧ (grid_iteration gen s).maze.maze_row_size_ = s.maze.maze_row_size_
      ∧ (grid_iteration gen s).maze.maze_col_size_ = s.maze.maze_col_size_ := by
  unfold grid_iteration
  split
  · exact ⟨hs, h, rfl, rfl⟩
  · rename_i cur rest hst
    have hcur := hs cur (by rw [hst]; exact List.mem_cons_self _ _)
    have hP1 : P (set_builder (build_path s.maze cur.row cur.col) cur.row cur.col) :=
      carve_stable_set_builder hP _ _ _ (hP.build_path _ _ _ hcur h)
    have tr : ∀ r c, (set_builder (build_path s.maze cur.row cur.col)
        cur.row cur.col).within_perimeter r c ↔ s.maze.within_perimeter r c :=
      within_perimeter_sizes (by simp) (by simp)
    simp only []
    split
    · rename_i direction hd
      obtain ⟨k1, k2, k3, k4⟩ := complete_run_keeps hP direction run_limit
        (set_builder (build_path s.maze cur.row cur.col) cur.row cur.col) (cur :: rest) cur
        (cur.step direction) ((tr _ _).2 hcur)
        (fun p hp => (tr _ _).2 (hs p (by rw [hst]; exact hp))) hP1
      refine ⟨?_, k1, by rw [k2]; simp, by rw [k3]; simp⟩
      intro p hp
      have := k4 p hp
      exact (within_perimeter_sizes (by rw [k2]) (by rw [k3]) _ _).2 this
    · refine ⟨?_, hP1, by simp, by simp⟩
      intro p hp
      exact (tr _ _).2 (hs p (by rw [hst]; exact List.mem_cons_of_mem _ hp))

theorem grid_keeps {P : Maze → Prop} (hP : Carve_stable P) (gen : Nat → Nat) (fuel : Nat)
    (m : Maze) (pos : Nat) (hr : 3 ≤ m.maze_row_size_) (hc : 3 ≤ m.maze_col_size_) (h : P m) :
    P (generate_randomized_grid gen fuel m pos).maze := by
  unfold generate_randomized_grid
  refine (iterate_invariant (grid_iteration gen) (fun s => Grid_safe s ∧ P s.maze)
    (fun s hs => ⟨(grid_iteration_keeps hP gen s hs.1 hs.2).1,
      (grid_iteration_keeps hP gen s hs.1 hs.2).2.1⟩) fuel _ ⟨?_, h⟩).2
  intro p hp
  unfold grid_init at hp ⊢
  simp only [List.mem_singleton] at hp
  subst hp
  have h1 := uniform_int_range 1 (m.maze_row_size_ - 2) (gen pos) (by omega)
  have h2 := uniform_int_range 1 (m.maze_col_size_ - 2) (gen (pos + 1)) (by omega)
  unfold Maze.within_perimeter; simp only []; omega

theorem arena_keeps {P : Maze → Prop} (hP : Carve_stable P) (m : Maze) (h : P m) :
    P (generate_arena m) := by
  unfold generate_arena
  exact (for_cells_sized (P := P) 2 (m.maze_row_size_ - 2) 2 (m.maze_col_size_ - 2)
    build_path m h (by
      intro m' e1 e2 r c h1 h2 h3 h4 hp
      refine ⟨hP.build_path m' r c ?_ hp, by simp, by simp⟩
      unfold Maze.within_perimeter; omega)).1

theorem add_modification_keeps {P : Maze → Prop} (hP : Carve_stable P)
    (modification_ : Maze_modification) (m : Maze) (row col : Int)
    (hr : 7 ≤ m.maze_row_size_) (hc : 7 ≤ m.maze_col_size_) (h : P m) :
    P (add_modification modification_ m row col)
      ∧ (add_modification modification_ m row col).maze_row_size_ = m.maze_row_size_
      ∧ (add_modification modification_ m row col).maze_col_size_ = m.maze_col_size_ := by
  unfold add_modification
  cases modification_ with
  | none => exact ⟨h, rfl, rfl⟩
  | add_cross =>
    simp only []
    split_ifs with h1 h2
    · refine ⟨hP.build_path _ _ _ ?_ (hP.build_path _ _ _ ?_ h), by simp, by simp⟩
      · unfold Maze.within_perimeter; simp only [build_path_rows, build_path_cols]; omega
      · unfold Maze.within_perimeter; omega
    · refine ⟨hP.build_path _ _ _ ?_ h, by simp, by simp⟩
      unfold Maze.within_perimeter; omega
    · exact ⟨h, rfl, rfl⟩

theorem run_builder_keeps {P : Maze → Prop} (hP : Carve_stable P)
    (algorithm : Builder_algorithm) (modification_ : Maze_modification) (gen : Nat → Nat)
    (fuel : Nat) (m : Maze) (pos : Nat) (hr : 7 ≤ m.maze_row_size_) (hc : 7 ≤ m.maze_col_size_)
    (h0 : ∀ r c, (m.maze_ r c).markers = 0) (h : P m) :
    P (run_builder algorithm modification_ gen fuel m pos).1 := by
  unfold run_builder
  cases algorithm with
  | randomized_depth_first => exact dfs_keeps hP gen fuel m pos (by omega) (by omega) h0 h
  | randomized_loop_erased => exact wilson_keeps hP gen fuel m pos hr hc h0 h
  | arena => exact arena_keeps hP m h
  | randomized_grid => exact grid_keeps hP gen fuel m pos (by omega) (by omega) h
  | randomized_fractal =>
    simp only []
    have hf := fractal_keeps hP gen fuel m pos h
    obtain ⟨s1, s2⟩ := fractal_sizes gen fuel m pos
    split_ifs
    · exact (for_cells_sized (P := P) 0 m.maze_row_size_ 0 m.maze_col_size_
        (add_modification modification_) _ hf (by
          intro m' e1 e2 r c _ _ _ _ hp
          exact add_modification_keeps hP modification_ m' r c (by omega) (by omega) hp)).1
    · exact hf


/-! ## The all-walls grid -/

theorem foldl_keeps {β : Type} (I G : Maze → Prop) (f : Maze → β → Maze)
    (hI : ∀ m y, I m → I (f m y)) (hG : ∀ m y, I m → G m → G (f m y)) (l : List β) (m : Maze)
    (hm : I m) : I (l.foldl f m) ∧ (G m → G (l.foldl f m)) := by
  induction l generalizing m with
  | nil => exact ⟨hm, id⟩
  | cons y l ih =>
    rw [List.foldl_cons]
    obtain ⟨k1, k2⟩ := ih (f m y) (hI m y hm)
    exact ⟨k1, fun hg => k2 (hG m y hm hg)⟩

theorem foldl_eventually {β : Type} (I G : Maze → Prop) (f : Maze → β → Maze) (x : β)
    (hI : ∀ m y, I m → I (f m y)) (hG : ∀ m y, I m → G m → G (f m y))
    (hset : ∀ m, I m → G (f m x)) (l : List β) (hx : x ∈ l) (m : Maze) (hm : I m) :
    G (l.foldl f m) := by
  induction l generalizing m with
  | nil => simp at hx
  | cons y l ih =>
    rw [List.foldl_cons]
    rcases List.mem_cons.1 hx with rfl | hx
    · exact (foldl_keeps I G f hI hG l _ (hI m x hm)).2 (hset m hm)
    · exact ih hx _ (hI m y hm)

/-- A property that the body establishes at one cell of the rectangle, whatever
the grid was before, and that no call of the body destroys, holds after the
loop. -/
theorem for_cells_eventually (I G : Maze → Prop) (lo hi clo chi : Int)
    (body : Maze → Int → Int → Maze) (m : Maze) (r0 c0 : Int)
    (hr0 : lo ≤ r0 ∧ r0 < hi) (hc0 : clo ≤ c0 ∧ c0 < chi) (hI : I m)
    (hIstep : ∀ m r c, I m → I (body m r c))
    (hset : ∀ m, I m → G (body m r0 c0))
    (hkeep : ∀ m r c, I m → G m → G (body m r c)) :
    G (for_cells lo hi clo chi body m) := by
  unfold for_cells
  have hi0 : (r0 - lo).toNat ∈ List.range (hi - lo).toNat := by
    rw [List.mem_range]; omega
  have hj0 : (c0 - clo).toNat ∈ List.range (chi - clo).toNat := by
    rw [List.mem_range]; omega
  have er : lo + ((r0 - lo).toNat : Int) = r0 := by omega
  have ec : clo + ((c0 - clo).toNat : Int) = c0 := by omega
  have inner : ∀ (i : Nat) (m : Maze), I m →
      I ((List.range (chi - clo).toNat).foldl (fun m (j : Nat) => body m (lo + i) (clo + j)) m)
      ∧ (G m → G ((List.range (chi - clo).toNat).foldl
          (fun m (j : Nat) => body m (lo + i) (clo + j)) m)) := fun i m hm =>
    foldl_keeps I G (fun m (j : Nat) => body m (lo + i) (clo + j))
      (fun m y hm => hIstep m _ _ hm) (fun m y hm hg => hkeep m _ _ hm hg) _ m hm
  apply foldl_eventually I G _ (r0 - lo).toNat (fun m i hm => (inner i m hm).1)
    (fun m i hm hg => (inner i m hm).2 hg) _ _ hi0 m hI
  intro m hm
  apply foldl_eventually I G (fun m (j : Nat) => body m (lo + ((r0 - lo).toNat : Nat)) (clo + j))
    (c0 - clo).toNat (fun m y hm => hIstep m _ _ hm) (fun m y hm hg => hkeep m _ _ hm hg)
    _ _ hj0 m hm
  intro m hm
  show G (body m (lo + ((r0 - lo).toNat : Nat)) (clo + ((c0 - clo).toNat : Nat)))
  rw [er, ec]
  exact hset m hm

@[simp] theorem build_wall_rows (m : Maze) (r c : Int) :
    (build_wall m r c).maze_row_size_ = m.maze_row_size_ := rfl

@[simp] theorem build_wall_cols (m : Maze) (r c : Int) :
    (build_wall m r c).maze_col_size_ = m.maze_col_size_ := rfl

theorem build_wall_path (m : Maze) (r c r' c' : Int) :
    (build_wall m r c).path r' c' = m.path r' c' := by
  unfold build_wall Maze.path
  rw [modify_get]; split_ifs <;> rfl

theorem build_wall_markers (m : Maze) (r c r' c' : Int) :
    ((build_wall m r c).maze_ r' c').markers = (m.maze_ r' c').markers := by
  unfold build_wall
  rw [modify_get]; split_ifs <;> rfl

theorem build_wall_wall (m : Maze) (r c r' c' : Int) (side : Side) (h : m.in_array r c) :
    (build_wall m r c).wall r' c' side
      = (m.wall r' c' side
        || (decide (r' = r ∧ c' = c) && decide (m.in_array (r + side.row) (c + side.col)))) := by
  obtain ⟨h1, h2, h3, h4⟩ := h
  unfold build_wall Maze.wall Maze.in_array
  rw [modify_get]
  by_cases e : r' = r ∧ c' = c
  · obtain ⟨rfl, rfl⟩ := e
    simp only [and_self, if_true, decide_True, Bool.true_and]
    cases side <;> simp only [Square.wall, Side.row, Side.col] <;> congr 1 <;>
      rw [Bool.eq_iff_iff] <;> simp only [decide_eq_true_eq] <;> omega
  · simp [e]

/-- The facts about the all-walls grid that hold throughout its construction. -/
theorem all_walls_basic (rows cols : Int) :
    (all_walls rows cols).maze_row_size_ = rows ∧ (all_walls rows cols).maze_col_size_ = cols
      ∧ (∀ r c, (all_walls rows cols).path r c = false
          ∧ ((all_walls rows cols).maze_ r c).markers = 0)
      ∧ ∀ r c side, (all_walls rows cols).wall r c side = true →
          (all_walls rows cols).in_array (r + side.row) (c + side.col) := by
  unfold all_walls
  have key := for_cells_induction (fun m => m.maze_row_size_ = rows ∧ m.maze_col_size_ = cols
      ∧ (∀ r c, m.path r c = false ∧ (m.maze_ r c).markers = 0)
      ∧ ∀ r c side, m.wall r c side = true → m.in_array (r + side.row) (c + side.col))
    0 rows 0 cols build_wall (blank rows cols)
    ⟨rfl, rfl, fun _ _ => ⟨rfl, rfl⟩, fun r c side hw => by
      cases side <;> simp [Maze.wall, blank, Square.wall] at hw⟩
    (by
      intro m r c h1 h2 h3 h4 ⟨e1, e2, hp, hw⟩
      refine ⟨e1, e2, fun r' c' => ⟨by rw [build_wall_path]; exact (hp r' c').1,
        by rw [build_wall_markers]; exact (hp r' c').2⟩, ?_⟩
      intro r' c' side hwall
      have hin : m.in_array r c := by unfold Maze.in_array; omega
      rw [build_wall_wall m r c r' c' side hin] at hwall
      simp only [Bool.or_eq_true, Bool.and_eq_true, decide_eq_true_eq] at hwall
      rcases hwall with hwall | ⟨⟨rfl, rfl⟩, hz⟩
      · exact hw r' c' side hwall
      · exact hz)
  exact key

theorem all_walls_walls (rows cols : Int) (r c : Int) (side : Side)
    (h : (all_walls rows cols).in_array r c)
    (hn : (all_walls rows cols).in_array (r + side.row) (c + side.col)) :
    (all_walls rows cols).wall r c side = true := by
  obtain ⟨e1, e2, _, _⟩ := all_walls_basic rows cols
  have hin : 0 ≤ r ∧ r < rows ∧ 0 ≤ c ∧ c < cols := by
    unfold Maze.in_array at h; rw [e1, e2] at h; exact h
  have hnn : 0 ≤ r + side.row ∧ r + side.row < rows ∧ 0 ≤ c + side.col ∧ c + side.col < cols := by
    unfold Maze.in_array at hn; rw [e1, e2] at hn; exact hn
  unfold all_walls
  refine for_cells_eventually (fun m => m.maze_row_size_ = rows ∧ m.maze_col_size_ = cols)
    (fun m => m.wall r c side = true) 0 rows 0 cols build_wall (blank rows cols) r c
    ⟨hin.1, hin.2.1⟩ ⟨hin.2.2.1, hin.2.2.2⟩ ⟨rfl, rfl⟩ (fun m r c hm => hm) ?_ ?_
  · intro m ⟨k1, k2⟩
    have hin' : m.in_array r c := by unfold Maze.in_array; rw [k1, k2]; exact hin
    rw [build_wall_wall m r c r c side hin']
    have : m.in_array (r + side.row) (c + side.col) := by
      unfold Maze.in_array; rw [k1, k2]; exact hnn
    simp [this]
  · intro m r' c' ⟨k1, k2⟩ hg
    by_cases hin' : m.in_array r' c'
    · rw [build_wall_wall m r' c' r c side hin', hg]; rfl
    · unfold build_wall Maze.wall
      rw [modify_get, if_neg]
      · exact hg
      · rintro ⟨rfl, rfl⟩
        apply hin'
        unfold Maze.in_array; rw [k1, k2]; exact hin

theorem all_walls_wall_inv (rows cols : Int) : Wall_inv (all_walls rows cols) := by
  obtain ⟨_, _, hp, hw⟩ := all_walls_basic rows cols
  intro r c side hin
  refine ⟨fun hwall => ⟨hw r c side hwall, (hp _ _).1⟩, fun _ hn _ => ?_⟩
  exact all_walls_walls rows cols r c side hin hn

theorem all_walls_perimeter_closed (rows cols : Int) : Perimeter_closed (all_walls rows cols) :=
  fun r c _ => ((all_walls_basic rows cols).2.2.1 r c).1


/-! ## Wall flags of a built grid -/

theorem carve_stable_sized (rows cols : Int) :
    Carve_stable (fun m => m.maze_row_size_ = rows ∧ m.maze_col_size_ = cols) :=
  { build_path := fun m r c _ h => by simpa using h
    carve_path_walls := fun m r c _ h => by simpa using h
    wall_off := fun m r c _ h => by simpa using h
    frame := fun m r c f _ h => by simpa using h }

theorem carve_stable_and {P Q : Maze → Prop} (hP : Carve_stable P) (hQ : Carve_stable Q) :
    Carve_stable (fun m => P m ∧ Q m) :=
  { build_path := fun m r c hw h => ⟨hP.build_path m r c hw h.1, hQ.build_path m r c hw h.2⟩
    carve_path_walls := fun m r c hw h =>
      ⟨hP.carve_path_walls m r c hw h.1, hQ.carve_path_walls m r c hw h.2⟩
    wall_off := fun m r c hw h => ⟨hP.wall_off m r c hw h.1, hQ.wall_off m r c hw h.2⟩
    frame := fun m r c f hf h => ⟨hP.frame m r c f hf h.1, hQ.frame m r c f hf h.2⟩ }

/-- Every grid a builder produces from the all-walls grid, at any point of its
run, has the sizes it was given, a closed perimeter and meaningful wall flags. -/
theorem built_grid_inv (algorithm : Builder_algorithm) (gen : Nat → Nat) (fuel : Nat)
    (rows cols : Int) (hr : 7 ≤ rows) (hc : 7 ≤ cols) :
    ((built_grid algorithm gen fuel rows cols).maze_row_size_ = rows
      ∧ (built_grid algorithm gen fuel rows cols).maze_col_size_ = cols)
      ∧ Perimeter_closed (built_grid algorithm gen fuel rows cols)
      ∧ Wall_inv (built_grid algorithm gen fuel rows cols) := by
  obtain ⟨e1, e2, hp, _⟩ := all_walls_basic rows cols
  exact run_builder_keeps
    (carve_stable_and (carve_stable_sized rows cols)
      (carve_stable_and carve_stable_perimeter_closed carve_stable_wall_inv))
    algorithm .none gen fuel (all_walls rows cols) 0 (by omega) (by omega)
    (fun r c => (hp r c).2)
    ⟨⟨e1, e2⟩, all_walls_perimeter_closed rows cols, all_walls_wall_inv rows cols⟩

theorem side_opposite_row (side : Side) : side.opposite.row = -side.row := by
  cases side <;> rfl

theorem side_opposite_col (side : Side) : side.opposite.col = -side.col := by
  cases side <;> rfl

/-- C1 (as stated) fails: in the arena built on the 7 x 7 all-walls grid, cell
(2, 2) keeps its wall flag toward its northern neighbour (1, 2), which is not a
path, while (1, 2) has lost its wall flag toward (2, 2), which is a path. -/
theorem wall_symmetry_counterexample :
    (built_grid .arena (fun _ => 0) 0 7 7).in_array 2 2
      ∧ (built_grid .arena (fun _ => 0) 0 7 7).in_array 1 2
      ∧ ¬ ((built_grid .arena (fun _ => 0) 0 7 7).wall 2 2 .north = false
          ↔ (built_grid .arena (fun _ => 0) 0 7 7).wall 1 2 .south = false) := by
  decide

/-- C3 (as amended): after any number of loop iterations of any builder on the
all-walls grid, a cell of the outer ring has its wall flag on a side set if and
only if the neighbour on that side lies in the array and is not a path. -/
theorem ring_wall_flags (algorithm : Builder_algorithm) (gen : Nat → Nat)
    (fuel : Nat) (rows cols : Int) (hr : 7 ≤ rows) (hc : 7 ≤ cols) (r c : Int) (side : Side)
    (hring : (0 ≤ r ∧ r < rows ∧ 0 ≤ c ∧ c < cols)
      ∧ (r = 0 ∨ r = rows - 1 ∨ c = 0 ∨ c = cols - 1)) :
    (built_grid algorithm gen fuel rows cols).wall r c side = true
      ↔ ((0 ≤ r + side.row ∧ r + side.row < rows ∧ 0 ≤ c + side.col ∧ c + side.col < cols)
        ∧ (built_grid algorithm gen fuel rows cols).path (r + side.row) (c + side.col)
            = false) := by
  obtain ⟨⟨e1, e2⟩, hp, hw⟩ := built_grid_inv algorithm gen fuel rows cols hr hc
  generalize built_grid algorithm gen fuel rows cols = g at *
  have inA : g.in_array r c := by unfold Maze.in_array; rw [e1, e2]; exact hring.1
  have hpath : g.path r c = false := hp r c ⟨inA, by rw [e1, e2]; exact hring.2⟩
  have wA := hw r c side inA
  unfold Maze.in_array at wA
  rw [e1, e2] at wA
  exact ⟨wA.1, fun h => wA.2 hpath h.1 h.2⟩

/-- Witness of `ring_wall_flags`: the corner (0, 0) of the arena on a 7 x 7 grid. -/
theorem ring_wall_flags_witness :
    (built_grid .arena (fun _ => 0) 0 7 7).wall 0 0 .north = true
      ↔ ((0 ≤ 0 + Side.north.row ∧ 0 + Side.north.row < 7 ∧ 0 ≤ 0 + Side.north.col
          ∧ 0 + Side.north.col < (7 : Int))
        ∧ (built_grid .arena (fun _ => 0) 0 7 7).path (0 + Side.north.row)
            (0 + Side.north.col) = false) :=
  ring_wall_flags .arena (fun _ => 0) 0 7 7 (by decide) (by decide) 0 0 .north (by decide)

/-- C3 (as stated) fails: in the arena built on the 7 x 7 all-walls grid the
ring cell (0, 0) does not have all four wall flags set (`build_wall` gives a
cell no flag on a side where the array ends). -/
theorem ring_all_walls_counterexample :
    (built_grid .arena (fun _ => 0) 0 7 7).on_ring 0 0
      ∧ ¬ ((built_grid .arena (fun _ => 0) 0 7 7).wall 0 0 .north = true
          ∧ (built_grid .arena (fun _ => 0) 0 7 7).wall 0 0 .south = true
          ∧ (built_grid .arena (fun _ => 0) 0 7 7).wall 0 0 .east = true
          ∧ (built_grid .arena (fun _ => 0) 0 7 7).wall 0 0 .west = true) := by
  decide


/-! ## What a carving operation leaves behind -/

theorem set_builder_path_bit (m : Maze) (r c r' c' : Int) :
    ((set_builder m r c).maze_ r' c').path_bit = (m.maze_ r' c').path_bit := by
  rw [set_builder_get]; split_ifs <;> rfl

theorem set_builder_builder_bit (m : Maze) (r c r' c' : Int) :
    ((set_builder m r c).maze_ r' c').builder_bit
      = ((m.maze_ r' c').builder_bit || decide (r' = r ∧ c' = c)) := by
  rw [set_builder_get]
  by_cases e : r' = r ∧ c' = c <;> simp [e]

theorem set_builder_markers (m : Maze) (r c r' c' : Int) :
    ((set_builder m r c).maze_ r' c').markers = (m.maze_ r' c').markers := by
  rw [set_builder_get]; split_ifs <;> rfl

theorem set_builder_start_bit (m : Maze) (r c r' c' : Int) :
    ((set_builder m r c).maze_ r' c').start_bit = (m.maze_ r' c').start_bit := by
  rw [set_builder_get]; split_ifs <;> rfl

theorem set_builder_finish_bit (m : Maze) (r c r' c' : Int) :
    ((set_builder m r c).maze_ r' c').finish_bit = (m.maze_ r' c').finish_bit := by
  rw [set_builder_get]; split_ifs <;> rfl

theorem join_squares_path_bit (m : Maze) (cur next : Point) (r' c' : Int) :
    ((join_squares m cur next).maze_ r' c').path_bit
      = ((m.maze_ r' c').path_bit
        || decide (r' = (wall_between cur next).row ∧ c' = (wall_between cur next).col)
        || decide (r' = next.row ∧ c' = next.col)) := by
  simp only [join_squares, set_builder_path_bit, build_path_path_bit]

theorem join_squares_builder_bit (m : Maze) (cur next : Point) (r' c' : Int) :
    ((join_squares m cur next).maze_ r' c').builder_bit
      = ((m.maze_ r' c').builder_bit
        || decide (r' = (wall_between cur next).row ∧ c' = (wall_between cur next).col)
        || decide (r' = next.row ∧ c' = next.col)) := by
  simp only [join_squares, set_builder_builder_bit, build_path_builder_bit]

theorem join_squares_markers (m : Maze) (cur next : Point) (r' c' : Int) :
    ((join_squares m cur next).maze_ r' c').markers = (m.maze_ r' c').markers := by
  simp only [join_squares, set_builder_markers, build_path_markers]

theorem wall_between_midpoint (a d : Point) (h : d ∈ generate_directions_) :
    wall_between a (a.step d) = midpoint a (a.step d) := by
  rw [generate_directions_mem] at h
  rcases h with rfl | rfl | rfl | rfl <;>
    simp [wall_between, midpoint, Point.step] <;> omega

/-! ## Perimeter closure of the constructed maze -/

@[simp] theorem set_start_rows (m : Maze) (r c : Int) :
    (set_start m r c).maze_row_size_ = m.maze_row_size_ := rfl

@[simp] theorem set_start_cols (m : Maze) (r c : Int) :
    (set_start m r c).maze_col_size_ = m.maze_col_size_ := rfl

@[simp] theorem set_finish_rows (m : Maze) (r c : Int) :
    (set_finish m r c).maze_row_size_ = m.maze_row_size_ := rfl

@[simp] theorem set_finish_cols (m : Maze) (r c : Int) :
    (set_finish m r c).maze_col_size_ = m.maze_col_size_ := rfl

theorem set_start_get (m : Maze) (r c : Int) (r' c' : Int) :
    (set_start m r c).maze_ r' c'
      = if r' = r ∧ c' = c then { m.maze_ r' c' with start_bit := true } else m.maze_ r' c' :=
  rfl

theorem set_finish_get (m : Maze) (r c : Int) (r' c' : Int) :
    (set_finish m r c).maze_ r' c'
      = if r' = r ∧ c' = c then { m.maze_ r' c' with finish_bit := true } else m.maze_ r' c' :=
  rfl

theorem set_start_path_bit (m : Maze) (r c r' c' : Int) :
    ((set_start m r c).maze_ r' c').path_bit = (m.maze_ r' c').path_bit := by
  rw [set_start_get]; split_ifs <;> rfl

theorem set_finish_path_bit (m : Maze) (r c r' c' : Int) :
    ((set_finish m r c).maze_ r' c').path_bit = (m.maze_ r' c').path_bit := by
  rw [set_finish_get]; split_ifs <;> rfl

theorem scan_corner_sizes (m : Maze) (marks : Marks) (index : Nat) (cells : List Point) :
    (scan_corner m marks index cells).1.maze_row_size_ = m.maze_row_size_
      ∧ (scan_corner m marks index cells).1.maze_col_size_ = m.maze_col_size_ := by
  unfold scan_corner
  split <;> exact ⟨rfl, rfl⟩

theorem scan_corner_path_bit (m : Maze) (marks : Marks) (index : Nat) (cells : List Point)
    (r c : Int) :
    ((scan_corner m marks index cells).1.maze_ r c).path_bit = (m.maze_ r c).path_bit := by
  unfold scan_corner
  split
  · exact set_start_path_bit _ _ _ _ _
  · rfl

theorem place_finishes_path (gen : Nat → Nat) (left : Nat) (m : Maze) (marks : Marks)
    (pos : Nat) (result : Maze × Marks × Nat)
    (h : place_finishes gen left m marks pos = some result) :
    result.1.maze_row_size_ = m.maze_row_size_ ∧ result.1.maze_col_size_ = m.maze_col_size_
      ∧ ∀ r c, (result.1.maze_ r c).path_bit = (m.maze_ r c).path_bit := by
  induction left generalizing m marks pos with
  | zero =>
    simp only [place_finishes, Option.some.injEq] at h
    subst h
    exact ⟨rfl, rfl, fun _ _ => rfl⟩
  | succ n ih =>
    unfold place_finishes at h
    split at h
    · cases h
    · obtain ⟨k1, k2, k3⟩ := ih _ _ _ h
      exact ⟨k1, k2, fun r c => by rw [k3, set_finish_path_bit]⟩

/-- Placement changes no passage flag, except that race-from-corners sets the
one of the centre cell. -/
theorem place_start_finish_path (game_ : Maze_game) (gen : Nat → Nat) (m : Maze)
    (marks : Marks) (pos : Nat) (result : Maze × Marks × Nat)
    (h : place_start_finish game_ gen m marks pos = some result) :
    result.1.maze_row_size_ = m.maze_row_size_ ∧ result.1.maze_col_size_ = m.maze_col_size_
      ∧ ∀ r c, (result.1.maze_ r c).path_bit
          = ((m.maze_ r c).path_bit
            || (decide (game_ = .corners)
              && decide (r = m.maze_row_size_ / 2 ∧ c = m.maze_col_size_ / 2))) := by
  unfold place_start_finish at h
  by_cases hg : game_ = .corners
  · rw [if_pos hg] at h
    simp only [Option.some.injEq] at h
    subst h
    refine ⟨?_, ?_, fun r c => ?_⟩
    · simp only [set_finish_rows, modify_rows]
      rw [(scan_corner_sizes _ _ _ _).1, (scan_corner_sizes _ _ _ _).1,
        (scan_corner_sizes _ _ _ _).1, (scan_corner_sizes _ _ _ _).1]
    · simp only [set_finish_cols, modify_cols]
      rw [(scan_corner_sizes _ _ _ _).2, (scan_corner_sizes _ _ _ _).2,
        (scan_corner_sizes _ _ _ _).2, (scan_corner_sizes _ _ _ _).2]
    simp only [set_finish_path_bit, modify_get]
    by_cases e : r = m.maze_row_size_ / 2 ∧ c = m.maze_col_size_ / 2
    · simp [e, hg]
    · simp [e, scan_corner_path_bit]
  · rw [if_neg hg] at h
    split at h
    · cases h
    · obtain ⟨k1, k2, k3⟩ := place_finishes_path _ _ _ _ _ _ h
      refine ⟨k1, k2, fun r c => ?_⟩
      rw [k3, set_start_path_bit]
      simp [hg]

theorem add_modification_markers (modification_ : Maze_modification) (m : Maze)
    (row col r c : Int) :
    ((add_modification modification_ m row col).maze_ r c).markers = (m.maze_ r c).markers := by
  unfold add_modification
  cases modification_ with
  | none => rfl
  | add_cross =>
    simp only []
    split_ifs <;> simp only [build_path_markers]

theorem perimeter_closed_build_wall (m : Maze) (r c : Int) (h : Perimeter_closed m) :
    Perimeter_closed (build_wall m r c) := by
  intro r' c' hring
  rw [build_wall_path]
  exact h r' c' hring

/-- The cell loop of the constructor leaves a grid of the given sizes with a
closed perimeter and no backtrack marks. -/
theorem construct_walls_inv (builder_ : Builder_algorithm) (modification_ : Maze_modification)
    (rows cols : Int) (hr : 7 ≤ rows) (hc : 7 ≤ cols) :
    (construct_walls builder_ modification_ rows cols).maze_row_size_ = rows
      ∧ (construct_walls builder_ modification_ rows cols).maze_col_size_ = cols
      ∧ Perimeter_closed (construct_walls builder_ modification_ rows cols)
      ∧ ∀ r c, ((construct_walls builder_ modification_ rows cols).maze_ r c).markers = 0 := by
  unfold construct_walls
  apply for_cells_induction (fun m => m.maze_row_size_ = rows ∧ m.maze_col_size_ = cols
      ∧ Perimeter_closed m ∧ ∀ r c, (m.maze_ r c).markers = 0)
  · exact ⟨rfl, rfl, fun _ _ _ => rfl, fun _ _ => rfl⟩
  · intro m r c _ _ _ _ ⟨e1, e2, hp, hz⟩
    simp only []
    split_ifs
    · obtain ⟨k1, k2, k3⟩ := add_modification_keeps carve_stable_perimeter_closed
        modification_ (build_wall m r c) r c (by simp [e1, hr]) (by simp [e2, hc])
        (perimeter_closed_build_wall m r c hp)
      refine ⟨by rw [k2]; exact e1, by rw [k3]; exact e2, k1, fun r' c' => ?_⟩
      rw [add_modification_markers, build_wall_markers]
      exact hz r' c'
    · exact ⟨e1, e2, perimeter_closed_build_wall m r c hp, fun r' c' => by
        rw [build_wall_markers]; exact hz r' c'⟩

/-- C2: for row and column counts of at least 7, every builder, modification
none or cross, every game and every random source: whenever construction
(cell loop, builder run for any number of loop iterations, start and finish
placement) yields a maze, no cell of its outer ring carries the passage flag. -/
theorem perimeter_closed_after_construction (builder_ : Builder_algorithm)
    (modification_ : Maze_modification) (game_ : Maze_game) (rows cols : Int)
    (gen : Nat → Nat) (fuel : Nat) (hr : 7 ≤ rows) (hc : 7 ≤ cols)
    (result : Maze × Marks × Nat)
    (h : Thread_maze builder_ modification_ game_ rows cols gen fuel = some result) :
    ∀ row col, result.1.on_ring row col → (result.1.maze_ row col).path_bit = false := by
  obtain ⟨e1, e2, hp, hz⟩ := construct_walls_inv builder_ modification_ rows cols hr hc
  have hb := run_builder_keeps
    (carve_stable_and (carve_stable_sized rows cols) carve_stable_perimeter_closed)
    builder_ modification_ gen fuel _ 0 (by rw [e1]; exact hr) (by rw [e2]; exact hc) hz
    ⟨⟨e1, e2⟩, hp⟩
  unfold Thread_maze at h
  obtain ⟨k1, k2, k3⟩ := place_start_finish_path _ _ _ _ _ _ h
  intro row col hring
  have hring' := (on_ring_sizes k1 k2 row col).1 hring
  rw [k3]
  have := hb.2 row col hring'
  unfold Maze.path at this
  rw [this, Bool.false_or]
  have hne : ¬ (row = (run_builder builder_ modification_ gen fuel
      (construct_walls builder_ modification_ rows cols) 0).1.maze_row_size_ / 2
      ∧ col = (run_builder builder_ modification_ gen fuel
      (construct_walls builder_ modification_ rows cols) 0).1.maze_col_size_ / 2) := by
    unfold Maze.on_ring Maze.in_array at hring'
    rw [hb.1.1, hb.1.2] at hring' ⊢
    omega
  simp [hne]

/-- Witness of `perimeter_closed_after_construction`: the arena with the cross
modification on a 7 x 7 grid, one start and one finish placed. -/
theorem perimeter_closed_after_construction_witness :
    ∃ result, Thread_maze .arena .add_cross .hunt 7 7 (fun n => n + 1) 0 = some result
      ∧ ∀ row col, result.1.on_ring row col → (result.1.maze_ row col).path_bit = false :=
  ⟨(Thread_maze .arena .add_cross .hunt 7 7 (fun n => n + 1) 0).get (by decide!),
    (Option.some_get _).symm,
    perimeter_closed_after_construction .arena .add_cross .hunt 7 7 (fun n => n + 1) 0
      (by decide) (by decide) _ (Option.some_get _).symm⟩


/-! ## Start and finish placement in the hunt and gather games -/

theorem pick_random_point_spec (gen : Nat → Nat) (m : Maze) (left pos : Nat) (p : Point)
    (pos' : Nat) (hr : 3 ≤ m.maze_row_size_) (hc : 3 ≤ m.maze_col_size_)
    (h : pick_random_point gen m left pos = some (p, pos')) :
    m.within_perimeter p.row p.col ∧ (m.maze_ p.row p.col).path_bit = true
      ∧ (m.maze_ p.row p.col).finish_bit = false ∧ (m.maze_ p.row p.col).start_bit = false := by
  induction left generalizing pos with
  | zero => simp [pick_random_point] at h
  | succ n ih =>
    unfold pick_random_point at h
    simp only [] at h
    split_ifs at h with hc'
    · simp only [Option.some.injEq, Prod.mk.injEq] at h
      obtain ⟨rfl, _⟩ := h
      have h1 := uniform_int_range 1 (m.maze_row_size_ - 2) (gen pos) (by omega)
      have h2 := uniform_int_range 1 (m.maze_col_size_ - 2) (gen (pos + 1)) (by omega)
      refine ⟨?_, hc'.1, by simpa using hc'.2.1, by simpa using hc'.2.2⟩
      unfold Maze.within_perimeter; simp only []; omega
    · exact ih _ h

theorem set_finish_start_bit (m : Maze) (r c r' c' : Int) :
    ((set_finish m r c).maze_ r' c').start_bit = (m.maze_ r' c').start_bit := by
  rw [set_finish_get]; split_ifs <;> rfl

theorem set_finish_finish_bit (m : Maze) (r c r' c' : Int) :
    ((set_finish m r c).maze_ r' c').finish_bit
      = ((m.maze_ r' c').finish_bit || decide (r' = r ∧ c' = c)) := by
  rw [set_finish_get]
  by_cases e : r' = r ∧ c' = c <;> simp [e]

theorem set_start_start_bit (m : Maze) (r c r' c' : Int) :
    ((set_start m r c).maze_ r' c').start_bit
      = ((m.maze_ r' c').start_bit || decide (r' = r ∧ c' = c)) := by
  rw [set_start_get]
  by_cases e : r' = r ∧ c' = c <;> simp [e]

theorem set_start_finish_bit (m : Maze) (r c r' c' : Int) :
    ((set_start m r c).maze_ r' c').finish_bit = (m.maze_ r' c').finish_bit := by
  rw [set_start_get]; split_ifs <;> rfl

/-- The finishes placed by the loop of `place_start_finish`: pairwise distinct
cells within the perimeter that were paths without start or finish bit. -/
theorem place_finishes_spec (gen : Nat → Nat) (left : Nat) (m : Maze) (marks : Marks)
    (pos : Nat) (result : Maze × Marks × Nat) (hr : 3 ≤ m.maze_row_size_)
    (hc : 3 ≤ m.maze_col_size_)
    (h : place_finishes gen left m marks pos = some result) :
    ∃ goals : List Point, goals.length = left ∧ goals.Nodup
      ∧ (∀ g ∈ goals, m.within_perimeter g.row g.col ∧ (m.maze_ g.row g.col).path_bit = true
          ∧ (m.maze_ g.row g.col).start_bit = false ∧ (m.maze_ g.row g.col).finish_bit = false)
      ∧ (∀ r c, (result.1.maze_ r c).finish_bit
          = ((m.maze_ r c).finish_bit || decide ((⟨r, c⟩ : Point) ∈ goals)))
      ∧ (∀ r c, (result.1.maze_ r c).start_bit = (m.maze_ r c).start_bit)
      ∧ result.2.1.start_ = marks.start_ := by
  induction left generalizing m marks pos with
  | zero =>
    simp only [place_finishes, Option.some.injEq] at h
    subst h
    exact ⟨[], rfl, List.nodup_nil, by simp, by simp, fun _ _ => rfl, rfl⟩
  | succ n ih =>
    unfold place_finishes at h
    split at h
    · cases h
    · rename_i g pos1 hpick
      obtain ⟨hw, hp, hf, hs⟩ := pick_random_point_spec gen m _ _ g pos1 hr hc hpick
      obtain ⟨goals, hlen, hnd, hg, hfin, hst, hmk⟩ := ih (set_finish m g.row g.col) _ _ hr hc h
      have hnot : g ∉ goals := by
        intro hmem
        have := (hg g hmem).2.2.2
        rw [set_finish_finish_bit] at this
        simp at this
      refine ⟨g :: goals, by simp [hlen], List.nodup_cons.2 ⟨hnot, hnd⟩, ?_, ?_, ?_, hmk⟩
      · intro g' hg'
        rcases List.mem_cons.1 hg' with rfl | hg'
        · exact ⟨hw, hp, hs, hf⟩
        · obtain ⟨k1, k2, k3, k4⟩ := hg g' hg'
          rw [set_finish_path_bit] at k2
          rw [set_finish_start_bit] at k3
          rw [set_finish_finish_bit] at k4
          simp only [Bool.or_eq_false_iff] at k4
          exact ⟨k1, k2, k3, k4.1⟩
      · intro r c
        rw [hfin, set_finish_finish_bit]
        have : ((⟨r, c⟩ : Point) = g) ↔ (r = g.row ∧ c = g.col) := by
          cases g; simp
        simp only [List.mem_cons, this, Bool.decide_or, Bool.or_assoc]
      · intro r c
        rw [hst, set_finish_start_bit]

/-- C10: in the hunt and gather games, whenever `place_start_finish` returns on a
grid (rows, cols >= 7) of which no cell carried a start or finish bit: there is one
start cell and a list of 1 (hunt) or 4 (gather) pairwise distinct finish cells,
such that a cell of the array carries the start bit exactly when it is the
start cell and the finish bit exactly when it is one of the finish cells; the
start cell and the finish cells carry the passage flag, and the start cell is
not a finish cell. -/
theorem place_start_finish_unique (game_ : Maze_game) (gen : Nat → Nat) (m : Maze)
    (marks : Marks) (pos : Nat) (result : Maze × Marks × Nat)
    (hgame : game_ ≠ .corners) (hr : 7 ≤ m.maze_row_size_) (hc : 7 ≤ m.maze_col_size_)
    (hblank : ∀ r c, m.in_array r c →
      (m.maze_ r c).start_bit = false ∧ (m.maze_ r c).finish_bit = false)
    (h : place_start_finish game_ gen m marks pos = some result) :
    ∃ (start : Point) (goals : List Point),
      goals.length = (if game_ = .gather then 4 else 1) ∧ goals.Nodup
      ∧ start ∉ goals
      ∧ result.1.in_array start.row start.col
      ∧ (∀ g ∈ goals, result.1.in_array g.row g.col)
      ∧ (∀ r c, result.1.in_array r c →
          ((result.1.maze_ r c).start_bit = true ↔ (⟨r, c⟩ : Point) = start))
      ∧ (∀ r c, result.1.in_array r c →
          ((result.1.maze_ r c).finish_bit = true ↔ (⟨r, c⟩ : Point) ∈ goals))
      ∧ (result.1.maze_ start.row start.col).path_bit = true
      ∧ (∀ g ∈ goals, (result.1.maze_ g.row g.col).path_bit = true)
      ∧ result.2.1.start_ = start := by
  obtain ⟨e1, e2, hpath⟩ := place_start_finish_path game_ gen m marks pos result h
  have hpath' : ∀ r c, (result.1.maze_ r c).path_bit = (m.maze_ r c).path_bit := by
    intro r c; rw [hpath]; simp [hgame]
  unfold place_start_finish at h
  rw [if_neg hgame] at h
  split at h
  · cases h
  · rename_i s pos1 hpick
    obtain ⟨hw, hp, hf, hs⟩ := pick_random_point_spec gen m _ _ s pos1 (by omega) (by omega) hpick
    obtain ⟨goals, hlen, hnd, hg, hfin, hst, hstart⟩ :=
      place_finishes_spec gen _ (set_start m s.row s.col) _ _ result (by simpa using by omega)
        (by simpa using by omega) h
    have win : ∀ r c, m.within_perimeter r c → result.1.in_array r c := by
      intro r c hh
      unfold Maze.within_perimeter at hh
      unfold Maze.in_array
      rw [e1, e2]; omega
    have tr : ∀ r c, result.1.in_array r c ↔ m.in_array r c := in_array_sizes e1 e2
    refine ⟨s, goals, hlen, hnd, ?_, win _ _ hw, fun g hg' => win _ _ (hg g hg').1, ?_, ?_,
      by rw [hpath']; exact hp, fun g hg' => by
        rw [hpath', ← set_start_path_bit m s.row s.col]; exact (hg g hg').2.1, hstart⟩
    · intro hmem
      have := (hg s hmem).2.2.1
      rw [set_start_start_bit] at this
      simp at this
    · intro r c hin
      rw [hst, set_start_start_bit, (hblank r c ((tr r c).1 hin)).1]
      have : ((⟨r, c⟩ : Point) = s) ↔ (r = s.row ∧ c = s.col) := by
        cases s; simp
      simp [this]
    · intro r c hin
      rw [hfin, set_start_finish_bit, (hblank r c ((tr r c).1 hin)).2]
      simp


theorem build_wall_start_finish (m : Maze) (r c r' c' : Int) :
    ((build_wall m r c).maze_ r' c').start_bit = (m.maze_ r' c').start_bit
      ∧ ((build_wall m r c).maze_ r' c').finish_bit = (m.maze_ r' c').finish_bit := by
  unfold build_wall
  rw [modify_get]; split_ifs <;> exact ⟨rfl, rfl⟩

/-- The arena built on the all-walls grid carries no start or finish bit. -/
theorem arena_no_start_finish (rows cols : Int) (r c : Int) :
    ((generate_arena (all_walls rows cols)).maze_ r c).start_bit = false
      ∧ ((generate_arena (all_walls rows cols)).maze_ r c).finish_bit = false := by
  have h1 : ∀ r c, ((all_walls rows cols).maze_ r c).start_bit = false
      ∧ ((all_walls rows cols).maze_ r c).finish_bit = false := by
    unfold all_walls
    apply for_cells_induction (fun m => ∀ r c, (m.maze_ r c).start_bit = false
      ∧ (m.maze_ r c).finish_bit = false)
    · intro r c; exact ⟨rfl, rfl⟩
    · intro m r c _ _ _ _ hm r' c'
      rw [(build_wall_start_finish m r c r' c').1, (build_wall_start_finish m r c r' c').2]
      exact hm r' c'
  unfold generate_arena
  revert r c
  apply for_cells_induction (fun m => ∀ r c, (m.maze_ r c).start_bit = false
      ∧ (m.maze_ r c).finish_bit = false)
  · exact h1
  · intro m r c _ _ _ _ hm r' c'
    rw [build_path_start_bit, build_path_finish_bit]
    exact hm r' c'

/-- Witness of `place_start_finish_unique`: the hunt game on the arena of a 7 x 7
grid, where the random source first offers (1, 2), then (3, 4), (5, 1), (2, 3). -/
theorem place_start_finish_unique_witness :
    ∃ result, place_start_finish .hunt (fun n => n) (generate_arena (all_walls 7 7)) {} 0
        = some result
      ∧ ∃ (start : Point) (goals : List Point),
        goals.length = (if Maze_game.hunt = .gather then 4 else 1) ∧ goals.Nodup
        ∧ start ∉ goals
        ∧ result.1.in_array start.row start.col
        ∧ (∀ g ∈ goals, result.1.in_array g.row g.col)
        ∧ (∀ r c, result.1.in_array r c →
            ((result.1.maze_ r c).start_bit = true ↔ (⟨r, c⟩ : Point) = start))
        ∧ (∀ r c, result.1.in_array r c →
            ((result.1.maze_ r c).finish_bit = true ↔ (⟨r, c⟩ : Point) ∈ goals))
        ∧ (result.1.maze_ start.row start.col).path_bit = true
        ∧ (∀ g ∈ goals, (result.1.maze_ g.row g.col).path_bit = true)
        ∧ result.2.1.start_ = start :=
  ⟨(place_start_finish .hunt (fun n => n) (generate_arena (all_walls 7 7)) {} 0).get
      (by decide!),
    (Option.some_get _).symm,
    place_start_finish_unique .hunt (fun n => n) (generate_arena (all_walls 7 7)) {} 0 _
      (by decide) (by decide) (by decide)
      (fun r c _ => arena_no_start_finish 7 7 r c) (Option.some_get _).symm⟩


/-! ## Recursive subdivision: connectivity -/

theorem wall_off_sizes (m : Maze) (r c : Int) :
    (wall_off m r c).maze_row_size_ = m.maze_row_size_
      ∧ (wall_off m r c).maze_col_size_ = m.maze_col_size_ := ⟨by simp, by simp⟩

theorem wall_row_path (m : Maze) (row col0 width passage r c : Int) :
    (wall_row m row col0 width passage).path r c
      = (m.path r c
        && !decide (r = row ∧ col0 ≤ c ∧ c < col0 + width ∧ c - col0 ≠ passage)) := by
  unfold wall_row
  have key : ∀ (l : List Nat) (m : Maze),
      (l.foldl (fun m (j : Nat) =>
        if (j : Int) ≠ passage then wall_off m row (col0 + j) else m) m).path r c
      = (m.path r c
        && !decide (r = row ∧ ∃ j ∈ l, c = col0 + (j : Int) ∧ (j : Int) ≠ passage)) := by
    intro l
    induction l with
    | nil => intro m; simp
    | cons j l ih =>
      intro m
      rw [List.foldl_cons, ih]
      by_cases hj : (j : Int) ≠ passage
      · rw [if_pos hj, wall_off_path]
        by_cases e : r = row ∧ c = col0 + (j : Int)
        · have : r = row ∧ ∃ j' ∈ j :: l, c = col0 + (j' : Int) ∧ (j' : Int) ≠ passage :=
            ⟨e.1, j, List.mem_cons_self _ _, e.2, hj⟩
          rw [decide_eq_true this, decide_eq_true e]
          simp
        · have : (r = row ∧ ∃ j' ∈ j :: l, c = col0 + (j' : Int) ∧ (j' : Int) ≠ passage)
              ↔ (r = row ∧ ∃ j' ∈ l, c = col0 + (j' : Int) ∧ (j' : Int) ≠ passage) := by
            constructor
            · rintro ⟨h1, j', hj', h2, h3⟩
              rcases List.mem_cons.1 hj' with rfl | hj'
              · exact absurd ⟨h1, h2⟩ e
              · exact ⟨h1, j', hj', h2, h3⟩
            · rintro ⟨h1, j', hj', h2, h3⟩
              exact ⟨h1, j', List.mem_cons_of_mem _ hj', h2, h3⟩
          simp only [e, decide_False, Bool.not_false, Bool.and_true, this]
      · rw [if_neg hj]
        have : (r = row ∧ ∃ j' ∈ j :: l, c = col0 + (j' : Int) ∧ (j' : Int) ≠ passage)
            ↔ (r = row ∧ ∃ j' ∈ l, c = col0 + (j' : Int) ∧ (j' : Int) ≠ passage) := by
          constructor
          · rintro ⟨h1, j', hj', h2, h3⟩
            rcases List.mem_cons.1 hj' with rfl | hj'
            · exact absurd h3 hj
            · exact ⟨h1, j', hj', h2, h3⟩
          · rintro ⟨h1, j', hj', h2, h3⟩
            exact ⟨h1, j', List.mem_cons_of_mem _ hj', h2, h3⟩
        simp only [this]
  rw [key]
  have : (r = row ∧ ∃ j ∈ List.range width.toNat, c = col0 + (j : Int) ∧ (j : Int) ≠ passage)
      ↔ (r = row ∧ col0 ≤ c ∧ c < col0 + width ∧ c - col0 ≠ passage) := by
    constructor
    · rintro ⟨h1, j, hj, h2, h3⟩
      have := List.mem_range.1 hj
      refine ⟨h1, by omega, by omega, by omega⟩
    · rintro ⟨h1, h2, h3, h4⟩
      refine ⟨h1, (c - col0).toNat, List.mem_range.2 (by omega), by omega, by omega⟩
  simp only [this]

theorem wall_col_path (m : Maze) (row0 col height passage r c : Int) :
    (wall_col m row0 col height passage).path r c
      = (m.path r c
        && !decide (c = col ∧ row0 ≤ r ∧ r < row0 + height ∧ r - row0 ≠ passage)) := by
  unfold wall_col
  have key : ∀ (l : List Nat) (m : Maze),
      (l.foldl (fun m (i : Nat) =>
        if (i : Int) ≠ passage then wall_off m (row0 + i) col else m) m).path r c
      = (m.path r c
        && !decide (c = col ∧ ∃ i ∈ l, r = row0 + (i : Int) ∧ (i : Int) ≠ passage)) := by
    intro l
    induction l with
    | nil => intro m; simp
    | cons j l ih =>
      intro m
      rw [List.foldl_cons, ih]
      by_cases hj : (j : Int) ≠ passage
      · rw [if_pos hj, wall_off_path]
        by_cases e : r = row0 + (j : Int) ∧ c = col
        · have : c = col ∧ ∃ j' ∈ j :: l, r = row0 + (j' : Int) ∧ (j' : Int) ≠ passage :=
            ⟨e.2, j, List.mem_cons_self _ _, e.1, hj⟩
          rw [decide_eq_true this, decide_eq_true e]
          simp
        · have : (c = col ∧ ∃ j' ∈ j :: l, r = row0 + (j' : Int) ∧ (j' : Int) ≠ passage)
              ↔ (c = col ∧ ∃ j' ∈ l, r = row0 + (j' : Int) ∧ (j' : Int) ≠ passage) := by
            constructor
            · rintro ⟨h1, j', hj', h2, h3⟩
              rcases List.mem_cons.1 hj' with rfl | hj'
              · exact absurd ⟨h2, h1⟩ e
              · exact ⟨h1, j', hj', h2, h3⟩
            · rintro ⟨h1, j', hj', h2, h3⟩
              exact ⟨h1, j', List.mem_cons_of_mem _ hj', h2, h3⟩
          simp only [e, decide_False, Bool.not_false, Bool.and_true, this]
      · rw [if_neg hj]
        have : (c = col ∧ ∃ j' ∈ j :: l, r = row0 + (j' : Int) ∧ (j' : Int) ≠ passage)
            ↔ (c = col ∧ ∃ j' ∈ l, r = row0 + (j' : Int) ∧ (j' : Int) ≠ passage) := by
          constructor
          · rintro ⟨h1, j', hj', h2, h3⟩
            rcases List.mem_cons.1 hj' with rfl | hj'
            · exact absurd h3 hj
            · exact ⟨h1, j', hj', h2, h3⟩
          · rintro ⟨h1, j', hj', h2, h3⟩
            exact ⟨h1, j', List.mem_cons_of_mem _ hj', h2, h3⟩
        simp only [this]
  rw [key]
  have : (c = col ∧ ∃ i ∈ List.range height.toNat, r = row0 + (i : Int) ∧ (i : Int) ≠ passage)
      ↔ (c = col ∧ row0 ≤ r ∧ r < row0 + height ∧ r - row0 ≠ passage) := by
    constructor
    · rintro ⟨h1, j, hj, h2, h3⟩
      have := List.mem_range.1 hj
      refine ⟨h1, by omega, by omega, by omega⟩
    · rintro ⟨h1, h2, h3, h4⟩
      refine ⟨h1, (r - row0).toNat, List.mem_range.2 (by omega), by omega, by omega⟩
  simp only [this]


theorem link_symm (m : Maze) (a b : Point) (h : m.link a b) : m.link b a := by
  obtain ⟨ha, hb, ⟨d, hd, rfl⟩, hp⟩ := h
  refine ⟨hb, ha, ⟨⟨-d.row, -d.col⟩, ?_, ?_⟩, ?_⟩
  · rw [generate_directions_mem] at hd ⊢
    rcases hd with rfl | rfl | rfl | rfl <;> simp
  · cases a; simp [Point.step]
  · have : midpoint (a.step d) a = midpoint a (a.step d) := by
      simp [midpoint, Point.step, add_comm]
    rw [this]; exact hp

theorem room_connected_symm (m : Maze) (a b : Point) (h : m.room_connected a b) :
    m.room_connected b a := by
  induction h with
  | refl => exact Relation.ReflTransGen.refl
  | tail _ hbc ih => exact Relation.ReflTransGen.head (link_symm m _ _ hbc) ih

/-- A run of passable cells along a row joins the room cells at its ends. -/
theorem row_walk (m : Maze) (ρ : Int) (n : Nat) (c1 : Int)
    (h1 : m.room ⟨ρ, c1⟩) (h2 : m.room ⟨ρ, c1 + 2 * n⟩)
    (hp : ∀ c, c1 ≤ c → c ≤ c1 + 2 * n → m.path ρ c = true) :
    m.room_connected ⟨ρ, c1⟩ ⟨ρ, c1 + 2 * n⟩ := by
  induction n generalizing c1 with
  | zero => simp only [Nat.cast_zero, mul_zero, add_zero]; exact Relation.ReflTransGen.refl
  | succ n ih =>
    have hroom : m.room ⟨ρ, c1 + 2⟩ := by
      unfold Maze.room Maze.within_perimeter at *
      simp only [] at *
      push_cast at h2
      omega
    have e : c1 + 2 * ((n + 1 : Nat) : Int) = c1 + 2 + 2 * (n : Int) := by push_cast; ring
    rw [e] at h2 hp ⊢
    refine Relation.ReflTransGen.head ?_ (ih (c1 + 2) hroom h2 (fun c k1 k2 => hp c (by omega) k2))
    refine ⟨h1, hroom, ⟨⟨0, 2⟩, by simp [generate_directions_], by simp [Point.step]⟩, ?_⟩
    have : midpoint ⟨ρ, c1⟩ ⟨ρ, c1 + 2⟩ = ⟨ρ, c1 + 1⟩ := by
      simp only [midpoint, Point.mk.injEq]; constructor <;> omega
    rw [this]
    exact hp (c1 + 1) (by omega) (by omega)

/-- A run of passable cells along a column joins the room cells at its ends. -/
theorem col_walk (m : Maze) (κ : Int) (n : Nat) (r1 : Int)
    (h1 : m.room ⟨r1, κ⟩) (h2 : m.room ⟨r1 + 2 * n, κ⟩)
    (hp : ∀ r, r1 ≤ r → r ≤ r1 + 2 * n → m.path r κ = true) :
    m.room_connected ⟨r1, κ⟩ ⟨r1 + 2 * n, κ⟩ := by
  induction n generalizing r1 with
  | zero => simp only [Nat.cast_zero, mul_zero, add_zero]; exact Relation.ReflTransGen.refl
  | succ n ih =>
    have hroom : m.room ⟨r1 + 2, κ⟩ := by
      unfold Maze.room Maze.within_perimeter at *
      simp only [] at *
      push_cast at h2
      omega
    have e : r1 + 2 * ((n + 1 : Nat) : Int) = r1 + 2 + 2 * (n : Int) := by push_cast; ring
    rw [e] at h2 hp ⊢
    refine Relation.ReflTransGen.head ?_ (ih (r1 + 2) hroom h2 (fun c k1 k2 => hp c (by omega) k2))
    refine ⟨h1, hroom, ⟨⟨2, 0⟩, by simp [generate_directions_], by simp [Point.step]⟩, ?_⟩
    have : midpoint ⟨r1, κ⟩ ⟨r1 + 2, κ⟩ = ⟨r1 + 1, κ⟩ := by
      simp only [midpoint, Point.mk.injEq]; constructor <;> omega
    rw [this]
    exact hp (r1 + 1) (by omega) (by omega)

/-- Two room cells of one row are joined when every cell between them is a path. -/
theorem row_joined (m : Maze) (ρ c1 c2 : Int) (h1 : m.room ⟨ρ, c1⟩) (h2 : m.room ⟨ρ, c2⟩)
    (hp : ∀ c, min c1 c2 ≤ c → c ≤ max c1 c2 → m.path ρ c = true) :
    m.room_connected ⟨ρ, c1⟩ ⟨ρ, c2⟩ := by
  have o1 : c1 % 2 = 1 := h1.2.2
  have o2 : c2 % 2 = 1 := h2.2.2
  rcases le_total c1 c2 with hle | hle
  · have e : c2 = c1 + 2 * (((c2 - c1) / 2).toNat : Int) := by omega
    rw [e] at h2 ⊢
    exact row_walk m ρ _ c1 h1 h2 (fun c k1 k2 => hp c (by simp [hle, k1]) (by
      rw [max_eq_right hle]; omega))
  · have e : c1 = c2 + 2 * (((c1 - c2) / 2).toNat : Int) := by omega
    apply room_connected_symm
    rw [e] at h1 ⊢
    exact row_walk m ρ _ c2 h2 h1 (fun c k1 k2 => hp c (by simp [hle, k1]) (by
      rw [max_eq_left hle]; omega))

/-- Two room cells of one column are joined when every cell between them is a path. -/
theorem col_joined (m : Maze) (κ r1 r2 : Int) (h1 : m.room ⟨r1, κ⟩) (h2 : m.room ⟨r2, κ⟩)
    (hp : ∀ r, min r1 r2 ≤ r → r ≤ max r1 r2 → m.path r κ = true) :
    m.room_connected ⟨r1, κ⟩ ⟨r2, κ⟩ := by
  have o1 : r1 % 2 = 1 := h1.2.1
  have o2 : r2 % 2 = 1 := h2.2.1
  rcases le_total r1 r2 with hle | hle
  · have e : r2 = r1 + 2 * (((r2 - r1) / 2).toNat : Int) := by omega
    rw [e] at h2 ⊢
    exact col_walk m κ _ r1 h1 h2 (fun c k1 k2 => hp c (by simp [hle, k1]) (by
      rw [max_eq_right hle]; omega))
  · have e : r1 = r2 + 2 * (((r1 - r2) / 2).toNat : Int) := by omega
    apply room_connected_symm
    rw [e] at h1 ⊢
    exact col_walk m κ _ r2 h2 h1 (fun c k1 k2 => hp c (by simp [hle, k1]) (by
      rw [max_eq_left hle]; omega))

/-- Connectivity carries over to another grid in which every old link is still
a connection. -/
theorem room_connected_lift (m m' : Maze) (hl : ∀ a b, m.link a b → m'.room_connected a b)
    (a b : Point) (h : m.room_connected a b) : m'.room_connected a b := by
  induction h with
  | refl => exact Relation.ReflTransGen.refl
  | tail _ hbc ih => exact Relation.ReflTransGen.trans ih (hl _ _ hbc)


theorem choose_division_even (axis_limit : Int) (raw : Nat) (h : 5 ≤ axis_limit)
    (ho : axis_limit % 2 = 1) :
    choose_division axis_limit raw % 2 = 0 ∧ 2 ≤ choose_division axis_limit raw
      ∧ choose_division axis_limit raw ≤ axis_limit - 3 := by
  have hu := uniform_int_range 1 (axis_limit - 2) raw (by omega)
  unfold choose_division
  simp only []
  split_ifs <;> omega

theorem choose_passage_odd (axis_limit : Int) (raw : Nat) (h : 5 ≤ axis_limit)
    (ho : axis_limit % 2 = 1) :
    choose_passage axis_limit raw % 2 = 1 ∧ 1 ≤ choose_passage axis_limit raw
      ∧ choose_passage axis_limit raw ≤ axis_limit - 2 := by
  have hu := uniform_int_range 1 (axis_limit - 2) raw (by omega)
  unfold choose_passage
  simp only []
  split_ifs <;> omega

theorem wall_row_sizes (m : Maze) (row col0 width passage : Int) :
    (wall_row m row col0 width passage).maze_row_size_ = m.maze_row_size_
      ∧ (wall_row m row col0 width passage).maze_col_size_ = m.maze_col_size_ := by
  apply wall_row_keeps (fun m' => m'.maze_row_size_ = m.maze_row_size_
    ∧ m'.maze_col_size_ = m.maze_col_size_)
  · intro m' c _ _ ⟨e1, e2⟩
    exact ⟨by simp [e1], by simp [e2]⟩
  · exact ⟨rfl, rfl⟩

theorem wall_col_sizes (m : Maze) (row0 col height passage : Int) :
    (wall_col m row0 col height passage).maze_row_size_ = m.maze_row_size_
      ∧ (wall_col m row0 col height passage).maze_col_size_ = m.maze_col_size_ := by
  apply wall_col_keeps (fun m' => m'.maze_row_size_ = m.maze_row_size_
    ∧ m'.maze_col_size_ = m.maze_col_size_)
  · intro m' c _ _ ⟨e1, e2⟩
    exact ⟨by simp [e1], by simp [e2]⟩
  · exact ⟨rfl, rfl⟩

theorem room_sizes {m m' : Maze} (hr : m'.maze_row_size_ = m.maze_row_size_)
    (hc : m'.maze_col_size_ = m.maze_col_size_) (p : Point) : m'.room p ↔ m.room p := by
  unfold Maze.room
  rw [within_perimeter_sizes hr hc]

theorem apart_of_inside (a a' d : Chamber) (h : a.apart d)
    (hc : ∀ r c, a'.covers r c → a.covers r c) (he : ∀ r c, a'.encloses r c → a.encloses r c) :
    a'.apart d :=
  fun r c => ⟨fun hh => (h r c).1 ⟨hc r c hh.1, hh.2⟩, fun hh => (h r c).2 ⟨hh.1, he r c hh.2⟩⟩

theorem apart_symm (a b : Chamber) (h : a.apart b) : b.apart a :=
  fun r c => ⟨(h r c).2, (h r c).1⟩

/-- A horizontal wall with one passage through an open chamber keeps the
invariant of the subdivision. -/
theorem fractal_split_rows (m : Maze) (chamber : Chamber) (rest : List Chamber) (pos : Nat)
    (d p : Int) (hinv : Fractal_inv ⟨m, chamber :: rest, pos⟩)
    (hd : d % 2 = 0 ∧ 2 ≤ d ∧ d ≤ chamber.height - 3)
    (hp : p % 2 = 1 ∧ 1 ≤ p ∧ p ≤ chamber.width - 2) (pos' : Nat) :
    Fractal_inv ⟨wall_row m (chamber.offset.row + d) chamber.offset.col chamber.width p,
      ⟨⟨chamber.offset.row + d, chamber.offset.col⟩, chamber.height - d, chamber.width⟩
        :: { chamber with height := d + 1 } :: rest, pos'⟩ := by
  obtain ⟨hwf, hpw, hopen, hrooms, hconn⟩ := hinv
  simp only [] at hwf hpw hopen hrooms hconn
  obtain ⟨s1, s2⟩ := wall_row_sizes m (chamber.offset.row + d) chamber.offset.col
    chamber.width p
  have hch := hwf chamber (List.mem_cons_self _ _)
  unfold Chamber.well_formed at hch
  have hpath := wall_row_path m (chamber.offset.row + d) chamber.offset.col chamber.width p
  have hroom := fun q => room_sizes s1 s2 q
  rw [List.pairwise_cons] at hpw
  have hkeep : ∀ r c, m.path r c = true →
      ¬ (r = chamber.offset.row + d ∧ chamber.covers r c) →
      (wall_row m (chamber.offset.row + d) chamber.offset.col chamber.width p).path r c
        = true := by
    intro r c h1 h2
    rw [hpath, h1, Bool.true_and]
    simp only [Bool.not_eq_true', decide_eq_false_iff_not]
    intro h3
    apply h2
    unfold Chamber.covers
    omega
  refine ⟨?_, ?_, ?_, ?_, ?_⟩
  · intro ch hmem
    simp only [List.mem_cons] at hmem
    unfold Chamber.well_formed
    rw [s1, s2]
    rcases hmem with rfl | rfl | hmem
    · simp only []; omega
    · simp only []; omega
    · exact hwf ch (List.mem_cons_of_mem _ hmem)
  · simp only [List.pairwise_cons]
    refine ⟨?_, ?_, hpw.2⟩
    · intro ch hmem
      rcases List.mem_cons.1 hmem with rfl | hmem
      · intro r c
        unfold Chamber.covers Chamber.encloses
        simp only []
        constructor <;> omega
      · apply apart_of_inside chamber _ ch (hpw.1 ch hmem)
        · intro r c; unfold Chamber.covers; simp only []; omega
        · intro r c; unfold Chamber.encloses; simp only []; omega
    · intro ch hmem
      apply apart_of_inside chamber _ ch (hpw.1 ch hmem)
      · intro r c; unfold Chamber.covers; simp only []; omega
      · intro r c; unfold Chamber.encloses; simp only []; omega
  · intro ch hmem r c henc
    simp only [List.mem_cons] at hmem
    rcases hmem with rfl | rfl | hmem
    · apply hkeep r c (hopen chamber (List.mem_cons_self _ _) r c (by
        unfold Chamber.encloses at henc ⊢; simp only [] at henc; omega))
      unfold Chamber.encloses at henc; simp only [] at henc; omega
    · apply hkeep r c (hopen chamber (List.mem_cons_self _ _) r c (by
        unfold Chamber.encloses at henc ⊢; simp only [] at henc; omega))
      unfold Chamber.encloses at henc; simp only [] at henc; omega
    · apply hkeep r c (hopen ch (List.mem_cons_of_mem _ hmem) r c henc)
      intro hh
      exact (hpw.1 ch hmem r c).1 ⟨hh.2, henc⟩
  · intro q hq
    have hq' := (hroom q).1 hq
    apply hkeep _ _ (hrooms q hq')
    have := hq'.2.1
    omega
  · -- connectivity
    have inside : ∀ r c, chamber.encloses r c → r ≠ chamber.offset.row + d →
        (wall_row m (chamber.offset.row + d) chamber.offset.col chamber.width p).path r c
          = true := fun r c h1 h2 =>
      hkeep r c (hopen chamber (List.mem_cons_self _ _) r c h1) (fun hh => h2 hh.1)
    have room_in : ∀ r c, chamber.encloses r c → r % 2 = 1 → c % 2 = 1 →
        (wall_row m (chamber.offset.row + d) chamber.offset.col chamber.width p).room ⟨r, c⟩ := by
      intro r c h1 h2 h3
      unfold Chamber.encloses at h1
      unfold Maze.room Maze.within_perimeter
      rw [s1, s2]
      simp only []
      omega
    -- the two rooms at the passage
    have hgate : ∀ cc, chamber.offset.col < cc → cc < chamber.offset.col + chamber.width - 1 →
        cc % 2 = 1 →
        (wall_row m (chamber.offset.row + d) chamber.offset.col chamber.width p).room_connected
          ⟨chamber.offset.row + d - 1, cc⟩ ⟨chamber.offset.row + d + 1, cc⟩ := by
      intro cc k1 k2 k3
      have encU : ∀ c, chamber.offset.col < c → c < chamber.offset.col + chamber.width - 1 →
          chamber.encloses (chamber.offset.row + d - 1) c := by
        intro c _ _; unfold Chamber.encloses; omega
      have encL : ∀ c, chamber.offset.col < c → c < chamber.offset.col + chamber.width - 1 →
          chamber.encloses (chamber.offset.row + d + 1) c := by
        intro c _ _; unfold Chamber.encloses; omega
      have r1 := room_in _ cc (encU cc k1 k2) (by omega) k3
      have r2 := room_in _ (chamber.offset.col + p) (encU _ (by omega) (by omega)) (by omega)
        (by omega)
      have r3 := room_in _ (chamber.offset.col + p) (encL _ (by omega) (by omega)) (by omega)
        (by omega)
      have r4 := room_in _ cc (encL cc k1 k2) (by omega) k3
      have w1 := row_joined _ (chamber.offset.row + d - 1) cc (chamber.offset.col + p) r1 r2
        (fun c h1 h2 => inside _ c (encU c (by
          rcases le_total cc (chamber.offset.col + p) with hle | hle
          · rw [min_eq_left hle] at h1; omega
          · rw [min_eq_right hle] at h1; omega) (by
          rcases le_total cc (chamber.offset.col + p) with hle | hle
          · rw [max_eq_right hle] at h2; omega
          · rw [max_eq_left hle] at h2; omega)) (by omega))
      have w3 := row_joined _ (chamber.offset.row + d + 1) (chamber.offset.col + p) cc r3 r4
        (fun c h1 h2 => inside _ c (encL c (by
          rcases le_total (chamber.offset.col + p) cc with hle | hle
          · rw [min_eq_left hle] at h1; omega
          · rw [min_eq_right hle] at h1; omega) (by
          rcases le_total (chamber.offset.col + p) cc with hle | hle
          · rw [max_eq_right hle] at h2; omega
          · rw [max_eq_left hle] at h2; omega)) (by omega))
      have w2 : (wall_row m (chamber.offset.row + d) chamber.offset.col chamber.width p).link
          ⟨chamber.offset.row + d - 1, chamber.offset.col + p⟩
          ⟨chamber.offset.row + d + 1, chamber.offset.col + p⟩ := by
        refine ⟨r2, r3, ⟨⟨2, 0⟩, by simp [generate_directions_], by
          simp only [Point.step, Point.mk.injEq]; omega⟩, ?_⟩
        have : midpoint ⟨chamber.offset.row + d - 1, chamber.offset.col + p⟩
            ⟨chamber.offset.row + d + 1, chamber.offset.col + p⟩
            = ⟨chamber.offset.row + d, chamber.offset.col + p⟩ := by
          simp only [midpoint, Point.mk.injEq]; constructor <;> omega
        rw [this, hpath]
        have hopen' := hopen chamber (List.mem_cons_self _ _) (chamber.offset.row + d)
          (chamber.offset.col + p) (by unfold Chamber.encloses; omega)
        rw [hopen', Bool.true_and]
        simp only [Bool.not_eq_true', decide_eq_false_iff_not]
        omega
      exact Relation.ReflTransGen.trans w1 (Relation.ReflTransGen.head w2 w3)
    intro a b ha hb
    apply room_connected_lift m _ _ a b (hconn a b ((hroom a).1 ha) ((hroom b).1 hb))
    intro a b hl
    obtain ⟨ra, rb, ⟨d0, hd0, hb0⟩, hmid⟩ := hl
    by_cases hw : (wall_row m (chamber.offset.row + d) chamber.offset.col chamber.width p).path
        (midpoint a b).row (midpoint a b).col = true
    · exact Relation.ReflTransGen.single
        ⟨(hroom a).2 ra, (hroom b).2 rb, ⟨d0, hd0, hb0⟩, hw⟩
    · rw [hpath, hmid, Bool.true_and] at hw
      simp only [Bool.not_eq_true', decide_eq_false_iff_not, not_not] at hw
      have oa := ra.2
      rw [generate_directions_mem] at hd0
      subst hb0
      rcases hd0 with rfl | rfl | rfl | rfl
      · -- b is north of a
        simp only [midpoint, Point.step] at hw
        have hrow : a.row = chamber.offset.row + d + 1 := by omega
        have ea : a = ⟨chamber.offset.row + d + 1, a.col⟩ := by
          cases a; simp only [Point.mk.injEq, and_true]; exact hrow
        have eb : a.step ⟨-2, 0⟩ = ⟨chamber.offset.row + d - 1, a.col⟩ := by
          simp only [Point.step, Point.mk.injEq]; omega
        rw [eb]
        conv_lhs => rw [ea]
        exact room_connected_symm _ _ _ (hgate a.col (by omega) (by omega) (by omega))
      · simp only [midpoint, Point.step] at hw; omega
      · simp only [midpoint, Point.step] at hw
        have hrow : a.row = chamber.offset.row + d - 1 := by omega
        have ea : a = ⟨chamber.offset.row + d - 1, a.col⟩ := by
          cases a; simp only [Point.mk.injEq, and_true]; exact hrow
        have eb : a.step ⟨2, 0⟩ = ⟨chamber.offset.row + d + 1, a.col⟩ := by
          simp only [Point.step, Point.mk.injEq]; omega
        rw [eb]
        conv_lhs => rw [ea]
        exact hgate a.col (by omega) (by omega) (by omega)
      · simp only [midpoint, Point.step] at hw; omega


/-- A vertical wall with one passage through an open chamber keeps the invariant
of the subdivision. -/
theorem fractal_split_cols (m : Maze) (chamber : Chamber) (rest : List Chamber) (pos : Nat)
    (d p : Int) (hinv : Fractal_inv ⟨m, chamber :: rest, pos⟩)
    (hd : d % 2 = 0 ∧ 2 ≤ d ∧ d ≤ chamber.width - 3)
    (hp : p % 2 = 1 ∧ 1 ≤ p ∧ p ≤ chamber.height - 2) (pos' : Nat) :
    Fractal_inv ⟨wall_col m chamber.offset.row (chamber.offset.col + d) chamber.height p,
      ⟨⟨chamber.offset.row, chamber.offset.col + d⟩, chamber.height, chamber.width - d⟩
        :: { chamber with width := d + 1 } :: rest, pos'⟩ := by
  obtain ⟨hwf, hpw, hopen, hrooms, hconn⟩ := hinv
  simp only [] at hwf hpw hopen hrooms hconn
  obtain ⟨s1, s2⟩ := wall_col_sizes m chamber.offset.row (chamber.offset.col + d)
    chamber.height p
  have hch := hwf chamber (List.mem_cons_self _ _)
  unfold Chamber.well_formed at hch
  have hpath := wall_col_path m chamber.offset.row (chamber.offset.col + d) chamber.height p
  have hroom := fun q => room_sizes s1 s2 q
  rw [List.pairwise_cons] at hpw
  have hkeep : ∀ r c, m.path r c = true →
      ¬ (c = chamber.offset.col + d ∧ chamber.covers r c) →
      (wall_col m chamber.offset.row (chamber.offset.col + d) chamber.height p).path r c
        = true := by
    intro r c h1 h2
    rw [hpath, h1, Bool.true_and]
    simp only [Bool.not_eq_true', decide_eq_false_iff_not]
    intro h3
    apply h2
    unfold Chamber.covers
    omega
  refine ⟨?_, ?_, ?_, ?_, ?_⟩
  · intro ch hmem
    simp only [List.mem_cons] at hmem
    unfold Chamber.well_formed
    rw [s1, s2]
    rcases hmem with rfl | rfl | hmem
    · simp only []; omega
    · simp only []; omega
    · exact hwf ch (List.mem_cons_of_mem _ hmem)
  · simp only [List.pairwise_cons]
    refine ⟨?_, ?_, hpw.2⟩
    · intro ch hmem
      rcases List.mem_cons.1 hmem with rfl | hmem
      · intro r c
        unfold Chamber.covers Chamber.encloses
        simp only []
        constructor <;> omega
      · apply apart_of_inside chamber _ ch (hpw.1 ch hmem)
        · intro r c; unfold Chamber.covers; simp only []; omega
        · intro r c; unfold Chamber.encloses; simp only []; omega
    · intro ch hmem
      apply apart_of_inside chamber _ ch (hpw.1 ch hmem)
      · intro r c; unfold Chamber.covers; simp only []; omega
      · intro r c; unfold Chamber.encloses; simp only []; omega
  · intro ch hmem r c henc
    simp only [List.mem_cons] at hmem
    rcases hmem with rfl | rfl | hmem
    · apply hkeep r c (hopen chamber (List.mem_cons_self _ _) r c (by
        unfold Chamber.encloses at henc ⊢; simp only [] at henc; omega))
      unfold Chamber.encloses at henc; simp only [] at henc; omega
    · apply hkeep r c (hopen chamber (List.mem_cons_self _ _) r c (by
        unfold Chamber.encloses at henc ⊢; simp only [] at henc; omega))
      unfold Chamber.encloses at henc; simp only [] at henc; omega
    · apply hkeep r c (hopen ch (List.mem_cons_of_mem _ hmem) r c henc)
      intro hh
      exact (hpw.1 ch hmem r c).1 ⟨hh.2, henc⟩
  · intro q hq
    have hq' := (hroom q).1 hq
    apply hkeep _ _ (hrooms q hq')
    have := hq'.2.2
    omega
  · -- connectivity
    have inside : ∀ r c, chamber.encloses r c → c ≠ chamber.offset.col + d →
        (wall_col m chamber.offset.row (chamber.offset.col + d) chamber.height p).path r c
          = true := fun r c h1 h2 =>
      hkeep r c (hopen chamber (List.mem_cons_self _ _) r c h1) (fun hh => h2 hh.1)
    have room_in : ∀ r c, chamber.encloses r c → r % 2 = 1 → c % 2 = 1 →
        (wall_col m chamber.offset.row (chamber.offset.col + d) chamber.height p).room ⟨r, c⟩ := by
      intro r c h1 h2 h3
      unfold Chamber.encloses at h1
      unfold Maze.room Maze.within_perimeter
      rw [s1, s2]
      simp only []
      omega
    -- the two rooms at the passage
    have hgate : ∀ rr, chamber.offset.row < rr → rr < chamber.offset.row + chamber.height - 1 →
        rr % 2 = 1 →
        (wall_col m chamber.offset.row (chamber.offset.col + d) chamber.height p).room_connected
          ⟨rr, chamber.offset.col + d - 1⟩ ⟨rr, chamber.offset.col + d + 1⟩ := by
      intro rr k1 k2 k3
      have encU : ∀ r, chamber.offset.row < r → r < chamber.offset.row + chamber.height - 1 →
          chamber.encloses r (chamber.offset.col + d - 1) := by
        intro r _ _; unfold Chamber.encloses; omega
      have encL : ∀ r, chamber.offset.row < r → r < chamber.offset.row + chamber.height - 1 →
          chamber.encloses r (chamber.offset.col + d + 1) := by
        intro r _ _; unfold Chamber.encloses; omega
      have r1 := room_in rr _ (encU rr k1 k2) k3 (by omega)
      have r2 := room_in (chamber.offset.row + p) _ (encU _ (by omega) (by omega)) (by omega)
        (by omega)
      have r3 := room_in (chamber.offset.row + p) _ (encL _ (by omega) (by omega)) (by omega)
        (by omega)
      have r4 := room_in rr _ (encL rr k1 k2) k3 (by omega)
      have w1 := col_joined _ (chamber.offset.col + d - 1) rr (chamber.offset.row + p) r1 r2
        (fun r h1 h2 => inside r _ (encU r (by
          rcases le_total rr (chamber.offset.row + p) with hle | hle
          · rw [min_eq_left hle] at h1; omega
          · rw [min_eq_right hle] at h1; omega) (by
          rcases le_total rr (chamber.offset.row + p) with hle | hle
          · rw [max_eq_right hle] at h2; omega
          · rw [max_eq_left hle] at h2; omega)) (by omega))
      have w3 := col_joined _ (chamber.offset.col + d + 1) (chamber.offset.row + p) rr r3 r4
        (fun r h1 h2 => inside r _ (encL r (by
          rcases le_total (chamber.offset.row + p) rr with hle | hle
          · rw [min_eq_left hle] at h1; omega
          · rw [min_eq_right hle] at h1; omega) (by
          rcases le_total (chamber.offset.row + p) rr with hle | hle
          · rw [max_eq_right hle] at h2; omega
          · rw [max_eq_left hle] at h2; omega)) (by omega))
      have w2 : (wall_col m chamber.offset.row (chamber.offset.col + d) chamber.height p).link
          ⟨chamber.offset.row + p, chamber.offset.col + d - 1⟩
          ⟨chamber.offset.row + p, chamber.offset.col + d + 1⟩ := by
        refine ⟨r2, r3, ⟨⟨0, 2⟩, by simp [generate_directions_], by
          simp only [Point.step, Point.mk.injEq]; omega⟩, ?_⟩
        have : midpoint ⟨chamber.offset.row + p, chamber.offset.col + d - 1⟩
            ⟨chamber.offset.row + p, chamber.offset.col + d + 1⟩
            = ⟨chamber.offset.row + p, chamber.offset.col + d⟩ := by
          simp only [midpoint, Point.mk.injEq]; constructor <;> omega
        rw [this, hpath]
        have hopen' := hopen chamber (List.mem_cons_self _ _) (chamber.offset.row + p)
          (chamber.offset.col + d) (by unfold Chamber.encloses; omega)
        rw [hopen', Bool.true_and]
        simp only [Bool.not_eq_true', decide_eq_false_iff_not]
        omega
      exact Relation.ReflTransGen.trans w1 (Relation.ReflTransGen.head w2 w3)
    intro a b ha hb
    apply room_connected_lift m _ _ a b (hconn a b ((hroom a).1 ha) ((hroom b).1 hb))
    intro a b hl
    obtain ⟨ra, rb, ⟨d0, hd0, hb0⟩, hmid⟩ := hl
    by_cases hw : (wall_col m chamber.offset.row (chamber.offset.col + d) chamber.height p).path
        (midpoint a b).row (midpoint a b).col = true
    · exact Relation.ReflTransGen.single
        ⟨(hroom a).2 ra, (hroom b).2 rb, ⟨d0, hd0, hb0⟩, hw⟩
    · rw [hpath, hmid, Bool.true_and] at hw
      simp only [Bool.not_eq_true', decide_eq_false_iff_not, not_not] at hw
      have oa := ra.2
      rw [generate_directions_mem] at hd0
      subst hb0
      rcases hd0 with rfl | rfl | rfl | rfl
      · simp only [midpoint, Point.step] at hw; omega
      · simp only [midpoint, Point.step] at hw
        have hcol : a.col = chamber.offset.col + d - 1 := by omega
        have ea : a = ⟨a.row, chamber.offset.col + d - 1⟩ := by
          cases a; simp only [Point.mk.injEq, true_and]; exact hcol
        have eb : a.step ⟨0, 2⟩ = ⟨a.row, chamber.offset.col + d + 1⟩ := by
          simp only [Point.step, Point.mk.injEq]; omega
        rw [eb]
        conv_lhs => rw [ea]
        exact hgate a.row (by omega) (by omega) (by omega)
      · simp only [midpoint, Point.step] at hw; omega
      · simp only [midpoint, Point.step] at hw
        have hcol : a.col = chamber.offset.col + d + 1 := by omega
        have ea : a = ⟨a.row, chamber.offset.col + d + 1⟩ := by
          cases a; simp only [Point.mk.injEq, true_and]; exact hcol
        have eb : a.step ⟨0, -2⟩ = ⟨a.row, chamber.offset.col + d - 1⟩ := by
          simp only [Point.step, Point.mk.injEq]; omega
        rw [eb]
        conv_lhs => rw [ea]
        exact room_connected_symm _ _ _ (hgate a.row (by omega) (by omega) (by omega))


theorem fractal_iteration_inv (gen : Nat → Nat) (s : Fractal_state) (h : Fractal_inv s) :
    Fractal_inv (fractal_iteration gen s) := by
  unfold fractal_iteration
  split
  · exact h
  · rename_i chamber rest hst
    have h' : Fractal_inv ⟨s.maze, chamber :: rest, s.pos⟩ := by
      have : s = ⟨s.maze, chamber :: rest, s.pos⟩ := by cases s; simp only [] at hst; rw [hst]
      rw [← this]; exact h
    have hch := h'.1 chamber (List.mem_cons_self _ _)
    unfold Chamber.well_formed at hch
    split_ifs with c1 c2
    · exact fractal_split_rows s.maze chamber rest s.pos _ _ h'
        (choose_division_even _ _ (by omega) (by omega))
        (choose_passage_odd _ _ (by omega) (by omega)) _
    · exact fractal_split_cols s.maze chamber rest s.pos _ _ h'
        (choose_division_even _ _ (by omega) (by omega))
        (choose_passage_odd _ _ (by omega) (by omega)) _
    · obtain ⟨k1, k2, k3, k4, k5⟩ := h'
      exact ⟨fun ch hm => k1 ch (List.mem_cons_of_mem _ hm), (List.pairwise_cons.1 k2).2,
        fun ch hm => k3 ch (List.mem_cons_of_mem _ hm), k4, k5⟩

theorem for_cells_build_path_path (m : Maze) (lo hi clo chi r c : Int) :
    (for_cells lo hi clo chi build_path m).path r c
      = (m.path r c || decide (lo ≤ r ∧ r < hi ∧ clo ≤ c ∧ c < chi)) := by
  by_cases hin : lo ≤ r ∧ r < hi ∧ clo ≤ c ∧ c < chi
  · rw [decide_eq_true hin, Bool.or_true]
    exact for_cells_eventually (fun _ => True) (fun m' => m'.path r c = true) lo hi clo chi
      build_path m r c ⟨hin.1, hin.2.1⟩ ⟨hin.2.2.1, hin.2.2.2⟩ trivial (fun _ _ _ _ => trivial)
      (fun m' _ => by
        show ((build_path m' r c).maze_ r c).path_bit = true
        rw [build_path_path_bit]; simp)
      (fun m' r' c' _ hg => by
        have hg' : (m'.maze_ r c).path_bit = true := hg
        show ((build_path m' r' c').maze_ r c).path_bit = true
        rw [build_path_path_bit, hg']; rfl)
  · rw [decide_eq_false hin, Bool.or_false]
    apply for_cells_induction (fun m' => m'.path r c = m.path r c)
    · rfl
    · intro m' r' c' h1 h2 h3 h4 hm'
      unfold Maze.path at hm' ⊢
      rw [build_path_path_bit, hm']
      have : ¬ (r = r' ∧ c = c') := by rintro ⟨rfl, rfl⟩; exact hin ⟨h1, h2, h3, h4⟩
      simp [this]

theorem fractal_init_inv (m : Maze) (pos : Nat) (hr : 3 ≤ m.maze_row_size_)
    (hc : 3 ≤ m.maze_col_size_) (hro : m.maze_row_size_ % 2 = 1)
    (hco : m.maze_col_size_ % 2 = 1) : Fractal_inv (fractal_init m pos) := by
  have hs := for_cells_sized (P := fun _ => True) 1 (m.maze_row_size_ - 1) 1
    (m.maze_col_size_ - 1) build_path m trivial (by
      intro m' e1 e2 r c h1 h2 h3 h4 hp
      exact ⟨trivial, by simp, by simp⟩)
  obtain ⟨_, s1, s2⟩ := hs
  have hpath : ∀ r c, m.within_perimeter r c → (fractal_init m pos).maze.path r c = true := by
    intro r c hw
    unfold fractal_init
    simp only []
    rw [for_cells_build_path_path]
    have : 1 ≤ r ∧ r < m.maze_row_size_ - 1 ∧ 1 ≤ c ∧ c < m.maze_col_size_ - 1 := by
      unfold Maze.within_perimeter at hw; omega
    simp [this]
  have hwithin : ∀ r c, (fractal_init m pos).maze.within_perimeter r c
      ↔ m.within_perimeter r c := within_perimeter_sizes s1 s2
  refine ⟨?_, ?_, ?_, ?_, ?_⟩
  · intro ch hmem
    simp only [fractal_init, List.mem_singleton] at hmem
    subst hmem
    unfold Chamber.well_formed
    simp only [fractal_init, s1, s2]
    omega
  · simp [fractal_init]
  · intro ch hmem r c henc
    simp only [fractal_init, List.mem_singleton] at hmem
    subst hmem
    apply hpath
    unfold Chamber.encloses at henc
    unfold Maze.within_perimeter
    simp only [] at henc
    omega
  · intro p hp
    exact hpath _ _ ((hwithin _ _).1 hp.1)
  · intro a b ha hb
    have hmid : (fractal_init m pos).maze.room ⟨a.row, b.col⟩ := by
      unfold Maze.room Maze.within_perimeter at *
      simp only []
      omega
    have w1 := row_joined _ a.row a.col b.col ha hmid (fun c h1 h2 => by
      apply hpath
      have ha' := (hwithin _ _).1 ha.1
      have hb' := (hwithin _ _).1 hb.1
      unfold Maze.within_perimeter at *
      rcases le_total a.col b.col with hle | hle
      · rw [min_eq_left hle] at h1; rw [max_eq_right hle] at h2; omega
      · rw [min_eq_right hle] at h1; rw [max_eq_left hle] at h2; omega)
    have w2 := col_joined _ b.col a.row b.row hmid hb (fun r h1 h2 => by
      apply hpath
      have ha' := (hwithin _ _).1 ha.1
      have hb' := (hwithin _ _).1 hb.1
      unfold Maze.within_perimeter at *
      rcases le_total a.row b.row with hle | hle
      · rw [min_eq_left hle] at h1; rw [max_eq_right hle] at h2; omega
      · rw [min_eq_right hle] at h1; rw [max_eq_left hle] at h2; omega)
    exact Relation.ReflTransGen.trans w1 w2

/-! ### Termination of the chamber loop -/

theorem weight_split (A B W : Nat) (hW : 1 ≤ W) :
    2 * (A * W) + 1 + (2 * (B * W) + 1) < 2 * ((A + B + 1) * W) + 1 := by
  have : (A + B + 1) * W = A * W + B * W + W := by ring
  omega

/-- Every iteration on a non-empty stack of well-formed chambers lowers the total
weight of the stack. -/
theorem fractal_iteration_weight (gen : Nat → Nat) (s : Fractal_state)
    (hwf : ∀ ch ∈ s.chamber_stack, ch.well_formed s.maze) (hne : s.chamber_stack ≠ []) :
    ((fractal_iteration gen s).chamber_stack.map Chamber.weight).sum
      < (s.chamber_stack.map Chamber.weight).sum := by
  unfold fractal_iteration
  split
  · rename_i hst; exact absurd hst hne
  · rename_i chamber rest hst
    have hch := hwf chamber (by rw [hst]; exact List.mem_cons_self _ _)
    unfold Chamber.well_formed at hch
    rw [hst]
    split_ifs with c1 c2
    · obtain ⟨_, d1, d2⟩ := choose_division_even chamber.height (gen s.pos) (by omega) (by omega)
      simp only [List.map_cons, List.sum_cons, Chamber.weight]
      generalize choose_division chamber.height (gen s.pos) = d at d1 d2
      have e : (chamber.height - 2).toNat
          = (d + 1 - 2).toNat + (chamber.height - d - 2).toNat + 1 := by omega
      have := weight_split (d + 1 - 2).toNat (chamber.height - d - 2).toNat
        (chamber.width - 2).toNat (by omega)
      rw [e]
      omega
    · obtain ⟨_, d1, d2⟩ := choose_division_even chamber.width (gen s.pos) (by omega) (by omega)
      simp only [List.map_cons, List.sum_cons, Chamber.weight]
      generalize choose_division chamber.width (gen s.pos) = d at d1 d2
      have e : (chamber.width - 2).toNat
          = (d + 1 - 2).toNat + (chamber.width - d - 2).toNat + 1 := by omega
      have := weight_split (d + 1 - 2).toNat (chamber.width - d - 2).toNat
        (chamber.height - 2).toNat (by omega)
      rw [e]
      simp only [Nat.mul_comm (chamber.height - 2).toNat]
      omega
    · simp only [List.map_cons, List.sum_cons, Chamber.weight]
      omega

theorem fractal_iteration_empty (gen : Nat → Nat) (s : Fractal_state)
    (h : s.chamber_stack = []) : fractal_iteration gen s = s := by
  unfold fractal_iteration
  split
  · rfl
  · rename_i hst; rw [h] at hst; cases hst

theorem fractal_terminates (gen : Nat → Nat) (fuel : Nat) (s : Fractal_state)
    (h : Fractal_inv s) (hfuel : (s.chamber_stack.map Chamber.weight).sum ≤ fuel) :
    ((fractal_iteration gen)^[fuel] s).chamber_stack = [] := by
  induction fuel generalizing s with
  | zero =>
    cases hst : s.chamber_stack with
    | nil => simpa using hst
    | cons ch rest =>
      rw [hst] at hfuel
      simp only [List.map_cons, List.sum_cons, Chamber.weight] at hfuel
      omega
  | succ n ih =>
    rw [Function.iterate_succ_apply]
    by_cases hne : s.chamber_stack = []
    · rw [fractal_iteration_empty gen s hne]
      exact ih s h (by rw [hne]; simp)
    · apply ih _ (fractal_iteration_inv gen s h)
      have := fractal_iteration_weight gen s h.1 hne
      omega


/-- A carved joint between two passable rooms is two solver moves. -/
theorem link_reachable (m : Maze) (a b : Point) (ha : m.path a.row a.col = true)
    (hb : m.path b.row b.col = true) (h : m.link a b) : m.reachable a b := by
  obtain ⟨_, _, ⟨d, hd, rfl⟩, hmid⟩ := h
  rw [generate_directions_mem] at hd
  have key : ∀ d' : Point, d' ∈ cardinal_directions_ →
      midpoint a (a.step d) = a.step d' → a.step d = (a.step d').step d' →
      m.reachable a (a.step d) := by
    intro d' hd' e1 e2
    rw [e1] at hmid
    refine Relation.ReflTransGen.head ⟨ha, hmid, d', hd', rfl⟩
      (Relation.ReflTransGen.single ⟨hmid, hb, d', hd', e2⟩)
  rcases hd with rfl | rfl | rfl | rfl
  · exact key ⟨-1, 0⟩ (by simp [cardinal_directions_])
      (by simp only [midpoint, Point.step, Point.mk.injEq]; constructor <;> omega)
      (by simp only [Point.step, Point.mk.injEq]; constructor <;> omega)
  · exact key ⟨0, 1⟩ (by simp [cardinal_directions_])
      (by simp only [midpoint, Point.step, Point.mk.injEq]; constructor <;> omega)
      (by simp only [Point.step, Point.mk.injEq]; constructor <;> omega)
  · exact key ⟨1, 0⟩ (by simp [cardinal_directions_])
      (by simp only [midpoint, Point.step, Point.mk.injEq]; constructor <;> omega)
      (by simp only [Point.step, Point.mk.injEq]; constructor <;> omega)
  · exact key ⟨0, -1⟩ (by simp [cardinal_directions_])
      (by simp only [midpoint, Point.step, Point.mk.injEq]; constructor <;> omega)
      (by simp only [Point.step, Point.mk.injEq]; constructor <;> omega)

theorem room_connected_reachable (m : Maze)
    (hrooms : ∀ p, m.room p → m.path p.row p.col = true) (a b : Point)
    (h : m.room_connected a b) : m.reachable a b := by
  induction h with
  | refl => exact Relation.ReflTransGen.refl
  | tail _ hbc ih =>
    exact Relation.ReflTransGen.trans ih
      (link_reachable m _ _ (hrooms _ hbc.1) (hrooms _ hbc.2.1) hbc)

/-- C9: for odd row and column counts of at least 7 and every random source,
`generate_randomized_fractal_maze` returns (its chamber stack is empty after
`2 (rows - 2) (cols - 2) + 1` loop iterations at most), and then every room
cell is passable and reachable from every other room cell through cardinally
adjacent passable cells. -/
theorem fractal_rooms_reachable (gen : Nat → Nat) (m : Maze) (pos fuel : Nat)
    (hr : 7 ≤ m.maze_row_size_) (hc : 7 ≤ m.maze_col_size_)
    (hro : m.maze_row_size_ % 2 = 1) (hco : m.maze_col_size_ % 2 = 1)
    (hfuel : 2 * ((m.maze_row_size_ - 2).toNat * (m.maze_col_size_ - 2).toNat) + 1 ≤ fuel) :
    (generate_randomized_fractal_maze gen fuel m pos).chamber_stack = []
      ∧ ∀ a b, (generate_randomized_fractal_maze gen fuel m pos).maze.room a →
          (generate_randomized_fractal_maze gen fuel m pos).maze.room b →
          (generate_randomized_fractal_maze gen fuel m pos).maze.path a.row a.col = true
            ∧ (generate_randomized_fractal_maze gen fuel m pos).maze.reachable a b := by
  have h0 := fractal_init_inv m pos (by omega) (by omega) hro hco
  have hinv : Fractal_inv (generate_randomized_fractal_maze gen fuel m pos) :=
    iterate_invariant (fractal_iteration gen) Fractal_inv (fractal_iteration_inv gen) fuel _ h0
  refine ⟨?_, fun a b ha hb => ⟨hinv.2.2.2.1 a ha, ?_⟩⟩
  · apply fractal_terminates gen fuel _ h0
    simpa [fractal_init, Chamber.weight] using hfuel
  · exact room_connected_reachable _ hinv.2.2.2.1 a b (hinv.2.2.2.2 a b ha hb)

/-- Witness of `fractal_rooms_reachable`: the 7 x 7 all-walls grid, 51 iterations. -/
theorem fractal_rooms_reachable_witness :
    (generate_randomized_fractal_maze (fun n => n) 51 (all_walls 7 7) 0).chamber_stack = []
      ∧ ∀ a b, (generate_randomized_fractal_maze (fun n => n) 51 (all_walls 7 7) 0).maze.room a →
          (generate_randomized_fractal_maze (fun n => n) 51 (all_walls 7 7) 0).maze.room b →
          (generate_randomized_fractal_maze (fun n => n) 51 (all_walls 7 7) 0).maze.path
              a.row a.col = true
            ∧ (generate_randomized_fractal_maze (fun n => n) 51 (all_walls 7 7) 0).maze.reachable
              a b :=
  fractal_rooms_reachable (fun n => n) (all_walls 7 7) 0 51 (by decide) (by decide) (by decide)
    (by decide) (by decide)


/-! ## The carved graph grows as a tree -/

theorem cell_of_sizes {m m' : Maze} (hr : m'.maze_row_size_ = m.maze_row_size_)
    (hc : m'.maze_col_size_ = m.maze_col_size_) (s p : Point) :
    m'.cell_of s p ↔ m.cell_of s p := by
  unfold Maze.cell_of
  rw [within_perimeter_sizes hr hc]

theorem is_joint_sizes {m m' : Maze} (hr : m'.maze_row_size_ = m.maze_row_size_)
    (hc : m'.maze_col_size_ = m.maze_col_size_) (s j : Point) :
    m'.is_joint s j ↔ m.is_joint s j := by
  unfold Maze.is_joint
  simp only [cell_of_sizes hr hc]

theorem cell_of_step (m : Maze) (s a d : Point) (ha : m.cell_of s a)
    (hd : d ∈ generate_directions_)
    (hw : m.within_perimeter (a.step d).row (a.step d).col) : m.cell_of s (a.step d) := by
  rw [generate_directions_mem] at hd
  obtain ⟨_, h1, h2⟩ := ha
  refine ⟨hw, ?_, ?_⟩ <;> rcases hd with rfl | rfl | rfl | rfl <;>
    simp only [Point.step] <;> omega

theorem is_joint_midpoint (m : Maze) (s a d : Point) (ha : m.cell_of s a)
    (hd : d ∈ generate_directions_) (hb : m.cell_of s (a.step d)) :
    m.is_joint s (midpoint a (a.step d)) := by
  rw [generate_directions_mem] at hd
  cases a with
  | mk r c =>
  unfold Maze.is_joint
  rcases hd with rfl | rfl | rfl | rfl <;> simp only [Point.step, midpoint] at hb ⊢
  · right
    have e1 : (r + (r + -2)) / 2 - 1 = r + -2 := by omega
    have e2 : (r + (r + -2)) / 2 + 1 = r := by omega
    have e3 : (c + (c + 0)) / 2 = c := by omega
    rw [e1, e2, e3]; exact ⟨by simpa using hb, ha⟩
  · left
    have e1 : (c + (c + 2)) / 2 - 1 = c := by omega
    have e2 : (c + (c + 2)) / 2 + 1 = c + 2 := by omega
    have e3 : (r + (r + 0)) / 2 = r := by omega
    rw [e1, e2, e3]; exact ⟨ha, by simpa using hb⟩
  · right
    have e1 : (r + (r + 2)) / 2 - 1 = r := by omega
    have e2 : (r + (r + 2)) / 2 + 1 = r + 2 := by omega
    have e3 : (c + (c + 0)) / 2 = c := by omega
    rw [e1, e2, e3]; exact ⟨ha, by simpa using hb⟩
  · left
    have e1 : (c + (c + -2)) / 2 - 1 = c + -2 := by omega
    have e2 : (c + (c + -2)) / 2 + 1 = c := by omega
    have e3 : (r + (r + 0)) / 2 = r := by omega
    rw [e1, e2, e3]; exact ⟨by simpa using hb, ha⟩

/-- A joint cell lies between one pair of lattice cells only. -/
theorem midpoint_unique (m : Maze) (s a b d e : Point) (ha : m.cell_of s a)
    (hb : m.cell_of s b) (hd : d ∈ generate_directions_) (he : e ∈ generate_directions_)
    (h : midpoint b (b.step e) = midpoint a (a.step d)) :
    (b = a ∧ b.step e = a.step d) ∨ (b = a.step d ∧ b.step e = a) := by
  rw [generate_directions_mem] at hd he
  obtain ⟨_, a1, a2⟩ := ha
  obtain ⟨_, b1, b2⟩ := hb
  cases a with
  | mk r c =>
  cases b with
  | mk r' c' =>
  simp only [midpoint, Point.step, Point.mk.injEq] at h ⊢
  simp only [] at a1 a2 b1 b2
  rcases hd with rfl | rfl | rfl | rfl <;> rcases he with rfl | rfl | rfl | rfl <;>
    simp only [] at h ⊢ <;> omega

theorem joined_symm (m : Maze) (s a b : Point) (h : m.joined s a b) : m.joined s b a := by
  obtain ⟨ha, hb, ⟨d, hd, e⟩, hp⟩ := h
  refine ⟨hb, ha, ⟨⟨-d.row, -d.col⟩, ?_, ?_⟩, ?_⟩
  · rw [generate_directions_mem] at hd ⊢
    rcases hd with rfl | rfl | rfl | rfl <;> simp
  · subst e
    simp [Point.step]
  · have : midpoint b a = midpoint a b := by
      simp [midpoint, add_comm]
    rw [this]; exact hp

theorem connected_symm (m : Maze) (s a b : Point) (h : m.connected s a b) :
    m.connected s b a := by
  induction h with
  | refl => exact Relation.ReflTransGen.refl
  | tail _ hbc ih =>
    exact Relation.ReflTransGen.head (joined_symm m s _ _ hbc) ih

theorem connected_mono {m m' : Maze} (s : Point)
    (h : ∀ a b, m.joined s a b → m'.joined s a b) (a b : Point)
    (hc : m.connected s a b) : m'.connected s a b :=
  Relation.ReflTransGen.mono h hc

/-- A maze that differs on no joint cell has the same carved graph. -/
theorem web_frame {m m' : Maze} {s o : Point} {V E : Finset Point} (h : Web_inv m s o V E)
    (hr : m'.maze_row_size_ = m.maze_row_size_) (hc : m'.maze_col_size_ = m.maze_col_size_)
    (hp : ∀ j, m.is_joint s j → m'.path j.row j.col = m.path j.row j.col) :
    Web_inv m' s o V E := by
  have hj : ∀ a b, m'.joined s a b ↔ m.joined s a b := by
    intro a b
    unfold Maze.joined
    simp only [cell_of_sizes hr hc]
    constructor
    · rintro ⟨ha, hb, ⟨d, hd, e⟩, hm⟩
      refine ⟨ha, hb, ⟨d, hd, e⟩, ?_⟩
      subst e
      rw [← hp _ (is_joint_midpoint m s a d ha hd hb)]; exact hm
    · rintro ⟨ha, hb, ⟨d, hd, e⟩, hm⟩
      refine ⟨ha, hb, ⟨d, hd, e⟩, ?_⟩
      subst e
      rw [hp _ (is_joint_midpoint m s a d ha hd hb)]; exact hm
  refine ⟨fun p hpV => (cell_of_sizes hr hc s p).2 (h.cells p hpV), h.root, ?_, ?_, ?_⟩
  · intro p hpV
    exact connected_mono s (fun a b hab => (hj a b).2 hab) _ _ (h.conn p hpV)
  · intro a b hab
    exact h.ends a b ((hj a b).1 hab)
  · intro j
    rw [h.joints j, is_joint_sizes hr hc]
    constructor
    · rintro ⟨h1, h2⟩; exact ⟨h1, by rw [hp j h1]; exact h2⟩
    · rintro ⟨h1, h2⟩; exact ⟨h1, by rw [← hp j h1]; exact h2⟩

/-- Carving the joint between a reached cell `a` and a lattice cell `b` two steps
away adds `b` to the cells reached and the joint to the carved joints. -/
theorem web_grow {m m' : Maze} {s o : Point} {V E : Finset Point} (h : Web_inv m s o V E)
    (a d : Point) (ha : a ∈ V) (hd : d ∈ generate_directions_) (hb : m.cell_of s (a.step d))
    (hr : m'.maze_row_size_ = m.maze_row_size_) (hc : m'.maze_col_size_ = m.maze_col_size_)
    (hp : ∀ j, m.is_joint s j →
      (m'.path j.row j.col = true ↔ (m.path j.row j.col = true ∨ j = midpoint a (a.step d)))) :
    Web_inv m' s o (insert (a.step d) V) (insert (midpoint a (a.step d)) E) := by
  have hca := h.cells a ha
  have hmid := is_joint_midpoint m s a d hca hd hb
  have hj : ∀ x y, m.joined s x y → m'.joined s x y := by
    rintro x y ⟨hx, hy, ⟨e, he, rfl⟩, hm⟩
    refine ⟨(cell_of_sizes hr hc s x).2 hx, (cell_of_sizes hr hc s _).2 hy, ⟨e, he, rfl⟩, ?_⟩
    exact (hp _ (is_joint_midpoint m s x e hx he hy)).2 (Or.inl hm)
  have hab : m'.joined s a (a.step d) :=
    ⟨(cell_of_sizes hr hc s a).2 hca, (cell_of_sizes hr hc s _).2 hb, ⟨d, hd, rfl⟩,
      (hp _ hmid).2 (Or.inr rfl)⟩
  refine ⟨?_, Finset.mem_insert_of_mem h.root, ?_, ?_, ?_⟩
  · intro p hpV
    rcases Finset.mem_insert.1 hpV with rfl | hpV
    · exact (cell_of_sizes hr hc s _).2 hb
    · exact (cell_of_sizes hr hc s p).2 (h.cells p hpV)
  · intro p hpV
    rcases Finset.mem_insert.1 hpV with rfl | hpV
    · exact Relation.ReflTransGen.tail (connected_mono s hj _ _ (h.conn a ha)) hab
    · exact connected_mono s hj _ _ (h.conn p hpV)
  · rintro x y ⟨hx, hy, ⟨e, he, rfl⟩, hm⟩
    have hx0 := (cell_of_sizes hr hc s x).1 hx
    have hy0 := (cell_of_sizes hr hc s _).1 hy
    rcases (hp _ (is_joint_midpoint m s x e hx0 he hy0)).1 hm with hold | hnew
    · obtain ⟨h1, h2⟩ := h.ends x (x.step e) ⟨hx0, hy0, ⟨e, he, rfl⟩, hold⟩
      exact ⟨Finset.mem_insert_of_mem h1, Finset.mem_insert_of_mem h2⟩
    · rcases midpoint_unique m s a x d e hca hx0 hd he hnew with ⟨e1, e2⟩ | ⟨e1, e2⟩
      · rw [e2, e1]
        exact ⟨Finset.mem_insert_of_mem ha, Finset.mem_insert_self _ _⟩
      · rw [e2, e1]
        exact ⟨Finset.mem_insert_self _ _, Finset.mem_insert_of_mem ha⟩
  · intro j
    rw [Finset.mem_insert, h.joints j, is_joint_sizes hr hc]
    constructor
    · rintro (rfl | ⟨h1, h2⟩)
      · exact ⟨hmid, (hp _ hmid).2 (Or.inr rfl)⟩
      · exact ⟨h1, (hp j h1).2 (Or.inl h2)⟩
    · rintro ⟨h1, h2⟩
      rcases (hp j h1).1 h2 with h3 | h3
      · exact Or.inr ⟨h1, h3⟩
      · exact Or.inl h3

/-- The joint toward a cell not reached yet is not carved yet. -/
theorem web_fresh {m : Maze} {s o : Point} {V E : Finset Point} (h : Web_inv m s o V E)
    (a d : Point) (ha : a ∈ V) (hd : d ∈ generate_directions_) (hb : m.cell_of s (a.step d))
    (hn : a.step d ∉ V) : midpoint a (a.step d) ∉ E := by
  intro hE
  have := (h.joints _).1 hE
  exact hn (h.ends a (a.step d) ⟨h.cells a ha, hb, ⟨d, hd, rfl⟩, this.2⟩).2

/-! ## Counting lattice cells and carved joints -/

theorem mem_all_cells (m : Maze) (p : Point) : p ∈ m.all_cells ↔ m.in_array p.row p.col := by
  unfold Maze.all_cells Maze.in_array
  simp only [List.mem_flatMap, List.mem_range, List.mem_map]
  constructor
  · rintro ⟨r, hr, c, hc, rfl⟩
    simp only []
    omega
  · rintro ⟨h1, h2, h3, h4⟩
    refine ⟨p.row.toNat, by omega, p.col.toNat, by omega, ?_⟩
    cases p with
    | mk r c =>
      simp only [Point.mk.injEq] at h1 h2 h3 h4 ⊢
      omega

theorem all_cells_nodup (m : Maze) : m.all_cells.Nodup := by
  unfold Maze.all_cells
  rw [List.nodup_flatMap]
  refine ⟨?_, ?_⟩
  · intro r _
    refine (List.nodup_range _).map ?_
    intro c c' h
    simp only [Point.mk.injEq, true_and] at h
    exact_mod_cast h
  · refine (List.nodup_range _).pairwise_of_forall_ne ?_
    intro r _ r' _ hne
    simp only [Function.onFun]
    rw [List.disjoint_left]
    intro p hp hp'
    simp only [List.mem_map, List.mem_range] at hp hp'
    obtain ⟨c, _, rfl⟩ := hp
    obtain ⟨c', _, h⟩ := hp'
    simp only [Point.mk.injEq] at h
    exact hne (by exact_mod_cast h.1.symm)

theorem countP_eq_card (l : List Point) (hl : l.Nodup) (P : Point → Bool) (F : Finset Point)
    (h : ∀ p, p ∈ F ↔ (p ∈ l ∧ P p = true)) : l.countP P = F.card := by
  have e : F = (l.filter P).toFinset := by
    ext p
    rw [h p, List.mem_toFinset, List.mem_filter]
  rw [e, List.toFinset_card_of_nodup (hl.filter _), List.countP_eq_length_filter]

theorem cell_of_in_array (m : Maze) (s p : Point) (h : m.cell_of s p) :
    m.in_array p.row p.col := by
  obtain ⟨hw, _, _⟩ := h
  unfold Maze.within_perimeter at hw
  unfold Maze.in_array
  omega

theorem is_joint_in_array (m : Maze) (s j : Point) (h : m.is_joint s j) :
    m.in_array j.row j.col := by
  rcases h with ⟨h1, _⟩ | ⟨h1, _⟩
  · have := cell_of_in_array m s _ h1
    obtain ⟨hw, _, _⟩ := h1
    unfold Maze.within_perimeter at hw
    unfold Maze.in_array at this ⊢
    simp only [] at this hw
    omega
  · have := cell_of_in_array m s _ h1
    obtain ⟨hw, _, _⟩ := h1
    unfold Maze.within_perimeter at hw
    unfold Maze.in_array at this ⊢
    simp only [] at this hw
    omega

/-- Once every lattice cell is reached, the ghost sets count the vertices and
the edges of the carved graph. -/
theorem web_counts {m : Maze} {s o : Point} {V E : Finset Point} (h : Web_inv m s o V E)
    (hall : ∀ p, m.cell_of s p → p ∈ V) :
    m.joint_count s = E.card ∧ m.lattice_count s = V.card
      ∧ ∀ a b, m.cell_of s a → m.cell_of s b → m.connected s a b := by
  refine ⟨?_, ?_, ?_⟩
  · unfold Maze.joint_count
    apply countP_eq_card _ (all_cells_nodup m)
    intro j
    rw [h.joints j, mem_all_cells]
    simp only [Bool.and_eq_true, decide_eq_true_eq]
    constructor
    · rintro ⟨h1, h2⟩; exact ⟨is_joint_in_array m s j h1, h1, h2⟩
    · rintro ⟨_, h1, h2⟩; exact ⟨h1, h2⟩
  · unfold Maze.lattice_count
    apply countP_eq_card _ (all_cells_nodup m)
    intro p
    rw [mem_all_cells]
    simp only [decide_eq_true_eq]
    constructor
    · intro hp; exact ⟨cell_of_in_array m s p (h.cells p hp), h.cells p hp⟩
    · rintro ⟨_, hp⟩; exact hall p hp
  · intro a b ha hb
    exact Relation.ReflTransGen.trans (connected_symm m s _ _ (h.conn a (hall a ha)))
      (h.conn b (hall b hb))

/-- The cells reached are at most the cells of the array. -/
theorem web_card_le {m : Maze} {s o : Point} {V E : Finset Point} (h : Web_inv m s o V E) :
    V.card ≤ m.maze_row_size_.toNat * m.maze_col_size_.toNat := by
  have hsub : V ⊆ m.all_cells.toFinset := by
    intro p hp
    rw [List.mem_toFinset, mem_all_cells]
    exact cell_of_in_array m s p (h.cells p hp)
  have hlen : m.all_cells.length = m.maze_row_size_.toNat * m.maze_col_size_.toNat := by
    unfold Maze.all_cells
    have : ∀ l : List Nat, (l.flatMap fun (r : Nat) =>
        (List.range m.maze_col_size_.toNat).map fun (c : Nat) => (⟨r, c⟩ : Point)).length
          = l.length * m.maze_col_size_.toNat := by
      intro l
      induction l with
      | nil => simp
      | cons x xs ih =>
        rw [List.flatMap_cons, List.length_append, ih]
        simp [Nat.succ_mul, add_comm]
    rw [this]
    simp
  calc V.card ≤ m.all_cells.toFinset.card := Finset.card_le_card hsub
    _ ≤ m.all_cells.length := List.toFinset_card_le _
    _ = _ := hlen

/-! ## Helpers for the builders that grow a tree -/

theorem is_joint_not_cell (m : Maze) (s j p : Point) (hj : m.is_joint s j)
    (hp : m.cell_of s p) : j ≠ p := by
  rintro rfl
  obtain ⟨_, h1, h2⟩ := hp
  rcases hj with ⟨⟨_, _, h3⟩, _⟩ | ⟨⟨_, h3, _⟩, _⟩ <;> simp only [] at h3 <;> omega

theorem directions_index (d : Point) (h : d ∈ generate_directions_) :
    ∃ i, i < 4 ∧ generate_directions_.getD i ⟨0, 0⟩ = d := by
  rw [generate_directions_mem] at h
  rcases h with rfl | rfl | rfl | rfl
  · exact ⟨0, by omega, rfl⟩
  · exact ⟨1, by omega, rfl⟩
  · exact ⟨2, by omega, rfl⟩
  · exact ⟨3, by omega, rfl⟩

/-- When the scan of the shuffled directions finds nothing, every cell two
steps away within the perimeter carries the builder bit. -/
theorem find_unbuilt_none_all (m : Maze) (cur : Point) (raw : Nat)
    (h : find_unbuilt m cur (shuffle raw) = none) (d : Point) (hd : d ∈ generate_directions_)
    (hw : m.within_perimeter (cur.step d).row (cur.step d).col) :
    (m.maze_ (cur.step d).row (cur.step d).col).builder_bit = true := by
  obtain ⟨i, hi, rfl⟩ := directions_index d hd
  have := find_unbuilt_none m cur _ h i (shuffle_all raw i hi)
  by_contra hb
  exact this ⟨hw, by simpa using hb⟩

theorem chain_congr {R R' : Point → Point → Prop} (l : List Point) (h : l.Chain' R)
    (hi : ∀ a ∈ l, ∀ b, R a b → R' a b) : l.Chain' R' := by
  have := List.Chain'.iff_mem.1 h
  exact this.imp fun a b ⟨ha, _, hR⟩ => hi a ha b hR

/-- A set of lattice cells that holds `s` and is closed under steps of two
within the perimeter holds every cell of the lattice through `s`. -/
theorem lattice_closure (m : Maze) (s : Point) (S : Point → Prop) (hs : S s)
    (hss : m.cell_of s s)
    (hstep : ∀ p d, S p → d ∈ generate_directions_ → m.cell_of s (p.step d) → S (p.step d)) :
    ∀ p, m.cell_of s p → S p := by
  have key : ∀ k : Nat, ∀ p, m.cell_of s p →
      (p.row - s.row).natAbs + (p.col - s.col).natAbs ≤ 2 * k → S p := by
    intro k
    induction k with
    | zero =>
      intro p _ hk
      have : p = s := by
        cases p; cases s
        simp only [Point.mk.injEq] at hk ⊢
        omega
      rw [this]; exact hs
    | succ k ih =>
      intro p hp hk
      obtain ⟨hw, h1, h2⟩ := hp
      obtain ⟨hsw, _, _⟩ := hss
      unfold Maze.within_perimeter at hw hsw
      by_cases hrow : p.row = s.row
      · by_cases hcol : p.col = s.col
        · have : p = s := by
            cases p; cases s
            simp only [Point.mk.injEq] at hrow hcol ⊢
            exact ⟨hrow, hcol⟩
          rw [this]; exact hs
        · by_cases hlt : p.col < s.col
          · have hq : m.cell_of s ⟨p.row, p.col + 2⟩ :=
              ⟨by unfold Maze.within_perimeter; simp only []; omega, h1, by simp only []; omega⟩
            have := hstep ⟨p.row, p.col + 2⟩ ⟨0, -2⟩ (ih _ hq (by simp only []; omega))
              (by simp [generate_directions_])
              (by simpa [Point.step] using ⟨hw, h1, h2⟩)
            simpa [Point.step] using this
          · have hq : m.cell_of s ⟨p.row, p.col - 2⟩ :=
              ⟨by unfold Maze.within_perimeter; simp only []; omega, h1, by simp only []; omega⟩
            have := hstep ⟨p.row, p.col - 2⟩ ⟨0, 2⟩ (ih _ hq (by simp only []; omega))
              (by simp [generate_directions_])
              (by simpa [Point.step] using ⟨hw, h1, h2⟩)
            simpa [Point.step] using this
      · by_cases hlt : p.row < s.row
        · have hq : m.cell_of s ⟨p.row + 2, p.col⟩ :=
            ⟨by unfold Maze.within_perimeter; simp only []; omega, by simp only []; omega, h2⟩
          have := hstep ⟨p.row + 2, p.col⟩ ⟨-2, 0⟩ (ih _ hq (by simp only []; omega))
            (by simp [generate_directions_])
            (by simpa [Point.step] using ⟨hw, h1, h2⟩)
          simpa [Point.step] using this
        · have hq : m.cell_of s ⟨p.row - 2, p.col⟩ :=
            ⟨by unfold Maze.within_perimeter; simp only []; omega, by simp only []; omega, h2⟩
          have := hstep ⟨p.row - 2, p.col⟩ ⟨2, 0⟩ (ih _ hq (by simp only []; omega))
            (by simp [generate_directions_])
            (by simpa [Point.step] using ⟨hw, h1, h2⟩)
          simpa [Point.step] using this
  intro p hp
  exact key ((p.row - s.row).natAbs + (p.col - s.col).natAbs) p hp (by omega)

/-! ## The depth first builder carves a spanning tree -/

theorem dfs_carve_inv (s : Dfs_state) (st : List Point) (V E : Finset Point) (d : Point)
    (hs : Dfs_safe s) (h : Dfs_inv s st V E) (hdir : d ∈ generate_directions_)
    (hnext : s.maze.within_perimeter (s.cur.step d).row (s.cur.step d).col)
    (hnb : (s.maze.maze_ (s.cur.step d).row (s.cur.step d).col).builder_bit = false) :
    Dfs_inv { s with maze := carve_path_markings s.maze s.cur (s.cur.step d),
                     cur := s.cur.step d, branches_remain := true, pos := s.pos + 1 }
      (s.cur.step d :: st) (insert (s.cur.step d) V)
      (insert (midpoint s.cur (s.cur.step d)) E)
    ∧ (insert (s.cur.step d) V).card = V.card + 1 := by
  obtain ⟨hcur, hstart, hmarks, hfree⟩ := hs
  obtain ⟨rest, rfl⟩ : ∃ rest, st = s.cur :: rest := by
    have := h.top
    cases st with
    | nil => simp at this
    | cons x xs =>
      simp only [List.head?_cons, Option.some.injEq] at this
      exact ⟨xs, by rw [this]⟩
  have hcurV : s.cur ∈ V := h.sub _ (List.mem_cons_self _ _)
  have hccur := h.web.cells _ hcurV
  have hcnext := cell_of_step s.maze s.start_ s.cur d hccur hdir hnext
  have hstep_ne : s.cur.step d ≠ s.cur := by
    rw [generate_directions_mem] at hdir
    intro e
    have e1 := congrArg Point.row e
    have e2 := congrArg Point.col e
    rcases hdir with rfl | rfl | rfl | rfl <;> simp [Point.step] at e1 e2
  have hne_start : s.cur.step d ≠ s.start_ := by
    intro e
    rw [e] at hnb
    have := (h.first hnb).1
    simp only [List.cons.injEq] at this
    exact hstep_ne (by rw [e, this.1])
  have hnotV : s.cur.step d ∉ V := by
    intro hV
    rcases (h.built _ hcnext).1 hV with hb | hb
    · rw [hnb] at hb; exact Bool.noConfusion hb
    · exact hne_start hb
  have hwall := wall_between_midpoint s.cur d hdir
  have hmidj := is_joint_midpoint s.maze s.start_ s.cur d hccur hdir hcnext
  have hR : (carve_path_markings s.maze s.cur (s.cur.step d)).maze_row_size_
      = s.maze.maze_row_size_ := carve_path_markings_rows _ _ _
  have hC : (carve_path_markings s.maze s.cur (s.cur.step d)).maze_col_size_
      = s.maze.maze_col_size_ := carve_path_markings_cols _ _ _
  have pt : ∀ (p q : Point), (p.row = q.row ∧ p.col = q.col) ↔ p = q := by
    intro p q; cases p; cases q; simp
  refine ⟨⟨rfl, ?_, ?_, ?_, ?_, rfl, ?_, ?_, ?_, ?_, ?_, ?_⟩, Finset.card_insert_of_not_mem hnotV⟩
  · -- web
    refine web_grow h.web s.cur d hcurV hdir hcnext hR hC ?_
    intro j hj
    have n1 : j ≠ s.cur := is_joint_not_cell _ _ _ _ hj hccur
    have n2 : j ≠ s.cur.step d := is_joint_not_cell _ _ _ _ hj hcnext
    unfold Maze.path
    simp only [carve_path_markings_path_bit, pt, hwall, n1, n2, decide_False, Bool.or_false,
      Bool.or_eq_true, decide_eq_true_eq]
  · -- count
    rw [Finset.card_insert_of_not_mem hnotV,
      Finset.card_insert_of_not_mem (web_fresh h.web s.cur d hcurV hdir hcnext hnotV), h.count]
  · -- built
    intro p hp
    have hp0 := (cell_of_sizes hR hC s.start_ p).1 hp
    have n3 : p ≠ midpoint s.cur (s.cur.step d) :=
      fun e => is_joint_not_cell _ _ _ _ hmidj hp0 e.symm
    simp only [carve_path_markings_builder_bit, pt, hwall, n3, decide_False, Bool.or_false,
      Bool.or_eq_true, decide_eq_true_eq, Finset.mem_insert, h.built p hp0]
    constructor
    · rintro (h1 | h1 | h1)
      · exact Or.inl (Or.inr h1)
      · exact Or.inl (Or.inl (Or.inl h1))
      · exact Or.inr h1
    · rintro (((h1 | h1) | h1) | h1)
      · exact Or.inr (Or.inl h1)
      · rw [h1]; exact Or.inr ((h.built _ hccur).1 hcurV)
      · exact Or.inl h1
      · exact Or.inr (Or.inr h1)
  · -- paths
    intro r c
    simp only [carve_path_markings_builder_bit, carve_path_markings_path_bit, Bool.or_eq_true,
      decide_eq_true_eq]
    rintro (((h1 | h1) | h1) | h1)
    · exact Or.inl (Or.inl (Or.inl (h.paths r c h1)))
    · exact Or.inl (Or.inl (Or.inr h1))
    · exact Or.inl (Or.inr h1)
    · exact Or.inr h1
  · -- bottom
    have := h.bottom
    simpa [List.getLast?_cons_cons] using this
  · -- nodup
    exact List.nodup_cons.2 ⟨fun hm => hnotV (h.sub _ hm), h.nodup⟩
  · -- sub
    intro p hp
    rcases List.mem_cons.1 hp with rfl | hp
    · exact Finset.mem_insert_self _ _
    · exact Finset.mem_insert_of_mem (h.sub p hp)
  · -- chain
    rw [List.chain'_cons]
    refine ⟨?_, chain_congr _ h.chain ?_⟩
    · simp only [carve_path_markings_markers, and_self, if_true]
      rw [hfree _ _ hnext hnb, Nat.zero_or]
      exact back_step s.cur d hdir
    · intro a ha b hab
      have na : a ≠ s.cur.step d := fun e => hnotV (h.sub _ (e ▸ ha))
      simp only [carve_path_markings_markers, pt, na, if_false]
      exact hab
  · -- closed
    intro p hp hnot e he hce
    have hp1 : p ≠ s.cur.step d := fun e1 => hnot (e1 ▸ List.mem_cons_self _ _)
    have hp2 : p ∉ s.cur :: rest := fun hm => hnot (List.mem_cons_of_mem _ hm)
    have hpV : p ∈ V := (Finset.mem_insert.1 hp).resolve_left hp1
    exact Finset.mem_insert_of_mem
      (h.closed p hpV hp2 e he ((cell_of_sizes hR hC s.start_ _).1 hce))
  · -- first
    intro hb
    exfalso
    simp only [carve_path_markings_builder_bit, pt, Bool.or_eq_false_iff,
      decide_eq_false_iff_not] at hb
    obtain ⟨⟨⟨hb1, hb2⟩, _⟩, _⟩ := hb
    have := (h.first hb1).1
    simp only [List.cons.injEq] at this
    exact hb2 this.1.symm

theorem clear_markers_builder_bit (m : Maze) (r c r' c' : Int) :
    ((clear_markers m r c).maze_ r' c').builder_bit = (m.maze_ r' c').builder_bit := by
  rw [clear_markers_get]; split_ifs <;> rfl

theorem clear_markers_path_bit (m : Maze) (r c r' c' : Int) :
    ((clear_markers m r c).maze_ r' c').path_bit = (m.maze_ r' c').path_bit := by
  rw [clear_markers_get]; split_ifs <;> rfl

theorem dfs_backtrack_inv (s : Dfs_state) (st : List Point) (V E : Finset Point) (raw : Nat)
    (h : Dfs_inv s st V E) (hnone : find_unbuilt s.maze s.cur (shuffle raw) = none)
    (hne : s.cur ≠ s.start_) :
    ∃ st', Dfs_inv
        { s with maze := clear_markers s.maze s.cur.row s.cur.col,
                 cur := s.cur.step (backtracking_marks_.getD
                   (s.maze.maze_ s.cur.row s.cur.col).markers ⟨0, 0⟩),
                 branches_remain := true, pos := s.pos + 1 } st' V E
      ∧ st'.length + 1 = st.length := by
  obtain ⟨rest, rfl⟩ : ∃ rest, st = s.cur :: rest := by
    have := h.top
    cases st with
    | nil => simp at this
    | cons x xs =>
      simp only [List.head?_cons, Option.some.injEq] at this
      exact ⟨xs, by rw [this]⟩
  obtain ⟨b, rest', rfl⟩ : ∃ b rest', rest = b :: rest' := by
    cases rest with
    | nil =>
      have := h.bottom
      simp only [List.getLast?_singleton, Option.some.injEq] at this
      exact absurd this hne
    | cons b rest' => exact ⟨b, rest', rfl⟩
  have hch := h.chain
  rw [List.chain'_cons] at hch
  obtain ⟨hstep, hch'⟩ := hch
  have hnd := List.nodup_cons.1 h.nodup
  have hR : (clear_markers s.maze s.cur.row s.cur.col).maze_row_size_
      = s.maze.maze_row_size_ := clear_markers_rows _ _ _
  have hC : (clear_markers s.maze s.cur.row s.cur.col).maze_col_size_
      = s.maze.maze_col_size_ := clear_markers_cols _ _ _
  have pt : ∀ (p q : Point), (p.row = q.row ∧ p.col = q.col) ↔ p = q := by
    intro p q; cases p; cases q; simp
  refine ⟨b :: rest', ⟨rfl, ?_, h.count, ?_, ?_, ?_, ?_, hnd.2, ?_, ?_, ?_, ?_⟩, rfl⟩
  · exact web_frame h.web hR hC fun j _ => by
      unfold Maze.path; exact clear_markers_path_bit _ _ _ _ _
  · intro p hp
    simp only [clear_markers_builder_bit]
    exact h.built p ((cell_of_sizes hR hC s.start_ p).1 hp)
  · intro r c
    simp only [clear_markers_builder_bit, clear_markers_path_bit]
    exact h.paths r c
  · simp only [List.head?_cons, hstep]
  · have := h.bottom
    simpa [List.getLast?_cons_cons] using this
  · intro p hp
    exact h.sub p (List.mem_cons_of_mem _ hp)
  · refine chain_congr _ hch' ?_
    intro a ha c hac
    have na : a ≠ s.cur := fun e => hnd.1 (e ▸ ha)
    simp only [clear_markers_get, pt, na, if_false]
    exact hac
  · intro p hp hnot e he hce
    have hce0 := (cell_of_sizes hR hC s.start_ _).1 hce
    by_cases hpc : p = s.cur
    · subst hpc
      have hb := find_unbuilt_none_all s.maze s.cur raw hnone e he hce0.1
      exact (h.built _ hce0).2 (Or.inl hb)
    · have : p ∉ s.cur :: b :: rest' := by
        intro hm
        rcases List.mem_cons.1 hm with e1 | e1
        · exact hpc e1
        · exact hnot e1
      exact h.closed p hp this e he hce0
  · intro hb
    exfalso
    simp only [clear_markers_builder_bit] at hb
    have := (h.first hb).1
    simp at this

theorem dfs_finish (s : Dfs_state) (st : List Point) (V E : Finset Point) (raw : Nat)
    (h : Dfs_inv s st V E) (hnone : find_unbuilt s.maze s.cur (shuffle raw) = none)
    (he : s.cur = s.start_) (hr : 7 ≤ s.maze.maze_row_size_) :
    Dfs_done { s with branches_remain := false, pos := s.pos + 1 } := by
  obtain ⟨rest, rfl⟩ : ∃ rest, st = s.cur :: rest := by
    have := h.top
    cases st with
    | nil => simp at this
    | cons x xs =>
      simp only [List.head?_cons, Option.some.injEq] at this
      exact ⟨xs, by rw [this]⟩
  have hrest : rest = [] := by
    cases rest with
    | nil => rfl
    | cons b rest' =>
      exfalso
      have hb := h.bottom
      rw [List.getLast?_cons_cons] at hb
      have : s.start_ ∈ b :: rest' := List.mem_of_getLast?_eq_some hb
      exact (List.nodup_cons.1 h.nodup).1 (he ▸ this)
  subst hrest
  have hsV : s.start_ ∈ V := h.web.root
  have hss := h.web.cells _ hsV
  have hall : ∀ p, s.maze.cell_of s.start_ p → p ∈ V := by
    apply lattice_closure s.maze s.start_ (fun p => p ∈ V) hsV hss
    intro p d hp hd hc
    by_cases hpc : p = s.cur
    · subst hpc
      exact (h.built _ hc).2 (Or.inl (find_unbuilt_none_all s.maze _ raw hnone d hd hc.1))
    · exact h.closed p hp (by simpa using hpc) d hd hc
  obtain ⟨c1, c2, c3⟩ := web_counts h.web hall
  have hbs : (s.maze.maze_ s.start_.row s.start_.col).builder_bit = true := by
    by_contra hb
    have hV := (h.first (by simpa using hb)).2
    obtain ⟨hw, _, _⟩ := hss
    unfold Maze.within_perimeter at hw
    by_cases hlow : s.start_.row + 2 < s.maze.maze_row_size_ - 1
    · have hq : s.maze.cell_of s.start_ ⟨s.start_.row + 2, s.start_.col⟩ :=
        ⟨by unfold Maze.within_perimeter; simp only []; omega, by simp only []; omega,
          by simp only []; omega⟩
      have := hall _ hq
      rw [hV, Finset.mem_singleton] at this
      have := congrArg Point.row this
      simp only [] at this
      omega
    · have hq : s.maze.cell_of s.start_ ⟨s.start_.row - 2, s.start_.col⟩ :=
        ⟨by unfold Maze.within_perimeter; simp only []; omega, by simp only []; omega,
          by simp only []; omega⟩
      have := hall _ hq
      rw [hV, Finset.mem_singleton] at this
      have := congrArg Point.row this
      simp only [] at this
      omega
  refine ⟨rfl, he, ⟨c3, by rw [c1, c2, h.count]⟩, ?_⟩
  intro p hp
  unfold Maze.path
  rcases (h.built p hp).1 (hall p hp) with hb | hb
  · exact h.paths _ _ hb
  · rw [hb]; exact h.paths _ _ hbs

/-- One loop iteration of the depth first builder either ends the loop with a
spanning tree or keeps the invariant and lowers the measure. -/
theorem dfs_iteration_inv (gen : Nat → Nat) (s : Dfs_state) (st : List Point)
    (V E : Finset Point) (hs : Dfs_safe s) (h : Dfs_inv s st V E)
    (hr : 7 ≤ s.maze.maze_row_size_) :
    Dfs_done (dfs_iteration gen s)
      ∨ ∃ st' V' E', Dfs_inv (dfs_iteration gen s) st' V' E'
          ∧ 2 * V.card + st'.length + 1 ≤ 2 * V'.card + st.length := by
  unfold dfs_iteration
  split
  · rename_i d hd
    obtain ⟨hdir, hnext, hnb⟩ := find_unbuilt_some _ _ _ _ (fun i hi => shuffle_lt _ i hi) hd
    obtain ⟨h1, h2⟩ := dfs_carve_inv s st V E d hs h hdir hnext hnb
    exact Or.inr ⟨_, _, _, h1, by rw [h2, List.length_cons]; omega⟩
  · rename_i hnone
    split_ifs with hne
    · obtain ⟨st', h1, h2⟩ := dfs_backtrack_inv s st V E _ h hnone hne
      exact Or.inr ⟨st', V, E, h1, by omega⟩
    · exact Or.inl (dfs_finish s st V E _ h hnone (by simpa using hne) hr)

theorem build_wall_builder_bit (m : Maze) (r c r' c' : Int) :
    ((build_wall m r c).maze_ r' c').builder_bit = (m.maze_ r' c').builder_bit := by
  unfold build_wall
  rw [modify_get]; split_ifs <;> rfl

theorem all_walls_builder_bit (rows cols : Int) (r c : Int) :
    ((all_walls rows cols).maze_ r c).builder_bit = false := by
  unfold all_walls
  exact for_cells_induction (fun m => ∀ r c, (m.maze_ r c).builder_bit = false)
    0 rows 0 cols build_wall (blank rows cols) (fun _ _ => rfl)
    (fun m r c _ _ _ _ h r' c' => by rw [build_wall_builder_bit]; exact h r' c') r c

/-- The depth first builder enters its loop with the invariant: the start is the
only cell reached and nothing is carved. -/
theorem dfs_init_inv (gen : Nat → Nat) (m : Maze) (pos : Nat)
    (hr : 3 ≤ m.maze_row_size_) (hc : 3 ≤ m.maze_col_size_)
    (hb : ∀ r c, (m.maze_ r c).builder_bit = false) (hp : ∀ r c, m.path r c = false) :
    Dfs_inv (dfs_init gen m pos) [(dfs_init gen m pos).start_]
      {(dfs_init gen m pos).start_} ∅ := by
  have h1 := uniform_int_range 1 (m.maze_row_size_ - 2) (gen pos) (by omega)
  have h2 := uniform_int_range 1 (m.maze_col_size_ - 2) (gen (pos + 1)) (by omega)
  have hw : m.within_perimeter (uniform_int 1 (m.maze_row_size_ - 2) (gen pos))
      (uniform_int 1 (m.maze_col_size_ - 2) (gen (pos + 1))) := by
    unfold Maze.within_perimeter; omega
  have hpath : ∀ r c, (dfs_init gen m pos).maze.path r c = false := by
    intro r c
    unfold dfs_init Maze.path
    simp only [clear_markers_path_bit]
    exact hp r c
  have hbuilt : ∀ r c, ((dfs_init gen m pos).maze.maze_ r c).builder_bit = false := by
    intro r c
    unfold dfs_init
    simp only [clear_markers_builder_bit]
    exact hb r c
  have hcell : (dfs_init gen m pos).maze.cell_of (dfs_init gen m pos).start_
      (dfs_init gen m pos).start_ := by
    refine ⟨?_, by simp, by simp⟩
    unfold dfs_init
    exact (within_perimeter_sizes (clear_markers_rows _ _ _) (clear_markers_cols _ _ _) _ _).2 hw
  refine ⟨rfl, ⟨?_, Finset.mem_singleton_self _, ?_, ?_, ?_⟩, rfl, ?_, ?_, rfl, rfl,
    List.nodup_singleton _, ?_, List.chain'_singleton _, ?_, fun _ => ⟨rfl, rfl⟩⟩
  · intro p hpV
    rw [Finset.mem_singleton] at hpV
    rw [hpV]; exact hcell
  · intro p hpV
    rw [Finset.mem_singleton] at hpV
    rw [hpV]; exact Relation.ReflTransGen.refl
  · rintro a b ⟨_, _, _, hm⟩
    rw [hpath] at hm
    exact Bool.noConfusion hm
  · intro j
    simp only [Finset.not_mem_empty, false_iff, not_and]
    intro _ hm
    rw [hpath] at hm
    exact Bool.noConfusion hm
  · intro p _
    rw [Finset.mem_singleton, hbuilt]
    simp
  · intro r c hbt
    rw [hbuilt] at hbt
    exact Bool.noConfusion hbt
  · intro p hpm
    rw [List.mem_singleton] at hpm
    rw [hpm]; exact Finset.mem_singleton_self _
  · intro p hpV hnot
    rw [Finset.mem_singleton] at hpV
    exact absurd (List.mem_singleton.2 hpV) hnot

/-- With fuel for the measure the loop of the depth first builder ends, and
ends with a spanning tree. -/
theorem dfs_loop_done (gen : Nat → Nat) (fuel : Nat) (s : Dfs_state) (st : List Point)
    (V E : Finset Point) (hs : Dfs_safe s) (h : Dfs_inv s st V E)
    (hr : 7 ≤ s.maze.maze_row_size_)
    (hf : 2 * (s.maze.maze_row_size_.toNat * s.maze.maze_col_size_.toNat - V.card)
      + st.length ≤ fuel) :
    Dfs_done (dfs_loop gen fuel s) := by
  induction fuel generalizing s st V E with
  | zero =>
    exfalso
    have := h.top
    cases st with
    | nil => simp at this
    | cons x xs => simp at hf
  | succ n ih =>
    unfold dfs_loop
    rw [if_pos h.running]
    have hsafe := (dfs_iteration_keeps (carve_stable_sized s.maze.maze_row_size_
      s.maze.maze_col_size_) gen s hs ⟨rfl, rfl⟩).1
    have hR := dfs_iteration_rows gen s
    have hC := dfs_iteration_cols gen s
    rcases dfs_iteration_inv gen s st V E hs h hr with hdone | ⟨st', V', E', hinv, hlt⟩
    · obtain ⟨hbr, _⟩ := hdone
      have : dfs_loop gen n (dfs_iteration gen s) = dfs_iteration gen s := by
        cases n with
        | zero => rfl
        | succ k => unfold dfs_loop; rw [hbr]; rfl
      rw [this]
      exact ⟨hbr, ‹_›⟩
    · have hle := web_card_le hinv.web
      rw [hR, hC] at hle
      refine ih _ st' V' E' hsafe hinv (by rw [hR]; exact hr) ?_
      rw [hR, hC]
      omega

theorem spanning_tree_anchor (m : Maze) (s t : Point) (h1 : (s.row - t.row) % 2 = 0)
    (h2 : (s.col - t.col) % 2 = 0) : m.spanning_tree s ↔ m.spanning_tree t := by
  have hc : ∀ p, m.cell_of s p ↔ m.cell_of t p := by
    intro p
    unfold Maze.cell_of
    constructor <;> rintro ⟨h, a, b⟩ <;> exact ⟨h, by omega, by omega⟩
  have hj : ∀ p, m.is_joint s p ↔ m.is_joint t p := by
    intro p
    unfold Maze.is_joint
    simp only [hc]
  have hrel : m.joined s = m.joined t := by
    funext a b
    unfold Maze.joined
    simp only [hc]
  unfold Maze.spanning_tree Maze.connected Maze.joint_count Maze.lattice_count
  simp only [hc, hj, hrel]

/-- C5 (as stated) fails: when the start drawn is the even cell (2, 2) of the 7
by 7 grid the builder returns with room (1, 1) never carved, and the graph over
the room cells is not a spanning tree. -/
theorem dfs_rooms_counterexample :
    (generate_randomized_dfs_maze (fun _ => 1) 98 (all_walls 7 7) 0).branches_remain = false
      ∧ (generate_randomized_dfs_maze (fun _ => 1) 98 (all_walls 7 7) 0).start_ = ⟨2, 2⟩
      ∧ (generate_randomized_dfs_maze (fun _ => 1) 98 (all_walls 7 7) 0).maze.path 1 1 = false
      ∧ ¬ (generate_randomized_dfs_maze (fun _ => 1) 98 (all_walls 7 7) 0).maze.spanning_tree
            ⟨1, 1⟩ := by
  refine ⟨by decide!, by decide!, by decide!, ?_⟩
  rintro ⟨hconn, _⟩
  have := hconn ⟨1, 1⟩ ⟨1, 3⟩ (by decide!) (by decide!)
  rcases Relation.ReflTransGen.cases_head this with e | ⟨b, ⟨_, _, ⟨d, hd, rfl⟩, hm⟩, _⟩
  · exact absurd e (by decide)
  · rw [generate_directions_mem] at hd
    rcases hd with rfl | rfl | rfl | rfl <;> revert hm <;> decide!

/-- C5 (as amended): for at least 7 rows and columns and every random source,
`generate_randomized_dfs_maze` on the all-walls grid returns within
`2 * rows * cols` loop iterations with its walk back on the start, and the graph
whose vertices are the cells an even number of rows and of columns away from the
start drawn (strictly inside the perimeter) and whose edges are the carved
joints between them is a spanning tree, all of whose cells carry the passage
flag; these vertices are the room cells when the start drawn has an odd row and
an odd column. -/
theorem dfs_spanning_tree (gen : Nat → Nat) (rows cols : Int) (pos fuel : Nat)
    (hr : 7 ≤ rows) (hc : 7 ≤ cols) (hfuel : 2 * (rows.toNat * cols.toNat) ≤ fuel) :
    Dfs_done (generate_randomized_dfs_maze gen fuel (all_walls rows cols) pos)
      ∧ ((generate_randomized_dfs_maze gen fuel (all_walls rows cols) pos).start_.row % 2 = 1 →
          (generate_randomized_dfs_maze gen fuel (all_walls rows cols) pos).start_.col % 2 = 1 →
          (generate_randomized_dfs_maze gen fuel (all_walls rows cols) pos).maze.spanning_tree
            ⟨1, 1⟩) := by
  obtain ⟨e1, e2, hp, _⟩ := all_walls_basic rows cols
  have hsafe := (dfs_init_keeps (carve_stable_sized rows cols) gen (all_walls rows cols) pos
    (by omega) (by omega) (fun r c => (hp r c).2) ⟨e1, e2⟩).1
  have hinv := dfs_init_inv gen (all_walls rows cols) pos (by omega) (by omega)
    (all_walls_builder_bit rows cols) (fun r c => (hp r c).1)
  have hR : (dfs_init gen (all_walls rows cols) pos).maze.maze_row_size_ = rows := by
    unfold dfs_init; simpa using e1
  have hC : (dfs_init gen (all_walls rows cols) pos).maze.maze_col_size_ = cols := by
    unfold dfs_init; simpa using e2
  have hdone : Dfs_done (generate_randomized_dfs_maze gen fuel (all_walls rows cols) pos) := by
    unfold generate_randomized_dfs_maze
    refine dfs_loop_done gen fuel _ _ _ _ hsafe hinv (by rw [hR]; exact hr) ?_
    rw [hR, hC]
    simp only [List.length_singleton]
    have : 1 ≤ rows.toNat * cols.toNat := by
      have a : 7 ≤ rows.toNat := by omega
      have b : 7 ≤ cols.toNat := by omega
      nlinarith
    rw [Finset.card_singleton]
    omega
  refine ⟨hdone, fun h1 h2 => ?_⟩
  exact (spanning_tree_anchor _ _ _ (by simp only []; omega) (by simp only []; omega)).1 hdone.2.2.1

theorem dfs_spanning_tree_witness :
    Dfs_done (generate_randomized_dfs_maze (fun n => n) 98 (all_walls 7 7) 0)
      ∧ ((generate_randomized_dfs_maze (fun n => n) 98 (all_walls 7 7) 0).start_.row % 2 = 1 →
          (generate_randomized_dfs_maze (fun n => n) 98 (all_walls 7 7) 0).start_.col % 2 = 1 →
          (generate_randomized_dfs_maze (fun n => n) 98 (all_walls 7 7) 0).maze.spanning_tree
            ⟨1, 1⟩) :=
  dfs_spanning_tree (fun n => n) 7 7 0 98 (by decide) (by decide) (by decide)

/-! ## Builders with a stack or a queue of open cells -/

theorem cell_of_anchor (m : Maze) (s o p : Point) (ho : m.cell_of s o) :
    m.cell_of o p ↔ m.cell_of s p := by
  obtain ⟨_, h1, h2⟩ := ho
  unfold Maze.cell_of
  constructor <;> rintro ⟨h, a, b⟩ <;> exact ⟨h, by omega, by omega⟩

/-- A set of lattice cells that holds a lattice cell `o` and is closed under
steps of two within the perimeter holds every cell of the lattice. -/
theorem lattice_closure_from (m : Maze) (s o : Point) (S : Point → Prop) (ho : S o)
    (hco : m.cell_of s o)
    (hstep : ∀ p d, S p → d ∈ generate_directions_ → m.cell_of s (p.step d) → S (p.step d)) :
    ∀ p, m.cell_of s p → S p := by
  intro p hp
  refine lattice_closure m o S ho ((cell_of_anchor m s o o hco).2 hco) ?_ p
    ((cell_of_anchor m s o p hco).2 hp)
  intro q d hq hd hc
  exact hstep q d hq hd ((cell_of_anchor m s o _ hco).1 hc)

/-- Joining a reached cell `cur` of the frontier with the lattice cell two
steps away (reached before or not) keeps the invariant, with the far cell
pushed. -/
theorem frontier_join {m m' : Maze} {s o : Point} {F : List Point} {V E : Finset Point}
    (h : Frontier_inv m s o F V E) (cur d : Point) (hcurF : cur ∈ F)
    (hdir : d ∈ generate_directions_)
    (hnext : m.within_perimeter (cur.step d).row (cur.step d).col)
    (hr : m'.maze_row_size_ = m.maze_row_size_) (hc : m'.maze_col_size_ = m.maze_col_size_)
    (hp : ∀ j, m.is_joint s j →
      (m'.path j.row j.col = true ↔ (m.path j.row j.col = true ∨ j = midpoint cur (cur.step d))))
    (hb : ∀ p, m.cell_of s p → ((m'.maze_ p.row p.col).builder_bit = true ↔
      ((m.maze_ p.row p.col).builder_bit = true ∨ p = cur ∨ p = cur.step d)))
    (F' : List Point) (hF : ∀ p, p ∈ F' ↔ (p = cur.step d ∨ p ∈ F)) :
    Frontier_inv m' s o F' (insert (cur.step d) V)
      (insert (midpoint cur (cur.step d)) E) := by
  have hcur : cur ∈ V := h.sub _ hcurF
  have hccur := h.web.cells _ hcur
  have hcnext := cell_of_step m s cur d hccur hdir hnext
  have hco := h.web.cells _ h.web.root
  refine ⟨web_grow h.web cur d hcur hdir hcnext hr hc hp, ?_, ?_, ?_, ?_⟩
  · intro p hpc
    have hp0 := (cell_of_sizes hr hc s p).1 hpc
    rw [Finset.mem_insert, h.built p hp0, hb p hp0]
    constructor
    · rintro (h1 | h1 | h1)
      · exact Or.inl (Or.inr (Or.inr h1))
      · exact Or.inl (Or.inl h1)
      · exact Or.inr h1
    · rintro ((h1 | h1 | h1) | h1)
      · exact Or.inr (Or.inl h1)
      · rw [h1]; exact Or.inr ((h.built _ hccur).1 hcur)
      · exact Or.inl h1
      · exact Or.inr (Or.inr h1)
  · intro p hpF
    rcases (hF p).1 hpF with rfl | hpF
    · exact Finset.mem_insert_self _ _
    · exact Finset.mem_insert_of_mem (h.sub p hpF)
  · intro p hpV hnot e he hce
    have hp1 : p ≠ cur.step d := fun e1 => hnot ((hF p).2 (Or.inl e1))
    have hp2 : p ∉ F := fun hm => hnot ((hF p).2 (Or.inr hm))
    have hpV0 : p ∈ V := (Finset.mem_insert.1 hpV).resolve_left hp1
    exact Finset.mem_insert_of_mem
      (h.closed p hpV0 hp2 e he ((cell_of_sizes hr hc s _).1 hce))
  · intro hbo
    exfalso
    have ho0 : (m.maze_ o.row o.col).builder_bit = false := by
      by_contra hne
      have : (m'.maze_ o.row o.col).builder_bit = true :=
        (hb o hco).2 (Or.inl (by simpa using hne))
      rw [hbo] at this
      exact Bool.noConfusion this
    have hFo := (h.first ho0).1
    rw [hFo, List.mem_singleton] at hcurF
    have : (m'.maze_ o.row o.col).builder_bit = true := (hb o hco).2 (Or.inr (Or.inl hcurF.symm))
    rw [hbo] at this
    exact Bool.noConfusion this

/-- Setting the builder bit of a reached cell, with no joint carved, keeps the
invariant. -/
theorem frontier_mark {m m' : Maze} {s o : Point} {F : List Point} {V E : Finset Point}
    (h : Frontier_inv m s o F V E) (cur : Point) (hcur : cur ∈ V)
    (hr : m'.maze_row_size_ = m.maze_row_size_) (hc : m'.maze_col_size_ = m.maze_col_size_)
    (hp : ∀ j, m.is_joint s j → m'.path j.row j.col = m.path j.row j.col)
    (hb : ∀ p, m.cell_of s p → ((m'.maze_ p.row p.col).builder_bit = true ↔
      ((m.maze_ p.row p.col).builder_bit = true ∨ p = cur))) :
    Frontier_inv m' s o F V E := by
  have hccur := h.web.cells _ hcur
  have hco := h.web.cells _ h.web.root
  refine ⟨web_frame h.web hr hc hp, ?_, h.sub, ?_, ?_⟩
  · intro p hpc
    have hp0 := (cell_of_sizes hr hc s p).1 hpc
    rw [h.built p hp0, hb p hp0]
    constructor
    · rintro (h1 | h1)
      · exact Or.inl (Or.inl h1)
      · exact Or.inr h1
    · rintro ((h1 | h1) | h1)
      · exact Or.inl h1
      · rw [h1]; exact (h.built _ hccur).1 hcur
      · exact Or.inr h1
  · intro p hpV hnot e he hce
    exact h.closed p hpV hnot e he ((cell_of_sizes hr hc s _).1 hce)
  · intro hbo
    have ho0 : (m.maze_ o.row o.col).builder_bit = false := by
      by_contra hne
      have : (m'.maze_ o.row o.col).builder_bit = true :=
        (hb o hco).2 (Or.inl (by simpa using hne))
      rw [hbo] at this
      exact Bool.noConfusion this
    exact h.first ho0

/-- Dropping from the frontier a cell whose lattice neighbours all carry the
builder bit keeps the invariant. -/
theorem frontier_pop {m : Maze} {s o : Point} {F : List Point} {V E : Finset Point}
    (h : Frontier_inv m s o F V E) (cur : Point) (F' : List Point)
    (hF : ∀ p, p ∈ F → p = cur ∨ p ∈ F')  (hF' : ∀ p, p ∈ F' → p ∈ F)
    (hall : ∀ d ∈ generate_directions_, m.within_perimeter (cur.step d).row (cur.step d).col →
      (m.maze_ (cur.step d).row (cur.step d).col).builder_bit = true)
    (hbo : (m.maze_ o.row o.col).builder_bit = true) :
    Frontier_inv m s o F' V E := by
  refine ⟨h.web, h.built, fun p hp => h.sub p (hF' p hp), ?_, ?_⟩
  · intro p hpV hnot e he hce
    by_cases hpF : p ∈ F
    · rcases hF p hpF with rfl | h1
      · exact (h.built _ hce).2 (Or.inl (hall e he hce.1))
      · exact absurd h1 hnot
    · exact h.closed p hpV hpF e he hce
  · intro hb
    rw [hbo] at hb
    exact Bool.noConfusion hb

/-- With the frontier empty every lattice cell is reached. -/
theorem frontier_done {m : Maze} {s o : Point} {V E : Finset Point}
    (h : Frontier_inv m s o [] V E) : ∀ p, m.cell_of s p → p ∈ V := by
  apply lattice_closure_from m s o (fun p => p ∈ V) h.web.root (h.web.cells _ h.web.root)
  intro p d hp hd hc
  exact h.closed p hp (List.not_mem_nil _) d hd hc

/-! ## The randomized grid builder reaches every cell of its lattice -/

theorem point_eq_iff (p q : Point) : (p.row = q.row ∧ p.col = q.col) ↔ p = q := by
  cases p; cases q; simp

/-- A run of `complete_run` keeps the invariant; the cells reached are at most
one more than the carved joints, and the first cell of the run is new when it
was not reached before. -/
theorem complete_run_inv (s o direction : Point) (hdir : direction ∈ generate_directions_) :
    ∀ (left : Nat) (m : Maze) (dfs : List Point) (cur : Point) (V E : Finset Point),
      Frontier_inv m s o dfs V E → cur ∈ dfs → V.card ≤ E.card + 1 →
      ∃ V' E',
        Frontier_inv (complete_run direction left m dfs cur (cur.step direction)).1 s o
          (complete_run direction left m dfs cur (cur.step direction)).2 V' E'
        ∧ V'.card ≤ E'.card + 1 ∧ V.card ≤ V'.card
        ∧ (complete_run direction left m dfs cur (cur.step direction)).2.length
            ≤ dfs.length + left
        ∧ (complete_run direction left m dfs cur (cur.step direction)).1.maze_row_size_
            = m.maze_row_size_
        ∧ (complete_run direction left m dfs cur (cur.step direction)).1.maze_col_size_
            = m.maze_col_size_
        ∧ (0 < left → m.within_perimeter (cur.step direction).row (cur.step direction).col →
            cur.step direction ∉ V → V.card + 1 ≤ V'.card) := by
  intro left
  induction left with
  | zero =>
    intro m dfs cur V E h _ hcnt
    exact ⟨V, E, h, hcnt, le_refl _, le_refl _, rfl, rfl, fun h0 => absurd h0 (by omega)⟩
  | succ left ih =>
    intro m dfs cur V E h hcur hcnt
    unfold complete_run
    split_ifs with hw
    · have hnext : m.within_perimeter (cur.step direction).row (cur.step direction).col := by
        unfold Maze.within_perimeter; omega
      have hcurV := h.sub _ hcur
      have hccur := h.web.cells _ hcurV
      have hcnext := cell_of_step m s cur direction hccur hdir hnext
      have hwall := wall_between_midpoint cur direction hdir
      have hmidj := is_joint_midpoint m s cur direction hccur hdir hcnext
      have hinv : Frontier_inv
          (set_builder (join_squares (set_builder m cur.row cur.col) cur (cur.step direction))
            (cur.step direction).row (cur.step direction).col) s o
          (cur.step direction :: dfs) (insert (cur.step direction) V)
          (insert (midpoint cur (cur.step direction)) E) := by
        refine frontier_join h cur direction hcur hdir hnext (by simp) (by simp) ?_ ?_ _
          (fun p => List.mem_cons)
        · intro j hj
          have n2 : j ≠ cur.step direction := is_joint_not_cell _ _ _ _ hj hcnext
          unfold Maze.path
          simp only [set_builder_path_bit, join_squares_path_bit, point_eq_iff, hwall, n2,
            decide_False, Bool.or_false, Bool.or_eq_true, decide_eq_true_eq]
        · intro p hp
          have n3 : p ≠ midpoint cur (cur.step direction) :=
            fun e => is_joint_not_cell _ _ _ _ hmidj hp e.symm
          simp only [set_builder_builder_bit, join_squares_builder_bit, point_eq_iff, hwall, n3,
            decide_False, Bool.or_false, Bool.or_eq_true, decide_eq_true_eq]
          tauto
      have hcnt1 : (insert (cur.step direction) V).card
          ≤ (insert (midpoint cur (cur.step direction)) E).card + 1 := by
        by_cases hin : cur.step direction ∈ V
        · rw [Finset.insert_eq_of_mem hin]
          exact le_trans hcnt (Nat.succ_le_succ (Finset.card_le_card (Finset.subset_insert _ _)))
        · rw [Finset.card_insert_of_not_mem hin, Finset.card_insert_of_not_mem
            (web_fresh h.web cur direction hcurV hdir hcnext hin)]
          omega
      obtain ⟨V', E', k1, k2, k3, k4, k5, k6, _⟩ := ih _ (cur.step direction :: dfs)
        (cur.step direction) _ _ hinv (List.mem_cons_self _ _) hcnt1
      dsimp only
      refine ⟨V', E', k1, k2, ?_, ?_, ?_, ?_, ?_⟩
      · exact le_trans (Finset.card_le_card (Finset.subset_insert _ _)) k3
      · rw [List.length_cons] at k4; omega
      · rw [k5]; simp
      · rw [k6]; simp
      · intro _ _ hnot
        rw [Finset.card_insert_of_not_mem hnot] at k3
        exact k3
    · dsimp only
      refine ⟨V, E, h, hcnt, le_refl _, by omega, rfl, rfl, fun _ hwn => ?_⟩
      exfalso
      apply hw
      unfold Maze.within_perimeter at hwn
      omega

/-- Before anything is carved the invariant holds with the root alone. -/
theorem frontier_init (m : Maze) (s o : Point) (hco : m.cell_of s o)
    (hp : ∀ r c, m.path r c = false) (hb : ∀ r c, (m.maze_ r c).builder_bit = false) :
    Frontier_inv m s o [o] {o} ∅ := by
  refine ⟨⟨?_, Finset.mem_singleton_self _, ?_, ?_, ?_⟩, ?_, ?_, ?_, fun _ => ⟨rfl, rfl⟩⟩
  · intro p hpV
    rw [Finset.mem_singleton] at hpV
    rw [hpV]; exact hco
  · intro p hpV
    rw [Finset.mem_singleton] at hpV
    rw [hpV]; exact Relation.ReflTransGen.refl
  · rintro a b ⟨_, _, _, hm⟩
    rw [hp] at hm
    exact Bool.noConfusion hm
  · intro j
    simp only [Finset.not_mem_empty, false_iff, not_and]
    intro _ hm
    rw [hp] at hm
    exact Bool.noConfusion hm
  · intro p _
    rw [Finset.mem_singleton, hb]
    simp
  · intro p hpm
    rw [List.mem_singleton] at hpm
    rw [hpm]; exact Finset.mem_singleton_self _
  · intro p hpV hnot
    rw [Finset.mem_singleton] at hpV
    exact absurd (List.mem_singleton.2 hpV) hnot

/-- One loop iteration of the grid builder keeps the invariant and lowers the
measure `5 * (cells not reached) + stack height`. -/
theorem grid_iteration_inv (gen : Nat → Nat) (s : Grid_state) (o : Point) (V E : Finset Point)
    (h : Frontier_inv s.maze o o s.dfs V E) (hcnt : V.card ≤ E.card + 1) (hne : s.dfs ≠ []) :
    ∃ V' E', Frontier_inv (grid_iteration gen s).maze o o (grid_iteration gen s).dfs V' E'
      ∧ V'.card ≤ E'.card + 1
      ∧ 5 * V.card + (grid_iteration gen s).dfs.length + 1 ≤ 5 * V'.card + s.dfs.length
      ∧ (grid_iteration gen s).maze.maze_row_size_ = s.maze.maze_row_size_
      ∧ (grid_iteration gen s).maze.maze_col_size_ = s.maze.maze_col_size_ := by
  obtain ⟨m, dfs, pos⟩ := s
  cases dfs with
  | nil => exact absurd rfl hne
  | cons cur rest =>
    simp only [] at h hcnt ⊢
    have hcurF : cur ∈ cur :: rest := List.mem_cons_self _ _
    have hcurV := h.sub _ hcurF
    have hccur := h.web.cells _ hcurV
    have hco := h.web.cells _ h.web.root
    have hR1 : (set_builder (build_path m cur.row cur.col) cur.row cur.col).maze_row_size_
        = m.maze_row_size_ := by simp
    have hC1 : (set_builder (build_path m cur.row cur.col) cur.row cur.col).maze_col_size_
        = m.maze_col_size_ := by simp
    have hmark : Frontier_inv (set_builder (build_path m cur.row cur.col) cur.row cur.col) o o
        (cur :: rest) V E := by
      refine frontier_mark h cur hcurV hR1 hC1 ?_ ?_
      · intro j hj
        have n1 : j ≠ cur := is_joint_not_cell _ _ _ _ hj hccur
        unfold Maze.path
        simp only [set_builder_path_bit, build_path_path_bit, point_eq_iff, n1, decide_False,
          Bool.or_false]
      · intro p _
        simp only [set_builder_builder_bit, build_path_builder_bit, point_eq_iff,
          Bool.or_eq_true, decide_eq_true_eq]
    have hbo : ((set_builder (build_path m cur.row cur.col) cur.row cur.col).maze_
        o.row o.col).builder_bit = true := by
      by_contra hb
      have hF := (hmark.first (by simpa using hb)).1
      simp only [List.cons.injEq] at hF
      apply hb
      rw [← hF.1]
      simp [set_builder_builder_bit]
    unfold grid_iteration
    simp only []
    split
    · rename_i d hd
      obtain ⟨hdir, hnext, hnb⟩ := find_unbuilt_some _ _ _ _ (fun i hi => shuffle_lt _ i hi) hd
      have hw0 : m.within_perimeter (cur.step d).row (cur.step d).col :=
        (within_perimeter_sizes hR1 hC1 _ _).1 hnext
      have hcnext := cell_of_step m o cur d hccur hdir hw0
      have hnotV : cur.step d ∉ V := by
        intro hV
        have hcn' := (cell_of_sizes hR1 hC1 o (cur.step d)).2 hcnext
        rcases (hmark.built _ hcn').1 hV with hb | hb
        · rw [hnb] at hb; exact Bool.noConfusion hb
        · rw [hb, hbo] at hnb; exact Bool.noConfusion hnb
      obtain ⟨V', E', k1, k2, k3, k4, k5, k6, k7⟩ := complete_run_inv o o d hdir run_limit _
        (cur :: rest) cur V E hmark hcurF hcnt
      have k8 := k7 (by decide) hnext hnotV
      refine ⟨V', E', k1, k2, ?_, by rw [k5]; exact hR1, by rw [k6]; exact hC1⟩
      have : run_limit = 4 := rfl
      rw [this] at k4
      simp only [this]
      omega
    · rename_i hnone
      refine ⟨V, E, ?_, hcnt, by simp only [List.length_cons]; omega, hR1, hC1⟩
      exact frontier_pop hmark cur rest (fun p hp => List.mem_cons.1 hp)
        (fun p hp => List.mem_cons_of_mem _ hp)
        (fun d hd hw => find_unbuilt_none_all _ cur _ hnone d hd hw) hbo

theorem grid_iteration_nil (gen : Nat → Nat) (s : Grid_state) (h : s.dfs = []) :
    grid_iteration gen s = s := by
  unfold grid_iteration
  rw [h]

/-- With fuel for the measure the grid builder empties its stack, having
reached every cell of the lattice through its start. -/
theorem grid_loop_done (gen : Nat → Nat) (o : Point) (fuel : Nat) (s : Grid_state)
    (V E : Finset Point) (h : Frontier_inv s.maze o o s.dfs V E) (hcnt : V.card ≤ E.card + 1)
    (hf : 5 * (s.maze.maze_row_size_.toNat * s.maze.maze_col_size_.toNat - V.card)
      + s.dfs.length ≤ fuel) :
    ((grid_iteration gen)^[fuel] s).dfs = []
      ∧ ∃ V' E', Frontier_inv ((grid_iteration gen)^[fuel] s).maze o o [] V' E'
          ∧ V'.card ≤ E'.card + 1 := by
  induction fuel generalizing s V E with
  | zero =>
    have : s.dfs = [] := List.length_eq_zero.1 (by omega)
    simp only [Function.iterate_zero, id_eq]
    exact ⟨this, V, E, this ▸ h, hcnt⟩
  | succ n ih =>
    rw [Function.iterate_succ_apply]
    by_cases hne : s.dfs = []
    · rw [grid_iteration_nil gen s hne,
        Function.iterate_fixed (grid_iteration_nil gen s hne)]
      exact ⟨hne, V, E, hne ▸ h, hcnt⟩
    · obtain ⟨V', E', k1, k2, k3, k4, k5⟩ := grid_iteration_inv gen s o V E h hcnt hne
      have hle := web_card_le k1.web
      rw [k4, k5] at hle
      refine ih _ V' E' k1 k2 ?_
      rw [k4, k5]
      omega

/-- What the grid builders leave: every cell of the lattice through `o` joined
to every other by carved joints, and at most one lattice cell more than carved
joints. -/
theorem frontier_spanning {m : Maze} {s o : Point} {V E : Finset Point}
    (h : Frontier_inv m s o [] V E) (hcnt : V.card ≤ E.card + 1) :
    m.spanning s ∧ m.lattice_count s ≤ m.joint_count s + 1 := by
  obtain ⟨c1, c2, c3⟩ := web_counts h.web (frontier_done h)
  exact ⟨c3, by rw [c1, c2]; exact hcnt⟩

/-! ## The grid builder of grid.cc -/

theorem find_new_square_eq (m : Maze) (cur : Point) (order : List Nat) :
    Builders.find_new_square m cur order = find_unbuilt m cur order := by
  induction order with
  | nil => rfl
  | cons i rest ih =>
    unfold Builders.find_new_square find_unbuilt Maze.can_build_new_square
    simp only [ih]

@[simp] theorem maze_join_squares_rows (m : Maze) (cur next : Point) :
    (m.join_squares cur next).maze_row_size_ = m.maze_row_size_ := by
  simp [Maze.join_squares]

@[simp] theorem maze_join_squares_cols (m : Maze) (cur next : Point) :
    (m.join_squares cur next).maze_col_size_ = m.maze_col_size_ := by
  simp [Maze.join_squares]

theorem maze_join_squares_path_bit (m : Maze) (cur next : Point) (r' c' : Int) :
    ((m.join_squares cur next).maze_ r' c').path_bit
      = ((m.maze_ r' c').path_bit || decide (r' = cur.row ∧ c' = cur.col)
        || decide (r' = (wall_between cur next).row ∧ c' = (wall_between cur next).col)
        || decide (r' = next.row ∧ c' = next.col)) := by
  simp only [Maze.join_squares, join_squares_path_bit, set_builder_path_bit, build_path_path_bit]

theorem maze_join_squares_builder_bit (m : Maze) (cur next : Point) (r' c' : Int) :
    ((m.join_squares cur next).maze_ r' c').builder_bit
      = ((m.maze_ r' c').builder_bit || decide (r' = cur.row ∧ c' = cur.col)
        || decide (r' = (wall_between cur next).row ∧ c' = (wall_between cur next).col)
        || decide (r' = next.row ∧ c' = next.col)) := by
  simp only [Maze.join_squares, join_squares_builder_bit, set_builder_builder_bit,
    build_path_builder_bit]

/-- Joining `cur` with the cell two steps away by `Maze::join_squares` keeps the
invariant of the builders with a frontier. -/
theorem frontier_maze_join {m : Maze} {s o : Point} {F : List Point} {V E : Finset Point}
    (h : Frontier_inv m s o F V E) (cur d : Point) (hcur : cur ∈ F)
    (hdir : d ∈ generate_directions_)
    (hnext : m.within_perimeter (cur.step d).row (cur.step d).col)
    (F' : List Point) (hF : ∀ p, p ∈ F' ↔ (p = cur.step d ∨ p ∈ F)) :
    Frontier_inv (m.join_squares cur (cur.step d)) s o F' (insert (cur.step d) V)
      (insert (midpoint cur (cur.step d)) E) := by
  have hcurV := h.sub _ hcur
  have hccur := h.web.cells _ hcurV
  have hcnext := cell_of_step m s cur d hccur hdir hnext
  have hwall := wall_between_midpoint cur d hdir
  have hmidj := is_joint_midpoint m s cur d hccur hdir hcnext
  refine frontier_join h cur d hcur hdir hnext (by simp) (by simp) ?_ ?_ F' hF
  · intro j hj
    have n1 : j ≠ cur := is_joint_not_cell _ _ _ _ hj hccur
    have n2 : j ≠ cur.step d := is_joint_not_cell _ _ _ _ hj hcnext
    unfold Maze.path
    simp only [maze_join_squares_path_bit, point_eq_iff, hwall, n1, n2,
      decide_False, Bool.or_false, Bool.or_eq_true, decide_eq_true_eq]
  · intro p hp
    have n3 : p ≠ midpoint cur (cur.step d) :=
      fun e => is_joint_not_cell _ _ _ _ hmidj hp e.symm
    simp only [maze_join_squares_builder_bit, point_eq_iff, hwall, n3,
      decide_False, Bool.or_false, Bool.or_eq_true, decide_eq_true_eq]
    tauto

theorem builders_complete_run_inv (s o direction : Point)
    (hdir : direction ∈ generate_directions_) :
    ∀ (left : Nat) (m : Maze) (dfs : List Point) (cur : Point) (V E : Finset Point),
      Frontier_inv m s o dfs V E → cur ∈ dfs → V.card ≤ E.card + 1 →
      ∃ V' E',
        Frontier_inv (Builders.complete_run direction left m dfs cur (cur.step direction)).1 s o
          (Builders.complete_run direction left m dfs cur (cur.step direction)).2 V' E'
        ∧ V'.card ≤ E'.card + 1 ∧ V.card ≤ V'.card
        ∧ (Builders.complete_run direction left m dfs cur (cur.step direction)).2.length
            ≤ dfs.length + left
        ∧ (Builders.complete_run direction left m dfs cur (cur.step direction)).1.maze_row_size_
            = m.maze_row_size_
        ∧ (Builders.complete_run direction left m dfs cur (cur.step direction)).1.maze_col_size_
            = m.maze_col_size_
        ∧ (0 < left → m.within_perimeter (cur.step direction).row (cur.step direction).col →
            cur.step direction ∉ V → V.card + 1 ≤ V'.card) := by
  intro left
  induction left with
  | zero =>
    intro m dfs cur V E h _ hcnt
    exact ⟨V, E, h, hcnt, le_refl _, le_refl _, rfl, rfl, fun h0 => absurd h0 (by omega)⟩
  | succ left ih =>
    intro m dfs cur V E h hcur hcnt
    unfold Builders.complete_run
    split_ifs with hnext
    · unfold Maze.is_square_within_perimeter_walls at hnext
      have hcurV := h.sub _ hcur
      have hccur := h.web.cells _ hcurV
      have hcnext := cell_of_step m s cur direction hccur hdir hnext
      have hinv := frontier_maze_join h cur direction hcur hdir hnext (cur.step direction :: dfs)
        (fun p => List.mem_cons)
      have hcnt1 : (insert (cur.step direction) V).card
          ≤ (insert (midpoint cur (cur.step direction)) E).card + 1 := by
        by_cases hin : cur.step direction ∈ V
        · rw [Finset.insert_eq_of_mem hin]
          exact le_trans hcnt (Nat.succ_le_succ (Finset.card_le_card (Finset.subset_insert _ _)))
        · rw [Finset.card_insert_of_not_mem hin, Finset.card_insert_of_not_mem
            (web_fresh h.web cur direction hcurV hdir hcnext hin)]
          omega
      obtain ⟨V', E', k1, k2, k3, k4, k5, k6, _⟩ := ih _ (cur.step direction :: dfs)
        (cur.step direction) _ _ hinv (List.mem_cons_self _ _) hcnt1
      refine ⟨V', E', k1, k2, ?_, ?_, ?_, ?_, ?_⟩
      · exact le_trans (Finset.card_le_card (Finset.subset_insert _ _)) k3
      · rw [List.length_cons] at k4; omega
      · rw [k5]; simp
      · rw [k6]; simp
      · intro _ _ hnot
        rw [Finset.card_insert_of_not_mem hnot] at k3
        exact k3
    · refine ⟨V, E, h, hcnt, le_refl _, by simp only []; omega, rfl, rfl, fun _ hwn => ?_⟩
      exact absurd hwn hnext

/-- A lattice cell of a grid of at least 7 rows has a lattice cell two rows
above or below it within the perimeter. -/
theorem lattice_neighbour (m : Maze) (s o : Point) (hr : 7 ≤ m.maze_row_size_)
    (ho : m.cell_of s o) :
    ∃ d ∈ generate_directions_, m.cell_of s (o.step d) ∧ o.step d ≠ o := by
  obtain ⟨hw, h1, h2⟩ := ho
  unfold Maze.within_perimeter at hw
  by_cases hlow : o.row + 2 < m.maze_row_size_ - 1
  · refine ⟨⟨2, 0⟩, by simp [generate_directions_], ⟨?_, ?_, ?_⟩, ?_⟩
    · unfold Maze.within_perimeter; simp only [Point.step]; omega
    · simp only [Point.step]; omega
    · simp only [Point.step]; omega
    · intro e
      have := congrArg Point.row e
      simp only [Point.step] at this
      omega
  · refine ⟨⟨-2, 0⟩, by simp [generate_directions_], ⟨?_, ?_, ?_⟩, ?_⟩
    · unfold Maze.within_perimeter; simp only [Point.step]; omega
    · simp only [Point.step]; omega
    · simp only [Point.step]; omega
    · intro e
      have := congrArg Point.row e
      simp only [Point.step] at this
      omega

theorem step_ne (cur d : Point) (hd : d ∈ generate_directions_) : cur.step d ≠ cur := by
  rw [generate_directions_mem] at hd
  intro e
  have e1 := congrArg Point.row e
  have e2 := congrArg Point.col e
  rcases hd with rfl | rfl | rfl | rfl <;> simp [Point.step] at e1 e2

/-- While only the root is reached and it carries no builder bit yet, the scan
of the shuffled directions finds a cell to build. -/
theorem find_unbuilt_first {m : Maze} {s o : Point} {F : List Point} {V E : Finset Point}
    (h : Frontier_inv m s o F V E) (hr : 7 ≤ m.maze_row_size_) (raw : Nat)
    (hnone : find_unbuilt m o (shuffle raw) = none) :
    (m.maze_ o.row o.col).builder_bit = true := by
  by_contra hb
  have hV := (h.first (by simpa using hb)).2
  obtain ⟨d, hd, hc, hne⟩ := lattice_neighbour m s o hr (h.web.cells _ h.web.root)
  have hbq := find_unbuilt_none_all m o raw hnone d hd hc.1
  have := (h.built _ hc).2 (Or.inl hbq)
  rw [hV, Finset.mem_singleton] at this
  exact hne this

theorem builders_grid_iteration_inv (gen : Nat → Nat) (s : Grid_state) (o : Point)
    (V E : Finset Point) (h : Frontier_inv s.maze o o s.dfs V E) (hcnt : V.card ≤ E.card + 1)
    (hne : s.dfs ≠ []) (hr : 7 ≤ s.maze.maze_row_size_) :
    ∃ V' E', Frontier_inv (Builders.grid_iteration gen s).maze o o
        (Builders.grid_iteration gen s).dfs V' E'
      ∧ V'.card ≤ E'.card + 1
      ∧ 5 * V.card + (Builders.grid_iteration gen s).dfs.length + 1
          ≤ 5 * V'.card + s.dfs.length
      ∧ (Builders.grid_iteration gen s).maze.maze_row_size_ = s.maze.maze_row_size_
      ∧ (Builders.grid_iteration gen s).maze.maze_col_size_ = s.maze.maze_col_size_ := by
  obtain ⟨m, dfs, pos⟩ := s
  cases dfs with
  | nil => exact absurd rfl hne
  | cons cur rest =>
    simp only [] at h hcnt hr ⊢
    have hcurF : cur ∈ cur :: rest := List.mem_cons_self _ _
    have hcurV := h.sub _ hcurF
    have hccur := h.web.cells _ hcurV
    unfold Builders.grid_iteration
    simp only [find_new_square_eq]
    split
    · rename_i d hd
      obtain ⟨hdir, hnext, hnb⟩ := find_unbuilt_some _ _ _ _ (fun i hi => shuffle_lt _ i hi) hd
      have hcnext := cell_of_step m o cur d hccur hdir hnext
      have hnotV : cur.step d ∉ V := by
        intro hV
        rcases (h.built _ hcnext).1 hV with hb | hb
        · rw [hnb] at hb; exact Bool.noConfusion hb
        · rw [hb] at hnb
          have hF := (h.first hnb).1
          simp only [List.cons.injEq] at hF
          exact step_ne cur d hdir (by rw [hb, hF.1])
      obtain ⟨V', E', k1, k2, k3, k4, k5, k6, k7⟩ := builders_complete_run_inv o o d hdir
        run_limit _ (cur :: rest) cur V E h hcurF hcnt
      have k8 := k7 (by decide) hnext hnotV
      refine ⟨V', E', k1, k2, ?_, k5, k6⟩
      have : run_limit = 4 := rfl
      rw [this] at k4
      simp only [this]
      omega
    · rename_i hnone
      have hbo : (m.maze_ o.row o.col).builder_bit = true := by
        by_contra hb
        have hF := (h.first (by simpa using hb)).1
        simp only [List.cons.injEq] at hF
        rw [hF.1] at hnone
        exact hb (find_unbuilt_first h hr _ hnone)
      refine ⟨V, E, ?_, hcnt, by simp only [List.length_cons]; omega, rfl, rfl⟩
      exact frontier_pop h cur rest (fun p hp => List.mem_cons.1 hp)
        (fun p hp => List.mem_cons_of_mem _ hp)
        (fun d hd hw => find_unbuilt_none_all _ cur _ hnone d hd hw) hbo

theorem builders_grid_iteration_nil (gen : Nat → Nat) (s : Grid_state) (h : s.dfs = []) :
    Builders.grid_iteration gen s = s := by
  unfold Builders.grid_iteration
  rw [h]

theorem builders_grid_loop_done (gen : Nat → Nat) (o : Point) (fuel : Nat) (s : Grid_state)
    (V E : Finset Point) (h : Frontier_inv s.maze o o s.dfs V E) (hcnt : V.card ≤ E.card + 1)
    (hr : 7 ≤ s.maze.maze_row_size_)
    (hf : 5 * (s.maze.maze_row_size_.toNat * s.maze.maze_col_size_.toNat - V.card)
      + s.dfs.length ≤ fuel) :
    ((Builders.grid_iteration gen)^[fuel] s).dfs = []
      ∧ ∃ V' E', Frontier_inv ((Builders.grid_iteration gen)^[fuel] s).maze o o [] V' E'
          ∧ V'.card ≤ E'.card + 1 := by
  induction fuel generalizing s V E with
  | zero =>
    have : s.dfs = [] := List.length_eq_zero.1 (by omega)
    simp only [Function.iterate_zero, id_eq]
    exact ⟨this, V, E, this ▸ h, hcnt⟩
  | succ n ih =>
    rw [Function.iterate_succ_apply]
    by_cases hne : s.dfs = []
    · rw [builders_grid_iteration_nil gen s hne,
        Function.iterate_fixed (builders_grid_iteration_nil gen s hne)]
      exact ⟨hne, V, E, hne ▸ h, hcnt⟩
    · obtain ⟨V', E', k1, k2, k3, k4, k5⟩ := builders_grid_iteration_inv gen s o V E h hcnt hne hr
      have hle := web_card_le k1.web
      rw [k4, k5] at hle
      refine ih _ V' E' k1 k2 (by rw [k4]; exact hr) ?_
      rw [k4, k5]
      omega

theorem spanning_anchor (m : Maze) (s t : Point) (h1 : (s.row - t.row) % 2 = 0)
    (h2 : (s.col - t.col) % 2 = 0) :
    (m.spanning s ↔ m.spanning t) ∧ m.lattice_count s = m.lattice_count t
      ∧ m.joint_count s = m.joint_count t := by
  have hc : ∀ p, m.cell_of s p ↔ m.cell_of t p := by
    intro p
    unfold Maze.cell_of
    constructor <;> rintro ⟨h, a, b⟩ <;> exact ⟨h, by omega, by omega⟩
  have hj : ∀ p, m.is_joint s p ↔ m.is_joint t p := by
    intro p
    unfold Maze.is_joint
    simp only [hc]
  have hrel : m.joined s = m.joined t := by
    funext a b
    unfold Maze.joined
    simp only [hc]
  unfold Maze.spanning Maze.connected Maze.joint_count Maze.lattice_count
  simp only [hc, hj, hrel, and_self]

/-- C6 (as stated) fails: with draws that start the grid builders on room (1, 1)
of the 7 by 7 grid and run east, south, west and north along the outer rooms,
both builders return with 10 carved joints between the 9 room cells, so the
graph over the room cells has cycles. -/
theorem grid_cycle_counterexample :
    ((generate_randomized_grid (fun _ => 0) 20 (all_walls 7 7) 0).dfs = []
      ∧ (generate_randomized_grid (fun _ => 0) 20 (all_walls 7 7) 0).maze.joint_count ⟨1, 1⟩ = 10
      ∧ (generate_randomized_grid (fun _ => 0) 20 (all_walls 7 7) 0).maze.lattice_count ⟨1, 1⟩
          = 9)
    ∧ ((generate_grid_maze (fun _ => 0) 20 (all_walls 7 7) 0).dfs = []
      ∧ (generate_grid_maze (fun _ => 0) 20 (all_walls 7 7) 0).maze.joint_count ⟨1, 1⟩ = 10
      ∧ (generate_grid_maze (fun _ => 0) 20 (all_walls 7 7) 0).maze.lattice_count ⟨1, 1⟩ = 9) := by
  decide!

/-- C6 (as amended): for odd row and column counts of at least 7 and every
random source, both grid builders return within `5 * rows * cols` loop
iterations, and the carved graph is connected with at least one carved joint
less than cells, over the lattice through the start drawn for
`generate_randomized_grid` and over the room cells for `generate_grid_maze`;
the graph need not be a tree. -/
theorem grid_builders_span (gen : Nat → Nat) (rows cols : Int) (pos fuel : Nat)
    (hr : 7 ≤ rows) (hc : 7 ≤ cols) (hro : rows % 2 = 1) (hco : cols % 2 = 1)
    (hfuel : 5 * (rows.toNat * cols.toNat) ≤ fuel) :
    ((generate_randomized_grid gen fuel (all_walls rows cols) pos).dfs = []
      ∧ (generate_randomized_grid gen fuel (all_walls rows cols) pos).maze.spanning
          ⟨uniform_int 1 (rows - 2) (gen pos), uniform_int 1 (cols - 2) (gen (pos + 1))⟩
      ∧ (generate_randomized_grid gen fuel (all_walls rows cols) pos).maze.lattice_count
          ⟨uniform_int 1 (rows - 2) (gen pos), uniform_int 1 (cols - 2) (gen (pos + 1))⟩
        ≤ (generate_randomized_grid gen fuel (all_walls rows cols) pos).maze.joint_count
          ⟨uniform_int 1 (rows - 2) (gen pos), uniform_int 1 (cols - 2) (gen (pos + 1))⟩ + 1)
    ∧ ((generate_grid_maze gen fuel (all_walls rows cols) pos).dfs = []
      ∧ (generate_grid_maze gen fuel (all_walls rows cols) pos).maze.spanning ⟨1, 1⟩
      ∧ (generate_grid_maze gen fuel (all_walls rows cols) pos).maze.lattice_count ⟨1, 1⟩
        ≤ (generate_grid_maze gen fuel (all_walls rows cols) pos).maze.joint_count ⟨1, 1⟩
            + 1) := by
  obtain ⟨e1, e2, hp, _⟩ := all_walls_basic rows cols
  have h1 := uniform_int_range 1 (rows - 2) (gen pos) (by omega)
  have h2 := uniform_int_range 1 (cols - 2) (gen (pos + 1)) (by omega)
  have hL : 1 ≤ rows.toNat * cols.toNat := by
    have a : 7 ≤ rows.toNat := by omega
    have b : 7 ≤ cols.toNat := by omega
    nlinarith
  constructor
  · have hcell : (all_walls rows cols).cell_of
        ⟨uniform_int 1 (rows - 2) (gen pos), uniform_int 1 (cols - 2) (gen (pos + 1))⟩
        ⟨uniform_int 1 (rows - 2) (gen pos), uniform_int 1 (cols - 2) (gen (pos + 1))⟩ := by
      refine ⟨?_, by simp, by simp⟩
      unfold Maze.within_perimeter
      rw [e1, e2]
      simp only []
      omega
    have hinit := frontier_init (all_walls rows cols) _ _ hcell (fun r c => (hp r c).1)
      (all_walls_builder_bit rows cols)
    have hdone := grid_loop_done gen _ fuel (grid_init gen (all_walls rows cols) pos) _ _
      (by unfold grid_init; rw [e1, e2]; exact hinit) (by simp)
      (by
        unfold grid_init
        simp only [e1, e2, List.length_singleton, Finset.card_singleton]
        omega)
    obtain ⟨d1, V', E', d2, d3⟩ := hdone
    obtain ⟨d4, d5⟩ := frontier_spanning d2 d3
    exact ⟨d1, d4, d5⟩
  · have hfill : (all_walls rows cols).fill_maze_with_walls = all_walls rows cols := by
      unfold Maze.fill_maze_with_walls
      rw [e1, e2]
    have hcell : (all_walls rows cols).cell_of
        ⟨2 * (uniform_int 1 (rows - 2) (gen pos) / 2) + 1,
          2 * (uniform_int 1 (cols - 2) (gen (pos + 1)) / 2) + 1⟩
        ⟨2 * (uniform_int 1 (rows - 2) (gen pos) / 2) + 1,
          2 * (uniform_int 1 (cols - 2) (gen (pos + 1)) / 2) + 1⟩ := by
      refine ⟨?_, by simp, by simp⟩
      unfold Maze.within_perimeter
      rw [e1, e2]
      simp only []
      omega
    have hinit := frontier_init (all_walls rows cols) _ _ hcell (fun r c => (hp r c).1)
      (all_walls_builder_bit rows cols)
    have hdone := builders_grid_loop_done gen _ fuel
      (Builders.grid_init gen (all_walls rows cols) pos) _ _
      (by unfold Builders.grid_init; rw [hfill, e1, e2]; exact hinit) (by simp)
      (by unfold Builders.grid_init; rw [hfill, e1]; exact hr)
      (by
        unfold Builders.grid_init
        simp only [hfill, e1, e2, List.length_singleton, Finset.card_singleton]
        omega)
    obtain ⟨d1, V', E', d2, d3⟩ := hdone
    obtain ⟨d4, d5⟩ := frontier_spanning d2 d3
    obtain ⟨a1, a2, a3⟩ := spanning_anchor
      ((Builders.grid_iteration gen)^[fuel] (Builders.grid_init gen (all_walls rows cols) pos)).maze
      ⟨2 * (uniform_int 1 (rows - 2) (gen pos) / 2) + 1,
        2 * (uniform_int 1 (cols - 2) (gen (pos + 1)) / 2) + 1⟩ ⟨1, 1⟩
      (by simp only []; omega) (by simp only []; omega)
    unfold generate_grid_maze
    exact ⟨d1, a1.1 d4, by rw [← a2, ← a3]; exact d5⟩

theorem grid_builders_span_witness :
    ((generate_randomized_grid (fun n => n) 245 (all_walls 7 7) 0).dfs = []
      ∧ (generate_randomized_grid (fun n => n) 245 (all_walls 7 7) 0).maze.spanning
          ⟨uniform_int 1 (7 - 2) ((fun n => n) 0), uniform_int 1 (7 - 2) ((fun n => n) (0 + 1))⟩
      ∧ (generate_randomized_grid (fun n => n) 245 (all_walls 7 7) 0).maze.lattice_count
          ⟨uniform_int 1 (7 - 2) ((fun n => n) 0), uniform_int 1 (7 - 2) ((fun n => n) (0 + 1))⟩
        ≤ (generate_randomized_grid (fun n => n) 245 (all_walls 7 7) 0).maze.joint_count
          ⟨uniform_int 1 (7 - 2) ((fun n => n) 0), uniform_int 1 (7 - 2) ((fun n => n) (0 + 1))⟩
            + 1)
    ∧ ((generate_grid_maze (fun n => n) 245 (all_walls 7 7) 0).dfs = []
      ∧ (generate_grid_maze (fun n => n) 245 (all_walls 7 7) 0).maze.spanning ⟨1, 1⟩
      ∧ (generate_grid_maze (fun n => n) 245 (all_walls 7 7) 0).maze.lattice_count ⟨1, 1⟩
        ≤ (generate_grid_maze (fun n => n) 245 (all_walls 7 7) 0).maze.joint_count ⟨1, 1⟩
            + 1) :=
  grid_builders_span (fun n => n) 7 7 0 245 (by decide) (by decide) (by decide) (by decide)
    (by decide)

/-! ## Prim builder: a spanning tree over the room cells -/

theorem queue_top_mem (cells : List Priority_cell) (tie : Nat) (top : Priority_cell)
    (h : queue_top cells tie = some top) : top ∈ cells := by
  unfold queue_top at h
  simp only [] at h
  have := List.getElem?_mem h
  exact (List.mem_filter.1 this).1

theorem queue_top_least (cells : List Priority_cell) (tie : Nat) (top : Priority_cell)
    (h : queue_top cells tie = some top) : ∀ y ∈ cells, top.priority ≤ y.priority := by
  unfold queue_top at h
  simp only [] at h
  have := (List.mem_filter.1 (List.getElem?_mem h)).2
  intro y hy
  simpa using (List.all_eq_true.1 this) y hy

theorem queue_top_some (cells : List Priority_cell) (tie : Nat) (h : cells ≠ []) :
    ∃ top, queue_top cells tie = some top := by
  have hne : cells.toFinset.Nonempty := by
    cases cells with
    | nil => exact absurd rfl h
    | cons x xs => exact ⟨x, by simp⟩
  obtain ⟨x, hx, hmin⟩ := Finset.exists_min_image cells.toFinset (fun c => c.priority) hne
  have hxl : x ∈ cells.filter fun x => cells.all fun y => decide (x.priority ≤ y.priority) := by
    rw [List.mem_filter]
    refine ⟨List.mem_toFinset.1 hx, ?_⟩
    rw [List.all_eq_true]
    intro y hy
    simpa using hmin y (List.mem_toFinset.2 hy)
  have hlen : 0 < (cells.filter fun x =>
      cells.all fun y => decide (x.priority ≤ y.priority)).length :=
    List.length_pos_of_mem hxl
  unfold queue_top
  simp only []
  exact ⟨_, List.getElem?_eq_getElem (Nat.mod_lt _ hlen)⟩

theorem queue_top_nil (tie : Nat) : queue_top [] tie = none := rfl

/-- The scan for the least-cost neighbour: a found neighbour lies two steps from
`cur` and can be built, and a weight still at `INT_MAX` means that no neighbour
can be built. -/
theorem min_neighbor_scan_spec (m : Maze) (cell_cost : Point → Int) (cur : Point)
    (hcost : ∀ p, cell_cost p < INT_MAX) :
    ∀ (l : List Point) (acc : Point × Int), (∀ p ∈ l, p ∈ generate_directions_) →
      (acc = (⟨0, 0⟩, INT_MAX) ∨ (∃ d ∈ generate_directions_, acc.1 = cur.step d
        ∧ m.can_build_new_square acc.1 ∧ acc.2 < INT_MAX)) →
      ((min_neighbor_scan m cell_cost cur l acc) = (⟨0, 0⟩, INT_MAX)
        ∨ (∃ d ∈ generate_directions_, (min_neighbor_scan m cell_cost cur l acc).1 = cur.step d
          ∧ m.can_build_new_square (min_neighbor_scan m cell_cost cur l acc).1
          ∧ (min_neighbor_scan m cell_cost cur l acc).2 < INT_MAX))
      ∧ ((min_neighbor_scan m cell_cost cur l acc).2 = INT_MAX →
          acc.2 = INT_MAX ∧ ∀ p ∈ l, ¬ m.can_build_new_square (cur.step p)) := by
  intro l
  induction l with
  | nil =>
    intro acc _ hacc
    exact ⟨hacc, fun he => ⟨he, fun p hp => absurd hp (List.not_mem_nil _)⟩⟩
  | cons p rest ih =>
    intro acc hl hacc
    have hrest : ∀ q ∈ rest, q ∈ generate_directions_ :=
      fun q hq => hl q (List.mem_cons_of_mem _ hq)
    have hp := hl p (List.mem_cons_self _ _)
    unfold min_neighbor_scan
    simp only []
    by_cases hcan : m.can_build_new_square (cur.step p)
    · rw [if_pos hcan]
      have hw := hcost (cur.step p)
      by_cases hlt : cell_cost (cur.step p) < acc.2
      · rw [if_pos hlt]
        obtain ⟨h1, h2⟩ := ih (cur.step p, cell_cost (cur.step p)) hrest
          (Or.inr ⟨p, hp, rfl, hcan, hw⟩)
        refine ⟨h1, fun he => ?_⟩
        have := (h2 he).1
        simp only [] at this
        rw [this] at hw
        exact absurd hw (lt_irrefl _)
      · rw [if_neg hlt]
        obtain ⟨h1, h2⟩ := ih acc hrest hacc
        refine ⟨h1, fun he => ?_⟩
        have := (h2 he).1
        rw [this] at hlt
        exact absurd hw hlt
    · rw [if_neg hcan]
      obtain ⟨h1, h2⟩ := ih acc hrest hacc
      refine ⟨h1, fun he => ⟨(h2 he).1, fun q hq => ?_⟩⟩
      rcases List.mem_cons.1 hq with rfl | hq
      · exact hcan
      · exact (h2 he).2 q hq

/-- One loop iteration of the Prim builder keeps the invariant, with one carved
joint less than cells reached, and lowers the measure
`2 * (cells not reached) + queue length`. -/
theorem prim_iteration_inv (cell_cost : Point → Int) (hcost : ∀ p, cell_cost p < INT_MAX)
    (tie : Nat → Nat) (s : Prim_state) (o : Point) (V E : Finset Point)
    (h : Frontier_inv s.maze o o (s.cells.map fun x => x.cell) V E)
    (hcnt : E.card + 1 = V.card) (hne : s.cells ≠ []) :
    ∃ V' E', Frontier_inv (prim_iteration cell_cost tie s).maze o o
        ((prim_iteration cell_cost tie s).cells.map fun x => x.cell) V' E'
      ∧ E'.card + 1 = V'.card
      ∧ 2 * V.card + (prim_iteration cell_cost tie s).cells.length + 1
          ≤ 2 * V'.card + s.cells.length
      ∧ (prim_iteration cell_cost tie s).maze.maze_row_size_ = s.maze.maze_row_size_
      ∧ (prim_iteration cell_cost tie s).maze.maze_col_size_ = s.maze.maze_col_size_ := by
  obtain ⟨m, cells, pos⟩ := s
  simp only [] at h hne ⊢
  obtain ⟨top, htop⟩ := queue_top_some cells (tie pos) hne
  have htopm := queue_top_mem cells _ top htop
  have hcurF : top.cell ∈ cells.map fun x => x.cell := List.mem_map_of_mem _ htopm
  have hcurV := h.sub _ hcurF
  have hccur := h.web.cells _ hcurV
  have hR1 : (set_builder m top.cell.row top.cell.col).maze_row_size_ = m.maze_row_size_ := rfl
  have hC1 : (set_builder m top.cell.row top.cell.col).maze_col_size_ = m.maze_col_size_ := rfl
  have hmark : Frontier_inv (set_builder m top.cell.row top.cell.col) o o
      (cells.map fun x => x.cell) V E := by
    refine frontier_mark h top.cell hcurV hR1 hC1 ?_ ?_
    · intro j _
      unfold Maze.path
      simp only [set_builder_path_bit]
    · intro p _
      simp only [set_builder_builder_bit, point_eq_iff, Bool.or_eq_true, decide_eq_true_eq]
  have hbo : ((set_builder m top.cell.row top.cell.col).maze_ o.row o.col).builder_bit
      = true := by
    by_contra hb
    have hF := (hmark.first (by simpa using hb)).1
    have : top.cell = o := by
      rw [hF] at hcurF
      exact List.mem_singleton.1 hcurF
    apply hb
    rw [← this]
    simp [set_builder_builder_bit]
  obtain ⟨sp1, sp2⟩ := min_neighbor_scan_spec (set_builder m top.cell.row top.cell.col)
    cell_cost top.cell hcost generate_directions_ (⟨0, 0⟩, INT_MAX) (fun _ hp => hp) (Or.inl rfl)
  unfold prim_iteration
  simp only [htop]
  rcases sp1 with hz | ⟨d, hd, e1, hcan, _⟩
  · have hnone := (sp2 (by rw [hz])).2
    rw [hz]
    simp only [ne_eq, not_true_eq_false, if_false]
    refine ⟨V, E, ?_, hcnt, ?_, hR1, hC1⟩
    · refine frontier_pop hmark top.cell _ ?_ ?_ ?_ hbo
      · intro p hp
        obtain ⟨x, hx, rfl⟩ := List.mem_map.1 hp
        by_cases hxt : x = top
        · exact Or.inl (by rw [hxt])
        · exact Or.inr (List.mem_map_of_mem _ ((List.mem_erase_of_ne hxt).2 hx))
      · intro p hp
        obtain ⟨x, hx, rfl⟩ := List.mem_map.1 hp
        exact List.mem_map_of_mem _ (List.mem_of_mem_erase hx)
      · intro d hd hw
        by_contra hb
        exact hnone d hd ⟨hw, by simpa using hb⟩
    · rw [List.length_erase_of_mem htopm]
      have : 0 < cells.length := List.length_pos_of_mem htopm
      omega
  · generalize min_neighbor_scan (set_builder m top.cell.row top.cell.col) cell_cost top.cell
      generate_directions_ (⟨0, 0⟩, INT_MAX) = found at e1 hcan ⊢
    obtain ⟨f1, f2⟩ := found
    simp only [] at e1 hcan ⊢
    subst e1
    obtain ⟨hw, hnb⟩ := hcan
    have hrow : (top.cell.step d).row ≠ 0 := by
      unfold Maze.within_perimeter at hw
      omega
    rw [if_pos hrow]
    have hw0 : m.within_perimeter (top.cell.step d).row (top.cell.step d).col :=
      (within_perimeter_sizes hR1 hC1 _ _).1 hw
    have hcnext := cell_of_step m o top.cell d hccur hd hw0
    have hnotV : top.cell.step d ∉ V := by
      intro hV
      rcases (hmark.built _ ((cell_of_sizes hR1 hC1 o _).2 hcnext)).1 hV with hb | hb
      · rw [hnb] at hb; exact Bool.noConfusion hb
      · rw [hb, hbo] at hnb; exact Bool.noConfusion hnb
    refine ⟨insert (top.cell.step d) V, insert (midpoint top.cell (top.cell.step d)) E,
      ?_, ?_, ?_, by simp, by simp⟩
    · exact frontier_maze_join hmark top.cell d hcurF hd hw _ (fun p => by simp)
    · rw [Finset.card_insert_of_not_mem hnotV, Finset.card_insert_of_not_mem
        (web_fresh h.web top.cell d hcurV hd hcnext hnotV), hcnt]
    · rw [Finset.card_insert_of_not_mem hnotV]
      simp only [List.length_cons]
      omega

theorem prim_iteration_nil (cell_cost : Point → Int) (tie : Nat → Nat) (s : Prim_state)
    (h : s.cells = []) : prim_iteration cell_cost tie s = s := by
  unfold prim_iteration
  rw [h, queue_top_nil]

/-- With fuel for the measure the Prim builder empties its queue, having
reached every room cell. -/
theorem prim_loop_done (cell_cost : Point → Int) (hcost : ∀ p, cell_cost p < INT_MAX)
    (tie : Nat → Nat) (o : Point) (fuel : Nat) (s : Prim_state) (V E : Finset Point)
    (h : Frontier_inv s.maze o o (s.cells.map fun x => x.cell) V E)
    (hcnt : E.card + 1 = V.card)
    (hf : 2 * (s.maze.maze_row_size_.toNat * s.maze.maze_col_size_.toNat - V.card)
      + s.cells.length ≤ fuel) :
    ((prim_iteration cell_cost tie)^[fuel] s).cells = []
      ∧ ∃ V' E', Frontier_inv ((prim_iteration cell_cost tie)^[fuel] s).maze o o [] V' E'
          ∧ E'.card + 1 = V'.card := by
  induction fuel generalizing s V E with
  | zero =>
    have : s.cells = [] := List.length_eq_zero.1 (by omega)
    simp only [Function.iterate_zero, id_eq]
    refine ⟨this, V, E, ?_, hcnt⟩
    rw [this] at h
    exact h
  | succ n ih =>
    rw [Function.iterate_succ_apply]
    by_cases hne : s.cells = []
    · rw [prim_iteration_nil cell_cost tie s hne,
        Function.iterate_fixed (prim_iteration_nil cell_cost tie s hne)]
      refine ⟨hne, V, E, ?_, hcnt⟩
      rw [hne] at h
      exact h
    · obtain ⟨V', E', k1, k2, k3, k4, k5⟩ :=
        prim_iteration_inv cell_cost hcost tie s o V E h hcnt hne
      have hle := web_card_le k1.web
      rw [k4, k5] at hle
      refine ih _ V' E' k1 k2 ?_
      rw [k4, k5]
      omega

theorem randomize_cell_costs_range (gen : Nat → Nat) (m : Maze) (p : Point) :
    0 ≤ randomize_cell_costs gen m p ∧ randomize_cell_costs gen m p ≤ 100 := by
  unfold randomize_cell_costs
  split_ifs
  · exact uniform_int_range 0 100 _ (by decide)
  · exact ⟨le_refl _, by decide⟩

/-- C7: for odd row and column counts of at least 7, every source of cell costs,
of the seed cell and of the choices among equal priorities,
`generate_prim_maze` returns (its queue is empty within `2 * rows * cols` loop
iterations) and the carved graph over the room cells is a spanning tree:
connected, with one carved joint less than room cells. -/
theorem prim_spanning_tree (costs seed tie : Nat → Nat) (m : Maze) (fuel : Nat)
    (hr : 7 ≤ m.maze_row_size_) (hc : 7 ≤ m.maze_col_size_)
    (hro : m.maze_row_size_ % 2 = 1) (hco : m.maze_col_size_ % 2 = 1)
    (hfuel : 2 * (m.maze_row_size_.toNat * m.maze_col_size_.toNat) ≤ fuel) :
    (generate_prim_maze costs seed tie fuel m).cells = []
      ∧ (generate_prim_maze costs seed tie fuel m).maze.spanning_tree ⟨1, 1⟩ := by
  obtain ⟨e1, e2, hp, _⟩ := all_walls_basic m.maze_row_size_ m.maze_col_size_
  have h1 := uniform_int_range 1 ((m.maze_row_size_ - 2) / 2) (seed 0) (by omega)
  have h2 := uniform_int_range 1 ((m.maze_col_size_ - 2) / 2) (seed (0 + 1)) (by omega)
  have hL : 1 ≤ m.maze_row_size_.toNat * m.maze_col_size_.toNat := by
    have a : 7 ≤ m.maze_row_size_.toNat := by omega
    have b : 7 ≤ m.maze_col_size_.toNat := by omega
    nlinarith
  have hcost : ∀ p, randomize_cell_costs costs m.fill_maze_with_walls p < INT_MAX := by
    intro p
    have := (randomize_cell_costs_range costs m.fill_maze_with_walls p).2
    unfold INT_MAX
    omega
  have hcell : (all_walls m.maze_row_size_ m.maze_col_size_).cell_of
      (pick_random_odd_point seed (all_walls m.maze_row_size_ m.maze_col_size_) 0)
      (pick_random_odd_point seed (all_walls m.maze_row_size_ m.maze_col_size_) 0) := by
    refine ⟨?_, by simp, by simp⟩
    unfold Maze.within_perimeter pick_random_odd_point
    rw [e1, e2]
    simp only []
    omega
  have hodd : (pick_random_odd_point seed (all_walls m.maze_row_size_ m.maze_col_size_) 0).row
        % 2 = 1
      ∧ (pick_random_odd_point seed (all_walls m.maze_row_size_ m.maze_col_size_) 0).col
        % 2 = 1 := by
    unfold pick_random_odd_point
    simp only []
    omega
  have hinit := frontier_init (all_walls m.maze_row_size_ m.maze_col_size_) _ _ hcell
    (fun r c => (hp r c).1) (all_walls_builder_bit _ _)
  have hdone := prim_loop_done (randomize_cell_costs costs m.fill_maze_with_walls) hcost tie
    (pick_random_odd_point seed (all_walls m.maze_row_size_ m.maze_col_size_) 0) fuel
    (prim_init costs seed m) {pick_random_odd_point seed
      (all_walls m.maze_row_size_ m.maze_col_size_) 0} ∅
    (by unfold prim_init Maze.fill_maze_with_walls; exact hinit) (by simp)
    (by
      unfold prim_init Maze.fill_maze_with_walls
      simp only [e1, e2, List.length_singleton, Finset.card_singleton]
      omega)
  obtain ⟨d1, V', E', d2, d3⟩ := hdone
  obtain ⟨c1, c2, c3⟩ := web_counts d2.web (frontier_done d2)
  have htree : ((prim_iteration (randomize_cell_costs costs m.fill_maze_with_walls) tie)^[fuel]
      (prim_init costs seed m)).maze.spanning_tree
        (pick_random_odd_point seed (all_walls m.maze_row_size_ m.maze_col_size_) 0) :=
    ⟨c3, by rw [c1, c2, d3]⟩
  unfold generate_prim_maze
  exact ⟨d1, (spanning_tree_anchor _ _ ⟨1, 1⟩ (by simp only []; omega)
    (by simp only []; omega)).1 htree⟩

theorem prim_spanning_tree_witness :
    (generate_prim_maze (fun n => 7 * n + 3) (fun n => n) (fun n => n) 98 (blank 7 7)).cells = []
      ∧ (generate_prim_maze (fun n => 7 * n + 3) (fun n => n) (fun n => n) 98
          (blank 7 7)).maze.spanning_tree ⟨1, 1⟩ :=
  prim_spanning_tree (fun n => 7 * n + 3) (fun n => n) (fun n => n) (blank 7 7) 98
    (by decide) (by decide) (by decide) (by decide) (by decide)

/-! ## The loop-erased walk grows a tree -/

/-- A maze with the same passage flags and builder bits has the same tree. -/
theorem tree_frame {m m' : Maze} {o : Point} {V E : Finset Point} (h : Tree_inv m o V E)
    (hr : m'.maze_row_size_ = m.maze_row_size_) (hc : m'.maze_col_size_ = m.maze_col_size_)
    (hp : ∀ r c, (m'.maze_ r c).path_bit = (m.maze_ r c).path_bit)
    (hb : ∀ r c, (m'.maze_ r c).builder_bit = (m.maze_ r c).builder_bit) :
    Tree_inv m' o V E := by
  refine ⟨web_frame h.web hr hc (fun j _ => hp _ _), h.count, ?_, ?_⟩
  · intro p hpc
    rw [hb]
    exact h.built p ((cell_of_sizes hr hc _ p).1 hpc)
  · intro p hpV
    unfold Maze.path
    rw [hp]
    exact h.carved p hpV

/-- Carving a tree cell `a`, the room cell `b` two steps away that is not in the
tree yet, and the joint between them adds `b` and the joint to the tree. -/
theorem tree_grow {m m' : Maze} {o : Point} {V E : Finset Point} (h : Tree_inv m o V E)
    (a d : Point) (ha : a ∈ V) (hd : d ∈ generate_directions_)
    (hw : m.within_perimeter (a.step d).row (a.step d).col) (hn : a.step d ∉ V)
    (hr : m'.maze_row_size_ = m.maze_row_size_) (hc : m'.maze_col_size_ = m.maze_col_size_)
    (hp : ∀ p : Point, (m'.maze_ p.row p.col).path_bit = true ↔
      ((m.maze_ p.row p.col).path_bit = true ∨ p = a ∨ p = a.step d
        ∨ p = midpoint a (a.step d)))
    (hb : ∀ p : Point, (m'.maze_ p.row p.col).builder_bit = true ↔
      ((m.maze_ p.row p.col).builder_bit = true ∨ p = a ∨ p = a.step d
        ∨ p = midpoint a (a.step d))) :
    Tree_inv m' o (insert (a.step d) V) (insert (midpoint a (a.step d)) E) := by
  have hca := h.web.cells a ha
  have hcb := cell_of_step m ⟨1, 1⟩ a d hca hd hw
  have hmidj := is_joint_midpoint m ⟨1, 1⟩ a d hca hd hcb
  refine ⟨web_grow h.web a d ha hd hcb hr hc ?_, ?_, ?_, ?_⟩
  · intro j hj
    have n1 : j ≠ a := is_joint_not_cell _ _ _ _ hj hca
    have n2 : j ≠ a.step d := is_joint_not_cell _ _ _ _ hj hcb
    unfold Maze.path
    rw [hp j]
    simp only [n1, n2, false_or]
  · rw [Finset.card_insert_of_not_mem hn,
      Finset.card_insert_of_not_mem (web_fresh h.web a d ha hd hcb hn), h.count]
  · intro p hpc
    have hp0 := (cell_of_sizes hr hc _ p).1 hpc
    have n3 : p ≠ midpoint a (a.step d) :=
      fun e => is_joint_not_cell _ _ _ _ hmidj hp0 e.symm
    rw [Finset.mem_insert, hb p, h.built p hp0]
    simp only [n3, or_false]
    constructor
    · rintro (h1 | h1)
      · exact Or.inr (Or.inr h1)
      · exact Or.inl h1
    · rintro (h1 | h1 | h1)
      · exact Or.inr h1
      · rw [h1]; exact Or.inr ((h.built a hca).1 ha)
      · exact Or.inl h1
  · intro p hpV
    unfold Maze.path
    rw [hp p]
    rcases Finset.mem_insert.1 hpV with h1 | h1
    · exact Or.inr (Or.inr (Or.inl h1))
    · exact Or.inl (h.carved p h1)

theorem trail_congr {m m' : Maze} (l : List Point)
    (h : ∀ p ∈ l, (m'.maze_ p.row p.col).markers = (m.maze_ p.row p.col).markers)
    (ht : Trail m l) : Trail m' l := by
  induction l with
  | nil => trivial
  | cons a l ih =>
    cases l with
    | nil =>
      unfold Trail at ht ⊢
      rw [h a (List.mem_cons_self _ _)]; exact ht
    | cons b l =>
      unfold Trail at ht ⊢
      rw [h a (List.mem_cons_self _ _)]
      exact ⟨ht.1, ht.2.1, ih (fun p hp => h p (List.mem_cons_of_mem _ hp)) ht.2.2⟩

/-- A mark that leads from a cell to a different cell leads two steps in a
cardinal direction. -/
theorem back_direction (k : Nat) (a b : Point)
    (h : a.step (backtracking_marks_.getD k ⟨0, 0⟩) = b) (hne : b ≠ a) :
    backtracking_marks_.getD k ⟨0, 0⟩ ∈ generate_directions_ := by
  have h5 : k < 5 := by
    by_contra hk
    have : backtracking_marks_.getD k ⟨0, 0⟩ = ⟨0, 0⟩ := by
      unfold backtracking_marks_
      rw [List.getD_eq_default]
      simp only [List.length_cons, List.length_nil]
      omega
    rw [this] at h
    apply hne
    rw [← h]
    cases a
    simp [Point.step]
  interval_cases k
  · exfalso
    apply hne
    rw [← h]
    cases a
    simp [Point.step, backtracking_marks_]
  all_goals simp [backtracking_marks_, generate_directions_]

theorem head_cons {chain : List Point} {x : Point} (h : chain.head? = some x) :
    ∃ rest, chain = x :: rest := by
  cases chain with
  | nil => simp at h
  | cons y ys =>
    simp only [List.head?_cons, Option.some.injEq] at h
    exact ⟨ys, by rw [h]⟩

theorem clear_start_path_bit (m : Maze) (r c r' c' : Int) :
    ((clear_start m r c).maze_ r' c').path_bit = (m.maze_ r' c').path_bit := by
  rw [clear_start_get]; split_ifs <;> rfl

theorem clear_start_builder_bit (m : Maze) (r c r' c' : Int) :
    ((clear_start m r c).maze_ r' c').builder_bit = (m.maze_ r' c').builder_bit := by
  rw [clear_start_get]; split_ifs <;> rfl

theorem clear_start_markers (m : Maze) (r c r' c' : Int) :
    ((clear_start m r c).maze_ r' c').markers = (m.maze_ r' c').markers := by
  rw [clear_start_get]; split_ifs <;> rfl

theorem clear_start_start_bit (m : Maze) (r c : Int) (p : Point) :
    ((clear_start m r c).maze_ p.row p.col).start_bit
      = if p = ⟨r, c⟩ then false else (m.maze_ p.row p.col).start_bit := by
  rw [clear_start_get]
  cases p with
  | mk r' c' =>
    simp only [Point.mk.injEq]
    split_ifs <;> rfl

theorem clear_markers_start_bit (m : Maze) (r c r' c' : Int) :
    ((clear_markers m r c).maze_ r' c').start_bit = (m.maze_ r' c').start_bit := by
  rw [clear_markers_get]; split_ifs <;> rfl

theorem clear_markers_markers (m : Maze) (r c : Int) (p : Point) :
    ((clear_markers m r c).maze_ p.row p.col).markers
      = if p = ⟨r, c⟩ then 0 else (m.maze_ p.row p.col).markers := by
  rw [clear_markers_get]
  cases p with
  | mk r' c' =>
    simp only [Point.mk.injEq]
    split_ifs <;> rfl

/-- An iteration of the loop of `erase_loop` keeps the invariant: the chain
loses its head, or the walk resumes on the loop root. -/
theorem wilson_erasing_inv (gen : Nat → Nat) (s : Wilson_state) (o : Point)
    (chain : List Point) (V E : Finset Point) (h : Wilson_inv s o chain V E)
    (cur loop_root : Point) (hph : s.phase = .erasing cur loop_root) :
    ∃ chain', Wilson_inv (wilson_step gen s) o chain' V E := by
  obtain ⟨m, walk, prev, phase, pos⟩ := s
  simp only [] at hph
  subst hph
  have hph := h.phase_ok
  simp only [Wilson_phase_ok] at hph
  obtain ⟨hhead, hnV, hroot, hflag⟩ := hph
  obtain ⟨rest, rfl⟩ := head_cons hhead
  unfold wilson_step
  simp only []
  split_ifs with hne
  · have hroot' : loop_root ∈ rest := by
      rcases List.mem_cons.1 hroot with e | e
      · exact absurd e.symm hne
      · exact e
    obtain ⟨nxt, rest', rfl⟩ : ∃ nxt rest', rest = nxt :: rest' := by
      cases rest with
      | nil => exact absurd hroot' (List.not_mem_nil _)
      | cons a l => exact ⟨a, l, rfl⟩
    have htr := h.trail
    unfold Trail at htr
    simp only [] at htr
    obtain ⟨_, hstep, htr'⟩ := htr
    have hnd := List.nodup_cons.1 h.nodup
    have hcur : cur = ⟨cur.row, cur.col⟩ := rfl
    rw [clear_start_markers, hstep]
    refine ⟨nxt :: rest', ⟨?_, ?_, hnd.2, ?_, ?_, ?_, ?_, ?_, ?_⟩⟩
    · exact tree_frame h.tree rfl rfl
        (fun r c => by simp only [clear_markers_path_bit, clear_start_path_bit])
        (fun r c => by simp only [clear_markers_builder_bit, clear_start_builder_bit])
    · intro p hp
      exact h.rooms p (List.mem_cons_of_mem _ hp)
    · intro p hp
      exact h.fresh p (List.mem_cons_of_mem _ hp)
    · refine trail_congr _ ?_ htr'
      intro p hp
      have : p ≠ cur := fun e => hnd.1 (e ▸ hp)
      rw [clear_markers_markers, ← hcur, if_neg this, clear_start_markers]
    · intro p hp
      rw [clear_markers_markers, ← hcur]
      split_ifs with e
      · rfl
      · rw [clear_start_markers]
        apply h.unmarked p
        intro hm
        rcases List.mem_cons.1 hm with e1 | e1
        · exact e e1
        · exact hp e1
    · intro p hp
      rw [clear_markers_start_bit, clear_start_start_bit, ← hcur]
      split_ifs with e
      · rfl
      · apply h.unflagged p
        intro hm
        rcases List.mem_cons.1 hm with e1 | e1
        · exact e e1
        · exact hp e1
    · intro p hp
      have hp' : p ∈ nxt :: rest' := List.mem_cons_of_mem _ hp
      have : p ≠ cur := fun e => hnd.1 (e ▸ hp')
      rw [clear_markers_start_bit, clear_start_start_bit, ← hcur, if_neg this]
      exact h.flagged p hp'
    · simp only [Wilson_phase_ok]
      have hn1 : nxt ≠ cur := fun e => hnd.1 (e ▸ List.mem_cons_self _ _)
      refine ⟨rfl, h.fresh nxt (List.mem_cons_self _ _), hroot', ?_⟩
      rw [clear_markers_start_bit, clear_start_start_bit, ← hcur, if_neg hn1]
      exact h.flagged nxt (List.mem_cons_self _ _)
  · have e : cur = loop_root := by simpa using hne
    subst e
    refine ⟨cur :: rest, ⟨h.tree, h.rooms, h.nodup, h.fresh, h.trail, h.unmarked, h.unflagged,
      h.flagged, ?_⟩⟩
    simp only [Wilson_phase_ok]
    exact ⟨rfl, hnV⟩

theorem lattice_scan_mem (m : Maze) (p : Point) (h : m.cell_of ⟨1, 1⟩ p) :
    p ∈ lattice_scan m 1 := by
  obtain ⟨hw, h1, h2⟩ := h
  unfold Maze.within_perimeter at hw
  simp only [] at h1 h2
  unfold lattice_scan
  simp only [List.mem_flatMap, List.mem_map, List.mem_range]
  refine ⟨((p.row - 1) / 2).toNat, by omega, ((p.col - 1) / 2).toNat, by omega, ?_⟩
  cases p with
  | mk r c =>
    simp only [Point.mk.injEq] at hw h1 h2 ⊢
    omega

/-- When `choose_arbitrary_point` finds no cell every room cell carries the
builder bit. -/
theorem choose_arbitrary_point_none (m : Maze) (h : (choose_arbitrary_point m 1).row = 0) :
    ∀ p, m.cell_of ⟨1, 1⟩ p → (m.maze_ p.row p.col).builder_bit = true := by
  unfold choose_arbitrary_point at h
  cases hf : (lattice_scan m 1).find? fun p => !(m.maze_ p.row p.col).builder_bit with
  | none =>
    intro p hp
    have := List.find?_eq_none.1 hf p (lattice_scan_mem m p hp)
    simpa using this
  | some q =>
    rw [hf] at h
    simp only [Option.getD_some] at h
    have := mem_lattice_scan m 1 q (List.mem_of_find?_eq_some hf)
    omega

/-- A cell found by `choose_arbitrary_point` is a room cell without the builder
bit. -/
theorem choose_arbitrary_point_some (m : Maze) (h : (choose_arbitrary_point m 1).row ≠ 0) :
    m.cell_of ⟨1, 1⟩ (choose_arbitrary_point m 1)
      ∧ (m.maze_ (choose_arbitrary_point m 1).row
          (choose_arbitrary_point m 1).col).builder_bit = false := by
  unfold choose_arbitrary_point at h ⊢
  cases hf : (lattice_scan m 1).find? fun p => !(m.maze_ p.row p.col).builder_bit with
  | none =>
    rw [hf] at h
    simp at h
  | some q =>
    simp only [Option.getD_some]
    have hm := mem_lattice_scan m 1 q (List.mem_of_find?_eq_some hf)
    have hb := List.find?_some hf
    refine ⟨⟨?_, ?_, ?_⟩, by simpa using hb⟩
    · unfold Maze.within_perimeter; omega
    · simp only []; omega
    · simp only []; omega

/-- An iteration of the loop of `connect_walk_to_maze` keeps the invariant: the
next cell of the chain joins the tree, or the chain is used up and a new walk
starts, or the builder returns with every room cell in the tree. -/
theorem wilson_connecting_inv (gen : Nat → Nat) (s : Wilson_state) (o : Point)
    (chain : List Point) (V E : Finset Point) (h : Wilson_inv s o chain V E)
    (cur : Point) (hph : s.phase = .connecting cur) :
    ∃ chain' V' E', Wilson_inv (wilson_step gen s) o chain' V' E' := by
  obtain ⟨m, walk, prev, phase, pos⟩ := s
  simp only [] at hph
  subst hph
  have hph := h.phase_ok
  simp only [Wilson_phase_ok] at hph
  obtain ⟨hhead, hV⟩ := hph
  obtain ⟨rest, rfl⟩ := head_cons hhead
  have hcur : cur = ⟨cur.row, cur.col⟩ := rfl
  have hnd := List.nodup_cons.1 h.nodup
  have hccur := h.rooms cur (List.mem_cons_self _ _)
  unfold wilson_step
  simp only []
  split_ifs with hmk hrow
  · obtain ⟨nxt, rest', rfl⟩ : ∃ nxt rest', rest = nxt :: rest' := by
      cases rest with
      | nil =>
        have := h.trail
        unfold Trail at this
        exact absurd this hmk
      | cons a l => exact ⟨a, l, rfl⟩
    have htr := h.trail
    unfold Trail at htr
    simp only [] at htr
    obtain ⟨_, hstep, htr'⟩ := htr
    have hn1 : nxt ≠ cur := fun e => hnd.1 (e ▸ List.mem_cons_self _ _)
    have hd := back_direction _ cur nxt hstep hn1
    rw [clear_start_markers]
    generalize backtracking_marks_.getD (m.maze_ cur.row cur.col).markers ⟨0, 0⟩ = d
      at hstep hd ⊢
    subst hstep
    have hcn := h.rooms (cur.step d) (List.mem_cons_of_mem _ (List.mem_cons_self _ _))
    have hnV := h.fresh (cur.step d) (List.mem_cons_self _ _)
    have hwall := wall_between_midpoint cur d hd
    have hR : (clear_markers (build_with_marks (clear_start m cur.row cur.col) cur (cur.step d))
        cur.row cur.col).maze_row_size_ = m.maze_row_size_ := by simp
    have hC : (clear_markers (build_with_marks (clear_start m cur.row cur.col) cur (cur.step d))
        cur.row cur.col).maze_col_size_ = m.maze_col_size_ := by simp
    refine ⟨cur.step d :: rest', insert (cur.step d) V, insert (midpoint cur (cur.step d)) E,
      ⟨?_, ?_, hnd.2, ?_, ?_, ?_, ?_, ?_, ?_⟩⟩
    · refine tree_grow h.tree cur d hV hd hcn.1 hnV hR hC ?_ ?_
      · intro p
        simp only [clear_markers_path_bit, build_with_marks_path_bit, clear_start_path_bit,
          point_eq_iff, hwall, Bool.or_eq_true, decide_eq_true_eq]
        tauto
      · intro p
        simp only [clear_markers_builder_bit, build_with_marks_builder_bit,
          clear_start_builder_bit, point_eq_iff, hwall, Bool.or_eq_true, decide_eq_true_eq]
        tauto
    · intro p hp
      exact (cell_of_sizes hR hC _ p).2 (h.rooms p (List.mem_cons_of_mem _ hp))
    · intro p hp
      have hp' : p ∈ cur.step d :: rest' := List.mem_cons_of_mem _ hp
      have hp1 : p ≠ cur.step d := fun e => (List.nodup_cons.1 hnd.2).1 (e ▸ hp)
      intro hin
      rcases Finset.mem_insert.1 hin with e | e
      · exact hp1 e
      · exact h.fresh p hp' e
    · refine trail_congr _ ?_ htr'
      intro p hp
      have : p ≠ cur := fun e => hnd.1 (e ▸ hp)
      rw [clear_markers_markers, ← hcur, if_neg this, build_with_marks_markers,
        clear_start_markers]
    · intro p hp
      rw [clear_markers_markers, ← hcur]
      split_ifs with e
      · rfl
      · rw [build_with_marks_markers, clear_start_markers]
        apply h.unmarked p
        intro hm
        rcases List.mem_cons.1 hm with e1 | e1
        · exact e e1
        · exact hp e1
    · intro p hp
      rw [clear_markers_start_bit, build_with_marks_start_bit, clear_start_start_bit, ← hcur]
      split_ifs with e
      · rfl
      · apply h.unflagged p
        intro hm
        rcases List.mem_cons.1 hm with e1 | e1
        · exact e e1
        · exact hp e1
    · intro p hp
      have hp' : p ∈ cur.step d :: rest' := List.mem_cons_of_mem _ hp
      have : p ≠ cur := fun e => hnd.1 (e ▸ hp')
      rw [clear_markers_start_bit, build_with_marks_start_bit, clear_start_start_bit, ← hcur,
        if_neg this]
      exact h.flagged p hp'
    · simp only [Wilson_phase_ok]
      exact ⟨rfl, Finset.mem_insert_self _ _⟩
  all_goals
    have hm0 : (m.maze_ cur.row cur.col).markers = 0 := by simpa using hmk
    have hrest : rest = [] := by
      cases rest with
      | nil => rfl
      | cons a l =>
        have := h.trail
        unfold Trail at this
        exact absurd hm0 this.1
    subst hrest
    have hbcur : (m.maze_ cur.row cur.col).builder_bit = true := (h.tree.built cur hccur).1 hV
    have hpcur : (m.maze_ cur.row cur.col).path_bit = true := h.tree.carved cur hV
    have hR2 : (carve_path_walls (clear_markers (clear_start m cur.row cur.col) cur.row cur.col)
        cur.row cur.col).maze_row_size_ = m.maze_row_size_ := by simp
    have hC2 : (carve_path_walls (clear_markers (clear_start m cur.row cur.col) cur.row cur.col)
        cur.row cur.col).maze_col_size_ = m.maze_col_size_ := by simp
    have htree2 : Tree_inv (carve_path_walls (clear_markers (clear_start m cur.row cur.col)
        cur.row cur.col) cur.row cur.col) o V E := by
      refine tree_frame h.tree hR2 hC2 ?_ ?_
      · intro r c
        rw [carve_path_walls_path_bit, clear_markers_path_bit, clear_start_path_bit]
        by_cases e : r = cur.row ∧ c = cur.col
        · obtain ⟨rfl, rfl⟩ := e
          simp [hpcur]
        · simp [e]
      · intro r c
        rw [carve_path_walls_builder_bit, clear_markers_builder_bit, clear_start_builder_bit]
        by_cases e : r = cur.row ∧ c = cur.col
        · obtain ⟨rfl, rfl⟩ := e
          simp [hbcur]
        · simp [e]
    have hmk2 : ∀ p : Point, ((carve_path_walls (clear_markers (clear_start m cur.row cur.col)
        cur.row cur.col) cur.row cur.col).maze_ p.row p.col).markers = 0 := by
      intro p
      rw [carve_path_walls_markers, clear_markers_markers, ← hcur]
      split_ifs with e
      · rfl
      · rw [clear_start_markers]
        exact h.unmarked p (by simpa using e)
    have hst2 : ∀ p : Point, ((carve_path_walls (clear_markers (clear_start m cur.row cur.col)
        cur.row cur.col) cur.row cur.col).maze_ p.row p.col).start_bit = false := by
      intro p
      rw [carve_path_walls_start_bit, clear_markers_start_bit, clear_start_start_bit, ← hcur]
      split_ifs with e
      · rfl
      · exact h.unflagged p (by simpa using e)
  · refine ⟨[], V, E, ⟨htree2, fun p hp => absurd hp (List.not_mem_nil _), List.nodup_nil,
      fun p hp => absurd hp (List.not_mem_nil _), trivial, fun p _ => hmk2 p,
      fun p _ => hst2 p, fun p hp => absurd hp (List.not_mem_nil _), ?_⟩⟩
    simp only [Wilson_phase_ok]
    refine ⟨trivial, fun p hp => ?_⟩
    exact (htree2.built p hp).2 (choose_arbitrary_point_none _ hrow p hp)
  · obtain ⟨hcw, hbw⟩ := choose_arbitrary_point_some _ hrow
    generalize choose_arbitrary_point (carve_path_walls (clear_markers
      (clear_start m cur.row cur.col) cur.row cur.col) cur.row cur.col) 1 = w at hcw hbw ⊢
    have hw : w = ⟨w.row, w.col⟩ := rfl
    have hwV : w ∉ V := by
      intro hin
      rw [(htree2.built w hcw).1 hin] at hbw
      exact Bool.noConfusion hbw
    refine ⟨[w], V, E, ⟨?_, ?_, List.nodup_singleton _,
      fun p hp => absurd hp (List.not_mem_nil _), ?_, ?_, ?_,
      fun p hp => absurd hp (List.not_mem_nil _), ?_⟩⟩
    · exact tree_frame htree2 rfl rfl (fun r c => clear_markers_path_bit _ _ _ _ _)
        (fun r c => clear_markers_builder_bit _ _ _ _ _)
    · intro p hp
      rw [List.mem_singleton] at hp
      rw [hp]
      exact hcw
    · unfold Trail
      rw [clear_markers_markers, ← hw, if_pos rfl]
    · intro p _
      rw [clear_markers_markers]
      split_ifs
      · rfl
      · exact hmk2 p
    · intro p _
      rw [clear_markers_start_bit]
      exact hst2 p
    · simp only [Wilson_phase_ok]
      exact ⟨rfl, hwV⟩

theorem set_flag_path_bit (m : Maze) (r c r' c' : Int) :
    ((m.modify r c fun q => { q with start_bit := true }).maze_ r' c').path_bit
      = (m.maze_ r' c').path_bit := by
  rw [modify_get]; split_ifs <;> rfl

theorem set_flag_builder_bit (m : Maze) (r c r' c' : Int) :
    ((m.modify r c fun q => { q with start_bit := true }).maze_ r' c').builder_bit
      = (m.maze_ r' c').builder_bit := by
  rw [modify_get]; split_ifs <;> rfl

theorem set_flag_markers (m : Maze) (r c r' c' : Int) :
    ((m.modify r c fun q => { q with start_bit := true }).maze_ r' c').markers
      = (m.maze_ r' c').markers := by
  rw [modify_get]; split_ifs <;> rfl

theorem set_flag_start_bit (m : Maze) (r c : Int) (p : Point) :
    ((m.modify r c fun q => { q with start_bit := true }).maze_ p.row p.col).start_bit
      = if p = ⟨r, c⟩ then true else (m.maze_ p.row p.col).start_bit := by
  rw [modify_get]
  cases p with
  | mk r' c' =>
    simp only [Point.mk.injEq]
    split_ifs <;> rfl

theorem or_marker_path_bit (m : Maze) (r c : Int) (k : Nat) (r' c' : Int) :
    ((or_marker m r c k).maze_ r' c').path_bit = (m.maze_ r' c').path_bit := by
  rw [or_marker_get]; split_ifs <;> rfl

theorem or_marker_builder_bit (m : Maze) (r c : Int) (k : Nat) (r' c' : Int) :
    ((or_marker m r c k).maze_ r' c').builder_bit = (m.maze_ r' c').builder_bit := by
  rw [or_marker_get]; split_ifs <;> rfl

theorem or_marker_start_bit (m : Maze) (r c : Int) (k : Nat) (r' c' : Int) :
    ((or_marker m r c k).maze_ r' c').start_bit = (m.maze_ r' c').start_bit := by
  rw [or_marker_get]; split_ifs <;> rfl

theorem or_marker_markers (m : Maze) (r c : Int) (k : Nat) (p : Point) :
    ((or_marker m r c k).maze_ p.row p.col).markers
      = if p = ⟨r, c⟩ then (m.maze_ p.row p.col).markers ||| k
        else (m.maze_ p.row p.col).markers := by
  rw [or_marker_get]
  cases p with
  | mk r' c' =>
    simp only [Point.mk.injEq]
    split_ifs <;> rfl

theorem mark_from_ne_zero (cur d : Point) (h : d ∈ generate_directions_) :
    mark_from cur (cur.step d) ≠ 0 := by
  rw [generate_directions_mem] at h
  rcases h with rfl | rfl | rfl | rfl <;>
    simp [Point.step, mark_from, from_north_, from_south_, from_east_, from_west_]

theorem midpoint_comm (a b : Point) : midpoint a b = midpoint b a := by
  simp [midpoint, add_comm]

theorem step_back (cur d : Point) : (cur.step d).step ⟨-d.row, -d.col⟩ = cur := by
  cases cur
  simp [Point.step]

theorem neg_direction (d : Point) (h : d ∈ generate_directions_) :
    (⟨-d.row, -d.col⟩ : Point) ∈ generate_directions_ := by
  rw [generate_directions_mem] at h ⊢
  rcases h with rfl | rfl | rfl | rfl <;> simp

/-- An iteration of `while (true)` up to the call of an inner loop keeps the
invariant: the walk takes a step onto a new cell, meets the tree and hands its
chain to `connect_walk_to_maze`, or meets its own chain and hands the loop to
`erase_loop`. -/
theorem wilson_walking_inv (gen : Nat → Nat) (s : Wilson_state) (o : Point)
    (chain : List Point) (V E : Finset Point) (h : Wilson_inv s o chain V E)
    (hph : s.phase = .walking) :
    ∃ chain' V' E', Wilson_inv (wilson_step gen s) o chain' V' E' := by
  obtain ⟨m, walk, prev, phase, pos⟩ := s
  simp only [] at hph
  subst hph
  have hph := h.phase_ok
  simp only [Wilson_phase_ok] at hph
  obtain ⟨hhead, hwV⟩ := hph
  obtain ⟨rest, rfl⟩ := head_cons hhead
  have hwalk : walk = ⟨walk.row, walk.col⟩ := rfl
  have hnd := List.nodup_cons.1 h.nodup
  have hcw : m.cell_of ⟨1, 1⟩ walk := h.rooms walk (List.mem_cons_self _ _)
  -- the maze with the start bit set on the walk
  have htree0 : Tree_inv (m.modify walk.row walk.col fun q => { q with start_bit := true })
      o V E :=
    tree_frame h.tree rfl rfl (fun r c => set_flag_path_bit _ _ _ _ _)
      (fun r c => set_flag_builder_bit _ _ _ _ _)
  have htrail0 : Trail (m.modify walk.row walk.col fun q => { q with start_bit := true })
      (walk :: rest) :=
    trail_congr _ (fun p _ => set_flag_markers _ _ _ _ _) h.trail
  have hunm0 : ∀ p : Point, p ∉ walk :: rest →
      ((m.modify walk.row walk.col fun q => { q with start_bit := true }).maze_
        p.row p.col).markers = 0 := by
    intro p hp
    rw [set_flag_markers]
    exact h.unmarked p hp
  have hunf0 : ∀ p : Point, p ∉ walk :: rest →
      ((m.modify walk.row walk.col fun q => { q with start_bit := true }).maze_
        p.row p.col).start_bit = false := by
    intro p hp
    have : p ≠ walk := fun e => hp (e ▸ List.mem_cons_self _ _)
    rw [set_flag_start_bit, ← hwalk, if_neg this]
    exact h.unflagged p hp
  have hfl0 : ∀ p : Point, p ∈ walk :: rest →
      ((m.modify walk.row walk.col fun q => { q with start_bit := true }).maze_
        p.row p.col).start_bit = true := by
    intro p hp
    rw [set_flag_start_bit, ← hwalk]
    split_ifs with e
    · rfl
    · rcases List.mem_cons.1 hp with e1 | e1
      · exact absurd e1 e
      · exact h.flagged p e1
  have hinv0 : ∀ (w' pv : Point) (ph : Wilson_phase) (n : Nat),
      Wilson_phase_ok ⟨m.modify walk.row walk.col fun q => { q with start_bit := true },
        w', pv, ph, n⟩ (walk :: rest) V →
      Wilson_inv ⟨m.modify walk.row walk.col fun q => { q with start_bit := true },
        w', pv, ph, n⟩ o (walk :: rest) V E :=
    fun w' pv ph n hok => ⟨htree0, h.rooms, h.nodup, h.fresh, htrail0, hunm0, hunf0,
      fun p hp => hfl0 p (List.mem_cons_of_mem _ hp), hok⟩
  unfold wilson_step
  simp only []
  split
  · exact ⟨walk :: rest, V, E, hinv0 _ _ _ _ (by simp only [Wilson_phase_ok]; exact ⟨rfl, hwV⟩)⟩
  · rename_i next hfind
    obtain ⟨⟨d, hd, rfl⟩, hwn, _⟩ := find_walk_step_some _ _ _ _ _
      (fun i hi => shuffle_lt _ i hi) hfind
    have hwn0 : m.within_perimeter (walk.step d).row (walk.step d).col := hwn
    have hcn := cell_of_step m ⟨1, 1⟩ walk d hcw hd hwn0
    have hne := step_ne walk d hd
    have hnext : walk.step d = ⟨(walk.step d).row, (walk.step d).col⟩ := rfl
    split_ifs with hb hs
    · -- the walk meets the tree
      rw [set_flag_builder_bit] at hb
      have hnV : walk.step d ∈ V := (h.tree.built _ hcn).2 hb
      have hback := step_back walk d
      have hgrow := @tree_grow _ (build_with_marks
          (m.modify walk.row walk.col fun q => { q with start_bit := true }) walk (walk.step d))
        _ _ _ htree0 (walk.step d) ⟨-d.row, -d.col⟩ hnV (neg_direction d hd)
        (by rw [hback]; exact hcw.1) (by rw [hback]; exact hwV) (by simp) (by simp)
        (by
          intro p
          rw [hback, midpoint_comm, ← wall_between_midpoint walk d hd]
          simp only [build_with_marks_path_bit, point_eq_iff, Bool.or_eq_true,
            decide_eq_true_eq]
          tauto)
        (by
          intro p
          rw [hback, midpoint_comm, ← wall_between_midpoint walk d hd]
          simp only [build_with_marks_builder_bit, point_eq_iff, Bool.or_eq_true,
            decide_eq_true_eq]
          tauto)
      rw [hback] at hgrow
      refine ⟨walk :: rest, insert walk V, _, ⟨hgrow, ?_, h.nodup, ?_, ?_, ?_, ?_, ?_, ?_⟩⟩
      · intro p hp
        exact (cell_of_sizes (by simp) (by simp) _ p).2 (h.rooms p hp)
      · intro p hp
        have hp1 : p ≠ walk := fun e => hnd.1 (e ▸ hp)
        intro hin
        rcases Finset.mem_insert.1 hin with e | e
        · exact hp1 e
        · exact h.fresh p hp e
      · exact trail_congr _ (fun p _ => build_with_marks_markers _ _ _ _ _) htrail0
      · intro p hp
        rw [build_with_marks_markers]
        exact hunm0 p hp
      · intro p hp
        rw [build_with_marks_start_bit]
        exact hunf0 p hp
      · intro p hp
        rw [build_with_marks_start_bit]
        exact hfl0 p (List.mem_cons_of_mem _ hp)
      · simp only [Wilson_phase_ok]
        exact ⟨rfl, Finset.mem_insert_self _ _⟩
    · -- the walk meets its own chain
      refine ⟨walk :: rest, V, E, hinv0 _ _ _ _ ?_⟩
      simp only [Wilson_phase_ok]
      refine ⟨rfl, hwV, ?_, hfl0 walk (List.mem_cons_self _ _)⟩
      by_contra hnot
      rw [hunf0 _ hnot] at hs
      exact Bool.noConfusion hs
    · -- the walk steps onto a new cell
      rw [set_flag_builder_bit] at hb
      have hb' : (m.maze_ (walk.step d).row (walk.step d).col).builder_bit = false := by
        simpa using hb
      have hnotc : walk.step d ∉ walk :: rest := by
        intro hin
        exact hs (hfl0 _ hin)
      have hnV : walk.step d ∉ V := by
        intro hin
        rw [(h.tree.built _ hcn).1 hin] at hb'
        exact Bool.noConfusion hb'
      rw [mark_origin_eq]
      refine ⟨walk.step d :: walk :: rest, V, E, ⟨?_, ?_, ?_, ?_, ?_, ?_, ?_, ?_, ?_⟩⟩
      · exact tree_frame htree0 rfl rfl (fun r c => or_marker_path_bit _ _ _ _ _ _)
          (fun r c => or_marker_builder_bit _ _ _ _ _ _)
      · intro p hp
        rcases List.mem_cons.1 hp with e | e
        · rw [e]; exact hcn
        · exact h.rooms p e
      · exact List.nodup_cons.2 ⟨hnotc, h.nodup⟩
      · intro p hp
        rcases List.mem_cons.1 hp with e | e
        · rw [e]; exact hwV
        · exact h.fresh p e
      · unfold Trail
        simp only []
        rw [or_marker_markers, ← hnext, if_pos rfl, hunm0 _ hnotc, Nat.zero_or]
        refine ⟨mark_from_ne_zero walk d hd, back_step walk d hd, ?_⟩
        refine trail_congr _ ?_ htrail0
        intro p hp
        have : p ≠ walk.step d := fun e => hnotc (e ▸ hp)
        rw [or_marker_markers, ← hnext, if_neg this]
      · intro p hp
        have hp1 : p ≠ walk.step d := fun e => hp (e ▸ List.mem_cons_self _ _)
        have hp2 : p ∉ walk :: rest := fun hm => hp (List.mem_cons_of_mem _ hm)
        rw [or_marker_markers, ← hnext, if_neg hp1]
        exact hunm0 p hp2
      · intro p hp
        have hp2 : p ∉ walk :: rest := fun hm => hp (List.mem_cons_of_mem _ hm)
        rw [or_marker_start_bit]
        exact hunf0 p hp2
      · intro p hp
        rw [or_marker_start_bit]
        exact hfl0 p hp
      · simp only [Wilson_phase_ok]
        exact ⟨rfl, hnV⟩

theorem all_walls_start_bit (rows cols : Int) (r c : Int) :
    ((all_walls rows cols).maze_ r c).start_bit = false := by
  unfold all_walls
  exact for_cells_induction (fun m => ∀ r c, (m.maze_ r c).start_bit = false)
    0 rows 0 cols build_wall (blank rows cols) (fun _ _ => rfl)
    (fun m r c _ _ _ _ h r' c' => by rw [(build_wall_start_finish m r c r' c').1]; exact h r' c')
    r c

/-- One loop iteration of the loop-erased walk keeps the invariant. -/
theorem wilson_step_inv (gen : Nat → Nat) (o : Point) (s : Wilson_state)
    (h : ∃ chain V E, Wilson_inv s o chain V E) :
    ∃ chain V E, Wilson_inv (wilson_step gen s) o chain V E := by
  obtain ⟨chain, V, E, h⟩ := h
  cases hph : s.phase with
  | walking => exact wilson_walking_inv gen s o chain V E h hph
  | connecting cur => exact wilson_connecting_inv gen s o chain V E h cur hph
  | erasing cur loop_root =>
    obtain ⟨chain', h'⟩ := wilson_erasing_inv gen s o chain V E h cur loop_root hph
    exact ⟨chain', V, E, h'⟩
  | returned =>
    have : wilson_step gen s = s := by
      unfold wilson_step
      rw [hph]
    rw [this]
    exact ⟨chain, V, E, h⟩

/-- The invariant holds for the loop-erased walk started with the tree cell `o`
alone and the chain the cell (1, 1) alone. -/
theorem wilson_start_inv (rows cols : Int) (pos : Nat) (hr : 7 ≤ rows) (hc : 7 ≤ cols)
    (o : Point) (hor : o.row % 2 = 1 ∧ 3 ≤ o.row ∧ o.row < rows - 1)
    (hoc : o.col % 2 = 1 ∧ 3 ≤ o.col ∧ o.col < cols - 1) :
    Wilson_inv ⟨clear_markers (set_builder (build_path (all_walls rows cols) o.row o.col)
      o.row o.col) 1 1, ⟨1, 1⟩, ⟨0, 0⟩, .walking, pos⟩ o [⟨1, 1⟩] {o} ∅ := by
  obtain ⟨e1, e2, hp, _⟩ := all_walls_basic rows cols
  have hb := all_walls_builder_bit rows cols
  have hs := all_walls_start_bit rows cols
  have hR : (clear_markers (set_builder (build_path (all_walls rows cols) o.row o.col)
      o.row o.col) 1 1).maze_row_size_ = rows := by simpa using e1
  have hC : (clear_markers (set_builder (build_path (all_walls rows cols) o.row o.col)
      o.row o.col) 1 1).maze_col_size_ = cols := by simpa using e2
  have hco : (clear_markers (set_builder (build_path (all_walls rows cols) o.row o.col)
      o.row o.col) 1 1).cell_of ⟨1, 1⟩ o := by
    refine ⟨?_, ?_, ?_⟩
    · unfold Maze.within_perimeter; rw [hR, hC]; omega
    · simp only []; omega
    · simp only []; omega
  have hc1 : (clear_markers (set_builder (build_path (all_walls rows cols) o.row o.col)
      o.row o.col) 1 1).cell_of ⟨1, 1⟩ ⟨1, 1⟩ := by
    refine ⟨?_, by simp, by simp⟩
    unfold Maze.within_perimeter; rw [hR, hC]; simp only []; omega
  have hpath : ∀ p : Point, ((clear_markers (set_builder (build_path (all_walls rows cols)
      o.row o.col) o.row o.col) 1 1).maze_ p.row p.col).path_bit = true ↔ p = o := by
    intro p
    have := (hp p.row p.col).1
    unfold Maze.path at this
    simp only [clear_markers_path_bit, set_builder_path_bit, build_path_path_bit, this,
      point_eq_iff, Bool.false_or, decide_eq_true_eq]
  have hbuilt : ∀ p : Point, ((clear_markers (set_builder (build_path (all_walls rows cols)
      o.row o.col) o.row o.col) 1 1).maze_ p.row p.col).builder_bit = true ↔ p = o := by
    intro p
    simp only [clear_markers_builder_bit, set_builder_builder_bit, build_path_builder_bit,
      hb, point_eq_iff, Bool.false_or, decide_eq_true_eq]
  have hmk : ∀ p : Point, ((clear_markers (set_builder (build_path (all_walls rows cols)
      o.row o.col) o.row o.col) 1 1).maze_ p.row p.col).markers = 0 := by
    intro p
    rw [clear_markers_markers]
    split_ifs
    · rfl
    · rw [set_builder_markers, build_path_markers]
      exact (hp _ _).2
  have hst : ∀ p : Point, ((clear_markers (set_builder (build_path (all_walls rows cols)
      o.row o.col) o.row o.col) 1 1).maze_ p.row p.col).start_bit = false := by
    intro p
    rw [clear_markers_start_bit, set_builder_start_bit, build_path_start_bit]
    exact hs _ _
  have hne : (⟨1, 1⟩ : Point) ≠ o := by
    intro e
    have := congrArg Point.row e
    simp only [] at this
    omega
  refine ⟨⟨⟨?_, Finset.mem_singleton_self _, ?_, ?_, ?_⟩, rfl, ?_, ?_⟩,
    ?_, List.nodup_singleton _, fun p hp => absurd hp (List.not_mem_nil _), ?_,
    fun p _ => hmk p, fun p _ => hst p, fun p hp => absurd hp (List.not_mem_nil _), ?_⟩
  · intro p hpV
    rw [Finset.mem_singleton] at hpV
    rw [hpV]; exact hco
  · intro p hpV
    rw [Finset.mem_singleton] at hpV
    rw [hpV]; exact Relation.ReflTransGen.refl
  · rintro a b ⟨ha, hb', ⟨d, hd, rfl⟩, hm⟩
    exfalso
    exact is_joint_not_cell _ _ _ _ (is_joint_midpoint _ _ a d ha hd hb') hco ((hpath _).1 hm)
  · intro j
    simp only [Finset.not_mem_empty, false_iff, not_and]
    intro hj hm
    exact is_joint_not_cell _ _ _ _ hj hco ((hpath _).1 hm)
  · intro p _
    rw [Finset.mem_singleton, hbuilt]
  · intro p hpV
    rw [Finset.mem_singleton] at hpV
    exact (hpath p).2 hpV
  · intro p hpm
    rw [List.mem_singleton] at hpm
    rw [hpm]; exact hc1
  · unfold Trail
    exact hmk ⟨1, 1⟩
  · simp only [Wilson_phase_ok]
    refine ⟨rfl, ?_⟩
    rw [Finset.mem_singleton]
    exact hne

/-- The loop-erased walk enters its loop with the invariant: the tree is the
centre cell alone and the chain is the cell (1, 1) alone. -/
theorem wilson_init_inv (rows cols : Int) (pos : Nat) (hr : 7 ≤ rows) (hc : 7 ≤ cols) :
    ∃ o chain V E, Wilson_inv (wilson_init (all_walls rows cols) pos) o chain V E := by
  obtain ⟨e1, e2, _, _⟩ := all_walls_basic rows cols
  unfold wilson_init
  simp only [e1, e2]
  exact ⟨_, _, _, _, wilson_start_inv rows cols pos hr hc
    ⟨if rows / 2 % 2 = 0 then rows / 2 + 1 else rows / 2,
      if cols / 2 % 2 = 0 then cols / 2 + 1 else cols / 2⟩
    (by simp only []; split_ifs <;> omega) (by simp only []; split_ifs <;> omega)⟩

/-- C8: for at least 7 rows and columns and every random source, when
`generate_randomized_loop_erased_maze` has returned every room cell carries the
builder bit and the passage flag, and the carved graph over the room cells is a
spanning tree: connected, with one carved joint less than room cells. -/
theorem wilson_spanning_tree (gen : Nat → Nat) (rows cols : Int) (pos fuel : Nat)
    (hr : 7 ≤ rows) (hc : 7 ≤ cols)
    (hret : (generate_randomized_loop_erased_maze gen fuel (all_walls rows cols) pos).phase
      = .returned) :
    (∀ p, (generate_randomized_loop_erased_maze gen fuel (all_walls rows cols) pos).maze.room p →
        ((generate_randomized_loop_erased_maze gen fuel (all_walls rows cols) pos).maze.maze_
            p.row p.col).builder_bit = true
          ∧ (generate_randomized_loop_erased_maze gen fuel (all_walls rows cols) pos).maze.path
            p.row p.col = true)
      ∧ (generate_randomized_loop_erased_maze gen fuel (all_walls rows cols)
          pos).maze.spanning_tree ⟨1, 1⟩ := by
  obtain ⟨o, hinit⟩ := wilson_init_inv rows cols pos hr hc
  obtain ⟨chain, V, E, h⟩ := iterate_invariant (wilson_step gen)
    (fun s => ∃ chain V E, Wilson_inv s o chain V E) (wilson_step_inv gen o) fuel _ hinit
  have hph := h.phase_ok
  unfold generate_randomized_loop_erased_maze at hret ⊢
  unfold Wilson_phase_ok at hph
  rw [hret] at hph
  simp only [] at hph
  obtain ⟨_, hall⟩ := hph
  obtain ⟨c1, c2, c3⟩ := web_counts h.tree.web hall
  refine ⟨fun p hp => ?_, c3, by rw [c1, c2, h.tree.count]⟩
  have hcp : ((wilson_step gen)^[fuel] (wilson_init (all_walls rows cols) pos)).maze.cell_of
      ⟨1, 1⟩ p := by
    obtain ⟨hw, h1, h2⟩ := hp
    exact ⟨hw, by simp only []; omega, by simp only []; omega⟩
  exact ⟨(h.tree.built p hcp).1 (hall p hcp), h.tree.carved p (hall p hcp)⟩

theorem wilson_spanning_tree_witness :
    (∀ p, (generate_randomized_loop_erased_maze (fun n => n) 16 (all_walls 7 7) 0).maze.room p →
        ((generate_randomized_loop_erased_maze (fun n => n) 16 (all_walls 7 7) 0).maze.maze_
            p.row p.col).builder_bit = true
          ∧ (generate_randomized_loop_erased_maze (fun n => n) 16 (all_walls 7 7) 0).maze.path
            p.row p.col = true)
      ∧ (generate_randomized_loop_erased_maze (fun n => n) 16 (all_walls 7 7)
          0).maze.spanning_tree ⟨1, 1⟩ :=
  wilson_spanning_tree (fun n => n) 7 7 0 16 (by decide) (by decide) (by decide!)

/-! ## `pick_random_point` returns the first sample that qualifies -/

theorem pick_random_point_first (gen : Nat → Nat) (m : Maze) (left pos : Nat) :
    (pick_random_point gen m left pos = none ↔
        ∀ i, i < left → ¬ m.placeable (sampled_point gen m pos i))
      ∧ ∀ p pos', pick_random_point gen m left pos = some (p, pos') →
          ∃ i, i < left ∧ p = sampled_point gen m pos i ∧ m.placeable p
            ∧ (∀ j, j < i → ¬ m.placeable (sampled_point gen m pos j))
            ∧ pos' = pos + 2 * (i + 1) := by
  induction left generalizing pos with
  | zero =>
    refine ⟨⟨fun _ i hi => absurd hi (Nat.not_lt_zero _), fun _ => rfl⟩, ?_⟩
    intro p pos' h
    simp [pick_random_point] at h
  | succ n ih =>
    have hs0 : sampled_point gen m pos 0
        = ⟨uniform_int 1 (m.maze_row_size_ - 2) (gen pos),
           uniform_int 1 (m.maze_col_size_ - 2) (gen (pos + 1))⟩ := rfl
    have hshift : ∀ i, sampled_point gen m (pos + 2) i = sampled_point gen m pos (i + 1) := by
      intro i
      unfold sampled_point
      have e1 : pos + 2 + 2 * i = pos + 2 * (i + 1) := by ring
      rw [e1]
    have hq_iff : m.placeable (sampled_point gen m pos 0) ↔
        ((m.maze_ (uniform_int 1 (m.maze_row_size_ - 2) (gen pos))
            (uniform_int 1 (m.maze_col_size_ - 2) (gen (pos + 1)))).path_bit = true
          ∧ ¬ (m.maze_ (uniform_int 1 (m.maze_row_size_ - 2) (gen pos))
            (uniform_int 1 (m.maze_col_size_ - 2) (gen (pos + 1)))).finish_bit = true
          ∧ ¬ (m.maze_ (uniform_int 1 (m.maze_row_size_ - 2) (gen pos))
            (uniform_int 1 (m.maze_col_size_ - 2) (gen (pos + 1)))).start_bit = true) := by
      rw [hs0]
      unfold Maze.placeable
      simp
    unfold pick_random_point
    simp only []
    split_ifs with hc'
    · have hq := hq_iff.2 hc'
      refine ⟨⟨fun h => by simp at h, fun h => absurd hq (h 0 (Nat.succ_pos _))⟩, ?_⟩
      intro p pos' h
      simp only [Option.some.injEq, Prod.mk.injEq] at h
      obtain ⟨rfl, rfl⟩ := h
      exact ⟨0, Nat.succ_pos _, hs0.symm, hs0 ▸ hq, fun j hj => absurd hj (Nat.not_lt_zero _),
        rfl⟩
    · have hq : ¬ m.placeable (sampled_point gen m pos 0) := fun h => hc' (hq_iff.1 h)
      obtain ⟨ih1, ih2⟩ := ih (pos + 2)
      refine ⟨?_, ?_⟩
      · rw [ih1]
        constructor
        · intro h i hi
          cases i with
          | zero => exact hq
          | succ k => rw [← hshift]; exact h k (by omega)
        · intro h i hi
          rw [hshift]; exact h (i + 1) (by omega)
      · intro p pos' h
        obtain ⟨i, hi, e1, e2, e3, e4⟩ := ih2 p pos' h
        refine ⟨i + 1, by omega, by rw [e1, hshift], e2, ?_, by omega⟩
        intro j hj
        cases j with
        | zero => exact hq
        | succ k => rw [← hshift]; exact e3 k (by omega)

/-- C12: `pick_random_point` aborts exactly when none of its 19 samples is
passable and free of the start and finish flags; otherwise it returns the first
sample that is, having drawn two numbers for it and for every sample before it.
It returns a point and the advanced random source only: the grid is read, not
written. -/
theorem pick_random_point_first_of_19 (gen : Nat → Nat) (m : Maze) (pos : Nat) :
    trouble_limit = 19
      ∧ (pick_random_point gen m trouble_limit pos = none ↔
          ∀ i, i < 19 → ¬ m.placeable (sampled_point gen m pos i))
      ∧ ∀ p pos', pick_random_point gen m trouble_limit pos = some (p, pos') →
          ∃ i, i < 19 ∧ p = sampled_point gen m pos i ∧ m.placeable p
            ∧ (∀ j, j < i → ¬ m.placeable (sampled_point gen m pos j))
            ∧ pos' = pos + 2 * (i + 1) :=
  ⟨rfl, (pick_random_point_first gen m 19 pos).1, (pick_random_point_first gen m 19 pos).2⟩

/-! ## Row and column counts from the command line -/

/-! ## Placement designates passable cells, of any parity -/

theorem scan_corner_finish_bit (m : Maze) (marks : Marks) (index : Nat) (cells : List Point)
    (r c : Int) :
    ((scan_corner m marks index cells).1.maze_ r c).finish_bit = (m.maze_ r c).finish_bit := by
  unfold scan_corner
  split
  · exact set_start_finish_bit _ _ _ _ _
  · rfl

/-- A corner scan sets the start flag on a cell with the passage flag only. -/
theorem scan_corner_start_bit (m : Maze) (marks : Marks) (index : Nat) (cells : List Point)
    (r c : Int) (h : ((scan_corner m marks index cells).1.maze_ r c).start_bit = true) :
    (m.maze_ r c).start_bit = true ∨ (m.maze_ r c).path_bit = true := by
  unfold scan_corner at h
  split at h
  · rename_i p hp
    rw [set_start_start_bit] at h
    simp only [Bool.or_eq_true, decide_eq_true_eq] at h
    have hpp : (m.maze_ p.row p.col).path_bit = true := by
      have := List.find?_some hp
      simpa using this
    rcases h with h | ⟨rfl, rfl⟩
    · exact Or.inl h
    · exact Or.inr hpp
  · exact Or.inl h

/-- C11 (as stated) fails: on the 7 by 7 grid built depth first from room (1, 1),
placement in the hunt game designates the cell (2, 1), of even row, as the
start. -/
theorem start_on_joint_counterexample :
    (generate_randomized_dfs_maze (fun n => 3 * n * n + 7 * n + 10) 98 (all_walls 7 7) 0).start_
        = ⟨1, 1⟩
      ∧ (Thread_maze .randomized_depth_first .none .hunt 7 7
          (fun n => 3 * n * n + 7 * n + 10) 98).map
            (fun r => (r.2.1.start_, (r.1.maze_ 2 1).start_bit)) = some (⟨2, 1⟩, true) := by
  decide!

/-- C11 (as amended): when no cell carries the start or the finish flag
beforehand, every cell that `place_start_finish` leaves with the start or the
finish flag carries the passage flag, and in the hunt and gather games it lies
strictly inside the perimeter; its row and column may be of any parity. -/
theorem placement_designates_passable (game_ : Maze_game) (gen : Nat → Nat) (m : Maze)
    (marks : Marks) (pos : Nat) (result : Maze × Marks × Nat)
    (hr : 3 ≤ m.maze_row_size_) (hc : 3 ≤ m.maze_col_size_)
    (hblank : ∀ r c, (m.maze_ r c).start_bit = false ∧ (m.maze_ r c).finish_bit = false)
    (h : place_start_finish game_ gen m marks pos = some result) :
    ∀ r c, ((result.1.maze_ r c).start_bit = true ∨ (result.1.maze_ r c).finish_bit = true) →
      (result.1.maze_ r c).path_bit = true
        ∧ (game_ ≠ .corners → result.1.within_perimeter r c) := by
  have hpath := place_start_finish_path game_ gen m marks pos result h
  obtain ⟨hR, hC, hp⟩ := hpath
  intro r c hflag
  unfold place_start_finish at h
  by_cases hg : game_ = .corners
  · rw [if_pos hg] at h
    simp only [Option.some.injEq] at h
    refine ⟨?_, fun hne => absurd hg hne⟩
    rw [hp]
    subst h
    simp only [hg, decide_True, Bool.true_and, Bool.or_eq_true, decide_eq_true_eq]
    rcases hflag with hs | hf
    · left
      rw [set_finish_start_bit, modify_get] at hs
      have hs' : ((scan_corner (scan_corner (scan_corner (scan_corner m marks 0
          (corner_cells m 0)).1 (scan_corner m marks 0 (corner_cells m 0)).2 1
          (corner_cells m 1)).1 (scan_corner (scan_corner m marks 0 (corner_cells m 0)).1
          (scan_corner m marks 0 (corner_cells m 0)).2 1 (corner_cells m 1)).2 2
          (corner_cells m 2)).1 (scan_corner (scan_corner (scan_corner m marks 0
          (corner_cells m 0)).1 (scan_corner m marks 0 (corner_cells m 0)).2 1
          (corner_cells m 1)).1 (scan_corner (scan_corner m marks 0 (corner_cells m 0)).1
          (scan_corner m marks 0 (corner_cells m 0)).2 1 (corner_cells m 1)).2 2
          (corner_cells m 2)).2 3 (corner_cells m 3)).1.maze_ r c).start_bit = true := by
        split_ifs at hs
        · exact hs
        · exact hs
      rcases scan_corner_start_bit _ _ _ _ _ _ hs' with h3 | h3
      · rcases scan_corner_start_bit _ _ _ _ _ _ h3 with h2 | h2
        · rcases scan_corner_start_bit _ _ _ _ _ _ h2 with h1 | h1
          · rcases scan_corner_start_bit _ _ _ _ _ _ h1 with h0 | h0
            · rw [(hblank r c).1] at h0; exact Bool.noConfusion h0
            · exact h0
          · simpa [scan_corner_path_bit] using h1
        · simpa [scan_corner_path_bit] using h2
      · simpa [scan_corner_path_bit] using h3
    · right
      rw [set_finish_finish_bit] at hf
      simp only [Bool.or_eq_true, decide_eq_true_eq] at hf
      rcases hf with hf | hf
      · rw [modify_get] at hf
        have hf' : ((scan_corner (scan_corner (scan_corner (scan_corner m marks 0
            (corner_cells m 0)).1 (scan_corner m marks 0 (corner_cells m 0)).2 1
            (corner_cells m 1)).1 (scan_corner (scan_corner m marks 0 (corner_cells m 0)).1
            (scan_corner m marks 0 (corner_cells m 0)).2 1 (corner_cells m 1)).2 2
            (corner_cells m 2)).1 (scan_corner (scan_corner (scan_corner m marks 0
            (corner_cells m 0)).1 (scan_corner m marks 0 (corner_cells m 0)).2 1
            (corner_cells m 1)).1 (scan_corner (scan_corner m marks 0 (corner_cells m 0)).1
            (scan_corner m marks 0 (corner_cells m 0)).2 1 (corner_cells m 1)).2 2
            (corner_cells m 2)).2 3 (corner_cells m 3)).1.maze_ r c).finish_bit = true := by
          split_ifs at hf
          · exact hf
          · exact hf
        simp only [scan_corner_finish_bit, (hblank r c).2] at hf'
        exact Bool.noConfusion hf'
      · exact hf
  · rw [if_neg hg] at h
    split at h
    · cases h
    · rename_i start pos1 hpick
      obtain ⟨hw, hpb, _, _⟩ := pick_random_point_spec gen m _ pos start pos1 hr hc hpick
      obtain ⟨goals, _, _, hgoals, hfin, hst, _⟩ := place_finishes_spec gen _ _ _ _ result
        (by simpa using hr) (by simpa using hc) h
      have tr : ∀ r c, result.1.within_perimeter r c ↔ m.within_perimeter r c :=
        within_perimeter_sizes hR hC
      rw [hp, tr]
      simp only [hg, decide_False, Bool.false_and, Bool.or_false]
      rcases hflag with hs | hf
      · rw [hst, set_start_start_bit, (hblank r c).1] at hs
        simp only [Bool.false_or, decide_eq_true_eq] at hs
        obtain ⟨rfl, rfl⟩ := hs
        exact ⟨hpb, fun _ => hw⟩
      · rw [hfin, set_start_finish_bit, (hblank r c).2] at hf
        simp only [Bool.false_or, decide_eq_true_eq] at hf
        obtain ⟨g1, g2, _, _⟩ := hgoals _ hf
        simp only [] at g1 g2
        rw [set_start_path_bit] at g2
        exact ⟨g2, fun _ => (within_perimeter_sizes (by simp [set_start])
          (by simp [set_start]) _ _).1 g1⟩

theorem placement_designates_passable_witness :
    (((place_start_finish .hunt (fun n => n) (generate_arena (all_walls 7 7)) {} 0).get
        (by decide!)).1.maze_ 3 4).start_bit = true
      ∧ (((place_start_finish .hunt (fun n => n) (generate_arena (all_walls 7 7)) {} 0).get
        (by decide!)).1.maze_ 3 4).path_bit = true
      ∧ (Maze_game.hunt ≠ .corners →
        ((place_start_finish .hunt (fun n => n) (generate_arena (all_walls 7 7)) {} 0).get
        (by decide!)).1.within_perimeter 3 4) :=
  ⟨by decide!,
    placement_designates_passable .hunt (fun n => n) (generate_arena (all_walls 7 7)) {} 0 _
      (by decide!) (by decide!) (fun r c => arena_no_start_finish 7 7 r c)
      (Option.some_get _).symm 3 4 (Or.inl (by decide!))⟩

/-! ## Race from the corners: the four starts and the centre goal -/

theorem scan_corner_head (m : Maze) (marks : Marks) (index : Nat) (p : Point)
    (rest : List Point) (hp : (m.maze_ p.row p.col).path_bit = true) :
    scan_corner m marks index (p :: rest)
      = (set_start m p.row p.col,
          { marks with corner_starts_ := marks.corner_starts_.set index p }) := by
  unfold scan_corner
  rw [List.find?_cons_of_pos _ (by simpa using hp)]

theorem scan_corner_second (m : Maze) (marks : Marks) (index : Nat) (q p : Point)
    (rest : List Point) (hq : (m.maze_ q.row q.col).path_bit = false)
    (hp : (m.maze_ p.row p.col).path_bit = true) :
    scan_corner m marks index (q :: p :: rest)
      = (set_start m p.row p.col,
          { marks with corner_starts_ := marks.corner_starts_.set index p }) := by
  unfold scan_corner
  rw [List.find?_cons_of_neg _ (by simpa using hq), List.find?_cons_of_pos _ (by simpa using hp)]

theorem range_map_head (n : Nat) (f : Nat → Int) :
    (List.range (n + 1)).map f = f 0 :: (List.range n).map fun i => f (i + 1) := by
  rw [List.range_succ_eq_map, List.map_cons, List.map_map]
  rfl

theorem range_map_reverse_head (n : Nat) (f : Nat → Int) :
    ((List.range (n + 1)).map f).reverse = f n :: ((List.range n).map f).reverse := by
  rw [List.range_succ, List.map_append, List.reverse_append]
  rfl

theorem scan_rows_ascending (m : Maze) (hr : 7 ≤ m.maze_row_size_) :
    ∃ rs, scan_rows m false = 1 :: rs := by
  obtain ⟨a, ha⟩ : ∃ a, (m.maze_row_size_ - 2).toNat = a + 1 :=
    ⟨(m.maze_row_size_ - 2).toNat - 1, by omega⟩
  unfold scan_rows
  simp only [Bool.false_eq_true, if_false]
  rw [ha, range_map_head]
  simp only [Nat.cast_zero, add_zero]
  exact ⟨_, rfl⟩

theorem scan_rows_descending (m : Maze) (hr : 7 ≤ m.maze_row_size_) :
    ∃ rs, scan_rows m true = (m.maze_row_size_ - 2) :: rs := by
  obtain ⟨a, ha⟩ : ∃ a, (m.maze_row_size_ - 2).toNat = a + 1 :=
    ⟨(m.maze_row_size_ - 2).toNat - 1, by omega⟩
  have e : (1 + (a : Int)) = m.maze_row_size_ - 2 := by omega
  unfold scan_rows
  simp only [if_true]
  rw [ha, range_map_reverse_head, e]
  exact ⟨_, rfl⟩

theorem scan_cols_0 (m : Maze) (hc : 7 ≤ m.maze_col_size_) :
    ∃ cs, scan_cols m 0 = 1 :: cs := by
  obtain ⟨b, hb⟩ : ∃ b, (m.maze_col_size_ - 1).toNat = b + 1 :=
    ⟨(m.maze_col_size_ - 1).toNat - 1, by omega⟩
  unfold scan_cols
  simp only []
  rw [hb, range_map_head]
  simp only [Nat.cast_zero, add_zero]
  exact ⟨_, rfl⟩

theorem scan_cols_2 (m : Maze) (hc : 7 ≤ m.maze_col_size_) :
    ∃ cs, scan_cols m 2 = 0 :: 1 :: cs := by
  obtain ⟨b, hb⟩ : ∃ b, (m.maze_col_size_ - 2).toNat = b + 1 + 1 :=
    ⟨(m.maze_col_size_ - 2).toNat - 2, by omega⟩
  unfold scan_cols
  simp only []
  rw [hb, range_map_head, range_map_head]
  simp only [Nat.cast_zero, zero_add, Nat.cast_one]
  exact ⟨_, rfl⟩

theorem scan_cols_reversed (m : Maze) (hc : 7 ≤ m.maze_col_size_) (index : Nat)
    (h0 : index ≠ 0) (h2 : index ≠ 2) :
    ∃ cs, scan_cols m index = (m.maze_col_size_ - 2) :: cs := by
  obtain ⟨b, hb⟩ : ∃ b, (m.maze_col_size_ - 2).toNat = b + 1 :=
    ⟨(m.maze_col_size_ - 2).toNat - 1, by omega⟩
  have e : (1 + (b : Int)) = m.maze_col_size_ - 2 := by omega
  unfold scan_cols
  split
  · exact absurd rfl h0
  · exact absurd rfl h2
  · rw [hb, range_map_reverse_head, e]
    exact ⟨_, rfl⟩

theorem corner_cells_0 (m : Maze) (hr : 7 ≤ m.maze_row_size_) (hc : 7 ≤ m.maze_col_size_) :
    ∃ rest, corner_cells m 0 = ⟨1, 1⟩ :: rest := by
  obtain ⟨rs, h1⟩ := scan_rows_ascending m hr
  obtain ⟨cs, h2⟩ := scan_cols_0 m hc
  unfold corner_cells
  have hd : decide (2 ≤ 0) = false := by decide
  simp only [hd, h1, h2, List.flatMap_cons, List.map_cons, List.cons_append]
  exact ⟨_, rfl⟩

theorem corner_cells_1 (m : Maze) (hr : 7 ≤ m.maze_row_size_) (hc : 7 ≤ m.maze_col_size_) :
    ∃ rest, corner_cells m 1 = ⟨1, m.maze_col_size_ - 2⟩ :: rest := by
  obtain ⟨rs, h1⟩ := scan_rows_ascending m hr
  obtain ⟨cs, h2⟩ := scan_cols_reversed m hc 1 (by decide) (by decide)
  unfold corner_cells
  have hd : decide (2 ≤ 1) = false := by decide
  simp only [hd, h1, h2, List.flatMap_cons, List.map_cons, List.cons_append]
  exact ⟨_, rfl⟩

theorem corner_cells_2 (m : Maze) (hr : 7 ≤ m.maze_row_size_) (hc : 7 ≤ m.maze_col_size_) :
    ∃ rest, corner_cells m 2
      = ⟨m.maze_row_size_ - 2, 0⟩ :: ⟨m.maze_row_size_ - 2, 1⟩ :: rest := by
  obtain ⟨rs, h1⟩ := scan_rows_descending m hr
  obtain ⟨cs, h2⟩ := scan_cols_2 m hc
  unfold corner_cells
  have hd : decide (2 ≤ 2) = true := by decide
  simp only [hd, h1, h2, List.flatMap_cons, List.map_cons, List.cons_append]
  exact ⟨_, rfl⟩

theorem corner_cells_3 (m : Maze) (hr : 7 ≤ m.maze_row_size_) (hc : 7 ≤ m.maze_col_size_) :
    ∃ rest, corner_cells m 3 = ⟨m.maze_row_size_ - 2, m.maze_col_size_ - 2⟩ :: rest := by
  obtain ⟨rs, h1⟩ := scan_rows_descending m hr
  obtain ⟨cs, h2⟩ := scan_cols_reversed m hc 3 (by decide) (by decide)
  unfold corner_cells
  have hd : decide (2 ≤ 3) = true := by decide
  simp only [hd, h1, h2, List.flatMap_cons, List.map_cons, List.cons_append]
  exact ⟨_, rfl⟩

theorem all_walls_finish_bit (rows cols : Int) (r c : Int) :
    ((all_walls rows cols).maze_ r c).finish_bit = false := by
  unfold all_walls
  exact for_cells_induction (fun m => ∀ r c, (m.maze_ r c).finish_bit = false)
    0 rows 0 cols build_wall (blank rows cols) (fun _ _ => rfl)
    (fun m r c _ _ _ _ h r' c' => by rw [(build_wall_start_finish m r c r' c').2]; exact h r' c')
    r c

theorem set_four (cs : List Point) (a b c d : Point) (h : cs.length = 4) :
    (((cs.set 0 a).set 1 b).set 2 c).set 3 d = [a, b, c, d] := by
  match cs, h with
  | [_, _, _, _], _ => rfl

/-! ## Race from the corners: a scan that finds no passable cell -/

theorem scan_corner_slot (m m1 : Maze) (marks : Marks) (k index : Nat) (cells : List Point)
    (hpath : ∀ r c, (m1.maze_ r c).path_bit = (m.maze_ r c).path_bit)
    (h : k = index → ∀ p ∈ cells, (m.maze_ p.row p.col).path_bit = false) :
    (scan_corner m1 marks k cells).2.corner_starts_[index]? = marks.corner_starts_[index]? := by
  unfold scan_corner
  split
  · rename_i p hp
    by_cases e : k = index
    · have h1 := List.find?_some hp
      have h2 := h e p (List.mem_of_find?_eq_some hp)
      simp only [hpath] at h1
      rw [h2] at h1
      exact absurd h1 (by decide)
    · exact List.getElem?_set_ne e
  · rfl

/-! ## Race from the corners: a centre goal no solver can reach -/

theorem unreachable_of_no_step_in (m : Maze) (a b : Point) (hab : a ≠ b)
    (h : ∀ c, ¬ m.passable_step c b) : ¬ m.reachable a b := by
  intro hr
  rcases Relation.ReflTransGen.cases_tail hr with e | ⟨c, _, hc⟩
  · exact hab e.symm
  · exact h c hc

theorem no_step_in_of_walled (m : Maze) (b : Point)
    (hn : m.path (b.row + 1) b.col = false) (hs : m.path (b.row - 1) b.col = false)
    (he : m.path b.row (b.col + 1) = false) (hw : m.path b.row (b.col - 1) = false) :
    ∀ c, ¬ m.passable_step c b := by
  rintro ⟨cr, cc⟩ ⟨hc, _, d, hd, e⟩
  simp only [cardinal_directions_, List.mem_cons, List.mem_singleton, List.not_mem_nil,
    or_false] at hd
  obtain ⟨br, bc⟩ := b
  simp only [Point.step, Point.mk.injEq] at e
  simp only [] at hn hs he hw hc
  obtain ⟨e1, e2⟩ := e
  rcases hd with rfl | rfl | rfl | rfl <;> simp only [] at e1 e2
  · have h1 : br + 1 = cr := by omega
    have h2 : bc = cc := by omega
    rw [h1, h2, hc] at hn; exact absurd hn (by decide)
  · have h1 : br = cr := by omega
    have h2 : bc - 1 = cc := by omega
    rw [h1, h2, hc] at hw; exact absurd hw (by decide)
  · have h1 : br - 1 = cr := by omega
    have h2 : bc = cc := by omega
    rw [h1, h2, hc] at hs; exact absurd hs (by decide)
  · have h1 : br = cr := by omega
    have h2 : bc + 1 = cc := by omega
    rw [h1, h2, hc] at he; exact absurd he (by decide)

/-- C14 (the code at the failing input): the depth first builder on a 9 by 9
grid, with the draws of this run, returns a spanning tree of the sixteen rooms
that uses none of the four joints around the centre cell (4, 4).  Placement in
the corners game returns with the four corner rooms as starts and (4, 4) as
finish, and no corner start reaches the finish through cardinally adjacent
passable cells. -/
theorem corners_goal_unreachable :
    (run_builder .randomized_depth_first .none (fun n => 63 * n * n + 7 * n + 310) 31
        (construct_walls .randomized_depth_first .none 9 9) 0).2.2 = true
      ∧ ∃ result, Thread_maze .randomized_depth_first .none .corners 9 9
            (fun n => 63 * n * n + 7 * n + 310) 31 = some result
          ∧ result.2.1.corner_starts_ = [⟨1, 1⟩, ⟨1, 7⟩, ⟨7, 1⟩, ⟨7, 7⟩]
          ∧ result.2.1.finish_ = ⟨4, 4⟩
          ∧ (result.1.maze_ 4 4).finish_bit = true
          ∧ ∀ p ∈ result.2.1.corner_starts_, ¬ result.1.reachable p result.2.1.finish_ := by
  have key : (Thread_maze .randomized_depth_first .none .corners 9 9
      (fun n => 63 * n * n + 7 * n + 310) 31).map (fun r => (r.2.1.corner_starts_,
        r.2.1.finish_, (r.1.maze_ 4 4).finish_bit))
      = some ([⟨1, 1⟩, ⟨1, 7⟩, ⟨7, 1⟩, ⟨7, 7⟩], ⟨4, 4⟩, true) := by
    decide!
  have walled : (Thread_maze .randomized_depth_first .none .corners 9 9
      (fun n => 63 * n * n + 7 * n + 310) 31).map (fun r => [r.1.path 5 4, r.1.path 3 4,
        r.1.path 4 5, r.1.path 4 3])
      = some [false, false, false, false] := by
    decide!
  refine ⟨by decide!, ?_⟩
  cases h : Thread_maze .randomized_depth_first .none .corners 9 9
      (fun n => 63 * n * n + 7 * n + 310) 31 with
  | none => rw [h] at key; exact absurd key (by simp)
  | some result =>
    rw [h] at key walled
    simp only [Option.map_some', Option.some.injEq, Prod.mk.injEq] at key
    simp only [Option.map_some', Option.some.injEq, List.cons.injEq, and_true] at walled
    obtain ⟨hc, hf, hb⟩ := key
    obtain ⟨h1, h2, h3, h4⟩ := walled
    refine ⟨result, rfl, hc, hf, hb, ?_⟩
    intro p hp
    rw [hf]
    rw [hc] at hp
    apply unreachable_of_no_step_in
    · simp only [List.mem_cons, List.mem_singleton, List.not_mem_nil, or_false] at hp
      rcases hp with rfl | rfl | rfl | rfl <;> decide
    · exact no_step_in_of_walled _ ⟨4, 4⟩ h1 h2 h3 h4

/-! ## Regeneration in place -/

/-- C17 (the code at the failing input): a 7 by 7 hunt maze is constructed with
the depth first builder (one start cell, one finish cell) and `new_maze()` is
called with a fresh stream.  Both builder runs return, and the regenerated grid
carries two start cells and two finish cells: the old start (2, 1) and the old
finish (1, 1) still carry their flags next to the new start (4, 5) and the new
finish (5, 1). -/
theorem new_maze_keeps_old_flags :
    (construct .randomized_depth_first .none .depth_first_search .hunt 7 7
        (fun n => 3 * n * n + 7 * n + 10) 98).map
        (fun o => (o.marks.start_, o.marks.finish_,
          [o.maze.count_cells (fun s => s.start_bit), o.maze.count_cells (fun s => s.finish_bit)]))
      = some (⟨2, 1⟩, ⟨1, 1⟩, [1, 1])
    ∧ (construct .randomized_depth_first .none .depth_first_search .hunt 7 7
        (fun n => 3 * n * n + 7 * n + 10) 98).map
        (fun o => (run_builder o.builder_ o.modification_ (fun n => n + 3) 98 o.maze 0).2.2)
      = some true
    ∧ ((construct .randomized_depth_first .none .depth_first_search .hunt 7 7
        (fun n => 3 * n * n + 7 * n + 10) 98).bind
        fun o => new_maze o (fun n => n + 3) 98).map
        (fun o => (o.marks.start_, o.marks.finish_,
          [o.maze.count_cells (fun s => s.start_bit), o.maze.count_cells (fun s => s.finish_bit)]))
      = some (⟨4, 5⟩, ⟨5, 1⟩, [2, 2])
    ∧ ((construct .randomized_depth_first .none .depth_first_search .hunt 7 7
        (fun n => 3 * n * n + 7 * n + 10) 98).bind
        fun o => new_maze o (fun n => n + 3) 98).map
        (fun o => ((o.maze.maze_ 2 1).start_bit, (o.maze.maze_ 1 1).finish_bit))
      = some (true, true) := by
  decide!

/-- C18 (the code at the failing input): on a 7 by 7 hunt maze,
`new_maze(arena, gather, 9, 9)` stores the builder and nothing else: the grid
keeps 7 rows and 7 columns, `game_` is still hunt, and placement adds one finish
cell (as in hunt) to the one left over, not the four of gather. -/
theorem new_maze_with_ignores_arguments :
    ((construct .randomized_depth_first .none .depth_first_search .hunt 7 7
        (fun n => 3 * n * n + 7 * n + 10) 98).bind
        fun o => new_maze_with o .arena .gather 9 9 (fun n => n + 3) 98).map
        (fun o => (o.builder_, o.game_, o.maze.maze_row_size_, o.maze.maze_col_size_))
      = some (.arena, .hunt, 7, 7)
    ∧ ((construct .randomized_depth_first .none .depth_first_search .hunt 7 7
        (fun n => 3 * n * n + 7 * n + 10) 98).bind
        fun o => new_maze_with o .arena .gather 9 9 (fun n => n + 3) 98).map
        (fun o => o.maze.count_cells (fun s => s.finish_bit))
      = some 2 := by
  decide!

/-! ## The solvers: what a second solve finds -/

/-- C19 (the code at the failing input): a 7 by 7 gather maze is constructed and
solved depth first, the four agents running one after the other until each has
returned.  No agent of `dfs_thread_gather` writes `escape_path_index_`, so it is
still -1, the guard of the second `solve_with_dfs_threads` does not call
`clear_paths`, and the second solve starts with the four paths of the first (4,
6, 10 and 12 cells) and with the seen and paint flags of all four agents on the
start cell (1, 1). -/
theorem second_gather_solve_not_cleared :
    (construct .randomized_depth_first .none .depth_first_search .gather 7 7
        (fun n => 2 * n * n + 7 * n + 5) 98).map
        (fun o => (((solve_begin .depth_first_search (fun n => 2 * n * n + 7 * n + 5) o).run
            (fun n => 2 * n * n + 7 * n + 5)
            (List.replicate 82 0 ++ List.replicate 82 1 ++ List.replicate 82 2
              ++ List.replicate 82 3)).joined,
          ((solve_begin .depth_first_search (fun n => 2 * n * n + 7 * n + 5) o).run
            (fun n => 2 * n * n + 7 * n + 5)
            (List.replicate 82 0 ++ List.replicate 82 1 ++ List.replicate 82 2
              ++ List.replicate 82 3)).obj.escape_path_index_))
      = some (true, -1)
    ∧ (construct .randomized_depth_first .none .depth_first_search .gather 7 7
        (fun n => 2 * n * n + 7 * n + 5) 98).map
        (fun o => (
          (solve_begin .depth_first_search (fun n => 2 * n * n + 7 * n + 5)
            ((solve_begin .depth_first_search (fun n => 2 * n * n + 7 * n + 5) o).run
              (fun n => 2 * n * n + 7 * n + 5)
              (List.replicate 82 0 ++ List.replicate 82 1 ++ List.replicate 82 2
                ++ List.replicate 82 3)).obj).obj.thread_paths_.map List.length,
          ((solve_begin .depth_first_search (fun n => 2 * n * n + 7 * n + 5)
            ((solve_begin .depth_first_search (fun n => 2 * n * n + 7 * n + 5) o).run
              (fun n => 2 * n * n + 7 * n + 5)
              (List.replicate 82 0 ++ List.replicate 82 1 ++ List.replicate 82 2
                ++ List.replicate 82 3)).obj).obj.maze.maze_ 1 1).thread_cache,
          ((solve_begin .depth_first_search (fun n => 2 * n * n + 7 * n + 5)
            ((solve_begin .depth_first_search (fun n => 2 * n * n + 7 * n + 5) o).run
              (fun n => 2 * n * n + 7 * n + 5)
              (List.replicate 82 0 ++ List.replicate 82 1 ++ List.replicate 82 2
                ++ List.replicate 82 3)).obj).obj.maze.maze_ 1 1).thread_paint))
      = some ([4, 6, 10, 12], 15, 15) := by
  decide!

/-! ## The race outcome slot -/

theorem dfs_probe_frame (obj : Thread_maze_object) (a : Thread_local) :
    (dfs_probe obj a).1 = obj ∧ (dfs_probe obj a).2.function = a.function
      ∧ (dfs_probe obj a).2.thread_index = a.thread_index := by
  unfold dfs_probe
  split
  · exact ⟨rfl, rfl, rfl⟩
  · simp only []
    split_ifs <;> exact ⟨rfl, rfl, rfl⟩

theorem bfs_probe_frame (obj : Thread_maze_object) (a : Thread_local) :
    (bfs_probe obj a).1 = obj ∧ (bfs_probe obj a).2.function = a.function
      ∧ (bfs_probe obj a).2.thread_index = a.thread_index := by
  unfold bfs_probe
  split
  · exact ⟨rfl, rfl, rfl⟩
  · simp only []
    split_ifs <;> exact ⟨rfl, rfl, rfl⟩

theorem dfs_unwind_frame (obj : Thread_maze_object) (a : Thread_local) :
    (dfs_unwind obj a).1.escape_path_index_ = obj.escape_path_index_
      ∧ (dfs_unwind obj a).2.function = a.function
      ∧ (dfs_unwind obj a).2.thread_index = a.thread_index := by
  unfold dfs_unwind
  split <;> exact ⟨rfl, rfl, rfl⟩

theorem seen_at_frame (a : Thread_local) :
    (seen_at a).function = a.function ∧ (seen_at a).thread_index = a.thread_index := by
  unfold seen_at
  split <;> exact ⟨rfl, rfl⟩

/-- The critical section of a hunt agent on a finish cell writes the slot only
while it holds -1, and then writes the index of the agent. -/
theorem claim_escape_spec (obj : Thread_maze_object) (a : Thread_local) :
    (obj.escape_path_index_ = -1 → (claim_escape obj a).1.escape_path_index_ = a.thread_index
        ∧ (claim_escape obj a).2 = true)
      ∧ (obj.escape_path_index_ ≠ -1 → (claim_escape obj a).1 = obj
        ∧ (claim_escape obj a).2 = false) := by
  unfold claim_escape
  by_cases h : obj.escape_path_index_ = -1 <;> simp [h]

theorem claim_escape_slot (obj : Thread_maze_object) (a : Thread_local) :
    (claim_escape obj a).1.escape_path_index_ = obj.escape_path_index_
      ∨ (obj.escape_path_index_ = -1
        ∧ (claim_escape obj a).1.escape_path_index_ = a.thread_index) := by
  by_cases h : obj.escape_path_index_ = -1
  · exact Or.inr ⟨h, ((claim_escape_spec obj a).1 h).1⟩
  · exact Or.inl (by rw [((claim_escape_spec obj a).2 h).1])

theorem dfs_thread_hunt_frame (obj : Thread_maze_object) (a : Thread_local) :
    ((dfs_thread_hunt obj a).1.escape_path_index_ = obj.escape_path_index_
        ∨ (obj.escape_path_index_ = -1
          ∧ (dfs_thread_hunt obj a).1.escape_path_index_ = a.thread_index))
      ∧ (dfs_thread_hunt obj a).2.function = a.function
      ∧ (dfs_thread_hunt obj a).2.thread_index = a.thread_index := by
  unfold dfs_thread_hunt
  split
  · split
    · exact ⟨Or.inl rfl, rfl, rfl⟩
    · split_ifs <;> exact ⟨Or.inl rfl, rfl, rfl⟩
  · exact ⟨claim_escape_slot obj a, rfl, rfl⟩
  · exact ⟨Or.inl rfl, rfl, rfl⟩
  · exact ⟨Or.inl (by rw [(dfs_probe_frame obj a).1]), (dfs_probe_frame obj a).2⟩
  · exact ⟨Or.inl (dfs_unwind_frame obj a).1, (dfs_unwind_frame obj a).2⟩
  · exact ⟨Or.inl rfl, rfl, rfl⟩

theorem randomized_dfs_thread_hunt_frame (gen : Nat → Nat) (obj : Thread_maze_object)
    (a : Thread_local) :
    ((randomized_dfs_thread_hunt gen obj a).1.escape_path_index_ = obj.escape_path_index_
        ∨ (obj.escape_path_index_ = -1
          ∧ (randomized_dfs_thread_hunt gen obj a).1.escape_path_index_ = a.thread_index))
      ∧ (randomized_dfs_thread_hunt gen obj a).2.function = a.function
      ∧ (randomized_dfs_thread_hunt gen obj a).2.thread_index = a.thread_index := by
  unfold randomized_dfs_thread_hunt
  split
  · split
    · exact ⟨Or.inl rfl, rfl, rfl⟩
    · split_ifs <;> exact ⟨Or.inl rfl, rfl, rfl⟩
  · exact ⟨claim_escape_slot obj a, rfl, rfl⟩
  · exact ⟨Or.inl rfl, rfl, rfl⟩
  · exact ⟨Or.inl (by rw [(dfs_probe_frame obj a).1]), (dfs_probe_frame obj a).2⟩
  · exact ⟨Or.inl (dfs_unwind_frame obj a).1, (dfs_unwind_frame obj a).2⟩
  · exact ⟨Or.inl rfl, rfl, rfl⟩

theorem dfs_thread_gather_frame (obj : Thread_maze_object) (a : Thread_local) :
    (dfs_thread_gather obj a).1.escape_path_index_ = obj.escape_path_index_
      ∧ (dfs_thread_gather obj a).2.function = a.function
      ∧ (dfs_thread_gather obj a).2.thread_index = a.thread_index := by
  unfold dfs_thread_gather
  split
  · split
    · exact ⟨rfl, rfl, rfl⟩
    · split_ifs <;> exact ⟨rfl, rfl, rfl⟩
  · exact ⟨by rw [(dfs_probe_frame obj a).1], (dfs_probe_frame obj a).2⟩
  · exact dfs_unwind_frame obj a
  · exact ⟨rfl, rfl, rfl⟩

theorem randomized_dfs_thread_gather_frame (gen : Nat → Nat) (obj : Thread_maze_object)
    (a : Thread_local) :
    (randomized_dfs_thread_gather gen obj a).1.escape_path_index_ = obj.escape_path_index_
      ∧ (randomized_dfs_thread_gather gen obj a).2.function = a.function
      ∧ (randomized_dfs_thread_gather gen obj a).2.thread_index = a.thread_index := by
  unfold randomized_dfs_thread_gather
  split
  · split
    · exact ⟨rfl, rfl, rfl⟩
    · split_ifs <;> exact ⟨rfl, rfl, rfl⟩
  · exact ⟨by rw [(dfs_probe_frame obj a).1], (dfs_probe_frame obj a).2⟩
  · exact dfs_unwind_frame obj a
  · exact ⟨rfl, rfl, rfl⟩

theorem bfs_thread_hunt_frame (obj : Thread_maze_object) (a : Thread_local) :
    ((bfs_thread_hunt obj a).1.escape_path_index_ = obj.escape_path_index_
        ∨ (obj.escape_path_index_ = -1
          ∧ (bfs_thread_hunt obj a).1.escape_path_index_ = a.thread_index))
      ∧ (bfs_thread_hunt obj a).2.function = a.function
      ∧ (bfs_thread_hunt obj a).2.thread_index = a.thread_index := by
  unfold bfs_thread_hunt
  split
  · split
    · exact ⟨Or.inl rfl, rfl, rfl⟩
    · split_ifs <;> exact ⟨Or.inl rfl, rfl, rfl⟩
  · exact ⟨claim_escape_slot obj a, rfl, rfl⟩
  · exact ⟨Or.inl rfl, rfl, rfl⟩
  · exact ⟨Or.inl (by rw [(bfs_probe_frame obj a).1]), (bfs_probe_frame obj a).2⟩
  · exact ⟨Or.inl rfl, seen_at_frame a⟩
  · split_ifs
    · exact ⟨Or.inl rfl, seen_at_frame a⟩
    · exact ⟨Or.inl rfl, rfl, rfl⟩
  · exact ⟨Or.inl rfl, rfl, rfl⟩

theorem bfs_thread_gather_frame (obj : Thread_maze_object) (a : Thread_local) :
    (bfs_thread_gather obj a).2.function = a.function
      ∧ (bfs_thread_gather obj a).2.thread_index = a.thread_index := by
  unfold bfs_thread_gather
  split
  · split
    · exact ⟨rfl, rfl⟩
    · split_ifs <;> exact ⟨rfl, rfl⟩
  · exact (bfs_probe_frame obj a).2
  · exact seen_at_frame a
  · split_ifs
    · exact seen_at_frame a
    · exact ⟨rfl, rfl⟩
  · exact ⟨rfl, rfl⟩

theorem thread_step_function (gen : Nat → Nat) (obj : Thread_maze_object) (a : Thread_local) :
    (thread_step gen obj a).2.function = a.function
      ∧ (thread_step gen obj a).2.thread_index = a.thread_index := by
  unfold thread_step
  split
  · exact (dfs_thread_hunt_frame obj a).2
  · exact (randomized_dfs_thread_hunt_frame gen obj a).2
  · exact (dfs_thread_gather_frame obj a).2
  · exact (randomized_dfs_thread_gather_frame gen obj a).2
  · exact (bfs_thread_hunt_frame obj a).2
  · exact bfs_thread_gather_frame obj a

/-- A step of an agent that does not run `bfs_thread_gather` leaves the slot as
it is or writes the index of the agent into a slot that held -1. -/
theorem thread_step_slot (gen : Nat → Nat) (obj : Thread_maze_object) (a : Thread_local)
    (h : a.function ≠ .bfs_thread_gather) :
    (thread_step gen obj a).1.escape_path_index_ = obj.escape_path_index_
      ∨ (obj.escape_path_index_ = -1
        ∧ (thread_step gen obj a).1.escape_path_index_ = a.thread_index) := by
  unfold thread_step
  split
  · exact (dfs_thread_hunt_frame obj a).1
  · exact (randomized_dfs_thread_hunt_frame gen obj a).1
  · exact Or.inl (dfs_thread_gather_frame obj a).1
  · exact Or.inl (randomized_dfs_thread_gather_frame gen obj a).1
  · exact (bfs_thread_hunt_frame obj a).1
  · rename_i e; exact absurd e h

theorem step_slot (gen : Nat → Nat) (s : Solve_state) (i : Nat)
    (h : ∀ a ∈ s.threads, a.function ≠ .bfs_thread_gather) :
    (∀ a ∈ (s.step gen i).threads, a.function ≠ .bfs_thread_gather)
      ∧ ((s.step gen i).obj.escape_path_index_ = s.obj.escape_path_index_
        ∨ (s.obj.escape_path_index_ = -1 ∧ 0 ≤ (s.step gen i).obj.escape_path_index_)) := by
  unfold Solve_state.step
  cases ha : s.threads.get? i with
  | none => exact ⟨h, Or.inl rfl⟩
  | some a =>
    have hmem : a ∈ s.threads := List.get?_mem ha
    refine ⟨fun b hb => ?_, ?_⟩
    · rcases List.mem_or_eq_of_mem_set hb with hb | rfl
      · exact h b hb
      · rw [(thread_step_function gen s.obj a).1]; exact h a hmem
    · rcases thread_step_slot gen s.obj a (h a hmem) with e | ⟨e1, e2⟩
      · exact Or.inl e
      · exact Or.inr ⟨e1, by simp only [e2]; exact Int.ofNat_nonneg _⟩

theorem run_slot (gen : Nat → Nat) (schedule : List Nat) (s : Solve_state)
    (h : ∀ a ∈ s.threads, a.function ≠ .bfs_thread_gather) :
    (∀ a ∈ (s.run gen schedule).threads, a.function ≠ .bfs_thread_gather)
      ∧ (s.obj.escape_path_index_ = -1
        ∨ (s.run gen schedule).obj.escape_path_index_ = s.obj.escape_path_index_) := by
  induction schedule generalizing s with
  | nil => exact ⟨h, Or.inr rfl⟩
  | cons i rest ih =>
    obtain ⟨h1, h2⟩ := step_slot gen s i h
    obtain ⟨h3, h4⟩ := ih (s.step gen i) h1
    have e : s.run gen (i :: rest) = (s.step gen i).run gen rest := rfl
    rw [e]
    refine ⟨h3, ?_⟩
    by_cases hs : s.obj.escape_path_index_ = -1
    · exact Or.inl hs
    · right
      rcases h2 with e2 | ⟨e2, _⟩
      · rcases h4 with e4 | e4
        · rw [e2] at e4; exact absurd e4 hs
        · rw [e4, e2]
      · exact absurd e2 hs

theorem run_append (gen : Nat → Nat) (s : Solve_state) (before after : List Nat) :
    s.run gen (before ++ after) = (s.run gen before).run gen after := by
  unfold Solve_state.run
  rw [List.foldl_append]

theorem spawn_function (function : Thread_function) (start : Point) (thread_index : Nat) :
    (spawn function start thread_index).function = function := by
  unfold spawn
  split <;> rfl

theorem agent_function_gather (solver : Solver_algorithm) (game : Maze_game)
    (h : ¬ (solver = .breadth_first_search ∧ game = .gather)) :
    agent_function solver game ≠ .bfs_thread_gather := by
  cases solver <;> cases game <;> simp_all [agent_function]

theorem solve_begin_functions (solver : Solver_algorithm) (gen : Nat → Nat)
    (obj : Thread_maze_object) :
    ∀ a ∈ (solve_begin solver gen obj).threads, a.function = agent_function solver obj.game_ := by
  have hg : (if obj.escape_path_index_ ≠ -1 then clear_paths obj else obj).game_ = obj.game_ := by
    split_ifs <;> rfl
  intro a ha
  unfold solve_begin at ha
  simp only [] at ha
  rw [hg] at ha
  split at ha <;> rename_i e
  · simp only [List.mem_map, List.mem_range] at ha
    obtain ⟨i, _, rfl⟩ := ha
    rw [spawn_function, e]
  · simp only [List.mem_map, List.mem_range] at ha
    obtain ⟨i, _, rfl⟩ := ha
    rw [spawn_function]

/-- C20 (as stated) fails: in a breadth first solve of a 7 by 7 gather maze,
with the four agents running one after the other, the slot holds 0 when agent 0
has returned, and the later steps of agents 1, 2 and 3 change it to 1, 2 and 3:
`bfs_thread_gather` ends with `escape_path_index_ = thread_index`. -/
theorem escape_path_index_counterexample :
    (construct .randomized_depth_first .none .breadth_first_search .gather 7 7
        (fun n => 2 * n * n + 7 * n + 5) 98).map
        (fun o =>
          [((solve_begin .breadth_first_search (fun n => 2 * n * n + 7 * n + 5) o).run
              (fun n => 2 * n * n + 7 * n + 5) []).obj.escape_path_index_,
           ((solve_begin .breadth_first_search (fun n => 2 * n * n + 7 * n + 5) o).run
              (fun n => 2 * n * n + 7 * n + 5)
              (List.replicate 111 0)).obj.escape_path_index_,
           ((solve_begin .breadth_first_search (fun n => 2 * n * n + 7 * n + 5) o).run
              (fun n => 2 * n * n + 7 * n + 5)
              (List.replicate 111 0 ++ List.replicate 111 1)).obj.escape_path_index_,
           ((solve_begin .breadth_first_search (fun n => 2 * n * n + 7 * n + 5) o).run
              (fun n => 2 * n * n + 7 * n + 5)
              (List.replicate 111 0 ++ List.replicate 111 1
                ++ List.replicate 111 2)).obj.escape_path_index_,
           ((solve_begin .breadth_first_search (fun n => 2 * n * n + 7 * n + 5) o).run
              (fun n => 2 * n * n + 7 * n + 5)
              (List.replicate 111 0 ++ List.replicate 111 1 ++ List.replicate 111 2
                ++ List.replicate 111 3)).obj.escape_path_index_])
      = some [-1, 0, 1, 2, 3] := by
  decide!

/-- C20 (as amended): within one solve invocation, for every solving strategy
and competition mode other than breadth first search in the gather game, and at
every point of every interleaving of the agents (the schedule `before`): a step
of any agent `i` leaves `escape_path_index_` unchanged or writes an agent index
into a slot that held -1, and once the slot holds an agent index it keeps that
value through every later sequence of steps (the schedule `after`). -/
theorem escape_path_index_written_once (solver : Solver_algorithm) (gen : Nat → Nat)
    (obj : Thread_maze_object) (before : List Nat) (i : Nat) (after : List Nat)
    (h : ¬ (solver = .breadth_first_search ∧ obj.game_ = .gather)) :
    ((((solve_begin solver gen obj).run gen before).step gen i).obj.escape_path_index_
          = ((solve_begin solver gen obj).run gen before).obj.escape_path_index_
        ∨ (((solve_begin solver gen obj).run gen before).obj.escape_path_index_ = -1
          ∧ 0 ≤ (((solve_begin solver gen obj).run gen before).step gen i).obj.escape_path_index_))
      ∧ (((solve_begin solver gen obj).run gen before).obj.escape_path_index_ = -1
        ∨ ((solve_begin solver gen obj).run gen (before ++ after)).obj.escape_path_index_
          = ((solve_begin solver gen obj).run gen before).obj.escape_path_index_) := by
  have h0 : ∀ a ∈ (solve_begin solver gen obj).threads, a.function ≠ .bfs_thread_gather :=
    fun a ha => by
      rw [solve_begin_functions solver gen obj a ha]
      exact agent_function_gather solver obj.game_ h
  have h1 := (run_slot gen before _ h0).1
  refine ⟨(step_slot gen _ i h1).2, ?_⟩
  rw [run_append]
  exact (run_slot gen after _ h1).2

theorem escape_path_index_written_once_witness :
    ((solve_begin .breadth_first_search (fun n => 3 * n * n + 7 * n + 10)
        ((construct .randomized_depth_first .none .breadth_first_search .hunt 7 7
          (fun n => 3 * n * n + 7 * n + 10) 98).get (by decide!))).run
        (fun n => 3 * n * n + 7 * n + 10)
        (List.replicate 15 1 ++ List.replicate 9 0)).obj.escape_path_index_ = 0
    ∧ ((((solve_begin .breadth_first_search (fun n => 3 * n * n + 7 * n + 10)
        ((construct .randomized_depth_first .none .breadth_first_search .hunt 7 7
          (fun n => 3 * n * n + 7 * n + 10) 98).get (by decide!))).run
        (fun n => 3 * n * n + 7 * n + 10)
        (List.replicate 15 1 ++ List.replicate 9 0)).step
          (fun n => 3 * n * n + 7 * n + 10) 1).obj.escape_path_index_
          = ((solve_begin .breadth_first_search (fun n => 3 * n * n + 7 * n + 10)
        ((construct .randomized_depth_first .none .breadth_first_search .hunt 7 7
          (fun n => 3 * n * n + 7 * n + 10) 98).get (by decide!))).run
        (fun n => 3 * n * n + 7 * n + 10)
        (List.replicate 15 1 ++ List.replicate 9 0)).obj.escape_path_index_
        ∨ (((solve_begin .breadth_first_search (fun n => 3 * n * n + 7 * n + 10)
        ((construct .randomized_depth_first .none .breadth_first_search .hunt 7 7
          (fun n => 3 * n * n + 7 * n + 10) 98).get (by decide!))).run
        (fun n => 3 * n * n + 7 * n + 10)
        (List.replicate 15 1 ++ List.replicate 9 0)).obj.escape_path_index_ = -1
          ∧ 0 ≤ (((solve_begin .breadth_first_search (fun n => 3 * n * n + 7 * n + 10)
        ((construct .randomized_depth_first .none .breadth_first_search .hunt 7 7
          (fun n => 3 * n * n + 7 * n + 10) 98).get (by decide!))).run
        (fun n => 3 * n * n + 7 * n + 10)
        (List.replicate 15 1 ++ List.replicate 9 0)).step
          (fun n => 3 * n * n + 7 * n + 10) 1).obj.escape_path_index_))
      ∧ (((solve_begin .breadth_first_search (fun n => 3 * n * n + 7 * n + 10)
        ((construct .randomized_depth_first .none .breadth_first_search .hunt 7 7
          (fun n => 3 * n * n + 7 * n + 10) 98).get (by decide!))).run
        (fun n => 3 * n * n + 7 * n + 10)
        (List.replicate 15 1 ++ List.replicate 9 0)).obj.escape_path_index_ = -1
        ∨ ((solve_begin .breadth_first_search (fun n => 3 * n * n + 7 * n + 10)
        ((construct .randomized_depth_first .none .breadth_first_search .hunt 7 7
          (fun n => 3 * n * n + 7 * n + 10) 98).get (by decide!))).run
        (fun n => 3 * n * n + 7 * n + 10)
        ((List.replicate 15 1 ++ List.replicate 9 0) ++ [1, 1, 1, 2, 3, 2, 3])).obj.escape_path_index_
          = ((solve_begin .breadth_first_search (fun n => 3 * n * n + 7 * n + 10)
        ((construct .randomized_depth_first .none .breadth_first_search .hunt 7 7
          (fun n => 3 * n * n + 7 * n + 10) 98).get (by decide!))).run
        (fun n => 3 * n * n + 7 * n + 10)
        (List.replicate 15 1 ++ List.replicate 9 0)).obj.escape_path_index_) :=
  ⟨by decide!,
    escape_path_index_written_once .breadth_first_search (fun n => 3 * n * n + 7 * n + 10)
      ((construct .randomized_depth_first .none .breadth_first_search .hunt 7 7
        (fun n => 3 * n * n + 7 * n + 10) 98).get (by decide!))
      (List.replicate 15 1 ++ List.replicate 9 0) 1 [1, 1, 1, 2, 3, 2, 3] (by decide!)⟩

/-! ## The claim step of the hunt agents -/

theorem thread_step_claim (gen : Nat → Nat) (obj : Thread_maze_object) (a : Thread_local)
    (hf : a.function = .dfs_thread_hunt ∨ a.function = .randomized_dfs_thread_hunt
      ∨ a.function = .bfs_thread_hunt)
    (hpc : a.pc = .claim) :
    (thread_step gen obj a).1 = (claim_escape obj a).1
      ∧ (thread_step gen obj a).2.result = (claim_escape obj a).2 := by
  unfold thread_step
  rcases hf with hf | hf | hf <;> rw [hf] <;> simp only []
  · unfold dfs_thread_hunt; rw [hpc]; exact ⟨rfl, rfl⟩
  · unfold randomized_dfs_thread_hunt; rw [hpc]; exact ⟨rfl, rfl⟩
  · unfold bfs_thread_hunt; rw [hpc]; exact ⟨rfl, rfl⟩

theorem claim_steps_keep (gen : Nat → Nat) (claimants : List Thread_local)
    (obj : Thread_maze_object)
    (hall : ∀ b ∈ claimants, (b.function = .dfs_thread_hunt
      ∨ b.function = .randomized_dfs_thread_hunt ∨ b.function = .bfs_thread_hunt)
      ∧ b.pc = .claim)
    (h : obj.escape_path_index_ ≠ -1) :
    (claimants.foldl (fun o b => (thread_step gen o b).1) obj).escape_path_index_
      = obj.escape_path_index_ := by
  induction claimants generalizing obj with
  | nil => rfl
  | cons b rest ih =>
    have hb := hall b (List.mem_cons_self _ _)
    have e : (thread_step gen obj b).1 = obj := by
      rw [(thread_step_claim gen obj b hb.1 hb.2).1]
      exact ((claim_escape_spec obj b).2 h).1
    rw [List.foldl_cons, e]
    exact ih obj (fun c hc => hall c (List.mem_cons_of_mem _ hc)) h

/-- C29: the claim step of a hunt agent (`dfs_thread_hunt`,
`randomized_dfs_thread_hunt`, `bfs_thread_hunt` at the critical section on a
finish cell) sets `result` to success exactly when `escape_path_index_` held -1
immediately before the step; it then stores the index of the agent, and
otherwise leaves the slot as it was.  Hence after this step and any further
sequence of claim steps of hunt agents the slot holds the index of the first
claimant. -/
theorem claim_step_first_claimant (gen : Nat → Nat) (obj : Thread_maze_object)
    (a : Thread_local) (claimants : List Thread_local)
    (hf : a.function = .dfs_thread_hunt ∨ a.function = .randomized_dfs_thread_hunt
      ∨ a.function = .bfs_thread_hunt)
    (hpc : a.pc = .claim)
    (hall : ∀ b ∈ claimants, (b.function = .dfs_thread_hunt
      ∨ b.function = .randomized_dfs_thread_hunt ∨ b.function = .bfs_thread_hunt)
      ∧ b.pc = .claim) :
    ((thread_step gen obj a).2.result = true ↔ obj.escape_path_index_ = -1)
      ∧ (thread_step gen obj a).1.escape_path_index_
          = (if obj.escape_path_index_ = -1 then (a.thread_index : Int)
              else obj.escape_path_index_)
      ∧ (obj.escape_path_index_ = -1 →
          (claimants.foldl (fun o b => (thread_step gen o b).1)
            (thread_step gen obj a).1).escape_path_index_ = a.thread_index) := by
  obtain ⟨e1, e2⟩ := thread_step_claim gen obj a hf hpc
  obtain ⟨s1, s2⟩ := claim_escape_spec obj a
  have key : (thread_step gen obj a).1.escape_path_index_
      = (if obj.escape_path_index_ = -1 then (a.thread_index : Int)
          else obj.escape_path_index_) := by
    rw [e1]
    split_ifs with h
    · exact (s1 h).1
    · rw [(s2 h).1]
  refine ⟨?_, key, fun h => ?_⟩
  · rw [e2]
    constructor
    · intro hr
      by_contra hn
      rw [(s2 hn).2] at hr
      exact absurd hr (by decide)
    · intro h; exact (s1 h).2
  · rw [claim_steps_keep gen claimants _ hall, key, if_pos h]
    rw [key, if_pos h]
    have : (0 : Int) ≤ a.thread_index := Int.ofNat_nonneg _
    omega

theorem claim_step_first_claimant_witness :
    ((thread_step (fun n => n)
        { builder_ := .arena, modification_ := .none, solver_ := .depth_first_search,
          game_ := .hunt, maze := blank 7 7, marks := {}, thread_paths_ := [[], [], [], []],
          escape_path_index_ := -1, pos := 0 }
        { spawn .dfs_thread_hunt ⟨1, 1⟩ 2 with pc := .claim }).2.result = true
        ↔ (-1 : Int) = -1)
      ∧ (thread_step (fun n => n)
        { builder_ := .arena, modification_ := .none, solver_ := .depth_first_search,
          game_ := .hunt, maze := blank 7 7, marks := {}, thread_paths_ := [[], [], [], []],
          escape_path_index_ := -1, pos := 0 }
        { spawn .dfs_thread_hunt ⟨1, 1⟩ 2 with pc := .claim }).1.escape_path_index_
          = (if (-1 : Int) = -1 then ((2 : Nat) : Int) else -1)
      ∧ ((-1 : Int) = -1 →
          ([{ spawn .bfs_thread_hunt ⟨1, 1⟩ 0 with pc := .claim }].foldl
            (fun o b => (thread_step (fun n => n) o b).1)
            (thread_step (fun n => n)
              { builder_ := .arena, modification_ := .none, solver_ := .depth_first_search,
                game_ := .hunt, maze := blank 7 7, marks := {},
                thread_paths_ := [[], [], [], []], escape_path_index_ := -1, pos := 0 }
              { spawn .dfs_thread_hunt ⟨1, 1⟩ 2 with pc := .claim }).1).escape_path_index_
            = ((2 : Nat) : Int)) :=
  claim_step_first_claimant (fun n => n)
    { builder_ := .arena, modification_ := .none, solver_ := .depth_first_search,
      game_ := .hunt, maze := blank 7 7, marks := {}, thread_paths_ := [[], [], [], []],
      escape_path_index_ := -1, pos := 0 }
    { spawn .dfs_thread_hunt ⟨1, 1⟩ 2 with pc := .claim }
    [{ spawn .bfs_thread_hunt ⟨1, 1⟩ 0 with pc := .claim }]
    (Or.inl rfl) rfl
    (fun b hb => by
      rw [List.mem_singleton] at hb
      subst hb
      exact ⟨Or.inr (Or.inr rfl), rfl⟩)

/-! ## The result of the gather agents -/

/-- C26 (the code at the failing input): in a depth first and in a breadth first
solve of a 7 by 7 gather maze, agent 0 runs alone.  It arrives at the finish
cell (5, 1) while no seen flag is set on it, claims it (its seen flag is on the
cell after the step, and the agent has left the search loop) and returns with
`result` false: `dfs_thread_gather` and `bfs_thread_gather` never assign
`result`.  The agent of `randomized_dfs_thread_gather` in the same situation
returns true. -/
theorem gather_claim_returns_false :
    (construct .randomized_depth_first .none .depth_first_search .gather 7 7
        (fun n => 2 * n * n + 7 * n + 5) 98).map
        (fun o => (((solve_begin .depth_first_search (fun n => 2 * n * n + 7 * n + 5) o).run
            (fun n => 2 * n * n + 7 * n + 5) (List.replicate 34 0)).threads.head?.map
            (fun a => (a.pc, a.dfs.head?, a.bfs.head?)),
          (((solve_begin .depth_first_search (fun n => 2 * n * n + 7 * n + 5) o).run
            (fun n => 2 * n * n + 7 * n + 5) (List.replicate 34 0)).obj.maze.maze_ 5 1).finish_bit,
          (((solve_begin .depth_first_search (fun n => 2 * n * n + 7 * n + 5) o).run
            (fun n => 2 * n * n + 7 * n + 5) (List.replicate 34 0)).obj.maze.maze_ 5 1).thread_cache))
      = some (some (.loop_head, some ⟨5, 1⟩, none), true, 0)
    ∧ (construct .randomized_depth_first .none .depth_first_search .gather 7 7
        (fun n => 2 * n * n + 7 * n + 5) 98).map
        (fun o => (((solve_begin .depth_first_search (fun n => 2 * n * n + 7 * n + 5) o).run
            (fun n => 2 * n * n + 7 * n + 5) (List.replicate 35 0)).threads.head?.map
            (fun a => a.pc),
          (((solve_begin .depth_first_search (fun n => 2 * n * n + 7 * n + 5) o).run
            (fun n => 2 * n * n + 7 * n + 5) (List.replicate 35 0)).obj.maze.maze_ 5 1).thread_cache))
      = some (some .unwind, 1)
    ∧ (construct .randomized_depth_first .none .depth_first_search .gather 7 7
        (fun n => 2 * n * n + 7 * n + 5) 98).map
        (fun o => ((solve_begin .depth_first_search (fun n => 2 * n * n + 7 * n + 5) o).run
            (fun n => 2 * n * n + 7 * n + 5) (List.replicate 40 0)).threads.head?.map
            (fun a => (a.pc, a.result)))
      = some (some (.returned, false))
    ∧ (construct .randomized_depth_first .none .breadth_first_search .gather 7 7
        (fun n => 2 * n * n + 7 * n + 5) 98).map
        (fun o => (((solve_begin .breadth_first_search (fun n => 2 * n * n + 7 * n + 5) o).run
            (fun n => 2 * n * n + 7 * n + 5) (List.replicate 36 0)).threads.head?.map
            (fun a => (a.pc, a.dfs.head?, a.bfs.head?)),
          (((solve_begin .breadth_first_search (fun n => 2 * n * n + 7 * n + 5) o).run
            (fun n => 2 * n * n + 7 * n + 5) (List.replicate 36 0)).obj.maze.maze_ 5 1).finish_bit,
          (((solve_begin .breadth_first_search (fun n => 2 * n * n + 7 * n + 5) o).run
            (fun n => 2 * n * n + 7 * n + 5) (List.replicate 36 0)).obj.maze.maze_ 5 1).thread_cache))
      = some (some (.loop_head, none, some ⟨5, 1⟩), true, 0)
    ∧ (construct .randomized_depth_first .none .breadth_first_search .gather 7 7
        (fun n => 2 * n * n + 7 * n + 5) 98).map
        (fun o => (((solve_begin .breadth_first_search (fun n => 2 * n * n + 7 * n + 5) o).run
            (fun n => 2 * n * n + 7 * n + 5) (List.replicate 37 0)).threads.head?.map
            (fun a => a.pc),
          (((solve_begin .breadth_first_search (fun n => 2 * n * n + 7 * n + 5) o).run
            (fun n => 2 * n * n + 7 * n + 5) (List.replicate 37 0)).obj.maze.maze_ 5 1).thread_cache))
      = some (some .unwind, 1)
    ∧ (construct .randomized_depth_first .none .breadth_first_search .gather 7 7
        (fun n => 2 * n * n + 7 * n + 5) 98).map
        (fun o => ((solve_begin .breadth_first_search (fun n => 2 * n * n + 7 * n + 5) o).run
            (fun n => 2 * n * n + 7 * n + 5) (List.replicate 43 0)).threads.head?.map
            (fun a => (a.pc, a.result)))
      = some (some (.returned, false))
    ∧ (construct .randomized_depth_first .none .randomized_depth_first_search .gather 7 7
        (fun n => 2 * n * n + 7 * n + 5) 98).map
        (fun o => (((solve_begin .randomized_depth_first_search (fun n => 2 * n * n + 7 * n + 5) o).run
            (fun n => 2 * n * n + 7 * n + 5) (List.replicate 30 0)).threads.head?.map
            (fun a => (a.pc, a.dfs.head?, a.bfs.head?)),
          (((solve_begin .randomized_depth_first_search (fun n => 2 * n * n + 7 * n + 5) o).run
            (fun n => 2 * n * n + 7 * n + 5) (List.replicate 30 0)).obj.maze.maze_ 5 1).finish_bit,
          (((solve_begin .randomized_depth_first_search (fun n => 2 * n * n + 7 * n + 5) o).run
            (fun n => 2 * n * n + 7 * n + 5) (List.replicate 30 0)).obj.maze.maze_ 5 1).thread_cache))
      = some (some (.loop_head, some ⟨5, 1⟩, none), true, 0)
    ∧ (construct .randomized_depth_first .none .randomized_depth_first_search .gather 7 7
        (fun n => 2 * n * n + 7 * n + 5) 98).map
        (fun o => (((solve_begin .randomized_depth_first_search (fun n => 2 * n * n + 7 * n + 5) o).run
            (fun n => 2 * n * n + 7 * n + 5) (List.replicate 31 0)).threads.head?.map
            (fun a => a.pc),
          (((solve_begin .randomized_depth_first_search (fun n => 2 * n * n + 7 * n + 5) o).run
            (fun n => 2 * n * n + 7 * n + 5) (List.replicate 31 0)).obj.maze.maze_ 5 1).thread_cache))
      = some (some .unwind, 1)
    ∧ (construct .randomized_depth_first .none .randomized_depth_first_search .gather 7 7
        (fun n => 2 * n * n + 7 * n + 5) 98).map
        (fun o => ((solve_begin .randomized_depth_first_search (fun n => 2 * n * n + 7 * n + 5) o).run
            (fun n => 2 * n * n + 7 * n + 5) (List.replicate 36 0)).threads.head?.map
            (fun a => (a.pc, a.result)))
      = some (some (.returned, true)) := by
  refine ⟨?_, ?_, ?_, ?_, ?_, ?_, ?_, ?_, ?_⟩ <;> decide!

/-! ## What a step of an agent does to the shared grid -/

theorem dfs_probe_ident (obj : Thread_maze_object) (a : Thread_local) :
    (dfs_probe obj a).2.paint = a.paint ∧ (dfs_probe obj a).2.start = a.start := by
  unfold dfs_probe
  split
  · exact ⟨rfl, rfl⟩
  · simp only []
    split_ifs <;> exact ⟨rfl, rfl⟩

theorem bfs_probe_ident (obj : Thread_maze_object) (a : Thread_local) :
    (bfs_probe obj a).2.paint = a.paint ∧ (bfs_probe obj a).2.start = a.start := by
  unfold bfs_probe
  split
  · exact ⟨rfl, rfl⟩
  · simp only []
    split_ifs <;> exact ⟨rfl, rfl⟩

theorem dfs_unwind_ident (obj : Thread_maze_object) (a : Thread_local) :
    (dfs_unwind obj a).2.paint = a.paint ∧ (dfs_unwind obj a).2.start = a.start := by
  unfold dfs_unwind
  split <;> exact ⟨rfl, rfl⟩

theorem seen_at_ident (a : Thread_local) :
    (seen_at a).paint = a.paint ∧ (seen_at a).start = a.start := by
  unfold seen_at
  split <;> exact ⟨rfl, rfl⟩

/-- No step changes the paint flag or the start of the agent. -/
theorem thread_step_ident (gen : Nat → Nat) (obj : Thread_maze_object) (a : Thread_local) :
    (thread_step gen obj a).2.paint = a.paint ∧ (thread_step gen obj a).2.start = a.start := by
  unfold thread_step
  split
  · unfold dfs_thread_hunt
    split
    · split
      · exact ⟨rfl, rfl⟩
      · split_ifs <;> exact ⟨rfl, rfl⟩
    · exact ⟨rfl, rfl⟩
    · exact ⟨rfl, rfl⟩
    · exact dfs_probe_ident obj a
    · exact dfs_unwind_ident obj a
    · exact ⟨rfl, rfl⟩
  · unfold randomized_dfs_thread_hunt
    split
    · split
      · exact ⟨rfl, rfl⟩
      · split_ifs <;> exact ⟨rfl, rfl⟩
    · exact ⟨rfl, rfl⟩
    · exact ⟨rfl, rfl⟩
    · exact dfs_probe_ident obj a
    · exact dfs_unwind_ident obj a
    · exact ⟨rfl, rfl⟩
  · unfold dfs_thread_gather
    split
    · split
      · exact ⟨rfl, rfl⟩
      · split_ifs <;> exact ⟨rfl, rfl⟩
    · exact dfs_probe_ident obj a
    · exact dfs_unwind_ident obj a
    · exact ⟨rfl, rfl⟩
  · unfold randomized_dfs_thread_gather
    split
    · split
      · exact ⟨rfl, rfl⟩
      · split_ifs <;> exact ⟨rfl, rfl⟩
    · exact dfs_probe_ident obj a
    · exact dfs_unwind_ident obj a
    · exact ⟨rfl, rfl⟩
  · unfold bfs_thread_hunt
    split
    · split
      · exact ⟨rfl, rfl⟩
      · split_ifs <;> exact ⟨rfl, rfl⟩
    · exact ⟨rfl, rfl⟩
    · exact ⟨rfl, rfl⟩
    · exact bfs_probe_ident obj a
    · exact seen_at_ident a
    · split_ifs
      · exact seen_at_ident a
      · exact ⟨rfl, rfl⟩
    · exact ⟨rfl, rfl⟩
  · unfold bfs_thread_gather
    split
    · split
      · exact ⟨rfl, rfl⟩
      · split_ifs <;> exact ⟨rfl, rfl⟩
    · exact bfs_probe_ident obj a
    · exact seen_at_ident a
    · split_ifs
      · exact seen_at_ident a
      · exact ⟨rfl, rfl⟩
    · exact ⟨rfl, rfl⟩


theorem cell_step_refl (paint : Nat) (s : Square) : Cell_step paint s s := Or.inl rfl

theorem maze_step_refl (paint : Nat) (m : Maze) : Maze_step paint m m :=
  ⟨rfl, rfl, fun _ _ => Or.inl rfl⟩

theorem or_seen_step (m : Maze) (p : Point) (paint : Nat) : Maze_step paint m (or_seen m p paint) := by
  refine ⟨rfl, rfl, fun r c => ?_⟩
  unfold or_seen
  rw [modify_get]
  split_ifs
  · exact Or.inr (Or.inl rfl)
  · exact Or.inl rfl

theorem or_paint_step (m : Maze) (p : Point) (paint : Nat) :
    Maze_step paint m (or_paint m p paint) := by
  refine ⟨rfl, rfl, fun r c => ?_⟩
  unfold or_paint
  rw [modify_get]
  split_ifs
  · exact Or.inr (Or.inr (Or.inl rfl))
  · exact Or.inl rfl

theorem or_seen_or_paint_step (m : Maze) (p : Point) (paint : Nat) :
    Maze_step paint m (or_seen (or_paint m p paint) p paint) := by
  refine ⟨rfl, rfl, fun r c => ?_⟩
  unfold or_seen or_paint
  rw [modify_get, modify_get]
  split_ifs
  · exact Or.inr (Or.inr (Or.inr rfl))
  · exact Or.inl rfl

theorem dfs_unwind_maze (obj : Thread_maze_object) (a : Thread_local) :
    Maze_step a.paint obj.maze (dfs_unwind obj a).1.maze := by
  unfold dfs_unwind
  split
  · exact maze_step_refl _ _
  · exact or_paint_step _ _ _

/-- Every step of an agent leaves the grid as `Maze_step` allows: the extents and
the structural flags of every cell stay, and the seen and paint fields only gain
flags of the stepping agent. -/
theorem thread_step_maze (gen : Nat → Nat) (obj : Thread_maze_object) (a : Thread_local) :
    Maze_step a.paint obj.maze (thread_step gen obj a).1.maze := by
  unfold thread_step
  split
  · unfold dfs_thread_hunt
    split
    · split
      · exact maze_step_refl _ _
      · split_ifs <;> exact maze_step_refl _ _
    · unfold claim_escape; simp only []; split_ifs <;> exact maze_step_refl _ _
    · exact or_seen_step _ _ _
    · rw [(dfs_probe_frame obj a).1]; exact maze_step_refl _ _
    · exact dfs_unwind_maze obj a
    · exact maze_step_refl _ _
  · unfold randomized_dfs_thread_hunt
    split
    · split
      · exact maze_step_refl _ _
      · split_ifs <;> exact maze_step_refl _ _
    · unfold claim_escape; simp only []; split_ifs <;> exact maze_step_refl _ _
    · exact or_seen_step _ _ _
    · rw [(dfs_probe_frame obj a).1]; exact maze_step_refl _ _
    · exact dfs_unwind_maze obj a
    · exact maze_step_refl _ _
  · unfold dfs_thread_gather
    split
    · split
      · exact maze_step_refl _ _
      · split_ifs <;> exact or_seen_step _ _ _
    · rw [(dfs_probe_frame obj a).1]; exact maze_step_refl _ _
    · exact dfs_unwind_maze obj a
    · exact maze_step_refl _ _
  · unfold randomized_dfs_thread_gather
    split
    · split
      · exact maze_step_refl _ _
      · split_ifs <;> exact or_seen_step _ _ _
    · rw [(dfs_probe_frame obj a).1]; exact maze_step_refl _ _
    · exact dfs_unwind_maze obj a
    · exact maze_step_refl _ _
  · unfold bfs_thread_hunt
    split
    · split
      · exact maze_step_refl _ _
      · split_ifs <;> exact maze_step_refl _ _
    · unfold claim_escape; simp only []; split_ifs <;> exact maze_step_refl _ _
    · exact or_paint_step _ _ _
    · rw [(bfs_probe_frame obj a).1]; exact maze_step_refl _ _
    · exact maze_step_refl _ _
    · split_ifs <;> exact maze_step_refl _ _
    · exact maze_step_refl _ _
  · unfold bfs_thread_gather
    split
    · split
      · exact maze_step_refl _ _
      · split_ifs
        · exact or_seen_step _ _ _
        · exact or_seen_or_paint_step _ _ _
    · rw [(bfs_probe_frame obj a).1]; exact maze_step_refl _ _
    · exact maze_step_refl _ _
    · split_ifs <;> exact maze_step_refl _ _
    · exact maze_step_refl _ _

theorem cell_step_static (paint : Nat) (s t : Square) (h : Cell_step paint s t) :
    t.path_bit = s.path_bit ∧ t.finish_bit = s.finish_bit ∧ t.start_bit = s.start_bit := by
  rcases h with rfl | rfl | rfl | rfl <;> exact ⟨rfl, rfl, rfl⟩

theorem cell_step_cache (paint : Nat) (s t : Square) (h : Cell_step paint s t) :
    t.thread_cache = s.thread_cache ∨ t.thread_cache = s.thread_cache ||| paint := by
  rcases h with rfl | rfl | rfl | rfl
  · exact Or.inl rfl
  · exact Or.inr rfl
  · exact Or.inl rfl
  · exact Or.inr rfl

theorem or_eq_zero_left (x y : Nat) (h : x ||| y = 0) : x = 0 := by
  apply Nat.eq_of_testBit_eq
  intro i
  have h1 := congrArg (fun n => n.testBit i) h
  simp only [Nat.testBit_or, Nat.zero_testBit, Bool.or_eq_false_iff] at h1
  rw [h1.1, Nat.zero_testBit]

theorem cell_step_cache_ne (paint : Nat) (s t : Square) (h : Cell_step paint s t)
    (h0 : s.thread_cache ≠ 0) : t.thread_cache ≠ 0 := by
  rcases cell_step_cache paint s t h with e | e <;> rw [e]
  · exact h0
  · intro h1
    exact h0 (or_eq_zero_left _ _ h1)

theorem step_cache_ne (gen : Nat → Nat) (s : Solve_state) (i : Nat) (r c : Int)
    (h0 : (s.obj.maze.maze_ r c).thread_cache ≠ 0) :
    ((s.step gen i).obj.maze.maze_ r c).thread_cache ≠ 0 := by
  unfold Solve_state.step
  split
  · exact h0
  · rename_i a _
    exact cell_step_cache_ne a.paint _ _ ((thread_step_maze gen s.obj a).2.2 r c) h0

theorem run_cache_ne (gen : Nat → Nat) (schedule : List Nat) (s : Solve_state) (r c : Int)
    (h0 : (s.obj.maze.maze_ r c).thread_cache ≠ 0) :
    ((s.run gen schedule).obj.maze.maze_ r c).thread_cache ≠ 0 := by
  induction schedule generalizing s with
  | nil => exact h0
  | cons i rest ih => exact ih (s.step gen i) (step_cache_ne gen s i r c h0)

theorem thread_masks_ne_zero (i : Nat) : thread_masks_ i ≠ 0 := by
  unfold thread_masks_
  exact Nat.pos_iff_ne_zero.mp (Nat.two_pow_pos i)

theorem spawn_indexed (function : Thread_function) (start : Point) (thread_index : Nat) :
    (spawn function start thread_index).thread_index = thread_index
      ∧ (spawn function start thread_index).paint = thread_masks_ thread_index := by
  unfold spawn
  split <;> exact ⟨rfl, rfl⟩

theorem solve_begin_indexed (solver : Solver_algorithm) (gen : Nat → Nat)
    (obj : Thread_maze_object) : (solve_begin solver gen obj).indexed := by
  intro i a ha
  unfold solve_begin at ha
  simp only [] at ha
  split at ha <;> simp only [List.get?_eq_getElem?, List.getElem?_map, Option.map_eq_some',
    List.getElem?_range] at ha
  all_goals
    obtain ⟨k, hk, rfl⟩ := ha
    have hk2 : k = i := by
      rw [List.getElem?_eq_some] at hk
      obtain ⟨_, hk⟩ := hk
      simpa using hk.symm
    subst hk2
    exact spawn_indexed _ _ _

theorem step_indexed (gen : Nat → Nat) (s : Solve_state) (i : Nat) (h : s.indexed) :
    (s.step gen i).indexed := by
  unfold Solve_state.step
  cases ha : s.threads.get? i with
  | none => exact h
  | some a =>
    intro j b hb
    simp only [List.get?_eq_getElem?] at hb ha
    by_cases e : i = j
    · subst e
      have hlt : i < s.threads.length := (List.getElem?_eq_some.mp ha).1
      rw [List.getElem?_set_self hlt] at hb
      simp only [Option.some.injEq] at hb
      subst hb
      rw [(thread_step_function gen s.obj a).2, (thread_step_ident gen s.obj a).1]
      exact h i a (by simpa using ha)
    · rw [List.getElem?_set_ne e] at hb
      exact h j b (by simpa using hb)

theorem run_indexed (gen : Nat → Nat) (schedule : List Nat) (s : Solve_state) (h : s.indexed) :
    (s.run gen schedule).indexed := by
  induction schedule generalizing s with
  | nil => exact h
  | cons i rest ih => exact ih (s.step gen i) (step_indexed gen s i h)

/-! ## Gather: a finish cell is claimed once -/

/-- The head of the search loop of a gather agent whose top (or front) is `p`:
the step claims `p` when it carries the finish flag and no seen flag, and then
leaves the loop with the agent's seen flag on `p`; otherwise it marks `p` and
goes on to the neighbour loop. -/
theorem gather_loop_head (gen : Nat → Nat) (obj : Thread_maze_object) (a : Thread_local)
    (p : Point) (hpc : a.pc = .loop_head)
    (hf : (a.function = .dfs_thread_gather ∧ a.dfs.head? = some p)
      ∨ (a.function = .randomized_dfs_thread_gather ∧ a.dfs.head? = some p)
      ∨ (a.function = .bfs_thread_gather ∧ a.bfs.head? = some p)) :
    (((obj.maze.maze_ p.row p.col).finish_bit = true
        ∧ (obj.maze.maze_ p.row p.col).thread_cache = 0) →
      (thread_step gen obj a).2.pc = .unwind
        ∧ ((thread_step gen obj a).1.maze.maze_ p.row p.col).thread_cache = a.paint)
    ∧ (¬ ((obj.maze.maze_ p.row p.col).finish_bit = true
        ∧ (obj.maze.maze_ p.row p.col).thread_cache = 0) →
      (thread_step gen obj a).2.pc = .probe) := by
  have hcache : ∀ m : Maze, (m.maze_ p.row p.col).thread_cache = 0 →
      ((or_seen m p a.paint).maze_ p.row p.col).thread_cache = a.paint := by
    intro m h0
    unfold or_seen
    rw [modify_get, if_pos ⟨rfl, rfl⟩]
    simp only [h0, Nat.zero_or]
  unfold thread_step
  rcases hf with ⟨hf, ht⟩ | ⟨hf, ht⟩ | ⟨hf, ht⟩ <;> rw [hf] <;> simp only []
  · unfold dfs_thread_gather
    rw [hpc]
    simp only []
    cases hd : a.dfs with
    | nil => rw [hd] at ht; exact absurd ht (by simp)
    | cons top rest =>
      rw [hd] at ht
      simp only [List.head?_cons, Option.some.injEq] at ht
      subst ht
      simp only []
      constructor
      · intro h
        rw [if_pos (by simp [h.1, h.2])]
        exact ⟨rfl, hcache _ h.2⟩
      · intro h
        rw [if_neg (by simpa using h)]
  · unfold randomized_dfs_thread_gather
    rw [hpc]
    simp only []
    cases hd : a.dfs with
    | nil => rw [hd] at ht; exact absurd ht (by simp)
    | cons top rest =>
      rw [hd] at ht
      simp only [List.head?_cons, Option.some.injEq] at ht
      subst ht
      simp only []
      constructor
      · intro h
        rw [if_pos (by simp [h.1, h.2])]
        exact ⟨rfl, hcache _ h.2⟩
      · intro h
        rw [if_neg (by simpa using h)]
  · unfold bfs_thread_gather
    rw [hpc]
    simp only []
    cases hd : a.bfs with
    | nil => rw [hd] at ht; exact absurd ht (by simp)
    | cons top rest =>
      rw [hd] at ht
      simp only [List.head?_cons, Option.some.injEq] at ht
      subst ht
      simp only []
      constructor
      · intro h
        rw [if_pos (by simp [h.1, h.2])]
        exact ⟨rfl, hcache _ h.2⟩
      · intro h
        rw [if_neg (by simpa using h)]

theorem step_get (gen : Nat → Nat) (s : Solve_state) (i : Nat) (a : Thread_local)
    (ha : s.threads.get? i = some a) :
    (s.step gen i).obj = (thread_step gen s.obj a).1
      ∧ (s.step gen i).threads.get? i = some (thread_step gen s.obj a).2 := by
  unfold Solve_state.step
  rw [ha]
  refine ⟨rfl, ?_⟩
  simp only [List.get?_eq_getElem?] at ha ⊢
  exact List.getElem?_set_self (List.getElem?_eq_some.mp ha).1

/-- C25: in a gather solve, at every point of every interleaving (the schedule
`before`), when the next step of agent `i` is a claim on the finish cell `p`
(no seen flag of any agent is on `p`): the step sets the seen flag of agent `i`
on `p` and takes the agent out of its search loop, and after it, along every
further interleaving (the schedule `between`), no step of any agent `j` is a
claim on `p`; an agent that arrives at `p` marks it and goes on searching. -/
theorem gather_goal_claimed_once (solver : Solver_algorithm) (gen : Nat → Nat)
    (obj : Thread_maze_object) (before : List Nat) (i : Nat) (p : Point)
    (between : List Nat) (j : Nat)
    (h : ((solve_begin solver gen obj).run gen before).claims i p) :
    ((((solve_begin solver gen obj).run gen before).step gen i).obj.maze.maze_
        p.row p.col).thread_cache = thread_masks_ i
      ∧ ((((solve_begin solver gen obj).run gen before).step gen i).threads.get? i).map
          (fun a => a.pc) = some .unwind
      ∧ ¬ ((((solve_begin solver gen obj).run gen before).step gen i).run gen between).claims j p
      ∧ ∀ b, ((((solve_begin solver gen obj).run gen before).step gen i).run gen
            between).threads.get? j = some b →
          b.pc = .loop_head →
          ((b.function = .dfs_thread_gather ∧ b.dfs.head? = some p)
            ∨ (b.function = .randomized_dfs_thread_gather ∧ b.dfs.head? = some p)
            ∨ (b.function = .bfs_thread_gather ∧ b.bfs.head? = some p)) →
          ((((((solve_begin solver gen obj).run gen before).step gen i).run gen
            between).step gen j).threads.get? j).map (fun a => a.pc) = some .probe := by
  have hidx := run_indexed gen before _ (solve_begin_indexed solver gen obj)
  generalize (solve_begin solver gen obj).run gen before = s at h hidx ⊢
  unfold Solve_state.claims at h
  cases ha : s.threads.get? i with
  | none => rw [ha] at h; exact absurd h id
  | some a =>
    rw [ha] at h
    simp only [] at h
    obtain ⟨hpc, hf, hfin, hc⟩ := h
    obtain ⟨e1, e2⟩ := step_get gen s i a ha
    obtain ⟨c1, c2⟩ := (gather_loop_head gen s.obj a p hpc hf).1 ⟨hfin, hc⟩
    have hcache : ((s.step gen i).obj.maze.maze_ p.row p.col).thread_cache = thread_masks_ i := by
      rw [e1, c2]; exact (hidx i a ha).2
    have hne := run_cache_ne gen between (s.step gen i) p.row p.col
      (by rw [hcache]; exact thread_masks_ne_zero i)
    refine ⟨hcache, by rw [e2]; simp only [Option.map_some', c1], ?_, ?_⟩
    · intro hcl
      unfold Solve_state.claims at hcl
      split at hcl
      · exact hcl
      · exact hne hcl.2.2.2
    · intro b hb hbpc hbf
      rw [(step_get gen _ j b hb).2]
      simp only [Option.map_some', Option.some.injEq]
      exact (gather_loop_head gen _ b p hbpc hbf).2 (fun hh => hne hh.2)

theorem gather_goal_claimed_once_witness :
    ((solve_begin .depth_first_search (fun n => 2 * n * n + 7 * n + 5)
        ((construct .randomized_depth_first .none .depth_first_search .gather 7 7
          (fun n => 2 * n * n + 7 * n + 5) 98).get (by decide!))).run
        (fun n => 2 * n * n + 7 * n + 5) (List.replicate 34 0)).claims 0 ⟨5, 1⟩
    ∧ ((((solve_begin .depth_first_search (fun n => 2 * n * n + 7 * n + 5)
        ((construct .randomized_depth_first .none .depth_first_search .gather 7 7
          (fun n => 2 * n * n + 7 * n + 5) 98).get (by decide!))).run
        (fun n => 2 * n * n + 7 * n + 5) (List.replicate 34 0)).step
        (fun n => 2 * n * n + 7 * n + 5) 0).obj.maze.maze_
        (⟨5, 1⟩ : Point).row (⟨5, 1⟩ : Point).col).thread_cache = thread_masks_ 0
      ∧ ((((solve_begin .depth_first_search (fun n => 2 * n * n + 7 * n + 5)
        ((construct .randomized_depth_first .none .depth_first_search .gather 7 7
          (fun n => 2 * n * n + 7 * n + 5) 98).get (by decide!))).run
        (fun n => 2 * n * n + 7 * n + 5) (List.replicate 34 0)).step
        (fun n => 2 * n * n + 7 * n + 5) 0).threads.get? 0).map
          (fun a => a.pc) = some .unwind
      ∧ ¬ ((((solve_begin .depth_first_search (fun n => 2 * n * n + 7 * n + 5)
        ((construct .randomized_depth_first .none .depth_first_search .gather 7 7
          (fun n => 2 * n * n + 7 * n + 5) 98).get (by decide!))).run
        (fun n => 2 * n * n + 7 * n + 5) (List.replicate 34 0)).step
        (fun n => 2 * n * n + 7 * n + 5) 0).run
        (fun n => 2 * n * n + 7 * n + 5) (List.replicate 6 0 ++ List.replicate 30 1)).claims 1 ⟨5, 1⟩
      ∧ ∀ b, ((((solve_begin .depth_first_search (fun n => 2 * n * n + 7 * n + 5)
        ((construct .randomized_depth_first .none .depth_first_search .gather 7 7
          (fun n => 2 * n * n + 7 * n + 5) 98).get (by decide!))).run
        (fun n => 2 * n * n + 7 * n + 5) (List.replicate 34 0)).step
        (fun n => 2 * n * n + 7 * n + 5) 0).run
        (fun n => 2 * n * n + 7 * n + 5) (List.replicate 6 0 ++ List.replicate 30 1)).threads.get? 1 = some b →
          b.pc = .loop_head →
          ((b.function = .dfs_thread_gather ∧ b.dfs.head? = some ⟨5, 1⟩)
            ∨ (b.function = .randomized_dfs_thread_gather ∧ b.dfs.head? = some ⟨5, 1⟩)
            ∨ (b.function = .bfs_thread_gather ∧ b.bfs.head? = some ⟨5, 1⟩)) →
          ((((((solve_begin .depth_first_search (fun n => 2 * n * n + 7 * n + 5)
        ((construct .randomized_depth_first .none .depth_first_search .gather 7 7
          (fun n => 2 * n * n + 7 * n + 5) 98).get (by decide!))).run
        (fun n => 2 * n * n + 7 * n + 5) (List.replicate 34 0)).step
        (fun n => 2 * n * n + 7 * n + 5) 0).run
        (fun n => 2 * n * n + 7 * n + 5) (List.replicate 6 0 ++ List.replicate 30 1)).step
            (fun n => 2 * n * n + 7 * n + 5) 1).threads.get? 1).map (fun a => a.pc) = some .probe :=
  ⟨by decide!,
    gather_goal_claimed_once .depth_first_search (fun n => 2 * n * n + 7 * n + 5)
      ((construct .randomized_depth_first .none .depth_first_search .gather 7 7
          (fun n => 2 * n * n + 7 * n + 5) 98).get (by decide!))
      (List.replicate 34 0) 0 ⟨5, 1⟩ (List.replicate 6 0 ++ List.replicate 30 1) 1
      (by decide!)⟩

/-! ## The stack of a depth first agent is a route -/

theorem and_ne_zero_mono (x q p : Nat) (h : x &&& p ≠ 0) : (x ||| q) &&& p ≠ 0 := by
  intro h0
  apply h
  apply Nat.eq_of_testBit_eq
  intro i
  have h1 := congrArg (fun n => n.testBit i) h0
  simp only [Nat.testBit_and, Nat.testBit_or, Nat.zero_testBit] at h1
  rw [Nat.testBit_and, Nat.zero_testBit]
  cases hx : x.testBit i <;> cases hp : p.testBit i <;> simp_all

theorem or_and_self (x p : Nat) : (x ||| p) &&& p = p := by
  apply Nat.eq_of_testBit_eq
  intro i
  rw [Nat.testBit_and, Nat.testBit_or]
  cases x.testBit i <;> cases p.testBit i <;> rfl

theorem cell_step_seen (paint own : Nat) (s t : Square) (h : Cell_step paint s t)
    (h0 : s.thread_cache &&& own ≠ 0) : t.thread_cache &&& own ≠ 0 := by
  rcases cell_step_cache paint s t h with e | e <;> rw [e]
  · exact h0
  · exact and_ne_zero_mono _ _ _ h0

theorem maze_step_seen (paint own : Nat) (m m1 : Maze) (h : Maze_step paint m m1) (p : Point)
    (h0 : m.seen_by p own = true) : m1.seen_by p own = true := by
  unfold Maze.seen_by at h0 ⊢
  simp only [decide_eq_true_eq] at h0 ⊢
  exact cell_step_seen paint own _ _ (h.2.2 p.row p.col) h0

theorem maze_step_path (paint : Nat) (m m1 : Maze) (h : Maze_step paint m m1) (r c : Int) :
    m1.path r c = m.path r c := by
  unfold Maze.path
  exact (cell_step_static paint _ _ (h.2.2 r c)).1

theorem maze_step_finish (paint : Nat) (m m1 : Maze) (h : Maze_step paint m m1) (r c : Int) :
    (m1.maze_ r c).finish_bit = (m.maze_ r c).finish_bit :=
  (cell_step_static paint _ _ (h.2.2 r c)).2.1

theorem or_seen_seen (m : Maze) (p : Point) (paint : Nat) (hp : paint ≠ 0) :
    (or_seen m p paint).seen_by p paint = true := by
  unfold Maze.seen_by or_seen
  rw [modify_get, if_pos ⟨rfl, rfl⟩]
  simp only [decide_eq_true_eq]
  rw [or_and_self]
  exact hp

theorem route_sizes (m m1 : Maze) (start : Point) (stack : List Point)
    (h : ∀ r c, m1.path r c = m.path r c) (hr : m.route start stack) :
    m1.route start stack :=
  ⟨hr.1, hr.2.1, fun p hp => by rw [h]; exact hr.2.2.1 p hp, hr.2.2.2⟩

theorem route_single (m : Maze) (start : Point) : m.route start [start] :=
  ⟨rfl, List.chain'_singleton _, fun _ hp => by simp at hp, List.nodup_singleton _⟩

theorem route_tail (m : Maze) (start p : Point) (rest : List Point)
    (h : m.route start (p :: rest)) : rest = [] ∨ m.route start rest := by
  cases rest with
  | nil => exact Or.inl rfl
  | cons q rest =>
    right
    obtain ⟨h1, h2, h3, h4⟩ := h
    refine ⟨by simpa [List.getLast?_cons_cons] using h1, (List.chain'_cons.mp h2).2, ?_,
      (List.nodup_cons.mp h4).2⟩
    intro x hx
    apply h3
    rw [List.dropLast_cons₂]
    exact List.mem_cons_of_mem _ hx

theorem route_push (m : Maze) (start next q : Point) (rest : List Point)
    (h : m.route start (q :: rest)) (hadj : q.adjacent next)
    (hpath : m.path next.row next.col = true) (hnew : next ∉ q :: rest) :
    m.route start (next :: q :: rest) := by
  obtain ⟨h1, h2, h3, h4⟩ := h
  refine ⟨by simpa [List.getLast?_cons_cons] using h1, List.chain'_cons.mpr ⟨hadj, h2⟩, ?_,
    List.nodup_cons.mpr ⟨hnew, h4⟩⟩
  intro x hx
  rw [List.dropLast_cons₂] at hx
  rcases List.mem_cons.mp hx with rfl | hx
  · exact hpath
  · exact h3 x hx

/-- The invariant of a depth first agent survives the steps of the other agents:
they change no passage flag and clear no seen flag. -/
theorem dfs_agent_inv_stable (paint : Nat) (m m1 : Maze) (a : Thread_local)
    (h : Maze_step paint m m1) (hi : Dfs_agent_inv m a) : Dfs_agent_inv m1 a :=
  { route := hi.route.imp id (route_sizes m m1 _ _ (maze_step_path paint m m1 h))
    below := fun p hp => maze_step_seen paint _ m m1 h p (hi.below p hp)
    top := hi.top
    marked := fun hpc => maze_step_seen paint _ m m1 h _ (hi.marked hpc) }

theorem dfs_inv_same (m : Maze) (a b : Thread_local) (hi : Dfs_agent_inv m a)
    (hd : b.dfs = a.dfs) (hs : b.start = a.start) (hp : b.paint = a.paint)
    (htop : b.pc = .mark ∨ b.pc = .claim ∨ b.pc = .probe → b.dfs.head? = some b.cur)
    (hm : b.pc = .probe → m.seen_by b.cur b.paint = true) : Dfs_agent_inv m b :=
  { route := by rw [hd, hs]; exact hi.route
    below := by rw [hd, hp]; exact hi.below
    top := htop
    marked := hm }

theorem dfs_inv_pop (m : Maze) (a b : Thread_local) (hi : Dfs_agent_inv m a)
    (hd : b.dfs = a.dfs.tail) (hs : b.start = a.start) (hp : b.paint = a.paint)
    (hpc : b.pc = .loop_head ∨ b.pc = .unwind) : Dfs_agent_inv m b :=
  { route := by
      rw [hd, hs]
      rcases hi.route with e | hr
      · left; rw [e]; rfl
      · cases hd2 : a.dfs with
        | nil => left; rfl
        | cons p rest => rw [hd2] at hr; exact route_tail m _ p rest hr
    below := by
      rw [hd, hp]
      intro p hp2
      exact hi.below p (List.mem_of_mem_tail hp2)
    top := by
      intro h
      rcases hpc with e | e <;> rw [e] at h <;> exact absurd h (by decide)
    marked := by
      intro h
      rcases hpc with e | e <;> rw [e] at h <;> exact absurd h (by decide) }

theorem step_zero (p : Point) : p.step ⟨0, 0⟩ = p := by
  unfold Point.step
  simp

theorem cardinal_getD (i : Nat) :
    cardinal_directions_.getD i ⟨0, 0⟩ ∈ cardinal_directions_
      ∨ cardinal_directions_.getD i ⟨0, 0⟩ = ⟨0, 0⟩ := by
  match i with
  | 0 | 1 | 2 | 3 => left; decide
  | _ + 4 => right; rfl

theorem dfs_probe_inv (obj : Thread_maze_object) (a : Thread_local)
    (hpc : a.pc = .probe) (hi : Dfs_agent_inv obj.maze a) :
    Dfs_agent_inv (dfs_probe obj a).1.maze (dfs_probe obj a).2 := by
  rw [(dfs_probe_frame obj a).1]
  have htop := hi.top (Or.inr (Or.inr hpc))
  have hseen := hi.marked hpc
  unfold dfs_probe
  split
  · exact dfs_inv_pop _ a _ hi rfl rfl rfl (Or.inl rfl)
  · rename_i i rest _
    simp only []
    split_ifs with hc
    · simp only [Bool.and_eq_true, Bool.not_eq_true', ] at hc
      obtain ⟨hns, hpath⟩ := hc
      cases hd : a.dfs with
      | nil => rw [hd] at htop; exact absurd htop (by simp)
      | cons q t =>
        rw [hd] at htop
        simp only [List.head?_cons, Option.some.injEq] at htop
        subst htop
        have hroute : obj.maze.route a.start (a.cur :: t) := by
          rcases hi.route with e | hr
          · rw [hd] at e; exact absurd e (by simp)
          · rw [hd] at hr; exact hr
        have hadj : a.cur.adjacent (a.cur.step (cardinal_directions_.getD i ⟨0, 0⟩)) := by
          rcases cardinal_getD i with h | h
          · exact ⟨_, h, rfl⟩
          · rw [h, step_zero] at hns
            rw [hns] at hseen
            exact absurd hseen (by decide)
        have hnew : a.cur.step (cardinal_directions_.getD i ⟨0, 0⟩) ∉ a.cur :: t := by
          intro hmem
          rcases List.mem_cons.mp hmem with e | hmem
          · rw [e, hseen] at hns; exact absurd hns (by decide)
          · have := hi.below _ (by rw [hd]; exact hmem)
            rw [this] at hns
            exact absurd hns (by decide)
        exact
          { route := Or.inr (route_push _ _ _ _ _ hroute hadj hpath hnew)
            below := by
              intro p hp
              simp only [List.tail_cons] at hp
              rcases List.mem_cons.mp hp with rfl | hp
              · exact hseen
              · exact hi.below p (by rw [hd]; exact hp)
            top := fun h => by simp at h
            marked := fun h => by simp at h }
    · exact dfs_inv_same _ a _ hi rfl rfl rfl (fun _ => htop) (fun _ => hseen)

theorem dfs_unwind_inv (obj : Thread_maze_object) (a : Thread_local)
    (hpc : a.pc = .unwind) (hi : Dfs_agent_inv obj.maze a) :
    Dfs_agent_inv (dfs_unwind obj a).1.maze (dfs_unwind obj a).2 := by
  have hi2 := dfs_agent_inv_stable a.paint _ _ a (dfs_unwind_maze obj a) hi
  revert hi2
  unfold dfs_unwind
  split
  · intro hi2
    exact dfs_inv_same _ a _ hi2 rfl rfl rfl (fun h => by simp at h)
      (fun h => by simp at h)
  · rename_i cur rest hd
    intro hi2
    exact dfs_inv_pop _ a _ hi2 (by rw [hd]; rfl) rfl rfl (Or.inr hpc)

theorem claim_escape_maze (obj : Thread_maze_object) (a : Thread_local) :
    (claim_escape obj a).1.maze = obj.maze := by
  unfold claim_escape
  simp only []
  split_ifs <;> rfl

theorem dfs_thread_hunt_inv (obj : Thread_maze_object) (a : Thread_local) (hp : a.paint ≠ 0)
    (hi : Dfs_agent_inv obj.maze a) :
    Dfs_agent_inv (dfs_thread_hunt obj a).1.maze (dfs_thread_hunt obj a).2 := by
  unfold dfs_thread_hunt
  split
  · split
    · exact dfs_inv_same _ a _ hi rfl rfl rfl (fun h => by simp at h) (fun h => by simp at h)
    · rename_i top rest hd
      split_ifs
      · exact dfs_inv_same _ a _ hi rfl rfl rfl (fun h => by simp at h) (fun h => by simp at h)
      · exact dfs_inv_same _ a _ hi rfl rfl rfl (fun _ => by simp only [hd]; rfl)
          (fun h => by simp at h)
      · exact dfs_inv_same _ a _ hi rfl rfl rfl (fun _ => by simp only [hd]; rfl)
          (fun h => by simp at h)
  · simp only [claim_escape_maze]
    exact dfs_inv_pop _ a _ hi rfl rfl rfl (Or.inr rfl)
  · rename_i hpc
    exact dfs_inv_same _ a _ (dfs_agent_inv_stable a.paint _ _ a (or_seen_step _ _ _) hi)
      rfl rfl rfl (fun _ => hi.top (Or.inl hpc)) (fun _ => or_seen_seen _ _ _ hp)
  · rename_i hpc
    exact dfs_probe_inv obj a hpc hi
  · rename_i hpc
    exact dfs_unwind_inv obj a hpc hi
  · exact hi

theorem randomized_dfs_thread_hunt_inv (gen : Nat → Nat) (obj : Thread_maze_object)
    (a : Thread_local) (hp : a.paint ≠ 0) (hi : Dfs_agent_inv obj.maze a) :
    Dfs_agent_inv (randomized_dfs_thread_hunt gen obj a).1.maze
      (randomized_dfs_thread_hunt gen obj a).2 := by
  unfold randomized_dfs_thread_hunt
  split
  · split
    · exact dfs_inv_same _ a _ hi rfl rfl rfl (fun h => by simp at h) (fun h => by simp at h)
    · rename_i top rest hd
      split_ifs
      · exact dfs_inv_same _ a _ hi rfl rfl rfl (fun h => by simp at h) (fun h => by simp at h)
      · exact dfs_inv_same _ a _ hi rfl rfl rfl (fun _ => by simp only [hd]; rfl)
          (fun h => by simp at h)
      · exact dfs_inv_same _ a _ hi rfl rfl rfl (fun _ => by simp only [hd]; rfl)
          (fun h => by simp at h)
  · simp only [claim_escape_maze]
    exact dfs_inv_pop _ a _ hi rfl rfl rfl (Or.inr rfl)
  · rename_i hpc
    exact dfs_inv_same _ a _ (dfs_agent_inv_stable a.paint _ _ a (or_seen_step _ _ _) hi)
      rfl rfl rfl (fun _ => hi.top (Or.inl hpc)) (fun _ => or_seen_seen _ _ _ hp)
  · rename_i hpc
    exact dfs_probe_inv obj a hpc hi
  · rename_i hpc
    exact dfs_unwind_inv obj a hpc hi
  · exact hi

theorem dfs_thread_gather_inv (obj : Thread_maze_object) (a : Thread_local) (hp : a.paint ≠ 0)
    (hi : Dfs_agent_inv obj.maze a) :
    Dfs_agent_inv (dfs_thread_gather obj a).1.maze (dfs_thread_gather obj a).2 := by
  unfold dfs_thread_gather
  split
  · split
    · exact dfs_inv_same _ a _ hi rfl rfl rfl (fun h => by simp at h) (fun h => by simp at h)
    · rename_i top rest hd
      have hi2 := dfs_agent_inv_stable a.paint _ _ a (or_seen_step obj.maze top a.paint) hi
      split_ifs
      · exact dfs_inv_pop _ a _ hi2 (by rw [hd]; rfl) rfl rfl (Or.inr rfl)
      · exact dfs_inv_same _ a _ hi2 rfl rfl rfl (fun _ => by simp only [hd]; rfl)
          (fun _ => or_seen_seen _ _ _ hp)
  · rename_i hpc
    exact dfs_probe_inv obj a hpc hi
  · rename_i hpc
    exact dfs_unwind_inv obj a hpc hi
  · exact hi

theorem randomized_dfs_thread_gather_inv (gen : Nat → Nat) (obj : Thread_maze_object)
    (a : Thread_local) (hp : a.paint ≠ 0) (hi : Dfs_agent_inv obj.maze a) :
    Dfs_agent_inv (randomized_dfs_thread_gather gen obj a).1.maze
      (randomized_dfs_thread_gather gen obj a).2 := by
  unfold randomized_dfs_thread_gather
  split
  · split
    · exact dfs_inv_same _ a _ hi rfl rfl rfl (fun h => by simp at h) (fun h => by simp at h)
    · rename_i top rest hd
      have hi2 := dfs_agent_inv_stable a.paint _ _ a (or_seen_step obj.maze top a.paint) hi
      split_ifs
      · exact dfs_inv_pop _ a _ hi2 (by rw [hd]; rfl) rfl rfl (Or.inr rfl)
      · exact dfs_inv_same _ a _ hi2 rfl rfl rfl (fun _ => by simp only [hd]; rfl)
          (fun _ => or_seen_seen _ _ _ hp)
  · rename_i hpc
    exact dfs_probe_inv obj a hpc hi
  · rename_i hpc
    exact dfs_unwind_inv obj a hpc hi
  · exact hi

/-- A step of a depth first agent keeps its invariant. -/
theorem thread_step_dfs_inv (gen : Nat → Nat) (obj : Thread_maze_object) (a : Thread_local)
    (hf : a.function ≠ .bfs_thread_hunt ∧ a.function ≠ .bfs_thread_gather)
    (hp : a.paint ≠ 0) (hi : Dfs_agent_inv obj.maze a) :
    Dfs_agent_inv (thread_step gen obj a).1.maze (thread_step gen obj a).2 := by
  unfold thread_step
  split
  · exact dfs_thread_hunt_inv obj a hp hi
  · exact randomized_dfs_thread_hunt_inv gen obj a hp hi
  · exact dfs_thread_gather_inv obj a hp hi
  · exact randomized_dfs_thread_gather_inv gen obj a hp hi
  · rename_i e; exact absurd e hf.1
  · rename_i e; exact absurd e hf.2

/-! ## From one agent to the solve -/

/-- A property `P` of an agent and the shared object that the agent's own steps
keep and the steps of agents with another index do not disturb holds for every
agent after a step of the solve, given a qualification `Q` of agents that steps
keep. -/
theorem step_lift (gen : Nat → Nat) (P : Thread_maze_object → Thread_local → Prop)
    (Q : Thread_local → Prop)
    (hQ : ∀ obj a, Q a → Q (thread_step gen obj a).2)
    (own : ∀ obj a, Q a → P obj a → P (thread_step gen obj a).1 (thread_step gen obj a).2)
    (other : ∀ obj a b, Q a → Q b → a.thread_index ≠ b.thread_index → P obj a →
      P (thread_step gen obj b).1 a)
    (s : Solve_state) (hidx : s.indexed)
    (hall : ∀ i a, s.threads.get? i = some a → Q a ∧ P s.obj a) (i : Nat) :
    ∀ j a, (s.step gen i).threads.get? j = some a → Q a ∧ P (s.step gen i).obj a := by
  cases hb : s.threads.get? i with
  | none =>
    have e : s.step gen i = s := by unfold Solve_state.step; rw [hb]
    rw [e]; exact hall
  | some b =>
    obtain ⟨e1, e2⟩ := step_get gen s i b hb
    obtain ⟨hQb, hPb⟩ := hall i b hb
    intro j a ha
    by_cases e : i = j
    · subst e
      rw [e2] at ha
      simp only [Option.some.injEq] at ha
      subst ha
      rw [e1]
      exact ⟨hQ _ _ hQb, own _ _ hQb hPb⟩
    · have ha2 : s.threads.get? j = some a := by
        unfold Solve_state.step at ha
        rw [hb] at ha
        simp only [List.get?_eq_getElem?] at ha ⊢
        rwa [List.getElem?_set_ne e] at ha
      obtain ⟨hQa, hPa⟩ := hall j a ha2
      rw [e1]
      refine ⟨hQa, other _ a b hQa hQb ?_ hPa⟩
      rw [(hidx j a ha2).1, (hidx i b hb).1]
      exact fun h => e h.symm

theorem run_lift (gen : Nat → Nat) (P : Thread_maze_object → Thread_local → Prop)
    (Q : Thread_local → Prop)
    (hQ : ∀ obj a, Q a → Q (thread_step gen obj a).2)
    (own : ∀ obj a, Q a → P obj a → P (thread_step gen obj a).1 (thread_step gen obj a).2)
    (other : ∀ obj a b, Q a → Q b → a.thread_index ≠ b.thread_index → P obj a →
      P (thread_step gen obj b).1 a)
    (schedule : List Nat) (s : Solve_state) (hidx : s.indexed)
    (hall : ∀ i a, s.threads.get? i = some a → Q a ∧ P s.obj a) :
    ∀ j a, (s.run gen schedule).threads.get? j = some a → Q a ∧ P (s.run gen schedule).obj a := by
  induction schedule generalizing s with
  | nil => exact hall
  | cons i rest ih =>
    exact ih (s.step gen i) (step_indexed gen s i hidx)
      (step_lift gen P Q hQ own other s hidx hall i)

theorem solve_begin_threads (solver : Solver_algorithm) (gen : Nat → Nat)
    (obj : Thread_maze_object) (i : Nat) (a : Thread_local)
    (ha : (solve_begin solver gen obj).threads.get? i = some a) :
    ∃ start, a = spawn (agent_function solver obj.game_) start i := by
  have hg : (if obj.escape_path_index_ ≠ -1 then clear_paths obj else obj).game_ = obj.game_ := by
    split_ifs <;> rfl
  unfold solve_begin at ha
  simp only [] at ha
  rw [hg] at ha
  split at ha <;> rename_i e <;>
    simp only [List.get?_eq_getElem?, List.getElem?_map, Option.map_eq_some',
      List.getElem?_range] at ha
  all_goals
    obtain ⟨k, hk, rfl⟩ := ha
    have hk2 : k = i := by
      rw [List.getElem?_eq_some] at hk
      obtain ⟨_, hk⟩ := hk
      simpa using hk.symm
    subst hk2
  · exact ⟨_, by rw [e]⟩
  · exact ⟨_, rfl⟩

theorem agent_function_dfs (solver : Solver_algorithm) (game : Maze_game)
    (h : solver ≠ .breadth_first_search) :
    agent_function solver game ≠ .bfs_thread_hunt
      ∧ agent_function solver game ≠ .bfs_thread_gather := by
  cases solver <;> cases game <;> simp_all [agent_function]

theorem spawn_dfs_inv (m : Maze) (function : Thread_function) (start : Point) (i : Nat)
    (h : function ≠ .bfs_thread_hunt ∧ function ≠ .bfs_thread_gather) :
    Dfs_agent_inv m (spawn function start i) := by
  unfold spawn
  split
  · exact absurd rfl h.1
  · exact absurd rfl h.2
  · exact
      { route := Or.inr (route_single m start)
        below := fun p hp => by simp at hp
        top := fun h => by simp at h
        marked := fun h => by simp at h }

/-- C28: in every solve with a depth first solver (ordered or randomized, in any
game), at every point of every interleaving, the stack of every agent is empty
or a simple route: read from bottom to top it begins at the agent's start, every
entry is a cardinal neighbour of the entry below it, every entry above the
bottom is a path, and no cell occurs twice. -/
theorem dfs_stack_is_route (solver : Solver_algorithm) (gen : Nat → Nat)
    (obj : Thread_maze_object) (schedule : List Nat) (i : Nat) (a : Thread_local)
    (hs : solver ≠ .breadth_first_search)
    (ha : ((solve_begin solver gen obj).run gen schedule).threads.get? i = some a) :
    a.dfs = [] ∨ ((solve_begin solver gen obj).run gen schedule).obj.maze.route a.start a.dfs := by
  have key := run_lift gen (fun o b => Dfs_agent_inv o.maze b)
    (fun b => (b.function ≠ .bfs_thread_hunt ∧ b.function ≠ .bfs_thread_gather) ∧ b.paint ≠ 0)
    (fun o b hQ => by
      simp only [] at hQ ⊢
      rw [(thread_step_function gen o b).1, (thread_step_ident gen o b).1]; exact hQ)
    (fun o b hQ hP => thread_step_dfs_inv gen o b hQ.1 hQ.2 hP)
    (fun o b c _ _ _ hP => dfs_agent_inv_stable c.paint _ _ b (thread_step_maze gen o c) hP)
    schedule (solve_begin solver gen obj) (solve_begin_indexed solver gen obj)
    (fun j b hb => by
      obtain ⟨start, rfl⟩ := solve_begin_threads solver gen obj j b hb
      have hf := agent_function_dfs solver obj.game_ hs
      refine ⟨⟨by rw [spawn_function]; exact hf, ?_⟩, spawn_dfs_inv _ _ _ _ hf⟩
      rw [(spawn_indexed _ _ _).2]
      exact thread_masks_ne_zero j)
  exact (key i a ha).2.route

theorem dfs_stack_is_route_witness :
    ((((solve_begin .depth_first_search (fun n => 2 * n * n + 7 * n + 5)
        ((construct .randomized_depth_first .none .depth_first_search .gather 7 7
          (fun n => 2 * n * n + 7 * n + 5) 98).get (by decide!))).run
        (fun n => 2 * n * n + 7 * n + 5) (List.replicate 30 0 ++ List.replicate 9 1)).threads.get? 0).get
        (by decide!)).dfs ≠ []
    ∧ (((((solve_begin .depth_first_search (fun n => 2 * n * n + 7 * n + 5)
        ((construct .randomized_depth_first .none .depth_first_search .gather 7 7
          (fun n => 2 * n * n + 7 * n + 5) 98).get (by decide!))).run
        (fun n => 2 * n * n + 7 * n + 5) (List.replicate 30 0 ++ List.replicate 9 1)).threads.get? 0).get
        (by decide!)).dfs = []
      ∨ ((solve_begin .depth_first_search (fun n => 2 * n * n + 7 * n + 5)
        ((construct .randomized_depth_first .none .depth_first_search .gather 7 7
          (fun n => 2 * n * n + 7 * n + 5) 98).get (by decide!))).run
        (fun n => 2 * n * n + 7 * n + 5) (List.replicate 30 0 ++ List.replicate 9 1)).obj.maze.route
        ((((solve_begin .depth_first_search (fun n => 2 * n * n + 7 * n + 5)
        ((construct .randomized_depth_first .none .depth_first_search .gather 7 7
          (fun n => 2 * n * n + 7 * n + 5) 98).get (by decide!))).run
        (fun n => 2 * n * n + 7 * n + 5) (List.replicate 30 0 ++ List.replicate 9 1)).threads.get? 0).get
        (by decide!)).start
        ((((solve_begin .depth_first_search (fun n => 2 * n * n + 7 * n + 5)
        ((construct .randomized_depth_first .none .depth_first_search .gather 7 7
          (fun n => 2 * n * n + 7 * n + 5) 98).get (by decide!))).run
        (fun n => 2 * n * n + 7 * n + 5) (List.replicate 30 0 ++ List.replicate 9 1)).threads.get? 0).get
        (by decide!)).dfs) :=
  ⟨by decide!,
    dfs_stack_is_route .depth_first_search (fun n => 2 * n * n + 7 * n + 5)
      ((construct .randomized_depth_first .none .depth_first_search .gather 7 7
          (fun n => 2 * n * n + 7 * n + 5) 98).get (by decide!))
      (List.replicate 30 0 ++ List.replicate 9 1) 0 _ (by decide) (Option.some_get _).symm⟩

/-! ## Generators leave no transient marks -/

/-- The backtracking step of the depth first builder, with the stack it leaves
named: the old stack without its top. -/
theorem dfs_backtrack_inv_tail (s : Dfs_state) (st : List Point) (V E : Finset Point) (raw : Nat)
    (h : Dfs_inv s st V E) (hnone : find_unbuilt s.maze s.cur (shuffle raw) = none)
    (hne : s.cur ≠ s.start_) :
    Dfs_inv
        { s with maze := clear_markers s.maze s.cur.row s.cur.col,
                 cur := s.cur.step (backtracking_marks_.getD
                   (s.maze.maze_ s.cur.row s.cur.col).markers ⟨0, 0⟩),
                 branches_remain := true, pos := s.pos + 1 } st.tail V E
      ∧ st.tail.length + 1 = st.length ∧ st.head? = some s.cur := by
  obtain ⟨rest, rfl⟩ : ∃ rest, st = s.cur :: rest := by
    have := h.top
    cases st with
    | nil => simp at this
    | cons x xs =>
      simp only [List.head?_cons, Option.some.injEq] at this
      exact ⟨xs, by rw [this]⟩
  obtain ⟨b, rest', rfl⟩ : ∃ b rest', rest = b :: rest' := by
    cases rest with
    | nil =>
      have := h.bottom
      simp only [List.getLast?_singleton, Option.some.injEq] at this
      exact absurd this hne
    | cons b rest' => exact ⟨b, rest', rfl⟩
  have hch := h.chain
  rw [List.chain'_cons] at hch
  obtain ⟨hstep, hch'⟩ := hch
  have hnd := List.nodup_cons.1 h.nodup
  have hR : (clear_markers s.maze s.cur.row s.cur.col).maze_row_size_
      = s.maze.maze_row_size_ := clear_markers_rows _ _ _
  have hC : (clear_markers s.maze s.cur.row s.cur.col).maze_col_size_
      = s.maze.maze_col_size_ := clear_markers_cols _ _ _
  have pt : ∀ (p q : Point), (p.row = q.row ∧ p.col = q.col) ↔ p = q := by
    intro p q; cases p; cases q; simp
  refine ⟨⟨rfl, ?_, h.count, ?_, ?_, ?_, ?_, hnd.2, ?_, ?_, ?_, ?_⟩, rfl, rfl⟩
  · exact web_frame h.web hR hC fun j _ => by
      unfold Maze.path; exact clear_markers_path_bit _ _ _ _ _
  · intro p hp
    simp only [clear_markers_builder_bit]
    exact h.built p ((cell_of_sizes hR hC s.start_ p).1 hp)
  · intro r c
    simp only [clear_markers_builder_bit, clear_markers_path_bit]
    exact h.paths r c
  · simp only [List.tail_cons, List.head?_cons, hstep]
  · have := h.bottom
    simpa [List.getLast?_cons_cons] using this
  · intro p hp
    exact h.sub p (List.mem_cons_of_mem _ hp)
  · refine chain_congr _ hch' ?_
    intro a ha c hac
    have na : a ≠ s.cur := fun e => hnd.1 (e ▸ ha)
    simp only [clear_markers_get, pt, na, if_false]
    exact hac
  · intro p hp hnot e he hce
    have hce0 := (cell_of_sizes hR hC s.start_ _).1 hce
    by_cases hpc : p = s.cur
    · subst hpc
      have hb := find_unbuilt_none_all s.maze s.cur raw hnone e he hce0.1
      exact (h.built _ hce0).2 (Or.inl hb)
    · have : p ∉ s.cur :: b :: rest' := by
        intro hm
        rcases List.mem_cons.1 hm with e1 | e1
        · exact hpc e1
        · exact hnot e1
      exact h.closed p hp this e he hce0
  · intro hb
    exfalso
    simp only [clear_markers_builder_bit] at hb
    have := (h.first hb).1
    simp at this

/-- One iteration of the depth first builder keeps every backtrack mark on the
stack of the walk, above its bottom; the iteration that ends the loop leaves no
mark at all. -/
theorem dfs_iteration_marks (gen : Nat → Nat) (s : Dfs_state) (st : List Point)
    (V E : Finset Point) (hs : Dfs_safe s) (h : Dfs_inv s st V E)
    (hm : ∀ p : Point, (s.maze.maze_ p.row p.col).markers ≠ 0 → p ∈ st ∧ p ≠ s.start_) :
    ((dfs_iteration gen s).branches_remain = false
        ∧ ∀ p : Point, ((dfs_iteration gen s).maze.maze_ p.row p.col).markers = 0)
      ∨ ∃ st' V' E', Dfs_inv (dfs_iteration gen s) st' V' E'
          ∧ (∀ p : Point, ((dfs_iteration gen s).maze.maze_ p.row p.col).markers ≠ 0 →
              p ∈ st' ∧ p ≠ (dfs_iteration gen s).start_) := by
  have htop := h.top
  unfold dfs_iteration
  split
  · rename_i d hd
    obtain ⟨hdir, hnext, hnb⟩ := find_unbuilt_some _ _ _ _ (fun i hi => shuffle_lt _ i hi) hd
    obtain ⟨h1, _⟩ := dfs_carve_inv s st V E d hs h hdir hnext hnb
    refine Or.inr ⟨_, _, _, h1, ?_⟩
    intro p hp
    simp only [carve_path_markings_markers] at hp
    by_cases e : p = s.cur.step d
    · subst e
      refine ⟨List.mem_cons_self _ _, ?_⟩
      intro e2
      simp only [] at e2
      rw [e2] at hnb
      obtain ⟨hst, _⟩ := h.first hnb
      rw [hst] at htop
      simp only [List.head?_cons, Option.some.injEq] at htop
      rw [htop] at e2
      exact step_ne s.cur d hdir e2
    · have hne : ¬ (p.row = (s.cur.step d).row ∧ p.col = (s.cur.step d).col) := by
        intro hh
        apply e
        cases p
        simp only [] at hh
        obtain ⟨rfl, rfl⟩ := hh
        rfl
      rw [if_neg hne] at hp
      exact ⟨List.mem_cons_of_mem _ (hm p hp).1, (hm p hp).2⟩
  · rename_i hnone
    split_ifs with hne
    · obtain ⟨h1, _, hhead⟩ := dfs_backtrack_inv_tail s st V E _ h hnone hne
      refine Or.inr ⟨_, _, _, h1, ?_⟩
      intro p hp
      simp only [clear_markers_markers] at hp
      split_ifs at hp with e
      · exact absurd rfl hp
      · obtain ⟨hin, hns⟩ := hm p hp
        refine ⟨?_, hns⟩
        cases st with
        | nil => simp at hin
        | cons x xs =>
          simp only [List.head?_cons, Option.some.injEq] at hhead
          rcases List.mem_cons.mp hin with e1 | e1
          · subst hhead
            exact absurd (by rw [e1]) e
          · exact e1
    · left
      refine ⟨rfl, ?_⟩
      intro p
      by_contra hp
      obtain ⟨hin, hns⟩ := hm p hp
      have hcs : s.cur = s.start_ := by simpa using hne
      have hst : st = [s.start_] := by
        cases st with
        | nil => simp at hin
        | cons x xs =>
          simp only [List.head?_cons, Option.some.injEq] at htop
          cases xs with
          | nil => rw [htop, hcs]
          | cons y ys =>
            exfalso
            have hb := h.bottom
            have hnd := h.nodup
            rw [List.getLast?_cons_cons] at hb
            have hmem : s.start_ ∈ y :: ys := List.mem_of_mem_getLast? hb
            rw [htop, hcs] at hnd
            exact (List.nodup_cons.mp hnd).1 hmem
      rw [hst, List.mem_singleton] at hin
      exact hns hin

theorem dfs_loop_marks (gen : Nat → Nat) (fuel : Nat) (s : Dfs_state) (st : List Point)
    (V E : Finset Point) (hs : Dfs_safe s) (h : Dfs_inv s st V E)
    (hm : ∀ p : Point, (s.maze.maze_ p.row p.col).markers ≠ 0 → p ∈ st ∧ p ≠ s.start_)
    (hend : (dfs_loop gen fuel s).branches_remain = false) :
    ∀ p : Point, ((dfs_loop gen fuel s).maze.maze_ p.row p.col).markers = 0 := by
  induction fuel generalizing s st V E with
  | zero =>
    exfalso
    unfold dfs_loop at hend
    rw [h.running] at hend
    exact Bool.noConfusion hend
  | succ n ih =>
    unfold dfs_loop at hend ⊢
    rw [if_pos h.running] at hend ⊢
    have hsafe := (dfs_iteration_keeps (carve_stable_sized s.maze.maze_row_size_
      s.maze.maze_col_size_) gen s hs ⟨rfl, rfl⟩).1
    rcases dfs_iteration_marks gen s st V E hs h hm with ⟨hbr, hz⟩ | ⟨st', V', E', hinv, hm'⟩
    · have : dfs_loop gen n (dfs_iteration gen s) = dfs_iteration gen s := by
        cases n with
        | zero => rfl
        | succ k => unfold dfs_loop; rw [hbr]; rfl
      rw [this]
      exact hz
    · exact ih _ st' V' E' hsafe hinv hm' hend

/-- C30: on the all-walls grid of at least 7 rows and columns, for every random
source: `generate_randomized_dfs_maze` terminates (within `2 * rows * cols`
loop iterations), and when it has terminated no cell carries a backtrack mark;
whenever `generate_randomized_loop_erased_maze` has returned, no cell carries a
backtrack mark and no cell carries the start flag that the walk uses as its
on-this-walk mark. -/
theorem generators_leave_no_marks (gen : Nat → Nat) (rows cols : Int) (pos fuel : Nat)
    (hr : 7 ≤ rows) (hc : 7 ≤ cols) :
    (2 * (rows.toNat * cols.toNat) ≤ fuel →
        (generate_randomized_dfs_maze gen fuel (all_walls rows cols) pos).branches_remain = false)
      ∧ ((generate_randomized_dfs_maze gen fuel (all_walls rows cols) pos).branches_remain = false →
        ∀ r c, ((generate_randomized_dfs_maze gen fuel (all_walls rows cols) pos).maze.maze_
          r c).markers = 0)
      ∧ ((generate_randomized_loop_erased_maze gen fuel (all_walls rows cols) pos).phase
          = .returned →
        ∀ r c, ((generate_randomized_loop_erased_maze gen fuel (all_walls rows cols) pos).maze.maze_
            r c).markers = 0
          ∧ ((generate_randomized_loop_erased_maze gen fuel (all_walls rows cols) pos).maze.maze_
            r c).start_bit = false) := by
  obtain ⟨e1, e2, hp, _⟩ := all_walls_basic rows cols
  have hsafe := (dfs_init_keeps (carve_stable_sized rows cols) gen (all_walls rows cols) pos
    (by omega) (by omega) (fun r c => (hp r c).2) ⟨e1, e2⟩).1
  have hinv := dfs_init_inv gen (all_walls rows cols) pos (by omega) (by omega)
    (all_walls_builder_bit rows cols) (fun r c => (hp r c).1)
  have hR : (dfs_init gen (all_walls rows cols) pos).maze.maze_row_size_ = rows := by
    unfold dfs_init; simpa using e1
  have hC : (dfs_init gen (all_walls rows cols) pos).maze.maze_col_size_ = cols := by
    unfold dfs_init; simpa using e2
  refine ⟨fun hfuel => ?_, fun hend r c => ?_, fun hret r c => ?_⟩
  · unfold generate_randomized_dfs_maze
    refine (dfs_loop_done gen fuel _ _ _ _ hsafe hinv (by rw [hR]; exact hr) ?_).1
    rw [hR, hC]
    simp only [List.length_singleton]
    have : 1 ≤ rows.toNat * cols.toNat := by
      have a : 7 ≤ rows.toNat := by omega
      have b : 7 ≤ cols.toNat := by omega
      nlinarith
    rw [Finset.card_singleton]
    omega
  · unfold generate_randomized_dfs_maze at hend ⊢
    refine dfs_loop_marks gen fuel _ _ _ _ hsafe hinv ?_ hend ⟨r, c⟩
    intro p hpm
    exfalso
    apply hpm
    unfold dfs_init
    simp only [clear_markers_markers]
    split_ifs
    · rfl
    · exact (hp p.row p.col).2
  · obtain ⟨o, hinit⟩ := wilson_init_inv rows cols pos hr hc
    obtain ⟨chain, V, E, h⟩ := iterate_invariant (wilson_step gen)
      (fun s => ∃ chain V E, Wilson_inv s o chain V E) (wilson_step_inv gen o) fuel _ hinit
    have hph := h.phase_ok
    unfold generate_randomized_loop_erased_maze at hret ⊢
    unfold Wilson_phase_ok at hph
    rw [hret] at hph
    simp only [] at hph
    obtain ⟨hnil, _⟩ := hph
    exact ⟨h.unmarked ⟨r, c⟩ (by rw [hnil]; simp), h.unflagged ⟨r, c⟩ (by rw [hnil]; simp)⟩

theorem generators_leave_no_marks_witness :
    (2 * ((7 : Int).toNat * (7 : Int).toNat) ≤ 98 →
        (generate_randomized_dfs_maze (fun n => n) 98 (all_walls 7 7) 0).branches_remain = false)
      ∧ ((generate_randomized_dfs_maze (fun n => n) 98 (all_walls 7 7) 0).branches_remain = false →
        ∀ r c, ((generate_randomized_dfs_maze (fun n => n) 98 (all_walls 7 7) 0).maze.maze_
          r c).markers = 0)
      ∧ ((generate_randomized_loop_erased_maze (fun n => n) 98 (all_walls 7 7) 0).phase
          = .returned →
        ∀ r c, ((generate_randomized_loop_erased_maze (fun n => n) 98 (all_walls 7 7) 0).maze.maze_
            r c).markers = 0
          ∧ ((generate_randomized_loop_erased_maze (fun n => n) 98 (all_walls 7 7) 0).maze.maze_
            r c).start_bit = false) :=
  generators_leave_no_marks (fun n => n) 7 7 0 98 (by decide) (by decide)

/-! ## The cross before and after generation -/

theorem modify_sim (X : Int → Int → Bool) (m1 m2 : Maze) (r c : Int) (f : Square → Square)
    (hf : ∀ x s t, Carve_cell x s t → Carve_cell x (f s) (f t)) (h : Carve_sim X m1 m2) :
    Carve_sim X (m1.modify r c f) (m2.modify r c f) := by
  refine ⟨h.1, h.2.1, fun r' c' => ?_⟩
  rw [modify_get, modify_get]
  split_ifs
  · exact hf _ _ _ (h.2.2 r' c')
  · exact h.2.2 r' c'

theorem ite_modify_sim (X : Int → Int → Bool) (m1 m2 : Maze) (r c : Int) (f : Square → Square)
    (p : Prop) [Decidable p]
    (hf : ∀ x s t, Carve_cell x s t → Carve_cell x (f s) (f t)) (h : Carve_sim X m1 m2) :
    Carve_sim X (if p then m1.modify r c f else m1) (if p then m2.modify r c f else m2) := by
  split_ifs
  · exact modify_sim X m1 m2 r c f hf h
  · exact h

theorem carve_cell_path (x : Bool) (s t : Square) (h : Carve_cell x s t) :
    Carve_cell x { s with path_bit := true } { t with path_bit := true } :=
  ⟨h.1, h.2.1, h.2.2.1, h.2.2.2.1, by simp⟩

theorem clear_facing_walls_sim (X : Int → Int → Bool) (m1 m2 : Maze) (r c : Int)
    (h : Carve_sim X m1 m2) :
    Carve_sim X (clear_facing_walls m1 r c) (clear_facing_walls m2 r c) := by
  unfold clear_facing_walls
  simp only [h.1, h.2.1]
  exact ite_modify_sim X _ _ _ _ _ _ (fun _ _ _ hh => hh)
    (ite_modify_sim X _ _ _ _ _ _ (fun _ _ _ hh => hh)
      (ite_modify_sim X _ _ _ _ _ _ (fun _ _ _ hh => hh)
        (ite_modify_sim X _ _ _ _ _ _ (fun _ _ _ hh => hh) h)))

theorem build_path_sim (X : Int → Int → Bool) (m1 m2 : Maze) (r c : Int)
    (h : Carve_sim X m1 m2) : Carve_sim X (build_path m1 r c) (build_path m2 r c) := by
  unfold build_path
  exact modify_sim X _ _ _ _ _ carve_cell_path (clear_facing_walls_sim X m1 m2 r c h)

theorem set_builder_sim (X : Int → Int → Bool) (m1 m2 : Maze) (r c : Int)
    (h : Carve_sim X m1 m2) : Carve_sim X (set_builder m1 r c) (set_builder m2 r c) := by
  unfold set_builder
  exact modify_sim X _ _ _ _ _ (fun _ _ _ hh => ⟨rfl, hh.2⟩) h

theorem carve_path_walls_sim (X : Int → Int → Bool) (m1 m2 : Maze) (r c : Int)
    (h : Carve_sim X m1 m2) :
    Carve_sim X (carve_path_walls m1 r c) (carve_path_walls m2 r c) := by
  unfold carve_path_walls
  exact modify_sim X _ _ _ _ _ (fun _ _ _ hh => ⟨rfl, hh.2⟩)
    (clear_facing_walls_sim X _ _ r c (modify_sim X _ _ _ _ _ carve_cell_path h))

theorem or_marker_sim (X : Int → Int → Bool) (m1 m2 : Maze) (r c : Int) (k : Nat)
    (h : Carve_sim X m1 m2) : Carve_sim X (or_marker m1 r c k) (or_marker m2 r c k) := by
  unfold or_marker
  exact modify_sim X _ _ _ _ _
    (fun _ s t hh => ⟨hh.1, by show s.markers ||| k = t.markers ||| k; rw [hh.2.1], hh.2.2⟩) h

theorem clear_markers_sim (X : Int → Int → Bool) (m1 m2 : Maze) (r c : Int)
    (h : Carve_sim X m1 m2) : Carve_sim X (clear_markers m1 r c) (clear_markers m2 r c) := by
  unfold clear_markers
  exact modify_sim X _ _ _ _ _ (fun _ _ _ hh => ⟨hh.1, rfl, hh.2.2⟩) h

theorem clear_start_sim (X : Int → Int → Bool) (m1 m2 : Maze) (r c : Int)
    (h : Carve_sim X m1 m2) : Carve_sim X (clear_start m1 r c) (clear_start m2 r c) := by
  unfold clear_start
  exact modify_sim X _ _ _ _ _ (fun _ _ _ hh => ⟨hh.1, hh.2.1, rfl, hh.2.2.2⟩) h

theorem carve_path_markings_sim (X : Int → Int → Bool) (m1 m2 : Maze) (cur next : Point)
    (h : Carve_sim X m1 m2) :
    Carve_sim X (carve_path_markings m1 cur next) (carve_path_markings m2 cur next) := by
  unfold carve_path_markings
  simp only []
  apply carve_path_walls_sim
  apply carve_path_walls_sim
  split_ifs
  all_goals first
    | exact or_marker_sim X _ _ _ _ _ (carve_path_walls_sim X _ _ _ _ h)
    | exact carve_path_walls_sim X _ _ _ _ h

theorem build_with_marks_sim (X : Int → Int → Bool) (m1 m2 : Maze) (cur next : Point)
    (h : Carve_sim X m1 m2) :
    Carve_sim X (build_with_marks m1 cur next) (build_with_marks m2 cur next) := by
  unfold build_with_marks
  simp only []
  exact carve_path_walls_sim X _ _ _ _ (carve_path_walls_sim X _ _ _ _
    (carve_path_walls_sim X _ _ _ _ h))

theorem mark_origin_sim (X : Int → Int → Bool) (m1 m2 : Maze) (walk next : Point)
    (h : Carve_sim X m1 m2) :
    Carve_sim X (mark_origin m1 walk next) (mark_origin m2 walk next) := by
  unfold mark_origin
  split_ifs
  all_goals first
    | exact or_marker_sim X _ _ _ _ _ h
    | exact h

theorem join_squares_sim (X : Int → Int → Bool) (m1 m2 : Maze) (cur next : Point)
    (h : Carve_sim X m1 m2) :
    Carve_sim X (join_squares m1 cur next) (join_squares m2 cur next) := by
  unfold join_squares
  simp only []
  exact set_builder_sim X _ _ _ _ (build_path_sim X _ _ _ _
    (set_builder_sim X _ _ _ _ (build_path_sim X _ _ _ _ h)))

theorem within_perimeter_sim (X : Int → Int → Bool) (m1 m2 : Maze) (h : Carve_sim X m1 m2)
    (r c : Int) : m1.within_perimeter r c ↔ m2.within_perimeter r c :=
  within_perimeter_sizes h.1 h.2.1 r c

theorem find_unbuilt_sim (X : Int → Int → Bool) (m1 m2 : Maze) (h : Carve_sim X m1 m2)
    (cur : Point) (order : List Nat) : find_unbuilt m1 cur order = find_unbuilt m2 cur order := by
  induction order with
  | nil => rfl
  | cons i rest ih =>
    unfold find_unbuilt
    simp only [within_perimeter_sim X m1 m2 h, (h.2.2 _ _).1, ih]

theorem find_walk_step_sim (X : Int → Int → Bool) (m1 m2 : Maze) (h : Carve_sim X m1 m2)
    (walk previous_square : Point) (order : List Nat) :
    find_walk_step m1 walk previous_square order
      = find_walk_step m2 walk previous_square order := by
  induction order with
  | nil => rfl
  | cons i rest ih =>
    unfold find_walk_step
    simp only [h.1, h.2.1, ih]

theorem choose_arbitrary_point_sim (X : Int → Int → Bool) (m1 m2 : Maze)
    (h : Carve_sim X m1 m2) (init : Int) :
    choose_arbitrary_point m1 init = choose_arbitrary_point m2 init := by
  unfold choose_arbitrary_point lattice_scan
  simp only [h.1, h.2.1, (h.2.2 _ _).1]

theorem dfs_iteration_sim (X : Int → Int → Bool) (gen : Nat → Nat) (s1 s2 : Dfs_state)
    (hm : Carve_sim X s1.maze s2.maze)
    (he : s1.start_ = s2.start_ ∧ s1.cur = s2.cur ∧ s1.branches_remain = s2.branches_remain
      ∧ s1.pos = s2.pos) :
    Carve_sim X (dfs_iteration gen s1).maze (dfs_iteration gen s2).maze
      ∧ (dfs_iteration gen s1).start_ = (dfs_iteration gen s2).start_
      ∧ (dfs_iteration gen s1).cur = (dfs_iteration gen s2).cur
      ∧ (dfs_iteration gen s1).branches_remain = (dfs_iteration gen s2).branches_remain
      ∧ (dfs_iteration gen s1).pos = (dfs_iteration gen s2).pos := by
  obtain ⟨e1, e2, e3, e4⟩ := he
  unfold dfs_iteration
  rw [find_unbuilt_sim X _ _ hm, e2, e4, e1]
  split
  · exact ⟨carve_path_markings_sim X _ _ _ _ hm, rfl, rfl, rfl, rfl⟩
  · split_ifs
    · refine ⟨clear_markers_sim X _ _ _ _ hm, rfl, ?_, rfl, rfl⟩
      simp only [(hm.2.2 _ _).2.1]
    · exact ⟨hm, rfl, rfl, rfl, rfl⟩

theorem dfs_loop_sim (X : Int → Int → Bool) (gen : Nat → Nat) (fuel : Nat) (s1 s2 : Dfs_state)
    (hm : Carve_sim X s1.maze s2.maze)
    (he : s1.start_ = s2.start_ ∧ s1.cur = s2.cur ∧ s1.branches_remain = s2.branches_remain
      ∧ s1.pos = s2.pos) :
    Carve_sim X (dfs_loop gen fuel s1).maze (dfs_loop gen fuel s2).maze
      ∧ (dfs_loop gen fuel s1).branches_remain = (dfs_loop gen fuel s2).branches_remain
      ∧ (dfs_loop gen fuel s1).pos = (dfs_loop gen fuel s2).pos := by
  induction fuel generalizing s1 s2 with
  | zero => exact ⟨hm, he.2.2.1, he.2.2.2⟩
  | succ n ih =>
    unfold dfs_loop
    rw [he.2.2.1]
    split_ifs
    · obtain ⟨k1, k2⟩ := dfs_iteration_sim X gen s1 s2 hm he
      exact ih _ _ k1 k2
    · exact ⟨hm, he.2.2.1, he.2.2.2⟩

theorem dfs_sim (X : Int → Int → Bool) (gen : Nat → Nat) (fuel : Nat) (m1 m2 : Maze)
    (pos : Nat) (hm : Carve_sim X m1 m2) :
    Carve_sim X (generate_randomized_dfs_maze gen fuel m1 pos).maze
        (generate_randomized_dfs_maze gen fuel m2 pos).maze
      ∧ (generate_randomized_dfs_maze gen fuel m1 pos).branches_remain
          = (generate_randomized_dfs_maze gen fuel m2 pos).branches_remain
      ∧ (generate_randomized_dfs_maze gen fuel m1 pos).pos
          = (generate_randomized_dfs_maze gen fuel m2 pos).pos := by
  unfold generate_randomized_dfs_maze
  apply dfs_loop_sim
  · unfold dfs_init
    simp only [hm.1, hm.2.1]
    exact clear_markers_sim X _ _ _ _ hm
  · unfold dfs_init
    simp only [hm.1, hm.2.1, and_self]

theorem complete_run_sim (X : Int → Int → Bool) (direction : Point) (left : Nat)
    (m1 m2 : Maze) (dfs : List Point) (cur next : Point) (hm : Carve_sim X m1 m2) :
    Carve_sim X (complete_run direction left m1 dfs cur next).1
        (complete_run direction left m2 dfs cur next).1
      ∧ (complete_run direction left m1 dfs cur next).2
          = (complete_run direction left m2 dfs cur next).2 := by
  induction left generalizing m1 m2 dfs cur next with
  | zero => exact ⟨hm, rfl⟩
  | succ n ih =>
    unfold complete_run
    simp only [hm.1, hm.2.1]
    split_ifs
    · exact ih _ _ _ _ _ (set_builder_sim X _ _ _ _
        (join_squares_sim X _ _ _ _ (set_builder_sim X _ _ _ _ hm)))
    · exact ⟨hm, rfl⟩

theorem grid_iteration_sim (X : Int → Int → Bool) (gen : Nat → Nat) (s1 s2 : Grid_state)
    (hm : Carve_sim X s1.maze s2.maze) (he : s1.dfs = s2.dfs ∧ s1.pos = s2.pos) :
    Carve_sim X (grid_iteration gen s1).maze (grid_iteration gen s2).maze
      ∧ (grid_iteration gen s1).dfs = (grid_iteration gen s2).dfs
      ∧ (grid_iteration gen s1).pos = (grid_iteration gen s2).pos := by
  obtain ⟨e1, e2⟩ := he
  unfold grid_iteration
  rw [e1, e2]
  cases hd : s2.dfs with
  | nil => exact ⟨hm, e1, e2⟩
  | cons cur rest =>
    have h1 := set_builder_sim X _ _ cur.row cur.col (build_path_sim X _ _ cur.row cur.col hm)
    simp only []
    rw [find_unbuilt_sim X _ _ h1]
    split
    · rename_i d _
      obtain ⟨k1, k2⟩ := complete_run_sim X d run_limit _ _ (cur :: rest) cur (cur.step d) h1
      exact ⟨k1, k2, rfl⟩
    · exact ⟨h1, rfl, rfl⟩

theorem grid_sim (X : Int → Int → Bool) (gen : Nat → Nat) (fuel : Nat) (m1 m2 : Maze)
    (pos : Nat) (hm : Carve_sim X m1 m2) :
    Carve_sim X (generate_randomized_grid gen fuel m1 pos).maze
        (generate_randomized_grid gen fuel m2 pos).maze
      ∧ (generate_randomized_grid gen fuel m1 pos).dfs
          = (generate_randomized_grid gen fuel m2 pos).dfs
      ∧ (generate_randomized_grid gen fuel m1 pos).pos
          = (generate_randomized_grid gen fuel m2 pos).pos := by
  unfold generate_randomized_grid
  have key : ∀ (n : Nat) (s1 s2 : Grid_state), Carve_sim X s1.maze s2.maze →
      s1.dfs = s2.dfs ∧ s1.pos = s2.pos →
      Carve_sim X ((grid_iteration gen)^[n] s1).maze ((grid_iteration gen)^[n] s2).maze
        ∧ ((grid_iteration gen)^[n] s1).dfs = ((grid_iteration gen)^[n] s2).dfs
        ∧ ((grid_iteration gen)^[n] s1).pos = ((grid_iteration gen)^[n] s2).pos := by
    intro n
    induction n with
    | zero => intro s1 s2 h1 h2; exact ⟨h1, h2⟩
    | succ k ih =>
      intro s1 s2 h1 h2
      rw [Function.iterate_succ_apply, Function.iterate_succ_apply]
      obtain ⟨k1, k2⟩ := grid_iteration_sim X gen s1 s2 h1 h2
      exact ih _ _ k1 k2
  apply key
  · exact hm
  · unfold grid_init
    simp only [hm.1, hm.2.1, and_self]

theorem wilson_step_sim (X : Int → Int → Bool) (gen : Nat → Nat) (s1 s2 : Wilson_state)
    (hm : Carve_sim X s1.maze s2.maze)
    (he : s1.walk = s2.walk ∧ s1.previous_square = s2.previous_square ∧ s1.phase = s2.phase
      ∧ s1.pos = s2.pos) :
    Carve_sim X (wilson_step gen s1).maze (wilson_step gen s2).maze
      ∧ (wilson_step gen s1).walk = (wilson_step gen s2).walk
      ∧ (wilson_step gen s1).previous_square = (wilson_step gen s2).previous_square
      ∧ (wilson_step gen s1).phase = (wilson_step gen s2).phase
      ∧ (wilson_step gen s1).pos = (wilson_step gen s2).pos := by
  obtain ⟨e1, e2, e3, e4⟩ := he
  unfold wilson_step
  rw [e3, e1, e2, e4]
  cases hph : s2.phase with
  | walking =>
    simp only []
    have hmod := modify_sim X s1.maze s2.maze s2.walk.row s2.walk.col
      (fun q => { q with start_bit := true })
      (fun _ _ _ hh => ⟨hh.1, hh.2.1, rfl, hh.2.2.2⟩) hm
    have hb : ∀ r c, ((s1.maze.modify s2.walk.row s2.walk.col
        fun q => { q with start_bit := true }).maze_ r c).builder_bit
        = ((s2.maze.modify s2.walk.row s2.walk.col
        fun q => { q with start_bit := true }).maze_ r c).builder_bit :=
      fun r c => (hmod.2.2 r c).1
    have hs : ∀ r c, ((s1.maze.modify s2.walk.row s2.walk.col
        fun q => { q with start_bit := true }).maze_ r c).start_bit
        = ((s2.maze.modify s2.walk.row s2.walk.col
        fun q => { q with start_bit := true }).maze_ r c).start_bit :=
      fun r c => (hmod.2.2 r c).2.2.1
    rw [find_walk_step_sim X _ _ hmod]
    split
    · exact ⟨hmod, rfl, rfl, rfl, rfl⟩
    · simp only [hb, hs]
      split_ifs
      · exact ⟨build_with_marks_sim X _ _ _ _ hmod, rfl, rfl, rfl, rfl⟩
      · exact ⟨hmod, rfl, rfl, rfl, rfl⟩
      · exact ⟨mark_origin_sim X _ _ _ _ hmod, rfl, rfl, rfl, rfl⟩
  | connecting cur =>
    simp only []
    have hk : ∀ r c, (s1.maze.maze_ r c).markers = (s2.maze.maze_ r c).markers :=
      fun r c => (hm.2.2 r c).2.1
    have hcs := clear_start_sim X _ _ cur.row cur.col hm
    have hk2 : ∀ r c, ((clear_start s1.maze cur.row cur.col).maze_ r c).markers
        = ((clear_start s2.maze cur.row cur.col).maze_ r c).markers :=
      fun r c => (hcs.2.2 r c).2.1
    have hcw := carve_path_walls_sim X _ _ cur.row cur.col
      (clear_markers_sim X _ _ cur.row cur.col hcs)
    simp only [hk, hk2, choose_arbitrary_point_sim X _ _ hcw 1]
    split_ifs
    · exact ⟨clear_markers_sim X _ _ _ _ (build_with_marks_sim X _ _ _ _ hcs),
        rfl, rfl, rfl, rfl⟩
    · exact ⟨hcw, rfl, rfl, rfl, rfl⟩
    · exact ⟨clear_markers_sim X _ _ _ _ hcw, rfl, rfl, rfl, rfl⟩
  | erasing cur loop_root =>
    simp only []
    have hk : ∀ r c, (s1.maze.maze_ r c).markers = (s2.maze.maze_ r c).markers :=
      fun r c => (hm.2.2 r c).2.1
    have hcs := clear_start_sim X _ _ cur.row cur.col hm
    have hk2 : ∀ r c, ((clear_start s1.maze cur.row cur.col).maze_ r c).markers
        = ((clear_start s2.maze cur.row cur.col).maze_ r c).markers :=
      fun r c => (hcs.2.2 r c).2.1
    simp only [hk, hk2]
    split_ifs
    · exact ⟨clear_markers_sim X _ _ _ _ hcs, rfl, rfl, rfl, rfl⟩
    · exact ⟨hm, rfl, rfl, rfl, rfl⟩
  | returned => exact ⟨hm, e1, e2, e3, e4⟩

theorem wilson_sim (X : Int → Int → Bool) (gen : Nat → Nat) (fuel : Nat) (m1 m2 : Maze)
    (pos : Nat) (hm : Carve_sim X m1 m2) :
    Carve_sim X (generate_randomized_loop_erased_maze gen fuel m1 pos).maze
        (generate_randomized_loop_erased_maze gen fuel m2 pos).maze
      ∧ (generate_randomized_loop_erased_maze gen fuel m1 pos).phase
          = (generate_randomized_loop_erased_maze gen fuel m2 pos).phase
      ∧ (generate_randomized_loop_erased_maze gen fuel m1 pos).pos
          = (generate_randomized_loop_erased_maze gen fuel m2 pos).pos := by
  unfold generate_randomized_loop_erased_maze
  have key : ∀ (n : Nat) (s1 s2 : Wilson_state), Carve_sim X s1.maze s2.maze →
      s1.walk = s2.walk ∧ s1.previous_square = s2.previous_square ∧ s1.phase = s2.phase
        ∧ s1.pos = s2.pos →
      Carve_sim X ((wilson_step gen)^[n] s1).maze ((wilson_step gen)^[n] s2).maze
        ∧ ((wilson_step gen)^[n] s1).phase = ((wilson_step gen)^[n] s2).phase
        ∧ ((wilson_step gen)^[n] s1).pos = ((wilson_step gen)^[n] s2).pos := by
    intro n
    induction n with
    | zero => intro s1 s2 h1 h2; exact ⟨h1, h2.2.2.1, h2.2.2.2⟩
    | succ k ih =>
      intro s1 s2 h1 h2
      rw [Function.iterate_succ_apply, Function.iterate_succ_apply]
      obtain ⟨k1, k2⟩ := wilson_step_sim X gen s1 s2 h1 h2
      exact ih _ _ k1 k2
  apply key
  · unfold wilson_init
    simp only [hm.1, hm.2.1]
    exact clear_markers_sim X _ _ _ _ (set_builder_sim X _ _ _ _ (build_path_sim X _ _ _ _ hm))
  · unfold wilson_init
    simp only [and_self]

theorem foldl_lockstep {α β : Type} (R : α → α → Prop) (f g : α → β → α) (l : List β)
    (a b : α) (h0 : R a b) (hstep : ∀ a b x, R a b → R (f a x) (g b x)) :
    R (l.foldl f a) (l.foldl g b) := by
  induction l generalizing a b with
  | nil => exact h0
  | cons x l ih => exact ih _ _ (hstep a b x h0)

/-- Two cell loops over the same rectangle, run side by side, keep a relation
that their bodies keep. -/
theorem for_cells_lockstep (R : Maze → Maze → Prop) (lo hi clo chi : Int)
    (f g : Maze → Int → Int → Maze) (a b : Maze) (h0 : R a b)
    (hstep : ∀ a b r c, R a b → R (f a r c) (g b r c)) :
    R (for_cells lo hi clo chi f a) (for_cells lo hi clo chi g b) := by
  unfold for_cells
  apply foldl_lockstep R _ _ _ a b h0
  intro a b i hab
  apply foldl_lockstep R _ _ _ a b hab
  intro a b j hab
  exact hstep a b _ _ hab

theorem add_cross_flags (m : Maze) (row col r c : Int) :
    ((add_modification .add_cross m row col).maze_ r c).builder_bit = (m.maze_ r c).builder_bit
      ∧ ((add_modification .add_cross m row col).maze_ r c).markers = (m.maze_ r c).markers
      ∧ ((add_modification .add_cross m row col).maze_ r c).start_bit = (m.maze_ r c).start_bit
      ∧ ((add_modification .add_cross m row col).maze_ r c).finish_bit
          = (m.maze_ r c).finish_bit := by
  unfold add_modification
  simp only []
  split_ifs <;>
    simp only [build_path_builder_bit, build_path_markers, build_path_start_bit,
      build_path_finish_bit, and_self]

theorem add_cross_sizes (m : Maze) (row col : Int) :
    (add_modification .add_cross m row col).maze_row_size_ = m.maze_row_size_
      ∧ (add_modification .add_cross m row col).maze_col_size_ = m.maze_col_size_ := by
  unfold add_modification
  simp only []
  split_ifs <;> simp only [build_path_rows, build_path_cols, and_self]

/-- The cell loop of the constructor with the cross and without it: the same
extents, the same builder bits, marks, start and finish flags; without the
cross no cell is a passage. -/
theorem construct_walls_sim (builder_ : Builder_algorithm) (rows cols : Int)
    (hb : builder_ ≠ .randomized_fractal) :
    Carve_sim (fun r c => (construct_walls builder_ .add_cross rows cols).path r c)
      (construct_walls builder_ .add_cross rows cols)
      (construct_walls builder_ .none rows cols) := by
  have key := for_cells_lockstep
    (fun a b => (a.maze_row_size_ = b.maze_row_size_ ∧ a.maze_col_size_ = b.maze_col_size_)
      ∧ ∀ r c, ((a.maze_ r c).builder_bit = (b.maze_ r c).builder_bit
        ∧ (a.maze_ r c).markers = (b.maze_ r c).markers
        ∧ (a.maze_ r c).start_bit = (b.maze_ r c).start_bit
        ∧ (a.maze_ r c).finish_bit = (b.maze_ r c).finish_bit) ∧ b.path r c = false)
    0 rows 0 cols
    (fun m row col =>
      let m1 := build_wall m row col
      if builder_ ≠ .randomized_fractal then add_modification .add_cross m1 row col else m1)
    (fun m row col =>
      let m1 := build_wall m row col
      if builder_ ≠ .randomized_fractal then add_modification .none m1 row col else m1)
    (blank rows cols) (blank rows cols) ⟨⟨rfl, rfl⟩, fun _ _ => ⟨⟨rfl, rfl, rfl, rfl⟩, rfl⟩⟩
    (by
      intro a b r c ⟨⟨s1, s2⟩, h⟩
      simp only [if_pos hb]
      have hn : add_modification .none (build_wall b r c) r c = build_wall b r c := rfl
      rw [hn]
      refine ⟨⟨?_, ?_⟩, fun r' c' => ?_⟩
      · rw [(add_cross_sizes _ _ _).1, build_wall_rows, build_wall_rows]; exact s1
      · rw [(add_cross_sizes _ _ _).2, build_wall_cols, build_wall_cols]; exact s2
      · obtain ⟨f1, f2, f3, f4⟩ := add_cross_flags (build_wall a r c) r c r' c'
        obtain ⟨⟨g1, g2, g3, g4⟩, g5⟩ := h r' c'
        rw [f1, f2, f3, f4, build_wall_builder_bit, build_wall_builder_bit, build_wall_markers,
          build_wall_markers, (build_wall_start_finish a r c r' c').1,
          (build_wall_start_finish b r c r' c').1, (build_wall_start_finish a r c r' c').2,
          (build_wall_start_finish b r c r' c').2, build_wall_path]
        exact ⟨⟨g1, g2, g3, g4⟩, g5⟩)
  obtain ⟨⟨s1, s2⟩, h⟩ := key
  refine ⟨s1, s2, fun r c => ?_⟩
  obtain ⟨⟨g1, g2, g3, g4⟩, g5⟩ := h r c
  refine ⟨g1, g2, g3, g4, ?_⟩
  unfold Maze.path at g5 ⊢
  unfold construct_walls
  rw [g5, Bool.false_or]

/-- The cross applied to every cell of a grid `m` of the given extents carves
the cells that the constructor loop with the cross carves. -/
theorem cross_loop_path (builder_ : Builder_algorithm) (rows cols : Int) (m : Maze)
    (hb : builder_ ≠ .randomized_fractal)
    (hr : m.maze_row_size_ = rows) (hc : m.maze_col_size_ = cols) (r c : Int) :
    (for_cells 0 rows 0 cols (add_modification .add_cross) m).path r c
      = (m.path r c || (construct_walls builder_ .add_cross rows cols).path r c) := by
  have key := for_cells_lockstep
    (fun a b => (a.maze_row_size_ = b.maze_row_size_ ∧ a.maze_col_size_ = b.maze_col_size_)
      ∧ ∀ r c, a.path r c = (m.path r c || b.path r c))
    0 rows 0 cols (add_modification .add_cross)
    (fun m row col =>
      let m1 := build_wall m row col
      if builder_ ≠ .randomized_fractal then add_modification .add_cross m1 row col else m1)
    m (blank rows cols) ⟨⟨hr, hc⟩, fun _ _ => by simp [Maze.path, blank]⟩
    (by
      intro a b r c ⟨⟨s1, s2⟩, h⟩
      simp only [if_pos hb]
      refine ⟨⟨?_, ?_⟩, fun r' c' => ?_⟩
      · rw [(add_cross_sizes _ _ _).1, (add_cross_sizes _ _ _).1, build_wall_rows]; exact s1
      · rw [(add_cross_sizes _ _ _).2, (add_cross_sizes _ _ _).2, build_wall_cols]; exact s2
      · have hw : ∀ r' c', ((build_wall b r c).maze_ r' c').path_bit = (b.maze_ r' c').path_bit :=
          fun r' c' => build_wall_path b r c r' c'
        have hh := h r' c'
        unfold Maze.path at hh ⊢
        unfold add_modification
        simp only [build_wall_rows, build_wall_cols, s1, s2]
        split_ifs <;> simp only [build_path_path_bit, hw, hh, Bool.or_assoc])
  exact key.2 r c

/-- C27 (as stated) fails: on the 7 by 7 grid, with the same draws, all three
carving builders return in both orders, and the cell (5, 4) carries its north
wall flag in the grid constructed with the cross but not in the grid generated
first and crossed afterwards; the cell (4, 4) it faces is a passage in both. -/
theorem cross_order_counterexample :
    [Builder_algorithm.randomized_depth_first, .randomized_loop_erased, .randomized_grid].map
        (fun b =>
          [(constructed_with b .add_cross 7 7 (fun n => 3 * n * n + 7 * n + 10) 98).2.2,
           (constructed_with b .none 7 7 (fun n => 3 * n * n + 7 * n + 10) 98).2.2,
           ((constructed_with b .add_cross 7 7 (fun n => 3 * n * n + 7 * n + 10) 98).1.maze_
              5 4).north_wall,
           ((cross_after_generation b 7 7 (fun n => 3 * n * n + 7 * n + 10) 98).maze_
              5 4).north_wall,
           (constructed_with b .add_cross 7 7 (fun n => 3 * n * n + 7 * n + 10) 98).1.path 4 4,
           (cross_after_generation b 7 7 (fun n => 3 * n * n + 7 * n + 10) 98).path 4 4])
      = [[true, true, true, false, true, true], [true, true, true, false, true, true],
         [true, true, true, false, true, true]] := by
  decide!

theorem run_builder_sim (X : Int → Int → Bool) (builder_ : Builder_algorithm)
    (mod1 mod2 : Maze_modification) (gen : Nat → Nat) (fuel : Nat) (m1 m2 : Maze) (pos : Nat)
    (hb : builder_ = .randomized_depth_first ∨ builder_ = .randomized_loop_erased
      ∨ builder_ = .randomized_grid)
    (hm : Carve_sim X m1 m2) :
    Carve_sim X (run_builder builder_ mod1 gen fuel m1 pos).1
        (run_builder builder_ mod2 gen fuel m2 pos).1
      ∧ (run_builder builder_ mod1 gen fuel m1 pos).2
          = (run_builder builder_ mod2 gen fuel m2 pos).2 := by
  unfold run_builder
  rcases hb with rfl | rfl | rfl <;> simp only []
  · obtain ⟨h1, h2, h3⟩ := dfs_sim X gen fuel m1 m2 pos hm
    exact ⟨h1, by rw [h2, h3]⟩
  · obtain ⟨h1, h2, h3⟩ := wilson_sim X gen fuel m1 m2 pos hm
    exact ⟨h1, by rw [h2, h3]⟩
  · obtain ⟨h1, h2, h3⟩ := grid_sim X gen fuel m1 m2 pos hm
    exact ⟨h1, by rw [h2, h3]⟩

/-- C27 (as amended): for every carving builder (depth first, loop-erased walk,
randomized grid), at least 7 rows and columns and every random source, the grid
constructed with the cross modification has in every cell the passage flag of
the grid generated with no modification (same draws) and crossed afterwards;
the builder reads the same draws and stops at the same point in both. -/
theorem cross_before_generation_passages (builder_ : Builder_algorithm) (rows cols : Int)
    (gen : Nat → Nat) (fuel : Nat)
    (hb : builder_ = .randomized_depth_first ∨ builder_ = .randomized_loop_erased
      ∨ builder_ = .randomized_grid)
    (hr : 7 ≤ rows) (hc : 7 ≤ cols) :
    (∀ r c, (constructed_with builder_ .add_cross rows cols gen fuel).1.path r c
        = (cross_after_generation builder_ rows cols gen fuel).path r c)
      ∧ (constructed_with builder_ .add_cross rows cols gen fuel).2
          = (constructed_with builder_ .none rows cols gen fuel).2 := by
  have hnf : builder_ ≠ .randomized_fractal := by
    rcases hb with rfl | rfl | rfl <;> decide
  obtain ⟨h1, h2⟩ := run_builder_sim _ builder_ .add_cross .none gen fuel _ _ 0 hb
    (construct_walls_sim builder_ rows cols hnf)
  obtain ⟨e1, e2, _, hz⟩ := construct_walls_inv builder_ .none rows cols hr hc
  have hs := run_builder_keeps (carve_stable_sized rows cols) builder_ .none gen fuel
    (construct_walls builder_ .none rows cols) 0 (by rw [e1]; exact hr) (by rw [e2]; exact hc)
    hz ⟨e1, e2⟩
  refine ⟨fun r c => ?_, h2⟩
  unfold cross_after_generation constructed_with
  rw [cross_loop_path builder_ rows cols _ hnf hs.1 hs.2]
  have := (h1.2.2 r c).2.2.2.2
  unfold Maze.path
  exact this

theorem cross_before_generation_passages_witness :
    (∀ r c, (constructed_with .randomized_loop_erased .add_cross 7 7
          (fun n => 3 * n * n + 7 * n + 10) 98).1.path r c
        = (cross_after_generation .randomized_loop_erased 7 7
          (fun n => 3 * n * n + 7 * n + 10) 98).path r c)
      ∧ (constructed_with .randomized_loop_erased .add_cross 7 7
          (fun n => 3 * n * n + 7 * n + 10) 98).2
          = (constructed_with .randomized_loop_erased .none 7 7
          (fun n => 3 * n * n + 7 * n + 10) 98).2 :=
  cross_before_generation_passages .randomized_loop_erased 7 7
    (fun n => 3 * n * n + 7 * n + 10) 98 (Or.inr (Or.inl rfl)) (by decide) (by decide)

/-! ## The depth first hunt alone: completeness and termination -/

theorem or_seen_other (m : Maze) (q p : Point) (paint own : Nat) (h : p ≠ q) :
    (or_seen m q paint).seen_by p own = m.seen_by p own := by
  unfold Maze.seen_by or_seen
  rw [modify_get, if_neg]
  intro hh
  exact h (by cases p; cases q; simp only [Point.mk.injEq]; exact hh)

theorem or_paint_seen (m : Maze) (q p : Point) (paint own : Nat) :
    (or_paint m q paint).seen_by p own = m.seen_by p own := by
  unfold Maze.seen_by or_paint
  rw [modify_get]
  split_ifs <;> rfl

theorem or_seen_mono (m : Maze) (q p : Point) (paint own : Nat)
    (h : m.seen_by p own = true) : (or_seen m q paint).seen_by p own = true :=
  maze_step_seen paint own _ _ (or_seen_step m q paint) p h

theorem within_of_path (m : Maze) (hm : Perimeter_closed m) (cur : Point) (d : Point)
    (hd : d ∈ cardinal_directions_) (hc : m.within_perimeter cur.row cur.col)
    (hp : m.path (cur.step d).row (cur.step d).col = true) :
    m.within_perimeter (cur.step d).row (cur.step d).col := by
  have hring := hm (cur.step d).row (cur.step d).col
  by_contra hcon
  have : m.on_ring (cur.step d).row (cur.step d).col := by
    unfold Maze.within_perimeter at hc hcon
    unfold Maze.on_ring Maze.in_array
    unfold cardinal_directions_ at hd
    simp only [List.mem_cons, List.mem_singleton, List.not_mem_nil, or_false] at hd
    rcases hd with rfl | rfl | rfl | rfl <;> unfold Point.step at hcon ⊢ <;>
      simp only [] at hcon ⊢ <;> omega
  rw [hring this] at hp
  exact absurd hp (by decide)

theorem cardinal_index (d : Point) (hd : d ∈ cardinal_directions_) :
    ∃ i, i < 4 ∧ cardinal_directions_.getD i ⟨0, 0⟩ = d := by
  unfold cardinal_directions_ at hd
  simp only [List.mem_cons, List.mem_singleton, List.not_mem_nil, or_false] at hd
  rcases hd with rfl | rfl | rfl | rfl
  · exact ⟨0, by decide, rfl⟩
  · exact ⟨1, by decide, rfl⟩
  · exact ⟨2, by decide, rfl⟩
  · exact ⟨3, by decide, rfl⟩

theorem cardinal_of_index (i : Nat) (h : i < 4) :
    cardinal_directions_.getD i ⟨0, 0⟩ ∈ cardinal_directions_ := by
  match i, h with
  | 0, _ | 1, _ | 2, _ | 3, _ => decide

theorem biased_directions_all (thread_index i : Nat) (h : i < 4) :
    i ∈ biased_directions thread_index := by
  unfold biased_directions
  have hl : cardinal_directions_.length = 4 := rfl
  rw [hl]
  simp only [List.mem_map, List.mem_range]
  refine ⟨(i + 4 - thread_index % 4) % 4, Nat.mod_lt _ (by decide), ?_⟩
  omega

theorem biased_directions_length (thread_index : Nat) :
    (biased_directions thread_index).length = 4 := by
  unfold biased_directions
  simp
  rfl

/-- The invariant carries over to a grid on which the paths, the finish flags,
the extents and the seen flags of the agent are the same. -/
theorem hunt_inv_frame (m m1 : Maze) (a : Thread_local)
    (hr : m1.maze_row_size_ = m.maze_row_size_) (hc : m1.maze_col_size_ = m.maze_col_size_)
    (hpath : ∀ r c, m1.path r c = m.path r c)
    (hfin : ∀ r c, (m1.maze_ r c).finish_bit = (m.maze_ r c).finish_bit)
    (hseen : ∀ p, m1.seen_by p a.paint = m.seen_by p a.paint)
    (hi : Dfs_hunt_inv m a) : Dfs_hunt_inv m1 a :=
  { inside := fun p hp => by
      have := hi.inside p hp
      unfold Maze.within_perimeter at this ⊢
      rw [hr, hc]; exact this
    started := fun h => by rw [hseen]; exact hi.started h
    closed := fun h p hp hn d hd hpp => by
      rw [hseen] at hp ⊢
      rw [hpath] at hpp
      exact hi.closed h p hp hn d hd hpp
    probed := fun h i hi4 hn hpp => by
      rw [hseen]
      rw [hpath] at hpp
      exact hi.probed h i hi4 hn hpp
    plain := fun h => by rw [hfin]; exact hi.plain h
    goal := fun h => by rw [hfin]; exact hi.goal h
    nofinish := fun p hp => by
      rw [hseen] at hp
      rw [hfin]
      exact hi.nofinish p hp }

/-- A step that leaves the search loop, or stays in it with the same stack. -/
theorem hunt_inv_same (m : Maze) (a b : Thread_local) (hi : Dfs_hunt_inv m a)
    (hd : b.dfs = a.dfs) (hs : b.start = a.start) (hp : b.paint = a.paint)
    (hsearch : b.pc.searching → a.pc.searching)
    (hprobed : b.pc = .probe → ∀ i, i < 4 → i ∉ b.probes →
      m.path (b.cur.step (cardinal_directions_.getD i ⟨0, 0⟩)).row
          (b.cur.step (cardinal_directions_.getD i ⟨0, 0⟩)).col = true →
        m.seen_by (b.cur.step (cardinal_directions_.getD i ⟨0, 0⟩)) a.paint = true)
    (hplain : b.pc = .mark → (m.maze_ b.cur.row b.cur.col).finish_bit = false)
    (hgoal : b.pc = .claim → (m.maze_ b.cur.row b.cur.col).finish_bit = true) :
    Dfs_hunt_inv m b :=
  { inside := by rw [hd]; exact hi.inside
    started := fun h => by rw [hd, hs, hp]; exact hi.started (hsearch h)
    closed := fun h => by rw [hd, hp]; exact hi.closed (hsearch h)
    probed := by rw [hp]; exact hprobed
    plain := hplain
    goal := hgoal
    nofinish := by rw [hp]; exact hi.nofinish }

/-- A step that leaves the search loop and pops the stack. -/
theorem hunt_inv_leave (m : Maze) (a b : Thread_local) (hi : Dfs_hunt_inv m a)
    (hd : b.dfs = a.dfs.tail) (hp : b.paint = a.paint)
    (hpc : b.pc = .unwind ∨ b.pc = .returned) : Dfs_hunt_inv m b := by
  have hns : ¬ b.pc.searching := by
    unfold Thread_pc.searching
    rcases hpc with e | e <;> rw [e] <;> decide
  exact
    { inside := fun p hp2 => hi.inside p (by rw [hd] at hp2; exact List.mem_of_mem_tail hp2)
      started := fun h => absurd h hns
      closed := fun h => absurd h hns
      probed := fun h => by rcases hpc with e | e <;> rw [e] at h <;> exact absurd h (by decide)
      plain := fun h => by rcases hpc with e | e <;> rw [e] at h <;> exact absurd h (by decide)
      goal := fun h => by rcases hpc with e | e <;> rw [e] at h <;> exact absurd h (by decide)
      nofinish := by rw [hp]; exact hi.nofinish }

/-- The critical section that marks `cur`, followed by a neighbour loop that
will read every direction. -/
theorem hunt_inv_mark (m : Maze) (a b : Thread_local)
    (ha : Dfs_agent_inv m a) (hi : Dfs_hunt_inv m a) (hpc : a.pc = .mark)
    (hd : b.dfs = a.dfs) (hs : b.start = a.start) (hp : b.paint = a.paint)
    (hb : b.pc = .probe) (hall : ∀ i, i < 4 → i ∈ b.probes) :
    Dfs_hunt_inv (or_seen m a.cur a.paint) b := by
  have hsearch : a.pc.searching := Or.inr (Or.inl hpc)
  have htop := ha.top (Or.inl hpc)
  have hcur : a.cur ∈ a.dfs := List.mem_of_mem_head? htop
  exact
    { inside := fun p hp2 => by rw [hd] at hp2; exact hi.inside p hp2
      started := fun _ => by
        rw [hd, hs, hp]
        exact (hi.started hsearch).imp id (or_seen_mono _ _ _ _ _)
      closed := fun _ p hseen hn d hdd hpath => by
        rw [hd] at hn
        rw [hp] at hseen ⊢
        have hne : p ≠ a.cur := fun e => hn (e ▸ hcur)
        rw [or_seen_other _ _ _ _ _ hne] at hseen
        rw [maze_step_path _ _ _ (or_seen_step m a.cur a.paint)] at hpath
        exact or_seen_mono _ _ _ _ _ (hi.closed hsearch p hseen hn d hdd hpath)
      probed := fun _ i hi4 hn => absurd (hall i hi4) hn
      plain := fun h => by rw [hb] at h; exact absurd h (by decide)
      goal := fun h => by rw [hb] at h; exact absurd h (by decide)
      nofinish := fun p hseen => by
        rw [hp] at hseen
        rw [maze_step_finish _ _ _ (or_seen_step m a.cur a.paint)]
        by_cases e : p = a.cur
        · rw [e]; exact hi.plain hpc
        · rw [or_seen_other _ _ _ _ _ e] at hseen
          exact hi.nofinish p hseen }

theorem dfs_probe_hunt_inv (obj : Thread_maze_object) (a : Thread_local)
    (hm : Perimeter_closed obj.maze)
    (hpc : a.pc = .probe) (ha : Dfs_agent_inv obj.maze a) (hi : Dfs_hunt_inv obj.maze a) :
    Dfs_hunt_inv (dfs_probe obj a).1.maze (dfs_probe obj a).2 := by
  rw [(dfs_probe_frame obj a).1]
  have hsearch : a.pc.searching := Or.inr (Or.inr (Or.inr hpc))
  have htop := ha.top (Or.inr (Or.inr hpc))
  have hseen := ha.marked hpc
  have hcur : a.cur ∈ a.dfs := List.mem_of_mem_head? htop
  unfold dfs_probe
  split
  · rename_i hprobes
    cases hd : a.dfs with
    | nil => rw [hd] at hcur; exact absurd hcur (by simp)
    | cons q t =>
      rw [hd] at htop
      simp only [List.head?_cons, Option.some.injEq] at htop
      subst htop
      exact
        { inside := fun p hp2 => hi.inside p (by rw [hd]; exact List.mem_cons_of_mem _ hp2)
          started := fun _ => by
            rcases hi.started hsearch with h | h
            · rw [hd] at h
              rcases List.mem_cons.mp h with e | h
              · right; rw [e]; exact hseen
              · left; exact h
            · right; exact h
          closed := fun _ p hps hn d hdd hpath => by
            simp only [List.tail_cons] at hn
            by_cases e : p = a.cur
            · obtain ⟨i, hi4, hdi⟩ := cardinal_index d hdd
              rw [e, ← hdi] at hpath ⊢
              exact hi.probed hpc i hi4 (by rw [hprobes]; simp) hpath
            · exact hi.closed hsearch p hps
                (by rw [hd]; intro hmem; rcases List.mem_cons.mp hmem with h | h
                    · exact e h
                    · exact hn h) d hdd hpath
          probed := fun h => by simp at h
          plain := fun h => by simp at h
          goal := fun h => by simp at h
          nofinish := hi.nofinish }
  · rename_i i rest hprobes
    simp only []
    split_ifs with hc
    · simp only [Bool.and_eq_true, Bool.not_eq_true', ] at hc
      obtain ⟨hns, hpath⟩ := hc
      have hdir : cardinal_directions_.getD i ⟨0, 0⟩ ∈ cardinal_directions_ := by
        rcases cardinal_getD i with h | h
        · exact h
        · rw [h, step_zero] at hns
          rw [hns] at hseen
          exact absurd hseen (by decide)
      exact
        { inside := fun p hp2 => by
            rcases List.mem_cons.mp hp2 with e | hp2
            · rw [e]
              exact within_of_path _ hm _ _ hdir (hi.inside _ hcur) hpath
            · exact hi.inside p hp2
          started := fun _ => (hi.started hsearch).imp (List.mem_cons_of_mem _) id
          closed := fun _ p hps hn d hdd hpp =>
            hi.closed hsearch p hps (fun hmem => hn (List.mem_cons_of_mem _ hmem)) d hdd hpp
          probed := fun h => by simp at h
          plain := fun h => by simp at h
          goal := fun h => by simp at h
          nofinish := hi.nofinish }
    · refine hunt_inv_same _ a _ hi rfl rfl rfl (fun _ => hsearch) ?_
        (fun h => by rw [hpc] at h; exact absurd h (by decide))
        (fun h => by rw [hpc] at h; exact absurd h (by decide))
      intro _ j hj4 hn hpp
      simp only [] at hn hpp ⊢
      by_cases e : j = i
      · subst e
        simp only [Bool.and_eq_true, Bool.not_eq_true', not_and, Bool.not_eq_true] at hc
        by_contra hcon
        have := hc (by simpa using hcon)
        rw [this] at hpp
        exact absurd hpp (by decide)
      · exact hi.probed hpc j hj4 (by rw [hprobes]; simp [e, hn]) hpp

theorem dfs_unwind_hunt_inv (obj : Thread_maze_object) (a : Thread_local)
    (hpc : a.pc = .unwind) (hi : Dfs_hunt_inv obj.maze a) :
    Dfs_hunt_inv (dfs_unwind obj a).1.maze (dfs_unwind obj a).2 := by
  unfold dfs_unwind
  split
  · exact hunt_inv_leave _ a _ hi (by simp only []; rename_i h; rw [h]; rfl) rfl (Or.inr rfl)
  · rename_i cur rest hd
    simp only []
    have hi2 : Dfs_hunt_inv (or_paint obj.maze cur a.paint) a :=
      hunt_inv_frame obj.maze _ a rfl rfl (maze_step_path _ _ _ (or_paint_step _ _ _))
        (maze_step_finish _ _ _ (or_paint_step _ _ _)) (fun p => or_paint_seen _ _ _ _ _) hi
    exact hunt_inv_leave _ a _ hi2 (by rw [hd]; rfl) rfl (Or.inl hpc)

theorem dfs_thread_hunt_hunt_inv (obj : Thread_maze_object) (a : Thread_local)
    (hm : Perimeter_closed obj.maze)
    (ha : Dfs_agent_inv obj.maze a) (hi : Dfs_hunt_inv obj.maze a) :
    Dfs_hunt_inv (dfs_thread_hunt obj a).1.maze (dfs_thread_hunt obj a).2 := by
  unfold dfs_thread_hunt
  split
  · rename_i hpc
    have hsearch : a.pc.searching := Or.inl hpc
    split
    · rename_i hd
      exact hunt_inv_leave _ a _ hi (by simp only []; rw [hd]; rfl) rfl (Or.inl rfl)
    · rename_i top rest hd
      split_ifs with h1 h2
      · exact hunt_inv_same _ a _ hi rfl rfl rfl
          (fun h => by unfold Thread_pc.searching at h; simp at h)
          (fun h => by simp at h) (fun h => by simp at h) (fun h => by simp at h)
      · exact hunt_inv_same _ a _ hi rfl rfl rfl (fun _ => hsearch)
          (fun h => by simp at h) (fun h => by simp at h) (fun _ => h2)
      · exact hunt_inv_same _ a _ hi rfl rfl rfl (fun _ => hsearch)
          (fun h => by simp at h) (fun _ => by simpa using h2) (fun h => by simp at h)
  · simp only [claim_escape_maze]
    exact hunt_inv_leave _ a _ hi rfl rfl (Or.inl rfl)
  · rename_i hpc
    exact hunt_inv_mark _ a _ ha hi hpc rfl rfl rfl rfl
      (fun i h => biased_directions_all _ i h)
  · rename_i hpc
    exact dfs_probe_hunt_inv obj a hm hpc ha hi
  · rename_i hpc
    exact dfs_unwind_hunt_inv obj a hpc hi
  · exact hi

theorem randomized_dfs_thread_hunt_hunt_inv (gen : Nat → Nat) (obj : Thread_maze_object)
    (a : Thread_local) (hm : Perimeter_closed obj.maze)
    (ha : Dfs_agent_inv obj.maze a) (hi : Dfs_hunt_inv obj.maze a) :
    Dfs_hunt_inv (randomized_dfs_thread_hunt gen obj a).1.maze
      (randomized_dfs_thread_hunt gen obj a).2 := by
  unfold randomized_dfs_thread_hunt
  split
  · rename_i hpc
    have hsearch : a.pc.searching := Or.inl hpc
    split
    · rename_i hd
      exact hunt_inv_leave _ a _ hi (by simp only []; rw [hd]; rfl) rfl (Or.inl rfl)
    · rename_i top rest hd
      split_ifs with h1 h2
      · exact hunt_inv_same _ a _ hi rfl rfl rfl
          (fun h => by unfold Thread_pc.searching at h; simp at h)
          (fun h => by simp at h) (fun h => by simp at h) (fun h => by simp at h)
      · exact hunt_inv_same _ a _ hi rfl rfl rfl (fun _ => hsearch)
          (fun h => by simp at h) (fun h => by simp at h) (fun _ => h2)
      · exact hunt_inv_same _ a _ hi rfl rfl rfl (fun _ => hsearch)
          (fun h => by simp at h) (fun _ => by simpa using h2) (fun h => by simp at h)
  · simp only [claim_escape_maze]
    exact hunt_inv_leave _ a _ hi rfl rfl (Or.inl rfl)
  · rename_i hpc
    exact hunt_inv_mark _ a _ ha hi hpc rfl rfl rfl rfl
      (fun i h => shuffle_all _ i h)
  · rename_i hpc
    exact dfs_probe_hunt_inv obj a hm hpc ha hi
  · rename_i hpc
    exact dfs_unwind_hunt_inv obj a hpc hi
  · exact hi

theorem route_reachable (m : Maze) (start : Point) (stack : List Point)
    (h : m.route start stack) : ∀ p ∈ stack, m.search_reachable start p := by
  induction stack with
  | nil => intro p hp; exact absurd hp (by simp)
  | cons x rest ih =>
    intro p hp
    cases rest with
    | nil =>
      have h1 := h.1
      simp only [List.getLast?_singleton, Option.some.injEq] at h1
      simp only [List.mem_singleton] at hp
      rw [hp, h1]
      exact Relation.ReflTransGen.refl
    | cons y rest =>
      have hr : m.route start (y :: rest) := by
        rcases route_tail m start x (y :: rest) h with e | e
        · exact absurd e (by simp)
        · exact e
      rcases List.mem_cons.mp hp with e | hp
      · rw [e]
        have hy := ih hr y (List.mem_cons_self _ _)
        have hadj : y.adjacent x := (List.chain'_cons.mp h.2.1).1
        have hpath : m.path x.row x.col = true :=
          h.2.2.1 x (by rw [List.dropLast_cons₂]; exact List.mem_cons_self _ _)
        exact Relation.ReflTransGen.tail hy ⟨hadj, hpath⟩
      · exact ih hr p hp

theorem closed_reachable (m : Maze) (paint : Nat) (start : Point)
    (hs : m.seen_by start paint = true)
    (hc : ∀ p, m.seen_by p paint = true → ∀ d ∈ cardinal_directions_,
      m.path (p.step d).row (p.step d).col = true → m.seen_by (p.step d) paint = true)
    (g : Point) (hg : m.search_reachable start g) : m.seen_by g paint = true := by
  induction hg with
  | refl => exact hs
  | tail _ hstep ih =>
    obtain ⟨⟨d, hd, e⟩, hpath⟩ := hstep
    rw [e] at hpath ⊢
    exact hc _ ih d hd hpath

theorem search_reachable_frame (m m1 : Maze) (hpath : ∀ r c, m1.path r c = m.path r c)
    (a b : Point) (h : m.search_reachable a b) : m1.search_reachable a b := by
  induction h with
  | refl => exact Relation.ReflTransGen.refl
  | tail _ hstep ih =>
    exact Relation.ReflTransGen.tail ih ⟨hstep.1, by rw [hpath]; exact hstep.2⟩

theorem goal_reachable_frame (m m1 : Maze) (hpath : ∀ r c, m1.path r c = m.path r c)
    (hfin : ∀ r c, (m1.maze_ r c).finish_bit = (m.maze_ r c).finish_bit) (start : Point) :
    m1.goal_reachable start ↔ m.goal_reachable start := by
  constructor
  · rintro ⟨g, hg, hr⟩
    exact ⟨g, by rw [← hfin]; exact hg,
      search_reachable_frame m1 m (fun r c => (hpath r c).symm) _ _ hr⟩
  · rintro ⟨g, hg, hr⟩
    exact ⟨g, by rw [hfin]; exact hg, search_reachable_frame m m1 hpath _ _ hr⟩

theorem goal_reachable_step (paint : Nat) (m m1 : Maze) (h : Maze_step paint m m1)
    (start : Point) : m1.goal_reachable start ↔ m.goal_reachable start :=
  goal_reachable_frame m m1 (maze_step_path paint m m1 h) (maze_step_finish paint m m1 h) start

/-- An exhausted search has seen every cell that can be reached, and no seen
cell is a goal. -/
theorem exhausted_no_goal (m : Maze) (a : Thread_local) (hi : Dfs_hunt_inv m a)
    (hs : a.pc.searching) (hd : a.dfs = []) : ¬ m.goal_reachable a.start := by
  rintro ⟨g, hg, hr⟩
  have hstart : m.seen_by a.start a.paint = true := by
    rcases hi.started hs with h | h
    · rw [hd] at h; exact absurd h (by simp)
    · exact h
  have hseen := closed_reachable m a.paint a.start hstart
    (fun p hp => hi.closed hs p hp (by rw [hd]; simp)) g hr
  rw [hi.nofinish g hseen] at hg
  exact absurd hg (by decide)

theorem dfs_probe_local (obj : Thread_maze_object) (a : Thread_local) :
    (dfs_probe obj a).2.result = a.result
      ∧ ((dfs_probe obj a).2.pc = .loop_head ∨ (dfs_probe obj a).2.pc = a.pc) := by
  unfold dfs_probe
  split
  · exact ⟨rfl, Or.inl rfl⟩
  · simp only []
    split_ifs
    · exact ⟨rfl, Or.inl rfl⟩
    · exact ⟨rfl, Or.inr rfl⟩

theorem dfs_thread_hunt_alone (obj : Thread_maze_object) (a : Thread_local)
    (ha : Dfs_agent_inv obj.maze a) (hi : Dfs_hunt_inv obj.maze a) (ho : Hunt_alone obj a) :
    Hunt_alone (dfs_thread_hunt obj a).1 (dfs_thread_hunt obj a).2 := by
  unfold dfs_thread_hunt
  split
  · rename_i hpc
    have hs : a.pc.searching := Or.inl hpc
    obtain ⟨q1, q2, q3⟩ := ho.quiet hs
    split
    · rename_i hd
      exact
        { valid := Or.inr (Or.inl rfl)
          quiet := fun h => by unfold Thread_pc.searching at h; simp at h
          done := fun _ => Or.inr ⟨q2, hd, q3, exhausted_no_goal _ a hi hs hd⟩ }
    · rename_i top rest hd
      split_ifs with h1 h2
      · exact absurd q1 h1
      · exact
          { valid := Or.inl (Or.inr (Or.inr (Or.inl rfl)))
            quiet := fun _ => ⟨q1, q2, q3⟩
            done := fun h => by simp at h }
      · exact
          { valid := Or.inl (Or.inr (Or.inl rfl))
            quiet := fun _ => ⟨q1, q2, q3⟩
            done := fun h => by simp at h }
  · rename_i hpc
    have hs : a.pc.searching := Or.inr (Or.inr (Or.inl hpc))
    obtain ⟨q1, q2, q3⟩ := ho.quiet hs
    have htop := ha.top (Or.inr (Or.inl hpc))
    have hcur : a.cur ∈ a.dfs := List.mem_of_mem_head? htop
    have hroute : obj.maze.route a.start a.dfs := by
      rcases ha.route with e | e
      · rw [e] at hcur; exact absurd hcur (by simp)
      · exact e
    exact
      { valid := Or.inr (Or.inl rfl)
        quiet := fun h => by unfold Thread_pc.searching at h; simp at h
        done := fun _ => Or.inl ⟨by unfold claim_escape; simp only [q1]; rfl, by
          rw [claim_escape_maze]
          exact ⟨a.cur, hi.goal hpc, route_reachable _ _ _ hroute _ hcur⟩⟩ }
  · rename_i hpc
    have hs : a.pc.searching := Or.inr (Or.inl hpc)
    exact
      { valid := Or.inl (Or.inr (Or.inr (Or.inr rfl)))
        quiet := fun _ => ho.quiet hs
        done := fun h => by simp at h }
  · rename_i hpc
    have hs : a.pc.searching := Or.inr (Or.inr (Or.inr hpc))
    have hl := dfs_probe_local obj a
    have hf := dfs_probe_frame obj a
    have hsn : (dfs_probe obj a).2.pc.searching := by
      rcases hl.2 with e | e
      · exact Or.inl e
      · exact Or.inr (Or.inr (Or.inr (e.trans hpc)))
    exact
      { valid := Or.inl hsn
        quiet := fun _ => by rw [hf.1, hl.1, hf.2.2]; exact ho.quiet hs
        done := fun h => by
          rcases hl.2 with e | e
          · rw [e] at h; simp at h
          · rw [e, hpc] at h; simp at h }
  · rename_i hpc
    have hd := ho.done (Or.inl hpc)
    unfold dfs_unwind
    split
    · exact
        { valid := Or.inr (Or.inr rfl)
          quiet := fun h => by unfold Thread_pc.searching at h; simp at h
          done := fun _ => hd }
    · rename_i cur rest hdfs
      rcases hd with ⟨h1, h2⟩ | ⟨_, h2, _⟩
      · exact
          { valid := Or.inr (Or.inl hpc)
            quiet := fun h => by
              unfold Thread_pc.searching at h
              simp only [hpc] at h
              simp at h
            done := fun _ => Or.inl ⟨h1,
              (goal_reachable_step a.paint _ _ (or_paint_step _ _ _) _).2 h2⟩ }
      · rw [hdfs] at h2; exact absurd h2 (by simp)
  · exact ho

theorem dfs_potential_length (m : Maze) (a : Thread_local) :
    a.dfs.length ≤ dfs_potential m a := by
  unfold dfs_potential
  split
  · rename_i h; rw [h]; exact Nat.zero_le _
  · rename_i top rest h; rw [h]; simp only [List.length_cons]; omega

theorem unseen_erase_mark (m : Maze) (cur : Point) (paint : Nat) :
    ((or_seen m cur paint).unseen paint).erase cur = (m.unseen paint).erase cur := by
  ext p
  unfold Maze.unseen
  have hcells : (or_seen m cur paint).all_cells = m.all_cells := rfl
  simp only [Finset.mem_erase, Finset.mem_filter, List.mem_toFinset, hcells]
  constructor
  · rintro ⟨hne, hmem, hs⟩
    rw [or_seen_other _ _ _ _ _ hne] at hs
    exact ⟨hne, hmem, hs⟩
  · rintro ⟨hne, hmem, hs⟩
    rw [← or_seen_other m cur p paint paint hne] at hs
    exact ⟨hne, hmem, hs⟩

theorem unseen_erase_seen (m : Maze) (q : Point) (paint : Nat)
    (h : m.seen_by q paint = true) : (m.unseen paint).erase q = m.unseen paint := by
  apply Finset.erase_eq_of_not_mem
  unfold Maze.unseen
  simp only [Finset.mem_filter, List.mem_toFinset, not_and]
  intro _
  rw [h]
  decide

theorem unseen_mem (m : Maze) (p : Point) (paint : Nat)
    (hin : m.in_array p.row p.col) (h : m.seen_by p paint = false) : p ∈ m.unseen paint := by
  unfold Maze.unseen
  simp only [Finset.mem_filter, List.mem_toFinset]
  exact ⟨(mem_all_cells m p).2 hin, h⟩

theorem measure_terminates {S : Type} (f : S → S) (K : S → Prop) (fin : S → Prop)
    (μ : S → Nat) (hK : ∀ s, K s → K (f s)) (hμ : ∀ s, K s → ¬ fin s → μ (f s) < μ s) :
    ∀ s, K s → ∃ n, fin (f^[n] s) := by
  have key : ∀ k s, μ s = k → K s → ∃ n, fin (f^[n] s) := by
    intro k
    induction k using Nat.strong_induction_on with
    | _ k ih =>
      intro s hn hs
      by_cases hf : fin s
      · exact ⟨0, hf⟩
      · obtain ⟨n, h⟩ := ih (μ (f s)) (hn ▸ hμ s hs hf) (f s) rfl (hK s hs)
        exact ⟨n + 1, by rw [Function.iterate_succ_apply]; exact h⟩
  intro s hs
  exact key (μ s) s rfl hs

theorem in_array_of_step (m : Maze) (cur d : Point) (hd : d ∈ cardinal_directions_)
    (hw : m.within_perimeter cur.row cur.col) :
    m.in_array (cur.step d).row (cur.step d).col := by
  unfold Maze.within_perimeter at hw
  unfold Maze.in_array
  unfold cardinal_directions_ at hd
  simp only [List.mem_cons, List.mem_singleton, List.not_mem_nil, or_false] at hd
  rcases hd with rfl | rfl | rfl | rfl <;> unfold Point.step <;> simp only [] <;> omega

theorem dfs_potential_mark (m : Maze) (a b : Thread_local) (hd : b.dfs = a.dfs)
    (hp : b.paint = a.paint) (htop : a.dfs.head? = some a.cur) :
    dfs_potential (or_seen m a.cur a.paint) b = dfs_potential m a := by
  unfold dfs_potential
  rw [hd, hp]
  cases hdfs : a.dfs with
  | nil => rw [hdfs] at htop; exact absurd htop (by simp)
  | cons top rest =>
    rw [hdfs] at htop
    simp only [List.head?_cons, Option.some.injEq] at htop
    subst htop
    simp only []
    rw [unseen_erase_mark]

theorem dfs_potential_pop (m : Maze) (a b : Thread_local) (hd : b.dfs = a.dfs.tail)
    (hp : b.paint = a.paint) (htop : a.dfs.head? = some a.cur)
    (hseen : m.seen_by a.cur a.paint = true) :
    dfs_potential m b < dfs_potential m a := by
  unfold dfs_potential
  rw [hd, hp]
  cases hdfs : a.dfs with
  | nil => rw [hdfs] at htop; exact absurd htop (by simp)
  | cons top rest =>
    rw [hdfs] at htop
    simp only [List.head?_cons, Option.some.injEq] at htop
    subst htop
    simp only [List.tail_cons]
    rw [unseen_erase_seen m a.cur a.paint hseen]
    cases rest with
    | nil => simp only [List.length_nil]; omega
    | cons q t =>
      simp only [List.length_cons]
      have := Finset.card_erase_le (s := m.unseen a.paint) (a := q)
      omega

theorem dfs_potential_push (m : Maze) (a b : Thread_local) (next : Point)
    (hd : b.dfs = next :: a.dfs) (hp : b.paint = a.paint) (htop : a.dfs.head? = some a.cur)
    (hseen : m.seen_by a.cur a.paint = true) (hin : m.in_array next.row next.col)
    (hnext : m.seen_by next a.paint = false) :
    dfs_potential m b < dfs_potential m a := by
  unfold dfs_potential
  rw [hd, hp]
  cases hdfs : a.dfs with
  | nil => rw [hdfs] at htop; exact absurd htop (by simp)
  | cons top rest =>
    rw [hdfs] at htop
    simp only [List.head?_cons, Option.some.injEq] at htop
    subst htop
    simp only [List.length_cons]
    rw [unseen_erase_seen m a.cur a.paint hseen]
    have hmem := unseen_mem m next a.paint hin hnext
    have h1 := Finset.card_erase_of_mem hmem
    have h2 : 0 < (m.unseen a.paint).card := Finset.card_pos.mpr ⟨next, hmem⟩
    omega

theorem dfs_probe_measure (obj : Thread_maze_object) (a : Thread_local)
    (hpc : a.pc = .probe) (ha : Dfs_agent_inv obj.maze a) (hi : Dfs_hunt_inv obj.maze a) :
    dfs_measure (dfs_probe obj a).1.maze (dfs_probe obj a).2 < dfs_measure obj.maze a := by
  rw [(dfs_probe_frame obj a).1]
  have htop := ha.top (Or.inr (Or.inr hpc))
  have hseen := ha.marked hpc
  have hcur : a.cur ∈ a.dfs := List.mem_of_mem_head? htop
  have hm : dfs_measure obj.maze a = 8 * dfs_potential obj.maze a + (a.probes.length + 1) := by
    unfold dfs_measure; rw [hpc]
  rw [hm]
  unfold dfs_probe
  split
  · have := dfs_potential_pop obj.maze a { a with dfs := a.dfs.tail, pc := .loop_head }
      rfl rfl htop hseen
    unfold dfs_measure
    simp only []
    omega
  · rename_i i rest hprobes
    simp only []
    split_ifs with hc
    · simp only [Bool.and_eq_true, Bool.not_eq_true', ] at hc
      obtain ⟨hns, hpath⟩ := hc
      have hdir : cardinal_directions_.getD i ⟨0, 0⟩ ∈ cardinal_directions_ := by
        rcases cardinal_getD i with h | h
        · exact h
        · rw [h, step_zero] at hns
          rw [hns] at hseen
          exact absurd hseen (by decide)
      have hin := in_array_of_step obj.maze a.cur _ hdir (hi.inside _ hcur)
      have := dfs_potential_push obj.maze a
        { a with dfs := a.cur.step (cardinal_directions_.getD i ⟨0, 0⟩) :: a.dfs, probes := [],
                 pc := .loop_head } _ rfl rfl htop hseen hin hns
      unfold dfs_measure
      simp only []
      omega
    · have e : dfs_measure obj.maze { a with probes := rest }
          = 8 * dfs_potential obj.maze a + (rest.length + 1) := by
        unfold dfs_measure
        simp only [hpc]
        rfl
      rw [e, hprobes]
      simp only [List.length_cons]
      omega

theorem dfs_unwind_measure (obj : Thread_maze_object) (a : Thread_local)
    (hpc : a.pc = .unwind) :
    dfs_measure (dfs_unwind obj a).1.maze (dfs_unwind obj a).2 < dfs_measure obj.maze a := by
  have hm : dfs_measure obj.maze a = a.dfs.length + 2 := by
    unfold dfs_measure; rw [hpc]
  rw [hm]
  unfold dfs_unwind
  split
  · unfold dfs_measure
    simp only []
    omega
  · rename_i cur rest hd
    unfold dfs_measure
    simp only [hpc, hd, List.length_cons]
    omega

/-- Every step of a depth first hunt agent that has not returned lowers the
measure. -/
theorem dfs_thread_hunt_measure (obj : Thread_maze_object) (a : Thread_local)
    (ha : Dfs_agent_inv obj.maze a) (hi : Dfs_hunt_inv obj.maze a)
    (hv : a.pc.searching ∨ a.pc = .unwind ∨ a.pc = .returned) (hne : a.pc ≠ .returned) :
    dfs_measure (dfs_thread_hunt obj a).1.maze (dfs_thread_hunt obj a).2
      < dfs_measure obj.maze a := by
  have hlen := dfs_potential_length obj.maze a
  unfold dfs_thread_hunt
  split
  · rename_i hpc
    have hm : dfs_measure obj.maze a = 8 * dfs_potential obj.maze a + 7 := by
      unfold dfs_measure; rw [hpc]
    rw [hm]
    split
    · rename_i hd
      unfold dfs_measure
      simp only [hd, List.length_nil]
      omega
    · rename_i top rest hd
      split_ifs with h1 h2
      · unfold dfs_measure
        simp only []
        omega
      · unfold dfs_measure
        simp only []
        omega
      · have hpot : dfs_potential obj.maze { a with cur := top, pc := .mark }
            = dfs_potential obj.maze a := rfl
        unfold dfs_measure
        simp only [hpot]
        omega
  · rename_i hpc
    have hm : dfs_measure obj.maze a = a.dfs.length + 3 := by
      unfold dfs_measure; rw [hpc]
    rw [hm]
    unfold dfs_measure
    simp only [List.length_tail]
    omega
  · rename_i hpc
    have hm : dfs_measure obj.maze a = 8 * dfs_potential obj.maze a + 6 := by
      unfold dfs_measure; rw [hpc]
    rw [hm]
    have hpot := dfs_potential_mark obj.maze a
      { a with probes := biased_directions a.thread_index, pc := .probe } rfl rfl
      (ha.top (Or.inl hpc))
    unfold dfs_measure
    simp only [hpot, biased_directions_length]
    omega
  · rename_i hpc
    exact dfs_probe_measure obj a hpc ha hi
  · rename_i hpc
    exact dfs_unwind_measure obj a hpc
  · rename_i h1 h2 h3 h4 h5
    unfold Thread_pc.searching at hv
    rcases hv with (e | e | e | e) | e | e
    · exact absurd e h1
    · exact absurd e h3
    · exact absurd e h2
    · exact absurd e h4
    · exact absurd e h5
    · exact absurd e hne

theorem perimeter_closed_step (paint : Nat) (m m1 : Maze) (h : Maze_step paint m m1)
    (hm : Perimeter_closed m) : Perimeter_closed m1 := by
  intro row col hring
  rw [maze_step_path paint m m1 h]
  exact hm row col ((on_ring_sizes h.1 h.2.1 row col).1 hring)

theorem thread_step_dfs_hunt (gen : Nat → Nat) (obj : Thread_maze_object) (a : Thread_local)
    (h : a.function = .dfs_thread_hunt) : thread_step gen obj a = dfs_thread_hunt obj a := by
  unfold thread_step
  rw [h]

theorem spawn_dfs_hunt (start : Point) (i : Nat) :
    spawn .dfs_thread_hunt start i
      = { function := .dfs_thread_hunt, start := start, thread_index := i,
          paint := thread_masks_ i, cur := start, dfs := [start] } := rfl

theorem spawn_hunt_inv (m : Maze) (start : Point) (i : Nat)
    (hstart : m.within_perimeter start.row start.col)
    (hclear : ∀ p, m.seen_by p (thread_masks_ i) = false) :
    Dfs_hunt_inv m (spawn .dfs_thread_hunt start i) := by
  rw [spawn_dfs_hunt]
  exact
    { inside := fun p hp => by
        simp only [List.mem_singleton] at hp
        rw [hp]; exact hstart
      started := fun _ => Or.inl (List.mem_singleton_self _)
      closed := fun _ p hp => by
        simp only [] at hp
        rw [hclear p] at hp
        exact absurd hp (by decide)
      probed := fun h => by simp at h
      plain := fun h => by simp at h
      goal := fun h => by simp at h
      nofinish := fun p hp => by
        simp only [] at hp
        rw [hclear p] at hp
        exact absurd hp (by decide) }

/-- The invariant of the run alone holds at the fresh start and every step keeps
it. -/
theorem run_alone_dfs_hunt (gen : Nat → Nat) (obj : Thread_maze_object) (start : Point)
    (i : Nat) (hring : Perimeter_closed obj.maze)
    (hstart : obj.maze.within_perimeter start.row start.col)
    (hclear : ∀ p, obj.maze.seen_by p (thread_masks_ i) = false)
    (hslot : obj.escape_path_index_ = -1) (hpaths : obj.thread_paths_.getD i [] = []) :
    Dfs_hunt_run obj start i (obj, spawn .dfs_thread_hunt start i)
      ∧ ∀ s, Dfs_hunt_run obj start i s → Dfs_hunt_run obj start i (thread_step gen s.1 s.2) := by
  constructor
  · refine ⟨rfl, thread_masks_ne_zero i, hring,
      spawn_dfs_inv _ .dfs_thread_hunt _ _ ⟨by decide, by decide⟩,
      spawn_hunt_inv _ _ _ hstart hclear, ?_, rfl, rfl, Iff.rfl⟩
    rw [spawn_dfs_hunt]
    exact
      { valid := Or.inl (Or.inl rfl)
        quiet := fun _ => ⟨hslot, rfl, hpaths⟩
        done := fun h => by simp at h }
  · rintro ⟨o, a⟩ ⟨hf, hp, hm, ha, hi, ho, hs, hidx, hg⟩
    have hstep := thread_step_maze gen o a
    have hid := thread_step_ident gen o a
    have hfun := thread_step_function gen o a
    show Dfs_hunt_run obj start i (thread_step gen o a)
    rw [thread_step_dfs_hunt gen o a hf] at hstep hid hfun ⊢
    exact ⟨hfun.1.trans hf, by rw [hid.1]; exact hp, perimeter_closed_step _ _ _ hstep hm,
      dfs_thread_hunt_inv o a hp ha, dfs_thread_hunt_hunt_inv o a hm ha hi,
      dfs_thread_hunt_alone o a ha hi ho, hid.2.trans hs, hfun.2.trans hidx,
      (goal_reachable_step _ _ _ hstep start).trans hg⟩

theorem run_alone_succ (gen : Nat → Nat) (n : Nat) (obj : Thread_maze_object)
    (a : Thread_local) :
    run_alone gen (n + 1) obj a
      = thread_step gen (run_alone gen n obj a).1 (run_alone gen n obj a).2 := by
  unfold run_alone
  rw [Function.iterate_succ_apply']

theorem run_alone_dfs_hunt_inv (gen : Nat → Nat) (obj : Thread_maze_object) (start : Point)
    (i : Nat) (hring : Perimeter_closed obj.maze)
    (hstart : obj.maze.within_perimeter start.row start.col)
    (hclear : ∀ p, obj.maze.seen_by p (thread_masks_ i) = false)
    (hslot : obj.escape_path_index_ = -1) (hpaths : obj.thread_paths_.getD i [] = [])
    (n : Nat) :
    Dfs_hunt_run obj start i (run_alone gen n obj (spawn .dfs_thread_hunt start i)) := by
  obtain ⟨h0, hstep⟩ := run_alone_dfs_hunt gen obj start i hring hstart hclear hslot hpaths
  induction n with
  | zero => exact h0
  | succ k ih =>
    rw [run_alone_succ]
    exact hstep _ ih

/-- C22: on a grid whose outer ring is not passable, a single agent that runs
`dfs_thread_hunt` alone from a start inside the ring, in a fresh solve (slot -1,
no cell seen by the agent, its path empty), returns after finitely many steps;
whenever it has returned, its result is success exactly when a cell with the
finish flag can be reached from the start through cardinally adjacent passable
cells, and when none can be reached its stack is exhausted and its path is
empty. -/
theorem dfs_hunt_alone_decides_reachability (gen : Nat → Nat) (obj : Thread_maze_object)
    (start : Point) (i : Nat) (hring : Perimeter_closed obj.maze)
    (hstart : obj.maze.within_perimeter start.row start.col)
    (hclear : ∀ p, obj.maze.seen_by p (thread_masks_ i) = false)
    (hslot : obj.escape_path_index_ = -1) (hpaths : obj.thread_paths_.getD i [] = []) :
    (∃ n, (run_alone gen n obj (spawn .dfs_thread_hunt start i)).2.pc = .returned)
      ∧ ∀ n, (run_alone gen n obj (spawn .dfs_thread_hunt start i)).2.pc = .returned →
        ((run_alone gen n obj (spawn .dfs_thread_hunt start i)).2.result = true
            ↔ obj.maze.goal_reachable start)
          ∧ (¬ obj.maze.goal_reachable start →
            (run_alone gen n obj (spawn .dfs_thread_hunt start i)).2.dfs = []
              ∧ (run_alone gen n obj (spawn .dfs_thread_hunt start i)).1.thread_paths_.getD i []
                = []) := by
  obtain ⟨h0, hstep⟩ := run_alone_dfs_hunt gen obj start i hring hstart hclear hslot hpaths
  constructor
  · exact measure_terminates (fun s => thread_step gen s.1 s.2) (Dfs_hunt_run obj start i)
      (fun s => s.2.pc = .returned) (fun s => dfs_measure s.1.maze s.2) hstep
      (fun s hs hne => by
        obtain ⟨hf, _, _, ha, hi, ho, _⟩ := hs
        simp only []
        rw [thread_step_dfs_hunt gen s.1 s.2 hf]
        exact dfs_thread_hunt_measure s.1 s.2 ha hi ho.valid hne) _ h0
  · intro n hpc
    obtain ⟨_, _, _, _, _, ho, hs, hidx, hg⟩ :=
      run_alone_dfs_hunt_inv gen obj start i hring hstart hclear hslot hpaths n
    rw [← hg]
    have hd := ho.done (Or.inr hpc)
    rw [hs, hidx] at hd
    rcases hd with ⟨h1, h2⟩ | ⟨h1, h2, h3, h4⟩
    · exact ⟨⟨fun _ => h2, fun _ => h1⟩, fun hn => absurd h2 hn⟩
    · exact ⟨⟨fun h => by rw [h1] at h; exact absurd h (by decide), fun h => absurd h h4⟩,
        fun _ => ⟨h2, h3⟩⟩

theorem dfs_hunt_alone_decides_reachability_witness :
    (∃ n, (run_alone (fun n => n) n
      { builder_ := .arena, modification_ := .none, solver_ := .depth_first_search,
        game_ := .hunt,
        maze := { maze_row_size_ := 7, maze_col_size_ := 7,
                  maze_ := fun r c => if r = 1 ∧ 1 ≤ c ∧ c ≤ 3 then
                    { path_bit := true, finish_bit := decide (c = 3) } else {} },
        marks := {}, thread_paths_ := [[], [], [], []], escape_path_index_ := -1, pos := 0 }
      (spawn .dfs_thread_hunt ⟨1, 1⟩ 0)).2.pc = .returned)
      ∧ ∀ n, (run_alone (fun n => n) n
      { builder_ := .arena, modification_ := .none, solver_ := .depth_first_search,
        game_ := .hunt,
        maze := { maze_row_size_ := 7, maze_col_size_ := 7,
                  maze_ := fun r c => if r = 1 ∧ 1 ≤ c ∧ c ≤ 3 then
                    { path_bit := true, finish_bit := decide (c = 3) } else {} },
        marks := {}, thread_paths_ := [[], [], [], []], escape_path_index_ := -1, pos := 0 }
      (spawn .dfs_thread_hunt ⟨1, 1⟩ 0)).2.pc = .returned →
        ((run_alone (fun n => n) n
      { builder_ := .arena, modification_ := .none, solver_ := .depth_first_search,
        game_ := .hunt,
        maze := { maze_row_size_ := 7, maze_col_size_ := 7,
                  maze_ := fun r c => if r = 1 ∧ 1 ≤ c ∧ c ≤ 3 then
                    { path_bit := true, finish_bit := decide (c = 3) } else {} },
        marks := {}, thread_paths_ := [[], [], [], []], escape_path_index_ := -1, pos := 0 }
      (spawn .dfs_thread_hunt ⟨1, 1⟩ 0)).2.result = true
            ↔ (Thread_maze_object.maze
      { builder_ := .arena, modification_ := .none, solver_ := .depth_first_search,
        game_ := .hunt,
        maze := { maze_row_size_ := 7, maze_col_size_ := 7,
                  maze_ := fun r c => if r = 1 ∧ 1 ≤ c ∧ c ≤ 3 then
                    { path_bit := true, finish_bit := decide (c = 3) } else {} },
        marks := {}, thread_paths_ := [[], [], [], []], escape_path_index_ := -1, pos := 0 }).goal_reachable ⟨1, 1⟩)
          ∧ (¬ (Thread_maze_object.maze
      { builder_ := .arena, modification_ := .none, solver_ := .depth_first_search,
        game_ := .hunt,
        maze := { maze_row_size_ := 7, maze_col_size_ := 7,
                  maze_ := fun r c => if r = 1 ∧ 1 ≤ c ∧ c ≤ 3 then
                    { path_bit := true, finish_bit := decide (c = 3) } else {} },
        marks := {}, thread_paths_ := [[], [], [], []], escape_path_index_ := -1, pos := 0 }).goal_reachable ⟨1, 1⟩ →
            (run_alone (fun n => n) n
      { builder_ := .arena, modification_ := .none, solver_ := .depth_first_search,
        game_ := .hunt,
        maze := { maze_row_size_ := 7, maze_col_size_ := 7,
                  maze_ := fun r c => if r = 1 ∧ 1 ≤ c ∧ c ≤ 3 then
                    { path_bit := true, finish_bit := decide (c = 3) } else {} },
        marks := {}, thread_paths_ := [[], [], [], []], escape_path_index_ := -1, pos := 0 }
      (spawn .dfs_thread_hunt ⟨1, 1⟩ 0)).2.dfs = []
              ∧ (run_alone (fun n => n) n
      { builder_ := .arena, modification_ := .none, solver_ := .depth_first_search,
        game_ := .hunt,
        maze := { maze_row_size_ := 7, maze_col_size_ := 7,
                  maze_ := fun r c => if r = 1 ∧ 1 ≤ c ∧ c ≤ 3 then
                    { path_bit := true, finish_bit := decide (c = 3) } else {} },
        marks := {}, thread_paths_ := [[], [], [], []], escape_path_index_ := -1, pos := 0 }
      (spawn .dfs_thread_hunt ⟨1, 1⟩ 0)).1.thread_paths_.getD 0 [] = []) :=
  dfs_hunt_alone_decides_reachability (fun n => n)
    { builder_ := .arena, modification_ := .none, solver_ := .depth_first_search,
        game_ := .hunt,
        maze := { maze_row_size_ := 7, maze_col_size_ := 7,
                  maze_ := fun r c => if r = 1 ∧ 1 ≤ c ∧ c ≤ 3 then
                    { path_bit := true, finish_bit := decide (c = 3) } else {} },
        marks := {}, thread_paths_ := [[], [], [], []], escape_path_index_ := -1, pos := 0 }
    ⟨1, 1⟩ 0
    (fun row col h => by
      unfold Maze.on_ring Maze.in_array at h
      unfold Maze.path
      simp only [] at h ⊢
      rw [if_neg]
      omega)
    (by decide)
    (fun p => by
      unfold Maze.seen_by
      simp only []
      split_ifs <;> simp)
    rfl rfl

/-! ## The tree of parents of a breadth first agent -/

theorem lookup_cons_eq (k v : Point) (rest : List (Point × Point)) :
    List.lookup k ((k, v) :: rest) = some v := by
  simp [List.lookup]

theorem lookup_cons_ne (k k1 v : Point) (rest : List (Point × Point)) (h : k ≠ k1) :
    List.lookup k ((k1, v) :: rest) = List.lookup k rest := by
  rw [List.lookup_cons]
  have : (k == k1) = false := by simpa using h
  rw [this]

theorem ancestors_cons_ne (k parent p : Point) (rest : List (Point × Point)) (h : k ≠ p) :
    ancestors ((k, parent) :: rest) p = ancestors rest p := by
  rw [ancestors, if_neg h]

theorem ancestors_cons_eq (k parent : Point) (rest : List (Point × Point))
    (h : parent.row > 0) :
    ancestors ((k, parent) :: rest) k = parent :: ancestors rest parent := by
  rw [ancestors, if_pos rfl, if_pos h]

theorem forest_key_within (m : Maze) (start : Point) (seen : List (Point × Point))
    (h : Parent_forest m start seen) (k : Point) (hk : (seen.lookup k).isSome = true) :
    m.within_perimeter k.row k.col := by
  induction h with
  | root hs =>
    by_cases e : k = start
    · rw [e]; exact hs
    · rw [lookup_cons_ne _ _ _ _ e] at hk
      simp at hk
  | grow k1 parent rest _ _ _ _ _ hw ih =>
    by_cases e : k = k1
    · rw [e]; exact hw
    · rw [lookup_cons_ne _ _ _ _ e] at hk
      exact ih hk

theorem forest_key_row (m : Maze) (start : Point) (seen : List (Point × Point))
    (h : Parent_forest m start seen) (k : Point) (hk : (seen.lookup k).isSome = true) :
    k.row > 0 := (forest_key_within m start seen h k hk).1

theorem forest_start (m : Maze) (start : Point) (seen : List (Point × Point))
    (h : Parent_forest m start seen) :
    seen.lookup start = some ⟨-1, -1⟩ ∧ ancestors seen start = [] := by
  induction h with
  | root _ =>
    refine ⟨lookup_cons_eq _ _ _, ?_⟩
    rw [ancestors, if_pos rfl, if_neg (by decide)]
  | grow k1 parent rest _ hnew _ _ _ _ ih =>
    have hne : k1 ≠ start := by
      intro e
      rw [e, ih.1] at hnew
      exact absurd hnew (by simp)
    exact ⟨by rw [lookup_cons_ne _ _ _ _ (Ne.symm hne)]; exact ih.1,
      by rw [ancestors_cons_ne _ _ _ _ hne]; exact ih.2⟩

/-- The parent of a key is the sentinel, at the start only, or a key. -/
theorem forest_parent (m : Maze) (start : Point) (seen : List (Point × Point))
    (h : Parent_forest m start seen) (k parent : Point) (hk : seen.lookup k = some parent) :
    (k = start ∧ parent = ⟨-1, -1⟩)
      ∨ ((seen.lookup parent).isSome = true ∧ parent.adjacent k
        ∧ m.path k.row k.col = true) := by
  induction h with
  | root _ =>
    by_cases e : k = start
    · rw [e, lookup_cons_eq] at hk
      exact Or.inl ⟨e, (Option.some.inj hk).symm⟩
    · rw [lookup_cons_ne _ _ _ _ e] at hk
      simp at hk
  | grow k1 parent1 rest _ hnew hpar hadj hpath _ ih =>
    have hne1 : parent1 ≠ k1 := by
      intro e
      rw [e, hnew] at hpar
      exact absurd hpar (by simp)
    by_cases e : k = k1
    · rw [e, lookup_cons_eq] at hk
      have e2 := Option.some.inj hk
      rw [← e2, e]
      right
      exact ⟨by rw [lookup_cons_ne _ _ _ _ hne1]; exact hpar, hadj, hpath⟩
    · rw [lookup_cons_ne _ _ _ _ e] at hk
      rcases ih hk with h1 | ⟨h1, h2, h3⟩
      · exact Or.inl h1
      · right
        have hne : parent ≠ k1 := by
          intro e3
          rw [e3, hnew] at h1
          exact absurd h1 (by simp)
        exact ⟨by rw [lookup_cons_ne _ _ _ _ hne]; exact h1, h2, h3⟩

/-- One turn of the closing loop: the chain of a key is its parent followed by
the chain of the parent. -/
theorem ancestors_unfold (m : Maze) (start : Point) (seen : List (Point × Point))
    (h : Parent_forest m start seen) (k parent : Point) (hk : seen.lookup k = some parent) :
    ancestors seen k = trail seen parent := by
  unfold trail
  induction h with
  | root _ =>
    by_cases e : k = start
    · rw [e, lookup_cons_eq] at hk
      rw [← Option.some.inj hk, e, ancestors, if_pos rfl, if_neg (by decide),
        if_neg (by decide)]
    · rw [lookup_cons_ne _ _ _ _ e] at hk
      simp at hk
  | grow k1 parent1 rest hrest hnew hpar _ _ _ ih =>
    have hne1 : parent1 ≠ k1 := by
      intro e
      rw [e, hnew] at hpar
      exact absurd hpar (by simp)
    by_cases e : k = k1
    · rw [e, lookup_cons_eq] at hk
      have e2 := Option.some.inj hk
      rw [← e2, e]
      have hrow := forest_key_row m start rest hrest parent1 hpar
      rw [ancestors_cons_eq _ _ _ hrow, if_pos hrow,
        ancestors_cons_ne _ _ _ _ (Ne.symm hne1)]
    · rw [lookup_cons_ne _ _ _ _ e] at hk
      rw [ancestors_cons_ne _ _ _ _ (Ne.symm e), ih hk]
      split_ifs with hrow
      · rcases forest_parent m start rest hrest k parent hk with ⟨_, h2⟩ | ⟨h1, _, _⟩
        · rw [h2] at hrow; exact absurd hrow (by decide)
        · have hne : k1 ≠ parent := by
            intro e3
            rw [← e3, hnew] at h1
            exact absurd h1 (by simp)
          rw [ancestors_cons_ne _ _ _ _ hne]
      · rfl

theorem ancestors_keys (m : Maze) (start : Point) (seen : List (Point × Point))
    (h : Parent_forest m start seen) (p : Point) :
    ∀ x ∈ ancestors seen p, (seen.lookup x).isSome = true := by
  induction h generalizing p with
  | root _ =>
    intro x hx
    rw [ancestors] at hx
    split_ifs at hx with _ hrow
    · exact absurd hrow (by decide)
    · exact absurd hx (by simp)
    · exact absurd hx (by simp [ancestors])
  | grow k1 parent1 rest hrest hnew hpar _ _ _ ih =>
    intro x hx
    have keep : ∀ y, (rest.lookup y).isSome = true →
        (List.lookup y ((k1, parent1) :: rest)).isSome = true := by
      intro y hy
      have hne : y ≠ k1 := by
        intro e
        rw [e, hnew] at hy
        exact absurd hy (by simp)
      rw [lookup_cons_ne _ _ _ _ hne]
      exact hy
    rw [ancestors] at hx
    split_ifs at hx with e hrow
    · rcases List.mem_cons.mp hx with e2 | hx
      · rw [e2]; exact keep _ hpar
      · exact keep _ (ih parent1 x hx)
    · exact absurd hx (by simp)
    · exact keep _ (ih p x hx)

/-- A key in front of its chain of parents is a route from the start. -/
theorem forest_route (m : Maze) (start : Point) (seen : List (Point × Point))
    (h : Parent_forest m start seen) (g : Point) (hg : (seen.lookup g).isSome = true) :
    m.route start (g :: ancestors seen g) := by
  induction h generalizing g with
  | root _ =>
    by_cases e : g = start
    · rw [e, ancestors, if_pos rfl, if_neg (by decide)]
      exact route_single m start
    · rw [lookup_cons_ne _ _ _ _ e] at hg
      simp at hg
  | grow k1 parent1 rest hrest hnew hpar hadj hpath _ ih =>
    by_cases e : g = k1
    · rw [e]
      have hrow := forest_key_row m start rest hrest parent1 hpar
      rw [ancestors_cons_eq _ _ _ hrow]
      refine route_push m start k1 parent1 _ (ih parent1 hpar) hadj hpath ?_
      intro hmem
      have hkey : (rest.lookup k1).isSome = true := by
        rcases List.mem_cons.mp hmem with e2 | hmem
        · rw [e2]; exact hpar
        · exact ancestors_keys m start rest hrest parent1 k1 hmem
      rw [hnew] at hkey
      exact absurd hkey (by simp)
    · rw [lookup_cons_ne _ _ _ _ e] at hg
      rw [ancestors_cons_ne _ _ _ _ (Ne.symm e)]
      exact ih g hg

/-- Growing the map leaves the chains of the keys it had. -/
theorem ancestors_grow (seen : List (Point × Point)) (k parent p : Point)
    (hnew : seen.lookup k = none) (hp : (seen.lookup p).isSome = true) :
    ancestors ((k, parent) :: seen) p = ancestors seen p := by
  apply ancestors_cons_ne
  intro e
  rw [← e, hnew] at hp
  exact absurd hp (by simp)

theorem depth_grow (seen : List (Point × Point)) (k parent p : Point)
    (hnew : seen.lookup k = none) (hp : (seen.lookup p).isSome = true) :
    depth ((k, parent) :: seen) p = depth seen p := by
  unfold depth
  rw [ancestors_grow seen k parent p hnew hp]

theorem lookup_grow (seen : List (Point × Point)) (k parent p : Point)
    (hnew : seen.lookup k = none) (hp : (seen.lookup p).isSome = true) :
    (List.lookup p ((k, parent) :: seen)).isSome = true := by
  have hne : p ≠ k := by
    intro e
    rw [e, hnew] at hp
    exact absurd hp (by simp)
  rw [lookup_cons_ne _ _ _ _ hne]
  exact hp

theorem depth_new (m : Maze) (start : Point) (seen : List (Point × Point))
    (h : Parent_forest m start seen) (k parent : Point)
    (hpar : (seen.lookup parent).isSome = true) :
    depth ((k, parent) :: seen) k = depth seen parent + 1 := by
  unfold depth
  rw [ancestors_cons_eq _ _ _ (forest_key_row m start seen h parent hpar)]
  rfl

theorem forest_frame (m m1 : Maze) (start : Point) (seen : List (Point × Point))
    (hr : m1.maze_row_size_ = m.maze_row_size_) (hc : m1.maze_col_size_ = m.maze_col_size_)
    (hpath : ∀ r c, m1.path r c = m.path r c) (h : Parent_forest m start seen) :
    Parent_forest m1 start seen := by
  have hw : ∀ r c, m.within_perimeter r c → m1.within_perimeter r c := by
    intro r c h
    unfold Maze.within_perimeter at h ⊢
    rw [hr, hc]; exact h
  induction h with
  | root hs => exact Parent_forest.root (hw _ _ hs)
  | grow k parent rest _ hnew hpar hadj hp hwk ih =>
    exact Parent_forest.grow k parent rest ih hnew hpar hadj (by rw [hpath]; exact hp)
      (hw _ _ hwk)

/-! ## The invariant of the breadth first hunt -/

theorem bfs_inv_frame (m m1 : Maze) (a : Thread_local)
    (hr : m1.maze_row_size_ = m.maze_row_size_) (hc : m1.maze_col_size_ = m.maze_col_size_)
    (hpath : ∀ r c, m1.path r c = m.path r c)
    (hfin : ∀ r c, (m1.maze_ r c).finish_bit = (m.maze_ r c).finish_bit)
    (hi : Bfs_agent_inv m a) : Bfs_agent_inv m1 a :=
  { forest := forest_frame m m1 _ _ hr hc hpath hi.forest
    queued := hi.queued
    current := hi.current
    closed := fun h k hk hn d hd hp => hi.closed h k hk hn d hd (by rw [← hpath]; exact hp)
    probed := fun h i hi4 hn hp => hi.probed h i hi4 hn (by rw [← hpath]; exact hp)
    sorted := hi.sorted
    span := hi.span
    below := hi.below
    nofinish := fun h k hk hn => by rw [hfin]; exact hi.nofinish h k hk hn
    plain := fun h => by rw [hfin]; exact hi.plain h
    goal := fun h => by rw [hfin]; exact hi.goal h }

theorem bfs_inv_step (paint : Nat) (m m1 : Maze) (a : Thread_local) (h : Maze_step paint m m1)
    (hi : Bfs_agent_inv m a) : Bfs_agent_inv m1 a :=
  bfs_inv_frame m m1 a h.1 h.2.1 (maze_step_path paint m m1 h) (maze_step_finish paint m m1 h) hi

/-- A step inside the search loop that changes neither the map nor the
frontier. -/
theorem bfs_inv_same (m : Maze) (a b : Thread_local) (hi : Bfs_agent_inv m a)
    (hseen : b.seen = a.seen) (hs : b.start = a.start) (hf : b.frontier = a.frontier)
    (hsearch : b.pc.searching → a.pc.searching)
    (hcur : (b.seen.lookup b.cur).isSome = true)
    (hprobed : b.pc = .probe → ∀ i, i < 4 → i ∉ b.probes →
      m.path (b.cur.step (cardinal_directions_.getD i ⟨0, 0⟩)).row
          (b.cur.step (cardinal_directions_.getD i ⟨0, 0⟩)).col = true →
        (b.seen.lookup (b.cur.step (cardinal_directions_.getD i ⟨0, 0⟩))).isSome = true
          ∧ depth b.seen (b.cur.step (cardinal_directions_.getD i ⟨0, 0⟩))
            ≤ depth b.seen b.cur + 1)
    (hplain : b.pc = .mark ∨ b.pc = .probe → (m.maze_ b.cur.row b.cur.col).finish_bit = false)
    (hgoal : b.pc = .claim → (m.maze_ b.cur.row b.cur.col).finish_bit = true) :
    Bfs_agent_inv m b :=
  { forest := by rw [hseen, hs]; exact hi.forest
    queued := by rw [hseen, hf]; exact hi.queued
    current := fun _ => hcur
    closed := fun h => by rw [hseen, hf]; exact hi.closed (hsearch h)
    probed := hprobed
    sorted := fun h => by rw [hseen, hf]; exact hi.sorted (hsearch h)
    span := fun h => by rw [hseen, hf]; exact hi.span (hsearch h)
    below := fun h => by rw [hseen, hf]; exact hi.below (hsearch h)
    nofinish := fun h => by rw [hseen, hf]; exact hi.nofinish (hsearch h)
    plain := hplain
    goal := hgoal }

/-- A step that leaves the search loop. -/
theorem bfs_inv_leave (m : Maze) (a b : Thread_local) (hi : Bfs_agent_inv m a)
    (hseen : b.seen = a.seen) (hs : b.start = a.start)
    (hq : ∀ p ∈ b.bfs, (a.seen.lookup p).isSome = true)
    (hpc : b.pc = .unwind ∨ b.pc = .trace ∨ b.pc = .returned ∨ b.pc = .threw)
    (hcur : b.pc = .unwind → (b.seen.lookup b.cur).isSome = true) : Bfs_agent_inv m b := by
  have hns : ¬ b.pc.searching := by
    unfold Thread_pc.searching
    rcases hpc with e | e | e | e <;> rw [e] <;> decide
  have hf : b.frontier = b.bfs := by
    unfold Thread_local.frontier
    rw [if_neg]
    rcases hpc with e | e | e | e <;> rw [e] <;> decide
  exact
    { forest := by rw [hseen, hs]; exact hi.forest
      queued := by rw [hseen, hf]; exact hq
      current := fun h => by
        rcases h with h | h
        · exact absurd h hns
        · exact hcur h
      closed := fun h => absurd h hns
      probed := fun h => by
        rcases hpc with e | e | e | e <;> rw [e] at h <;> exact absurd h (by decide)
      sorted := fun h => absurd h hns
      span := fun h => absurd h hns
      below := fun h => absurd h hns
      nofinish := fun h => absurd h hns
      plain := fun h => by
        rcases hpc with e | e | e | e <;> rw [e] at h <;> exact absurd h (by decide)
      goal := fun h => by
        rcases hpc with e | e | e | e <;> rw [e] at h <;> exact absurd h (by decide) }

theorem seen_at_cases (a : Thread_local) :
    (seen_at a).seen = a.seen ∧ (seen_at a).start = a.start ∧ (seen_at a).bfs = a.bfs
      ∧ (seen_at a).result = a.result ∧ (seen_at a).thread_index = a.thread_index
      ∧ ((∃ parent, a.seen.lookup a.cur = some parent ∧ (seen_at a).cur = parent
            ∧ (seen_at a).pc = .trace)
        ∨ (a.seen.lookup a.cur = none ∧ (seen_at a).pc = .threw)) := by
  unfold seen_at
  split
  · rename_i parent h
    exact ⟨rfl, rfl, rfl, rfl, rfl, Or.inl ⟨parent, h, rfl, rfl⟩⟩
  · rename_i h
    exact ⟨rfl, rfl, rfl, rfl, rfl, Or.inr ⟨h, rfl⟩⟩

theorem seen_at_inv (m : Maze) (a : Thread_local) (hi : Bfs_agent_inv m a)
    (hpc : a.pc = .unwind ∨ a.pc = .trace) : Bfs_agent_inv m (seen_at a) := by
  obtain ⟨h1, h2, h3, _, _, h6⟩ := seen_at_cases a
  have hf : a.frontier = a.bfs := by
    unfold Thread_local.frontier
    rw [if_neg]
    rcases hpc with e | e <;> rw [e] <;> decide
  refine bfs_inv_leave m a _ hi h1 h2 (by rw [h3, ← hf]; exact hi.queued) ?_ ?_
  · rcases h6 with ⟨_, _, _, e⟩ | ⟨_, e⟩
    · exact Or.inr (Or.inl e)
    · exact Or.inr (Or.inr (Or.inr e))
  · intro h
    rcases h6 with ⟨_, _, _, e⟩ | ⟨_, e⟩ <;> rw [e] at h <;> exact absurd h (by decide)

theorem frontier_probe (a : Thread_local) (h : a.pc = .probe) : a.frontier = a.cur :: a.bfs := by
  unfold Thread_local.frontier
  rw [if_pos (Or.inr (Or.inr h))]

theorem frontier_loop_head (a : Thread_local) (h : a.pc = .loop_head) : a.frontier = a.bfs := by
  unfold Thread_local.frontier
  rw [if_neg]
  rw [h]
  decide

theorem bfs_probe_done_inv (m : Maze) (a : Thread_local) (hpc : a.pc = .probe)
    (hprobes : a.probes = []) (hi : Bfs_agent_inv m a) :
    Bfs_agent_inv m { a with pc := .loop_head } := by
  have hs : a.pc.searching := Or.inr (Or.inr (Or.inr hpc))
  have hfa := frontier_probe a hpc
  have hfb : ({ a with pc := .loop_head } : Thread_local).frontier = a.bfs :=
    frontier_loop_head _ rfl
  have hsorted := hi.sorted hs
  rw [hfa] at hsorted
  have hsp := List.pairwise_cons.mp hsorted
  have hmem : ∀ p, p ∈ a.bfs → p ∈ a.frontier := fun p hp => by
    rw [hfa]; exact List.mem_cons_of_mem _ hp
  have hnot : ∀ k, k ≠ a.cur → k ∉ a.bfs → k ∉ a.frontier := fun k h1 h2 => by
    rw [hfa]
    intro h
    rcases List.mem_cons.mp h with e | e
    · exact h1 e
    · exact h2 e
  exact
    { forest := hi.forest
      queued := by rw [hfb]; exact fun p hp => hi.queued p (hmem p hp)
      current := fun _ => hi.current (Or.inl hs)
      closed := fun _ k hk hn d hd hp => by
        rw [hfb] at hn
        by_cases e : k = a.cur
        · obtain ⟨i, hi4, hdi⟩ := cardinal_index d hd
          rw [e, ← hdi] at hp ⊢
          exact hi.probed hpc i hi4 (by rw [hprobes]; simp) hp
        · exact hi.closed hs k hk (hnot k e hn) d hd hp
      probed := fun h => by simp at h
      sorted := fun _ => by rw [hfb]; exact hsp.2
      span := fun _ h hh o ho => by
        rw [hfb] at hh ho
        have h1 := hi.span hs a.cur (by rw [hfa]; rfl) o (hmem o ho)
        have h2 := hsp.1 h (List.mem_of_mem_head? hh)
        exact le_trans h1 (Nat.succ_le_succ h2)
      below := fun _ k hk hn o ho => by
        rw [hfb] at hn ho
        by_cases e : k = a.cur
        · rw [e]; exact hsp.1 o ho
        · exact hi.below hs k hk (hnot k e hn) o (hmem o ho)
      nofinish := fun _ k hk hn => by
        rw [hfb] at hn
        by_cases e : k = a.cur
        · rw [e]; exact hi.plain (Or.inr hpc)
        · exact hi.nofinish hs k hk (hnot k e hn)
      plain := fun h => by simp at h
      goal := fun h => by simp at h }

theorem bfs_probe_skip_inv (m : Maze) (a : Thread_local) (hpc : a.pc = .probe)
    (i : Nat) (rest : List Nat) (hprobes : a.probes = i :: rest)
    (hc : m.path (a.cur.step (cardinal_directions_.getD i ⟨0, 0⟩)).row
        (a.cur.step (cardinal_directions_.getD i ⟨0, 0⟩)).col = true →
      (a.seen.lookup (a.cur.step (cardinal_directions_.getD i ⟨0, 0⟩))).isSome = true)
    (hi : Bfs_agent_inv m a) : Bfs_agent_inv m { a with probes := rest } := by
  have hs : a.pc.searching := Or.inr (Or.inr (Or.inr hpc))
  have hfa := frontier_probe a hpc
  have hfb : ({ a with probes := rest } : Thread_local).frontier = a.frontier := by
    rw [hfa]
    exact frontier_probe _ hpc
  refine bfs_inv_same m a _ hi rfl rfl hfb (fun _ => hs) (hi.current (Or.inl hs)) ?_
    (fun _ => hi.plain (Or.inr hpc)) (fun h => by rw [hpc] at h; exact absurd h (by decide))
  intro _ j hj4 hn hp
  simp only [] at hn hp ⊢
  by_cases e : j = i
  · subst e
    have hkey := hc hp
    refine ⟨hkey, ?_⟩
    by_cases hin : a.cur.step (cardinal_directions_.getD j ⟨0, 0⟩) ∈ a.frontier
    · exact hi.span hs a.cur (by rw [hfa]; rfl) _ hin
    · exact le_trans (hi.below hs _ hkey hin a.cur (by rw [hfa]; exact List.mem_cons_self _ _))
        (Nat.le_succ _)
  · exact hi.probed hpc j hj4 (by rw [hprobes]; simp [e, hn]) hp

theorem bfs_probe_add_inv (m : Maze) (hm : Perimeter_closed m) (a : Thread_local)
    (hpc : a.pc = .probe) (i : Nat) (rest : List Nat) (hprobes : a.probes = i :: rest)
    (hnew : a.seen.lookup (a.cur.step (cardinal_directions_.getD i ⟨0, 0⟩)) = none)
    (hpath : m.path (a.cur.step (cardinal_directions_.getD i ⟨0, 0⟩)).row
        (a.cur.step (cardinal_directions_.getD i ⟨0, 0⟩)).col = true)
    (hi : Bfs_agent_inv m a) :
    Bfs_agent_inv m
      { a with seen := (a.cur.step (cardinal_directions_.getD i ⟨0, 0⟩), a.cur) :: a.seen,
               bfs := a.bfs ++ [a.cur.step (cardinal_directions_.getD i ⟨0, 0⟩)],
               probes := rest } := by
  have hs : a.pc.searching := Or.inr (Or.inr (Or.inr hpc))
  have hfa := frontier_probe a hpc
  have hcur := hi.current (Or.inl hs)
  have hdir : cardinal_directions_.getD i ⟨0, 0⟩ ∈ cardinal_directions_ := by
    rcases cardinal_getD i with h | h
    · exact h
    · rw [h, step_zero] at hnew
      rw [hnew] at hcur
      exact absurd hcur (by simp)
  generalize hnx : a.cur.step (cardinal_directions_.getD i ⟨0, 0⟩) = next at hnew hpath ⊢
  have hfb : ({ a with seen := (next, a.cur) :: a.seen, bfs := a.bfs ++ [next],
                       probes := rest } : Thread_local).frontier
      = a.cur :: (a.bfs ++ [next]) := frontier_probe _ hpc
  have hwithin : m.within_perimeter next.row next.col := by
    rw [← hnx] at hpath ⊢
    exact within_of_path m hm _ _ hdir (forest_key_within m _ _ hi.forest _ hcur) hpath
  have hforest : Parent_forest m a.start ((next, a.cur) :: a.seen) :=
    Parent_forest.grow next a.cur a.seen hi.forest hnew hcur ⟨_, hdir, hnx.symm⟩ hpath hwithin
  have hold : ∀ p, p ∈ a.cur :: (a.bfs ++ [next]) → p ≠ next → p ∈ a.frontier := by
    intro p hp hne
    rw [hfa]
    rcases List.mem_cons.mp hp with e | hp
    · rw [e]; exact List.mem_cons_self _ _
    · rcases List.mem_append.mp hp with hp | hp
      · exact List.mem_cons_of_mem _ hp
      · exact absurd (List.mem_singleton.mp hp) hne
  have hnotold : ∀ k, k ∉ a.cur :: (a.bfs ++ [next]) → k ∉ a.frontier := by
    intro k hk hin
    rw [hfa] at hin
    apply hk
    rcases List.mem_cons.mp hin with e | hin
    · rw [e]; exact List.mem_cons_self _ _
    · exact List.mem_cons_of_mem _ (List.mem_append_left _ hin)
  have holdkey : ∀ k, (List.lookup k ((next, a.cur) :: a.seen)).isSome = true → k ≠ next →
      (a.seen.lookup k).isSome = true := by
    intro k hk hne
    rw [lookup_cons_ne _ _ _ _ hne] at hk
    exact hk
  have hdnext : depth ((next, a.cur) :: a.seen) next = depth a.seen a.cur + 1 :=
    depth_new m a.start a.seen hi.forest next a.cur hcur
  have hdold : ∀ k, (a.seen.lookup k).isSome = true →
      depth ((next, a.cur) :: a.seen) k = depth a.seen k :=
    fun k hk => depth_grow a.seen next a.cur k hnew hk
  have hlk : ∀ k, (a.seen.lookup k).isSome = true →
      (List.lookup k ((next, a.cur) :: a.seen)).isSome = true :=
    fun k hk => lookup_grow a.seen next a.cur k hnew hk
  have hnextin : next ∈ a.cur :: (a.bfs ++ [next]) :=
    List.mem_cons_of_mem _ (List.mem_append_right _ (List.mem_singleton_self _))
  have hfkey : ∀ p, p ∈ a.cur :: (a.bfs ++ [next]) →
      depth ((next, a.cur) :: a.seen) p ≤ depth a.seen a.cur + 1 := by
    intro p hp
    by_cases e : p = next
    · rw [e, hdnext]
    · have hin := hold p hp e
      rw [hdold p (hi.queued p hin)]
      exact hi.span hs a.cur (by rw [hfa]; rfl) p hin
  exact
    { forest := hforest
      queued := by
        rw [hfb]
        intro p hp
        by_cases e : p = next
        · rw [e]
          simp only []
          rw [lookup_cons_eq]
          rfl
        · exact hlk p (hi.queued p (hold p hp e))
      current := fun _ => hlk _ hcur
      closed := fun _ k hk hn d hd hp => by
        rw [hfb] at hn
        simp only [] at hk ⊢
        have hne : k ≠ next := fun e => hn (e ▸ hnextin)
        have hk0 := holdkey k hk hne
        obtain ⟨h1, h2⟩ := hi.closed hs k hk0 (hnotold k hn) d hd hp
        exact ⟨hlk _ h1, by rw [hdold _ h1, hdold _ hk0]; exact h2⟩
      probed := fun _ j hj4 hn hp => by
        simp only [] at hn hp ⊢
        by_cases e : j = i
        · rw [e, hnx]
          refine ⟨by rw [lookup_cons_eq]; rfl, ?_⟩
          rw [hdnext, hdold _ hcur]
        · obtain ⟨h1, h2⟩ := hi.probed hpc j hj4 (by rw [hprobes]; simp [e, hn]) hp
          exact ⟨hlk _ h1, by rw [hdold _ h1, hdold _ hcur]; exact h2⟩
      sorted := fun _ => by
        rw [hfb]
        simp only []
        have hsorted := hi.sorted hs
        rw [hfa] at hsorted
        have h0 : List.Pairwise
            (fun x y => depth ((next, a.cur) :: a.seen) x ≤ depth ((next, a.cur) :: a.seen) y)
            (a.cur :: a.bfs) := by
          refine List.Pairwise.imp_of_mem ?_ hsorted
          intro x y hx hy hxy
          rw [hdold x (hi.queued x (by rw [hfa]; exact hx)),
            hdold y (hi.queued y (by rw [hfa]; exact hy))]
          exact hxy
        have h1 : a.cur :: (a.bfs ++ [next]) = (a.cur :: a.bfs) ++ [next] := rfl
        rw [h1, List.pairwise_append]
        refine ⟨h0, List.pairwise_singleton _ _, ?_⟩
        intro x hx y hy
        rw [List.mem_singleton.mp hy, hdnext]
        have := hfkey x (by rw [h1]; exact List.mem_append_left _ hx)
        exact this
      span := fun _ h hh o ho => by
        rw [hfb] at hh ho
        simp only [List.head?_cons, Option.some.injEq] at hh
        simp only []
        rw [← hh, hdold _ hcur]
        exact hfkey o ho
      below := fun _ k hk hn o ho => by
        rw [hfb] at hn ho
        simp only [] at hk ⊢
        have hne : k ≠ next := fun e => hn (e ▸ hnextin)
        have hk0 := holdkey k hk hne
        rw [hdold k hk0]
        by_cases e : o = next
        · rw [e, hdnext]
          exact le_trans (hi.below hs k hk0 (hnotold k hn) a.cur
            (by rw [hfa]; exact List.mem_cons_self _ _)) (Nat.le_succ _)
        · have hin := hold o ho e
          rw [hdold o (hi.queued o hin)]
          exact hi.below hs k hk0 (hnotold k hn) o hin
      nofinish := fun _ k hk hn => by
        rw [hfb] at hn
        simp only [] at hk
        have hne : k ≠ next := fun e => hn (e ▸ hnextin)
        exact hi.nofinish hs k (holdkey k hk hne) (hnotold k hn)
      plain := fun _ => hi.plain (Or.inr hpc)
      goal := fun h => by rw [hpc] at h; exact absurd h (by decide) }

theorem bfs_probe_inv (obj : Thread_maze_object) (a : Thread_local)
    (hm : Perimeter_closed obj.maze) (hpc : a.pc = .probe)
    (hi : Bfs_agent_inv obj.maze a) :
    Bfs_agent_inv (bfs_probe obj a).1.maze (bfs_probe obj a).2 := by
  rw [(bfs_probe_frame obj a).1]
  unfold bfs_probe
  split
  · rename_i hprobes
    exact bfs_probe_done_inv _ a hpc hprobes hi
  · rename_i i rest hprobes
    simp only []
    split_ifs with hc
    · simp only [Bool.and_eq_true, Option.isNone_iff_eq_none] at hc
      exact bfs_probe_add_inv _ hm a hpc i rest hprobes hc.1 hc.2 hi
    · refine bfs_probe_skip_inv _ a hpc i rest hprobes ?_ hi
      intro hp
      simp only [Bool.and_eq_true, Option.isNone_iff_eq_none, not_and] at hc
      by_contra hcon
      apply hc _ hp
      cases hl : List.lookup (a.cur.step (cardinal_directions_.getD i ⟨0, 0⟩)) a.seen with
      | none => rfl
      | some v => rw [hl] at hcon; exact absurd rfl hcon

theorem frontier_working (a : Thread_local) (h : a.pc = .claim ∨ a.pc = .mark) :
    a.frontier = a.cur :: a.bfs := by
  unfold Thread_local.frontier
  rw [if_pos]
  rcases h with e | e
  · exact Or.inl e
  · exact Or.inr (Or.inl e)

theorem bfs_thread_hunt_inv (obj : Thread_maze_object) (a : Thread_local)
    (hm : Perimeter_closed obj.maze) (hi : Bfs_agent_inv obj.maze a) :
    Bfs_agent_inv (bfs_thread_hunt obj a).1.maze (bfs_thread_hunt obj a).2 := by
  unfold bfs_thread_hunt
  split
  · rename_i hpc
    have hs : a.pc.searching := Or.inl hpc
    have hfa := frontier_loop_head a hpc
    have hq : ∀ p ∈ a.bfs, (a.seen.lookup p).isSome = true := by
      rw [← hfa]; exact hi.queued
    split
    · exact bfs_inv_leave _ a _ hi rfl rfl hq (Or.inl rfl) (fun _ => hi.current (Or.inl hs))
    · rename_i front rest hd
      have hfront : (a.seen.lookup front).isSome = true :=
        hq front (by rw [hd]; exact List.mem_cons_self _ _)
      split_ifs with h1 h2
      · exact bfs_inv_leave _ a _ hi rfl rfl hq (Or.inl rfl) (fun _ => hi.current (Or.inl hs))
      · exact bfs_inv_same _ a _ hi rfl rfl
          (by rw [hfa, hd]; exact frontier_working _ (Or.inl rfl)) (fun _ => hs) hfront
          (fun h => by simp at h) (fun h => by simp at h) (fun _ => h2)
      · exact bfs_inv_same _ a _ hi rfl rfl
          (by rw [hfa, hd]; exact frontier_working _ (Or.inr rfl)) (fun _ => hs) hfront
          (fun h => by simp at h) (fun _ => by simpa using h2) (fun h => by simp at h)
  · rename_i hpc
    have hs : a.pc.searching := Or.inr (Or.inr (Or.inl hpc))
    simp only [claim_escape_maze]
    exact bfs_inv_leave _ a _ hi rfl rfl
      (fun p hp => hi.queued p (by
        rw [frontier_working a (Or.inl hpc)]; exact List.mem_cons_of_mem _ hp))
      (Or.inl rfl) (fun _ => hi.current (Or.inl hs))
  · rename_i hpc
    have hs : a.pc.searching := Or.inr (Or.inl hpc)
    have hi2 := bfs_inv_step a.paint _ _ a (or_paint_step obj.maze a.cur a.paint) hi
    exact bfs_inv_same _ a _ hi2 rfl rfl
      (by rw [frontier_working a (Or.inr hpc)]; exact frontier_probe _ rfl) (fun _ => hs)
      (hi.current (Or.inl hs))
      (fun _ i hi4 hn => absurd (biased_directions_all _ i hi4) hn)
      (fun _ => hi2.plain (Or.inl hpc)) (fun h => by simp at h)
  · rename_i hpc
    exact bfs_probe_inv obj a hm hpc hi
  · rename_i hpc
    exact seen_at_inv _ a hi (Or.inl hpc)
  · rename_i hpc
    split_ifs
    · exact seen_at_inv _ a hi (Or.inr hpc)
    · exact bfs_inv_leave _ a _ hi rfl rfl
        (fun p hp => hi.queued p (by
          unfold Thread_local.frontier
          rw [if_neg (by rw [hpc]; decide)]
          exact hp))
        (Or.inr (Or.inr (Or.inl rfl))) (fun h => by simp at h)
  · exact hi

theorem spawn_bfs_hunt (start : Point) (i : Nat) :
    spawn .bfs_thread_hunt start i
      = { function := .bfs_thread_hunt, start := start, thread_index := i,
          paint := thread_masks_ i, cur := start, bfs := [start],
          seen := [(start, ⟨-1, -1⟩)] } := rfl

theorem spawn_bfs_inv (m : Maze) (start : Point) (i : Nat)
    (hstart : m.within_perimeter start.row start.col) :
    Bfs_agent_inv m (spawn .bfs_thread_hunt start i) := by
  have hseen : (spawn .bfs_thread_hunt start i).seen = [(start, ⟨-1, -1⟩)] := rfl
  have hf : (spawn .bfs_thread_hunt start i).frontier = [start] := frontier_loop_head _ rfl
  have hkey : ∀ p, p ∈ [start] → (List.lookup p [(start, (⟨-1, -1⟩ : Point))]).isSome = true := by
    intro p hp
    rw [List.mem_singleton.mp hp, lookup_cons_eq]
    rfl
  have hnone : ∀ k, (List.lookup k [(start, (⟨-1, -1⟩ : Point))]).isSome = true →
      k ∉ [start] → False := by
    intro k hk hn
    by_cases e : k = start
    · exact hn (by rw [e]; exact List.mem_singleton_self _)
    · rw [lookup_cons_ne _ _ _ _ e] at hk
      simp at hk
  exact
    { forest := Parent_forest.root hstart
      queued := by rw [hf, hseen]; exact hkey
      current := fun _ => hkey _ (List.mem_singleton_self _)
      closed := fun _ k hk hn => by
        rw [hf] at hn
        rw [hseen] at hk
        exact (hnone k hk hn).elim
      probed := fun h => by simp [spawn] at h
      sorted := fun _ => by rw [hf]; exact List.pairwise_singleton _ _
      span := fun _ h hh o ho => by
        rw [hf] at hh ho
        simp only [List.head?_cons, Option.some.injEq] at hh
        rw [List.mem_singleton.mp ho, hh]
        exact Nat.le_succ _
      below := fun _ k hk hn => by
        rw [hf] at hn
        rw [hseen] at hk
        exact (hnone k hk hn).elim
      nofinish := fun _ k hk hn => by
        rw [hf] at hn
        rw [hseen] at hk
        exact (hnone k hk hn).elim
      plain := fun h => by simp [spawn] at h
      goal := fun h => by simp [spawn] at h }

/-! ## The stored paths -/

theorem push_back_path_frame (paths : List (List Point)) (i : Nat) (p : Point) :
    (push_back_path paths i p).length = paths.length
      ∧ ∀ j, j ≠ i → (push_back_path paths i p).getD j [] = paths.getD j [] := by
  unfold push_back_path
  refine ⟨List.length_set _ _ _, fun j hj => ?_⟩
  simp only [List.getD_eq_getElem?_getD]
  rw [List.getElem?_set_ne (Ne.symm hj)]

theorem push_back_path_own (paths : List (List Point)) (i : Nat) (p : Point)
    (h : i < paths.length) :
    (push_back_path paths i p).getD i [] = paths.getD i [] ++ [p] := by
  unfold push_back_path
  rw [List.getD_eq_getElem?_getD, List.getElem?_set_self h]
  rfl

theorem claim_escape_paths (obj : Thread_maze_object) (a : Thread_local) :
    (claim_escape obj a).1.thread_paths_ = obj.thread_paths_ := by
  unfold claim_escape
  simp only []
  split_ifs <;> rfl

theorem dfs_unwind_paths (obj : Thread_maze_object) (a : Thread_local) :
    (dfs_unwind obj a).1.thread_paths_.length = obj.thread_paths_.length
      ∧ ∀ j, j ≠ a.thread_index →
        (dfs_unwind obj a).1.thread_paths_.getD j [] = obj.thread_paths_.getD j [] := by
  unfold dfs_unwind
  split
  · exact ⟨rfl, fun _ _ => rfl⟩
  · exact push_back_path_frame _ _ _

/-- A step of an agent keeps the number of stored paths and touches the path of
no other agent. -/
theorem thread_step_paths (gen : Nat → Nat) (obj : Thread_maze_object) (a : Thread_local) :
    (thread_step gen obj a).1.thread_paths_.length = obj.thread_paths_.length
      ∧ ∀ j, j ≠ a.thread_index →
        (thread_step gen obj a).1.thread_paths_.getD j [] = obj.thread_paths_.getD j [] := by
  unfold thread_step
  split
  · unfold dfs_thread_hunt
    split
    · split
      · exact ⟨rfl, fun _ _ => rfl⟩
      · split_ifs <;> exact ⟨rfl, fun _ _ => rfl⟩
    · rw [claim_escape_paths]; exact ⟨rfl, fun _ _ => rfl⟩
    · exact ⟨rfl, fun _ _ => rfl⟩
    · rw [(dfs_probe_frame obj a).1]; exact ⟨rfl, fun _ _ => rfl⟩
    · exact dfs_unwind_paths obj a
    · exact ⟨rfl, fun _ _ => rfl⟩
  · unfold randomized_dfs_thread_hunt
    split
    · split
      · exact ⟨rfl, fun _ _ => rfl⟩
      · split_ifs <;> exact ⟨rfl, fun _ _ => rfl⟩
    · rw [claim_escape_paths]; exact ⟨rfl, fun _ _ => rfl⟩
    · exact ⟨rfl, fun _ _ => rfl⟩
    · rw [(dfs_probe_frame obj a).1]; exact ⟨rfl, fun _ _ => rfl⟩
    · exact dfs_unwind_paths obj a
    · exact ⟨rfl, fun _ _ => rfl⟩
  · unfold dfs_thread_gather
    split
    · split
      · exact ⟨rfl, fun _ _ => rfl⟩
      · split_ifs <;> exact ⟨rfl, fun _ _ => rfl⟩
    · rw [(dfs_probe_frame obj a).1]; exact ⟨rfl, fun _ _ => rfl⟩
    · exact dfs_unwind_paths obj a
    · exact ⟨rfl, fun _ _ => rfl⟩
  · unfold randomized_dfs_thread_gather
    split
    · split
      · exact ⟨rfl, fun _ _ => rfl⟩
      · split_ifs <;> exact ⟨rfl, fun _ _ => rfl⟩
    · rw [(dfs_probe_frame obj a).1]; exact ⟨rfl, fun _ _ => rfl⟩
    · exact dfs_unwind_paths obj a
    · exact ⟨rfl, fun _ _ => rfl⟩
  · unfold bfs_thread_hunt
    split
    · split
      · exact ⟨rfl, fun _ _ => rfl⟩
      · split_ifs <;> exact ⟨rfl, fun _ _ => rfl⟩
    · rw [claim_escape_paths]; exact ⟨rfl, fun _ _ => rfl⟩
    · exact ⟨rfl, fun _ _ => rfl⟩
    · rw [(bfs_probe_frame obj a).1]; exact ⟨rfl, fun _ _ => rfl⟩
    · exact ⟨rfl, fun _ _ => rfl⟩
    · split_ifs
      · exact push_back_path_frame _ _ _
      · exact ⟨rfl, fun _ _ => rfl⟩
    · exact ⟨rfl, fun _ _ => rfl⟩
  · unfold bfs_thread_gather
    split
    · split
      · exact ⟨rfl, fun _ _ => rfl⟩
      · split_ifs <;> exact ⟨rfl, fun _ _ => rfl⟩
    · rw [(bfs_probe_frame obj a).1]; exact ⟨rfl, fun _ _ => rfl⟩
    · exact ⟨rfl, fun _ _ => rfl⟩
    · split_ifs
      · exact push_back_path_frame _ _ _
      · exact ⟨rfl, fun _ _ => rfl⟩
    · exact ⟨rfl, fun _ _ => rfl⟩

/-- The path invariant of a depth first agent survives a change of the object
that keeps the passage and finish flags and the agent's path. -/
theorem dfs_path_inv_frame (obj obj1 : Thread_maze_object) (a : Thread_local)
    (hpath : ∀ r c, obj1.maze.path r c = obj.maze.path r c)
    (hfin : ∀ r c, (obj1.maze.maze_ r c).finish_bit = (obj.maze.maze_ r c).finish_bit)
    (hlen : obj1.thread_paths_.length = obj.thread_paths_.length)
    (hown : obj1.thread_paths_.getD a.thread_index [] = obj.thread_paths_.getD a.thread_index [])
    (hi : Dfs_path_inv obj a) : Dfs_path_inv obj1 a :=
  { slot := by rw [hlen]; exact hi.slot
    quiet := fun h => by rw [hown]; exact hi.quiet h
    goal := fun h => by rw [hfin]; exact hi.goal h
    unwound := fun h hr => by
      obtain ⟨g, hg, hroute⟩ := hi.unwound h hr
      exact ⟨g, by rw [hfin]; exact hg, by rw [hown]; exact route_sizes _ _ _ _ hpath hroute⟩
    final := hi.final }

theorem nearest_frame (m m1 : Maze) (start : Point) (seen : List (Point × Point)) (g : Point)
    (hpath : ∀ r c, m1.path r c = m.path r c)
    (hfin : ∀ r c, (m1.maze_ r c).finish_bit = (m.maze_ r c).finish_bit)
    (h : Nearest m start seen g) : Nearest m1 start seen g := by
  have hsteps : ∀ n x, m1.steps start n x → m.steps start n x := by
    intro n
    induction n with
    | zero => exact fun x hx => hx
    | succ n ih =>
      rintro x ⟨c, hc, hadj, hp⟩
      exact ⟨c, ih c hc, hadj, by rw [← hpath]; exact hp⟩
  intro g1 n hg1 hs
  exact h g1 n (by rw [← hfin]; exact hg1) (hsteps n g1 hs)

theorem bfs_path_inv_frame (obj obj1 : Thread_maze_object) (a : Thread_local)
    (hpath : ∀ r c, obj1.maze.path r c = obj.maze.path r c)
    (hfin : ∀ r c, (obj1.maze.maze_ r c).finish_bit = (obj.maze.maze_ r c).finish_bit)
    (hlen : obj1.thread_paths_.length = obj.thread_paths_.length)
    (hown : obj1.thread_paths_.getD a.thread_index [] = obj.thread_paths_.getD a.thread_index [])
    (hi : Bfs_path_inv obj a) : Bfs_path_inv obj1 a :=
  { slot := by rw [hlen]; exact hi.slot
    quiet := fun h => by rw [hown]; exact hi.quiet h
    won := fun h hr => by
      obtain ⟨h1, h2, h3⟩ := hi.won h hr
      exact ⟨by rw [hfin]; exact h1, nearest_frame _ _ _ _ _ hpath hfin h2, by rw [hown]; exact h3⟩
    tracing := fun h hr => by
      obtain ⟨g, h1, h2, h3, h4, h5⟩ := hi.tracing h hr
      exact ⟨g, by rw [hfin]; exact h1, h2, nearest_frame _ _ _ _ _ hpath hfin h3,
        by rw [hown]; exact h4, h5⟩
    final := fun h hr => by
      obtain ⟨g, h1, h2, h3, h4⟩ := hi.final h hr
      exact ⟨g, by rw [hfin]; exact h1, h2, nearest_frame _ _ _ _ _ hpath hfin h3,
        by rw [hown]; exact h4⟩ }

theorem searching_cases (pc : Thread_pc) (h : pc.searching) :
    pc ≠ .unwind ∧ pc ≠ .returned ∧ pc ≠ .trace ∧ pc ≠ .threw := by
  unfold Thread_pc.searching at h
  rcases h with e | e | e | e <;> rw [e] <;> decide

/-- A step that stays inside the search loop. -/
theorem dfs_path_inv_search (obj : Thread_maze_object) (a b : Thread_local)
    (hi : Dfs_path_inv obj a) (hidx : b.thread_index = a.thread_index)
    (hres : b.result = a.result) (hs : a.pc.searching) (hb : b.pc.searching)
    (hgoal : b.pc = .claim → (obj.maze.maze_ b.cur.row b.cur.col).finish_bit = true) :
    Dfs_path_inv obj b :=
  { slot := by rw [hidx]; exact hi.slot
    quiet := fun _ => by rw [hidx, hres]; exact hi.quiet hs
    goal := hgoal
    unwound := fun h => by
      rcases h with h | h
      · exact absurd h (searching_cases _ hb).1
      · exact absurd h (searching_cases _ hb).2.1
    final := fun h => absurd h (searching_cases _ hb).2.1 }

/-- A step that leaves the search loop without a claim. -/
theorem dfs_path_inv_lose (obj : Thread_maze_object) (a b : Thread_local)
    (hi : Dfs_path_inv obj a) (hidx : b.thread_index = a.thread_index)
    (hres : b.result = false) (hpc : b.pc = .unwind) : Dfs_path_inv obj b :=
  { slot := by rw [hidx]; exact hi.slot
    quiet := fun h => absurd hpc (searching_cases _ h).1
    goal := fun h => by rw [hpc] at h; exact absurd h (by decide)
    unwound := fun _ hr => by rw [hres] at hr; exact absurd hr (by decide)
    final := fun h => by rw [hpc] at h; exact absurd h (by decide) }

theorem dfs_claim_path_inv (obj : Thread_maze_object) (a : Thread_local)
    (hpc : a.pc = .claim) (ha : Dfs_agent_inv obj.maze a) (hi : Dfs_path_inv obj a) :
    Dfs_path_inv (claim_escape obj a).1
      { a with result := (claim_escape obj a).2, dfs := a.dfs.tail, pc := .unwind } := by
  have hs : a.pc.searching := Or.inr (Or.inr (Or.inl hpc))
  have htop := ha.top (Or.inr (Or.inl hpc))
  have hcur : a.cur ∈ a.dfs := List.mem_of_mem_head? htop
  have hroute : obj.maze.route a.start a.dfs := by
    rcases ha.route with e | e
    · rw [e] at hcur; exact absurd hcur (by simp)
    · exact e
  have hd : a.dfs = a.cur :: a.dfs.tail := by
    cases hdfs : a.dfs with
    | nil => rw [hdfs] at hcur; exact absurd hcur (by simp)
    | cons q t =>
      rw [hdfs] at htop
      simp only [List.head?_cons, Option.some.injEq] at htop
      rw [htop]
      rfl
  exact
    { slot := by rw [claim_escape_paths]; exact hi.slot
      quiet := fun h => by unfold Thread_pc.searching at h; simp at h
      goal := fun h => by simp at h
      unwound := fun _ _ => by
        refine ⟨a.cur, by rw [claim_escape_maze]; exact hi.goal hpc, ?_⟩
        rw [claim_escape_maze, claim_escape_paths]
        simp only []
        rw [(hi.quiet hs).1, List.nil_append, ← hd]
        exact hroute
      final := fun h => by simp at h }

theorem dfs_probe_path_inv (obj : Thread_maze_object) (a : Thread_local)
    (hpc : a.pc = .probe) (hi : Dfs_path_inv obj a) :
    Dfs_path_inv (dfs_probe obj a).1 (dfs_probe obj a).2 := by
  have hs : a.pc.searching := Or.inr (Or.inr (Or.inr hpc))
  have hl := dfs_probe_local obj a
  have hf := dfs_probe_frame obj a
  rw [hf.1]
  refine dfs_path_inv_search obj a _ hi hf.2.2 hl.1 hs ?_ ?_
  · rcases hl.2 with e | e
    · exact Or.inl e
    · exact Or.inr (Or.inr (Or.inr (e.trans hpc)))
  · intro h
    rcases hl.2 with e | e
    · rw [e] at h; exact absurd h (by decide)
    · rw [e, hpc] at h; exact absurd h (by decide)

theorem dfs_unwind_path_inv (obj : Thread_maze_object) (a : Thread_local)
    (hpc : a.pc = .unwind) (hi : Dfs_path_inv obj a) :
    Dfs_path_inv (dfs_unwind obj a).1 (dfs_unwind obj a).2 := by
  unfold dfs_unwind
  split
  · rename_i hd
    exact
      { slot := hi.slot
        quiet := fun h => by unfold Thread_pc.searching at h; simp at h
        goal := fun h => by simp at h
        unwound := fun _ hr => hi.unwound (Or.inl hpc) hr
        final := fun _ => hd }
  · rename_i cur rest hd
    have hstep := or_paint_step obj.maze cur a.paint
    exact
      { slot := by
          simp only []
          rw [(push_back_path_frame _ _ _).1]
          exact hi.slot
        quiet := fun h => by
          unfold Thread_pc.searching at h
          simp only [hpc] at h
          simp at h
        goal := fun h => by
          simp only [hpc] at h
          simp at h
        unwound := fun _ hr => by
          obtain ⟨g, hg, hroute⟩ := hi.unwound (Or.inl hpc) hr
          refine ⟨g, by rw [maze_step_finish _ _ _ hstep]; exact hg, ?_⟩
          simp only []
          rw [push_back_path_own _ _ _ hi.slot, List.append_assoc, List.singleton_append,
            ← hd]
          exact route_sizes _ _ _ _ (maze_step_path _ _ _ hstep) hroute
        final := fun h => by
          simp only [hpc] at h
          simp at h }

theorem dfs_thread_hunt_path_inv (obj : Thread_maze_object) (a : Thread_local)
    (ha : Dfs_agent_inv obj.maze a) (hi : Dfs_path_inv obj a) :
    Dfs_path_inv (dfs_thread_hunt obj a).1 (dfs_thread_hunt obj a).2 := by
  unfold dfs_thread_hunt
  split
  · rename_i hpc
    split
    · exact dfs_path_inv_lose obj a _ hi rfl (hi.quiet (Or.inl hpc)).2 rfl
    · split_ifs with h1 h2
      · exact dfs_path_inv_lose obj a _ hi rfl rfl rfl
      · exact dfs_path_inv_search obj a _ hi rfl rfl (Or.inl hpc)
          (Or.inr (Or.inr (Or.inl rfl))) (fun _ => h2)
      · exact dfs_path_inv_search obj a _ hi rfl rfl (Or.inl hpc) (Or.inr (Or.inl rfl))
          (fun h => by simp at h)
  · rename_i hpc
    exact dfs_claim_path_inv obj a hpc ha hi
  · rename_i hpc
    have hstep := or_seen_step obj.maze a.cur a.paint
    exact dfs_path_inv_search _ a _
      (dfs_path_inv_frame obj { obj with maze := or_seen obj.maze a.cur a.paint } a
        (maze_step_path _ _ _ hstep) (maze_step_finish _ _ _ hstep) rfl rfl hi)
      rfl rfl (Or.inr (Or.inl hpc)) (Or.inr (Or.inr (Or.inr rfl))) (fun h => by simp at h)
  · rename_i hpc
    exact dfs_probe_path_inv obj a hpc hi
  · rename_i hpc
    exact dfs_unwind_path_inv obj a hpc hi
  · exact hi

theorem randomized_dfs_thread_hunt_path_inv (gen : Nat → Nat) (obj : Thread_maze_object)
    (a : Thread_local) (ha : Dfs_agent_inv obj.maze a) (hi : Dfs_path_inv obj a) :
    Dfs_path_inv (randomized_dfs_thread_hunt gen obj a).1
      (randomized_dfs_thread_hunt gen obj a).2 := by
  unfold randomized_dfs_thread_hunt
  split
  · rename_i hpc
    split
    · exact dfs_path_inv_lose obj a _ hi rfl (hi.quiet (Or.inl hpc)).2 rfl
    · split_ifs with h1 h2
      · exact dfs_path_inv_lose obj a _ hi rfl rfl rfl
      · exact dfs_path_inv_search obj a _ hi rfl rfl (Or.inl hpc)
          (Or.inr (Or.inr (Or.inl rfl))) (fun _ => h2)
      · exact dfs_path_inv_search obj a _ hi rfl rfl (Or.inl hpc) (Or.inr (Or.inl rfl))
          (fun h => by simp at h)
  · rename_i hpc
    exact dfs_claim_path_inv obj a hpc ha hi
  · rename_i hpc
    have hstep := or_seen_step obj.maze a.cur a.paint
    exact dfs_path_inv_search _ a _
      (dfs_path_inv_frame obj
        { obj with maze := or_seen obj.maze a.cur a.paint, pos := obj.pos + 1 } a
        (maze_step_path _ _ _ hstep) (maze_step_finish _ _ _ hstep) rfl rfl hi)
      rfl rfl (Or.inr (Or.inl hpc)) (Or.inr (Or.inr (Or.inr rfl))) (fun h => by simp at h)
  · rename_i hpc
    exact dfs_probe_path_inv obj a hpc hi
  · rename_i hpc
    exact dfs_unwind_path_inv obj a hpc hi
  · exact hi

/-- Every cell at `n` moves from the start is a key at most `n` deep, or the
frontier holds a cell less than `n` deep. -/
theorem bfs_reach (m : Maze) (a : Thread_local) (hi : Bfs_agent_inv m a)
    (hs : a.pc.searching) (n : Nat) (x : Point) (hx : m.steps a.start n x) :
    ((a.seen.lookup x).isSome = true ∧ depth a.seen x ≤ n)
      ∨ ∃ o ∈ a.frontier, depth a.seen o < n := by
  induction n generalizing x with
  | zero =>
    have e : x = a.start := hx
    obtain ⟨h1, h2⟩ := forest_start m a.start a.seen hi.forest
    left
    rw [e]
    exact ⟨by rw [h1]; rfl, by unfold depth; rw [h2]; exact Nat.le_refl _⟩
  | succ n ih =>
    obtain ⟨c, hc, ⟨d, hd, e⟩, hp⟩ := hx
    rcases ih c hc with ⟨h1, h2⟩ | ⟨o, ho, h⟩
    · by_cases hin : c ∈ a.frontier
      · exact Or.inr ⟨c, hin, Nat.lt_succ_of_le h2⟩
      · rw [e] at hp ⊢
        obtain ⟨h3, h4⟩ := hi.closed hs c h1 hin d hd hp
        exact Or.inl ⟨h3, le_trans h4 (Nat.succ_le_succ h2)⟩
    · exact Or.inr ⟨o, ho, Nat.lt_succ_of_lt h⟩

/-- The cell at the front of the frontier is a nearest goal when it carries the
finish flag. -/
theorem bfs_front_nearest (m : Maze) (a : Thread_local) (hi : Bfs_agent_inv m a)
    (hpc : a.pc = .claim) : Nearest m a.start a.seen a.cur := by
  have hs : a.pc.searching := Or.inr (Or.inr (Or.inl hpc))
  have hf := frontier_working a (Or.inl hpc)
  have hsorted := hi.sorted hs
  rw [hf] at hsorted
  have hfront : ∀ o ∈ a.frontier, depth a.seen a.cur ≤ depth a.seen o := by
    intro o ho
    rw [hf] at ho
    rcases List.mem_cons.mp ho with e | ho
    · rw [e]
    · exact (List.pairwise_cons.mp hsorted).1 o ho
  intro g1 n hg1 hsteps
  rcases bfs_reach m a hi hs n g1 hsteps with ⟨h1, h2⟩ | ⟨o, ho, h⟩
  · by_cases hin : g1 ∈ a.frontier
    · exact le_trans (hfront g1 hin) h2
    · rw [hi.nofinish hs g1 h1 hin] at hg1
      exact absurd hg1 (by decide)
  · exact le_of_lt (lt_of_le_of_lt (hfront o ho) h)

theorem bfs_probe_local (obj : Thread_maze_object) (a : Thread_local) :
    (bfs_probe obj a).2.result = a.result
      ∧ ((bfs_probe obj a).2.pc = .loop_head ∨ (bfs_probe obj a).2.pc = a.pc) := by
  unfold bfs_probe
  split
  · exact ⟨rfl, Or.inl rfl⟩
  · simp only []
    split_ifs
    · exact ⟨rfl, Or.inr rfl⟩
    · exact ⟨rfl, Or.inr rfl⟩

theorem bfs_path_inv_search (obj : Thread_maze_object) (a b : Thread_local)
    (hi : Bfs_path_inv obj a) (hidx : b.thread_index = a.thread_index)
    (hres : b.result = a.result) (hs : a.pc.searching) (hb : b.pc.searching) :
    Bfs_path_inv obj b :=
  { slot := by rw [hidx]; exact hi.slot
    quiet := fun _ => by rw [hidx, hres]; exact hi.quiet hs
    won := fun h => absurd h (searching_cases _ hb).1
    tracing := fun h => absurd h (searching_cases _ hb).2.2.1
    final := fun h => absurd h (searching_cases _ hb).2.1 }

theorem bfs_path_inv_lose (obj : Thread_maze_object) (a b : Thread_local)
    (hi : Bfs_path_inv obj a) (hidx : b.thread_index = a.thread_index)
    (hres : b.result = false ∨ b.pc = .threw) (hb : ¬ b.pc.searching) : Bfs_path_inv obj b :=
  { slot := by rw [hidx]; exact hi.slot
    quiet := fun h => absurd h hb
    won := fun h hr => by
      rcases hres with e | e
      · rw [e] at hr; exact absurd hr (by decide)
      · rw [e] at h; exact absurd h (by decide)
    tracing := fun h hr => by
      rcases hres with e | e
      · rw [e] at hr; exact absurd hr (by decide)
      · rw [e] at h; exact absurd h (by decide)
    final := fun h hr => by
      rcases hres with e | e
      · rw [e] at hr; exact absurd hr (by decide)
      · rw [e] at h; exact absurd h (by decide) }

theorem forest_parent_key (m : Maze) (start : Point) (seen : List (Point × Point))
    (h : Parent_forest m start seen) (k parent : Point) (hk : seen.lookup k = some parent)
    (hrow : parent.row > 0) : (seen.lookup parent).isSome = true := by
  rcases forest_parent m start seen h k parent hk with ⟨_, h2⟩ | ⟨h1, _, _⟩
  · rw [h2] at hrow; exact absurd hrow (by decide)
  · exact h1

theorem bfs_thread_hunt_path_inv (obj : Thread_maze_object) (a : Thread_local)
    (ha : Bfs_agent_inv obj.maze a) (hi : Bfs_path_inv obj a) :
    Bfs_path_inv (bfs_thread_hunt obj a).1 (bfs_thread_hunt obj a).2 := by
  unfold bfs_thread_hunt
  split
  · rename_i hpc
    have hs : a.pc.searching := Or.inl hpc
    split
    · exact bfs_path_inv_lose obj a _ hi rfl (Or.inl (hi.quiet hs).2)
        (fun h => by unfold Thread_pc.searching at h; simp at h)
    · split_ifs with h1 h2
      · exact bfs_path_inv_lose obj a _ hi rfl (Or.inl rfl)
          (fun h => by unfold Thread_pc.searching at h; simp at h)
      · exact bfs_path_inv_search obj a _ hi rfl rfl hs (Or.inr (Or.inr (Or.inl rfl)))
      · exact bfs_path_inv_search obj a _ hi rfl rfl hs (Or.inr (Or.inl rfl))
  · rename_i hpc
    have hs : a.pc.searching := Or.inr (Or.inr (Or.inl hpc))
    exact
      { slot := by rw [claim_escape_paths]; exact hi.slot
        quiet := fun h => by unfold Thread_pc.searching at h; simp at h
        won := fun _ _ => by
          rw [claim_escape_maze, claim_escape_paths]
          exact ⟨ha.goal hpc, bfs_front_nearest _ a ha hpc, (hi.quiet hs).1⟩
        tracing := fun h => by simp at h
        final := fun h => by simp at h }
  · rename_i hpc
    have hstep := or_paint_step obj.maze a.cur a.paint
    exact bfs_path_inv_search _ a _
      (bfs_path_inv_frame obj { obj with maze := or_paint obj.maze a.cur a.paint } a
        (maze_step_path _ _ _ hstep) (maze_step_finish _ _ _ hstep) rfl rfl hi)
      rfl rfl (Or.inr (Or.inl hpc)) (Or.inr (Or.inr (Or.inr rfl)))
  · rename_i hpc
    have hs : a.pc.searching := Or.inr (Or.inr (Or.inr hpc))
    have hl := bfs_probe_local obj a
    have hf := bfs_probe_frame obj a
    rw [hf.1]
    refine bfs_path_inv_search obj a _ hi hf.2.2 hl.1 hs ?_
    rcases hl.2 with e | e
    · exact Or.inl e
    · exact Or.inr (Or.inr (Or.inr (e.trans hpc)))
  · rename_i hpc
    obtain ⟨h1, h2, _, h4, h5, h6⟩ := seen_at_cases a
    rcases h6 with ⟨parent, hl, hc, hp⟩ | ⟨_, hp⟩
    · exact
        { slot := by rw [h5]; exact hi.slot
          quiet := fun h => absurd hp (searching_cases _ h).2.2.1
          won := fun h => by rw [hp] at h; exact absurd h (by decide)
          tracing := fun _ hr => by
            rw [h4] at hr
            obtain ⟨w1, w2, w3⟩ := hi.won hpc hr
            refine ⟨a.cur, w1, by rw [h1]; exact ha.current (Or.inr hpc),
              by rw [h1, h2]; exact w2, ?_, ?_⟩
            · rw [h5, w3, List.nil_append, h1, hc]
              exact (ancestors_unfold _ _ _ ha.forest _ _ hl).symm
            · rw [h1, hc]
              exact forest_parent_key _ _ _ ha.forest _ _ hl
          final := fun h => by rw [hp] at h; exact absurd h (by decide) }
    · exact bfs_path_inv_lose obj a _ hi h5 (Or.inr hp)
        (fun h => absurd hp (searching_cases _ h).2.2.2)
  · rename_i hpc
    split_ifs with hrow
    · obtain ⟨h1, h2, _, h4, h5, h6⟩ := seen_at_cases a
      rcases h6 with ⟨parent, hl, hc, hp⟩ | ⟨_, hp⟩
      · exact
          { slot := by
              rw [h5]
              simp only []
              rw [(push_back_path_frame _ _ _).1]
              exact hi.slot
            quiet := fun h => absurd hp (searching_cases _ h).2.2.1
            won := fun h => by rw [hp] at h; exact absurd h (by decide)
            tracing := fun _ hr => by
              rw [h4] at hr
              obtain ⟨g, w1, w2, w3, w4, _⟩ := hi.tracing hpc hr
              refine ⟨g, w1, by rw [h1]; exact w2, by rw [h1, h2]; exact w3, ?_, ?_⟩
              · rw [h5, h1, hc]
                simp only []
                rw [push_back_path_own _ _ _ hi.slot, List.append_assoc, List.singleton_append,
                  ← ancestors_unfold _ _ _ ha.forest _ _ hl, ← w4]
                unfold trail
                rw [if_pos hrow]
              · rw [h1, hc]
                exact forest_parent_key _ _ _ ha.forest _ _ hl
            final := fun h => by rw [hp] at h; exact absurd h (by decide) }
      · exact
          { slot := by
              rw [h5]
              simp only []
              rw [(push_back_path_frame _ _ _).1]
              exact hi.slot
            quiet := fun h => absurd hp (searching_cases _ h).2.2.2
            won := fun h => by rw [hp] at h; exact absurd h (by decide)
            tracing := fun h => by rw [hp] at h; exact absurd h (by decide)
            final := fun h => by rw [hp] at h; exact absurd h (by decide) }
    · exact
        { slot := hi.slot
          quiet := fun h => by unfold Thread_pc.searching at h; simp at h
          won := fun h => by simp at h
          tracing := fun h => by simp at h
          final := fun _ hr => by
            obtain ⟨g, w1, w2, w3, w4, _⟩ := hi.tracing hpc hr
            refine ⟨g, w1, w2, w3, ?_⟩
            unfold trail at w4
            rw [if_neg hrow, List.append_nil] at w4
            exact w4 }
  · exact hi

/-- C23, counterexample: on the 7x7 hunt maze built by the depth first builder
from the draws `6 n² + 7 n + 10` (start (1,4), finish (4,4)), agent 0 running
alone returns success, depth first after 21 steps and breadth first after 28,
and its stored path is (3,4), (2,4), (1,4): the first element is not the start
but the cell next to the finish, the last element is the start, which carries
no finish flag, and the finish cell is not in the path. -/
theorem stored_path_counterexample :
    (construct .randomized_depth_first .none .depth_first_search .hunt 7 7
        (fun n => 6 * n * n + 7 * n + 10) 98).map
        (fun o => (o.marks.start_, (o.maze.maze_ 1 4).finish_bit, (o.maze.maze_ 4 4).finish_bit))
      = some (⟨1, 4⟩, false, true)
    ∧ (construct .randomized_depth_first .none .depth_first_search .hunt 7 7
        (fun n => 6 * n * n + 7 * n + 10) 98).map
        (fun o => ((solve_begin .depth_first_search (fun n => 6 * n * n + 7 * n + 10) o).run
            (fun n => 6 * n * n + 7 * n + 10) (List.replicate 21 0)).threads.head?.map
            (fun a => (a.pc, a.result, a.start)))
      = some (some (.returned, true, ⟨1, 4⟩))
    ∧ (construct .randomized_depth_first .none .depth_first_search .hunt 7 7
        (fun n => 6 * n * n + 7 * n + 10) 98).map
        (fun o => ((solve_begin .depth_first_search (fun n => 6 * n * n + 7 * n + 10) o).run
            (fun n => 6 * n * n + 7 * n + 10) (List.replicate 21 0)).obj.thread_paths_.getD 0 [])
      = some [⟨3, 4⟩, ⟨2, 4⟩, ⟨1, 4⟩]
    ∧ (construct .randomized_depth_first .none .breadth_first_search .hunt 7 7
        (fun n => 6 * n * n + 7 * n + 10) 98).map
        (fun o => (o.marks.start_, (o.maze.maze_ 1 4).finish_bit, (o.maze.maze_ 4 4).finish_bit))
      = some (⟨1, 4⟩, false, true)
    ∧ (construct .randomized_depth_first .none .breadth_first_search .hunt 7 7
        (fun n => 6 * n * n + 7 * n + 10) 98).map
        (fun o => ((solve_begin .breadth_first_search (fun n => 6 * n * n + 7 * n + 10) o).run
            (fun n => 6 * n * n + 7 * n + 10) (List.replicate 28 0)).threads.head?.map
            (fun a => (a.pc, a.result, a.start)))
      = some (some (.returned, true, ⟨1, 4⟩))
    ∧ (construct .randomized_depth_first .none .breadth_first_search .hunt 7 7
        (fun n => 6 * n * n + 7 * n + 10) 98).map
        (fun o => ((solve_begin .breadth_first_search (fun n => 6 * n * n + 7 * n + 10) o).run
            (fun n => 6 * n * n + 7 * n + 10) (List.replicate 28 0)).obj.thread_paths_.getD 0 [])
      = some [⟨3, 4⟩, ⟨2, 4⟩, ⟨1, 4⟩] := by
  refine ⟨?_, ?_, ?_, ?_, ?_, ?_⟩ <;> decide!

/-! ## The stored path of a successful hunt agent -/

theorem agent_function_hunts (solver : Solver_algorithm) (game : Maze_game)
    (h : game ≠ .gather) : (agent_function solver game).hunts := by
  unfold Thread_function.hunts
  cases solver <;> cases game <;> first | exact absurd rfl h | simp [agent_function]

theorem solve_begin_fresh (solver : Solver_algorithm) (gen : Nat → Nat)
    (obj : Thread_maze_object) (h : obj.escape_path_index_ = -1) :
    (solve_begin solver gen obj).obj.maze = obj.maze
      ∧ (solve_begin solver gen obj).obj.thread_paths_ = obj.thread_paths_
      ∧ (solve_begin solver gen obj).obj.escape_path_index_ = -1 := by
  unfold solve_begin
  simp only [h, ne_eq, not_true_eq_false, if_false]
  split <;> first | exact ⟨rfl, rfl, rfl⟩ | exact ⟨rfl, rfl, h⟩

theorem solve_begin_length (solver : Solver_algorithm) (gen : Nat → Nat)
    (obj : Thread_maze_object) : (solve_begin solver gen obj).threads.length = num_threads_ := by
  unfold solve_begin
  simp only []
  split <;> simp

theorem hunts_step (gen : Nat → Nat) (obj : Thread_maze_object) (a : Thread_local)
    (h : a.hunts) : (thread_step gen obj a).2.hunts := by
  unfold Thread_local.hunts at h ⊢
  rw [(thread_step_function gen obj a).1]
  exact h

theorem hunt_path_inv_own (gen : Nat → Nat) (obj : Thread_maze_object) (a : Thread_local)
    (hP : Hunt_path_inv obj a) :
    Hunt_path_inv (thread_step gen obj a).1 (thread_step gen obj a).2 := by
  obtain ⟨hm, hp, hd, hb⟩ := hP
  have hstep := thread_step_maze gen obj a
  have hid := thread_step_ident gen obj a
  have hfun := thread_step_function gen obj a
  refine ⟨perimeter_closed_step _ _ _ hstep hm, by rw [hid.1]; exact hp, ?_, ?_⟩
  · intro hf
    rw [hfun.1] at hf
    obtain ⟨h1, h2⟩ := hd hf
    rcases hf with e | e
    · have : thread_step gen obj a = dfs_thread_hunt obj a := by unfold thread_step; rw [e]
      rw [this]
      exact ⟨dfs_thread_hunt_inv obj a hp h1, dfs_thread_hunt_path_inv obj a h1 h2⟩
    · have : thread_step gen obj a = randomized_dfs_thread_hunt gen obj a := by
        unfold thread_step; rw [e]
      rw [this]
      exact ⟨randomized_dfs_thread_hunt_inv gen obj a hp h1,
        randomized_dfs_thread_hunt_path_inv gen obj a h1 h2⟩
  · intro hf
    rw [hfun.1] at hf
    obtain ⟨h1, h2⟩ := hb hf
    have : thread_step gen obj a = bfs_thread_hunt obj a := by unfold thread_step; rw [hf]
    rw [this]
    exact ⟨bfs_thread_hunt_inv obj a hm h1, bfs_thread_hunt_path_inv obj a h1 h2⟩

theorem hunt_path_inv_other (gen : Nat → Nat) (obj : Thread_maze_object) (a b : Thread_local)
    (hidx : a.thread_index ≠ b.thread_index) (hP : Hunt_path_inv obj a) :
    Hunt_path_inv (thread_step gen obj b).1 a := by
  obtain ⟨hm, hp, hd, hb⟩ := hP
  have hstep := thread_step_maze gen obj b
  obtain ⟨hlen, hown⟩ := thread_step_paths gen obj b
  have hpath := maze_step_path _ _ _ hstep
  have hfin := maze_step_finish _ _ _ hstep
  refine ⟨perimeter_closed_step _ _ _ hstep hm, hp, ?_, ?_⟩
  · intro hf
    obtain ⟨h1, h2⟩ := hd hf
    exact ⟨dfs_agent_inv_stable _ _ _ a hstep h1,
      dfs_path_inv_frame obj _ a hpath hfin hlen (hown _ hidx) h2⟩
  · intro hf
    obtain ⟨h1, h2⟩ := hb hf
    exact ⟨bfs_inv_step _ _ _ a hstep h1,
      bfs_path_inv_frame obj _ a hpath hfin hlen (hown _ hidx) h2⟩

theorem spawn_dfs_path_inv (obj : Thread_maze_object) (function : Thread_function)
    (start : Point) (i : Nat)
    (hf : function = .dfs_thread_hunt ∨ function = .randomized_dfs_thread_hunt)
    (hi : i < obj.thread_paths_.length) (hp : obj.thread_paths_.getD i [] = []) :
    Dfs_path_inv obj (spawn function start i) := by
  rcases hf with e | e <;> subst e <;>
  exact
    { slot := hi
      quiet := fun _ => ⟨hp, rfl⟩
      goal := fun h => by simp [spawn] at h
      unwound := fun h => by simp [spawn] at h
      final := fun h => by simp [spawn] at h }

theorem spawn_bfs_path_inv (obj : Thread_maze_object) (start : Point) (i : Nat)
    (hi : i < obj.thread_paths_.length) (hp : obj.thread_paths_.getD i [] = []) :
    Bfs_path_inv obj (spawn .bfs_thread_hunt start i) :=
  { slot := hi
    quiet := fun _ => ⟨hp, rfl⟩
    won := fun h => by simp [spawn] at h
    tracing := fun h => by simp [spawn] at h
    final := fun h => by simp [spawn] at h }

theorem solve_begin_hunt_path_inv (solver : Solver_algorithm) (gen : Nat → Nat)
    (obj : Thread_maze_object) (hgame : obj.game_ ≠ .gather)
    (hslot : obj.escape_path_index_ = -1)
    (hpaths : obj.thread_paths_ = List.replicate num_threads_ [])
    (hring : Perimeter_closed obj.maze)
    (hstarts : ∀ b ∈ (solve_begin solver gen obj).threads,
      obj.maze.within_perimeter b.start.row b.start.col)
    (i : Nat) (a : Thread_local) (ha : (solve_begin solver gen obj).threads.get? i = some a) :
    a.hunts ∧ Hunt_path_inv (solve_begin solver gen obj).obj a := by
  obtain ⟨e1, e2, _⟩ := solve_begin_fresh solver gen obj hslot
  have hstart := hstarts a (List.get?_mem ha)
  obtain ⟨start, hsp⟩ := solve_begin_threads solver gen obj i a ha
  have hi : i < num_threads_ := by
    rw [← solve_begin_length solver gen obj]
    simp only [List.get?_eq_getElem?] at ha
    exact (List.getElem?_eq_some.mp ha).1
  have hlen : i < (solve_begin solver gen obj).obj.thread_paths_.length := by
    rw [e2, hpaths, List.length_replicate]; exact hi
  have hempty : (solve_begin solver gen obj).obj.thread_paths_.getD i [] = [] := by
    rw [e2, hpaths, List.getD_eq_getElem?_getD, List.getElem?_replicate]
    split_ifs
    rfl
  have hh := agent_function_hunts solver obj.game_ hgame
  have hs : a.start = start := by rw [hsp]; unfold spawn; split <;> rfl
  rw [hs] at hstart
  rw [hsp]
  refine ⟨by unfold Thread_local.hunts; rw [spawn_function]; exact hh, by rw [e1]; exact hring,
    by rw [(spawn_indexed _ _ _).2]; exact thread_masks_ne_zero i, ?_, ?_⟩
  · intro hf
    rw [spawn_function] at hf
    refine ⟨spawn_dfs_inv _ _ _ _ ?_, spawn_dfs_path_inv _ _ _ _ hf hlen hempty⟩
    rcases hf with e | e <;> (rw [e]; exact ⟨by decide, by decide⟩)
  · intro hf
    rw [spawn_function] at hf
    rw [hf, e1]
    refine ⟨spawn_bfs_inv _ _ _ hstart, ?_⟩
    have := spawn_bfs_path_inv (solve_begin solver gen obj).obj start i hlen hempty
    exact this

theorem run_maze_static (gen : Nat → Nat) (schedule : List Nat) (s : Solve_state) :
    (∀ r c, (s.run gen schedule).obj.maze.path r c = s.obj.maze.path r c)
      ∧ ∀ r c, ((s.run gen schedule).obj.maze.maze_ r c).finish_bit
        = (s.obj.maze.maze_ r c).finish_bit := by
  induction schedule generalizing s with
  | nil => exact ⟨fun _ _ => rfl, fun _ _ => rfl⟩
  | cons i rest ih =>
    have hstep : (∀ r c, (s.step gen i).obj.maze.path r c = s.obj.maze.path r c)
        ∧ ∀ r c, ((s.step gen i).obj.maze.maze_ r c).finish_bit
          = (s.obj.maze.maze_ r c).finish_bit := by
      unfold Solve_state.step
      split
      · exact ⟨fun _ _ => rfl, fun _ _ => rfl⟩
      · rename_i a _
        have h := thread_step_maze gen s.obj a
        exact ⟨maze_step_path _ _ _ h, maze_step_finish _ _ _ h⟩
    obtain ⟨h1, h2⟩ := ih (s.step gen i)
    exact ⟨fun r c => (h1 r c).trans (hstep.1 r c), fun r c => (h2 r c).trans (hstep.2 r c)⟩

theorem getLast?_cons_ne_nil (x : Point) (l : List Point) (h : l ≠ []) :
    (x :: l).getLast? = l.getLast? := by
  cases l with
  | nil => exact absurd rfl h
  | cons y t => rw [List.getLast?_cons_cons]

theorem route_head_adjacent (m : Maze) (start g q : Point) (rest : List Point)
    (h : m.route start (g :: q :: rest)) : q.adjacent g :=
  (List.chain'_cons.mp h.2.1).1

/-- C23 (amended): in a hunt or corners solve that starts from a fresh object
(slot -1, stored paths empty) on a grid with a closed ring and starts within the
perimeter, under every interleaving, for every agent (depth first, randomized
depth first or breadth first) that has returned with success there is a cell `g`
with the finish flag such that `g` followed by the stored path of the agent is a
route from the agent's start: the path does not hold `g`, its first element is a
cardinal neighbour of `g`, consecutive elements are cardinal neighbours, its
last element is the start, every element before the last is a path, as is the
last when the start is, and the path is empty exactly when `g` is the start. -/
theorem stored_path_runs_back_from_goal (solver : Solver_algorithm) (gen : Nat → Nat)
    (obj : Thread_maze_object) (schedule : List Nat) (i : Nat) (a : Thread_local)
    (hgame : obj.game_ ≠ .gather) (hslot : obj.escape_path_index_ = -1)
    (hpaths : obj.thread_paths_ = List.replicate num_threads_ [])
    (hring : Perimeter_closed obj.maze)
    (hstarts : ∀ b ∈ (solve_begin solver gen obj).threads,
      obj.maze.within_perimeter b.start.row b.start.col)
    (ha : ((solve_begin solver gen obj).run gen schedule).threads.get? i = some a)
    (hdone : a.pc = .returned) (hwon : a.result = true) :
    ∃ g : Point, (obj.maze.maze_ g.row g.col).finish_bit = true
      ∧ obj.maze.route a.start
          (g :: ((solve_begin solver gen obj).run gen schedule).obj.thread_paths_.getD i [])
      ∧ g ∉ ((solve_begin solver gen obj).run gen schedule).obj.thread_paths_.getD i []
      ∧ (∀ q, (((solve_begin solver gen obj).run gen schedule).obj.thread_paths_.getD i []).head?
            = some q → q.adjacent g)
      ∧ (((solve_begin solver gen obj).run gen schedule).obj.thread_paths_.getD i [] ≠ [] →
          (((solve_begin solver gen obj).run gen schedule).obj.thread_paths_.getD i []).getLast?
            = some a.start)
      ∧ (((solve_begin solver gen obj).run gen schedule).obj.thread_paths_.getD i [] = [] ↔
          g = a.start)
      ∧ (obj.maze.path a.start.row a.start.col = true →
          ∀ p ∈ ((solve_begin solver gen obj).run gen schedule).obj.thread_paths_.getD i [],
            obj.maze.path p.row p.col = true) := by
  have hidx0 := solve_begin_indexed solver gen obj
  have hall := run_lift gen Hunt_path_inv Thread_local.hunts
    (fun o b hb => hunts_step gen o b hb)
    (fun o b _ hP => hunt_path_inv_own gen o b hP)
    (fun o b c _ _ hne hP => hunt_path_inv_other gen o b c hne hP)
    schedule (solve_begin solver gen obj) hidx0
    (solve_begin_hunt_path_inv solver gen obj hgame hslot hpaths hring hstarts)
  have hidx := run_indexed gen schedule _ hidx0
  obtain ⟨hq, _, _, hd, hb⟩ := hall i a ha
  obtain ⟨hpath, hfin⟩ := run_maze_static gen schedule (solve_begin solver gen obj)
  rw [(solve_begin_fresh solver gen obj hslot).1] at hpath hfin
  have hi := (hidx i a ha).1
  generalize (solve_begin solver gen obj).run gen schedule = s at ha hd hb hpath hfin ⊢
  have key : ∃ g : Point, (obj.maze.maze_ g.row g.col).finish_bit = true
      ∧ obj.maze.route a.start (g :: s.obj.thread_paths_.getD i []) := by
    rcases hq with e | e | e
    · obtain ⟨_, h2⟩ := hd (Or.inl e)
      obtain ⟨g, hg, hroute⟩ := h2.unwound (Or.inr hdone) hwon
      rw [h2.final hdone, List.append_nil, hi] at hroute
      exact ⟨g, by rw [← hfin]; exact hg, route_sizes _ _ _ _ (fun r c => (hpath r c).symm) hroute⟩
    · obtain ⟨_, h2⟩ := hd (Or.inr e)
      obtain ⟨g, hg, hroute⟩ := h2.unwound (Or.inr hdone) hwon
      rw [h2.final hdone, List.append_nil, hi] at hroute
      exact ⟨g, by rw [← hfin]; exact hg, route_sizes _ _ _ _ (fun r c => (hpath r c).symm) hroute⟩
    · obtain ⟨h1, h2⟩ := hb e
      obtain ⟨g, hg, hkey, _, hp⟩ := h2.final hdone hwon
      rw [hi] at hp
      rw [hp]
      exact ⟨g, by rw [← hfin]; exact hg,
        route_sizes _ _ _ _ (fun r c => (hpath r c).symm) (forest_route _ _ _ h1.forest g hkey)⟩
  obtain ⟨g, hg, hroute⟩ := key
  refine ⟨g, hg, hroute, (List.nodup_cons.mp hroute.2.2.2).1, ?_, ?_, ?_, ?_⟩
  · intro q hq2
    cases hl : s.obj.thread_paths_.getD i [] with
    | nil => rw [hl] at hq2; exact absurd hq2 (by simp)
    | cons q1 rest =>
      rw [hl] at hq2 hroute
      simp only [List.head?_cons, Option.some.injEq] at hq2
      rw [← hq2]
      exact route_head_adjacent _ _ _ _ _ hroute
  · intro hne
    have h1 := hroute.1
    rw [getLast?_cons_ne_nil _ _ hne] at h1
    exact h1
  · constructor
    · intro he
      have h1 := hroute.1
      rw [he] at h1
      simpa using h1
    · intro he
      by_contra hne
      have h1 := hroute.1
      rw [getLast?_cons_ne_nil _ _ hne] at h1
      have hmem : a.start ∈ s.obj.thread_paths_.getD i [] := List.mem_of_mem_getLast? h1
      exact (List.nodup_cons.mp hroute.2.2.2).1 (he ▸ hmem)
  · intro hstart p hp
    have hne : s.obj.thread_paths_.getD i [] ≠ [] := List.ne_nil_of_mem hp
    have h1 := hroute.1
    rw [getLast?_cons_ne_nil _ _ hne] at h1
    have hsplit := List.dropLast_append_getLast? _ h1
    rw [← hsplit] at hp
    rcases List.mem_append.mp hp with hp | hp
    · apply hroute.2.2.1
      rw [List.dropLast_cons_of_ne_nil hne]
      exact List.mem_cons_of_mem _ hp
    · rw [List.mem_singleton.mp hp]
      exact hstart

theorem stored_path_runs_back_from_goal_witness :
    ∃ g : Point, ((Thread_maze_object.maze
      { builder_ := .arena, modification_ := .none, solver_ := .breadth_first_search,
        game_ := .hunt,
        maze := { maze_row_size_ := 7, maze_col_size_ := 7,
                  maze_ := fun r c => if r = 1 ∧ 1 ≤ c ∧ c ≤ 3 then
                    { path_bit := true, finish_bit := decide (c = 3) } else {} },
        marks := { start_ := ⟨1, 1⟩ }, thread_paths_ := List.replicate num_threads_ [],
        escape_path_index_ := -1, pos := 0 }).maze_ g.row g.col).finish_bit = true
      ∧ (Thread_maze_object.maze
      { builder_ := .arena, modification_ := .none, solver_ := .breadth_first_search,
        game_ := .hunt,
        maze := { maze_row_size_ := 7, maze_col_size_ := 7,
                  maze_ := fun r c => if r = 1 ∧ 1 ≤ c ∧ c ≤ 3 then
                    { path_bit := true, finish_bit := decide (c = 3) } else {} },
        marks := { start_ := ⟨1, 1⟩ }, thread_paths_ := List.replicate num_threads_ [],
        escape_path_index_ := -1, pos := 0 }).route ((((solve_begin .breadth_first_search (fun n => n)
      { builder_ := .arena, modification_ := .none, solver_ := .breadth_first_search,
        game_ := .hunt,
        maze := { maze_row_size_ := 7, maze_col_size_ := 7,
                  maze_ := fun r c => if r = 1 ∧ 1 ≤ c ∧ c ≤ 3 then
                    { path_bit := true, finish_bit := decide (c = 3) } else {} },
        marks := { start_ := ⟨1, 1⟩ }, thread_paths_ := List.replicate num_threads_ [],
        escape_path_index_ := -1, pos := 0 }).run (fun n => n) (List.replicate 20 0)).threads.get? 0).get (by decide!)).start
          (g :: (((solve_begin .breadth_first_search (fun n => n)
      { builder_ := .arena, modification_ := .none, solver_ := .breadth_first_search,
        game_ := .hunt,
        maze := { maze_row_size_ := 7, maze_col_size_ := 7,
                  maze_ := fun r c => if r = 1 ∧ 1 ≤ c ∧ c ≤ 3 then
                    { path_bit := true, finish_bit := decide (c = 3) } else {} },
        marks := { start_ := ⟨1, 1⟩ }, thread_paths_ := List.replicate num_threads_ [],
        escape_path_index_ := -1, pos := 0 }).run (fun n => n) (List.replicate 20 0)).obj.thread_paths_.getD 0 []))
      ∧ g ∉ (((solve_begin .breadth_first_search (fun n => n)
      { builder_ := .arena, modification_ := .none, solver_ := .breadth_first_search,
        game_ := .hunt,
        maze := { maze_row_size_ := 7, maze_col_size_ := 7,
                  maze_ := fun r c => if r = 1 ∧ 1 ≤ c ∧ c ≤ 3 then
                    { path_bit := true, finish_bit := decide (c = 3) } else {} },
        marks := { start_ := ⟨1, 1⟩ }, thread_paths_ := List.replicate num_threads_ [],
        escape_path_index_ := -1, pos := 0 }).run (fun n => n) (List.replicate 20 0)).obj.thread_paths_.getD 0 [])
      ∧ (∀ q, (((solve_begin .breadth_first_search (fun n => n)
      { builder_ := .arena, modification_ := .none, solver_ := .breadth_first_search,
        game_ := .hunt,
        maze := { maze_row_size_ := 7, maze_col_size_ := 7,
                  maze_ := fun r c => if r = 1 ∧ 1 ≤ c ∧ c ≤ 3 then
                    { path_bit := true, finish_bit := decide (c = 3) } else {} },
        marks := { start_ := ⟨1, 1⟩ }, thread_paths_ := List.replicate num_threads_ [],
        escape_path_index_ := -1, pos := 0 }).run (fun n => n) (List.replicate 20 0)).obj.thread_paths_.getD 0 []).head?
            = some q → q.adjacent g)
      ∧ ((((solve_begin .breadth_first_search (fun n => n)
      { builder_ := .arena, modification_ := .none, solver_ := .breadth_first_search,
        game_ := .hunt,
        maze := { maze_row_size_ := 7, maze_col_size_ := 7,
                  maze_ := fun r c => if r = 1 ∧ 1 ≤ c ∧ c ≤ 3 then
                    { path_bit := true, finish_bit := decide (c = 3) } else {} },
        marks := { start_ := ⟨1, 1⟩ }, thread_paths_ := List.replicate num_threads_ [],
        escape_path_index_ := -1, pos := 0 }).run (fun n => n) (List.replicate 20 0)).obj.thread_paths_.getD 0 []) ≠ [] →
          (((solve_begin .breadth_first_search (fun n => n)
      { builder_ := .arena, modification_ := .none, solver_ := .breadth_first_search,
        game_ := .hunt,
        maze := { maze_row_size_ := 7, maze_col_size_ := 7,
                  maze_ := fun r c => if r = 1 ∧ 1 ≤ c ∧ c ≤ 3 then
                    { path_bit := true, finish_bit := decide (c = 3) } else {} },
        marks := { start_ := ⟨1, 1⟩ }, thread_paths_ := List.replicate num_threads_ [],
        escape_path_index_ := -1, pos := 0 }).run (fun n => n) (List.replicate 20 0)).obj.thread_paths_.getD 0 []).getLast?
            = some ((((solve_begin .breadth_first_search (fun n => n)
      { builder_ := .arena, modification_ := .none, solver_ := .breadth_first_search,
        game_ := .hunt,
        maze := { maze_row_size_ := 7, maze_col_size_ := 7,
                  maze_ := fun r c => if r = 1 ∧ 1 ≤ c ∧ c ≤ 3 then
                    { path_bit := true, finish_bit := decide (c = 3) } else {} },
        marks := { start_ := ⟨1, 1⟩ }, thread_paths_ := List.replicate num_threads_ [],
        escape_path_index_ := -1, pos := 0 }).run (fun n => n) (List.replicate 20 0)).threads.get? 0).get (by decide!)).start)
      ∧ ((((solve_begin .breadth_first_search (fun n => n)
      { builder_ := .arena, modification_ := .none, solver_ := .breadth_first_search,
        game_ := .hunt,
        maze := { maze_row_size_ := 7, maze_col_size_ := 7,
                  maze_ := fun r c => if r = 1 ∧ 1 ≤ c ∧ c ≤ 3 then
                    { path_bit := true, finish_bit := decide (c = 3) } else {} },
        marks := { start_ := ⟨1, 1⟩ }, thread_paths_ := List.replicate num_threads_ [],
        escape_path_index_ := -1, pos := 0 }).run (fun n => n) (List.replicate 20 0)).obj.thread_paths_.getD 0 []) = [] ↔
          g = ((((solve_begin .breadth_first_search (fun n => n)
      { builder_ := .arena, modification_ := .none, solver_ := .breadth_first_search,
        game_ := .hunt,
        maze := { maze_row_size_ := 7, maze_col_size_ := 7,
                  maze_ := fun r c => if r = 1 ∧ 1 ≤ c ∧ c ≤ 3 then
                    { path_bit := true, finish_bit := decide (c = 3) } else {} },
        marks := { start_ := ⟨1, 1⟩ }, thread_paths_ := List.replicate num_threads_ [],
        escape_path_index_ := -1, pos := 0 }).run (fun n => n) (List.replicate 20 0)).threads.get? 0).get (by decide!)).start)
      ∧ ((Thread_maze_object.maze
      { builder_ := .arena, modification_ := .none, solver_ := .breadth_first_search,
        game_ := .hunt,
        maze := { maze_row_size_ := 7, maze_col_size_ := 7,
                  maze_ := fun r c => if r = 1 ∧ 1 ≤ c ∧ c ≤ 3 then
                    { path_bit := true, finish_bit := decide (c = 3) } else {} },
        marks := { start_ := ⟨1, 1⟩ }, thread_paths_ := List.replicate num_threads_ [],
        escape_path_index_ := -1, pos := 0 }).path ((((solve_begin .breadth_first_search (fun n => n)
      { builder_ := .arena, modification_ := .none, solver_ := .breadth_first_search,
        game_ := .hunt,
        maze := { maze_row_size_ := 7, maze_col_size_ := 7,
                  maze_ := fun r c => if r = 1 ∧ 1 ≤ c ∧ c ≤ 3 then
                    { path_bit := true, finish_bit := decide (c = 3) } else {} },
        marks := { start_ := ⟨1, 1⟩ }, thread_paths_ := List.replicate num_threads_ [],
        escape_path_index_ := -1, pos := 0 }).run (fun n => n) (List.replicate 20 0)).threads.get? 0).get (by decide!)).start.row ((((solve_begin .breadth_first_search (fun n => n)
      { builder_ := .arena, modification_ := .none, solver_ := .breadth_first_search,
        game_ := .hunt,
        maze := { maze_row_size_ := 7, maze_col_size_ := 7,
                  maze_ := fun r c => if r = 1 ∧ 1 ≤ c ∧ c ≤ 3 then
                    { path_bit := true, finish_bit := decide (c = 3) } else {} },
        marks := { start_ := ⟨1, 1⟩ }, thread_paths_ := List.replicate num_threads_ [],
        escape_path_index_ := -1, pos := 0 }).run (fun n => n) (List.replicate 20 0)).threads.get? 0).get (by decide!)).start.col = true →
          ∀ p ∈ (((solve_begin .breadth_first_search (fun n => n)
      { builder_ := .arena, modification_ := .none, solver_ := .breadth_first_search,
        game_ := .hunt,
        maze := { maze_row_size_ := 7, maze_col_size_ := 7,
                  maze_ := fun r c => if r = 1 ∧ 1 ≤ c ∧ c ≤ 3 then
                    { path_bit := true, finish_bit := decide (c = 3) } else {} },
        marks := { start_ := ⟨1, 1⟩ }, thread_paths_ := List.replicate num_threads_ [],
        escape_path_index_ := -1, pos := 0 }).run (fun n => n) (List.replicate 20 0)).obj.thread_paths_.getD 0 []),
            (Thread_maze_object.maze
      { builder_ := .arena, modification_ := .none, solver_ := .breadth_first_search,
        game_ := .hunt,
        maze := { maze_row_size_ := 7, maze_col_size_ := 7,
                  maze_ := fun r c => if r = 1 ∧ 1 ≤ c ∧ c ≤ 3 then
                    { path_bit := true, finish_bit := decide (c = 3) } else {} },
        marks := { start_ := ⟨1, 1⟩ }, thread_paths_ := List.replicate num_threads_ [],
        escape_path_index_ := -1, pos := 0 }).path p.row p.col = true) :=
  stored_path_runs_back_from_goal .breadth_first_search (fun n => n)
    { builder_ := .arena, modification_ := .none, solver_ := .breadth_first_search,
        game_ := .hunt,
        maze := { maze_row_size_ := 7, maze_col_size_ := 7,
                  maze_ := fun r c => if r = 1 ∧ 1 ≤ c ∧ c ≤ 3 then
                    { path_bit := true, finish_bit := decide (c = 3) } else {} },
        marks := { start_ := ⟨1, 1⟩ }, thread_paths_ := List.replicate num_threads_ [],
        escape_path_index_ := -1, pos := 0 }
    (List.replicate 20 0) 0
    ((((solve_begin .breadth_first_search (fun n => n)
      { builder_ := .arena, modification_ := .none, solver_ := .breadth_first_search,
        game_ := .hunt,
        maze := { maze_row_size_ := 7, maze_col_size_ := 7,
                  maze_ := fun r c => if r = 1 ∧ 1 ≤ c ∧ c ≤ 3 then
                    { path_bit := true, finish_bit := decide (c = 3) } else {} },
        marks := { start_ := ⟨1, 1⟩ }, thread_paths_ := List.replicate num_threads_ [],
        escape_path_index_ := -1, pos := 0 }).run (fun n => n) (List.replicate 20 0)).threads.get? 0).get (by decide!))
    (by decide) rfl rfl
    (fun row col h => by
      unfold Maze.on_ring Maze.in_array at h
      unfold Maze.path
      simp only [] at h ⊢
      rw [if_neg]
      omega)
    (by decide!)
    (Option.some_get _).symm
    (by decide!) (by decide!)

/-! ## The breadth first hunt alone: termination and the shortest path -/

theorem reachable_steps (m : Maze) (a b : Point) (h : m.search_reachable a b) :
    ∃ n, m.steps a n b := by
  induction h with
  | refl => exact ⟨0, rfl⟩
  | tail _ hstep ih =>
    obtain ⟨n, hn⟩ := ih
    exact ⟨n + 1, _, hn, hstep⟩

theorem route_steps (m : Maze) (start : Point) (stack : List Point) (g : Point)
    (h : m.route start (g :: stack)) : m.steps start stack.length g := by
  induction stack generalizing g with
  | nil =>
    have h1 := h.1
    simp only [List.getLast?_singleton, Option.some.injEq] at h1
    exact h1
  | cons y rest ih =>
    have hr : m.route start (y :: rest) := by
      rcases route_tail m start g (y :: rest) h with e | e
      · exact absurd e (by simp)
      · exact e
    exact ⟨y, ih y hr, (List.chain'_cons.mp h.2.1).1,
      h.2.2.1 g (by rw [List.dropLast_cons₂]; exact List.mem_cons_self _ _)⟩

/-- When the queue of a breadth first agent is empty at the head of the loop, no
goal can be reached from its start. -/
theorem bfs_exhausted_no_goal (m : Maze) (a : Thread_local) (hi : Bfs_agent_inv m a)
    (hpc : a.pc = .loop_head) (hq : a.bfs = []) : ¬ m.goal_reachable a.start := by
  have hs : a.pc.searching := Or.inl hpc
  have hf : a.frontier = [] := by rw [frontier_loop_head a hpc, hq]
  rintro ⟨g, hg, hr⟩
  obtain ⟨n, hn⟩ := reachable_steps m a.start g hr
  rcases bfs_reach m a hi hs n g hn with ⟨h1, _⟩ | ⟨o, ho, _⟩
  · rw [hi.nofinish hs g h1 (by rw [hf]; simp)] at hg
    exact absurd hg (by decide)
  · rw [hf] at ho
    exact absurd ho (by simp)

theorem bfs_thread_hunt_alone (obj : Thread_maze_object) (a : Thread_local)
    (ha : Bfs_agent_inv obj.maze a) (hp : Bfs_path_inv obj a) (ho : Bfs_alone obj a) :
    Bfs_alone (bfs_thread_hunt obj a).1 (bfs_thread_hunt obj a).2 := by
  unfold bfs_thread_hunt
  split
  · rename_i hpc
    have hs : a.pc.searching := Or.inl hpc
    split
    · rename_i hq
      exact absurd ho.reach (bfs_exhausted_no_goal _ a ha hpc hq)
    · split_ifs with h1 h2
      · exact absurd (ho.quiet hs) h1
      · exact
          { reach := ho.reach
            alive := by simp
            quiet := fun _ => ho.quiet hs
            done := fun h => by simp at h }
      · exact
          { reach := ho.reach
            alive := by simp
            quiet := fun _ => ho.quiet hs
            done := fun h => by simp at h }
  · rename_i hpc
    have hs : a.pc.searching := Or.inr (Or.inr (Or.inl hpc))
    exact
      { reach := by rw [claim_escape_maze]; exact ho.reach
        alive := by simp
        quiet := fun h => by unfold Thread_pc.searching at h; simp at h
        done := fun _ => by unfold claim_escape; simp only [ho.quiet hs]; rfl }
  · rename_i hpc
    have hs : a.pc.searching := Or.inr (Or.inl hpc)
    exact
      { reach := (goal_reachable_step a.paint _ _ (or_paint_step _ _ _) _).2 ho.reach
        alive := by simp
        quiet := fun _ => ho.quiet hs
        done := fun h => by simp at h }
  · rename_i hpc
    have hs : a.pc.searching := Or.inr (Or.inr (Or.inr hpc))
    have hl := bfs_probe_local obj a
    have hf := bfs_probe_frame obj a
    have hid := bfs_probe_ident obj a
    have hpc2 : (bfs_probe obj a).2.pc = .loop_head ∨ (bfs_probe obj a).2.pc = .probe :=
      hl.2.imp id (fun e => e.trans hpc)
    exact
      { reach := by rw [hf.1, hid.2]; exact ho.reach
        alive := by rcases hpc2 with e | e <;> rw [e] <;> decide
        quiet := fun _ => by rw [hf.1]; exact ho.quiet hs
        done := fun h => by
          rcases hpc2 with e | e <;> rw [e] at h <;> simp at h }
  · rename_i hpc
    obtain ⟨_, h2, _, h4, _, h6⟩ := seen_at_cases a
    have hkey := ha.current (Or.inr hpc)
    rcases h6 with ⟨parent, _, _, hpt⟩ | ⟨hnone, _⟩
    · exact
        { reach := by rw [h2]; exact ho.reach
          alive := by rw [hpt]; decide
          quiet := fun h => absurd hpt (searching_cases _ h).2.2.1
          done := fun _ => by rw [h4]; exact ho.done (Or.inl hpc) }
    · rw [hnone] at hkey
      exact absurd hkey (by simp)
  · rename_i hpc
    have hres := ho.done (Or.inr (Or.inl hpc))
    split_ifs with hrow
    · obtain ⟨_, h2, _, h4, _, h6⟩ := seen_at_cases a
      obtain ⟨g, _, _, _, _, hk⟩ := hp.tracing hpc hres
      have hkey := hk hrow
      rcases h6 with ⟨parent, _, _, hpt⟩ | ⟨hnone, _⟩
      · exact
          { reach := by rw [h2]; exact ho.reach
            alive := by rw [hpt]; decide
            quiet := fun h => absurd hpt (searching_cases _ h).2.2.1
            done := fun _ => by rw [h4]; exact hres }
      · rw [hnone] at hkey
        exact absurd hkey (by simp)
    · exact
        { reach := ho.reach
          alive := by simp
          quiet := fun h => by unfold Thread_pc.searching at h; simp at h
          done := fun _ => hres }
  · exact ho

theorem ancestors_length_le (seen : List (Point × Point)) (p : Point) :
    (ancestors seen p).length ≤ seen.length := by
  induction seen generalizing p with
  | nil => exact Nat.le_refl _
  | cons e rest ih =>
    obtain ⟨k, parent⟩ := e
    rw [ancestors]
    split_ifs
    · simp only [List.length_cons]
      exact Nat.succ_le_succ (ih parent)
    · exact Nat.zero_le _
    · exact le_trans (ih p) (Nat.le_succ _)

theorem trail_length_le (seen : List (Point × Point)) (c : Point) :
    (trail seen c).length ≤ seen.length + 1 := by
  unfold trail
  split_ifs
  · simp only [List.length_cons]
    exact Nat.succ_le_succ (ancestors_length_le seen c)
  · exact Nat.zero_le _

theorem unkeyed_grow (m : Maze) (seen : List (Point × Point)) (next parent : Point)
    (hin : m.in_array next.row next.col) (hnew : seen.lookup next = none) :
    (m.unkeyed ((next, parent) :: seen)).card + 1 = (m.unkeyed seen).card := by
  have hmem : next ∈ m.unkeyed seen := by
    unfold Maze.unkeyed
    simp only [Finset.mem_filter, List.mem_toFinset]
    exact ⟨(mem_all_cells m next).2 hin, by rw [hnew]; rfl⟩
  have he : m.unkeyed ((next, parent) :: seen) = (m.unkeyed seen).erase next := by
    ext p
    unfold Maze.unkeyed
    simp only [Finset.mem_erase, Finset.mem_filter, List.mem_toFinset]
    by_cases e : p = next
    · rw [e, lookup_cons_eq]
      simp
    · rw [lookup_cons_ne _ _ _ _ e]
      simp [e]
  rw [he, Finset.card_erase_of_mem hmem]
  have : 0 < (m.unkeyed seen).card := Finset.card_pos.mpr ⟨next, hmem⟩
  omega

theorem bfs_probe_measure (obj : Thread_maze_object) (a : Thread_local)
    (hpc : a.pc = .probe) (ha : Bfs_agent_inv obj.maze a) :
    bfs_measure (bfs_probe obj a).1.maze (bfs_probe obj a).2 < bfs_measure obj.maze a := by
  rw [(bfs_probe_frame obj a).1]
  have hs : a.pc.searching := Or.inr (Or.inr (Or.inr hpc))
  have hcur := ha.current (Or.inl hs)
  have hM : bfs_measure obj.maze a
      = a.seen.length + 5 + 8 * (2 * (obj.maze.unkeyed a.seen).card + a.bfs.length)
        + (a.probes.length + 1) := by
    unfold bfs_measure; rw [hpc]
  rw [hM]
  unfold bfs_probe
  split
  · unfold bfs_measure
    simp only []
    omega
  · rename_i i rest hprobes
    simp only []
    split_ifs with hc
    · simp only [Bool.and_eq_true, Option.isNone_iff_eq_none] at hc
      obtain ⟨hnew, hpath⟩ := hc
      have hdir : cardinal_directions_.getD i ⟨0, 0⟩ ∈ cardinal_directions_ := by
        rcases cardinal_getD i with h | h
        · exact h
        · rw [h, step_zero] at hnew
          rw [hnew] at hcur
          exact absurd hcur (by simp)
      have hin := in_array_of_step obj.maze a.cur _ hdir
        (forest_key_within _ _ _ ha.forest _ hcur)
      have hgrow := unkeyed_grow obj.maze a.seen _ a.cur hin hnew
      have e : bfs_measure obj.maze
          { a with seen := (a.cur.step (cardinal_directions_.getD i ⟨0, 0⟩), a.cur) :: a.seen,
                   bfs := a.bfs ++ [a.cur.step (cardinal_directions_.getD i ⟨0, 0⟩)],
                   probes := rest }
          = (a.seen.length + 1) + 5
            + 8 * (2 * (obj.maze.unkeyed
                ((a.cur.step (cardinal_directions_.getD i ⟨0, 0⟩), a.cur) :: a.seen)).card
              + (a.bfs.length + 1)) + (rest.length + 1) := by
        unfold bfs_measure
        simp only [hpc, List.length_cons, List.length_append, List.length_nil]
      rw [e, hprobes]
      simp only [List.length_cons]
      omega
    · have e : bfs_measure obj.maze { a with probes := rest }
          = a.seen.length + 5 + 8 * (2 * (obj.maze.unkeyed a.seen).card + a.bfs.length)
            + (rest.length + 1) := by
        unfold bfs_measure
        simp only [hpc]
      rw [e, hprobes]
      simp only [List.length_cons]
      omega

theorem seen_at_measure (m : Maze) (a : Thread_local) (ha : Bfs_agent_inv m a)
    (hpc : a.pc = .unwind ∨ (a.pc = .trace ∧ a.cur.row > 0)) :
    bfs_measure m (seen_at a) < bfs_measure m a := by
  obtain ⟨h1, _, _, _, _, h6⟩ := seen_at_cases a
  rcases h6 with ⟨parent, hl, hc, hp⟩ | ⟨_, hp⟩
  · have e : bfs_measure m (seen_at a) = (trail a.seen parent).length + 1 := by
      unfold bfs_measure
      rw [hp, h1, hc]
    rw [e]
    rcases hpc with h | ⟨h, hrow⟩
    · have e2 : bfs_measure m a = a.seen.length + 3 := by unfold bfs_measure; rw [h]
      rw [e2]
      have := trail_length_le a.seen parent
      omega
    · have e2 : bfs_measure m a = (trail a.seen a.cur).length + 1 := by
        unfold bfs_measure; rw [h]
      rw [e2, ← ancestors_unfold m _ _ ha.forest _ _ hl]
      unfold trail
      rw [if_pos hrow]
      simp only [List.length_cons]
      omega
  · have e : bfs_measure m (seen_at a) = 0 := by
      unfold bfs_measure
      rw [hp]
    rw [e]
    rcases hpc with h | ⟨h, _⟩
    · have e2 : bfs_measure m a = a.seen.length + 3 := by unfold bfs_measure; rw [h]
      rw [e2]
      omega
    · have e2 : bfs_measure m a = (trail a.seen a.cur).length + 1 := by
        unfold bfs_measure; rw [h]
      rw [e2]
      omega

/-- Every step of a breadth first hunt agent that has neither returned nor
thrown lowers the measure. -/
theorem bfs_thread_hunt_measure (obj : Thread_maze_object) (a : Thread_local)
    (ha : Bfs_agent_inv obj.maze a)
    (hne : a.pc ≠ .returned ∧ a.pc ≠ .threw) :
    bfs_measure (bfs_thread_hunt obj a).1.maze (bfs_thread_hunt obj a).2
      < bfs_measure obj.maze a := by
  unfold bfs_thread_hunt
  split
  · rename_i hpc
    have hM : bfs_measure obj.maze a
        = a.seen.length + 5 + 8 * (2 * (obj.maze.unkeyed a.seen).card + a.bfs.length) := by
      unfold bfs_measure; rw [hpc]
    rw [hM]
    split
    · unfold bfs_measure
      simp only []
      omega
    · rename_i front rest hd
      split_ifs with h1 h2
      · unfold bfs_measure
        simp only []
        omega
      · unfold bfs_measure
        simp only []
        omega
      · unfold bfs_measure
        simp only [hd, List.length_cons]
        omega
  · rename_i hpc
    have hM : bfs_measure obj.maze a = a.seen.length + 4 := by
      unfold bfs_measure; rw [hpc]
    rw [hM]
    unfold bfs_measure
    simp only []
    omega
  · rename_i hpc
    have hM : bfs_measure obj.maze a
        = a.seen.length + 5 + 8 * (2 * (obj.maze.unkeyed a.seen).card + a.bfs.length) + 6 := by
      unfold bfs_measure; rw [hpc]
    rw [hM]
    have hU : (or_paint obj.maze a.cur a.paint).unkeyed a.seen = obj.maze.unkeyed a.seen := rfl
    unfold bfs_measure
    simp only [hU, biased_directions_length]
    omega
  · rename_i hpc
    exact bfs_probe_measure obj a hpc ha
  · rename_i hpc
    exact seen_at_measure _ a ha (Or.inl hpc)
  · rename_i hpc
    split_ifs with hrow
    · exact seen_at_measure _ a ha (Or.inr ⟨hpc, hrow⟩)
    · unfold bfs_measure
      simp only [hpc]
      omega
  · rename_i h1 h2 h3 h4 h5 h6
    exfalso
    cases hpc : a.pc with
    | loop_head => exact h1 hpc
    | claim => exact h2 hpc
    | mark => exact h3 hpc
    | probe => exact h4 hpc
    | unwind => exact h5 hpc
    | trace => exact h6 hpc
    | returned => exact hne.1 hpc
    | threw => exact hne.2 hpc

theorem thread_step_bfs_hunt (gen : Nat → Nat) (obj : Thread_maze_object) (a : Thread_local)
    (h : a.function = .bfs_thread_hunt) : thread_step gen obj a = bfs_thread_hunt obj a := by
  unfold thread_step
  rw [h]

/-- The invariant of the run alone holds at the fresh start and every step keeps
it. -/
theorem run_alone_bfs_hunt (gen : Nat → Nat) (obj : Thread_maze_object) (start : Point)
    (i : Nat) (hring : Perimeter_closed obj.maze)
    (hstart : obj.maze.within_perimeter start.row start.col)
    (hslot : obj.escape_path_index_ = -1) (hlen : i < obj.thread_paths_.length)
    (hpaths : obj.thread_paths_.getD i [] = []) (hreach : obj.maze.goal_reachable start) :
    Bfs_hunt_run obj start i (obj, spawn .bfs_thread_hunt start i)
      ∧ ∀ s, Bfs_hunt_run obj start i s → Bfs_hunt_run obj start i (thread_step gen s.1 s.2) := by
  constructor
  · exact ⟨rfl, hring, spawn_bfs_inv _ _ _ hstart, spawn_bfs_path_inv obj start i hlen hpaths,
      { reach := hreach
        alive := by simp [spawn]
        quiet := fun _ => hslot
        done := fun h => by simp [spawn] at h },
      rfl, rfl, fun _ _ => rfl, fun _ _ => rfl⟩
  · rintro ⟨o, a⟩ ⟨hf, hm, ha, hp, ho, hs, hidx, hpath, hfin⟩
    have hstep := thread_step_maze gen o a
    have hid := thread_step_ident gen o a
    have hfun := thread_step_function gen o a
    show Bfs_hunt_run obj start i (thread_step gen o a)
    rw [thread_step_bfs_hunt gen o a hf] at hstep hid hfun ⊢
    exact ⟨hfun.1.trans hf, perimeter_closed_step _ _ _ hstep hm,
      bfs_thread_hunt_inv o a hm ha, bfs_thread_hunt_path_inv o a ha hp,
      bfs_thread_hunt_alone o a ha hp ho, hid.2.trans hs, hfun.2.trans hidx,
      fun r c => (maze_step_path _ _ _ hstep r c).trans (hpath r c),
      fun r c => (maze_step_finish _ _ _ hstep r c).trans (hfin r c)⟩

theorem run_alone_bfs_hunt_inv (gen : Nat → Nat) (obj : Thread_maze_object) (start : Point)
    (i : Nat) (hring : Perimeter_closed obj.maze)
    (hstart : obj.maze.within_perimeter start.row start.col)
    (hslot : obj.escape_path_index_ = -1) (hlen : i < obj.thread_paths_.length)
    (hpaths : obj.thread_paths_.getD i [] = []) (hreach : obj.maze.goal_reachable start)
    (n : Nat) :
    Bfs_hunt_run obj start i (run_alone gen n obj (spawn .bfs_thread_hunt start i)) := by
  obtain ⟨h0, hstep⟩ :=
    run_alone_bfs_hunt gen obj start i hring hstart hslot hlen hpaths hreach
  induction n with
  | zero => exact h0
  | succ k ih =>
    rw [run_alone_succ]
    exact hstep _ ih

theorem steps_frame (m m1 : Maze) (hpath : ∀ r c, m1.path r c = m.path r c) (a : Point)
    (n : Nat) (b : Point) (h : m.steps a n b) : m1.steps a n b := by
  induction n generalizing b with
  | zero => exact h
  | succ n ih =>
    obtain ⟨c, hc, hadj, hp⟩ := h
    exact ⟨c, ih c hc, hadj, by rw [hpath]; exact hp⟩

/-- C24: on a grid whose outer ring is not passable, a single agent that runs
`bfs_thread_hunt` alone from a start within the perimeter that can reach a cell
with the finish flag, in a fresh solve (slot -1, its path empty), returns after
finitely many steps; whenever it has returned, its result is success and there
is a cell `g` with the finish flag such that `g` followed by the stored path is
a route from the start (consecutive cells are cardinal neighbours, the first is
a neighbour of `g`, the last is the start), `g` is reached from the start by a
walk of as many moves as the path has cells, and no walk from the start to any
cell with the finish flag has fewer moves. -/
theorem bfs_hunt_alone_shortest_path (gen : Nat → Nat) (obj : Thread_maze_object)
    (start : Point) (i : Nat) (hring : Perimeter_closed obj.maze)
    (hstart : obj.maze.within_perimeter start.row start.col)
    (hslot : obj.escape_path_index_ = -1) (hlen : i < obj.thread_paths_.length)
    (hpaths : obj.thread_paths_.getD i [] = []) (hreach : obj.maze.goal_reachable start) :
    (∃ n, (run_alone gen n obj (spawn .bfs_thread_hunt start i)).2.pc = .returned)
      ∧ ∀ n, (run_alone gen n obj (spawn .bfs_thread_hunt start i)).2.pc = .returned →
        (run_alone gen n obj (spawn .bfs_thread_hunt start i)).2.result = true
          ∧ ∃ g : Point, (obj.maze.maze_ g.row g.col).finish_bit = true
            ∧ obj.maze.route start
                (g :: (run_alone gen n obj (spawn .bfs_thread_hunt start i)).1.thread_paths_.getD
                  i [])
            ∧ obj.maze.steps start
                ((run_alone gen n obj (spawn .bfs_thread_hunt start i)).1.thread_paths_.getD
                  i []).length g
            ∧ (∀ q, ((run_alone gen n obj (spawn .bfs_thread_hunt start i)).1.thread_paths_.getD
                  i []).head? = some q → q.adjacent g)
            ∧ (∀ q, ((run_alone gen n obj (spawn .bfs_thread_hunt start i)).1.thread_paths_.getD
                  i []).getLast? = some q → q = start)
            ∧ ∀ g1 k, (obj.maze.maze_ g1.row g1.col).finish_bit = true →
                obj.maze.steps start k g1 →
                ((run_alone gen n obj (spawn .bfs_thread_hunt start i)).1.thread_paths_.getD
                  i []).length ≤ k := by
  obtain ⟨h0, hstep⟩ :=
    run_alone_bfs_hunt gen obj start i hring hstart hslot hlen hpaths hreach
  constructor
  · obtain ⟨n, hn⟩ := measure_terminates (fun s => thread_step gen s.1 s.2)
      (Bfs_hunt_run obj start i) (fun s => s.2.pc = .returned ∨ s.2.pc = .threw)
      (fun s => bfs_measure s.1.maze s.2) hstep
      (fun s hs hne => by
        obtain ⟨hf, _, ha, _⟩ := hs
        simp only []
        rw [thread_step_bfs_hunt gen s.1 s.2 hf]
        exact bfs_thread_hunt_measure s.1 s.2 ha (not_or.mp hne)) _ h0
    refine ⟨n, ?_⟩
    obtain ⟨_, _, _, _, ho, _⟩ :=
      run_alone_bfs_hunt_inv gen obj start i hring hstart hslot hlen hpaths hreach n
    rcases hn with h | h
    · exact h
    · exact absurd h ho.alive
  · intro n hpc
    obtain ⟨_, _, ha, hp, ho, hs, hidx, hpath, hfin⟩ :=
      run_alone_bfs_hunt_inv gen obj start i hring hstart hslot hlen hpaths hreach n
    have hres := ho.done (Or.inr (Or.inr hpc))
    obtain ⟨g, hg, hkey, hnear, hstored⟩ := hp.final hpc hres
    rw [hidx] at hstored
    rw [hs] at hnear
    have hroute : obj.maze.route start
        (g :: (run_alone gen n obj (spawn .bfs_thread_hunt start i)).1.thread_paths_.getD i []) := by
      rw [hstored]
      have hf := forest_route _ _ _ ha.forest g hkey
      rw [hs] at hf
      exact route_sizes _ _ _ _ (fun r c => (hpath r c).symm) hf
    refine ⟨hres, g, by rw [← hfin]; exact hg, hroute, route_steps _ _ _ _ hroute, ?_, ?_, ?_⟩
    · intro q hq
      cases hl : (run_alone gen n obj (spawn .bfs_thread_hunt start i)).1.thread_paths_.getD
          i [] with
      | nil => rw [hl] at hq; exact absurd hq (by simp)
      | cons q1 rest =>
        rw [hl] at hq hroute
        simp only [List.head?_cons, Option.some.injEq] at hq
        rw [← hq]
        exact route_head_adjacent _ _ _ _ _ hroute
    · intro q hq
      have hne : (run_alone gen n obj (spawn .bfs_thread_hunt start i)).1.thread_paths_.getD
          i [] ≠ [] := by
        intro e
        rw [e] at hq
        exact absurd hq (by simp)
      have h1 := hroute.1
      rw [getLast?_cons_ne_nil _ _ hne, hq] at h1
      exact Option.some.inj h1
    · intro g1 k hg1 hk
      rw [hstored]
      exact hnear g1 k (by rw [hfin]; exact hg1) (steps_frame _ _ hpath _ _ _ hk)

theorem bfs_hunt_alone_shortest_path_witness :
    (∃ n, (run_alone (fun n => n) n
      { builder_ := .arena, modification_ := .none, solver_ := .breadth_first_search,
        game_ := .hunt,
        maze := { maze_row_size_ := 7, maze_col_size_ := 7,
                  maze_ := fun r c => if r = 1 ∧ 1 ≤ c ∧ c ≤ 3 then
                    { path_bit := true, finish_bit := decide (c = 3) } else {} },
        marks := { start_ := ⟨1, 1⟩ }, thread_paths_ := [[], [], [], []],
        escape_path_index_ := -1, pos := 0 }
      (spawn .bfs_thread_hunt ⟨1, 1⟩ 0)).2.pc = .returned)
      ∧ ∀ n, (run_alone (fun n => n) n
      { builder_ := .arena, modification_ := .none, solver_ := .breadth_first_search,
        game_ := .hunt,
        maze := { maze_row_size_ := 7, maze_col_size_ := 7,
                  maze_ := fun r c => if r = 1 ∧ 1 ≤ c ∧ c ≤ 3 then
                    { path_bit := true, finish_bit := decide (c = 3) } else {} },
        marks := { start_ := ⟨1, 1⟩ }, thread_paths_ := [[], [], [], []],
        escape_path_index_ := -1, pos := 0 }
      (spawn .bfs_thread_hunt ⟨1, 1⟩ 0)).2.pc = .returned →
        (run_alone (fun n => n) n
      { builder_ := .arena, modification_ := .none, solver_ := .breadth_first_search,
        game_ := .hunt,
        maze := { maze_row_size_ := 7, maze_col_size_ := 7,
                  maze_ := fun r c => if r = 1 ∧ 1 ≤ c ∧ c ≤ 3 then
                    { path_bit := true, finish_bit := decide (c = 3) } else {} },
        marks := { start_ := ⟨1, 1⟩ }, thread_paths_ := [[], [], [], []],
        escape_path_index_ := -1, pos := 0 }
      (spawn .bfs_thread_hunt ⟨1, 1⟩ 0)).2.result = true
          ∧ ∃ g : Point, ((Thread_maze_object.maze
      { builder_ := .arena, modification_ := .none, solver_ := .breadth_first_search,
        game_ := .hunt,
        maze := { maze_row_size_ := 7, maze_col_size_ := 7,
                  maze_ := fun r c => if r = 1 ∧ 1 ≤ c ∧ c ≤ 3 then
                    { path_bit := true, finish_bit := decide (c = 3) } else {} },
        marks := { start_ := ⟨1, 1⟩ }, thread_paths_ := [[], [], [], []],
        escape_path_index_ := -1, pos := 0 }).maze_ g.row g.col).finish_bit = true
            ∧ (Thread_maze_object.maze
      { builder_ := .arena, modification_ := .none, solver_ := .breadth_first_search,
        game_ := .hunt,
        maze := { maze_row_size_ := 7, maze_col_size_ := 7,
                  maze_ := fun r c => if r = 1 ∧ 1 ≤ c ∧ c ≤ 3 then
                    { path_bit := true, finish_bit := decide (c = 3) } else {} },
        marks := { start_ := ⟨1, 1⟩ }, thread_paths_ := [[], [], [], []],
        escape_path_index_ := -1, pos := 0 }).route ⟨1, 1⟩
                (g :: ((run_alone (fun n => n) n
      { builder_ := .arena, modification_ := .none, solver_ := .breadth_first_search,
        game_ := .hunt,
        maze := { maze_row_size_ := 7, maze_col_size_ := 7,
                  maze_ := fun r c => if r = 1 ∧ 1 ≤ c ∧ c ≤ 3 then
                    { path_bit := true, finish_bit := decide (c = 3) } else {} },
        marks := { start_ := ⟨1, 1⟩ }, thread_paths_ := [[], [], [], []],
        escape_path_index_ := -1, pos := 0 }
      (spawn .bfs_thread_hunt ⟨1, 1⟩ 0)).1.thread_paths_.getD 0 []))
            ∧ (Thread_maze_object.maze
      { builder_ := .arena, modification_ := .none, solver_ := .breadth_first_search,
        game_ := .hunt,
        maze := { maze_row_size_ := 7, maze_col_size_ := 7,
                  maze_ := fun r c => if r = 1 ∧ 1 ≤ c ∧ c ≤ 3 then
                    { path_bit := true, finish_bit := decide (c = 3) } else {} },
        marks := { start_ := ⟨1, 1⟩ }, thread_paths_ := [[], [], [], []],
        escape_path_index_ := -1, pos := 0 }).steps ⟨1, 1⟩
                ((run_alone (fun n => n) n
      { builder_ := .arena, modification_ := .none, solver_ := .breadth_first_search,
        game_ := .hunt,
        maze := { maze_row_size_ := 7, maze_col_size_ := 7,
                  maze_ := fun r c => if r = 1 ∧ 1 ≤ c ∧ c ≤ 3 then
                    { path_bit := true, finish_bit := decide (c = 3) } else {} },
        marks := { start_ := ⟨1, 1⟩ }, thread_paths_ := [[], [], [], []],
        escape_path_index_ := -1, pos := 0 }
      (spawn .bfs_thread_hunt ⟨1, 1⟩ 0)).1.thread_paths_.getD 0 []).length g
            ∧ (∀ q, ((run_alone (fun n => n) n
      { builder_ := .arena, modification_ := .none, solver_ := .breadth_first_search,
        game_ := .hunt,
        maze := { maze_row_size_ := 7, maze_col_size_ := 7,
                  maze_ := fun r c => if r = 1 ∧ 1 ≤ c ∧ c ≤ 3 then
                    { path_bit := true, finish_bit := decide (c = 3) } else {} },
        marks := { start_ := ⟨1, 1⟩ }, thread_paths_ := [[], [], [], []],
        escape_path_index_ := -1, pos := 0 }
      (spawn .bfs_thread_hunt ⟨1, 1⟩ 0)).1.thread_paths_.getD 0 []).head? = some q → q.adjacent g)
            ∧ (∀ q, ((run_alone (fun n => n) n
      { builder_ := .arena, modification_ := .none, solver_ := .breadth_first_search,
        game_ := .hunt,
        maze := { maze_row_size_ := 7, maze_col_size_ := 7,
                  maze_ := fun r c => if r = 1 ∧ 1 ≤ c ∧ c ≤ 3 then
                    { path_bit := true, finish_bit := decide (c = 3) } else {} },
        marks := { start_ := ⟨1, 1⟩ }, thread_paths_ := [[], [], [], []],
        escape_path_index_ := -1, pos := 0 }
      (spawn .bfs_thread_hunt ⟨1, 1⟩ 0)).1.thread_paths_.getD 0 []).getLast? = some q → q = ⟨1, 1⟩)
            ∧ ∀ g1 k, ((Thread_maze_object.maze
      { builder_ := .arena, modification_ := .none, solver_ := .breadth_first_search,
        game_ := .hunt,
        maze := { maze_row_size_ := 7, maze_col_size_ := 7,
                  maze_ := fun r c => if r = 1 ∧ 1 ≤ c ∧ c ≤ 3 then
                    { path_bit := true, finish_bit := decide (c = 3) } else {} },
        marks := { start_ := ⟨1, 1⟩ }, thread_paths_ := [[], [], [], []],
        escape_path_index_ := -1, pos := 0 }).maze_ g1.row g1.col).finish_bit = true →
                (Thread_maze_object.maze
      { builder_ := .arena, modification_ := .none, solver_ := .breadth_first_search,
        game_ := .hunt,
        maze := { maze_row_size_ := 7, maze_col_size_ := 7,
                  maze_ := fun r c => if r = 1 ∧ 1 ≤ c ∧ c ≤ 3 then
                    { path_bit := true, finish_bit := decide (c = 3) } else {} },
        marks := { start_ := ⟨1, 1⟩ }, thread_paths_ := [[], [], [], []],
        escape_path_index_ := -1, pos := 0 }).steps ⟨1, 1⟩ k g1 →
                ((run_alone (fun n => n) n
      { builder_ := .arena, modification_ := .none, solver_ := .breadth_first_search,
        game_ := .hunt,
        maze := { maze_row_size_ := 7, maze_col_size_ := 7,
                  maze_ := fun r c => if r = 1 ∧ 1 ≤ c ∧ c ≤ 3 then
                    { path_bit := true, finish_bit := decide (c = 3) } else {} },
        marks := { start_ := ⟨1, 1⟩ }, thread_paths_ := [[], [], [], []],
        escape_path_index_ := -1, pos := 0 }
      (spawn .bfs_thread_hunt ⟨1, 1⟩ 0)).1.thread_paths_.getD 0 []).length ≤ k :=
  bfs_hunt_alone_shortest_path (fun n => n)
    { builder_ := .arena, modification_ := .none, solver_ := .breadth_first_search,
        game_ := .hunt,
        maze := { maze_row_size_ := 7, maze_col_size_ := 7,
                  maze_ := fun r c => if r = 1 ∧ 1 ≤ c ∧ c ≤ 3 then
                    { path_bit := true, finish_bit := decide (c = 3) } else {} },
        marks := { start_ := ⟨1, 1⟩ }, thread_paths_ := [[], [], [], []],
        escape_path_index_ := -1, pos := 0 }
    ⟨1, 1⟩ 0
    (fun row col h => by
      unfold Maze.on_ring Maze.in_array at h
      unfold Maze.path
      simp only [] at h ⊢
      rw [if_neg]
      omega)
    (by decide) rfl (by decide) rfl
    ⟨⟨1, 3⟩, by decide,
      Relation.ReflTransGen.tail
        (Relation.ReflTransGen.single
          (show Maze.search_step _ (⟨1, 1⟩ : Point) (⟨1, 2⟩ : Point) from
            ⟨⟨⟨0, 1⟩, by decide, by decide⟩, by decide⟩))
        (show Maze.search_step _ (⟨1, 2⟩ : Point) (⟨1, 3⟩ : Point) from
          ⟨⟨⟨0, 1⟩, by decide, by decide⟩, by decide⟩)⟩

/-! ## The race of the hunt agents -/

theorem or_two_pow_and (x i j : Nat) (h : i ≠ j) : (x ||| 2 ^ j) &&& 2 ^ i = x &&& 2 ^ i := by
  apply Nat.eq_of_testBit_eq
  intro k
  simp only [Nat.testBit_and, Nat.testBit_or, Nat.testBit_two_pow]
  by_cases e : i = k
  · have : ¬ j = k := fun e2 => h (e.trans e2.symm)
    simp [e, this]
  · simp [e]

theorem cell_step_seen_other (i j : Nat) (h : i ≠ j) (s t : Square)
    (hc : Cell_step (thread_masks_ j) s t) :
    t.thread_cache &&& thread_masks_ i = s.thread_cache &&& thread_masks_ i := by
  unfold thread_masks_ at hc ⊢
  rcases cell_step_cache _ s t hc with e | e <;> rw [e]
  exact or_two_pow_and _ i j h

theorem maze_step_seen_other (i j : Nat) (h : i ≠ j) (m m1 : Maze)
    (hs : Maze_step (thread_masks_ j) m m1) (p : Point) :
    m1.seen_by p (thread_masks_ i) = m.seen_by p (thread_masks_ i) := by
  unfold Maze.seen_by
  rw [cell_step_seen_other i j h _ _ (hs.2.2 p.row p.col)]

theorem racer_step (gen : Nat → Nat) (obj : Thread_maze_object) (a : Thread_local)
    (h : a.racer) : (thread_step gen obj a).2.racer := by
  unfold Thread_local.racer at h ⊢
  rw [(thread_step_function gen obj a).1, (thread_step_function gen obj a).2,
    (thread_step_ident gen obj a).1]
  exact h

theorem hunts_not_gather (f : Thread_function) (h : f.hunts) : f ≠ .bfs_thread_gather := by
  unfold Thread_function.hunts at h
  rcases h with e | e | e <;> rw [e] <;> decide

theorem int_index_ne (i : Nat) : ((i : Nat) : Int) ≠ -1 := by omega

/-- The race invariant of an agent survives the steps of the other agents. -/
theorem hunt_race_other (gen : Nat → Nat) (obj : Thread_maze_object) (a b : Thread_local)
    (hb : b.racer) (hidx : a.thread_index ≠ b.thread_index) (hr : Hunt_race obj a) :
    Hunt_race (thread_step gen obj b).1 a := by
  have hstep := thread_step_maze gen obj b
  have hslot := thread_step_slot gen obj b (hunts_not_gather _ hb.1)
  have hreach := goal_reachable_step _ _ _ hstep a.start
  exact
    { quiet := hr.quiet
      winner := by
        constructor
        · intro h
          have e := hr.winner.1 h
          rcases hslot with e2 | ⟨e2, _⟩
          · rw [e2]; exact e
          · rw [e2] at e
            exact absurd e.symm (int_index_ne _)
        · intro h
          rcases hslot with e2 | ⟨_, e2⟩
          · rw [e2] at h; exact hr.winner.2 h
          · rw [e2] at h
            exact absurd (Int.ofNat.inj h).symm hidx
      done := fun h => by
        rcases hr.done h with h1 | h1 | h1
        · exact Or.inl h1
        · right; left
          rcases hslot with e2 | ⟨e2, _⟩
          · rw [e2]; exact h1
          · exact absurd e2 h1
        · exact Or.inr (Or.inr (fun h2 => h1 (hreach.1 h2)))
      sound := fun h => hreach.2 (hr.sound h) }

theorem hunt_race_inv_other (gen : Nat → Nat) (obj : Thread_maze_object) (a b : Thread_local)
    (ha : a.racer) (hb : b.racer) (hidx : a.thread_index ≠ b.thread_index)
    (hP : Hunt_race_inv obj a) : Hunt_race_inv (thread_step gen obj b).1 a := by
  obtain ⟨hm, hd, hbf, hr⟩ := hP
  have hstep := thread_step_maze gen obj b
  refine ⟨perimeter_closed_step _ _ _ hstep hm, ?_, ?_, hunt_race_other gen obj a b hb hidx hr⟩
  · intro hf
    obtain ⟨h1, h2⟩ := hd hf
    refine ⟨dfs_agent_inv_stable _ _ _ a hstep h1, ?_⟩
    refine hunt_inv_frame obj.maze _ a hstep.1 hstep.2.1 (maze_step_path _ _ _ hstep)
      (maze_step_finish _ _ _ hstep) ?_ h2
    intro p
    rw [ha.2]
    rw [hb.2] at hstep
    exact maze_step_seen_other _ _ hidx _ _ hstep p
  · intro hf
    exact bfs_inv_step _ _ _ a hstep (hbf hf)

/-- A step inside the search loop that changes neither the slot nor the
result. -/
theorem hunt_race_search (obj obj1 : Thread_maze_object) (a b : Thread_local)
    (hr : Hunt_race obj a) (hs : a.pc.searching) (hb : b.pc.searching)
    (hslot : obj1.escape_path_index_ = obj.escape_path_index_)
    (hres : b.result = a.result) (hidx : b.thread_index = a.thread_index)
    (hstart : b.start = a.start)
    (hreach : obj1.maze.goal_reachable a.start ↔ obj.maze.goal_reachable a.start) :
    Hunt_race obj1 b :=
  { quiet := fun _ => by rw [hres]; exact hr.quiet hs
    winner := by rw [hres, hslot, hidx]; exact hr.winner
    done := fun h => absurd hb h
    sound := fun h => by rw [hstart]; rw [hres] at h; exact hreach.2 (hr.sound h) }

/-- A step that leaves the search loop without a claim: the slot was taken or
the search is exhausted. -/
theorem hunt_race_lose (obj : Thread_maze_object) (a b : Thread_local)
    (hr : Hunt_race obj a) (hs : a.pc.searching) (hb : ¬ b.pc.searching)
    (hres : b.result = false) (hidx : b.thread_index = a.thread_index)
    (hstart : b.start = a.start)
    (hwhy : obj.escape_path_index_ ≠ -1 ∨ ¬ obj.maze.goal_reachable a.start) :
    Hunt_race obj b :=
  { quiet := fun h => absurd h hb
    winner := by
      rw [hres, hidx]
      constructor
      · intro h; exact absurd h (by decide)
      · intro h
        have := hr.winner.2 h
        rw [hr.quiet hs] at this
        exact this
    done := fun _ => by rw [hstart]; exact Or.inr hwhy
    sound := fun h => by rw [hres] at h; exact absurd h (by decide) }

/-- The claim: the agent wins when the slot holds -1 and loses otherwise. -/
theorem hunt_race_claim (obj : Thread_maze_object) (a b : Thread_local)
    (hr : Hunt_race obj a) (hs : a.pc.searching) (hb : ¬ b.pc.searching)
    (hres : b.result = (claim_escape obj a).2) (hidx : b.thread_index = a.thread_index)
    (hstart : b.start = a.start) (hgoal : obj.maze.goal_reachable a.start) :
    Hunt_race (claim_escape obj a).1 b := by
  have hq := hr.quiet hs
  have hne : obj.escape_path_index_ ≠ (a.thread_index : Int) := by
    intro h
    have := hr.winner.2 h
    rw [hq] at this
    exact absurd this (by decide)
  by_cases h : obj.escape_path_index_ = -1
  · have e1 : (claim_escape obj a).1.escape_path_index_ = (a.thread_index : Int) := by
      unfold claim_escape; simp only [h]; rfl
    have e2 : (claim_escape obj a).2 = true := by unfold claim_escape; simp only [h]; rfl
    exact
      { quiet := fun h2 => absurd h2 hb
        winner := by rw [hres, e2, e1, hidx]; simp
        done := fun _ => Or.inl (by rw [hres, e2])
        sound := fun _ => by rw [hstart, claim_escape_maze]; exact hgoal }
  · have e1 : (claim_escape obj a).1 = obj := by
      unfold claim_escape; simp only [h]; rfl
    have e2 : (claim_escape obj a).2 = false := by unfold claim_escape; simp only [h]; rfl
    rw [e1]
    exact
      { quiet := fun h2 => absurd h2 hb
        winner := by
          rw [hres, e2, hidx]
          constructor
          · intro h2; exact absurd h2 (by decide)
          · intro h2; exact absurd h2 hne
        done := fun _ => Or.inr (Or.inl h)
        sound := fun h2 => by rw [hres, e2] at h2; exact absurd h2 (by decide) }

/-- A step after the search loop: the slot and the result stay. -/
theorem hunt_race_after (obj obj1 : Thread_maze_object) (a b : Thread_local)
    (hr : Hunt_race obj a) (hs : ¬ a.pc.searching) (hb : ¬ b.pc.searching)
    (hslot : obj1.escape_path_index_ = obj.escape_path_index_)
    (hres : b.result = a.result) (hidx : b.thread_index = a.thread_index)
    (hstart : b.start = a.start)
    (hreach : obj1.maze.goal_reachable a.start ↔ obj.maze.goal_reachable a.start) :
    Hunt_race obj1 b :=
  { quiet := fun h => absurd h hb
    winner := by rw [hres, hslot, hidx]; exact hr.winner
    done := fun _ => by
      rw [hres, hslot, hstart]
      rcases hr.done hs with h | h | h
      · exact Or.inl h
      · exact Or.inr (Or.inl h)
      · exact Or.inr (Or.inr (fun h2 => h (hreach.1 h2)))
    sound := fun h => by rw [hstart]; rw [hres] at h; exact hreach.2 (hr.sound h) }

theorem not_searching_unwind : ¬ Thread_pc.unwind.searching := by
  unfold Thread_pc.searching; decide

theorem not_searching_returned : ¬ Thread_pc.returned.searching := by
  unfold Thread_pc.searching; decide

theorem not_searching_trace : ¬ Thread_pc.trace.searching := by
  unfold Thread_pc.searching; decide

theorem not_searching_threw : ¬ Thread_pc.threw.searching := by
  unfold Thread_pc.searching; decide

theorem dfs_probe_race (obj : Thread_maze_object) (a : Thread_local) (hpc : a.pc = .probe)
    (hr : Hunt_race obj a) : Hunt_race (dfs_probe obj a).1 (dfs_probe obj a).2 := by
  have hl := dfs_probe_local obj a
  have hf := dfs_probe_frame obj a
  have hid := dfs_probe_ident obj a
  have hs : a.pc.searching := Or.inr (Or.inr (Or.inr hpc))
  refine hunt_race_search obj _ a _ hr hs ?_ (by rw [hf.1]) hl.1 hf.2.2 hid.2 (by rw [hf.1])
  rcases hl.2 with e | e
  · exact Or.inl e
  · exact Or.inr (Or.inr (Or.inr (e.trans hpc)))

theorem dfs_unwind_race (obj : Thread_maze_object) (a : Thread_local) (hpc : a.pc = .unwind)
    (hr : Hunt_race obj a) : Hunt_race (dfs_unwind obj a).1 (dfs_unwind obj a).2 := by
  have hs : ¬ a.pc.searching := by rw [hpc]; exact not_searching_unwind
  unfold dfs_unwind
  split
  · exact hunt_race_after obj _ a _ hr hs not_searching_returned rfl rfl rfl rfl Iff.rfl
  · exact hunt_race_after obj _ a _ hr hs (by simp only [hpc]; exact not_searching_unwind)
      rfl rfl rfl rfl (goal_reachable_step a.paint _ _ (or_paint_step _ _ _) _)

theorem dfs_claim_reach (m : Maze) (a : Thread_local) (hpc : a.pc = .claim)
    (ha : Dfs_agent_inv m a) (hi : Dfs_hunt_inv m a) : m.goal_reachable a.start := by
  have htop := ha.top (Or.inr (Or.inl hpc))
  have hcur : a.cur ∈ a.dfs := List.mem_of_mem_head? htop
  have hroute : m.route a.start a.dfs := by
    rcases ha.route with e | e
    · rw [e] at hcur; exact absurd hcur (by simp)
    · exact e
  exact ⟨a.cur, hi.goal hpc, route_reachable _ _ _ hroute _ hcur⟩

theorem dfs_thread_hunt_race (obj : Thread_maze_object) (a : Thread_local)
    (ha : Dfs_agent_inv obj.maze a) (hi : Dfs_hunt_inv obj.maze a) (hr : Hunt_race obj a) :
    Hunt_race (dfs_thread_hunt obj a).1 (dfs_thread_hunt obj a).2 := by
  unfold dfs_thread_hunt
  split
  · rename_i hpc
    have hs : a.pc.searching := Or.inl hpc
    split
    · rename_i hd
      exact hunt_race_lose obj a _ hr hs not_searching_unwind (hr.quiet hs) rfl rfl
        (Or.inr (exhausted_no_goal _ a hi hs hd))
    · split_ifs with h1 h2
      · exact hunt_race_lose obj a _ hr hs not_searching_unwind rfl rfl rfl (Or.inl h1)
      · exact hunt_race_search obj obj a _ hr hs (Or.inr (Or.inr (Or.inl rfl))) rfl rfl rfl rfl
          Iff.rfl
      · exact hunt_race_search obj obj a _ hr hs (Or.inr (Or.inl rfl)) rfl rfl rfl rfl Iff.rfl
  · rename_i hpc
    exact hunt_race_claim obj a _ hr (Or.inr (Or.inr (Or.inl hpc))) not_searching_unwind rfl rfl
      rfl (dfs_claim_reach _ a hpc ha hi)
  · rename_i hpc
    exact hunt_race_search obj _ a _ hr (Or.inr (Or.inl hpc)) (Or.inr (Or.inr (Or.inr rfl)))
      rfl rfl rfl rfl (goal_reachable_step a.paint _ _ (or_seen_step _ _ _) _)
  · rename_i hpc
    exact dfs_probe_race obj a hpc hr
  · rename_i hpc
    exact dfs_unwind_race obj a hpc hr
  · exact hr

theorem randomized_dfs_thread_hunt_race (gen : Nat → Nat) (obj : Thread_maze_object)
    (a : Thread_local) (ha : Dfs_agent_inv obj.maze a) (hi : Dfs_hunt_inv obj.maze a)
    (hr : Hunt_race obj a) :
    Hunt_race (randomized_dfs_thread_hunt gen obj a).1
      (randomized_dfs_thread_hunt gen obj a).2 := by
  unfold randomized_dfs_thread_hunt
  split
  · rename_i hpc
    have hs : a.pc.searching := Or.inl hpc
    split
    · rename_i hd
      exact hunt_race_lose obj a _ hr hs not_searching_unwind (hr.quiet hs) rfl rfl
        (Or.inr (exhausted_no_goal _ a hi hs hd))
    · split_ifs with h1 h2
      · exact hunt_race_lose obj a _ hr hs not_searching_unwind rfl rfl rfl (Or.inl h1)
      · exact hunt_race_search obj obj a _ hr hs (Or.inr (Or.inr (Or.inl rfl))) rfl rfl rfl rfl
          Iff.rfl
      · exact hunt_race_search obj obj a _ hr hs (Or.inr (Or.inl rfl)) rfl rfl rfl rfl Iff.rfl
  · rename_i hpc
    exact hunt_race_claim obj a _ hr (Or.inr (Or.inr (Or.inl hpc))) not_searching_unwind rfl rfl
      rfl (dfs_claim_reach _ a hpc ha hi)
  · rename_i hpc
    exact hunt_race_search obj _ a _ hr (Or.inr (Or.inl hpc)) (Or.inr (Or.inr (Or.inr rfl)))
      rfl rfl rfl rfl (goal_reachable_step a.paint _ _ (or_seen_step _ _ _) _)
  · rename_i hpc
    exact dfs_probe_race obj a hpc hr
  · rename_i hpc
    exact dfs_unwind_race obj a hpc hr
  · exact hr

theorem seen_at_race (obj obj1 : Thread_maze_object) (a : Thread_local)
    (hpc : ¬ a.pc.searching) (hr : Hunt_race obj a)
    (hslot : obj1.escape_path_index_ = obj.escape_path_index_)
    (hmaze : obj1.maze = obj.maze) : Hunt_race obj1 (seen_at a) := by
  obtain ⟨_, h2, _, h4, h5, h6⟩ := seen_at_cases a
  refine hunt_race_after obj obj1 a _ hr hpc ?_ hslot h4 h5 h2 (by rw [hmaze])
  rcases h6 with ⟨_, _, _, e⟩ | ⟨_, e⟩ <;> rw [e]
  · exact not_searching_trace
  · exact not_searching_threw

theorem bfs_thread_hunt_race (obj : Thread_maze_object) (a : Thread_local)
    (ha : Bfs_agent_inv obj.maze a) (hr : Hunt_race obj a) :
    Hunt_race (bfs_thread_hunt obj a).1 (bfs_thread_hunt obj a).2 := by
  unfold bfs_thread_hunt
  split
  · rename_i hpc
    have hs : a.pc.searching := Or.inl hpc
    split
    · rename_i hd
      exact hunt_race_lose obj a _ hr hs not_searching_unwind (hr.quiet hs) rfl rfl
        (Or.inr (bfs_exhausted_no_goal _ a ha hpc hd))
    · split_ifs with h1 h2
      · exact hunt_race_lose obj a _ hr hs not_searching_unwind rfl rfl rfl (Or.inl h1)
      · exact hunt_race_search obj obj a _ hr hs (Or.inr (Or.inr (Or.inl rfl))) rfl rfl rfl rfl
          Iff.rfl
      · exact hunt_race_search obj obj a _ hr hs (Or.inr (Or.inl rfl)) rfl rfl rfl rfl Iff.rfl
  · rename_i hpc
    have hs : a.pc.searching := Or.inr (Or.inr (Or.inl hpc))
    exact hunt_race_claim obj a _ hr hs not_searching_unwind rfl rfl rfl
      ⟨a.cur, ha.goal hpc,
        route_reachable _ _ _ (forest_route _ _ _ ha.forest _ (ha.current (Or.inl hs))) _
          (List.mem_cons_self _ _)⟩
  · rename_i hpc
    exact hunt_race_search obj _ a _ hr (Or.inr (Or.inl hpc)) (Or.inr (Or.inr (Or.inr rfl)))
      rfl rfl rfl rfl (goal_reachable_step a.paint _ _ (or_paint_step _ _ _) _)
  · rename_i hpc
    have hl := bfs_probe_local obj a
    have hf := bfs_probe_frame obj a
    have hid := bfs_probe_ident obj a
    have hs : a.pc.searching := Or.inr (Or.inr (Or.inr hpc))
    refine hunt_race_search obj _ a _ hr hs ?_ (by rw [hf.1]) hl.1 hf.2.2 hid.2 (by rw [hf.1])
    rcases hl.2 with e | e
    · exact Or.inl e
    · exact Or.inr (Or.inr (Or.inr (e.trans hpc)))
  · rename_i hpc
    exact seen_at_race obj obj a (by rw [hpc]; exact not_searching_unwind) hr rfl rfl
  · rename_i hpc
    have hs : ¬ a.pc.searching := by rw [hpc]; exact not_searching_trace
    split_ifs
    · exact seen_at_race obj _ a hs hr rfl rfl
    · exact hunt_race_after obj obj a _ hr hs not_searching_returned rfl rfl rfl rfl Iff.rfl
  · exact hr

theorem hunt_race_inv_own (gen : Nat → Nat) (obj : Thread_maze_object) (a : Thread_local)
    (hq : a.racer) (hP : Hunt_race_inv obj a) :
    Hunt_race_inv (thread_step gen obj a).1 (thread_step gen obj a).2 := by
  obtain ⟨hm, hd, hb, hr⟩ := hP
  have hstep := thread_step_maze gen obj a
  have hfun := thread_step_function gen obj a
  have hp : a.paint ≠ 0 := by rw [hq.2]; exact thread_masks_ne_zero _
  have hrace : Hunt_race (thread_step gen obj a).1 (thread_step gen obj a).2 := by
    rcases hq.1 with e | e | e
    · obtain ⟨h1, h2⟩ := hd (Or.inl e)
      have : thread_step gen obj a = dfs_thread_hunt obj a := by unfold thread_step; rw [e]
      rw [this]
      exact dfs_thread_hunt_race obj a h1 h2 hr
    · obtain ⟨h1, h2⟩ := hd (Or.inr e)
      have : thread_step gen obj a = randomized_dfs_thread_hunt gen obj a := by
        unfold thread_step; rw [e]
      rw [this]
      exact randomized_dfs_thread_hunt_race gen obj a h1 h2 hr
    · have : thread_step gen obj a = bfs_thread_hunt obj a := by unfold thread_step; rw [e]
      rw [this]
      exact bfs_thread_hunt_race obj a (hb e) hr
  refine ⟨perimeter_closed_step _ _ _ hstep hm, ?_, ?_, hrace⟩
  · intro hf
    rw [hfun.1] at hf
    obtain ⟨h1, h2⟩ := hd hf
    rcases hf with e | e
    · have : thread_step gen obj a = dfs_thread_hunt obj a := by unfold thread_step; rw [e]
      rw [this]
      exact ⟨dfs_thread_hunt_inv obj a hp h1, dfs_thread_hunt_hunt_inv obj a hm h1 h2⟩
    · have : thread_step gen obj a = randomized_dfs_thread_hunt gen obj a := by
        unfold thread_step; rw [e]
      rw [this]
      exact ⟨randomized_dfs_thread_hunt_inv gen obj a hp h1,
        randomized_dfs_thread_hunt_hunt_inv gen obj a hm h1 h2⟩
  · intro hf
    rw [hfun.1] at hf
    have : thread_step gen obj a = bfs_thread_hunt obj a := by unfold thread_step; rw [hf]
    rw [this]
    exact bfs_thread_hunt_inv obj a hm (hb hf)

theorem spawn_hunt_inv_randomized (m : Maze) (start : Point) (i : Nat)
    (hstart : m.within_perimeter start.row start.col)
    (hclear : ∀ p, m.seen_by p (thread_masks_ i) = false) :
    Dfs_hunt_inv m (spawn .randomized_dfs_thread_hunt start i) :=
  { inside := fun p hp => by
      have h : p ∈ [start] := hp
      simp only [List.mem_singleton] at h
      rw [h]; exact hstart
    started := fun _ => Or.inl (List.mem_singleton_self _)
    closed := fun _ p hp => by
      have h : m.seen_by p (thread_masks_ i) = true := hp
      rw [hclear p] at h
      exact absurd h (by decide)
    probed := fun h => by simp [spawn] at h
    plain := fun h => by simp [spawn] at h
    goal := fun h => by simp [spawn] at h
    nofinish := fun p hp => by
      have h : m.seen_by p (thread_masks_ i) = true := hp
      rw [hclear p] at h
      exact absurd h (by decide) }

theorem spawn_race (obj : Thread_maze_object) (function : Thread_function) (start : Point)
    (i : Nat) (hslot : obj.escape_path_index_ = -1) :
    Hunt_race obj (spawn function start i) := by
  have hres : (spawn function start i).result = false := by unfold spawn; split <;> rfl
  have hpc : (spawn function start i).pc = .loop_head := by unfold spawn; split <;> rfl
  exact
    { quiet := fun _ => hres
      winner := by
        rw [hres, hslot]
        constructor
        · intro h; exact absurd h (by decide)
        · intro h; exact absurd h.symm (int_index_ne _)
      done := fun h => absurd (Or.inl hpc) h
      sound := fun h => by rw [hres] at h; exact absurd h (by decide) }

theorem solve_begin_race_inv (solver : Solver_algorithm) (gen : Nat → Nat)
    (obj : Thread_maze_object) (hgame : obj.game_ ≠ .gather)
    (hslot : obj.escape_path_index_ = -1) (hring : Perimeter_closed obj.maze)
    (hstarts : ∀ b ∈ (solve_begin solver gen obj).threads,
      obj.maze.within_perimeter b.start.row b.start.col)
    (hclear : ∀ p i, obj.maze.seen_by p (thread_masks_ i) = false)
    (i : Nat) (a : Thread_local) (ha : (solve_begin solver gen obj).threads.get? i = some a) :
    a.racer ∧ Hunt_race_inv (solve_begin solver gen obj).obj a := by
  obtain ⟨e1, _, e3⟩ := solve_begin_fresh solver gen obj hslot
  have hstart := hstarts a (List.get?_mem ha)
  obtain ⟨start, hsp⟩ := solve_begin_threads solver gen obj i a ha
  have hh := agent_function_hunts solver obj.game_ hgame
  have hs : a.start = start := by rw [hsp]; unfold spawn; split <;> rfl
  rw [hs] at hstart
  rw [hsp]
  refine ⟨⟨by rw [spawn_function]; exact hh, by
      rw [(spawn_indexed _ _ _).2, (spawn_indexed _ _ _).1]⟩,
    by rw [e1]; exact hring, ?_, ?_, spawn_race _ _ _ _ e3⟩
  · intro hf
    rw [spawn_function] at hf
    rw [e1]
    rcases hf with e | e <;> rw [e]
    · exact ⟨spawn_dfs_inv _ _ _ _ ⟨by decide, by decide⟩,
        spawn_hunt_inv _ _ _ hstart (fun p => hclear p i)⟩
    · exact ⟨spawn_dfs_inv _ _ _ _ ⟨by decide, by decide⟩,
        spawn_hunt_inv_randomized _ _ _ hstart (fun p => hclear p i)⟩
  · intro hf
    rw [spawn_function] at hf
    rw [hf, e1]
    exact spawn_bfs_inv _ _ _ hstart

/-- The slot holds -1 or the index of an agent of the solve. -/
theorem step_owner (gen : Nat → Nat) (s : Solve_state) (i : Nat)
    (hnb : ∀ a ∈ s.threads, a.function ≠ .bfs_thread_gather) (hidx : s.indexed)
    (hG : s.obj.escape_path_index_ = -1
      ∨ ∃ k, k < s.threads.length ∧ s.obj.escape_path_index_ = (k : Int)) :
    (s.step gen i).obj.escape_path_index_ = -1
      ∨ ∃ k, k < (s.step gen i).threads.length
        ∧ (s.step gen i).obj.escape_path_index_ = (k : Int) := by
  cases ha : s.threads.get? i with
  | none =>
    have e : s.step gen i = s := by unfold Solve_state.step; rw [ha]
    rw [e]; exact hG
  | some a =>
    have hlen : (s.step gen i).threads.length = s.threads.length := by
      unfold Solve_state.step
      rw [ha]
      exact List.length_set _ _ _
    rw [(step_get gen s i a ha).1, hlen]
    have hi : i < s.threads.length := by
      simp only [List.get?_eq_getElem?] at ha
      exact (List.getElem?_eq_some.mp ha).1
    rcases thread_step_slot gen s.obj a (hnb a (List.get?_mem ha)) with e | ⟨_, e⟩
    · rw [e]; exact hG
    · right
      exact ⟨i, hi, by rw [e, (hidx i a ha).1]⟩

theorem run_owner (gen : Nat → Nat) (schedule : List Nat) (s : Solve_state)
    (hnb : ∀ a ∈ s.threads, a.function ≠ .bfs_thread_gather) (hidx : s.indexed)
    (hG : s.obj.escape_path_index_ = -1
      ∨ ∃ k, k < s.threads.length ∧ s.obj.escape_path_index_ = (k : Int)) :
    (s.run gen schedule).obj.escape_path_index_ = -1
      ∨ ∃ k, k < (s.run gen schedule).threads.length
        ∧ (s.run gen schedule).obj.escape_path_index_ = (k : Int) := by
  induction schedule generalizing s with
  | nil => exact hG
  | cons i rest ih =>
    exact ih (s.step gen i) (step_slot gen s i hnb).1 (step_indexed gen s i hidx)
      (step_owner gen s i hnb hidx hG)

/-- The agents keep their places and their starts along a run. -/
theorem step_starts (gen : Nat → Nat) (s : Solve_state) (i j : Nat) :
    (s.step gen i).threads.length = s.threads.length
      ∧ (∀ a0, s.threads.get? j = some a0 →
          ∃ a, (s.step gen i).threads.get? j = some a ∧ a.start = a0.start)
      ∧ ∀ a, (s.step gen i).threads.get? j = some a →
          ∃ a0, s.threads.get? j = some a0 ∧ a.start = a0.start := by
  cases ha : s.threads.get? i with
  | none =>
    have e : s.step gen i = s := by unfold Solve_state.step; rw [ha]
    rw [e]
    exact ⟨rfl, fun a0 h => ⟨a0, h, rfl⟩, fun a h => ⟨a, h, rfl⟩⟩
  | some b =>
    have hlen : (s.step gen i).threads.length = s.threads.length := by
      unfold Solve_state.step
      rw [ha]
      exact List.length_set _ _ _
    obtain ⟨_, e2⟩ := step_get gen s i b ha
    by_cases e : i = j
    · subst e
      refine ⟨hlen, ?_, ?_⟩
      · intro a0 h0
        rw [ha] at h0
        rw [← Option.some.inj h0]
        exact ⟨_, e2, (thread_step_ident gen s.obj b).2⟩
      · intro a h
        rw [e2] at h
        rw [← Option.some.inj h]
        exact ⟨b, ha, (thread_step_ident gen s.obj b).2⟩
    · have hsame : (s.step gen i).threads.get? j = s.threads.get? j := by
        unfold Solve_state.step
        rw [ha]
        simp only [List.get?_eq_getElem?]
        exact List.getElem?_set_ne e
      rw [hsame]
      exact ⟨hlen, fun a0 h => ⟨a0, h, rfl⟩, fun a h => ⟨a, h, rfl⟩⟩

theorem run_starts (gen : Nat → Nat) (schedule : List Nat) (s : Solve_state) (j : Nat) :
    (s.run gen schedule).threads.length = s.threads.length
      ∧ (∀ a0, s.threads.get? j = some a0 →
          ∃ a, (s.run gen schedule).threads.get? j = some a ∧ a.start = a0.start)
      ∧ ∀ a, (s.run gen schedule).threads.get? j = some a →
          ∃ a0, s.threads.get? j = some a0 ∧ a.start = a0.start := by
  induction schedule generalizing s with
  | nil => exact ⟨rfl, fun a0 h => ⟨a0, h, rfl⟩, fun a h => ⟨a, h, rfl⟩⟩
  | cons i rest ih =>
    obtain ⟨h1, h2, h3⟩ := ih (s.step gen i)
    obtain ⟨g1, g2, g3⟩ := step_starts gen s i j
    refine ⟨h1.trans g1, ?_, ?_⟩
    · intro a0 h0
      obtain ⟨a1, k1, k2⟩ := g2 a0 h0
      obtain ⟨a, k3, k4⟩ := h2 a1 k1
      exact ⟨a, k3, k4.trans k2⟩
    · intro a h
      obtain ⟨a1, k1, k2⟩ := h3 a h
      obtain ⟨a0, k3, k4⟩ := g3 a1 k1
      exact ⟨a0, k3, k2.trans k4⟩

/-! ## Loop erasure -/

theorem marks_lead_congr (m m1 : Maze) (root : Point) (cur : Point) (l : List Point)
    (h : ∀ p ∈ l, (m1.maze_ p.row p.col).markers = (m.maze_ p.row p.col).markers)
    (hl : m.marks_lead root cur l) : m1.marks_lead root cur l := by
  induction l generalizing cur with
  | nil => exact hl
  | cons c rest ih =>
    unfold Maze.marks_lead at hl ⊢
    obtain ⟨h1, h2, h3⟩ := hl
    refine ⟨h1, h2, ?_⟩
    rw [← h1, h c (List.mem_cons_self _ _), h1]
    exact ih _ (fun p hp => h p (List.mem_cons_of_mem _ hp)) h3

theorem marks_lead_unique (m : Maze) (root : Point) (cur : Point) (l1 l2 : List Point)
    (h1 : m.marks_lead root cur l1) (h2 : m.marks_lead root cur l2) : l1 = l2 := by
  induction l1 generalizing cur l2 with
  | nil =>
    cases l2 with
    | nil => rfl
    | cons c rest =>
      unfold Maze.marks_lead at h1 h2
      exact absurd h1 h2.2.1
  | cons c rest ih =>
    cases l2 with
    | nil =>
      unfold Maze.marks_lead at h1 h2
      exact absurd h2 h1.2.1
    | cons c2 rest2 =>
      unfold Maze.marks_lead at h1 h2
      rw [h1.1, h2.1, ih _ rest2 h1.2.2 h2.2.2]

theorem marks_lead_suffix (m : Maze) (root : Point) (cur : Point) (l : List Point)
    (h : m.marks_lead root cur l) (p : Point) (hp : p ∈ l) :
    ∃ suffix, m.marks_lead root p (p :: suffix) ∧ suffix.length < l.length := by
  induction l generalizing cur with
  | nil => exact absurd hp (by simp)
  | cons c rest ih =>
    rcases List.mem_cons.mp hp with e | hp
    · have h0 := h
      unfold Maze.marks_lead at h0
      rw [e, h0.1]
      rw [h0.1] at h
      exact ⟨rest, h, Nat.lt_succ_self _⟩
    · unfold Maze.marks_lead at h
      obtain ⟨suffix, h1, h2⟩ := ih _ h.2.2 hp
      exact ⟨suffix, h1, Nat.lt_succ_of_lt h2⟩

theorem marks_lead_nodup (m : Maze) (root : Point) (cur : Point) (rest : List Point)
    (h : m.marks_lead root cur (cur :: rest)) : cur ∉ rest := by
  intro hmem
  have h0 := h
  unfold Maze.marks_lead at h0
  obtain ⟨suffix, h1, h2⟩ := marks_lead_suffix m root _ rest h0.2.2 cur hmem
  have := marks_lead_unique m root cur _ _ h h1
  rw [List.cons.injEq] at this
  rw [this.2] at h2
  exact absurd h2 (Nat.lt_irrefl _)

theorem marks_lead_root (m : Maze) (root : Point) (cur : Point) (l : List Point)
    (h : m.marks_lead root cur l) : root ∉ l := by
  induction l generalizing cur with
  | nil => simp
  | cons c rest ih =>
    unfold Maze.marks_lead at h
    intro hmem
    rcases List.mem_cons.mp hmem with e | hmem
    · exact h.2.1 (h.1.symm.trans e.symm)
    · exact ih _ h.2.2 hmem

/-- C31: when the backtrack marks lead from the walk cell over the cells of
`chain` to the loop root, the loop of `erase_loop(walk, loop_root)` stands at
its exit test with `cur = loop_root` after as many iterations as the chain has
cells, and one step later the walk goes on from the loop root on the same grid;
every cell of the chain (the loop root is not one of them) has then lost its
start bit and its mark and nothing else, and every other cell of the grid,
the loop root included, is as it was. -/
theorem erase_loop_frame (gen : Nat → Nat) (s : Wilson_state) (walk loop_root : Point)
    (chain : List Point) (hphase : s.phase = .erasing walk loop_root)
    (hlead : s.maze.marks_lead loop_root walk chain) :
    ((wilson_step gen)^[chain.length] s).phase = .erasing loop_root loop_root
      ∧ ((wilson_step gen)^[chain.length + 1] s).phase = .walking
      ∧ ((wilson_step gen)^[chain.length + 1] s).walk = loop_root
      ∧ ((wilson_step gen)^[chain.length + 1] s).maze = ((wilson_step gen)^[chain.length] s).maze
      ∧ loop_root ∉ chain
      ∧ (∀ p ∈ chain, ((wilson_step gen)^[chain.length] s).maze.maze_ p.row p.col
          = { s.maze.maze_ p.row p.col with start_bit := false, markers := 0 })
      ∧ (∀ p, p ∉ chain → ((wilson_step gen)^[chain.length] s).maze.maze_ p.row p.col
          = s.maze.maze_ p.row p.col)
      ∧ ((wilson_step gen)^[chain.length] s).maze.maze_row_size_ = s.maze.maze_row_size_
      ∧ ((wilson_step gen)^[chain.length] s).maze.maze_col_size_ = s.maze.maze_col_size_ := by
  have hroot := marks_lead_root _ _ _ _ hlead
  have key : ((wilson_step gen)^[chain.length] s).phase = .erasing loop_root loop_root
      ∧ (∀ p ∈ chain, ((wilson_step gen)^[chain.length] s).maze.maze_ p.row p.col
          = { s.maze.maze_ p.row p.col with start_bit := false, markers := 0 })
      ∧ (∀ p, p ∉ chain → ((wilson_step gen)^[chain.length] s).maze.maze_ p.row p.col
          = s.maze.maze_ p.row p.col)
      ∧ ((wilson_step gen)^[chain.length] s).maze.maze_row_size_ = s.maze.maze_row_size_
      ∧ ((wilson_step gen)^[chain.length] s).maze.maze_col_size_ = s.maze.maze_col_size_ := by
    clear hroot
    induction chain generalizing s walk with
    | nil =>
      have e : walk = loop_root := hlead
      rw [e] at hphase
      exact ⟨hphase, fun p hp => absurd hp (by simp), fun _ _ => rfl, rfl, rfl⟩
    | cons c rest ih =>
      have hnd : walk ∉ rest := by
        have h0 := hlead
        unfold Maze.marks_lead at h0
        rw [h0.1] at hlead
        exact marks_lead_nodup _ _ _ _ hlead
      unfold Maze.marks_lead at hlead
      obtain ⟨hc, hne, hrest⟩ := hlead
      have hstep : wilson_step gen s
          = { s with
              maze := clear_markers (clear_start s.maze walk.row walk.col) walk.row walk.col,
              phase := .erasing
                (walk.step (backtracking_marks_.getD (s.maze.maze_ walk.row walk.col).markers
                  ⟨0, 0⟩)) loop_root } := by
        unfold wilson_step
        rw [hphase]
        simp only [if_pos hne, clear_start_get, and_self, if_true]
      have hcell : ∀ p : Point, p ≠ walk →
          (clear_markers (clear_start s.maze walk.row walk.col) walk.row walk.col).maze_
            p.row p.col = s.maze.maze_ p.row p.col := by
        intro p hp
        have hn : ¬ (p.row = walk.row ∧ p.col = walk.col) := by
          intro h
          exact hp (by cases p; cases walk; simp only [Point.mk.injEq]; exact h)
        rw [clear_markers_get, if_neg hn, clear_start_get, if_neg hn]
      have hown : (clear_markers (clear_start s.maze walk.row walk.col) walk.row walk.col).maze_
          walk.row walk.col
          = { s.maze.maze_ walk.row walk.col with start_bit := false, markers := 0 } := by
        rw [clear_markers_get, if_pos ⟨rfl, rfl⟩, clear_start_get, if_pos ⟨rfl, rfl⟩]
      have hrest2 := marks_lead_congr s.maze
        (clear_markers (clear_start s.maze walk.row walk.col) walk.row walk.col) loop_root _ rest
        (fun p hp => by rw [hcell p (fun e => hnd (e ▸ hp))]) hrest
      have hm1 : (wilson_step gen s).maze
          = clear_markers (clear_start s.maze walk.row walk.col) walk.row walk.col := by
        rw [hstep]
      have hp1 : (wilson_step gen s).phase
          = .erasing (walk.step (backtracking_marks_.getD
              (s.maze.maze_ walk.row walk.col).markers ⟨0, 0⟩)) loop_root := by
        rw [hstep]
      obtain ⟨i1, i2, i3, i4, i5⟩ := ih (wilson_step gen s) _ hp1 (by rw [hm1]; exact hrest2)
      simp only [List.length_cons, Function.iterate_succ_apply]
      rw [hm1] at i2 i3 i4 i5
      refine ⟨i1, ?_, ?_, i4, i5⟩
      · intro p hp
        rcases List.mem_cons.mp hp with e | hp
        · rw [e, hc, i3 walk hnd, hown]
        · rw [i2 p hp, hcell p (fun e => hnd (e ▸ hp))]
      · intro p hp
        have hpw : p ≠ walk := fun e => hp (by rw [e, hc]; exact List.mem_cons_self _ _)
        rw [i3 p (fun h => hp (List.mem_cons_of_mem _ h)), hcell p hpw]
  obtain ⟨k1, k2, k3, k4, k5⟩ := key
  have hlast : (wilson_step gen)^[chain.length + 1] s
      = wilson_step gen ((wilson_step gen)^[chain.length] s) :=
    Function.iterate_succ_apply' _ _ _
  have hexit : ∀ t : Wilson_state, t.phase = .erasing loop_root loop_root →
      (wilson_step gen t).phase = .walking ∧ (wilson_step gen t).walk = loop_root
        ∧ (wilson_step gen t).maze = t.maze := by
    intro t ht
    unfold wilson_step
    rw [ht]
    simp only []
    rw [if_neg (fun h => h rfl)]
    exact ⟨rfl, rfl, rfl⟩
  obtain ⟨x1, x2, x3⟩ := hexit _ k1
  rw [hlast]
  exact ⟨k1, x1, x2, x3, hroot, k2, k3, k4, k5⟩

theorem erase_loop_frame_witness :
    ((wilson_step (fun n => n * n + 7 * n + 10))^[([⟨3, 1⟩, ⟨5, 1⟩, ⟨5, 3⟩, ⟨5, 5⟩, ⟨3, 5⟩, ⟨1, 5⟩, ⟨1, 3⟩] : List Point).length]
        ((wilson_step (fun n => n * n + 7 * n + 10))^[8] (wilson_init (all_walls 7 7) 0))).phase = .erasing ⟨1, 1⟩ ⟨1, 1⟩
      ∧ ((wilson_step (fun n => n * n + 7 * n + 10))^[([⟨3, 1⟩, ⟨5, 1⟩, ⟨5, 3⟩, ⟨5, 5⟩, ⟨3, 5⟩, ⟨1, 5⟩, ⟨1, 3⟩] : List Point).length + 1]
        ((wilson_step (fun n => n * n + 7 * n + 10))^[8] (wilson_init (all_walls 7 7) 0))).phase = .walking
      ∧ ((wilson_step (fun n => n * n + 7 * n + 10))^[([⟨3, 1⟩, ⟨5, 1⟩, ⟨5, 3⟩, ⟨5, 5⟩, ⟨3, 5⟩, ⟨1, 5⟩, ⟨1, 3⟩] : List Point).length + 1]
        ((wilson_step (fun n => n * n + 7 * n + 10))^[8] (wilson_init (all_walls 7 7) 0))).walk = ⟨1, 1⟩
      ∧ ((wilson_step (fun n => n * n + 7 * n + 10))^[([⟨3, 1⟩, ⟨5, 1⟩, ⟨5, 3⟩, ⟨5, 5⟩, ⟨3, 5⟩, ⟨1, 5⟩, ⟨1, 3⟩] : List Point).length + 1]
        ((wilson_step (fun n => n * n + 7 * n + 10))^[8] (wilson_init (all_walls 7 7) 0))).maze
        = ((wilson_step (fun n => n * n + 7 * n + 10))^[([⟨3, 1⟩, ⟨5, 1⟩, ⟨5, 3⟩, ⟨5, 5⟩, ⟨3, 5⟩, ⟨1, 5⟩, ⟨1, 3⟩] : List Point).length]
        ((wilson_step (fun n => n * n + 7 * n + 10))^[8] (wilson_init (all_walls 7 7) 0))).maze
      ∧ (⟨1, 1⟩ : Point) ∉ ([⟨3, 1⟩, ⟨5, 1⟩, ⟨5, 3⟩, ⟨5, 5⟩, ⟨3, 5⟩, ⟨1, 5⟩, ⟨1, 3⟩] : List Point)
      ∧ (∀ p ∈ ([⟨3, 1⟩, ⟨5, 1⟩, ⟨5, 3⟩, ⟨5, 5⟩, ⟨3, 5⟩, ⟨1, 5⟩, ⟨1, 3⟩] : List Point),
          ((wilson_step (fun n => n * n + 7 * n + 10))^[([⟨3, 1⟩, ⟨5, 1⟩, ⟨5, 3⟩, ⟨5, 5⟩, ⟨3, 5⟩, ⟨1, 5⟩, ⟨1, 3⟩] : List Point).length]
        ((wilson_step (fun n => n * n + 7 * n + 10))^[8] (wilson_init (all_walls 7 7) 0))).maze.maze_ p.row p.col
          = { ((wilson_step (fun n => n * n + 7 * n + 10))^[8] (wilson_init (all_walls 7 7) 0)).maze.maze_ p.row p.col with
              start_bit := false, markers := 0 })
      ∧ (∀ p, p ∉ ([⟨3, 1⟩, ⟨5, 1⟩, ⟨5, 3⟩, ⟨5, 5⟩, ⟨3, 5⟩, ⟨1, 5⟩, ⟨1, 3⟩] : List Point) →
          ((wilson_step (fun n => n * n + 7 * n + 10))^[([⟨3, 1⟩, ⟨5, 1⟩, ⟨5, 3⟩, ⟨5, 5⟩, ⟨3, 5⟩, ⟨1, 5⟩, ⟨1, 3⟩] : List Point).length]
        ((wilson_step (fun n => n * n + 7 * n + 10))^[8] (wilson_init (all_walls 7 7) 0))).maze.maze_ p.row p.col
          = ((wilson_step (fun n => n * n + 7 * n + 10))^[8] (wilson_init (all_walls 7 7) 0)).maze.maze_ p.row p.col)
      ∧ ((wilson_step (fun n => n * n + 7 * n + 10))^[([⟨3, 1⟩, ⟨5, 1⟩, ⟨5, 3⟩, ⟨5, 5⟩, ⟨3, 5⟩, ⟨1, 5⟩, ⟨1, 3⟩] : List Point).length]
        ((wilson_step (fun n => n * n + 7 * n + 10))^[8] (wilson_init (all_walls 7 7) 0))).maze.maze_row_size_
        = ((wilson_step (fun n => n * n + 7 * n + 10))^[8] (wilson_init (all_walls 7 7) 0)).maze.maze_row_size_
      ∧ ((wilson_step (fun n => n * n + 7 * n + 10))^[([⟨3, 1⟩, ⟨5, 1⟩, ⟨5, 3⟩, ⟨5, 5⟩, ⟨3, 5⟩, ⟨1, 5⟩, ⟨1, 3⟩] : List Point).length]
        ((wilson_step (fun n => n * n + 7 * n + 10))^[8] (wilson_init (all_walls 7 7) 0))).maze.maze_col_size_
        = ((wilson_step (fun n => n * n + 7 * n + 10))^[8] (wilson_init (all_walls 7 7) 0)).maze.maze_col_size_ :=
  erase_loop_frame (fun n => n * n + 7 * n + 10)
    ((wilson_step (fun n => n * n + 7 * n + 10))^[8] (wilson_init (all_walls 7 7) 0)) ⟨3, 1⟩ ⟨1, 1⟩
    [⟨3, 1⟩, ⟨5, 1⟩, ⟨5, 3⟩, ⟨5, 5⟩, ⟨3, 5⟩, ⟨1, 5⟩, ⟨1, 3⟩]
    (by decide!) (by decide!)

/-! ## The division and the passage of a chamber -/

/-- C32: for every odd `axis_limit >= 5`, the draw of the distribution on
`[1, axis_limit - 2]` can be every value of that range and lies in it, and for
every draw `choose_division` returns an even value `d` with
`2 <= d <= axis_limit - 3` and `choose_passage` an odd value `p` with
`1 <= p <= axis_limit - 2`. -/
theorem division_even_passage_odd (axis_limit : Int) (h : 5 ≤ axis_limit)
    (ho : axis_limit % 2 = 1) :
    (∀ v, 1 ≤ v → v ≤ axis_limit - 2 → ∃ raw, uniform_int 1 (axis_limit - 2) raw = v)
      ∧ ∀ raw, 1 ≤ uniform_int 1 (axis_limit - 2) raw
        ∧ uniform_int 1 (axis_limit - 2) raw ≤ axis_limit - 2
        ∧ choose_division axis_limit raw % 2 = 0
        ∧ 2 ≤ choose_division axis_limit raw
        ∧ choose_division axis_limit raw ≤ axis_limit - 3
        ∧ choose_passage axis_limit raw % 2 = 1
        ∧ 1 ≤ choose_passage axis_limit raw
        ∧ choose_passage axis_limit raw ≤ axis_limit - 2 := by
  refine ⟨fun v h1 h2 => uniform_int_onto 1 (axis_limit - 2) v h1 h2, fun raw => ?_⟩
  obtain ⟨r1, r2⟩ := uniform_int_range 1 (axis_limit - 2) raw (by omega)
  obtain ⟨d1, d2, d3⟩ := choose_division_even axis_limit raw h ho
  obtain ⟨p1, p2, p3⟩ := choose_passage_odd axis_limit raw h ho
  exact ⟨r1, r2, d1, d2, d3, p1, p2, p3⟩

theorem division_even_passage_odd_witness :
    (∀ v, 1 ≤ v → v ≤ (7 : Int) - 2 → ∃ raw, uniform_int 1 ((7 : Int) - 2) raw = v)
      ∧ ∀ raw, 1 ≤ uniform_int 1 ((7 : Int) - 2) raw
        ∧ uniform_int 1 ((7 : Int) - 2) raw ≤ (7 : Int) - 2
        ∧ choose_division 7 raw % 2 = 0
        ∧ 2 ≤ choose_division 7 raw
        ∧ choose_division 7 raw ≤ (7 : Int) - 3
        ∧ choose_passage 7 raw % 2 = 1
        ∧ 1 ≤ choose_passage 7 raw
        ∧ choose_passage 7 raw ≤ (7 : Int) - 2 :=
  division_even_passage_odd 7 (by decide) (by decide)

/-! ## The chamber worklist of the recursive subdivision -/

theorem fractal_iteration_split (gen : Nat → Nat) (s : Fractal_state) (chamber : Chamber)
    (rest : List Chamber) (hs : s.chamber_stack = chamber :: rest)
    (hwf : chamber.well_formed s.maze) :
    (min chamber.height chamber.width ≤ 3 →
        (fractal_iteration gen s).chamber_stack = rest
          ∧ (fractal_iteration gen s).maze = s.maze)
      ∧ (3 < min chamber.height chamber.width →
        ∃ upper lower, (fractal_iteration gen s).chamber_stack = upper :: lower :: rest
          ∧ ((chamber.height ≥ chamber.width
              ∧ upper.width = chamber.width ∧ lower.width = chamber.width
              ∧ upper.height < chamber.height ∧ lower.height < chamber.height)
            ∨ (chamber.width > chamber.height
              ∧ upper.height = chamber.height ∧ lower.height = chamber.height
              ∧ upper.width < chamber.width ∧ lower.width < chamber.width))) := by
  obtain ⟨_, _, _, _, h3, w3, ho, wo, _, _⟩ := hwf
  constructor
  · intro hmin
    unfold fractal_iteration
    rw [hs]
    simp only []
    rw [if_neg (by rintro ⟨h1, h2⟩; rw [min_eq_right h1] at hmin; omega),
      if_neg (by rintro ⟨h1, h2⟩; rw [min_eq_left (le_of_lt h1)] at hmin; omega)]
    exact ⟨rfl, rfl⟩
  · intro hmin
    have hh : 3 < chamber.height := lt_of_lt_of_le hmin (min_le_left _ _)
    have hw : 3 < chamber.width := lt_of_lt_of_le hmin (min_le_right _ _)
    unfold fractal_iteration
    rw [hs]
    simp only []
    by_cases hc : chamber.height ≥ chamber.width
    · rw [if_pos ⟨hc, hw⟩]
      obtain ⟨_, d2, d3⟩ := choose_division_even chamber.height (gen s.pos) (by omega) ho
      exact ⟨_, _, rfl, Or.inl ⟨hc, rfl, rfl, by simp only []; omega, by simp only []; omega⟩⟩
    · rw [if_neg (fun h => hc h.1), if_pos ⟨by omega, hh⟩]
      obtain ⟨_, d2, d3⟩ := choose_division_even chamber.width (gen s.pos) (by omega) wo
      exact ⟨_, _, rfl, Or.inr ⟨by omega, rfl, rfl, by simp only []; omega,
        by simp only []; omega⟩⟩

/-- C33: for all odd `rows, cols >= 7` and every sequence of draws, the chamber
worklist of `generate_randomized_fractal_maze` is empty after
`2 (rows - 2)(cols - 2) + 1` iterations and stays empty; at every iteration a
top chamber whose smaller extent is at most 3 is popped and the grid is left as
it is, and a top chamber whose smaller extent is above 3 is replaced by two
chambers that keep its extent across the split axis and are strictly smaller
along it. -/
theorem fractal_worklist_terminates (gen : Nat → Nat) (m : Maze) (pos : Nat)
    (hr : 7 ≤ m.maze_row_size_) (hc : 7 ≤ m.maze_col_size_)
    (hro : m.maze_row_size_ % 2 = 1) (hco : m.maze_col_size_ % 2 = 1) :
    (∀ fuel, 2 * ((m.maze_row_size_ - 2).toNat * (m.maze_col_size_ - 2).toNat) + 1 ≤ fuel →
        (generate_randomized_fractal_maze gen fuel m pos).chamber_stack = [])
      ∧ ∀ n chamber rest,
        (generate_randomized_fractal_maze gen n m pos).chamber_stack = chamber :: rest →
        (min chamber.height chamber.width ≤ 3 →
            (generate_randomized_fractal_maze gen (n + 1) m pos).chamber_stack = rest
              ∧ (generate_randomized_fractal_maze gen (n + 1) m pos).maze
                = (generate_randomized_fractal_maze gen n m pos).maze)
          ∧ (3 < min chamber.height chamber.width →
            ∃ upper lower,
              (generate_randomized_fractal_maze gen (n + 1) m pos).chamber_stack
                = upper :: lower :: rest
              ∧ ((chamber.height ≥ chamber.width
                  ∧ upper.width = chamber.width ∧ lower.width = chamber.width
                  ∧ upper.height < chamber.height ∧ lower.height < chamber.height)
                ∨ (chamber.width > chamber.height
                  ∧ upper.height = chamber.height ∧ lower.height = chamber.height
                  ∧ upper.width < chamber.width ∧ lower.width < chamber.width))) := by
  have h0 := fractal_init_inv m pos (by omega) (by omega) hro hco
  constructor
  · intro fuel hfuel
    apply fractal_terminates gen fuel _ h0
    simpa [fractal_init, Chamber.weight] using hfuel
  · intro n chamber rest hs
    have hinv : Fractal_inv (generate_randomized_fractal_maze gen n m pos) :=
      iterate_invariant (fractal_iteration gen) Fractal_inv (fractal_iteration_inv gen) n _ h0
    have hnext : generate_randomized_fractal_maze gen (n + 1) m pos
        = fractal_iteration gen (generate_randomized_fractal_maze gen n m pos) := by
      unfold generate_randomized_fractal_maze
      exact Function.iterate_succ_apply' _ _ _
    rw [hnext]
    exact fractal_iteration_split gen _ chamber rest hs
      (hinv.1 chamber (by rw [hs]; exact List.mem_cons_self _ _))

theorem fractal_worklist_terminates_witness :
    (∀ fuel, 2 * (((all_walls 7 7).maze_row_size_ - 2).toNat
          * ((all_walls 7 7).maze_col_size_ - 2).toNat) + 1 ≤ fuel →
        (generate_randomized_fractal_maze (fun n => n) fuel (all_walls 7 7) 0).chamber_stack = [])
      ∧ ∀ n chamber rest,
        (generate_randomized_fractal_maze (fun n => n) n (all_walls 7 7) 0).chamber_stack
          = chamber :: rest →
        (min chamber.height chamber.width ≤ 3 →
            (generate_randomized_fractal_maze (fun n => n) (n + 1) (all_walls 7 7) 0).chamber_stack
              = rest
              ∧ (generate_randomized_fractal_maze (fun n => n) (n + 1) (all_walls 7 7) 0).maze
                = (generate_randomized_fractal_maze (fun n => n) n (all_walls 7 7) 0).maze)
          ∧ (3 < min chamber.height chamber.width →
            ∃ upper lower,
              (generate_randomized_fractal_maze (fun n => n) (n + 1)
                  (all_walls 7 7) 0).chamber_stack
                = upper :: lower :: rest
              ∧ ((chamber.height ≥ chamber.width
                  ∧ upper.width = chamber.width ∧ lower.width = chamber.width
                  ∧ upper.height < chamber.height ∧ lower.height < chamber.height)
                ∨ (chamber.width > chamber.height
                  ∧ upper.height = chamber.height ∧ lower.height = chamber.height
                  ∧ upper.width < chamber.width ∧ lower.width < chamber.width))) :=
  fractal_worklist_terminates (fun n => n) (all_walls 7 7) 0 (by decide!) (by decide!)
    (by decide!) (by decide!)

/-- C34: for all odd `rows, cols >= 7` and every sequence of draws, every
chamber on the worklist of `generate_randomized_fractal_maze` at every
iteration has even, non-negative row and column offsets, odd height and width
of at least 3, and `offset + extent` within the grid on both axes; and when the
top chamber is split, every cell of the dividing line, which holds the cells
that the split writes, lies inside the array. -/
theorem fractal_chambers_inside (gen : Nat → Nat) (m : Maze) (pos : Nat)
    (hr : 7 ≤ m.maze_row_size_) (hc : 7 ≤ m.maze_col_size_)
    (hro : m.maze_row_size_ % 2 = 1) (hco : m.maze_col_size_ % 2 = 1) (n : Nat) :
    (∀ ch ∈ (generate_randomized_fractal_maze gen n m pos).chamber_stack,
        0 ≤ ch.offset.row ∧ 0 ≤ ch.offset.col
          ∧ ch.offset.row % 2 = 0 ∧ ch.offset.col % 2 = 0
          ∧ 3 ≤ ch.height ∧ 3 ≤ ch.width ∧ ch.height % 2 = 1 ∧ ch.width % 2 = 1
          ∧ ch.offset.row + ch.height ≤ m.maze_row_size_
          ∧ ch.offset.col + ch.width ≤ m.maze_col_size_)
      ∧ ∀ chamber rest,
        (generate_randomized_fractal_maze gen n m pos).chamber_stack = chamber :: rest →
        (chamber.height ≥ chamber.width ∧ chamber.width > 3 →
            ∀ col, 0 ≤ col → col < chamber.width →
              m.in_array
                (chamber.offset.row + choose_division chamber.height
                  (gen (generate_randomized_fractal_maze gen n m pos).pos))
                (chamber.offset.col + col))
          ∧ (chamber.width > chamber.height ∧ chamber.height > 3 →
            ∀ row, 0 ≤ row → row < chamber.height →
              m.in_array (chamber.offset.row + row)
                (chamber.offset.col + choose_division chamber.width
                  (gen (generate_randomized_fractal_maze gen n m pos).pos))) := by
  have h0 := fractal_init_inv m pos (by omega) (by omega) hro hco
  have hinv : Fractal_inv (generate_randomized_fractal_maze gen n m pos) :=
    iterate_invariant (fractal_iteration gen) Fractal_inv (fractal_iteration_inv gen) n _ h0
  obtain ⟨s1, s2⟩ := fractal_sizes gen n m pos
  have hwf : ∀ ch ∈ (generate_randomized_fractal_maze gen n m pos).chamber_stack,
      0 ≤ ch.offset.row ∧ 0 ≤ ch.offset.col
        ∧ ch.offset.row % 2 = 0 ∧ ch.offset.col % 2 = 0
        ∧ 3 ≤ ch.height ∧ 3 ≤ ch.width ∧ ch.height % 2 = 1 ∧ ch.width % 2 = 1
        ∧ ch.offset.row + ch.height ≤ m.maze_row_size_
        ∧ ch.offset.col + ch.width ≤ m.maze_col_size_ := by
    intro ch hch
    have := hinv.1 ch hch
    unfold Chamber.well_formed at this
    rw [s1, s2] at this
    exact this
  refine ⟨hwf, fun chamber rest hs => ?_⟩
  obtain ⟨w1, w2, _, _, _, _, w7, w8, w9, w10⟩ :=
    hwf chamber (by rw [hs]; exact List.mem_cons_self _ _)
  constructor
  · rintro ⟨_, hw⟩ col hc1 hc2
    obtain ⟨_, d2, d3⟩ := choose_division_even chamber.height
      (gen (generate_randomized_fractal_maze gen n m pos).pos) (by omega) w7
    unfold Maze.in_array
    omega
  · rintro ⟨_, hh⟩ row hr1 hr2
    obtain ⟨_, d2, d3⟩ := choose_division_even chamber.width
      (gen (generate_randomized_fractal_maze gen n m pos).pos) (by omega) w8
    unfold Maze.in_array
    omega

theorem fractal_chambers_inside_witness :
    (∀ ch ∈ (generate_randomized_fractal_maze (fun n => n) 3 (all_walls 7 7) 0).chamber_stack,
        0 ≤ ch.offset.row ∧ 0 ≤ ch.offset.col
          ∧ ch.offset.row % 2 = 0 ∧ ch.offset.col % 2 = 0
          ∧ 3 ≤ ch.height ∧ 3 ≤ ch.width ∧ ch.height % 2 = 1 ∧ ch.width % 2 = 1
          ∧ ch.offset.row + ch.height ≤ (all_walls 7 7).maze_row_size_
          ∧ ch.offset.col + ch.width ≤ (all_walls 7 7).maze_col_size_)
      ∧ ∀ chamber rest,
        (generate_randomized_fractal_maze (fun n => n) 3 (all_walls 7 7) 0).chamber_stack
          = chamber :: rest →
        (chamber.height ≥ chamber.width ∧ chamber.width > 3 →
            ∀ col, 0 ≤ col → col < chamber.width →
              (all_walls 7 7).in_array
                (chamber.offset.row + choose_division chamber.height
                  ((fun n => n)
                    (generate_randomized_fractal_maze (fun n => n) 3 (all_walls 7 7) 0).pos))
                (chamber.offset.col + col))
          ∧ (chamber.width > chamber.height ∧ chamber.height > 3 →
            ∀ row, 0 ≤ row → row < chamber.height →
              (all_walls 7 7).in_array (chamber.offset.row + row)
                (chamber.offset.col + choose_division chamber.width
                  ((fun n => n)
                    (generate_randomized_fractal_maze (fun n => n) 3 (all_walls 7 7) 0).pos))) :=
  fractal_chambers_inside (fun n => n) (all_walls 7 7) 0 (by decide!) (by decide!)
    (by decide!) (by decide!) 3

/-! ## The runs of the grid builders -/

theorem ahead_zero (cur direction : Point) : cur.ahead direction 0 = cur := by
  unfold Point.ahead
  simp

theorem ahead_step (cur direction : Point) (k : Nat) :
    (cur.ahead direction k).step direction = cur.ahead direction (k + 1) := by
  unfold Point.ahead Point.step
  simp only [Point.mk.injEq]
  constructor <;> push_cast <;> ring

theorem ahead_shift (cur direction : Point) (k : Nat) :
    (cur.step direction).ahead direction k = cur.ahead direction (k + 1) := by
  unfold Point.ahead Point.step
  simp only [Point.mk.injEq]
  constructor <;> push_cast <;> ring

theorem foldl_range_shift {α : Type} (f : α → Nat → α) (n : Nat) (a : α) :
    (List.range (n + 1)).foldl f a = (List.range n).foldl (fun x k => f x (k + 1)) (f a 0) := by
  rw [List.range_succ_eq_map, List.foldl_cons, List.foldl_map]

theorem range_reverse_shift {β : Type} (f : Nat → β) (n : Nat) :
    (List.range (n + 1)).reverse.map f
      = (List.range n).reverse.map (fun k => f (k + 1)) ++ [f 0] := by
  rw [List.range_succ_eq_map, List.reverse_cons, List.map_append, ← List.map_reverse,
    List.map_map]
  rfl

/-- A loop that joins and pushes the cell ahead while it lies within the
perimeter and the limit is not used up. -/
theorem run_loop_spec (direction : Point) (J : Maze → Point → Point → Maze)
    (R : Nat → Maze → List Point → Point → Point → Maze × List Point)
    (hrows : ∀ m a b, (J m a b).maze_row_size_ = m.maze_row_size_)
    (hcols : ∀ m a b, (J m a b).maze_col_size_ = m.maze_col_size_)
    (hmono : ∀ m a b r c, m.path r c = true → (J m a b).path r c = true)
    (hcarve : ∀ m a b, (J m a b).path b.row b.col = true
      ∧ (J m a b).path (wall_between a b).row (wall_between a b).col = true)
    (hR0 : ∀ m dfs cur next, R 0 m dfs cur next = (m, dfs))
    (hRin : ∀ left m dfs cur next, m.within_perimeter next.row next.col →
      R (left + 1) m dfs cur next = R left (J m cur next) (next :: dfs) next (next.step direction))
    (hRout : ∀ left m dfs cur next, ¬ m.within_perimeter next.row next.col →
      R (left + 1) m dfs cur next = (m, dfs)) :
    ∀ (left : Nat) (m : Maze) (dfs : List Point) (cur : Point),
      ∃ n, n ≤ left
        ∧ (∀ k, k < n →
            m.within_perimeter (cur.ahead direction (k + 1)).row (cur.ahead direction (k + 1)).col)
        ∧ (n < left →
            ¬ m.within_perimeter (cur.ahead direction (n + 1)).row
              (cur.ahead direction (n + 1)).col)
        ∧ (R left m dfs cur (cur.step direction)).2
            = (List.range n).reverse.map (fun k => cur.ahead direction (k + 1)) ++ dfs
        ∧ (R left m dfs cur (cur.step direction)).1
            = (List.range n).foldl
                (fun x k => J x (cur.ahead direction k) (cur.ahead direction (k + 1))) m
        ∧ (R left m dfs cur (cur.step direction)).1.maze_row_size_ = m.maze_row_size_
        ∧ (R left m dfs cur (cur.step direction)).1.maze_col_size_ = m.maze_col_size_
        ∧ (∀ k, k < n →
            (R left m dfs cur (cur.step direction)).1.path (cur.ahead direction (k + 1)).row
                (cur.ahead direction (k + 1)).col = true
              ∧ (R left m dfs cur (cur.step direction)).1.path
                  (wall_between (cur.ahead direction k) (cur.ahead direction (k + 1))).row
                  (wall_between (cur.ahead direction k) (cur.ahead direction (k + 1))).col
                = true)
        ∧ ∀ r c, m.path r c = true →
            (R left m dfs cur (cur.step direction)).1.path r c = true := by
  intro left
  induction left with
  | zero =>
    intro m dfs cur
    refine ⟨0, Nat.le_refl _, fun k hk => absurd hk (Nat.not_lt_zero _),
      fun h => absurd h (Nat.lt_irrefl _), ?_, ?_, ?_, ?_,
      fun k hk => absurd hk (Nat.not_lt_zero _), ?_⟩ <;> rw [hR0]
    · rfl
    · rfl
    · exact fun _ _ h => h
  | succ left ih =>
    intro m dfs cur
    have h1 : cur.step direction = cur.ahead direction 1 := by
      rw [← ahead_step, ahead_zero]
    by_cases hin : m.within_perimeter (cur.step direction).row (cur.step direction).col
    · rw [hRin left m dfs cur _ hin]
      obtain ⟨n, g1, g2, g3, g4, g5, g6, g7, g8, g9⟩ :=
        ih (J m cur (cur.step direction)) (cur.step direction :: dfs) (cur.step direction)
      have hw : ∀ r c, (J m cur (cur.step direction)).within_perimeter r c
          ↔ m.within_perimeter r c :=
        within_perimeter_sizes (hrows _ _ _) (hcols _ _ _)
      simp only [ahead_shift] at g2 g3 g4 g5 g8
      refine ⟨n + 1, Nat.succ_le_succ g1, ?_, ?_, ?_, ?_, g6.trans (hrows _ _ _),
        g7.trans (hcols _ _ _), ?_, ?_⟩
      · intro k hk
        cases k with
        | zero => rw [← h1]; exact hin
        | succ k => exact (hw _ _).1 (g2 k (Nat.lt_of_succ_lt_succ hk))
      · intro hlt
        exact fun h => g3 (Nat.lt_of_succ_lt_succ hlt) ((hw _ _).2 h)
      · rw [g4, range_reverse_shift, List.append_assoc, List.singleton_append, ← h1]
      · rw [g5, foldl_range_shift, ahead_zero, ← h1]
      · intro k hk
        cases k with
        | zero =>
          obtain ⟨c1, c2⟩ := hcarve m cur (cur.step direction)
          rw [ahead_zero, ← h1]
          exact ⟨g9 _ _ c1, g9 _ _ c2⟩
        | succ k => exact g8 k (Nat.lt_of_succ_lt_succ hk)
      · intro r c h
        exact g9 r c (hmono _ _ _ r c h)
    · rw [hRout left m dfs cur _ hin]
      refine ⟨0, Nat.zero_le _, fun k hk => absurd hk (Nat.not_lt_zero _), ?_, rfl, rfl, rfl, rfl,
        fun k hk => absurd hk (Nat.not_lt_zero _), fun _ _ h => h⟩
      intro _
      rw [← h1]
      exact hin

theorem run_outcome_of_loop (direction : Point) (J : Maze → Point → Point → Maze)
    (R : Nat → Maze → List Point → Point → Point → Maze × List Point)
    (hrows : ∀ m a b, (J m a b).maze_row_size_ = m.maze_row_size_)
    (hcols : ∀ m a b, (J m a b).maze_col_size_ = m.maze_col_size_)
    (hmono : ∀ m a b r c, m.path r c = true → (J m a b).path r c = true)
    (hcarve : ∀ m a b, (J m a b).path b.row b.col = true
      ∧ (J m a b).path (wall_between a b).row (wall_between a b).col = true)
    (hR0 : ∀ m dfs cur next, R 0 m dfs cur next = (m, dfs))
    (hRin : ∀ left m dfs cur next, m.within_perimeter next.row next.col →
      R (left + 1) m dfs cur next = R left (J m cur next) (next :: dfs) next (next.step direction))
    (hRout : ∀ left m dfs cur next, ¬ m.within_perimeter next.row next.col →
      R (left + 1) m dfs cur next = (m, dfs))
    (limit : Nat) (hlimit : 0 < limit) (m : Maze) (dfs : List Point) (cur : Point) :
    Run_outcome J direction limit m dfs cur (R limit m dfs cur (cur.step direction)) := by
  obtain ⟨n, g1, g2, g3, g4, g5, _, _, g8, g9⟩ :=
    run_loop_spec direction J R hrows hcols hmono hcarve hR0 hRin hRout limit m dfs cur
  refine ⟨n, g1, g2, g3, ?_, g4, g5, g8, g9⟩
  intro hin
  by_contra hn
  have h0 : n = 0 := by omega
  subst h0
  apply g3 hlimit
  rw [← ahead_step, ahead_zero]
  exact hin

theorem builders_complete_run_outcome (direction : Point) (m : Maze) (dfs : List Point)
    (cur : Point) :
    Run_outcome Maze.join_squares direction 4 m dfs cur
      (Builders.complete_run direction run_limit m dfs cur (cur.step direction)) := by
  refine run_outcome_of_loop direction Maze.join_squares (Builders.complete_run direction)
    (fun _ _ _ => by simp) (fun _ _ _ => by simp) ?_ ?_ (fun _ _ _ _ => rfl) ?_ ?_
    4 (by decide) m dfs cur
  · intro x a b r c h
    unfold Maze.path at h ⊢
    rw [maze_join_squares_path_bit, h]
    rfl
  · intro x a b
    unfold Maze.path
    rw [maze_join_squares_path_bit, maze_join_squares_path_bit]
    simp
  · intro left x dfs cur next h
    have h2 : x.is_square_within_perimeter_walls next := h
    rw [Builders.complete_run, if_pos h2]
  · intro left x dfs cur next h
    have h2 : ¬ x.is_square_within_perimeter_walls next := h
    rw [Builders.complete_run, if_neg h2]

theorem complete_run_outcome (direction : Point) (m : Maze) (dfs : List Point) (cur : Point) :
    Run_outcome
      (fun x a b => set_builder (join_squares (set_builder x a.row a.col) a b) b.row b.col)
      direction 4 m dfs cur (complete_run direction run_limit m dfs cur (cur.step direction)) := by
  refine run_outcome_of_loop direction
    (fun x a b => set_builder (join_squares (set_builder x a.row a.col) a b) b.row b.col)
    (complete_run direction)
    (fun _ _ _ => by simp) (fun _ _ _ => by simp) ?_ ?_ (fun _ _ _ _ => rfl) ?_ ?_
    4 (by decide) m dfs cur
  · intro x a b r c h
    unfold Maze.path at h ⊢
    simp only [set_builder_path_bit, join_squares_path_bit, h]
    rfl
  · intro x a b
    unfold Maze.path
    simp only [set_builder_path_bit, join_squares_path_bit]
    simp
  · intro left x dfs cur next h
    have h2 : next.row < x.maze_row_size_ - 1 ∧ next.col < x.maze_col_size_ - 1
        ∧ next.row > 0 ∧ next.col > 0 := by
      unfold Maze.within_perimeter at h
      omega
    rw [complete_run, if_pos h2]
  · intro left x dfs cur next h
    have h2 : ¬ (next.row < x.maze_row_size_ - 1 ∧ next.col < x.maze_col_size_ - 1
        ∧ next.row > 0 ∧ next.col > 0) := by
      unfold Maze.within_perimeter at h
      omega
    rw [complete_run, if_neg h2]

/-- C35: `complete_run`, both the one of grid.cc and the lambda of
`generate_randomized_grid`, started at `cur` with `next = cur + direction` and
the whole `run_limit` of 4 ahead of it, joins and pushes, in order, the cells
`cur + k * direction` for `k = 1..n`, where `n ≤ 4`, these `n` cells lie within
the perimeter and, when `n < 4`, the cell after them does not; the stack gets
them on top, the last one topmost; the grid is the one obtained by joining
them one after the other, whatever flags they carried before, so they and
their joints are passages afterwards and no passage is lost; and `n ≥ 1` when
`cur + direction` lies within the perimeter. -/
theorem complete_run_joins_run (direction : Point) (m : Maze) (dfs : List Point) (cur : Point) :
    Run_outcome Maze.join_squares direction 4 m dfs cur
        (Builders.complete_run direction run_limit m dfs cur (cur.step direction))
      ∧ Run_outcome
          (fun x a b => set_builder (join_squares (set_builder x a.row a.col) a b) b.row b.col)
          direction 4 m dfs cur
          (complete_run direction run_limit m dfs cur (cur.step direction)) :=
  ⟨builders_complete_run_outcome direction m dfs cur, complete_run_outcome direction m dfs cur⟩

/-! ## Termination of the grid builder of grid.cc -/

theorem web_card_le_lattice {m : Maze} {s o : Point} {V E : Finset Point}
    (h : Web_inv m s o V E) : V.card ≤ m.lattice_count s := by
  have hsub : V ⊆ (m.all_cells.filter fun p => decide (m.cell_of s p)).toFinset := by
    intro p hp
    rw [List.mem_toFinset, List.mem_filter, mem_all_cells]
    exact ⟨cell_of_in_array m s p (h.cells p hp), by simpa using h.cells p hp⟩
  unfold Maze.lattice_count
  rw [List.countP_eq_length_filter]
  exact (Finset.card_le_card hsub).trans (List.toFinset_card_le _)

theorem lattice_count_sizes (m1 m2 : Maze) (s : Point)
    (hr : m1.maze_row_size_ = m2.maze_row_size_) (hc : m1.maze_col_size_ = m2.maze_col_size_) :
    m1.lattice_count s = m2.lattice_count s := by
  have hall : m1.all_cells = m2.all_cells := by
    unfold Maze.all_cells
    rw [hr, hc]
  have hcell : ∀ p, m1.cell_of s p ↔ m2.cell_of s p := by
    intro p
    unfold Maze.cell_of Maze.within_perimeter
    rw [hr, hc]
  unfold Maze.lattice_count
  rw [hall]
  apply List.countP_congr
  intro p _
  simp only [decide_eq_true_eq]
  exact hcell p

theorem builders_run_count_succ (gen : Nat → Nat) (m : Maze) (pos k : Nat) :
    Builders.run_count gen m pos (k + 1)
      = Builders.run_count gen m pos k
        + if (Builders.run_direction gen (generate_grid_maze gen k m pos)).isSome then 1 else 0 := by
  unfold Builders.run_count
  rw [List.range_succ, List.countP_append, List.countP_singleton]

theorem builders_run_grows (gen : Nat → Nat) (s : Grid_state) (d : Point)
    (h : Builders.run_direction gen s = some d) :
    ∃ cur rest, s.dfs = cur :: rest
      ∧ s.maze.can_build_new_square (cur.step d)
      ∧ s.dfs.length + 1 ≤ (Builders.grid_iteration gen s).dfs.length := by
  obtain ⟨m, dfs, pos⟩ := s
  cases dfs with
  | nil => exact Option.noConfusion h
  | cons cur rest =>
    have hf : Builders.find_new_square m cur (shuffle (gen pos)) = some d := h
    have hf2 := hf
    rw [find_new_square_eq] at hf2
    obtain ⟨_, hnext, hnb⟩ := find_unbuilt_some _ _ _ _ (fun i hi => shuffle_lt _ i hi) hf2
    refine ⟨cur, rest, rfl, ⟨hnext, hnb⟩, ?_⟩
    unfold Builders.grid_iteration
    simp only [hf]
    obtain ⟨n, _, _, _, g4, g5, _⟩ := builders_complete_run_outcome d m (cur :: rest) cur
    rw [g5]
    have := g4 hnext
    simp only [List.length_append, List.length_map, List.length_reverse, List.length_range,
      List.length_cons]
    omega

theorem generate_grid_maze_succ (gen : Nat → Nat) (m : Maze) (pos k : Nat) :
    generate_grid_maze gen (k + 1) m pos
      = Builders.grid_iteration gen (generate_grid_maze gen k m pos) := by
  unfold generate_grid_maze
  rw [Function.iterate_succ_apply']

theorem builders_pop_shrinks (gen : Nat → Nat) (s : Grid_state) (hne : s.dfs ≠ [])
    (h : Builders.run_direction gen s = none) :
    (Builders.grid_iteration gen s).dfs.length + 1 = s.dfs.length := by
  obtain ⟨m, dfs, pos⟩ := s
  cases dfs with
  | nil => exact absurd rfl hne
  | cons cur rest =>
    have hf : Builders.find_new_square m cur (shuffle (gen pos)) = none := h
    unfold Builders.grid_iteration
    simp only [hf, List.length_cons]

theorem builders_grid_runs_inv (gen : Nat → Nat) (m : Maze) (pos : Nat)
    (hr : 7 ≤ m.maze_row_size_) (hc : 7 ≤ m.maze_col_size_)
    (hro : m.maze_row_size_ % 2 = 1) (hco : m.maze_col_size_ % 2 = 1) (k : Nat) :
    ∃ o V E, (o.row - 1) % 2 = 0 ∧ (o.col - 1) % 2 = 0
      ∧ Frontier_inv (generate_grid_maze gen k m pos).maze o o
          (generate_grid_maze gen k m pos).dfs V E
      ∧ V.card ≤ E.card + 1
      ∧ Builders.run_count gen m pos k + 1 ≤ V.card
      ∧ (generate_grid_maze gen k m pos).maze.maze_row_size_ = m.maze_row_size_
      ∧ (generate_grid_maze gen k m pos).maze.maze_col_size_ = m.maze_col_size_ := by
  refine ⟨⟨2 * (uniform_int 1 (m.maze_row_size_ - 2) (gen pos) / 2) + 1,
      2 * (uniform_int 1 (m.maze_col_size_ - 2) (gen (pos + 1)) / 2) + 1⟩, ?_⟩
  induction k with
  | zero =>
    obtain ⟨e1, e2, hp, _⟩ := all_walls_basic m.maze_row_size_ m.maze_col_size_
    have h1 := uniform_int_range 1 (m.maze_row_size_ - 2) (gen pos) (by omega)
    have h2 := uniform_int_range 1 (m.maze_col_size_ - 2) (gen (pos + 1)) (by omega)
    have hcell : (all_walls m.maze_row_size_ m.maze_col_size_).cell_of
        ⟨2 * (uniform_int 1 (m.maze_row_size_ - 2) (gen pos) / 2) + 1,
          2 * (uniform_int 1 (m.maze_col_size_ - 2) (gen (pos + 1)) / 2) + 1⟩
        ⟨2 * (uniform_int 1 (m.maze_row_size_ - 2) (gen pos) / 2) + 1,
          2 * (uniform_int 1 (m.maze_col_size_ - 2) (gen (pos + 1)) / 2) + 1⟩ := by
      refine ⟨?_, by simp, by simp⟩
      unfold Maze.within_perimeter
      rw [e1, e2]
      simp only []
      omega
    have hinit := frontier_init _ _ _ hcell (fun r c => (hp r c).1)
      (all_walls_builder_bit m.maze_row_size_ m.maze_col_size_)
    refine ⟨{_}, ∅, by simp only []; omega, by simp only []; omega, hinit, by simp, ?_, e1, e2⟩
    simp [Builders.run_count]
  | succ k ih =>
    obtain ⟨V, E, p1, p2, hinv, hcnt, hruns, hrows, hcols⟩ := ih
    rw [generate_grid_maze_succ, builders_run_count_succ]
    by_cases hne : (generate_grid_maze gen k m pos).dfs = []
    · have hnone : Builders.run_direction gen (generate_grid_maze gen k m pos) = none := by
        unfold Builders.run_direction
        rw [hne]
      rw [builders_grid_iteration_nil gen _ hne, hnone]
      exact ⟨V, E, p1, p2, hinv, hcnt, by simpa using hruns, hrows, hcols⟩
    · obtain ⟨V', E', k1, k2, k3, k4, k5⟩ :=
        builders_grid_iteration_inv gen _ _ V E hinv hcnt hne (by rw [hrows]; exact hr)
      refine ⟨V', E', p1, p2, k1, k2, ?_, k4.trans hrows, k5.trans hcols⟩
      cases hd : Builders.run_direction gen (generate_grid_maze gen k m pos) with
      | none =>
        have hlen := builders_pop_shrinks gen _ hne hd
        simp only [Option.isSome_none, Bool.false_eq_true, if_false, Nat.add_zero]
        omega
      | some d =>
        obtain ⟨_, _, _, _, hgrow⟩ := builders_run_grows gen _ d hd
        simp only [Option.isSome_some, if_true]
        omega

/-- C36: for odd row and column counts of at least 7 and every random source,
`generate_grid_maze` returns: its stack is empty after `5 * rows * cols` loop
iterations at the latest. A run is started only toward a cell that passes
`can_build_new_square`, one within the perimeter that is not built yet, so
however many iterations are executed, the runs started in them are fewer than
the room cells. -/
theorem grid_maze_terminates (gen : Nat → Nat) (m : Maze) (pos : Nat)
    (hr : 7 ≤ m.maze_row_size_) (hc : 7 ≤ m.maze_col_size_)
    (hro : m.maze_row_size_ % 2 = 1) (hco : m.maze_col_size_ % 2 = 1) :
    (∀ fuel, 5 * (m.maze_row_size_.toNat * m.maze_col_size_.toNat) ≤ fuel →
        (generate_grid_maze gen fuel m pos).dfs = [])
      ∧ (∀ k d, Builders.run_direction gen (generate_grid_maze gen k m pos) = some d →
          ∃ cur rest, (generate_grid_maze gen k m pos).dfs = cur :: rest
            ∧ (generate_grid_maze gen k m pos).maze.can_build_new_square (cur.step d))
      ∧ ∀ k, Builders.run_count gen m pos k + 1 ≤ m.lattice_count ⟨1, 1⟩ := by
  refine ⟨?_, ?_, ?_⟩
  · intro fuel hfuel
    obtain ⟨o, V, E, _, _, hinv, hcnt, hruns, hrows, hcols⟩ :=
      builders_grid_runs_inv gen m pos hr hc hro hco 0
    have hL : 1 ≤ m.maze_row_size_.toNat * m.maze_col_size_.toNat := by
      have a : 7 ≤ m.maze_row_size_.toNat := by omega
      have b : 7 ≤ m.maze_col_size_.toNat := by omega
      nlinarith
    have hlen : (generate_grid_maze gen 0 m pos).dfs.length = 1 := rfl
    have hdone := builders_grid_loop_done gen o fuel (generate_grid_maze gen 0 m pos) V E hinv
      hcnt (by rw [hrows]; exact hr) (by rw [hrows, hcols, hlen]; omega)
    exact hdone.1
  · intro k d hd
    obtain ⟨cur, rest, h1, h2, _⟩ := builders_run_grows gen _ d hd
    exact ⟨cur, rest, h1, h2⟩
  · intro k
    obtain ⟨o, V, E, p1, p2, hinv, _, hruns, hrows, hcols⟩ :=
      builders_grid_runs_inv gen m pos hr hc hro hco k
    have h1 := web_card_le_lattice hinv.web
    rw [(spanning_anchor _ o ⟨1, 1⟩ p1 p2).2.1, lattice_count_sizes _ m _ hrows hcols] at h1
    omega

theorem grid_maze_terminates_witness :
    (∀ fuel, 5 * ((all_walls 7 7).maze_row_size_.toNat * (all_walls 7 7).maze_col_size_.toNat)
          ≤ fuel →
        (generate_grid_maze (fun n => n) fuel (all_walls 7 7) 0).dfs = [])
      ∧ (∀ k d, Builders.run_direction (fun n => n)
            (generate_grid_maze (fun n => n) k (all_walls 7 7) 0) = some d →
          ∃ cur rest, (generate_grid_maze (fun n => n) k (all_walls 7 7) 0).dfs = cur :: rest
            ∧ (generate_grid_maze (fun n => n) k (all_walls 7 7) 0).maze.can_build_new_square
                (cur.step d))
      ∧ ∀ k, Builders.run_count (fun n => n) (all_walls 7 7) 0 k + 1
          ≤ (all_walls 7 7).lattice_count ⟨1, 1⟩ :=
  grid_maze_terminates (fun n => n) (all_walls 7 7) 0 (by decide!) (by decide!) (by decide!)
    (by decide!)

/-! ## The choice of the least-cost neighbour in the Prim builder -/

/-- The scan for the least-cost neighbour: the result is the accumulator it
started from, then no buildable neighbour in the list costs less than it, or it
is the first buildable neighbour in the list of least cost among the buildable
ones, with its cost, which is less than the one started from. -/
theorem min_neighbor_scan_least (m : Maze) (cell_cost : Point → Int) (cur : Point) :
    ∀ (l : List Point) (acc : Point × Int),
      (min_neighbor_scan m cell_cost cur l acc).2 ≤ acc.2
        ∧ (∀ p ∈ l, m.can_build_new_square (cur.step p) →
            (min_neighbor_scan m cell_cost cur l acc).2 ≤ cell_cost (cur.step p))
        ∧ (min_neighbor_scan m cell_cost cur l acc = acc
          ∨ ∃ i, i < l.length
            ∧ min_neighbor_scan m cell_cost cur l acc
                = (cur.step (l.getD i ⟨0, 0⟩), cell_cost (cur.step (l.getD i ⟨0, 0⟩)))
            ∧ m.can_build_new_square (cur.step (l.getD i ⟨0, 0⟩))
            ∧ cell_cost (cur.step (l.getD i ⟨0, 0⟩)) < acc.2
            ∧ ∀ j, j < i → m.can_build_new_square (cur.step (l.getD j ⟨0, 0⟩)) →
                cell_cost (cur.step (l.getD i ⟨0, 0⟩))
                  < cell_cost (cur.step (l.getD j ⟨0, 0⟩))) := by
  intro l
  induction l with
  | nil =>
    intro acc
    exact ⟨le_refl _, fun p hp => absurd hp (List.not_mem_nil _), Or.inl rfl⟩
  | cons p rest ih =>
    intro acc
    have keep : min_neighbor_scan m cell_cost cur rest acc
          = min_neighbor_scan m cell_cost cur (p :: rest) acc →
        (m.can_build_new_square (cur.step p) → acc.2 ≤ cell_cost (cur.step p)) →
        (min_neighbor_scan m cell_cost cur (p :: rest) acc).2 ≤ acc.2
        ∧ (∀ q ∈ p :: rest, m.can_build_new_square (cur.step q) →
            (min_neighbor_scan m cell_cost cur (p :: rest) acc).2 ≤ cell_cost (cur.step q))
        ∧ (min_neighbor_scan m cell_cost cur (p :: rest) acc = acc
          ∨ ∃ i, i < (p :: rest).length
            ∧ min_neighbor_scan m cell_cost cur (p :: rest) acc
                = (cur.step ((p :: rest).getD i ⟨0, 0⟩),
                    cell_cost (cur.step ((p :: rest).getD i ⟨0, 0⟩)))
            ∧ m.can_build_new_square (cur.step ((p :: rest).getD i ⟨0, 0⟩))
            ∧ cell_cost (cur.step ((p :: rest).getD i ⟨0, 0⟩)) < acc.2
            ∧ ∀ j, j < i → m.can_build_new_square (cur.step ((p :: rest).getD j ⟨0, 0⟩)) →
                cell_cost (cur.step ((p :: rest).getD i ⟨0, 0⟩))
                  < cell_cost (cur.step ((p :: rest).getD j ⟨0, 0⟩))) := by
      intro e hp
      rw [← e]
      obtain ⟨a1, a2, a3⟩ := ih acc
      refine ⟨a1, ?_, ?_⟩
      · intro q hq hb
        rcases List.mem_cons.1 hq with rfl | hq
        · exact a1.trans (hp hb)
        · exact a2 q hq hb
      · rcases a3 with a3 | ⟨i, i1, i2, i3, i4, i5⟩
        · exact Or.inl a3
        · refine Or.inr ⟨i + 1, by simp only [List.length_cons]; omega, ?_, ?_, ?_, ?_⟩
          · simpa only [List.getD_cons_succ] using i2
          · simpa only [List.getD_cons_succ] using i3
          · simpa only [List.getD_cons_succ] using i4
          · intro j hj hb
            simp only [List.getD_cons_succ]
            cases j with
            | zero =>
              simp only [List.getD_cons_zero] at hb ⊢
              exact lt_of_lt_of_le i4 (hp hb)
            | succ j =>
              simp only [List.getD_cons_succ] at hb ⊢
              exact i5 j (by omega) hb
    by_cases hb : m.can_build_new_square (cur.step p)
    · by_cases hw : cell_cost (cur.step p) < acc.2
      · have e : min_neighbor_scan m cell_cost cur (p :: rest) acc
            = min_neighbor_scan m cell_cost cur rest (cur.step p, cell_cost (cur.step p)) := by
          rw [min_neighbor_scan]
          simp only [if_pos hb, if_pos hw]
        rw [e]
        obtain ⟨a1, a2, a3⟩ := ih (cur.step p, cell_cost (cur.step p))
        simp only [] at a1
        refine ⟨le_of_lt (lt_of_le_of_lt a1 hw), ?_, Or.inr ?_⟩
        · intro q hq hbq
          rcases List.mem_cons.1 hq with rfl | hq
          · exact a1
          · exact a2 q hq hbq
        · rcases a3 with a3 | ⟨i, i1, i2, i3, i4, i5⟩
          · refine ⟨0, by simp, ?_, ?_, ?_, fun j hj => absurd hj (Nat.not_lt_zero _)⟩
            · simpa only [List.getD_cons_zero] using a3
            · simpa only [List.getD_cons_zero] using hb
            · simpa only [List.getD_cons_zero] using hw
          · refine ⟨i + 1, by simp only [List.length_cons]; omega, ?_, ?_, ?_, ?_⟩
            · simpa only [List.getD_cons_succ] using i2
            · simpa only [List.getD_cons_succ] using i3
            · simp only [List.getD_cons_succ]
              exact lt_trans i4 hw
            · intro j hj hbj
              simp only [List.getD_cons_succ]
              cases j with
              | zero =>
                simp only [List.getD_cons_zero] at hbj ⊢
                exact i4
              | succ j =>
                simp only [List.getD_cons_succ] at hbj ⊢
                exact i5 j (by omega) hbj
      · refine keep ?_ (fun _ => not_lt.1 hw)
        rw [min_neighbor_scan.eq_2]
        simp only [if_pos hb, if_neg hw]
    · refine keep ?_ (fun h => absurd h hb)
      rw [min_neighbor_scan.eq_2]
      simp only [if_neg hb]

theorem generate_prim_maze_succ (costs seed tie : Nat → Nat) (m : Maze) (k : Nat) :
    generate_prim_maze costs seed tie (k + 1) m
      = prim_iteration (randomize_cell_costs costs m.fill_maze_with_walls) tie
          (generate_prim_maze costs seed tie k m) := by
  unfold generate_prim_maze
  rw [Function.iterate_succ_apply']

/-- One iteration of the Prim loop on a state whose queue has the top `top`:
either the first buildable neighbour of least cost is joined and pushed with
its cost, or there is no buildable neighbour and the top is popped. -/
theorem prim_iteration_choice (cell_cost : Point → Int) (hcost : ∀ p, cell_cost p < INT_MAX)
    (tie : Nat → Nat) (s : Prim_state) (top : Priority_cell)
    (htop : queue_top s.cells (tie s.pos) = some top) :
    (∃ i, i < 4
      ∧ (set_builder s.maze top.cell.row top.cell.col).can_build_new_square
          (top.cell.step (generate_directions_.getD i ⟨0, 0⟩))
      ∧ (∀ j, j < 4 →
          (set_builder s.maze top.cell.row top.cell.col).can_build_new_square
            (top.cell.step (generate_directions_.getD j ⟨0, 0⟩)) →
          cell_cost (top.cell.step (generate_directions_.getD i ⟨0, 0⟩))
            ≤ cell_cost (top.cell.step (generate_directions_.getD j ⟨0, 0⟩)))
      ∧ (∀ j, j < i →
          (set_builder s.maze top.cell.row top.cell.col).can_build_new_square
            (top.cell.step (generate_directions_.getD j ⟨0, 0⟩)) →
          cell_cost (top.cell.step (generate_directions_.getD i ⟨0, 0⟩))
            < cell_cost (top.cell.step (generate_directions_.getD j ⟨0, 0⟩)))
      ∧ prim_iteration cell_cost tie s
          = { maze := (set_builder s.maze top.cell.row top.cell.col).join_squares top.cell
                (top.cell.step (generate_directions_.getD i ⟨0, 0⟩))
              cells := ⟨top.cell.step (generate_directions_.getD i ⟨0, 0⟩),
                  cell_cost (top.cell.step (generate_directions_.getD i ⟨0, 0⟩))⟩ :: s.cells
              pos := s.pos + 1 })
    ∨ ((∀ j, j < 4 →
          ¬ (set_builder s.maze top.cell.row top.cell.col).can_build_new_square
            (top.cell.step (generate_directions_.getD j ⟨0, 0⟩)))
      ∧ prim_iteration cell_cost tie s
          = { maze := set_builder s.maze top.cell.row top.cell.col
              cells := s.cells.erase top
              pos := s.pos + 1 }) := by
  obtain ⟨a1, a2, a3⟩ := min_neighbor_scan_least (set_builder s.maze top.cell.row top.cell.col)
    cell_cost top.cell generate_directions_ (⟨0, 0⟩, INT_MAX)
  rcases a3 with a3 | ⟨i, i1, i2, i3, i4, i5⟩
  · right
    constructor
    · intro j hj hb
      have h1 := a2 _ (generate_directions_getD j hj) hb
      rw [a3] at h1
      have h2 := hcost (top.cell.step (generate_directions_.getD j ⟨0, 0⟩))
      simp only [] at h1
      omega
    · unfold prim_iteration
      simp only [htop, a3, ne_eq, not_true_eq_false, if_false]
  · left
    refine ⟨i, i1, i3, ?_, i5, ?_⟩
    · intro j hj hb
      have h1 := a2 _ (generate_directions_getD j hj) hb
      rw [i2] at h1
      exact h1
    · have hrow : (top.cell.step (generate_directions_.getD i ⟨0, 0⟩)).row ≠ 0 := by
        have := i3.1.1
        omega
      unfold prim_iteration
      simp only [htop, i2, ne_eq, hrow, not_false_eq_true, if_true]

/-- C37: in each iteration of `generate_prim_maze`, with `top` the peeked
entry of the queue, either some neighbour of the peeked cell can be built,
and the one joined to it is a buildable neighbour whose cost is at most the
cost of every buildable neighbour and less than the cost of every buildable
neighbour before it in direction order, and it is pushed with that cost while
nothing is popped; or no neighbour can be built and the peeked entry is
popped, nothing being joined or pushed. -/
theorem prim_joins_least_neighbor (costs seed tie : Nat → Nat) (m : Maze) (k : Nat)
    (s : Prim_state) (top : Priority_cell)
    (hs : s = generate_prim_maze costs seed tie k m)
    (htop : queue_top s.cells (tie s.pos) = some top) :
    (∃ i, i < 4
      ∧ (set_builder s.maze top.cell.row top.cell.col).can_build_new_square
          (top.cell.step (generate_directions_.getD i ⟨0, 0⟩))
      ∧ (∀ j, j < 4 →
          (set_builder s.maze top.cell.row top.cell.col).can_build_new_square
            (top.cell.step (generate_directions_.getD j ⟨0, 0⟩)) →
          randomize_cell_costs costs m.fill_maze_with_walls
              (top.cell.step (generate_directions_.getD i ⟨0, 0⟩))
            ≤ randomize_cell_costs costs m.fill_maze_with_walls
              (top.cell.step (generate_directions_.getD j ⟨0, 0⟩)))
      ∧ (∀ j, j < i →
          (set_builder s.maze top.cell.row top.cell.col).can_build_new_square
            (top.cell.step (generate_directions_.getD j ⟨0, 0⟩)) →
          randomize_cell_costs costs m.fill_maze_with_walls
              (top.cell.step (generate_directions_.getD i ⟨0, 0⟩))
            < randomize_cell_costs costs m.fill_maze_with_walls
              (top.cell.step (generate_directions_.getD j ⟨0, 0⟩)))
      ∧ generate_prim_maze costs seed tie (k + 1) m
          = { maze := (set_builder s.maze top.cell.row top.cell.col).join_squares top.cell
                (top.cell.step (generate_directions_.getD i ⟨0, 0⟩))
              cells := ⟨top.cell.step (generate_directions_.getD i ⟨0, 0⟩),
                  randomize_cell_costs costs m.fill_maze_with_walls
                    (top.cell.step (generate_directions_.getD i ⟨0, 0⟩))⟩ :: s.cells
              pos := s.pos + 1 })
    ∨ ((∀ j, j < 4 →
          ¬ (set_builder s.maze top.cell.row top.cell.col).can_build_new_square
            (top.cell.step (generate_directions_.getD j ⟨0, 0⟩)))
      ∧ generate_prim_maze costs seed tie (k + 1) m
          = { maze := set_builder s.maze top.cell.row top.cell.col
              cells := s.cells.erase top
              pos := s.pos + 1 }) := by
  have hcost : ∀ p, randomize_cell_costs costs m.fill_maze_with_walls p < INT_MAX := by
    intro p
    have := (randomize_cell_costs_range costs m.fill_maze_with_walls p).2
    unfold INT_MAX
    omega
  rw [generate_prim_maze_succ, ← hs]
  exact prim_iteration_choice _ hcost tie s top htop

theorem prim_joins_least_neighbor_witness :
    (∃ i, i < 4
      ∧ (set_builder
            (generate_prim_maze (fun n => 7 * n + 3) (fun n => n) (fun n => n) 3 (blank 7 7)).maze
            1 1).can_build_new_square
          ((⟨1, 1⟩ : Point).step (generate_directions_.getD i ⟨0, 0⟩))
      ∧ (∀ j, j < 4 →
          (set_builder
              (generate_prim_maze (fun n => 7 * n + 3) (fun n => n) (fun n => n) 3 (blank 7 7)).maze
              1 1).can_build_new_square
            ((⟨1, 1⟩ : Point).step (generate_directions_.getD j ⟨0, 0⟩)) →
          randomize_cell_costs (fun n => 7 * n + 3) (blank 7 7).fill_maze_with_walls
              ((⟨1, 1⟩ : Point).step (generate_directions_.getD i ⟨0, 0⟩))
            ≤ randomize_cell_costs (fun n => 7 * n + 3) (blank 7 7).fill_maze_with_walls
              ((⟨1, 1⟩ : Point).step (generate_directions_.getD j ⟨0, 0⟩)))
      ∧ (∀ j, j < i →
          (set_builder
              (generate_prim_maze (fun n => 7 * n + 3) (fun n => n) (fun n => n) 3 (blank 7 7)).maze
              1 1).can_build_new_square
            ((⟨1, 1⟩ : Point).step (generate_directions_.getD j ⟨0, 0⟩)) →
          randomize_cell_costs (fun n => 7 * n + 3) (blank 7 7).fill_maze_with_walls
              ((⟨1, 1⟩ : Point).step (generate_directions_.getD i ⟨0, 0⟩))
            < randomize_cell_costs (fun n => 7 * n + 3) (blank 7 7).fill_maze_with_walls
              ((⟨1, 1⟩ : Point).step (generate_directions_.getD j ⟨0, 0⟩)))
      ∧ generate_prim_maze (fun n => 7 * n + 3) (fun n => n) (fun n => n) (3 + 1) (blank 7 7)
          = Prim_state.mk
              ((set_builder
                  (generate_prim_maze (fun n => 7 * n + 3) (fun n => n) (fun n => n) 3
                    (blank 7 7)).maze
                  1 1).join_squares ⟨1, 1⟩
                ((⟨1, 1⟩ : Point).step (generate_directions_.getD i ⟨0, 0⟩)))
              (⟨(⟨1, 1⟩ : Point).step (generate_directions_.getD i ⟨0, 0⟩),
                  randomize_cell_costs (fun n => 7 * n + 3) (blank 7 7).fill_maze_with_walls
                    ((⟨1, 1⟩ : Point).step (generate_directions_.getD i ⟨0, 0⟩))⟩
                :: (generate_prim_maze (fun n => 7 * n + 3) (fun n => n) (fun n => n) 3
                      (blank 7 7)).cells)
              ((generate_prim_maze (fun n => 7 * n + 3) (fun n => n) (fun n => n) 3
                  (blank 7 7)).pos + 1))
    ∨ ((∀ j, j < 4 →
          ¬ (set_builder
              (generate_prim_maze (fun n => 7 * n + 3) (fun n => n) (fun n => n) 3 (blank 7 7)).maze
              1 1).can_build_new_square
            ((⟨1, 1⟩ : Point).step (generate_directions_.getD j ⟨0, 0⟩)))
      ∧ generate_prim_maze (fun n => 7 * n + 3) (fun n => n) (fun n => n) (3 + 1) (blank 7 7)
          = Prim_state.mk
              (set_builder
                (generate_prim_maze (fun n => 7 * n + 3) (fun n => n) (fun n => n) 3
                  (blank 7 7)).maze
                1 1)
              ((generate_prim_maze (fun n => 7 * n + 3) (fun n => n) (fun n => n) 3
                  (blank 7 7)).cells.erase ⟨⟨1, 1⟩, 3⟩)
              ((generate_prim_maze (fun n => 7 * n + 3) (fun n => n) (fun n => n) 3
                  (blank 7 7)).pos + 1)) :=
  prim_joins_least_neighbor (fun n => 7 * n + 3) (fun n => n) (fun n => n) (blank 7 7) 3 _
    ⟨⟨1, 1⟩, 3⟩ rfl (by decide!)

/-! ## The wall flags after carving calls -/

/-- The wall flags record the neighbours that are wall cells: the flag of a cell
of the array on a side is set exactly when the neighbour on that side lies in the
array and is no passage. -/
theorem wall_flags_of_carve (m m' : Maze) (r c : Int)
    (hr : m'.maze_row_size_ = m.maze_row_size_) (hc : m'.maze_col_size_ = m.maze_col_size_)
    (hpath : ∀ r' c', (m'.maze_ r' c').path_bit
      = ((m.maze_ r' c').path_bit || decide (r' = r ∧ c' = c)))
    (hwall : ∀ r' c' side, m.in_array r' c' → (m'.maze_ r' c').wall side
      = ((m.maze_ r' c').wall side && !decide (r' + side.row = r ∧ c' + side.col = c)))
    (h : ∀ row col side, m.in_array row col →
      (m.wall row col side = true
        ↔ m.in_array (row + side.row) (col + side.col)
          ∧ m.path (row + side.row) (col + side.col) = false)) :
    ∀ row col side, m'.in_array row col →
      (m'.wall row col side = true
        ↔ m'.in_array (row + side.row) (col + side.col)
          ∧ m'.path (row + side.row) (col + side.col) = false) := by
  intro row col side hin
  have hin' : m.in_array row col := (in_array_sizes hr hc _ _).1 hin
  rw [in_array_sizes hr hc]
  unfold Maze.wall Maze.path at h ⊢
  rw [hwall row col side hin', hpath]
  have := h row col side hin'
  by_cases e : row + side.row = r ∧ col + side.col = c
  · simp [e]
  · simp only [e, decide_False, Bool.not_false, Bool.and_true, Bool.or_false]
    exact this

theorem wall_flags_all_walls (rows cols : Int) (row col : Int) (side : Side)
    (hin : (all_walls rows cols).in_array row col) :
    (all_walls rows cols).wall row col side = true
      ↔ (all_walls rows cols).in_array (row + side.row) (col + side.col)
        ∧ (all_walls rows cols).path (row + side.row) (col + side.col) = false := by
  obtain ⟨_, _, hp, hw⟩ := all_walls_basic rows cols
  constructor
  · intro h
    exact ⟨hw row col side h, (hp _ _).1⟩
  · rintro ⟨h, _⟩
    exact all_walls_walls rows cols row col side hin h

theorem carve_calls_snoc (m : Maze) (calls : List Carve_call) (call : Carve_call) :
    carve_calls m (calls ++ [call]) = call.apply (carve_calls m calls) := by
  unfold carve_calls
  rw [List.foldl_append]
  rfl

/-- C38: starting from the all-walls grid, after any sequence of `build_path`
and `carve_path_walls` calls (on cells of the array, and on any others as far
as this model goes), every cell of the array has its wall flag on a side set if
and only if the neighbour on that side lies in the array and does not carry the
passage flag. -/
theorem wall_flags_after_carving (rows cols : Int) (calls : List Carve_call)
    (row col : Int) (side : Side)
    (hin : (carve_calls (all_walls rows cols) calls).in_array row col) :
    (carve_calls (all_walls rows cols) calls).wall row col side = true
      ↔ (carve_calls (all_walls rows cols) calls).in_array (row + side.row) (col + side.col)
        ∧ (carve_calls (all_walls rows cols) calls).path (row + side.row) (col + side.col)
          = false := by
  revert row col side
  induction calls using List.reverseRecOn with
  | nil => exact fun row col side hin => wall_flags_all_walls rows cols row col side hin
  | append_singleton calls call ih =>
    rw [carve_calls_snoc]
    cases call with
    | build_path r c =>
      exact wall_flags_of_carve _ _ r c (by simp [Carve_call.apply])
        (by simp [Carve_call.apply]) (build_path_path_bit _ r c) (build_path_wall _ r c) ih
    | carve_path_walls r c =>
      exact wall_flags_of_carve _ _ r c (by simp [Carve_call.apply])
        (by simp [Carve_call.apply]) (carve_path_walls_path_bit _ r c)
        (carve_path_walls_wall _ r c) ih

theorem wall_flags_after_carving_witness :
    (carve_calls (all_walls 7 7)
        [.build_path 1 1, .carve_path_walls 1 2, .build_path 3 3]).wall 1 1 .east = true
      ↔ (carve_calls (all_walls 7 7)
            [.build_path 1 1, .carve_path_walls 1 2, .build_path 3 3]).in_array
          (1 + Side.east.row) (1 + Side.east.col)
        ∧ (carve_calls (all_walls 7 7)
            [.build_path 1 1, .carve_path_walls 1 2, .build_path 3 3]).path
          (1 + Side.east.row) (1 + Side.east.col) = false :=
  wall_flags_after_carving 7 7 [.build_path 1 1, .carve_path_walls 1 2, .build_path 3 3] 1 1
    .east (by decide!)

/-! ## The neighbour reads of the hunt agents stay inside the array -/

theorem within_of_probe (m : Maze) (hm : Perimeter_closed m) (cur : Point) (i : Nat)
    (hc : m.within_perimeter cur.row cur.col)
    (hp : m.path (cur.step (cardinal_directions_.getD i ⟨0, 0⟩)).row
      (cur.step (cardinal_directions_.getD i ⟨0, 0⟩)).col = true) :
    m.within_perimeter (cur.step (cardinal_directions_.getD i ⟨0, 0⟩)).row
      (cur.step (cardinal_directions_.getD i ⟨0, 0⟩)).col := by
  rcases cardinal_getD i with hd | hd
  · exact within_of_path m hm cur _ hd hc hp
  · rw [hd, step_zero]; exact hc

theorem in_array_of_probe (m : Maze) (cur : Point) (i : Nat)
    (hc : m.within_perimeter cur.row cur.col) :
    m.in_array (cur.step (cardinal_directions_.getD i ⟨0, 0⟩)).row
      (cur.step (cardinal_directions_.getD i ⟨0, 0⟩)).col := by
  rcases cardinal_getD i with hd | hd
  · exact in_array_of_step m cur _ hd hc
  · rw [hd, step_zero]
    unfold Maze.within_perimeter at hc
    unfold Maze.in_array
    omega

theorem inside_inv_frame (paint : Nat) (m m1 : Maze) (a : Thread_local)
    (h : Maze_step paint m m1) (hP : Inside_inv m a) : Inside_inv m1 a :=
  { ring := perimeter_closed_step paint m m1 h hP.ring
    stack := fun p hp => (within_perimeter_sizes h.1 h.2.1 _ _).2 (hP.stack p hp)
    queue := fun p hp => (within_perimeter_sizes h.1 h.2.1 _ _).2 (hP.queue p hp)
    current := fun hpc => (within_perimeter_sizes h.1 h.2.1 _ _).2 (hP.current hpc) }

theorem dfs_probe_inside (obj : Thread_maze_object) (a : Thread_local)
    (hpc : a.pc = .probe) (hP : Inside_inv obj.maze a) :
    Inside_inv obj.maze (dfs_probe obj a).2 := by
  have hcur := hP.current (Or.inr hpc)
  unfold dfs_probe
  split
  · exact
      { ring := hP.ring
        stack := fun p hp => hP.stack p (List.mem_of_mem_tail hp)
        queue := hP.queue
        current := fun h => by simp at h }
  · rename_i i rest _
    simp only []
    split_ifs with hc
    · simp only [Bool.and_eq_true] at hc
      exact
        { ring := hP.ring
          stack := fun p hp => by
            rcases List.mem_cons.1 hp with rfl | hp
            · exact within_of_probe _ hP.ring a.cur i hcur hc.2
            · exact hP.stack p hp
          queue := hP.queue
          current := fun h => by simp at h }
    · exact
        { ring := hP.ring
          stack := hP.stack
          queue := hP.queue
          current := fun _ => hcur }

theorem dfs_unwind_inside (obj : Thread_maze_object) (a : Thread_local)
    (hpc : a.pc = .unwind) (hP : Inside_inv obj.maze a) :
    Inside_inv obj.maze (dfs_unwind obj a).2 := by
  unfold dfs_unwind
  split
  · exact
      { ring := hP.ring
        stack := hP.stack
        queue := hP.queue
        current := fun h => by simp at h }
  · rename_i cur rest hd
    exact
      { ring := hP.ring
        stack := fun p hp => hP.stack p (by rw [hd]; exact List.mem_cons_of_mem _ hp)
        queue := hP.queue
        current := fun h => by simp [hpc] at h }

theorem bfs_probe_inside (obj : Thread_maze_object) (a : Thread_local)
    (hpc : a.pc = .probe) (hP : Inside_inv obj.maze a) :
    Inside_inv obj.maze (bfs_probe obj a).2 := by
  have hcur := hP.current (Or.inr hpc)
  unfold bfs_probe
  split
  · exact
      { ring := hP.ring
        stack := hP.stack
        queue := hP.queue
        current := fun h => by simp at h }
  · rename_i i rest _
    simp only []
    split_ifs with hc
    · simp only [Bool.and_eq_true] at hc
      exact
        { ring := hP.ring
          stack := hP.stack
          queue := fun p hp => by
            rcases List.mem_append.1 hp with hp | hp
            · exact hP.queue p hp
            · rw [List.mem_singleton.1 hp]
              exact within_of_probe _ hP.ring a.cur i hcur hc.2
          current := fun _ => hcur }
    · exact
        { ring := hP.ring
          stack := hP.stack
          queue := hP.queue
          current := fun _ => hcur }

theorem dfs_thread_hunt_inside (obj : Thread_maze_object) (a : Thread_local)
    (hP : Inside_inv obj.maze a) : Inside_inv obj.maze (dfs_thread_hunt obj a).2 := by
  unfold dfs_thread_hunt
  split
  · split
    · exact ⟨hP.ring, hP.stack, hP.queue, fun h => by simp at h⟩
    · rename_i top rest hd
      have htop := hP.stack top (by rw [hd]; exact List.mem_cons_self _ _)
      split_ifs
      · exact ⟨hP.ring, hP.stack, hP.queue, fun h => by simp at h⟩
      · exact ⟨hP.ring, hP.stack, hP.queue, fun h => by simp at h⟩
      · exact ⟨hP.ring, hP.stack, hP.queue, fun _ => htop⟩
  · exact ⟨hP.ring, fun p hp => hP.stack p (List.mem_of_mem_tail hp), hP.queue,
      fun h => by simp at h⟩
  · rename_i hpc
    exact ⟨hP.ring, hP.stack, hP.queue, fun _ => hP.current (Or.inl hpc)⟩
  · rename_i hpc
    exact dfs_probe_inside obj a hpc hP
  · rename_i hpc
    exact dfs_unwind_inside obj a hpc hP
  · exact hP

theorem randomized_dfs_thread_hunt_inside (gen : Nat → Nat) (obj : Thread_maze_object)
    (a : Thread_local) (hP : Inside_inv obj.maze a) :
    Inside_inv obj.maze (randomized_dfs_thread_hunt gen obj a).2 := by
  unfold randomized_dfs_thread_hunt
  split
  · split
    · exact ⟨hP.ring, hP.stack, hP.queue, fun h => by simp at h⟩
    · rename_i top rest hd
      have htop := hP.stack top (by rw [hd]; exact List.mem_cons_self _ _)
      split_ifs
      · exact ⟨hP.ring, hP.stack, hP.queue, fun h => by simp at h⟩
      · exact ⟨hP.ring, hP.stack, hP.queue, fun h => by simp at h⟩
      · exact ⟨hP.ring, hP.stack, hP.queue, fun _ => htop⟩
  · exact ⟨hP.ring, fun p hp => hP.stack p (List.mem_of_mem_tail hp), hP.queue,
      fun h => by simp at h⟩
  · rename_i hpc
    exact ⟨hP.ring, hP.stack, hP.queue, fun _ => hP.current (Or.inl hpc)⟩
  · rename_i hpc
    exact dfs_probe_inside obj a hpc hP
  · rename_i hpc
    exact dfs_unwind_inside obj a hpc hP
  · exact hP

theorem bfs_thread_hunt_inside (obj : Thread_maze_object) (a : Thread_local)
    (hP : Inside_inv obj.maze a) : Inside_inv obj.maze (bfs_thread_hunt obj a).2 := by
  unfold bfs_thread_hunt
  split
  · split
    · exact ⟨hP.ring, hP.stack, hP.queue, fun h => by simp at h⟩
    · rename_i front rest hd
      have hfront := hP.queue front (by rw [hd]; exact List.mem_cons_self _ _)
      have hrest : ∀ p ∈ rest, obj.maze.within_perimeter p.row p.col :=
        fun p hp => hP.queue p (by rw [hd]; exact List.mem_cons_of_mem _ hp)
      split_ifs
      · exact ⟨hP.ring, hP.stack, hP.queue, fun h => by simp at h⟩
      · exact ⟨hP.ring, hP.stack, hrest, fun h => by simp at h⟩
      · exact ⟨hP.ring, hP.stack, hrest, fun _ => hfront⟩
  · exact ⟨hP.ring, hP.stack, hP.queue, fun h => by simp at h⟩
  · rename_i hpc
    exact ⟨hP.ring, hP.stack, hP.queue, fun _ => hP.current (Or.inl hpc)⟩
  · rename_i hpc
    exact bfs_probe_inside obj a hpc hP
  · unfold seen_at
    split
    · exact ⟨hP.ring, hP.stack, hP.queue, fun h => by simp at h⟩
    · exact ⟨hP.ring, hP.stack, hP.queue, fun h => by simp at h⟩
  · split_ifs
    · unfold seen_at
      split
      · exact ⟨hP.ring, hP.stack, hP.queue, fun h => by simp at h⟩
      · exact ⟨hP.ring, hP.stack, hP.queue, fun h => by simp at h⟩
    · exact ⟨hP.ring, hP.stack, hP.queue, fun h => by simp at h⟩
  · exact hP

theorem thread_step_inside (gen : Nat → Nat) (obj : Thread_maze_object) (a : Thread_local)
    (hQ : a.hunts) (hP : Inside_inv obj.maze a) :
    Inside_inv (thread_step gen obj a).1.maze (thread_step gen obj a).2 := by
  apply inside_inv_frame a.paint obj.maze _ _ (thread_step_maze gen obj a)
  unfold Thread_local.hunts Thread_function.hunts at hQ
  unfold thread_step
  rcases hQ with e | e | e <;> rw [e]
  · exact dfs_thread_hunt_inside obj a hP
  · exact randomized_dfs_thread_hunt_inside gen obj a hP
  · exact bfs_thread_hunt_inside obj a hP

theorem clear_paths_static (obj : Thread_maze_object) :
    (clear_paths obj).maze.maze_row_size_ = obj.maze.maze_row_size_
      ∧ (clear_paths obj).maze.maze_col_size_ = obj.maze.maze_col_size_
      ∧ ∀ r c, (clear_paths obj).maze.path r c = obj.maze.path r c := by
  unfold clear_paths
  simp only []
  refine for_cells_induction
    (fun m => m.maze_row_size_ = obj.maze.maze_row_size_
      ∧ m.maze_col_size_ = obj.maze.maze_col_size_
      ∧ ∀ r c, m.path r c = obj.maze.path r c) _ _ _ _ _ _ ⟨rfl, rfl, fun _ _ => rfl⟩ ?_
  intro m r c _ _ _ _ ⟨h1, h2, h3⟩
  refine ⟨h1, h2, fun r' c' => ?_⟩
  rw [← h3 r' c']
  unfold Maze.path
  rw [modify_get]
  split_ifs <;> rfl

theorem solve_begin_static (solver : Solver_algorithm) (gen : Nat → Nat)
    (obj : Thread_maze_object) :
    (solve_begin solver gen obj).obj.maze.maze_row_size_ = obj.maze.maze_row_size_
      ∧ (solve_begin solver gen obj).obj.maze.maze_col_size_ = obj.maze.maze_col_size_
      ∧ ∀ r c, (solve_begin solver gen obj).obj.maze.path r c = obj.maze.path r c := by
  have h1 : (if obj.escape_path_index_ ≠ -1 then clear_paths obj else obj).maze.maze_row_size_
        = obj.maze.maze_row_size_
      ∧ (if obj.escape_path_index_ ≠ -1 then clear_paths obj else obj).maze.maze_col_size_
        = obj.maze.maze_col_size_
      ∧ ∀ r c, (if obj.escape_path_index_ ≠ -1 then clear_paths obj else obj).maze.path r c
        = obj.maze.path r c := by
    split_ifs
    · exact clear_paths_static obj
    · exact ⟨rfl, rfl, fun _ _ => rfl⟩
  unfold solve_begin
  simp only []
  split <;> exact h1

theorem spawn_inside (m : Maze) (function : Thread_function) (start : Point) (i : Nat)
    (hring : Perimeter_closed m) (hstart : m.within_perimeter start.row start.col) :
    Inside_inv m (spawn function start i) := by
  unfold spawn
  split <;> refine ⟨hring, fun p hp => ?_, fun p hp => ?_, fun h => by simp at h⟩ <;>
    first
    | exact absurd hp (List.not_mem_nil _)
    | (rw [List.mem_singleton.1 hp]; exact hstart)

theorem run_sizes (gen : Nat → Nat) (schedule : List Nat) (s : Solve_state) :
    (s.run gen schedule).obj.maze.maze_row_size_ = s.obj.maze.maze_row_size_
      ∧ (s.run gen schedule).obj.maze.maze_col_size_ = s.obj.maze.maze_col_size_ := by
  induction schedule generalizing s with
  | nil => exact ⟨rfl, rfl⟩
  | cons i rest ih =>
    have hstep : (s.step gen i).obj.maze.maze_row_size_ = s.obj.maze.maze_row_size_
        ∧ (s.step gen i).obj.maze.maze_col_size_ = s.obj.maze.maze_col_size_ := by
      unfold Solve_state.step
      split
      · exact ⟨rfl, rfl⟩
      · rename_i a _
        have h := thread_step_maze gen s.obj a
        exact ⟨h.1, h.2.1⟩
    obtain ⟨h1, h2⟩ := ih (s.step gen i)
    exact ⟨h1.trans hstep.1, h2.trans hstep.2⟩

theorem neighbor_read_inside (m : Maze) (a : Thread_local) (p : Point)
    (hP : Inside_inv m a) (hread : a.neighbor_read = some p) : m.in_array p.row p.col := by
  unfold Thread_local.neighbor_read at hread
  split at hread
  · rename_i i rest hpc _
    simp only [Option.some.injEq] at hread
    rw [← hread]
    exact in_array_of_probe m a.cur i (hP.current (Or.inr hpc))
  · exact Option.noConfusion hread

/-- C39: in a hunt (any game but gather, any solver, so with `dfs_thread_hunt`,
`randomized_dfs_thread_hunt` or `bfs_thread_hunt` as the agent function), when
no cell on the outer ring of the grid is a path and the starts of the agents
lie strictly inside the perimeter, then at every point of every interleaving
the neighbour cell that an agent is about to read in its neighbour loop, `cur`
plus a cardinal direction, lies inside the array. -/
theorem hunt_reads_inside_array (solver : Solver_algorithm) (gen : Nat → Nat)
    (obj : Thread_maze_object) (schedule : List Nat) (i : Nat) (a : Thread_local) (p : Point)
    (hgame : obj.game_ ≠ .gather) (hring : Perimeter_closed obj.maze)
    (hstarts : ∀ b ∈ (solve_begin solver gen obj).threads,
      obj.maze.within_perimeter b.start.row b.start.col)
    (ha : ((solve_begin solver gen obj).run gen schedule).threads.get? i = some a)
    (hread : a.neighbor_read = some p) :
    obj.maze.in_array p.row p.col
      ∧ ((solve_begin solver gen obj).run gen schedule).obj.maze.in_array p.row p.col := by
  obtain ⟨s1, s2, s3⟩ := solve_begin_static solver gen obj
  have hring0 : Perimeter_closed (solve_begin solver gen obj).obj.maze := by
    intro row col h
    rw [s3]
    exact hring row col ((on_ring_sizes s1 s2 row col).1 h)
  have key := run_lift gen (fun o b => Inside_inv o.maze b)
    (fun b => b.hunts)
    (fun o b hQ => hunts_step gen o b hQ)
    (fun o b hQ hP => thread_step_inside gen o b hQ hP)
    (fun o b c _ _ _ hP => inside_inv_frame c.paint _ _ b (thread_step_maze gen o c) hP)
    schedule (solve_begin solver gen obj) (solve_begin_indexed solver gen obj)
    (fun j b hb => by
      have hstart := hstarts b (List.get?_mem hb)
      obtain ⟨start, rfl⟩ := solve_begin_threads solver gen obj j b hb
      have hf : (spawn (agent_function solver obj.game_) start j).function
          = agent_function solver obj.game_ := spawn_function _ _ _
      refine ⟨?_, ?_⟩
      · show (spawn (agent_function solver obj.game_) start j).function.hunts
        rw [hf]
        exact agent_function_hunts solver obj.game_ hgame
      · have hst : (spawn (agent_function solver obj.game_) start j).start = start := by
          unfold spawn
          split <;> rfl
        rw [hst] at hstart
        exact spawn_inside _ _ start j hring0 ((within_perimeter_sizes s1 s2 _ _).2 hstart))
  obtain ⟨_, hP⟩ := key i a ha
  have hin := neighbor_read_inside _ a p hP hread
  have hsz : ((solve_begin solver gen obj).run gen schedule).obj.maze.maze_row_size_
        = obj.maze.maze_row_size_
      ∧ ((solve_begin solver gen obj).run gen schedule).obj.maze.maze_col_size_
        = obj.maze.maze_col_size_ := by
    have := run_sizes gen schedule (solve_begin solver gen obj)
    exact ⟨this.1.trans s1, this.2.trans s2⟩
  exact ⟨(in_array_sizes hsz.1 hsz.2 _ _).1 hin, hin⟩

theorem hunt_reads_inside_array_witness :
    (Thread_maze_object.maze
        { builder_ := .arena, modification_ := .none, solver_ := .breadth_first_search,
          game_ := .hunt,
          maze := { maze_row_size_ := 7, maze_col_size_ := 7,
                    maze_ := fun r c => if r = 1 ∧ 1 ≤ c ∧ c ≤ 3 then
                      { path_bit := true, finish_bit := decide (c = 3) } else {} },
          marks := { start_ := ⟨1, 1⟩ }, thread_paths_ := [[], [], [], []],
          escape_path_index_ := -1, pos := 0 }).in_array 2 1
      ∧ ((solve_begin .breadth_first_search (fun n => n)
          { builder_ := .arena, modification_ := .none, solver_ := .breadth_first_search,
            game_ := .hunt,
            maze := { maze_row_size_ := 7, maze_col_size_ := 7,
                      maze_ := fun r c => if r = 1 ∧ 1 ≤ c ∧ c ≤ 3 then
                        { path_bit := true, finish_bit := decide (c = 3) } else {} },
            marks := { start_ := ⟨1, 1⟩ }, thread_paths_ := [[], [], [], []],
            escape_path_index_ := -1, pos := 0 }).run (fun n => n) [1, 1, 1]).obj.maze.in_array
          2 1 :=
  hunt_reads_inside_array .breadth_first_search (fun n => n)
    { builder_ := .arena, modification_ := .none, solver_ := .breadth_first_search,
      game_ := .hunt,
      maze := { maze_row_size_ := 7, maze_col_size_ := 7,
                maze_ := fun r c => if r = 1 ∧ 1 ≤ c ∧ c ≤ 3 then
                  { path_bit := true, finish_bit := decide (c = 3) } else {} },
      marks := { start_ := ⟨1, 1⟩ }, thread_paths_ := [[], [], [], []],
      escape_path_index_ := -1, pos := 0 }
    [1, 1, 1] 1
    ((((solve_begin .breadth_first_search (fun n => n)
      { builder_ := .arena, modification_ := .none, solver_ := .breadth_first_search,
        game_ := .hunt,
        maze := { maze_row_size_ := 7, maze_col_size_ := 7,
                  maze_ := fun r c => if r = 1 ∧ 1 ≤ c ∧ c ≤ 3 then
                    { path_bit := true, finish_bit := decide (c = 3) } else {} },
        marks := { start_ := ⟨1, 1⟩ }, thread_paths_ := [[], [], [], []],
        escape_path_index_ := -1, pos := 0 }).run (fun n => n) [1, 1, 1]).threads.get? 1).get
      (by decide!))
    ⟨2, 1⟩ (by decide)
    (fun row col h => by
      unfold Maze.on_ring Maze.in_array at h
      unfold Maze.path
      simp only [] at h ⊢
      rw [if_neg]
      omega)
    (by decide!) (Option.some_get _).symm (by decide!)

/-! ## The depth first builder carves the lattice through its start only -/

theorem dfs_iteration_only (gen : Nat → Nat) (s : Dfs_state) (st : List Point)
    (V E : Finset Point) (h : Dfs_inv s st V E)
    (ho : ∀ p : Point, s.maze.path p.row p.col = true →
      s.maze.cell_of s.start_ p ∨ s.maze.is_joint s.start_ p) :
    ∀ p : Point, (dfs_iteration gen s).maze.path p.row p.col = true →
      (dfs_iteration gen s).maze.cell_of (dfs_iteration gen s).start_ p
        ∨ (dfs_iteration gen s).maze.is_joint (dfs_iteration gen s).start_ p := by
  have hR := dfs_iteration_rows gen s
  have hC := dfs_iteration_cols gen s
  intro p hp
  rw [dfs_iteration_start, cell_of_sizes hR hC, is_joint_sizes hR hC]
  have hcur : s.maze.cell_of s.start_ s.cur := by
    have hmem : s.cur ∈ st := by
      have := h.top
      cases st with
      | nil => simp at this
      | cons x xs =>
        simp only [List.head?_cons, Option.some.injEq] at this
        rw [this]
        exact List.mem_cons_self _ _
    exact h.web.cells _ (h.sub _ hmem)
  unfold dfs_iteration at hp
  split at hp
  · rename_i d hd
    obtain ⟨hdir, hnext, _⟩ := find_unbuilt_some _ _ _ _ (fun i hi => shuffle_lt _ i hi) hd
    have hcn := cell_of_step s.maze s.start_ s.cur d hcur hdir hnext
    have hj := is_joint_midpoint s.maze s.start_ s.cur d hcur hdir hcn
    rw [← wall_between_midpoint s.cur d hdir] at hj
    unfold Maze.path at hp
    simp only [carve_path_markings_path_bit, Bool.or_eq_true, decide_eq_true_eq] at hp
    rcases hp with ((hp | hp) | hp) | hp
    · exact ho p hp
    · have e : p = s.cur := by
        cases p; cases hc : s.cur; rw [hc] at hp; simp only [] at hp; rw [hp.1, hp.2]
      rw [e]; exact Or.inl hcur
    · have e : p = s.cur.step d := by
        cases p; cases hc : s.cur.step d; rw [hc] at hp; simp only [] at hp; rw [hp.1, hp.2]
      rw [e]; exact Or.inl hcn
    · have e : p = wall_between s.cur (s.cur.step d) := by
        cases p; cases hc : wall_between s.cur (s.cur.step d)
        rw [hc] at hp; simp only [] at hp; rw [hp.1, hp.2]
      rw [e]; exact Or.inr hj
  · split_ifs at hp
    · unfold Maze.path at hp
      simp only [clear_markers_path_bit] at hp
      exact ho p hp
    · exact ho p hp

theorem dfs_loop_only (gen : Nat → Nat) (fuel : Nat) (s : Dfs_state) (st : List Point)
    (V E : Finset Point) (hs : Dfs_safe s) (h : Dfs_inv s st V E)
    (hr : 7 ≤ s.maze.maze_row_size_)
    (ho : ∀ p : Point, s.maze.path p.row p.col = true →
      s.maze.cell_of s.start_ p ∨ s.maze.is_joint s.start_ p) :
    ∀ p : Point, (dfs_loop gen fuel s).maze.path p.row p.col = true →
      (dfs_loop gen fuel s).maze.cell_of (dfs_loop gen fuel s).start_ p
        ∨ (dfs_loop gen fuel s).maze.is_joint (dfs_loop gen fuel s).start_ p := by
  induction fuel generalizing s st V E with
  | zero => exact ho
  | succ n ih =>
    unfold dfs_loop
    rw [if_pos h.running]
    have hsafe := (dfs_iteration_keeps (carve_stable_sized s.maze.maze_row_size_
      s.maze.maze_col_size_) gen s hs ⟨rfl, rfl⟩).1
    have ho1 := dfs_iteration_only gen s st V E h ho
    rcases dfs_iteration_inv gen s st V E hs h hr with hdone | ⟨st', V', E', hinv, _⟩
    · obtain ⟨hbr, _⟩ := hdone
      have : dfs_loop gen n (dfs_iteration gen s) = dfs_iteration gen s := by
        cases n with
        | zero => rfl
        | succ k => unfold dfs_loop; rw [hbr]; rfl
      rw [this]
      exact ho1
    · exact ih _ st' V' E' hsafe hinv (by rw [dfs_iteration_rows]; exact hr) ho1

theorem dfs_loop_start (gen : Nat → Nat) (fuel : Nat) (s : Dfs_state) :
    (dfs_loop gen fuel s).start_ = s.start_ := by
  induction fuel generalizing s with
  | zero => rfl
  | succ n ih =>
    unfold dfs_loop
    split_ifs
    · rw [ih, dfs_iteration_start]
    · rfl

/-- C40: for at least 7 rows and columns (odd or not) and every random source,
with `s` the start that `generate_randomized_dfs_maze` draws on the all-walls
grid, a cell strictly inside the perimeter of either parity in its row and in
its column: the builder returns within `2 * rows * cols` loop iterations with
the walk back at `s`; the cells `s + (2i, 2j)` strictly inside the perimeter all
carry the passage flag, and every cell that carries it is one of them or a joint
between two of them; the carved joints form a tree that connects all of those
cells, with one carved joint less than cells. Every cell strictly inside the
perimeter is the start for some random source. -/
theorem dfs_carves_lattice_tree (gen : Nat → Nat) (rows cols : Int) (pos fuel : Nat) (s : Point)
    (hr : 7 ≤ rows) (hc : 7 ≤ cols)
    (hs : (dfs_init gen (all_walls rows cols) pos).start_ = s)
    (hfuel : 2 * (rows.toNat * cols.toNat) ≤ fuel) :
    (all_walls rows cols).within_perimeter s.row s.col
      ∧ (generate_randomized_dfs_maze gen fuel (all_walls rows cols) pos).branches_remain = false
      ∧ (generate_randomized_dfs_maze gen fuel (all_walls rows cols) pos).cur = s
      ∧ (∀ p : Point,
          (generate_randomized_dfs_maze gen fuel (all_walls rows cols) pos).maze.cell_of s p →
          (generate_randomized_dfs_maze gen fuel (all_walls rows cols) pos).maze.path p.row p.col
            = true)
      ∧ (∀ p : Point,
          (generate_randomized_dfs_maze gen fuel (all_walls rows cols) pos).maze.path p.row p.col
            = true →
          (generate_randomized_dfs_maze gen fuel (all_walls rows cols) pos).maze.cell_of s p
            ∨ (generate_randomized_dfs_maze gen fuel (all_walls rows cols) pos).maze.is_joint s p)
      ∧ (generate_randomized_dfs_maze gen fuel (all_walls rows cols) pos).maze.spanning_tree s
      ∧ ∀ t : Point, (all_walls rows cols).within_perimeter t.row t.col →
          ∃ draws : Nat → Nat, (dfs_init draws (all_walls rows cols) pos).start_ = t := by
  obtain ⟨e1, e2, hp, _⟩ := all_walls_basic rows cols
  have hsafe := (dfs_init_keeps (carve_stable_sized rows cols) gen (all_walls rows cols) pos
    (by omega) (by omega) (fun r c => (hp r c).2) ⟨e1, e2⟩).1
  have hinv := dfs_init_inv gen (all_walls rows cols) pos (by omega) (by omega)
    (all_walls_builder_bit rows cols) (fun r c => (hp r c).1)
  have hR : (dfs_init gen (all_walls rows cols) pos).maze.maze_row_size_ = rows := by
    unfold dfs_init; simpa using e1
  have hC : (dfs_init gen (all_walls rows cols) pos).maze.maze_col_size_ = cols := by
    unfold dfs_init; simpa using e2
  have hstart : (generate_randomized_dfs_maze gen fuel (all_walls rows cols) pos).start_ = s := by
    unfold generate_randomized_dfs_maze
    rw [dfs_loop_start, hs]
  have hdone : Dfs_done (generate_randomized_dfs_maze gen fuel (all_walls rows cols) pos) := by
    unfold generate_randomized_dfs_maze
    refine dfs_loop_done gen fuel _ _ _ _ hsafe hinv (by rw [hR]; exact hr) ?_
    rw [hR, hC]
    simp only [List.length_singleton]
    have : 1 ≤ rows.toNat * cols.toNat := by
      have a : 7 ≤ rows.toNat := by omega
      have b : 7 ≤ cols.toNat := by omega
      nlinarith
    rw [Finset.card_singleton]
    omega
  have honly := dfs_loop_only gen fuel _ _ _ _ hsafe hinv (by rw [hR]; exact hr)
    (fun p h => by
      have hpath : (dfs_init gen (all_walls rows cols) pos).maze.path p.row p.col = false := by
        unfold dfs_init Maze.path
        simp only [clear_markers_path_bit]
        exact (hp p.row p.col).1
      rw [hpath] at h
      exact Bool.noConfusion h)
  obtain ⟨d1, d2, d3, d4⟩ := hdone
  rw [hstart] at d2 d3 d4
  refine ⟨?_, d1, d2, d4, ?_, d3, ?_⟩
  · have hw := hsafe.2.1
    rw [hs] at hw
    exact (within_perimeter_sizes (hR.trans e1.symm) (hC.trans e2.symm) _ _).1 hw
  · intro p h
    have := honly p h
    unfold generate_randomized_dfs_maze at hstart
    rw [hstart] at this
    exact this
  · intro t ht
    unfold Maze.within_perimeter at ht
    rw [e1, e2] at ht
    obtain ⟨raw1, k1⟩ := uniform_int_onto 1 (rows - 2) t.row (by omega) (by omega)
    obtain ⟨raw2, k2⟩ := uniform_int_onto 1 (cols - 2) t.col (by omega) (by omega)
    refine ⟨fun n => if n = pos then raw1 else raw2, ?_⟩
    unfold dfs_init
    simp only [e1, e2, if_true, Nat.succ_ne_self, if_false, k1, k2]

theorem dfs_carves_lattice_tree_witness :
    (all_walls 7 7).within_perimeter 2 2
      ∧ (generate_randomized_dfs_maze (fun _ => 1) 98 (all_walls 7 7) 0).branches_remain = false
      ∧ (generate_randomized_dfs_maze (fun _ => 1) 98 (all_walls 7 7) 0).cur = ⟨2, 2⟩
      ∧ (∀ p : Point,
          (generate_randomized_dfs_maze (fun _ => 1) 98 (all_walls 7 7) 0).maze.cell_of
            ⟨2, 2⟩ p →
          (generate_randomized_dfs_maze (fun _ => 1) 98 (all_walls 7 7) 0).maze.path p.row p.col
            = true)
      ∧ (∀ p : Point,
          (generate_randomized_dfs_maze (fun _ => 1) 98 (all_walls 7 7) 0).maze.path p.row p.col
            = true →
          (generate_randomized_dfs_maze (fun _ => 1) 98 (all_walls 7 7) 0).maze.cell_of
              ⟨2, 2⟩ p
            ∨ (generate_randomized_dfs_maze (fun _ => 1) 98 (all_walls 7 7) 0).maze.is_joint
              ⟨2, 2⟩ p)
      ∧ (generate_randomized_dfs_maze (fun _ => 1) 98 (all_walls 7 7) 0).maze.spanning_tree
          ⟨2, 2⟩
      ∧ ∀ t : Point, (all_walls 7 7).within_perimeter t.row t.col →
          ∃ draws : Nat → Nat, (dfs_init draws (all_walls 7 7) 0).start_ = t :=
  dfs_carves_lattice_tree (fun _ => 1) 7 7 0 98 ⟨2, 2⟩ (by decide) (by decide) (by decide!)
    (by decide)

/-! ## Row and column counts: the range of `int` -/

/-- C16 (as stated) fails: the row count 4294967296 is an integer whose rounded
value 4294967297 is not below 7, yet the call stores nothing and does not
return: `std::stoi` throws `std::out_of_range`, which is not caught. -/
theorem set_relevant_arg_range_counterexample :
    ¬ ((4294967296 : Int) + 1 < 7)
      ∧ set_relevant_arg ⟨31, 111⟩ .rows 4294967296 = .out_of_range := by
  decide

/-- C16 (as amended): for every integer `n` in the range of `int`, supplied as
the row or the column count, `set_relevant_arg` ends by returning or by
`std::abort` with `n` stored when it is odd and `n + 1` when it is even; it
aborts if and only if that value is below 7, so that an extent it returns with
is odd and at least 7. For an integer `big` outside the range of `int` the call
ends by the exception of `std::stoi` and nothing is stored. -/
theorem set_relevant_arg_extent (maze_args : Maze_args) (flag : Extent_flag) (n big : Int)
    (hn : INT_MIN ≤ n ∧ n ≤ INT_MAX) (hbig : big < INT_MIN ∨ INT_MAX < big) :
    (∃ a, (set_relevant_arg maze_args flag n = .returned a
          ∨ set_relevant_arg maze_args flag n = .aborted a)
        ∧ a.extent flag = (if n % 2 = 0 then n + 1 else n)
        ∧ (set_relevant_arg maze_args flag n = .aborted a ↔ a.extent flag < 7)
        ∧ (set_relevant_arg maze_args flag n = .returned a →
            a.extent flag % 2 = 1 ∧ 7 ≤ a.extent flag ∧ a.extent flag ≤ INT_MAX))
      ∧ set_relevant_arg maze_args flag big = .out_of_range := by
  have h1 : stoi n = some n := by unfold stoi; rw [if_pos hn]
  have h2 : stoi big = none := by
    unfold stoi
    rw [if_neg]
    omega
  have hmax : INT_MAX = 2147483647 := rfl
  constructor
  · cases flag <;> unfold set_relevant_arg Maze_args.extent <;> simp only [h1] <;>
      by_cases he : n % 2 = 0 <;> simp only [he, if_true, if_false] <;>
      split_ifs with h7 <;>
      refine ⟨_, by first | exact Or.inl rfl | exact Or.inr rfl, rfl, ?_, ?_⟩ <;>
      simp only [reduceCtorEq, false_iff, true_iff, not_lt, false_implies, true_implies,
        forall_true_left, IsEmpty.forall_iff] <;>
      omega
  · cases flag <;> unfold set_relevant_arg <;> simp only [h2]

theorem set_relevant_arg_extent_witness :
    (∃ a, (set_relevant_arg ⟨31, 111⟩ .cols 8 = .returned a
          ∨ set_relevant_arg ⟨31, 111⟩ .cols 8 = .aborted a)
        ∧ a.extent .cols = (if (8 : Int) % 2 = 0 then 8 + 1 else 8)
        ∧ (set_relevant_arg ⟨31, 111⟩ .cols 8 = .aborted a ↔ a.extent .cols < 7)
        ∧ (set_relevant_arg ⟨31, 111⟩ .cols 8 = .returned a →
            a.extent .cols % 2 = 1 ∧ 7 ≤ a.extent .cols ∧ a.extent .cols ≤ INT_MAX))
      ∧ set_relevant_arg ⟨31, 111⟩ .cols (-2147483649) = .out_of_range :=
  set_relevant_arg_extent ⟨31, 111⟩ .cols 8 (-2147483649) (by decide) (by decide)

/-! ## Wall flags of adjacent cells in a built grid -/

/-- C1 (as amended): in every grid a builder produces from the all-walls grid,
for cells A = (r, c) and B = its neighbour on `side`, both in the array: A's
wall flag facing B is cleared whenever B carries the passage flag; when both
carry the passage flag, A's flag facing B and B's flag facing A are both
cleared; when neither carries it, both are set; so when A and B agree on the
passage flag, A's flag facing B is cleared if and only if B's flag facing A is
cleared. -/
theorem wall_flags_agree_on_equal_passage (algorithm : Builder_algorithm) (gen : Nat → Nat)
    (fuel : Nat) (rows cols : Int) (hr : 7 ≤ rows) (hc : 7 ≤ cols) (r c : Int) (side : Side)
    (hA : 0 ≤ r ∧ r < rows ∧ 0 ≤ c ∧ c < cols)
    (hB : 0 ≤ r + side.row ∧ r + side.row < rows ∧ 0 ≤ c + side.col ∧ c + side.col < cols) :
    ((built_grid algorithm gen fuel rows cols).path (r + side.row) (c + side.col) = true →
        (built_grid algorithm gen fuel rows cols).wall r c side = false)
      ∧ ((built_grid algorithm gen fuel rows cols).path r c = true →
        (built_grid algorithm gen fuel rows cols).path (r + side.row) (c + side.col) = true →
        (built_grid algorithm gen fuel rows cols).wall r c side = false
          ∧ (built_grid algorithm gen fuel rows cols).wall (r + side.row) (c + side.col)
              side.opposite = false)
      ∧ ((built_grid algorithm gen fuel rows cols).path r c = false →
        (built_grid algorithm gen fuel rows cols).path (r + side.row) (c + side.col) = false →
        (built_grid algorithm gen fuel rows cols).wall r c side = true
          ∧ (built_grid algorithm gen fuel rows cols).wall (r + side.row) (c + side.col)
              side.opposite = true)
      ∧ ((built_grid algorithm gen fuel rows cols).path r c
          = (built_grid algorithm gen fuel rows cols).path (r + side.row) (c + side.col) →
        ((built_grid algorithm gen fuel rows cols).wall r c side = false
          ↔ (built_grid algorithm gen fuel rows cols).wall (r + side.row) (c + side.col)
              side.opposite = false)) := by
  obtain ⟨⟨e1, e2⟩, _, hw⟩ := built_grid_inv algorithm gen fuel rows cols hr hc
  generalize built_grid algorithm gen fuel rows cols = g at *
  have inA : g.in_array r c := by unfold Maze.in_array; rw [e1, e2]; exact hA
  have inB : g.in_array (r + side.row) (c + side.col) := by
    unfold Maze.in_array; rw [e1, e2]; exact hB
  have back_r : r + side.row + side.opposite.row = r := by rw [side_opposite_row]; omega
  have back_c : c + side.col + side.opposite.col = c := by rw [side_opposite_col]; omega
  have wA := hw r c side inA
  have wB := hw (r + side.row) (c + side.col) side.opposite inB
  rw [back_r, back_c] at wB
  have clearA : g.path (r + side.row) (c + side.col) = true → g.wall r c side = false := by
    intro hp
    by_contra hne
    have hne' : g.wall r c side = true := by simpa using hne
    have := (wA.1 hne').2
    rw [hp] at this
    exact absurd this (by simp)
  have clearB : g.path r c = true →
      g.wall (r + side.row) (c + side.col) side.opposite = false := by
    intro hp
    by_contra hne
    have hne' : g.wall (r + side.row) (c + side.col) side.opposite = true := by
      simpa using hne
    have := (wB.1 hne').2
    rw [hp] at this
    exact absurd this (by simp)
  refine ⟨clearA, fun hpa hpb => ⟨clearA hpb, clearB hpa⟩,
    fun hpa hpb => ⟨wA.2 hpa inB hpb, wB.2 hpb inA hpa⟩, ?_⟩
  intro heq
  cases hpa : g.path r c with
  | false =>
    have hpb : g.path (r + side.row) (c + side.col) = false := by rw [← heq]; exact hpa
    rw [wA.2 hpa inB hpb, wB.2 hpb inA hpa]
  | true =>
    have hpb : g.path (r + side.row) (c + side.col) = true := by rw [← heq]; exact hpa
    rw [clearA hpb, clearB hpa]

/-- Witness of `wall_flags_agree_on_equal_passage` in the depth first maze grown
from (1, 1) on the 7 x 7 grid: the wall cell (0, 1) has lost its flag toward the
passage (1, 1) below it; the passages (1, 1) and (2, 1) have no flag toward each
other; the wall cells (0, 0) and (0, 1) both have theirs. -/
theorem wall_flags_agree_on_equal_passage_witness :
    (built_grid .randomized_depth_first (fun n => 3 * n * n + 7 * n + 10) 98 7 7).wall 0 1 .south
        = false
      ∧ ((built_grid .randomized_depth_first (fun n => 3 * n * n + 7 * n + 10) 98 7 7).wall 1 1
            .south = false
        ∧ (built_grid .randomized_depth_first (fun n => 3 * n * n + 7 * n + 10) 98 7 7).wall
            (1 + Side.south.row) (1 + Side.south.col) Side.south.opposite = false)
      ∧ ((built_grid .randomized_depth_first (fun n => 3 * n * n + 7 * n + 10) 98 7 7).wall 0 0
            .east = true
        ∧ (built_grid .randomized_depth_first (fun n => 3 * n * n + 7 * n + 10) 98 7 7).wall
            (0 + Side.east.row) (0 + Side.east.col) Side.east.opposite = true)
      ∧ ((built_grid .randomized_depth_first (fun n => 3 * n * n + 7 * n + 10) 98 7 7).wall 1 1
            .south = false
        ↔ (built_grid .randomized_depth_first (fun n => 3 * n * n + 7 * n + 10) 98 7 7).wall
            (1 + Side.south.row) (1 + Side.south.col) Side.south.opposite = false) :=
  ⟨(wall_flags_agree_on_equal_passage .randomized_depth_first (fun n => 3 * n * n + 7 * n + 10)
      98 7 7 (by decide) (by decide) 0 1 .south (by decide) (by decide)).1 (by decide!),
    (wall_flags_agree_on_equal_passage .randomized_depth_first (fun n => 3 * n * n + 7 * n + 10)
      98 7 7 (by decide) (by decide) 1 1 .south (by decide) (by decide)).2.1 (by decide!)
      (by decide!),
    (wall_flags_agree_on_equal_passage .randomized_depth_first (fun n => 3 * n * n + 7 * n + 10)
      98 7 7 (by decide) (by decide) 0 0 .east (by decide) (by decide)).2.2.1 (by decide!)
      (by decide!),
    (wall_flags_agree_on_equal_passage .randomized_depth_first (fun n => 3 * n * n + 7 * n + 10)
      98 7 7 (by decide) (by decide) 1 1 .south (by decide) (by decide)).2.2.2 (by decide!)⟩

/-! ## The calls of `join_squares` -/

/-- The grid that `complete_run` returns is the grid after the last of its calls
of `join_squares`, with the builder bit set on the cell joined. -/
theorem complete_run_joins_result (direction : Point) :
    ∀ (left : Nat) (m : Maze) (dfs : List Point) (cur next : Point),
      (complete_run direction left m dfs cur next).1
        = (complete_run_joins direction left m cur next).foldl
            (fun _ call =>
              set_builder (join_squares call.1 call.2.1 call.2.2) call.2.2.row call.2.2.col) m := by
  intro left
  induction left with
  | zero => intro m dfs cur next; rfl
  | succ left ih =>
    intro m dfs cur next
    unfold complete_run complete_run_joins
    split_ifs
    · simp only [List.foldl_cons]
      exact ih _ _ _ _
    · rfl

/-- Every call of `join_squares` in a run that starts on a carved cell is made
on a carved `cur`, toward the cell two steps ahead, and leaves the passage flag
on `cur`, on `next` and on the joint between them. -/
theorem complete_run_joins_carved (direction : Point) (hd : direction ∈ generate_directions_) :
    ∀ (left : Nat) (m : Maze) (cur : Point), m.path cur.row cur.col = true →
      ∀ call ∈ complete_run_joins direction left m cur (cur.step direction),
        call.2.2 = call.2.1.step direction
          ∧ call.1.path call.2.1.row call.2.1.col = true
          ∧ (join_squares call.1 call.2.1 call.2.2).path call.2.1.row call.2.1.col = true
          ∧ (join_squares call.1 call.2.1 call.2.2).path call.2.2.row call.2.2.col = true
          ∧ (join_squares call.1 call.2.1 call.2.2).path
              (midpoint call.2.1 call.2.2).row (midpoint call.2.1 call.2.2).col = true := by
  intro left
  induction left with
  | zero =>
    intro m cur _ call hcall
    exact absurd hcall (List.not_mem_nil _)
  | succ left ih =>
    intro m cur hcur call hcall
    unfold complete_run_joins at hcall
    split_ifs at hcall
    · rcases List.mem_cons.1 hcall with rfl | hrest
      · simp only []
        rw [← wall_between_midpoint cur direction hd]
        unfold Maze.path at hcur ⊢
        simp only [join_squares_path_bit, set_builder_path_bit, hcur, Bool.true_or,
          decide_True, and_self, Bool.or_true]
      · refine ih _ _ ?_ call hrest
        unfold Maze.path
        simp only [join_squares_path_bit, set_builder_path_bit, and_self, decide_True,
          Bool.or_true]
    · exact absurd hcall (List.not_mem_nil _)

/-- C4: for cells `a` and `b = a + d` two steps apart in a cardinal direction,
`carve_path_markings` and `build_with_marks` leave the passage flag set on `a`,
on `b` and on the joint between them, whatever the grid, and so does
`join_squares` on a grid where `a` carries the passage flag. The one caller of
`join_squares` is the run of `generate_randomized_grid`, which starts on the top
`a` of the stack right after `build_path` on it: every call
`join_squares(cur, next)` of such a run is made on a `cur` that carries the
passage flag, toward `next = cur + d`, and leaves the flag set on `cur`, on
`next` and on the joint between them. The grid the run returns is the grid
after the last of these calls. -/
theorem carving_sets_passage (m : Maze) (a d : Point) (h : d ∈ generate_directions_) :
    ((carve_path_markings m a (a.step d)).path a.row a.col = true
      ∧ (carve_path_markings m a (a.step d)).path (a.step d).row (a.step d).col = true
      ∧ (carve_path_markings m a (a.step d)).path (midpoint a (a.step d)).row
          (midpoint a (a.step d)).col = true)
    ∧ ((build_with_marks m a (a.step d)).path a.row a.col = true
      ∧ (build_with_marks m a (a.step d)).path (a.step d).row (a.step d).col = true
      ∧ (build_with_marks m a (a.step d)).path (midpoint a (a.step d)).row
          (midpoint a (a.step d)).col = true)
    ∧ (m.path a.row a.col = true →
        (join_squares m a (a.step d)).path a.row a.col = true
          ∧ (join_squares m a (a.step d)).path (a.step d).row (a.step d).col = true
          ∧ (join_squares m a (a.step d)).path (midpoint a (a.step d)).row
              (midpoint a (a.step d)).col = true)
    ∧ (∀ call ∈ complete_run_joins d run_limit
          (set_builder (build_path m a.row a.col) a.row a.col) a (a.step d),
        call.2.2 = call.2.1.step d
          ∧ call.1.path call.2.1.row call.2.1.col = true
          ∧ (join_squares call.1 call.2.1 call.2.2).path call.2.1.row call.2.1.col = true
          ∧ (join_squares call.1 call.2.1 call.2.2).path call.2.2.row call.2.2.col = true
          ∧ (join_squares call.1 call.2.1 call.2.2).path
              (midpoint call.2.1 call.2.2).row (midpoint call.2.1 call.2.2).col = true)
    ∧ ∀ dfs : List Point,
        (complete_run d run_limit (set_builder (build_path m a.row a.col) a.row a.col) dfs a
            (a.step d)).1
          = (complete_run_joins d run_limit
              (set_builder (build_path m a.row a.col) a.row a.col) a (a.step d)).foldl
              (fun _ call =>
                set_builder (join_squares call.1 call.2.1 call.2.2) call.2.2.row call.2.2.col)
              (set_builder (build_path m a.row a.col) a.row a.col) := by
  refine ⟨?_, ?_, ?_, ?_, fun dfs => complete_run_joins_result d _ _ _ _ _⟩
  · rw [← wall_between_midpoint a d h]
    unfold Maze.path
    simp only [carve_path_markings_path_bit]
    exact ⟨by simp, by simp, by simp⟩
  · rw [← wall_between_midpoint a d h]
    unfold Maze.path
    simp only [build_with_marks_path_bit]
    exact ⟨by simp, by simp, by simp⟩
  · intro ha
    rw [← wall_between_midpoint a d h]
    unfold Maze.path at ha ⊢
    simp only [join_squares_path_bit, ha]
    exact ⟨by simp, by simp, by simp⟩
  · refine complete_run_joins_carved d h run_limit _ a ?_
    unfold Maze.path
    simp only [set_builder_path_bit, build_path_path_bit, and_self, decide_True, Bool.or_true]

/-- Witness of `carving_sets_passage`: carving from the carved cell (1, 1)
eastward on the 7 x 7 grid; the run makes two calls of `join_squares`. -/
theorem carving_sets_passage_witness :
    ((carve_path_markings (build_path (all_walls 7 7) 1 1) ⟨1, 1⟩ ⟨1, 3⟩).path 1 1 = true
      ∧ (carve_path_markings (build_path (all_walls 7 7) 1 1) ⟨1, 1⟩ ⟨1, 3⟩).path 1 3 = true
      ∧ (carve_path_markings (build_path (all_walls 7 7) 1 1) ⟨1, 1⟩ ⟨1, 3⟩).path 1 2 = true)
    ∧ ((build_with_marks (build_path (all_walls 7 7) 1 1) ⟨1, 1⟩ ⟨1, 3⟩).path 1 1 = true
      ∧ (build_with_marks (build_path (all_walls 7 7) 1 1) ⟨1, 1⟩ ⟨1, 3⟩).path 1 3 = true
      ∧ (build_with_marks (build_path (all_walls 7 7) 1 1) ⟨1, 1⟩ ⟨1, 3⟩).path 1 2 = true)
    ∧ ((join_squares (build_path (all_walls 7 7) 1 1) ⟨1, 1⟩ ⟨1, 3⟩).path 1 1 = true
      ∧ (join_squares (build_path (all_walls 7 7) 1 1) ⟨1, 1⟩ ⟨1, 3⟩).path 1 3 = true
      ∧ (join_squares (build_path (all_walls 7 7) 1 1) ⟨1, 1⟩ ⟨1, 3⟩).path 1 2 = true)
    ∧ (complete_run_joins ⟨0, 2⟩ run_limit
          (set_builder (build_path (build_path (all_walls 7 7) 1 1) 1 1) 1 1) ⟨1, 1⟩
          ⟨1, 3⟩).length = 2
    ∧ ∀ call ∈ complete_run_joins ⟨0, 2⟩ run_limit
          (set_builder (build_path (build_path (all_walls 7 7) 1 1) 1 1) 1 1) ⟨1, 1⟩ ⟨1, 3⟩,
        call.2.2 = call.2.1.step ⟨0, 2⟩
          ∧ call.1.path call.2.1.row call.2.1.col = true
          ∧ (join_squares call.1 call.2.1 call.2.2).path call.2.1.row call.2.1.col = true
          ∧ (join_squares call.1 call.2.1 call.2.2).path call.2.2.row call.2.2.col = true
          ∧ (join_squares call.1 call.2.1 call.2.2).path
              (midpoint call.2.1 call.2.2).row (midpoint call.2.1 call.2.2).col = true :=
  ⟨(carving_sets_passage (build_path (all_walls 7 7) 1 1) ⟨1, 1⟩ ⟨0, 2⟩ (by decide)).1,
    (carving_sets_passage (build_path (all_walls 7 7) 1 1) ⟨1, 1⟩ ⟨0, 2⟩ (by decide)).2.1,
    (carving_sets_passage (build_path (all_walls 7 7) 1 1) ⟨1, 1⟩ ⟨0, 2⟩ (by decide)).2.2.1
      (by decide),
    by decide!,
    (carving_sets_passage (build_path (all_walls 7 7) 1 1) ⟨1, 1⟩ ⟨0, 2⟩ (by decide)).2.2.2.1⟩

/-! ## Race from the corners: the starts and the goal -/

/-- Every grid that construction hands to placement has a closed ring: the cell
loop of the constructor followed by any number of loop iterations of any
builder, with any modification and any draws. -/
theorem built_ring_closed (builder_ : Builder_algorithm) (modification_ : Maze_modification)
    (rows cols : Int) (gen : Nat → Nat) (fuel : Nat) (hr : 7 ≤ rows) (hc : 7 ≤ cols) :
    Perimeter_closed
      (run_builder builder_ modification_ gen fuel
        (construct_walls builder_ modification_ rows cols) 0).1 := by
  obtain ⟨e1, e2, hp, hz⟩ := construct_walls_inv builder_ modification_ rows cols hr hc
  exact (run_builder_keeps
    (carve_stable_and (carve_stable_sized rows cols) carve_stable_perimeter_closed)
    builder_ modification_ gen fuel _ 0 (by rw [e1]; exact hr) (by rw [e2]; exact hc) hz
    ⟨⟨e1, e2⟩, hp⟩).2

theorem add_modification_start_finish (modification_ : Maze_modification) (m : Maze)
    (row col r c : Int) :
    ((add_modification modification_ m row col).maze_ r c).start_bit = (m.maze_ r c).start_bit
      ∧ ((add_modification modification_ m row col).maze_ r c).finish_bit
        = (m.maze_ r c).finish_bit := by
  unfold add_modification
  cases modification_ with
  | none => exact ⟨rfl, rfl⟩
  | add_cross =>
    simp only []
    split_ifs <;> simp only [build_path_start_bit, build_path_finish_bit, and_self]

/-- The cell loop of the constructor sets no start and no finish flag. -/
theorem construct_walls_no_flags (builder_ : Builder_algorithm)
    (modification_ : Maze_modification) (rows cols : Int) :
    ∀ r c, ((construct_walls builder_ modification_ rows cols).maze_ r c).start_bit = false
      ∧ ((construct_walls builder_ modification_ rows cols).maze_ r c).finish_bit = false := by
  unfold construct_walls
  apply for_cells_induction (fun m => ∀ r c, (m.maze_ r c).start_bit = false
    ∧ (m.maze_ r c).finish_bit = false)
  · intro r c; exact ⟨rfl, rfl⟩
  · intro m r c _ _ _ _ hm r' c'
    simp only []
    split_ifs
    · rw [(add_modification_start_finish _ _ _ _ _ _).1,
        (add_modification_start_finish _ _ _ _ _ _).2,
        (build_wall_start_finish m r c r' c').1, (build_wall_start_finish m r c r' c').2]
      exact hm r' c'
    · rw [(build_wall_start_finish m r c r' c').1, (build_wall_start_finish m r c r' c').2]
      exact hm r' c'

theorem clear_markers_finish_bit (m : Maze) (r c r' c' : Int) :
    ((clear_markers m r c).maze_ r' c').finish_bit = (m.maze_ r' c').finish_bit := by
  rw [clear_markers_get]; split_ifs <;> rfl

/-- The depth first builder sets no start and no finish flag. -/
theorem dfs_no_flags (gen : Nat → Nat) (fuel : Nat) (m : Maze) (pos : Nat)
    (h : ∀ r c, (m.maze_ r c).start_bit = false ∧ (m.maze_ r c).finish_bit = false) :
    ∀ r c, ((generate_randomized_dfs_maze gen fuel m pos).maze.maze_ r c).start_bit = false
      ∧ ((generate_randomized_dfs_maze gen fuel m pos).maze.maze_ r c).finish_bit = false := by
  have loop : ∀ (fuel : Nat) (s : Dfs_state),
      (∀ r c, (s.maze.maze_ r c).start_bit = false ∧ (s.maze.maze_ r c).finish_bit = false) →
      ∀ r c, ((dfs_loop gen fuel s).maze.maze_ r c).start_bit = false
        ∧ ((dfs_loop gen fuel s).maze.maze_ r c).finish_bit = false := by
    intro fuel
    induction fuel with
    | zero => intro s hs; exact hs
    | succ n ih =>
      intro s hs
      unfold dfs_loop
      split_ifs
      · apply ih
        intro r c
        unfold dfs_iteration
        split
        · simp only [carve_path_markings_start_bit, carve_path_markings_finish_bit]
          exact hs r c
        · split_ifs
          · simp only [clear_markers_start_bit, clear_markers_finish_bit]
            exact hs r c
          · exact hs r c
      · exact hs
  unfold generate_randomized_dfs_maze
  apply loop
  intro r c
  unfold dfs_init
  simp only [clear_markers_start_bit, clear_markers_finish_bit]
  exact h r c

/-- C13: in the corners game, on a grid of at least 7 rows and 7 columns whose
four corner rooms are passable and which carries no start or finish flag,
`place_start_finish` returns, the start flag is on exactly the four corner
rooms, `corner_starts_` holds them in the order top left, top right, bottom
left, bottom right, and the finish flag is on exactly the centre cell
`(rows / 2, cols / 2)`, stored in `finish_`. This is for the grids whose ring
cell `(rows - 2, 0)`, the first cell that the scan from the bottom left reads,
is no passage; the grids that construction hands to placement are among them,
since no cell of their ring is a passage, whatever the builder, the
modification, the draws and the number of loop iterations. -/
theorem corners_placement (gen : Nat → Nat) (m : Maze) (marks : Marks) (pos : Nat)
    (hr : 7 ≤ m.maze_row_size_) (hc : 7 ≤ m.maze_col_size_)
    (hlen : marks.corner_starts_.length = 4)
    (h00 : (m.maze_ 1 1).path_bit = true)
    (h01 : (m.maze_ 1 (m.maze_col_size_ - 2)).path_bit = true)
    (h10 : (m.maze_ (m.maze_row_size_ - 2) 1).path_bit = true)
    (h11 : (m.maze_ (m.maze_row_size_ - 2) (m.maze_col_size_ - 2)).path_bit = true)
    (hring : (m.maze_ (m.maze_row_size_ - 2) 0).path_bit = false)
    (hblank : ∀ r c, (m.maze_ r c).start_bit = false ∧ (m.maze_ r c).finish_bit = false) :
    (∃ result, place_start_finish .corners gen m marks pos = some result
      ∧ (∀ r c, (result.1.maze_ r c).start_bit = true ↔
          (⟨r, c⟩ : Point) ∈ [(⟨1, 1⟩ : Point), ⟨1, m.maze_col_size_ - 2⟩,
            ⟨m.maze_row_size_ - 2, 1⟩, ⟨m.maze_row_size_ - 2, m.maze_col_size_ - 2⟩])
      ∧ result.2.1.corner_starts_ = [(⟨1, 1⟩ : Point), ⟨1, m.maze_col_size_ - 2⟩,
            ⟨m.maze_row_size_ - 2, 1⟩, ⟨m.maze_row_size_ - 2, m.maze_col_size_ - 2⟩]
      ∧ (∀ r c, (result.1.maze_ r c).finish_bit = true ↔
          (r = m.maze_row_size_ / 2 ∧ c = m.maze_col_size_ / 2))
      ∧ result.2.1.finish_ = ⟨m.maze_row_size_ / 2, m.maze_col_size_ / 2⟩)
    ∧ ∀ (builder_ : Builder_algorithm) (modification_ : Maze_modification) (rows cols : Int)
        (draws : Nat → Nat) (fuel : Nat), 7 ≤ rows → 7 ≤ cols →
        Perimeter_closed
          (run_builder builder_ modification_ draws fuel
            (construct_walls builder_ modification_ rows cols) 0).1 := by
  refine ⟨?_, fun builder_ modification_ rows cols draws fuel h1 h2 =>
    built_ring_closed builder_ modification_ rows cols draws fuel h1 h2⟩
  obtain ⟨t0, e0⟩ := corner_cells_0 m hr hc
  obtain ⟨t1, e1⟩ := corner_cells_1 m hr hc
  obtain ⟨t2, e2⟩ := corner_cells_2 m hr hc
  obtain ⟨t3, e3⟩ := corner_cells_3 m hr hc
  unfold place_start_finish
  rw [if_pos rfl]
  simp only [e0, e1, e2, e3]
  rw [scan_corner_head m marks 0 ⟨1, 1⟩ t0 h00]
  simp only []
  rw [scan_corner_head (set_start m 1 1) _ 1 ⟨1, m.maze_col_size_ - 2⟩ t1
    (by rw [set_start_path_bit]; exact h01)]
  simp only []
  rw [scan_corner_second (set_start (set_start m 1 1) 1 (m.maze_col_size_ - 2)) _ 2
    ⟨m.maze_row_size_ - 2, 0⟩ ⟨m.maze_row_size_ - 2, 1⟩ t2
    (by rw [set_start_path_bit, set_start_path_bit]; exact hring)
    (by rw [set_start_path_bit, set_start_path_bit]; exact h10)]
  simp only []
  rw [scan_corner_head
    (set_start (set_start (set_start m 1 1) 1 (m.maze_col_size_ - 2)) (m.maze_row_size_ - 2) 1)
    _ 3 ⟨m.maze_row_size_ - 2, m.maze_col_size_ - 2⟩ t3
    (by rw [set_start_path_bit, set_start_path_bit, set_start_path_bit]; exact h11)]
  simp only []
  refine ⟨_, rfl, ?_, ?_, ?_, rfl⟩
  · intro r c
    have hb := (hblank r c).1
    simp only [List.mem_cons, Point.mk.injEq, List.mem_singleton, List.not_mem_nil, or_false]
    rw [set_finish_start_bit, modify_get]
    have key : ((set_start (set_start (set_start (set_start m 1 1) 1 (m.maze_col_size_ - 2))
        (m.maze_row_size_ - 2) 1) (m.maze_row_size_ - 2) (m.maze_col_size_ - 2)).maze_ r c).start_bit
          = true ↔ (r = 1 ∧ c = 1 ∨ r = 1 ∧ c = m.maze_col_size_ - 2 ∨
            r = m.maze_row_size_ - 2 ∧ c = 1 ∨
            r = m.maze_row_size_ - 2 ∧ c = m.maze_col_size_ - 2) := by
      simp only [set_start_start_bit, hb, Bool.false_or, Bool.or_eq_true, decide_eq_true_eq,
        or_assoc]
    split_ifs <;> exact key
  · exact set_four _ _ _ _ _ hlen
  · intro r c
    have hb := (hblank r c).2
    show ((set_finish _ _ _).maze_ r c).finish_bit = true ↔ _
    rw [set_finish_finish_bit, modify_get]
    split_ifs with hcen
    · simp [hcen]
    · simp only [set_start_finish_bit, hb, Bool.false_or, decide_eq_true_eq]

/-- Witness of `corners_placement`: the 7 x 7 grid that the constructor builds
depth first from (1, 1). -/
theorem corners_placement_witness :
    ∃ result, place_start_finish .corners (fun n => 3 * n * n + 7 * n + 10)
        (run_builder .randomized_depth_first .none (fun n => 3 * n * n + 7 * n + 10) 98
          (construct_walls .randomized_depth_first .none 7 7) 0).1 {} 0 = some result
      ∧ (∀ r c, (result.1.maze_ r c).start_bit = true ↔
          (⟨r, c⟩ : Point) ∈ [(⟨1, 1⟩ : Point),
            ⟨1, (run_builder .randomized_depth_first .none (fun n => 3 * n * n + 7 * n + 10) 98
                (construct_walls .randomized_depth_first .none 7 7) 0).1.maze_col_size_ - 2⟩,
            ⟨(run_builder .randomized_depth_first .none (fun n => 3 * n * n + 7 * n + 10) 98
                (construct_walls .randomized_depth_first .none 7 7) 0).1.maze_row_size_ - 2, 1⟩,
            ⟨(run_builder .randomized_depth_first .none (fun n => 3 * n * n + 7 * n + 10) 98
                (construct_walls .randomized_depth_first .none 7 7) 0).1.maze_row_size_ - 2,
              (run_builder .randomized_depth_first .none (fun n => 3 * n * n + 7 * n + 10) 98
                (construct_walls .randomized_depth_first .none 7 7) 0).1.maze_col_size_ - 2⟩])
      ∧ result.2.1.corner_starts_ = [(⟨1, 1⟩ : Point),
            ⟨1, (run_builder .randomized_depth_first .none (fun n => 3 * n * n + 7 * n + 10) 98
                (construct_walls .randomized_depth_first .none 7 7) 0).1.maze_col_size_ - 2⟩,
            ⟨(run_builder .randomized_depth_first .none (fun n => 3 * n * n + 7 * n + 10) 98
                (construct_walls .randomized_depth_first .none 7 7) 0).1.maze_row_size_ - 2, 1⟩,
            ⟨(run_builder .randomized_depth_first .none (fun n => 3 * n * n + 7 * n + 10) 98
                (construct_walls .randomized_depth_first .none 7 7) 0).1.maze_row_size_ - 2,
              (run_builder .randomized_depth_first .none (fun n => 3 * n * n + 7 * n + 10) 98
                (construct_walls .randomized_depth_first .none 7 7) 0).1.maze_col_size_ - 2⟩]
      ∧ (∀ r c, (result.1.maze_ r c).finish_bit = true ↔
          (r = (run_builder .randomized_depth_first .none (fun n => 3 * n * n + 7 * n + 10) 98
                (construct_walls .randomized_depth_first .none 7 7) 0).1.maze_row_size_ / 2
            ∧ c = (run_builder .randomized_depth_first .none (fun n => 3 * n * n + 7 * n + 10) 98
                (construct_walls .randomized_depth_first .none 7 7) 0).1.maze_col_size_ / 2))
      ∧ result.2.1.finish_
          = ⟨(run_builder .randomized_depth_first .none (fun n => 3 * n * n + 7 * n + 10) 98
                (construct_walls .randomized_depth_first .none 7 7) 0).1.maze_row_size_ / 2,
              (run_builder .randomized_depth_first .none (fun n => 3 * n * n + 7 * n + 10) 98
                (construct_walls .randomized_depth_first .none 7 7) 0).1.maze_col_size_ / 2⟩ :=
  (corners_placement (fun n => 3 * n * n + 7 * n + 10)
    (run_builder .randomized_depth_first .none (fun n => 3 * n * n + 7 * n + 10) 98
      (construct_walls .randomized_depth_first .none 7 7) 0).1
    {} 0 (by decide!) (by decide!) (by decide) (by decide!) (by decide!) (by decide!)
    (by decide!) (by decide!)
    (dfs_no_flags _ _ _ _ (construct_walls_no_flags _ _ _ _))).1

/-! ## Race from the corners: an uncarved centre becomes the goal -/

/-- The corners branch of `place_start_finish` has no exit but its end: on every
grid it returns, with the passage flag and the finish flag on the centre cell
`(rows / 2, cols / 2)`, which it stores in `finish_`; a corner scan that finds
no passable cell leaves its slot of `corner_starts_` as it was. -/
theorem corners_branch_returns (gen : Nat → Nat) (m : Maze) (marks : Marks) (pos : Nat) :
    ∃ result, place_start_finish .corners gen m marks pos = some result
      ∧ (result.1.maze_ (m.maze_row_size_ / 2) (m.maze_col_size_ / 2)).finish_bit = true
      ∧ (result.1.maze_ (m.maze_row_size_ / 2) (m.maze_col_size_ / 2)).path_bit = true
      ∧ result.2.1.finish_ = ⟨m.maze_row_size_ / 2, m.maze_col_size_ / 2⟩
      ∧ ∀ index, (∀ p ∈ corner_cells m index, (m.maze_ p.row p.col).path_bit = false) →
          result.2.1.corner_starts_[index]? = marks.corner_starts_[index]? := by
  unfold place_start_finish
  rw [if_pos rfl]
  refine ⟨_, rfl, ?_, ?_, rfl, ?_⟩
  · simp only [set_finish_finish_bit, and_self, decide_True, Bool.or_true]
  · simp only [set_finish, modify_get, and_self, if_true]
  · intro index hnone
    simp only []
    have p0 : ∀ r c, (m.maze_ r c).path_bit = (m.maze_ r c).path_bit := fun _ _ => rfl
    have p1 := fun r c => scan_corner_path_bit m marks 0 (corner_cells m 0) r c
    have p2 := fun r c => (scan_corner_path_bit (scan_corner m marks 0 (corner_cells m 0)).1
      (scan_corner m marks 0 (corner_cells m 0)).2 1 (corner_cells m 1) r c).trans (p1 r c)
    have p3 := fun r c => (scan_corner_path_bit
      (scan_corner (scan_corner m marks 0 (corner_cells m 0)).1
        (scan_corner m marks 0 (corner_cells m 0)).2 1 (corner_cells m 1)).1
      (scan_corner (scan_corner m marks 0 (corner_cells m 0)).1
        (scan_corner m marks 0 (corner_cells m 0)).2 1 (corner_cells m 1)).2
      2 (corner_cells m 2) r c).trans (p2 r c)
    rw [scan_corner_slot m _ _ 3 index _ p3 (fun e => by subst e; exact hnone),
      scan_corner_slot m _ _ 2 index _ p2 (fun e => by subst e; exact hnone),
      scan_corner_slot m _ _ 1 index _ p1 (fun e => by subst e; exact hnone),
      scan_corner_slot m _ _ 0 index _ p0 (fun e => by subst e; exact hnone)]


/-- C15 (the code at the failing input): the depth first builder on a 9 by 9
grid, with the draws of this run, returns without carving the centre cell
(4, 4); placement in the corners game then does not fail: it returns, having
set the passage flag and the finish flag on that cell and stored it as the
goal. -/
theorem corners_uncarved_centre_designated :
    (run_builder .randomized_depth_first .none (fun n => 63 * n * n + 7 * n + 310) 31
        (construct_walls .randomized_depth_first .none 9 9) 0).2.2 = true
      ∧ ((run_builder .randomized_depth_first .none (fun n => 63 * n * n + 7 * n + 310) 31
        (construct_walls .randomized_depth_first .none 9 9) 0).1.maze_ 4 4).path_bit = false
      ∧ (Thread_maze .randomized_depth_first .none .corners 9 9
          (fun n => 63 * n * n + 7 * n + 310) 31).map
          (fun r => (r.2.1.finish_, (r.1.maze_ 4 4).finish_bit, (r.1.maze_ 4 4).path_bit))
        = some (⟨4, 4⟩, true, true) := by
  decide!

/-! ## Race: every agent returns -/

/-- Every step of a randomized depth first hunt agent that has not returned
lowers the measure. -/
theorem randomized_dfs_thread_hunt_measure (gen : Nat → Nat) (obj : Thread_maze_object)
    (a : Thread_local)
    (ha : Dfs_agent_inv obj.maze a) (hi : Dfs_hunt_inv obj.maze a)
    (hv : a.pc.searching ∨ a.pc = .unwind ∨ a.pc = .returned) (hne : a.pc ≠ .returned) :
    dfs_measure (randomized_dfs_thread_hunt gen obj a).1.maze
        (randomized_dfs_thread_hunt gen obj a).2
      < dfs_measure obj.maze a := by
  have hlen := dfs_potential_length obj.maze a
  unfold randomized_dfs_thread_hunt
  split
  · rename_i hpc
    have hm : dfs_measure obj.maze a = 8 * dfs_potential obj.maze a + 7 := by
      unfold dfs_measure; rw [hpc]
    rw [hm]
    split
    · rename_i hd
      unfold dfs_measure
      simp only [hd, List.length_nil]
      omega
    · rename_i top rest hd
      split_ifs with h1 h2
      · unfold dfs_measure
        simp only []
        omega
      · unfold dfs_measure
        simp only []
        omega
      · have hpot : dfs_potential obj.maze { a with cur := top, pc := .mark }
            = dfs_potential obj.maze a := rfl
        unfold dfs_measure
        simp only [hpot]
        omega
  · rename_i hpc
    have hm : dfs_measure obj.maze a = a.dfs.length + 3 := by
      unfold dfs_measure; rw [hpc]
    rw [hm]
    unfold dfs_measure
    simp only [List.length_tail]
    omega
  · rename_i hpc
    have hm : dfs_measure obj.maze a = 8 * dfs_potential obj.maze a + 6 := by
      unfold dfs_measure; rw [hpc]
    rw [hm]
    have hpot := dfs_potential_mark obj.maze a
      { a with probes := shuffle (gen obj.pos), pc := .probe } rfl rfl
      (ha.top (Or.inl hpc))
    have hsl : (shuffle (gen obj.pos)).length = 4 := (shuffle_perm (gen obj.pos)).length_eq
    unfold dfs_measure
    simp only [hpot, hsl]
    omega
  · rename_i hpc
    exact dfs_probe_measure obj a hpc ha hi
  · rename_i hpc
    exact dfs_unwind_measure obj a hpc
  · rename_i h1 h2 h3 h4 h5
    unfold Thread_pc.searching at hv
    rcases hv with (e | e | e | e) | e | e
    · exact absurd e h1
    · exact absurd e h3
    · exact absurd e h2
    · exact absurd e h4
    · exact absurd e h5
    · exact absurd e hne

theorem thread_step_randomized_dfs_hunt (gen : Nat → Nat) (obj : Thread_maze_object)
    (a : Thread_local) (h : a.function = .randomized_dfs_thread_hunt) :
    thread_step gen obj a = randomized_dfs_thread_hunt gen obj a := by
  unfold thread_step
  rw [h]

/-- Every step of a hunt agent that has not returned lowers its measure. -/
theorem hunt_measure_own (gen : Nat → Nat) (obj : Thread_maze_object) (a : Thread_local)
    (hq : a.racer) (hP : Hunt_race_inv obj a) (hl : Hunt_live a) (hne : a.pc ≠ .returned) :
    hunt_measure (thread_step gen obj a).1.maze (thread_step gen obj a).2
      < hunt_measure obj.maze a := by
  obtain ⟨_, hd, hb, _⟩ := hP
  unfold hunt_measure
  rw [(thread_step_function gen obj a).1]
  rcases hq.1 with e | e | e
  · have hnb : a.function ≠ .bfs_thread_hunt := by rw [e]; decide
    rw [if_neg hnb, if_neg hnb, thread_step_dfs_hunt gen obj a e]
    obtain ⟨h1, h2⟩ := hd (Or.inl e)
    exact dfs_thread_hunt_measure obj a h1 h2 (hl.dfs hnb) hne
  · have hnb : a.function ≠ .bfs_thread_hunt := by rw [e]; decide
    rw [if_neg hnb, if_neg hnb, thread_step_randomized_dfs_hunt gen obj a e]
    obtain ⟨h1, h2⟩ := hd (Or.inr e)
    exact randomized_dfs_thread_hunt_measure gen obj a h1 h2 (hl.dfs hnb) hne
  · rw [if_pos e, if_pos e, thread_step_bfs_hunt gen obj a e]
    exact bfs_thread_hunt_measure obj a (hb e) ⟨hne, hl.alive⟩

theorem dfs_probe_live (obj : Thread_maze_object) (a : Thread_local) (hpc : a.pc = .probe) :
    (dfs_probe obj a).2.pc.searching := by
  unfold dfs_probe Thread_pc.searching
  split
  · exact Or.inl rfl
  · simp only []
    split_ifs
    · exact Or.inl rfl
    · exact Or.inr (Or.inr (Or.inr hpc))

theorem dfs_unwind_live (obj : Thread_maze_object) (a : Thread_local) (hpc : a.pc = .unwind) :
    (dfs_unwind obj a).2.pc = .unwind ∨ (dfs_unwind obj a).2.pc = .returned := by
  unfold dfs_unwind
  split
  · exact Or.inr rfl
  · exact Or.inl hpc

theorem dfs_thread_hunt_live (obj : Thread_maze_object) (a : Thread_local)
    (hv : a.pc.searching ∨ a.pc = .unwind ∨ a.pc = .returned) :
    (dfs_thread_hunt obj a).2.pc.searching ∨ (dfs_thread_hunt obj a).2.pc = .unwind
      ∨ (dfs_thread_hunt obj a).2.pc = .returned := by
  unfold dfs_thread_hunt
  split
  · split
    · exact Or.inr (Or.inl rfl)
    · split_ifs
      · exact Or.inr (Or.inl rfl)
      · exact Or.inl (Or.inr (Or.inr (Or.inl rfl)))
      · exact Or.inl (Or.inr (Or.inl rfl))
  · exact Or.inr (Or.inl rfl)
  · exact Or.inl (Or.inr (Or.inr (Or.inr rfl)))
  · rename_i hpc
    exact Or.inl (dfs_probe_live obj a hpc)
  · rename_i hpc
    exact Or.inr (dfs_unwind_live obj a hpc)
  · exact hv

theorem randomized_dfs_thread_hunt_live (gen : Nat → Nat) (obj : Thread_maze_object)
    (a : Thread_local) (hv : a.pc.searching ∨ a.pc = .unwind ∨ a.pc = .returned) :
    (randomized_dfs_thread_hunt gen obj a).2.pc.searching
      ∨ (randomized_dfs_thread_hunt gen obj a).2.pc = .unwind
      ∨ (randomized_dfs_thread_hunt gen obj a).2.pc = .returned := by
  unfold randomized_dfs_thread_hunt
  split
  · split
    · exact Or.inr (Or.inl rfl)
    · split_ifs
      · exact Or.inr (Or.inl rfl)
      · exact Or.inl (Or.inr (Or.inr (Or.inl rfl)))
      · exact Or.inl (Or.inr (Or.inl rfl))
  · exact Or.inr (Or.inl rfl)
  · exact Or.inl (Or.inr (Or.inr (Or.inr rfl)))
  · rename_i hpc
    exact Or.inl (dfs_probe_live obj a hpc)
  · rename_i hpc
    exact Or.inr (dfs_unwind_live obj a hpc)
  · exact hv

theorem live_of_valid (a : Thread_local)
    (hv : a.pc.searching ∨ a.pc = .unwind ∨ a.pc = .returned) : Hunt_live a := by
  unfold Thread_pc.searching at hv
  refine ⟨fun _ => hv, ?_, ?_⟩
  · intro h
    rw [h] at hv
    rcases hv with (e | e | e | e) | e | e <;> cases e
  · intro h
    rw [h] at hv
    rcases hv with (e | e | e | e) | e | e <;> cases e

/-- The statement `cur = seen.at(cur)` on a key of a tree of parents does not
throw, and the new `cur` is a key again when its row is positive. -/
theorem seen_at_live (m : Maze) (a : Thread_local) (hfun : a.function = .bfs_thread_hunt)
    (hforest : Parent_forest m a.start a.seen)
    (hkey : (a.seen.lookup a.cur).isSome = true) : Hunt_live (seen_at a) := by
  unfold seen_at
  cases hl : a.seen.lookup a.cur with
  | none => rw [hl] at hkey; exact absurd hkey (by decide)
  | some parent =>
    simp only []
    refine ⟨fun h => absurd hfun h, by simp, ?_⟩
    intro _ hrow
    exact forest_parent_key m a.start a.seen hforest a.cur parent hl hrow

theorem bfs_thread_hunt_live (obj : Thread_maze_object) (a : Thread_local)
    (hfun : a.function = .bfs_thread_hunt) (ha : Bfs_agent_inv obj.maze a) (hl : Hunt_live a) :
    Hunt_live (bfs_thread_hunt obj a).2 := by
  have hplain : ∀ b : Thread_local, b.function = .bfs_thread_hunt → b.pc ≠ .threw →
      b.pc ≠ .trace → Hunt_live b :=
    fun b hb h1 h2 => ⟨fun h => absurd hb h, h1, fun h => absurd h h2⟩
  unfold bfs_thread_hunt
  split
  · split
    · exact hplain _ hfun (by simp) (by simp)
    · split_ifs
      · exact hplain _ hfun (by simp) (by simp)
      · exact hplain _ hfun (by simp) (by simp)
      · exact hplain _ hfun (by simp) (by simp)
  · exact hplain _ hfun (by simp) (by simp)
  · exact hplain _ hfun (by simp) (by simp)
  · rename_i hpc
    have hf := (bfs_probe_frame obj a).2.1
    rcases (bfs_probe_local obj a).2 with e | e
    · exact hplain _ (by rw [hf]; exact hfun) (by rw [e]; simp) (by rw [e]; simp)
    · exact hplain _ (by rw [hf]; exact hfun) (by rw [e, hpc]; simp) (by rw [e, hpc]; simp)
  · rename_i hpc
    exact seen_at_live obj.maze a hfun ha.forest (ha.current (Or.inr hpc))
  · rename_i hpc
    split_ifs with hrow
    · exact seen_at_live obj.maze a hfun ha.forest (hl.tracing hpc hrow)
    · exact hplain _ hfun (by simp) (by simp)
  · exact hl

/-- A step of a hunt agent leaves it on its way to the return. -/
theorem hunt_live_own (gen : Nat → Nat) (obj : Thread_maze_object) (a : Thread_local)
    (hq : a.racer) (hP : Hunt_race_inv obj a) (hl : Hunt_live a) :
    Hunt_live (thread_step gen obj a).2 := by
  obtain ⟨_, _, hb, _⟩ := hP
  rcases hq.1 with e | e | e
  · have hnb : a.function ≠ .bfs_thread_hunt := by rw [e]; decide
    rw [thread_step_dfs_hunt gen obj a e]
    exact live_of_valid _ (dfs_thread_hunt_live obj a (hl.dfs hnb))
  · have hnb : a.function ≠ .bfs_thread_hunt := by rw [e]; decide
    rw [thread_step_randomized_dfs_hunt gen obj a e]
    exact live_of_valid _ (randomized_dfs_thread_hunt_live gen obj a (hl.dfs hnb))
  · rw [thread_step_bfs_hunt gen obj a e]
    exact bfs_thread_hunt_live obj a e (hb e) hl

/-- An agent that has returned stays returned. -/
theorem thread_step_returned (gen : Nat → Nat) (obj : Thread_maze_object) (a : Thread_local)
    (h : a.pc = .returned) : (thread_step gen obj a).2.pc = .returned := by
  unfold thread_step
  split
  · unfold dfs_thread_hunt; rw [h]; exact h
  · unfold randomized_dfs_thread_hunt; rw [h]; exact h
  · unfold dfs_thread_gather; rw [h]; exact h
  · unfold randomized_dfs_thread_gather; rw [h]; exact h
  · unfold bfs_thread_hunt; rw [h]; exact h
  · unfold bfs_thread_gather; rw [h]; exact h

theorem unseen_frame (m m1 : Maze) (paint : Nat)
    (hr : m1.maze_row_size_ = m.maze_row_size_) (hc : m1.maze_col_size_ = m.maze_col_size_)
    (hseen : ∀ p, m1.seen_by p paint = m.seen_by p paint) :
    m1.unseen paint = m.unseen paint := by
  have hcells : m1.all_cells = m.all_cells := by unfold Maze.all_cells; rw [hr, hc]
  unfold Maze.unseen
  rw [hcells]
  exact Finset.filter_congr fun p _ => by rw [hseen p]

theorem unkeyed_frame (m m1 : Maze) (seen : List (Point × Point))
    (hr : m1.maze_row_size_ = m.maze_row_size_) (hc : m1.maze_col_size_ = m.maze_col_size_) :
    m1.unkeyed seen = m.unkeyed seen := by
  have hcells : m1.all_cells = m.all_cells := by unfold Maze.all_cells; rw [hr, hc]
  unfold Maze.unkeyed
  rw [hcells]

/-- The measure of an agent reads the extents of the grid and the seen flags of
the agent only. -/
theorem hunt_measure_frame (m m1 : Maze) (a : Thread_local)
    (hr : m1.maze_row_size_ = m.maze_row_size_) (hc : m1.maze_col_size_ = m.maze_col_size_)
    (hseen : ∀ p, m1.seen_by p a.paint = m.seen_by p a.paint) :
    hunt_measure m1 a = hunt_measure m a := by
  unfold hunt_measure bfs_measure dfs_measure dfs_potential
  rw [unseen_frame m m1 a.paint hr hc hseen, unkeyed_frame m m1 a.seen hr hc]

/-- The step of another agent leaves the measure of an agent as it is. -/
theorem hunt_measure_other (gen : Nat → Nat) (obj : Thread_maze_object) (a b : Thread_local)
    (i j : Nat) (hi : a.paint = thread_masks_ i) (hj : b.paint = thread_masks_ j) (hne : i ≠ j) :
    hunt_measure (thread_step gen obj b).1.maze a = hunt_measure obj.maze a := by
  have hstep := thread_step_maze gen obj b
  rw [hj] at hstep
  refine hunt_measure_frame _ _ a hstep.1 hstep.2.1 ?_
  intro p
  rw [hi]
  exact maze_step_seen_other i j hne _ _ hstep p

theorem step_get_other (gen : Nat → Nat) (s : Solve_state) (i j : Nat) (hne : j ≠ i) :
    (s.step gen j).threads.get? i = s.threads.get? i := by
  unfold Solve_state.step
  cases hb : s.threads.get? j with
  | none => rfl
  | some b =>
    simp only [List.get?_eq_getElem?]
    exact List.getElem?_set_ne hne

/-- The race invariant together with the liveness of every agent holds after a
step of any agent. -/
theorem step_race_live (gen : Nat → Nat) (s : Solve_state) (hidx : s.indexed)
    (hall : ∀ i a, s.threads.get? i = some a →
      a.racer ∧ (Hunt_race_inv s.obj a ∧ Hunt_live a)) (j : Nat) :
    ∀ i a, (s.step gen j).threads.get? i = some a →
      a.racer ∧ (Hunt_race_inv (s.step gen j).obj a ∧ Hunt_live a) :=
  step_lift gen (fun o b => Hunt_race_inv o b ∧ Hunt_live b) Thread_local.racer
    (fun o b hb => racer_step gen o b hb)
    (fun o b hb hP => ⟨hunt_race_inv_own gen o b hb hP.1, hunt_live_own gen o b hb hP.1 hP.2⟩)
    (fun o b c hb hc hne hP => ⟨hunt_race_inv_other gen o b c hb hc hne hP.1, hP.2⟩)
    s hidx hall j

/-- Along every interleaving, an agent that has not returned has lowered its
measure by at least the number of its own steps; an agent that has returned
stays returned. -/
theorem run_hunt_measure (gen : Nat → Nat) (schedule : List Nat) (s : Solve_state)
    (hidx : s.indexed)
    (hall : ∀ i a, s.threads.get? i = some a →
      a.racer ∧ (Hunt_race_inv s.obj a ∧ Hunt_live a))
    (i : Nat) (a0 : Thread_local) (h0 : s.threads.get? i = some a0) :
    ∃ a, (s.run gen schedule).threads.get? i = some a
      ∧ (a0.pc = .returned → a.pc = .returned)
      ∧ (a.pc = .returned
          ∨ hunt_measure (s.run gen schedule).obj.maze a + schedule.count i
              ≤ hunt_measure s.obj.maze a0) := by
  induction schedule generalizing s a0 with
  | nil => exact ⟨a0, h0, fun h => h, Or.inr (by simp [Solve_state.run])⟩
  | cons j rest ih =>
    have hidx1 := step_indexed gen s j hidx
    have hall1 := step_race_live gen s hidx hall j
    have hrun : s.run gen (j :: rest) = (s.step gen j).run gen rest := rfl
    rw [hrun]
    by_cases hji : j = i
    · subst hji
      obtain ⟨hobj, hget⟩ := step_get gen s j a0 h0
      obtain ⟨a, ha, hret, hm⟩ := ih (s.step gen j) hidx1 hall1 _ hget
      refine ⟨a, ha, fun h => hret (thread_step_returned gen s.obj a0 h), ?_⟩
      by_cases hr : a0.pc = .returned
      · exact Or.inl (hret (thread_step_returned gen s.obj a0 hr))
      · rcases hm with hm | hm
        · exact Or.inl hm
        · right
          obtain ⟨hq, hP, hl⟩ := hall j a0 h0
          have hlt := hunt_measure_own gen s.obj a0 hq hP hl hr
          rw [hobj] at hm
          rw [List.count_cons_self]
          omega
    · have hget : (s.step gen j).threads.get? i = some a0 := by
        rw [step_get_other gen s i j hji]; exact h0
      obtain ⟨a, ha, hret, hm⟩ := ih (s.step gen j) hidx1 hall1 _ hget
      refine ⟨a, ha, hret, ?_⟩
      rcases hm with hm | hm
      · exact Or.inl hm
      · right
        rw [List.count_cons_of_ne (fun e => hji e.symm)]
        have hsame : hunt_measure (s.step gen j).obj.maze a0 = hunt_measure s.obj.maze a0 := by
          cases hb : s.threads.get? j with
          | none =>
            have e : s.step gen j = s := by unfold Solve_state.step; rw [hb]
            rw [e]
          | some b =>
            rw [(step_get gen s j b hb).1]
            exact hunt_measure_other gen s.obj a0 b i j (hidx i a0 h0).2 (hidx j b hb).2
              (fun e => hji e.symm)
        rw [hsame] at hm
        exact hm

theorem all_cells_length (m : Maze) :
    m.all_cells.length = m.maze_row_size_.toNat * m.maze_col_size_.toNat := by
  unfold Maze.all_cells
  have : ∀ l : List Nat, (l.flatMap fun (r : Nat) =>
      (List.range m.maze_col_size_.toNat).map fun (c : Nat) => (⟨r, c⟩ : Point)).length
        = l.length * m.maze_col_size_.toNat := by
    intro l
    induction l with
    | nil => simp
    | cons x xs ih =>
      simp only [List.flatMap_cons, List.length_append, List.length_map, List.length_range,
        List.length_cons, ih]
      rw [Nat.succ_mul]
      omega
  rw [this, List.length_range]

theorem filter_cells_card (m : Maze) (p : Point → Prop) [DecidablePred p] :
    (m.all_cells.toFinset.filter p).card
      ≤ m.maze_row_size_.toNat * m.maze_col_size_.toNat := by
  rw [← all_cells_length m]
  exact (Finset.card_filter_le _ _).trans (List.toFinset_card_le _)

/-- The measure of an agent as its thread starts it lies below the bound. -/
theorem spawn_measure (m : Maze) (function : Thread_function) (start : Point) (i : Nat) :
    hunt_measure m (spawn function start i) < hunt_bound m := by
  have h1 := filter_cells_card m fun p => m.seen_by p (thread_masks_ i) = false
  have h2 := filter_cells_card m fun p =>
    (List.lookup p [(start, (⟨-1, -1⟩ : Point))]).isNone = true
  have h3 : ((m.all_cells.toFinset.filter fun p =>
      m.seen_by p (thread_masks_ i) = false).erase start).card
      ≤ m.maze_row_size_.toNat * m.maze_col_size_.toNat :=
    (Finset.card_erase_le).trans h1
  unfold hunt_bound hunt_measure
  cases function <;>
    simp only [spawn, bfs_measure, dfs_measure, dfs_potential, Maze.unseen, Maze.unkeyed,
      List.length_cons, List.length_nil, reduceCtorEq, if_false, if_true] <;> omega

theorem spawn_live (function : Thread_function) (start : Point) (i : Nat) :
    Hunt_live (spawn function start i) := by
  refine live_of_valid _ (Or.inl (Or.inl ?_))
  unfold spawn
  split <;> rfl

/-- Every agent of a hunt or corners solve on a fresh object has returned once
each has taken `hunt_bound` steps, in whatever order the steps come. -/
theorem hunt_race_joins (solver : Solver_algorithm) (gen : Nat → Nat)
    (obj : Thread_maze_object) (schedule : List Nat)
    (hgame : obj.game_ ≠ .gather) (hslot : obj.escape_path_index_ = -1)
    (hring : Perimeter_closed obj.maze)
    (hstarts : ∀ b ∈ (solve_begin solver gen obj).threads,
      obj.maze.within_perimeter b.start.row b.start.col)
    (hclear : ∀ p i, obj.maze.seen_by p (thread_masks_ i) = false)
    (hfair : ∀ i, i < num_threads_ → hunt_bound obj.maze ≤ schedule.count i) :
    ((solve_begin solver gen obj).run gen schedule).joined = true := by
  have hidx0 := solve_begin_indexed solver gen obj
  have hinit := solve_begin_race_inv solver gen obj hgame hslot hring hstarts hclear
  have hlive : ∀ i a, (solve_begin solver gen obj).threads.get? i = some a →
      a.racer ∧ (Hunt_race_inv (solve_begin solver gen obj).obj a ∧ Hunt_live a) := by
    intro i a ha
    obtain ⟨start, hsp⟩ := solve_begin_threads solver gen obj i a ha
    refine ⟨(hinit i a ha).1, (hinit i a ha).2, ?_⟩
    rw [hsp]
    exact spawn_live _ _ _
  obtain ⟨e1, _, _⟩ := solve_begin_fresh solver gen obj hslot
  unfold Solve_state.joined
  rw [List.all_eq_true]
  intro a ha
  obtain ⟨j, hj⟩ := List.get?_of_mem ha
  obtain ⟨a0, h0, _⟩ := (run_starts gen schedule (solve_begin solver gen obj) j).2.2 a hj
  obtain ⟨a1, h1, _, hm⟩ :=
    run_hunt_measure gen schedule (solve_begin solver gen obj) hidx0 hlive j a0 h0
  rw [hj] at h1
  simp only [Option.some.injEq] at h1
  subst h1
  rcases hm with hm | hm
  · exact decide_eq_true hm
  · exfalso
    obtain ⟨start, hsp⟩ := solve_begin_threads solver gen obj j a0 h0
    have hb := spawn_measure obj.maze (agent_function solver obj.game_) start j
    rw [← hsp, ← e1] at hb
    have hlt : j < num_threads_ := by
      rw [← solve_begin_length solver gen obj]
      simp only [List.get?_eq_getElem?] at h0
      exact (List.getElem?_eq_some.mp h0).1
    have hf := hfair j hlt
    rw [e1] at hb hm
    have hbound : hunt_bound (solve_begin solver gen obj).obj.maze = hunt_bound obj.maze := by
      rw [e1]
    omega

/-- The results of the agents of a hunt or corners solve on a fresh object once
all have returned: one winner when a goal can be reached from the start of some
agent, none when no agent can reach a goal. -/
theorem hunt_race_results (solver : Solver_algorithm) (gen : Nat → Nat)
    (obj : Thread_maze_object) (schedule : List Nat)
    (hgame : obj.game_ ≠ .gather) (hslot : obj.escape_path_index_ = -1)
    (hring : Perimeter_closed obj.maze)
    (hstarts : ∀ b ∈ (solve_begin solver gen obj).threads,
      obj.maze.within_perimeter b.start.row b.start.col)
    (hclear : ∀ p i, obj.maze.seen_by p (thread_masks_ i) = false)
    (hjoined : ((solve_begin solver gen obj).run gen schedule).joined = true) :
    ((solve_begin solver gen obj).run gen schedule).threads.length = num_threads_
      ∧ ((∃ b ∈ (solve_begin solver gen obj).threads, obj.maze.goal_reachable b.start) →
          ∃ k a, ((solve_begin solver gen obj).run gen schedule).threads.get? k = some a
            ∧ a.result = true
            ∧ ∀ j b, ((solve_begin solver gen obj).run gen schedule).threads.get? j = some b →
                b.result = true → j = k)
      ∧ ((∀ b ∈ (solve_begin solver gen obj).threads, ¬ obj.maze.goal_reachable b.start) →
          ∀ a ∈ ((solve_begin solver gen obj).run gen schedule).threads, a.result = false) := by
  have hidx0 := solve_begin_indexed solver gen obj
  have hinit := solve_begin_race_inv solver gen obj hgame hslot hring hstarts hclear
  have hall := run_lift gen Hunt_race_inv Thread_local.racer
    (fun o b hb => racer_step gen o b hb)
    (fun o b hb hP => hunt_race_inv_own gen o b hb hP)
    (fun o b c hb hc hne hP => hunt_race_inv_other gen o b c hb hc hne hP)
    schedule (solve_begin solver gen obj) hidx0 hinit
  have hidx := run_indexed gen schedule _ hidx0
  obtain ⟨hpath, hfin⟩ := run_maze_static gen schedule (solve_begin solver gen obj)
  obtain ⟨e1, _, e3⟩ := solve_begin_fresh solver gen obj hslot
  rw [e1] at hpath hfin
  have hreach := fun start =>
    goal_reachable_frame obj.maze ((solve_begin solver gen obj).run gen schedule).obj.maze
      hpath hfin start
  have hnb : ∀ a ∈ (solve_begin solver gen obj).threads, a.function ≠ .bfs_thread_gather := by
    intro a ha
    obtain ⟨i, hi⟩ := List.get?_of_mem ha
    exact hunts_not_gather _ (hinit i a hi).1.1
  have howner := run_owner gen schedule (solve_begin solver gen obj) hnb hidx0 (Or.inl e3)
  have hstartsrun := run_starts gen schedule (solve_begin solver gen obj)
  have hret : ∀ a ∈ ((solve_begin solver gen obj).run gen schedule).threads,
      a.pc = .returned := by
    intro a ha
    unfold Solve_state.joined at hjoined
    rw [List.all_eq_true] at hjoined
    exact of_decide_eq_true (hjoined a ha)
  generalize (solve_begin solver gen obj).run gen schedule = s at *
  have huniq : ∀ k a, s.threads.get? k = some a → a.result = true →
      ∀ j b, s.threads.get? j = some b → b.result = true → j = k := by
    intro k a ha hra j b hb hrb
    have h1 := (hall k a ha).2.2.2.2.winner.1 hra
    have h2 := (hall j b hb).2.2.2.2.winner.1 hrb
    rw [(hidx k a ha).1] at h1
    rw [(hidx j b hb).1, h1] at h2
    exact (Int.ofNat.inj h2).symm
  refine ⟨by rw [(hstartsrun 0).1]; exact solve_begin_length solver gen obj, ?_, ?_⟩
  · rintro ⟨b0, hb0, hgoal⟩
    obtain ⟨i, hi⟩ := List.get?_of_mem hb0
    obtain ⟨a, ha, hs⟩ := (hstartsrun i).2.1 b0 hi
    have hrace := (hall i a ha).2.2.2.2
    have hns : ¬ a.pc.searching := by
      rw [hret a (List.get?_mem ha)]
      exact not_searching_returned
    rcases hrace.done hns with h | h | h
    · exact ⟨i, a, ha, h, huniq i a ha h⟩
    · rcases howner with e | ⟨k, hk, e⟩
      · exact absurd e h
      · have hget : s.threads.get? k = some (s.threads.get ⟨k, hk⟩) := List.get?_eq_get hk
        have hw := (hall k _ hget).2.2.2.2.winner.2 (by rw [e, (hidx k _ hget).1])
        exact ⟨k, _, hget, hw, huniq k _ hget hw⟩
    · rw [hs] at h
      exact absurd ((hreach b0.start).2 hgoal) h
  · intro hnone a ha
    obtain ⟨j, hj⟩ := List.get?_of_mem ha
    cases hr : a.result with
    | false => rfl
    | true =>
      obtain ⟨a0, h0, hs⟩ := (hstartsrun j).2.2 a hj
      have := (hall j a hj).2.2.2.2.sound hr
      rw [hs] at this
      exact absurd ((hreach a0.start).1 this) (hnone a0 (List.get?_mem h0))

/-- In the round robin schedule of `n` rounds every agent takes `n` steps. -/
theorem round_robin_count (n i : Nat) (h : i < num_threads_) :
    ((List.replicate n [0, 1, 2, 3]).flatten).count i = n := by
  induction n with
  | zero => rfl
  | succ k ih =>
    rw [List.replicate_succ, List.flatten_cons, List.count_append, ih]
    unfold num_threads_ at h
    interval_cases i <;> simp <;> omega

/-- C21: in a hunt or corners solve (depth first, randomized depth first or
breadth first) that starts from a fresh object (slot -1, no seen flag set) on a
grid with a closed ring and starts within the perimeter, under every
interleaving.  All four agents return: once each agent has taken
`hunt_bound` steps (16 times the number of cells, plus 16), in whatever order
the steps of the agents come, every agent has returned.  And at every point
where all four have returned: when a goal can be reached from the start of at
least one agent, exactly one agent has the result success; when no agent can
reach a goal, no agent has. -/
theorem hunt_race_one_winner (solver : Solver_algorithm) (gen : Nat → Nat)
    (obj : Thread_maze_object) (schedule : List Nat)
    (hgame : obj.game_ ≠ .gather) (hslot : obj.escape_path_index_ = -1)
    (hring : Perimeter_closed obj.maze)
    (hstarts : ∀ b ∈ (solve_begin solver gen obj).threads,
      obj.maze.within_perimeter b.start.row b.start.col)
    (hclear : ∀ p i, obj.maze.seen_by p (thread_masks_ i) = false) :
    ((∀ i, i < num_threads_ → hunt_bound obj.maze ≤ schedule.count i) →
        ((solve_begin solver gen obj).run gen schedule).joined = true)
      ∧ (((solve_begin solver gen obj).run gen schedule).joined = true →
        ((solve_begin solver gen obj).run gen schedule).threads.length = num_threads_
        ∧ ((∃ b ∈ (solve_begin solver gen obj).threads, obj.maze.goal_reachable b.start) →
            ∃ k a, ((solve_begin solver gen obj).run gen schedule).threads.get? k = some a
              ∧ a.result = true
              ∧ ∀ j b, ((solve_begin solver gen obj).run gen schedule).threads.get? j = some b →
                  b.result = true → j = k)
        ∧ ((∀ b ∈ (solve_begin solver gen obj).threads, ¬ obj.maze.goal_reachable b.start) →
            ∀ a ∈ ((solve_begin solver gen obj).run gen schedule).threads,
              a.result = false)) :=
  ⟨hunt_race_joins solver gen obj schedule hgame hslot hring hstarts hclear,
    hunt_race_results solver gen obj schedule hgame hslot hring hstarts hclear⟩

theorem hunt_race_one_winner_witness :
    (((solve_begin .depth_first_search (fun n => n)
      { builder_ := .arena, modification_ := .none, solver_ := .depth_first_search,
        game_ := .hunt,
        maze := { maze_row_size_ := 7, maze_col_size_ := 7,
                  maze_ := fun r c => if r = 1 ∧ 1 ≤ c ∧ c ≤ 3 then
                    { path_bit := true, finish_bit := decide (c = 3) } else {} },
        marks := { start_ := ⟨1, 1⟩ }, thread_paths_ := [[], [], [], []],
        escape_path_index_ := -1, pos := 0 }).run (fun n => n)
      (List.replicate 800 [0, 1, 2, 3]).flatten).joined = true
      ∧ ∃ k a, ((solve_begin .depth_first_search (fun n => n)
      { builder_ := .arena, modification_ := .none, solver_ := .depth_first_search,
        game_ := .hunt,
        maze := { maze_row_size_ := 7, maze_col_size_ := 7,
                  maze_ := fun r c => if r = 1 ∧ 1 ≤ c ∧ c ≤ 3 then
                    { path_bit := true, finish_bit := decide (c = 3) } else {} },
        marks := { start_ := ⟨1, 1⟩ }, thread_paths_ := [[], [], [], []],
        escape_path_index_ := -1, pos := 0 }).run (fun n => n)
      (List.replicate 800 [0, 1, 2, 3]).flatten).threads.get? k = some a
          ∧ a.result = true
          ∧ ∀ j b, ((solve_begin .depth_first_search (fun n => n)
      { builder_ := .arena, modification_ := .none, solver_ := .depth_first_search,
        game_ := .hunt,
        maze := { maze_row_size_ := 7, maze_col_size_ := 7,
                  maze_ := fun r c => if r = 1 ∧ 1 ≤ c ∧ c ≤ 3 then
                    { path_bit := true, finish_bit := decide (c = 3) } else {} },
        marks := { start_ := ⟨1, 1⟩ }, thread_paths_ := [[], [], [], []],
        escape_path_index_ := -1, pos := 0 }).run (fun n => n)
      (List.replicate 800 [0, 1, 2, 3]).flatten).threads.get? j = some b →
              b.result = true → j = k)
    ∧ (((solve_begin .breadth_first_search (fun n => n)
      { builder_ := .arena, modification_ := .none, solver_ := .breadth_first_search,
        game_ := .hunt,
        maze := { maze_row_size_ := 7, maze_col_size_ := 7,
                  maze_ := fun r c => if r = 1 ∧ 1 ≤ c ∧ c ≤ 3 then
                    { path_bit := true } else {} },
        marks := { start_ := ⟨1, 1⟩ }, thread_paths_ := [[], [], [], []],
        escape_path_index_ := -1, pos := 0 }).run (fun n => n)
      (List.replicate 800 [0, 1, 2, 3]).flatten).joined = true
      ∧ ∀ a ∈ ((solve_begin .breadth_first_search (fun n => n)
      { builder_ := .arena, modification_ := .none, solver_ := .breadth_first_search,
        game_ := .hunt,
        maze := { maze_row_size_ := 7, maze_col_size_ := 7,
                  maze_ := fun r c => if r = 1 ∧ 1 ≤ c ∧ c ≤ 3 then
                    { path_bit := true } else {} },
        marks := { start_ := ⟨1, 1⟩ }, thread_paths_ := [[], [], [], []],
        escape_path_index_ := -1, pos := 0 }).run (fun n => n)
      (List.replicate 800 [0, 1, 2, 3]).flatten).threads, a.result = false) := by
  have h1 := hunt_race_one_winner .depth_first_search (fun n => n)
    { builder_ := .arena, modification_ := .none, solver_ := .depth_first_search,
        game_ := .hunt,
        maze := { maze_row_size_ := 7, maze_col_size_ := 7,
                  maze_ := fun r c => if r = 1 ∧ 1 ≤ c ∧ c ≤ 3 then
                    { path_bit := true, finish_bit := decide (c = 3) } else {} },
        marks := { start_ := ⟨1, 1⟩ }, thread_paths_ := [[], [], [], []],
        escape_path_index_ := -1, pos := 0 }
    (List.replicate 800 [0, 1, 2, 3]).flatten
    (by decide) rfl
    (fun row col h => by
      unfold Maze.on_ring Maze.in_array at h
      unfold Maze.path
      simp only [] at h ⊢
      rw [if_neg]
      omega)
    (by decide!)
    (fun p i => by
      unfold Maze.seen_by
      simp only []
      split_ifs <;> simp)
  have h0 := hunt_race_one_winner .breadth_first_search (fun n => n)
    { builder_ := .arena, modification_ := .none, solver_ := .breadth_first_search,
        game_ := .hunt,
        maze := { maze_row_size_ := 7, maze_col_size_ := 7,
                  maze_ := fun r c => if r = 1 ∧ 1 ≤ c ∧ c ≤ 3 then
                    { path_bit := true } else {} },
        marks := { start_ := ⟨1, 1⟩ }, thread_paths_ := [[], [], [], []],
        escape_path_index_ := -1, pos := 0 }
    (List.replicate 800 [0, 1, 2, 3]).flatten
    (by decide) rfl
    (fun row col h => by
      unfold Maze.on_ring Maze.in_array at h
      unfold Maze.path
      simp only [] at h ⊢
      rw [if_neg]
      omega)
    (by decide!)
    (fun p i => by
      unfold Maze.seen_by
      simp only []
      split_ifs <;> simp)
  have hj1 := h1.1 fun i hi => by rw [round_robin_count 800 i hi]; decide
  have hj0 := h0.1 fun i hi => by rw [round_robin_count 800 i hi]; decide
  refine ⟨⟨hj1, (h1.2 hj1).2.1 ⟨spawn .dfs_thread_hunt ⟨1, 1⟩ 0, by decide!, ?_⟩⟩,
    ⟨hj0, (h0.2 hj0).2.2 ?_⟩⟩
  · refine ⟨⟨1, 3⟩, rfl, ?_⟩
    have s1 : Maze.search_step
        { maze_row_size_ := 7, maze_col_size_ := 7,
          maze_ := fun r c => if r = 1 ∧ 1 ≤ c ∧ c ≤ 3 then
            { path_bit := true, finish_bit := decide (c = 3) } else {} }
        ⟨1, 1⟩ ⟨1, 2⟩ := ⟨⟨⟨0, 1⟩, by decide, rfl⟩, rfl⟩
    have s2 : Maze.search_step
        { maze_row_size_ := 7, maze_col_size_ := 7,
          maze_ := fun r c => if r = 1 ∧ 1 ≤ c ∧ c ≤ 3 then
            { path_bit := true, finish_bit := decide (c = 3) } else {} }
        ⟨1, 2⟩ ⟨1, 3⟩ := ⟨⟨⟨0, 1⟩, by decide, rfl⟩, rfl⟩
    exact (Relation.ReflTransGen.single s1).tail s2
  · rintro b _ ⟨g, hg, _⟩
    simp only [] at hg
    split_ifs at hg

end ThreadMaze
